import Mathlib


/-!
# A shallow embedding of the CDCL core of minisat-SymSp (`minisat/core/Solver.cc`)

The solver object is a record `Solver`; every member function of `Solver.cc` that the
theorems below speak about is a Lean function on that record.

Conventions of the embedding.

* A literal is the natural number `2 * var + sign` (`mkLit`); `lit_Undef` and `CRef_Undef`
  are `none` of an `Option`.
* `vec<T>` members that are indexed by a variable, a literal or a clause reference are total
  functions; `vec<T>` members that are used as stacks or sequences are lists (index `0` first).
* A call that does not return normally is `none`: an `assert` of the source that fails, an
  access outside a vector that the source does not guard, or a loop that needs more
  iterations than the `fuel` argument allows.  All theorems quantify over `fuel`.
* `double` and `float` quantities (activities, increments, limits) are exact rationals.
* The embedding is the solver without registered symmetries and without the external
  symmetry-order hook (`symmetries.size() == 0`, `symmetry == nullptr`): loops over
  `symmetries` and over `watcherSymmetries[l]` have no iteration and the hook calls are
  skipped.  The clause flags `symmetry`, `fsymmetry`, the compatibility set and
  `symmetry_units` are part of the state and are maintained as in the source.
* Output on `verbosity >= 1` and the statistic `progress_estimate` are not modelled.
-/

namespace Minisat

/-! ## Literals, truth values (`SolverTypes.h`) -/

abbrev Var := Nat
abbrev Lit := Nat
abbrev CRef := Nat

/-- Modelled from the spec: `SolverTypes.h` is not among the sources; section 3: a literal
is `2v + sign`, sign `0` is positive. -/
def mkLit (v : Nat) (sgn : Bool) : Nat := v + v + (if sgn then 1 else 0)

/-- Modelled from the spec: the variable of a literal (`SolverTypes.h`, section 4.1). -/
def var (p : Nat) : Nat := p / 2

/-- Modelled from the spec: the sign of a literal, `true` for a negative literal. -/
def sign (p : Nat) : Bool := decide (p % 2 = 1)

/-- Modelled from the spec: `~l = l XOR 1` (section 3). -/
def neg (p : Nat) : Nat := if p % 2 = 0 then p + 1 else p - 1

/-- Modelled from the spec: the three truth values of section 3. -/
inductive lbool where
  | l_True
  | l_False
  | l_Undef
  deriving DecidableEq, Repr

open lbool

/-- Modelled from the spec: `lbool(bool)`. -/
def lbool.ofBool (b : Bool) : lbool := if b then l_True else l_False

/-- Modelled from the spec: `b ^ sign`, negation that leaves `l_Undef` fixed (section 3). -/
def lbool.xorSign (b : lbool) (sgn : Bool) : lbool :=
  match b, sgn with
  | l_True, true => l_False
  | l_False, true => l_True
  | b, _ => b

/-! ## Clauses and the clause arena (`SolverTypes.h`) -/

/-- Modelled from the spec: the clause record of section 3 (`SolverTypes.h` is not among the
sources).  `mark = 1` is a removed clause; `reloced` and `relocation` are the forwarding
reference written by `ClauseAllocator::reloc`. -/
structure Clause where
  lits : List Lit
  learnt : Bool
  fsymmetry : Bool
  symmetry : Bool
  scompat : Option (List Nat)
  activity : ℚ
  mark : Nat
  reloced : Bool
  relocation : CRef

/-- The literal `c[i]`. -/
def Clause.get (c : Clause) (i : Nat) : Lit := c.lits.getD i 0

def Clause.size (c : Clause) : Nat := c.lits.length

/-- Modelled from the spec: the number of 32-bit words of a clause (section 4.2: a header
followed by the literal array; learnt clauses carry one more word for the activity). -/
def clauseWord32Size (size : Nat) (has_extra : Bool) : Nat :=
  1 + size + (if has_extra then 1 else 0)

/-- Modelled from the spec: the arena of section 4.2.  `cl` is the memory, read at an
offset; `size` is the number of words allocated; `wasted` the number of freed words. -/
structure ClauseAllocator where
  cl : CRef → Clause
  size : Nat
  wasted : Nat

def emptyClause : Clause :=
  { lits := [], learnt := false, fsymmetry := false, symmetry := false, scompat := none,
    activity := 0, mark := 0, reloced := false, relocation := 0 }

/-- Modelled from the spec: `ca.alloc(lits, learnt, first_sym, sym, compat)` (section 4.2):
the new clause is placed at the end of the arena and its offset is returned. -/
def ClauseAllocator.alloc (ca : ClauseAllocator) (ps : List Lit) (learnt fsym sym : Bool)
    (compat : Option (List Nat)) : CRef × ClauseAllocator :=
  (ca.size,
   { cl := Function.update ca.cl ca.size
       { lits := ps, learnt := learnt, fsymmetry := fsym, symmetry := sym, scompat := compat,
         activity := 0, mark := 0, reloced := false, relocation := 0 },
     size := ca.size + clauseWord32Size ps.length learnt,
     wasted := ca.wasted })

/-- Modelled from the spec: `ca.free(cref)` (section 4.2): the words of the clause are
counted as wasted; the memory is not reclaimed. -/
def ClauseAllocator.free (ca : ClauseAllocator) (cr : CRef) : ClauseAllocator :=
  { ca with wasted := ca.wasted + clauseWord32Size (ca.cl cr).size (ca.cl cr).learnt }

/-- A watcher `(cref, blocker)`. -/
structure Watcher where
  cref : CRef
  blocker : Lit
  deriving DecidableEq, Repr

/-- The pair `(reason, level)` kept per variable. -/
structure VarData where
  reason : Option CRef
  level : Nat
  deriving DecidableEq, Repr

def mkVarData (cr : Option CRef) (l : Nat) : VarData := { reason := cr, level := l }

/-! ## The solver object (`Solver.h`, constructor in `Solver.cc` lines 66-123) -/

/-- Modelled from the spec: the members of `class Solver` (`Solver.h` is not among the
sources) that `Solver.cc` reads or writes. -/
structure Solver where
  -- parameters
  var_decay : ℚ
  clause_decay : ℚ
  random_var_freq : ℚ
  random_seed : Nat
  luby_restart : Bool
  ccmin_mode : Nat
  phase_saving : Nat
  rnd_pol : Bool
  rnd_init_act : Bool
  garbage_frac : ℚ
  restart_first : Nat
  restart_inc : ℚ
  learntsize_factor : ℚ
  learntsize_inc : ℚ
  learntsize_adjust_start_confl : Nat
  learntsize_adjust_inc : ℚ
  -- statistics
  max_decision_level : Nat
  solves : Nat
  starts : Nat
  decisions : Nat
  rnd_decisions : Nat
  propagations : Nat
  conflicts : Nat
  dec_vars : Nat
  num_clauses : Nat
  num_learnts : Nat
  clauses_literals : Nat
  learnts_literals : Nat
  max_literals : Nat
  tot_literals : Nat
  -- results
  model : List lbool
  conflict : List Lit
  -- solver state
  ok : Bool
  ca : ClauseAllocator
  clauses : List CRef
  learnts : List CRef
  watches : Lit → List Watcher
  dirty : Lit → Bool
  dirties : List Lit
  assigns : Var → lbool
  polarity : Var → Bool
  user_pol : Var → lbool
  decision : Var → Bool
  decisionVars : Var → Bool
  vardata : Var → VarData
  activity : Var → ℚ
  seen : Var → Nat
  trail : List Lit
  trail_lim : List Nat
  qhead : Nat
  simpDB_assigns : Int
  simpDB_props : Int
  order_heap : List Var
  released_vars : List Var
  free_vars : List Var
  next_var : Nat
  assumptions : List Lit
  analyze_toclear : List Lit
  symmetry_units : List Var
  cla_inc : ℚ
  var_inc : ℚ
  max_learnts : ℚ
  learntsize_adjust_confl : ℚ
  learntsize_adjust_cnt : Int
  remove_satisfied : Bool
  conflict_budget : Int
  propagation_budget : Int
  asynch_interrupt : Bool

/-- The state built by `Solver::Solver()` (lines 66-123) with the default option values of
lines 43-59. -/
def Solver.init : Solver :=
  { var_decay := 95 / 100, clause_decay := 999 / 1000, random_var_freq := 0,
    random_seed := 91648253, luby_restart := true, ccmin_mode := 2, phase_saving := 2,
    rnd_pol := false, rnd_init_act := false, garbage_frac := 20 / 100,
    restart_first := 100, restart_inc := 2, learntsize_factor := 1 / 3,
    learntsize_inc := 11 / 10, learntsize_adjust_start_confl := 100,
    learntsize_adjust_inc := 3 / 2,
    max_decision_level := 0, solves := 0, starts := 0, decisions := 0, rnd_decisions := 0,
    propagations := 0, conflicts := 0, dec_vars := 0, num_clauses := 0, num_learnts := 0,
    clauses_literals := 0, learnts_literals := 0, max_literals := 0, tot_literals := 0,
    model := [], conflict := [],
    ok := true,
    ca := { cl := fun _ => emptyClause, size := 0, wasted := 0 },
    clauses := [], learnts := [],
    watches := fun _ => [], dirty := fun _ => false, dirties := [],
    assigns := fun _ => l_Undef, polarity := fun _ => true, user_pol := fun _ => l_Undef,
    decision := fun _ => false, decisionVars := fun _ => false,
    vardata := fun _ => mkVarData none 0, activity := fun _ => 0, seen := fun _ => 0,
    trail := [], trail_lim := [], qhead := 0, simpDB_assigns := -1, simpDB_props := 0,
    order_heap := [], released_vars := [], free_vars := [], next_var := 0,
    assumptions := [], analyze_toclear := [], symmetry_units := [],
    cla_inc := 1, var_inc := 1, max_learnts := 0, learntsize_adjust_confl := 0,
    learntsize_adjust_cnt := 0, remove_satisfied := true,
    conflict_budget := -1, propagation_budget := -1, asynch_interrupt := false }

/-! ## Elementary state updates

Every member function below is a composition of these updates, each of which writes the
fields named in its body and no other. -/

def setLits (s : Solver) (cr : CRef) (ls : List Lit) : Solver :=
  { s with ca := { s.ca with cl := Function.update s.ca.cl cr { s.ca.cl cr with lits := ls } } }

def setActivity (s : Solver) (cr : CRef) (a : ℚ) : Solver :=
  { s with ca := { s.ca with cl := Function.update s.ca.cl cr { s.ca.cl cr with activity := a } } }

def setMark (s : Solver) (cr : CRef) (m : Nat) : Solver :=
  { s with ca := { s.ca with cl := Function.update s.ca.cl cr { s.ca.cl cr with mark := m } } }

def setCa (s : Solver) (ca : ClauseAllocator) : Solver := { s with ca := ca }

def pushWatch (s : Solver) (l : Lit) (w : Watcher) : Solver :=
  { s with watches := Function.update s.watches l (s.watches l ++ [w]) }

def setWatches (s : Solver) (l : Lit) (ws : List Watcher) : Solver :=
  { s with watches := Function.update s.watches l ws }

def setQhead (s : Solver) (q : Nat) : Solver := { s with qhead := q }

def setOk (s : Solver) (b : Bool) : Solver := { s with ok := b }

def setSeen (s : Solver) (x : Var) (n : Nat) : Solver :=
  { s with seen := Function.update s.seen x n }

def pushToclear (s : Solver) (l : Lit) : Solver :=
  { s with analyze_toclear := s.analyze_toclear ++ [l] }

def setReason (s : Solver) (x : Var) (r : Option CRef) : Solver :=
  { s with vardata := Function.update s.vardata x (mkVarData r (s.vardata x).level) }

def insertSymmetryUnit (s : Solver) (v : Var) : Solver :=
  { s with symmetry_units := s.symmetry_units.insert v }

def pushClause (s : Solver) (cr : CRef) : Solver := { s with clauses := s.clauses ++ [cr] }

def pushLearnt (s : Solver) (cr : CRef) : Solver := { s with learnts := s.learnts ++ [cr] }

def setClauses (s : Solver) (cs : List CRef) : Solver := { s with clauses := cs }

def setLearnts (s : Solver) (cs : List CRef) : Solver := { s with learnts := cs }

def setOrderHeap (s : Solver) (h : List Var) : Solver := { s with order_heap := h }

def setConflict (s : Solver) (c : List Lit) : Solver := { s with conflict := c }

/-! ## Minor methods (`Solver.h`) -/

/-- Modelled from the spec: `value(Var)` (`Solver.h`). -/
def valueVar (s : Solver) (x : Var) : lbool := s.assigns x

/-- Modelled from the spec: `value(Lit)`, with `value(~l) = not value(l)` (section 3). -/
def value (s : Solver) (p : Lit) : lbool := (s.assigns (var p)).xorSign (sign p)

/-- Modelled from the spec: `reason(v)` of section 3. -/
def reason (s : Solver) (x : Var) : Option CRef := (s.vardata x).reason

/-- Modelled from the spec: `level(v)` of section 3. -/
def level (s : Solver) (x : Var) : Nat := (s.vardata x).level

/-- Modelled from the spec: the decision level is the number of marks in `trail_lim`
(section 3). -/
def decisionLevel (s : Solver) : Nat := s.trail_lim.length

/-- Modelled from the spec: opening a decision level records the trail length (section 3:
`trail_lim[i]` is the index at which level `i+1` began). -/
def newDecisionLevel (s : Solver) : Solver :=
  { s with trail_lim := s.trail_lim ++ [s.trail.length] }

def nAssigns (s : Solver) : Nat := s.trail.length

def nClauses (s : Solver) : Nat := s.num_clauses

def nLearnts (s : Solver) : Nat := s.num_learnts

def nVars (s : Solver) : Nat := s.next_var

/-- Modelled from the spec: `isRemoved(cr)`: the clause is marked deleted (section 3). -/
def isRemoved (s : Solver) (cr : CRef) : Bool := decide ((s.ca.cl cr).mark = 1)

/-- Modelled from the spec: a clause is locked when it is the reason of the assignment of
its first literal (section 4.8). -/
def locked (s : Solver) (cr : CRef) : Bool :=
  decide (value s ((s.ca.cl cr).get 0) = l_True) &&
    decide (reason s (var ((s.ca.cl cr).get 0)) = some cr)

/-! ### Order heap (`Heap.h`) -/

/-- Modelled from the spec: section 4.5, the maximum of the heap: greatest activity, ties
broken by variable id.  The heap is kept as the list of its members. -/
def heapBest (act : Var → ℚ) : List Var → Option Var
  | [] => none
  | x :: xs =>
    match heapBest act xs with
    | none => some x
    | some y => if act y > act x ∨ (act y = act x ∧ y < x) then some y else some x

/-- Modelled from the spec: `insertVarOrder` puts a decision variable back into the order
heap unless it is already there (section 4.3). -/
def insertVarOrder (s : Solver) (x : Var) : Solver :=
  if x ∉ s.order_heap ∧ s.decision x = true then { s with order_heap := s.order_heap ++ [x] }
  else s

/-- The writes of `setDecisionVar` to `dec_vars` and `decision`. -/
def setDecision (s : Solver) (v : Var) (b : Bool) : Solver :=
  { s with dec_vars := if b = true ∧ s.decision v = false then s.dec_vars + 1
                       else if b = false ∧ s.decision v = true then s.dec_vars - 1
                       else s.dec_vars,
           decision := Function.update s.decision v b }

/-- Modelled from the spec: `setDecisionVar` (`Solver.h`). -/
def setDecisionVar (s : Solver) (v : Var) (b : Bool) : Solver :=
  insertVarOrder (setDecision s v b) v

/-! ### Watcher lists (`OccLists` of `SolverTypes.h`) -/

/-- Modelled from the spec: `smudge(l)` marks the list dirty (section 4.4). -/
def smudge (s : Solver) (l : Lit) : Solver :=
  if s.dirty l = false then
    { s with dirty := Function.update s.dirty l true, dirties := s.dirties ++ [l] }
  else s

/-- Modelled from the spec: cleaning a watcher list sweeps the watchers of deleted clauses
(section 4.4). -/
def cleanWatch (s : Solver) (l : Lit) : Solver :=
  { s with watches := Function.update s.watches l
             ((s.watches l).filter (fun w => !isRemoved s w.cref)),
           dirty := Function.update s.dirty l false }

/-- Modelled from the spec: `watches.lookup(l)` cleans the list first when it is dirty. -/
def lookup (s : Solver) (l : Lit) : Solver :=
  if s.dirty l = true then cleanWatch s l else s

def clearDirties (s : Solver) : Solver := { s with dirties := [] }

/-- Modelled from the spec: `watches.cleanAll()` cleans every dirty list. -/
def cleanAll (s : Solver) : Solver :=
  clearDirties (s.dirties.foldl (fun t l => lookup t l) s)

/-! ## `Solver.cc` -/

/-- The choice of the variable in `newVar` (lines 141-145): the last freed variable, or a
fresh one. -/
def takeVar (s : Solver) : Var × Solver :=
  match s.free_vars.getLast? with
  | some w => (w, { s with free_vars := s.free_vars.dropLast })
  | none => (s.next_var, { s with next_var := s.next_var + 1 })

/-- Modelled from the spec: the pseudo-random generator of `Solver.h`; the seed stays an
integer below `2147483647`, the value in `[0, 1)` is the seed over `2147483647`. -/
def drand (seed : Nat) : ℚ × Nat :=
  ((((seed * 1389796) % 2147483647 : Nat) : ℚ) / 2147483647, (seed * 1389796) % 2147483647)

/-- Modelled from the spec: `irand(seed, size) = (int)(drand(seed) * size)`. -/
def irand (seed : Nat) (size : Nat) : Nat × Nat :=
  ((seed * 1389796) % 2147483647 * size / 2147483647, (seed * 1389796) % 2147483647)

/-- The per-variable entries written by `newVar` (lines 149-154); the initial activity is
`0`, or is drawn with `drand` when `rnd_init_act` is set. -/
def initVar (s : Solver) (v : Var) (upol : lbool) : Solver :=
  { s with assigns := Function.update s.assigns v l_Undef,
           vardata := Function.update s.vardata v (mkVarData none 0),
           activity := Function.update s.activity v
             (if s.rnd_init_act then (drand s.random_seed).1 / 100000 else 0),
           random_seed := if s.rnd_init_act then (drand s.random_seed).2 else s.random_seed,
           seen := Function.update s.seen v 0,
           polarity := Function.update s.polarity v true,
           user_pol := Function.update s.user_pol v upol }

/-- `Solver::newVar` (lines 138-162).  `watches.init`, `decisionVars.push(false)` and
`watcherSymmetries.push()` only make sure that entries exist, which they do in a total
function. -/
def newVar (s : Solver) (upol : lbool) (dvar : Bool) : Var × Solver :=
  ((takeVar s).1, setDecisionVar (initVar (takeVar s).2 (takeVar s).1 upol) (takeVar s).1 dvar)

/-- The counters written by `attachClause` (lines 211-212). -/
def countAttach (s : Solver) (c : Clause) : Solver :=
  if c.learnt then
    { s with num_learnts := s.num_learnts + 1, learnts_literals := s.learnts_literals + c.size }
  else
    { s with num_clauses := s.num_clauses + 1, clauses_literals := s.clauses_literals + c.size }

/-- `Solver::attachClause` (lines 206-213). -/
def attachClause (s : Solver) (cr : CRef) : Option Solver :=
  if (s.ca.cl cr).size > 1 then
    some (countAttach
      (pushWatch (pushWatch s (neg ((s.ca.cl cr).get 0)) ⟨cr, (s.ca.cl cr).get 1⟩)
        (neg ((s.ca.cl cr).get 1)) ⟨cr, (s.ca.cl cr).get 0⟩)
      (s.ca.cl cr))
  else none

/-- `Solver::uncheckedEnqueue` (lines 880-888); `notifySymmetries` has nothing to notify. -/
def uncheckedEnqueue (s : Solver) (p : Lit) (from_ : Option CRef) : Option Solver :=
  if value s p = l_Undef then
    some { s with assigns := Function.update s.assigns (var p) (lbool.ofBool (!sign p)),
                  vardata := Function.update s.vardata (var p)
                               (mkVarData from_ (decisionLevel s)),
                  trail := s.trail ++ [p] }
  else none

/-- The replacement scan of `propagate` (lines 949-953): the first index `k >= 2` with
`value(c[k]) != l_False`. -/
def findWatch (s : Solver) : List Lit → Nat → Option Nat
  | [], _ => none
  | l :: ls, k => if value s l ≠ l_False then some k else findWatch s ls (k + 1)

/-- "Make sure the false literal is data[1]" (lines 936-938). -/
def swapFalseLit (lits : List Lit) (false_lit : Lit) : List Lit :=
  if lits.getD 0 0 = false_lit then (lits.set 0 (lits.getD 1 0)).set 1 false_lit else lits

/-- The exchange `c[1] = c[k]; c[k] = false_lit` (line 951). -/
def moveWatch (lits : List Lit) (k : Nat) (false_lit : Lit) : List Lit :=
  (lits.set 1 (lits.getD k 0)).set k false_lit

/-- What the body of the watcher loop does with one watcher. -/
inductive WStep where
  /-- The watcher stays in the list (`*j++ = ...`) and the loop goes on. -/
  | keep (w : Watcher) (s : Solver)
  /-- The watch moved to another literal (`goto NextClause`). -/
  | move (s : Solver)
  /-- The clause is falsified; the watcher stays and so do all remaining ones. -/
  | conflict (w : Watcher) (s : Solver)
  /-- A failed assertion, or a push onto the list that is being traversed. -/
  | fail

/-- The tagging of line 964-965. -/
def tagSymmetryUnit (b : Bool) (s : Solver) (v : Var) : Solver :=
  if b then insertSymmetryUnit s v else s

/-- The body of the watcher loop of `propagate` (lines 928-974) for the watcher `w` in the
list of the literal `p`. -/
def watchStep (p : Lit) (isSymmetryLevelZero : Bool) (w : Watcher) (s : Solver) : WStep :=
  if value s w.blocker = l_True then WStep.keep w s
  else
    let lits1 := swapFalseLit (s.ca.cl w.cref).lits (neg p)
    let first := lits1.getD 0 0
    let s1 := setLits s w.cref lits1
    if lits1.getD 1 0 = neg p then
      if first ≠ w.blocker ∧ value s1 first = l_True then WStep.keep ⟨w.cref, first⟩ s1
      else
        match findWatch s1 (lits1.drop 2) 2 with
        | some k =>
          if neg (lits1.getD k 0) = p then WStep.fail
          else WStep.move (pushWatch (setLits s1 w.cref (moveWatch lits1 k (neg p)))
                 (neg (lits1.getD k 0)) ⟨w.cref, first⟩)
        | none =>
          if value s1 first = l_False then
            WStep.conflict ⟨w.cref, first⟩ (setQhead s1 s1.trail.length)
          else
            match uncheckedEnqueue (tagSymmetryUnit isSymmetryLevelZero s1 (var first))
                first (some w.cref) with
            | none => WStep.fail
            | some s3 => WStep.keep ⟨w.cref, first⟩ s3
    else WStep.fail

/-- The watcher loop of `propagate` for the literal `p` (lines 927-975), run over the
watchers not yet visited.  The result is the conflict, the watchers that stay in the list
of `p` (the part written through `j`) and the new state. -/
def propagateWatchers (p : Lit) (isSymmetryLevelZero : Bool) :
    List Watcher → Solver → Option (Option CRef × List Watcher × Solver)
  | [], s => some (none, [], s)
  | w :: rest, s =>
    match watchStep p isSymmetryLevelZero w s with
    | WStep.fail => none
    | WStep.keep w1 s1 =>
      (propagateWatchers p isSymmetryLevelZero rest s1).map (fun r => (r.1, w1 :: r.2.1, r.2.2))
    | WStep.move s1 => propagateWatchers p isSymmetryLevelZero rest s1
    | WStep.conflict w1 s1 => some (some w1.cref, w1 :: rest, s1)

/-- The body of the loop of `propagate` (lines 909-976) for the literal `p = trail[qhead]`,
after `qhead++`: the list of `p` is looked up, traversed and shrunk. -/
def propagateLit (p : Lit) (s : Solver) : Option (Option CRef × Solver) :=
  match propagateWatchers p
      (decide (decisionLevel s = 0) && decide (var p ∈ s.symmetry_units))
      ((lookup s p).watches p) (lookup s p) with
  | none => none
  | some r => some (r.1, setWatches r.2.2 p r.2.1)

/-- The `while (qhead < trail.size())` loop of `propagate` (lines 908-1015); the third
argument is `confl`, the fourth `num_props`. -/
def propagateLoop : Nat → Solver → Option CRef → Nat → Option (Option CRef × Nat × Solver)
  | fuel, s, confl, n =>
    if s.qhead < s.trail.length then
      match fuel with
      | 0 => none
      | fuel + 1 =>
        match propagateLit (s.trail.getD s.qhead 0) (setQhead s (s.qhead + 1)) with
        | none => none
        | some (some cr, s1) => propagateLoop fuel (setQhead s1 s1.trail.length) (some cr) (n + 1)
        | some (none, s1) =>
          propagateLoop fuel (if confl ≠ none then setQhead s1 s1.trail.length else s1) confl
            (n + 1)
    else some (confl, n, s)

/-- The counters written at the end of `propagate` (lines 1016-1017). -/
def countProps (s : Solver) (n : Nat) : Solver :=
  { s with propagations := s.propagations + n, simpDB_props := s.simpDB_props - n }

/-- `Solver::propagate` (lines 902-1020). -/
def propagate (fuel : Nat) (s : Solver) : Option (Option CRef × Solver) :=
  match propagateLoop fuel s none 0 with
  | none => none
  | some r => some (r.1, countProps r.2.2 r.2.1)

/-- The loop of `addClause_` (lines 184-188) over the sorted literals; the second argument
is `p`.  `none` is the exit `return true`; otherwise the literals that are kept. -/
def addClauseLoop (s : Solver) : List Lit → Option Lit → Option (List Lit)
  | [], _ => some []
  | q :: qs, p =>
    if value s q = l_True ∨ some q = p.map neg then none
    else if value s q ≠ l_False ∧ some q ≠ p then
      (addClauseLoop s qs (some q)).map (fun r => q :: r)
    else addClauseLoop s qs p

/-- Modelled from the spec: `sort(ps)` of `Sort.h`, the literals in increasing order of
their index. -/
def sortLits (ps : List Nat) : List Nat := ps.insertionSort (fun a b => a ≤ b)

/-- `Solver::addClause_` (lines 176-203). -/
def addClause_ (fuel : Nat) (s : Solver) (ps : List Lit) : Option (Bool × Solver) :=
  if decisionLevel s ≠ 0 then none
  else if s.ok = false then some (false, s)
  else
    match addClauseLoop s (sortLits ps) none with
    | none => some (true, s)
    | some [] => some (false, setOk s false)
    | some [l] =>
      match uncheckedEnqueue s l none with
      | none => none
      | some s1 =>
        match propagate fuel s1 with
        | none => none
        | some r => some (decide (r.1 = none), setOk r.2 (decide (r.1 = none)))
    | some qs =>
      (attachClause
        (pushClause (setCa s (s.ca.alloc qs false false false none).2)
          (s.ca.alloc qs false false false none).1)
        (s.ca.alloc qs false false false none).1).map (fun t => (true, t))

/-- The writes of one iteration of the loop of `cancelUntil` to `decisionVars` and
`assigns` (lines 261-264). -/
def unassign (s : Solver) (x : Var) : Solver :=
  { s with decisionVars := Function.update s.decisionVars x false,
           assigns := Function.update s.assigns x l_Undef }

/-- Phase saving in `cancelUntil` (lines 268-269) for the trail index `c`. -/
def savePhase (s : Solver) (c : Nat) (p : Lit) : Solver :=
  if s.phase_saving > 1 ∨ (s.phase_saving = 1 ∧ c > s.trail_lim.getLastD 0) then
    { s with polarity := Function.update s.polarity (var p) (sign p) }
  else s

/-- One iteration of the loop of `cancelUntil` (lines 258-270) for the trail index `c`. -/
def cancelStep (s : Solver) (c : Nat) : Solver :=
  insertVarOrder (savePhase (unassign s (var (s.trail.getD c 0))) c (s.trail.getD c 0))
    (var (s.trail.getD c 0))

/-- The loop of `cancelUntil`: `c` runs from `lim + n - 1` down to `lim`. -/
def cancelLoop (lim : Nat) : Nat → Solver → Solver
  | 0, s => s
  | n + 1, s => cancelLoop lim n (cancelStep s (lim + n))

/-- The three writes after the loop of `cancelUntil` (lines 273-275). -/
def shrinkTrail (s : Solver) (lim lvl : Nat) : Solver :=
  { s with qhead := lim, trail := s.trail.take lim, trail_lim := s.trail_lim.take lvl }

/-- `Solver::cancelUntil` (lines 253-280). -/
def cancelUntil (s : Solver) (lvl : Nat) : Solver :=
  if decisionLevel s > lvl then
    shrinkTrail
      (cancelLoop (s.trail_lim.getD lvl 0) (s.trail.length - s.trail_lim.getD lvl 0) s)
      (s.trail_lim.getD lvl 0) lvl
  else s

/-! ### Activities (`Solver.h`) -/

def setVarActivity (s : Solver) (v : Var) (a : ℚ) : Solver :=
  { s with activity := Function.update s.activity v a }

/-- The rescaling of all variable activities by `1e-100`. -/
def rescaleVarActivity (s : Solver) : Solver :=
  { s with activity := fun i => if i < nVars s then s.activity i / (10 : ℚ) ^ 100
                                else s.activity i,
           var_inc := s.var_inc / (10 : ℚ) ^ 100 }

/-- Modelled from the spec: `varBumpActivity(v, inc)` (section 4.7): the activity of `v`
grows by `inc`; all activities are rescaled when the bound `1e100` is passed.  The position
of `v` in the order heap follows from the activities. -/
def varBumpActivityBy (s : Solver) (v : Var) (inc : ℚ) : Solver :=
  if s.activity v + inc > (10 : ℚ) ^ 100 then
    rescaleVarActivity (setVarActivity s v (s.activity v + inc))
  else setVarActivity s v (s.activity v + inc)

def varBumpActivity (s : Solver) (v : Var) : Solver := varBumpActivityBy s v s.var_inc

/-- Modelled from the spec: `var_inc /= var_decay` (section 4.8). -/
def varDecayActivity (s : Solver) : Solver := { s with var_inc := s.var_inc * (1 / s.var_decay) }

def setClaInc (s : Solver) (x : ℚ) : Solver := { s with cla_inc := x }

/-- The rescaling of the activities of all learnt clauses by `1e-20`. -/
def rescaleClaActivity (s : Solver) : Solver :=
  setClaInc
    (s.learnts.foldl (fun t x => setActivity t x ((t.ca.cl x).activity / (10 : ℚ) ^ 20)) s)
    (s.cla_inc / (10 : ℚ) ^ 20)

/-- Modelled from the spec: `claBumpActivity(c)` (section 4.7): the activity of the clause
grows by `cla_inc`; the activities of all learnt clauses are rescaled when the bound `1e20`
is passed. -/
def claBumpActivity (s : Solver) (cr : CRef) : Solver :=
  if (s.ca.cl cr).activity + s.cla_inc > (10 : ℚ) ^ 20 then
    rescaleClaActivity (setActivity s cr ((s.ca.cl cr).activity + s.cla_inc))
  else setActivity s cr ((s.ca.cl cr).activity + s.cla_inc)

/-- Modelled from the spec: the decay of the clause activity (section 4.8). -/
def claDecayActivity (s : Solver) : Solver :=
  { s with cla_inc := s.cla_inc * (1 / s.clause_decay) }

/-! ### Conflict analysis -/

/-- The accumulator of the resolution loop of `analyze`: the solver (activities, `seen`),
`pathC`, the literals pushed to `out_learnt` after the placeholder, `out_symmetry`. -/
structure AnalyzeAcc where
  s : Solver
  pathC : Int
  out : List Lit
  out_symmetry : Bool

/-- The test of line 659 for the literal `q`. -/
def symUnitTest (a : AnalyzeAcc) (q : Lit) : AnalyzeAcc :=
  if level a.s (var q) = 0 ∧ var q ∈ a.s.symmetry_units then
    { a with out_symmetry := true } else a

/-- The body of the `for` loop of `analyze` over the literals of a clause (lines 656-671). -/
def analyzeLit (a : AnalyzeAcc) (q : Lit) : AnalyzeAcc :=
  if a.s.seen (var q) = 0 ∧ level a.s (var q) > 0 then
    if level a.s (var q) ≥ decisionLevel a.s then
      { s := setSeen (varBumpActivity a.s (var q)) (var q) 1, pathC := a.pathC + 1,
        out := a.out, out_symmetry := (symUnitTest a q).out_symmetry }
    else
      { s := setSeen (varBumpActivity a.s (var q)) (var q) 1, pathC := a.pathC,
        out := a.out ++ [q], out_symmetry := (symUnitTest a q).out_symmetry }
  else symUnitTest a q

/-- The walk `while (!seen[var(trail[index--])]);` (line 674).  The argument is `index + 1`;
the result is the position of the literal that stops the walk; running below the start of
the trail is a failure. -/
def analyzeWalk (s : Solver) : Nat → Option Nat
  | 0 => none
  | i + 1 => if s.seen (var (s.trail.getD i 0)) ≠ 0 then some i else analyzeWalk s i

/-- The part of an iteration of the loop of `analyze` before the walk (lines 646-671) for
the clause `cr`; `first` is `p == lit_Undef`. -/
def analyzeClause (a : AnalyzeAcc) (cr : CRef) (first : Bool) : AnalyzeAcc :=
  ((a.s.ca.cl cr).lits.drop (if first then 0 else 1)).foldl analyzeLit
    { s := if (a.s.ca.cl cr).learnt then claBumpActivity a.s cr else a.s,
      pathC := a.pathC, out := a.out,
      out_symmetry := a.out_symmetry || (a.s.ca.cl cr).symmetry }

/-- The writes after the walk (lines 677-678). -/
def analyzePivot (a : AnalyzeAcc) (p : Lit) : AnalyzeAcc :=
  { s := setSeen a.s (var p) 0, pathC := a.pathC - 1, out := a.out,
    out_symmetry := a.out_symmetry }

/-- The `do ... while (pathC > 0)` loop of `analyze` (lines 644-680).  Arguments: the
accumulator, `p == lit_Undef`, `confl`, `index + 1` and the list `conf_clauses`.  The
result also gives the last `p`. -/
def analyzeLoop : Nat → AnalyzeAcc → Bool → Option CRef → Nat → List CRef →
    Option (AnalyzeAcc × Lit × List CRef)
  | 0, _, _, _, _, _ => none
  | _ + 1, _, _, none, _, _ => none
  | fuel + 1, a, first, some cr, idx, ccs =>
    let a1 := analyzeClause a cr first
    let ccs1 := if (a.s.ca.cl cr).symmetry then ccs ++ [cr] else ccs
    match analyzeWalk a1.s idx with
    | none => none
    | some pos =>
      let p := a1.s.trail.getD pos 0
      if (analyzePivot a1 p).pathC > 0 then
        analyzeLoop fuel (analyzePivot a1 p) false (reason a1.s (var p)) pos ccs1
      else some (analyzePivot a1 p, p, ccs1)

/-- The sweep over the stack when `litRedundant` fails (lines 804-808). -/
def markFailed (s : Solver) (stack : List (Nat × Lit)) : Solver :=
  stack.foldl
    (fun t e => if t.seen (var e.2) = 0 then pushToclear (setSeen t (var e.2) 3) e.2 else t) s

/-- The marking of a finished literal in `litRedundant` (lines 820-823). -/
def markRemovable (s : Solver) (p : Lit) : Solver :=
  if s.seen (var p) = 0 then pushToclear (setSeen s (var p) 2) p else s

/-- The loop of `litRedundant` (lines 792-835); `seen_undef = 0`, `seen_source = 1`,
`seen_removable = 2`, `seen_failed = 3`.  The stack has its top at the end. -/
def litRedundantLoop : Nat → Solver → Nat → Lit → List (Nat × Lit) → Option (Bool × Solver)
  | 0, _, _, _, _ => none
  | fuel + 1, s, i, p, stack =>
    match reason s (var p) with
    | none => none
    | some cr =>
      if i < (s.ca.cl cr).size then
        let l := (s.ca.cl cr).get i
        if level s (var l) = 0 ∨ s.seen (var l) = 1 ∨ s.seen (var l) = 2 then
          litRedundantLoop fuel s (i + 1) p stack
        else if reason s (var l) = none ∨ s.seen (var l) = 3 then
          some (false, markFailed s (stack ++ [(0, p)]))
        else
          litRedundantLoop fuel s 1 l (stack ++ [(i, p)])
      else
        match stack.getLast? with
        | none => some (true, markRemovable s p)
        | some e => litRedundantLoop fuel (markRemovable s p) (e.1 + 1) e.2 stack.dropLast

/-- `Solver::litRedundant` (lines 782-838). -/
def litRedundant (fuel : Nat) (s : Solver) (p : Lit) : Option (Bool × Solver) :=
  if ¬ (s.seen (var p) = 0 ∨ s.seen (var p) = 1) then none
  else if reason s (var p) = none then none
  else litRedundantLoop fuel s 1 p []

/-- The minimisation loop of `analyze` for `ccmin_mode == 2` (lines 688-690) over
`out_learnt[1..]`. -/
def minimizeDeep (fuel : Nat) : Solver → List Lit → Option (List Lit × Solver)
  | s, [] => some ([], s)
  | s, l :: ls =>
    if reason s (var l) = none then
      (minimizeDeep fuel s ls).map (fun r => (l :: r.1, r.2))
    else
      match litRedundant fuel s l with
      | none => none
      | some r1 =>
        (minimizeDeep fuel r1.2 ls).map (fun r => (if r1.1 then r.1 else l :: r.1, r.2))

/-- The test of the minimisation loop for `ccmin_mode == 1` (lines 694-704): the literal
is kept. -/
def keepBasic (s : Solver) (l : Lit) : Bool :=
  match reason s (var l) with
  | none => true
  | some cr =>
    ((s.ca.cl cr).lits.drop 1).any
      (fun q => decide (s.seen (var q) = 0) && decide (level s (var q) > 0))

/-- The minimisation of `analyze` (lines 685-707) applied to `out_learnt[1..]`. -/
def minimize (fuel : Nat) (s : Solver) (out : List Lit) : Option (List Lit × Solver) :=
  if s.ccmin_mode = 2 then minimizeDeep fuel s out
  else if s.ccmin_mode = 1 then some (out.filter (keepBasic s), s)
  else some (out, s)

/-- The index of the literal of greatest level among `out_learnt[1..]` (lines 718-722);
arguments: the literals from index `i` on, `i`, the current `max_i`. -/
def findMaxLevel (s : Solver) (out : List Lit) : List Lit → Nat → Nat → Nat
  | [], _, max_i => max_i
  | l :: ls, i, max_i =>
    if level s (var l) > level s (var (out.getD max_i 0)) then findMaxLevel s out ls (i + 1) i
    else findMaxLevel s out ls (i + 1) max_i

/-- The exchange of lines 724-726 that brings the literal of index `max_i` to index 1. -/
def swapMax (out : List Lit) (max_i : Nat) : List Lit :=
  (out.set max_i (out.getD 1 0)).set 1 (out.getD max_i 0)

/-- The in-place intersection of `comp` with `check` (lines 751-763); both are increasing
lists. -/
def interInPlace : Nat → List Nat → List Nat → List Nat
  | 0, _, _ => []
  | _ + 1, [], _ => []
  | _ + 1, _ :: _, [] => []
  | fuel + 1, a :: as, b :: bs =>
    if a < b then interInPlace fuel as (b :: bs)
    else if b < a then interInPlace fuel (a :: as) bs
    else a :: interInPlace fuel as bs

/-- The loop over `conf_clauses` that builds the compatibility set (lines 738-767); a
symmetry clause without a compatibility set is a failure. -/
def compLoop (s : Solver) : List CRef → List Nat → Option (List Nat)
  | [], comp => some comp
  | cr :: crs, comp =>
    match (s.ca.cl cr).scompat with
    | none => none
    | some check =>
      if check = [] then some []
      else if comp = [] then compLoop s crs check
      else if interInPlace (comp.length + check.length) comp check = [] then some []
      else compLoop s crs (interInPlace (comp.length + check.length) comp check)

/-- The result of `analyze`: `out_learnt`, `out_btlevel`, `out_symmetry`, `comp`. -/
structure AnalyzeResult where
  out_learnt : List Lit
  out_btlevel : Nat
  out_symmetry : Bool
  comp : List Nat

def setToclear (s : Solver) (ls : List Lit) : Solver := { s with analyze_toclear := ls }

/-- The counters written by `analyze` (lines 709-711). -/
def countLits (s : Solver) (n m : Nat) : Solver :=
  { s with max_literals := s.max_literals + n, tot_literals := s.tot_literals + m }

/-- The loop that clears `seen` (line 730). -/
def clearSeen (s : Solver) : Solver :=
  s.analyze_toclear.foldl (fun t l => setSeen t (var l) 0) s

/-- The literals and the backtrack level returned by `analyze` (lines 715-728) for the
minimised clause `out`. -/
def finishLearnt (s : Solver) (out : List Lit) : List Lit × Nat :=
  if out.length = 1 then (out, 0)
  else (swapMax out (findMaxLevel s out (out.drop 2) 2 1),
        level s (var (out.getD (findMaxLevel s out (out.drop 2) 2 1) 0)))

/-- The compatibility set returned by `analyze` (lines 736-777); there is no symmetry to
add in the last loop. -/
def analyzeComp (s : Solver) (fsym : Bool) (conf_clauses : List CRef) : Option (List Nat) :=
  if fsym = false then compLoop s conf_clauses [] else some []

/-- `Solver::analyze` (lines 630-778); `out_learnt` and `comp` are empty at the call. -/
def analyze (fuel : Nat) (s : Solver) (confl : CRef) : Option (AnalyzeResult × Solver) :=
  match analyzeLoop (s.trail.length + 1)
      { s := s, pathC := 0, out := [], out_symmetry := false } true (some confl)
      s.trail.length [] with
  | none => none
  | some r =>
    match minimize fuel (setToclear r.1.s (neg r.2.1 :: r.1.out)) r.1.out with
    | none => none
    | some m =>
      let fin := finishLearnt m.2 (neg r.2.1 :: m.1)
      let s1 := clearSeen (countLits m.2 (r.1.out.length + 1) (m.1.length + 1))
      if r.1.out_symmetry = false then
        some ({ out_learnt := fin.1, out_btlevel := fin.2, out_symmetry := false, comp := [] },
              s1)
      else
        match analyzeComp m.2 (s.ca.cl confl).fsymmetry r.2.2 with
        | none => none
        | some cs =>
          some ({ out_learnt := fin.1, out_btlevel := fin.2, out_symmetry := true,
                  comp := cs }, s1)

/-- The marking of the literals of a reason clause in `analyzeFinal` (lines 868-870). -/
def markReason (s : Solver) (cr : CRef) : Solver :=
  ((s.ca.cl cr).lits.drop 1).foldl
    (fun t q => if level t (var q) > 0 then setSeen t (var q) 1 else t) s

/-- The loop of `analyzeFinal` (lines 860-874): `i` runs from `lim + n - 1` down to `lim`;
the list is `out_conflict`. -/
def analyzeFinalLoop (lim : Nat) : Nat → Solver → List Lit → Option (Solver × List Lit)
  | 0, s, out => some (s, out)
  | n + 1, s, out =>
    let l := s.trail.getD (lim + n) 0
    if s.seen (var l) ≠ 0 then
      match reason s (var l) with
      | none =>
        if level s (var l) > 0 then
          analyzeFinalLoop lim n (setSeen s (var l) 0) (out ++ [neg l])
        else none
      | some cr => analyzeFinalLoop lim n (setSeen (markReason s cr) (var l) 0) out
    else analyzeFinalLoop lim n s out

/-- `Solver::analyzeFinal` (lines 850-877), with `out_conflict` being the member `conflict`
as at its only call. -/
def analyzeFinal (s : Solver) (p : Lit) : Option Solver :=
  if decisionLevel s = 0 then some (setConflict s [p])
  else
    match analyzeFinalLoop (s.trail_lim.getD 0 0) (s.trail.length - s.trail_lim.getD 0 0)
        (setSeen s (var p) 1) [p] with
    | none => none
    | some r => some (setConflict (setSeen r.1 (var p) 0) r.2)

/-! ### Clause removal, database reduction, garbage collection -/

/-- The counters written by `detachClause` (lines 229-230). -/
def countDetach (s : Solver) (c : Clause) : Solver :=
  if c.learnt then
    { s with num_learnts := s.num_learnts - 1, learnts_literals := s.learnts_literals - c.size }
  else
    { s with num_clauses := s.num_clauses - 1, clauses_literals := s.clauses_literals - c.size }

/-- `Solver::detachClause` (lines 216-231) for `strict == false`, the default argument. -/
def detachClause (s : Solver) (cr : CRef) : Option Solver :=
  if (s.ca.cl cr).size > 1 then
    some (countDetach (smudge (smudge s (neg ((s.ca.cl cr).get 0))) (neg ((s.ca.cl cr).get 1)))
      (s.ca.cl cr))
  else none

/-- The reset of the reason of a locked clause (line 238). -/
def unlock (s : Solver) (cr : CRef) : Solver :=
  if locked s cr then setReason s (var ((s.ca.cl cr).get 0)) none else s

def freeClause (s : Solver) (cr : CRef) : Solver := { s with ca := s.ca.free cr }

/-- `Solver::removeClause` (lines 234-241). -/
def removeClause (s : Solver) (cr : CRef) : Option Solver :=
  (detachClause s cr).map (fun s1 => freeClause (setMark (unlock s1 cr) cr 1) cr)

/-- `Solver::satisfied` (lines 244-248). -/
def satisfied (s : Solver) (c : Clause) : Bool :=
  c.lits.any (fun l => decide (value s l = l_True))

/-- The trimming loop of `removeSatisfied` (lines 1080-1084) on the literal array; the
third argument is `k`. -/
def trimLoop (s : Solver) : Nat → List Lit → Nat → List Lit
  | 0, ls, _ => ls
  | fuel + 1, ls, k =>
    if k < ls.length then
      if value s (ls.getD k 0) = l_False then
        trimLoop s fuel ((ls.set k (ls.getD (ls.length - 1) 0)).dropLast) k
      else trimLoop s fuel ls (k + 1)
    else ls

/-- The loop of `removeSatisfied` (lines 1073-1087) over the clause list; the result is the
list that is kept. -/
def removeSatisfiedLoop : Solver → List CRef → Option (List CRef × Solver)
  | s, [] => some ([], s)
  | s, cr :: crs =>
    if satisfied s (s.ca.cl cr) then
      match removeClause s cr with
      | none => none
      | some s1 => removeSatisfiedLoop s1 crs
    else
      (removeSatisfiedLoop
        (setLits s cr (trimLoop s (s.ca.cl cr).size (s.ca.cl cr).lits 2)) crs).map
        (fun r => (cr :: r.1, r.2))

/-- `removeSatisfied(learnts)`. -/
def removeSatisfiedLearnts (s : Solver) : Option Solver :=
  (removeSatisfiedLoop s s.learnts).map (fun r => setLearnts r.2 r.1)

/-- `removeSatisfied(clauses)`. -/
def removeSatisfiedClauses (s : Solver) : Option Solver :=
  (removeSatisfiedLoop s s.clauses).map (fun r => setClauses r.2 r.1)

/-- `Solver::rebuildOrderHeap` (lines 1092-1099). -/
def rebuildOrderHeap (s : Solver) : Solver :=
  setOrderHeap s
    ((List.range (nVars s)).filter (fun v => s.decision v && decide (valueVar s v = l_Undef)))

/-- The forwarding reference written into a relocated clause. -/
def forwardTo (c : Clause) (ncr : CRef) : Clause := { c with reloced := true, relocation := ncr }

def setReloc (s : Solver) (cr : CRef) (ncr : CRef) : Solver :=
  { s with ca := { s.ca with cl := Function.update s.ca.cl cr (forwardTo (s.ca.cl cr) ncr) } }

/-- The copy of a clause at the end of the arena `tgt`. -/
def copyClause (tgt : ClauseAllocator) (c : Clause) : ClauseAllocator :=
  { cl := Function.update tgt.cl tgt.size c,
    size := tgt.size + clauseWord32Size c.size c.learnt,
    wasted := tgt.wasted }

/-- `ClauseAllocator::reloc` as used by `relocAll`: the clause is copied to `tgt` once and
the old clause keeps the forwarding reference.  The result is the new reference. -/
def reloc (s : Solver) (tgt : ClauseAllocator) (cr : CRef) : CRef × Solver × ClauseAllocator :=
  if (s.ca.cl cr).reloced then ((s.ca.cl cr).relocation, s, tgt)
  else (tgt.size, setReloc s cr tgt.size, copyClause tgt (s.ca.cl cr))

/-- Relocation of the watchers of one list (line 1568-1569). -/
def relocWatchers : Solver → ClauseAllocator → List Watcher →
    List Watcher × Solver × ClauseAllocator
  | s, tgt, [] => ([], s, tgt)
  | s, tgt, w :: ws =>
    let r := reloc s tgt w.cref
    let r2 := relocWatchers r.2.1 r.2.2 ws
    (⟨r.1, w.blocker⟩ :: r2.1, r2.2.1, r2.2.2)

/-- The loop over all literals `mkLit(v, s)` of `relocAll` (lines 1564-1570). -/
def relocAllWatches : Solver → ClauseAllocator → List Lit → Solver × ClauseAllocator
  | s, tgt, [] => (s, tgt)
  | s, tgt, p :: ps =>
    let r := relocWatchers s tgt (s.watches p)
    relocAllWatches (setWatches r.2.1 p r.1) r.2.2 ps

/-- The loop over the trail of `relocAll` (lines 1574-1583). -/
def relocReasons : Solver → ClauseAllocator → List Lit → Option (Solver × ClauseAllocator)
  | s, tgt, [] => some (s, tgt)
  | s, tgt, l :: ls =>
    match reason s (var l) with
    | none => relocReasons s tgt ls
    | some cr =>
      if (s.ca.cl cr).reloced ∨ locked s cr = true then
        if isRemoved s cr then none
        else
          let r := reloc s tgt cr
          relocReasons (setReason r.2.1 (var l) (some r.1)) r.2.2 ls
      else relocReasons s tgt ls

/-- The loops over `learnts` and over `clauses` of `relocAll` (lines 1588-1602). -/
def relocList : Solver → ClauseAllocator → List CRef → List CRef × Solver × ClauseAllocator
  | s, tgt, [] => ([], s, tgt)
  | s, tgt, cr :: crs =>
    if isRemoved s cr then relocList s tgt crs
    else
      let r := reloc s tgt cr
      let r2 := relocList r.2.1 r.2.2 crs
      (r.1 :: r2.1, r2.2.1, r2.2.2)

/-- All literals `mkLit(v, s)` for `v < nVars`, `s < 2`, in the order of lines 1564-1566. -/
def allLits (n : Nat) : List Lit :=
  (List.range n).flatMap (fun v => [mkLit v false, mkLit v true])

/-- `Solver::relocAll` (lines 1559-1603). -/
def relocAll (s : Solver) (tgt : ClauseAllocator) : Option (Solver × ClauseAllocator) :=
  let r1 := relocAllWatches (cleanAll s) tgt (allLits (nVars s))
  match relocReasons r1.1 r1.2 r1.1.trail with
  | none => none
  | some r2 =>
    let r3 := relocList r2.1 r2.2 r2.1.learnts
    let r4 := relocList (setLearnts r3.2.1 r3.1) r3.2.2 r3.2.1.clauses
    some (setClauses r4.2.1 r4.1, r4.2.2)

/-- `Solver::garbageCollect` (lines 1606-1617): the new arena replaces the old one. -/
def garbageCollect (s : Solver) : Option Solver :=
  (relocAll s { cl := fun _ => emptyClause, size := 0, wasted := 0 }).map
    (fun r => setCa r.1 r.2)

/-- Modelled from the spec: `checkGarbage()` collects when `wasted()/size() > garbage_frac`
(section 4.2). -/
def checkGarbage (s : Solver) : Option Solver :=
  if (s.ca.wasted : ℚ) > (s.ca.size : ℚ) * s.garbage_frac then garbageCollect s else some s

/-- The comparison `reduceDB_lt` (lines 1031-1036). -/
def reduceDB_lt (ca : ClauseAllocator) (x y : CRef) : Bool :=
  decide ((ca.cl x).size > 2) &&
    (decide ((ca.cl y).size = 2) || decide ((ca.cl x).activity < (ca.cl y).activity))

/-- The loop of `reduceDB` (lines 1045-1051); arguments: the full length of `learnts`,
`extra_lim`, the index `i`, the clauses from index `i` on. -/
def reduceDBLoop (n : Nat) (extra_lim : ℚ) : Solver → Nat → List CRef →
    Option (List CRef × Solver)
  | s, _, [] => some ([], s)
  | s, i, cr :: crs =>
    if (s.ca.cl cr).size > 2 ∧ locked s cr = false ∧
        (i < n / 2 ∨ (s.ca.cl cr).activity < extra_lim) then
      match removeClause s cr with
      | none => none
      | some s1 => reduceDBLoop n extra_lim s1 (i + 1) crs
    else
      (reduceDBLoop n extra_lim s (i + 1) crs).map (fun r => (cr :: r.1, r.2))

/-- Modelled from the spec: `sort(learnts, reduceDB_lt(ca))` of `Sort.h` orders the learnt
clauses by `reduceDB_lt`. -/
def sortLearnts (s : Solver) : List CRef :=
  s.learnts.insertionSort (fun x y => reduceDB_lt s.ca y x = false)

/-- `Solver::reduceDB` (lines 1037-1054). -/
def reduceDB (s : Solver) : Option Solver :=
  match reduceDBLoop s.learnts.length (s.cla_inc / (s.learnts.length : ℚ))
      (setLearnts s (sortLearnts s)) 0 (sortLearnts s) with
  | none => none
  | some r => checkGarbage (setLearnts r.2 r.1)

/-- The removal of the released variables from the trail in `simplify` (lines 1127-1145):
the released variables are marked in `seen` (which is asserted to be clear for them, one
after the other), the trail literals with a clear `seen` are kept, and the marks are
cleared again. -/
def dropReleased (s : Solver) : Option Solver :=
  if s.released_vars.any (fun v => decide (s.seen v ≠ 0)) ∨ ¬ s.released_vars.Nodup then none
  else
    some { s with trail := s.trail.filter
                    (fun l => decide (s.seen (var l) = 0 ∧ var l ∉ s.released_vars)),
                  qhead := (s.trail.filter
                    (fun l => decide (s.seen (var l) = 0 ∧ var l ∉ s.released_vars))).length,
                  free_vars := s.free_vars ++ s.released_vars,
                  released_vars := [] }

/-- The part of `simplify` that removes the satisfied clauses (lines 1120-1146). -/
def simplifyDB (s : Solver) : Option Solver :=
  match removeSatisfiedLearnts s with
  | none => none
  | some s2 =>
    if s2.remove_satisfied then
      match removeSatisfiedClauses s2 with
      | none => none
      | some s3 => dropReleased s3
    else some s2

/-- The last two writes of `simplify` (lines 1150-1151). -/
def setSimpDB (s : Solver) : Solver :=
  { s with simpDB_assigns := nAssigns s,
           simpDB_props := s.clauses_literals + s.learnts_literals }

/-- `Solver::simplify` (lines 1110-1154). -/
def simplify (fuel : Nat) (s : Solver) : Option (Bool × Solver) :=
  if decisionLevel s ≠ 0 then none
  else if s.ok = false then some (false, setOk s false)
  else
    match propagate fuel s with
    | none => none
    | some (some _, s1) => some (false, setOk s1 false)
    | some (none, s1) =>
      if (nAssigns s1 : Int) = s1.simpDB_assigns ∨ s1.simpDB_props > 0 then some (true, s1)
      else
        match simplifyDB s1 with
        | none => none
        | some s4 =>
          match checkGarbage s4 with
          | none => none
          | some s5 => some (true, setSimpDB (rebuildOrderHeap s5))

/-! ### Decisions -/

/-- The loop of `pickBranchLit` (lines 594-599). -/
def pickLoop : Nat → Solver → Option Var → Option Var × Solver
  | 0, s, next => (next, s)
  | fuel + 1, s, next =>
    if (match next with
        | none => true
        | some v => decide (valueVar s v ≠ l_Undef) || !s.decision v) then
      match heapBest s.activity s.order_heap with
      | none => (none, s)
      | some v => pickLoop fuel (setOrderHeap s (s.order_heap.erase v)) (some v)
    else (next, s)

def setSeed (s : Solver) (x : Nat) : Solver := { s with random_seed := x }

def countRndDecision (s : Solver) : Solver := { s with rnd_decisions := s.rnd_decisions + 1 }

/-- The random decision of `pickBranchLit` (lines 588-591), after `drand` was called. -/
def pickRandom (s : Solver) (d : ℚ) : Option Var × Solver :=
  if d < s.random_var_freq ∧ s.order_heap ≠ [] then
    let next := s.order_heap.getD (irand s.random_seed s.order_heap.length).1 0
    let s1 := setSeed s (irand s.random_seed s.order_heap.length).2
    if valueVar s1 next = l_Undef ∧ s1.decision next = true then
      (some next, countRndDecision s1)
    else (some next, s1)
  else (none, s)

/-- The choice of the polarity in `pickBranchLit` (lines 602-609). -/
def pickPolarity (s : Solver) (next : Var) : Lit × Solver :=
  if s.user_pol next ≠ l_Undef then (mkLit next (decide (s.user_pol next = l_True)), s)
  else if s.rnd_pol then
    (mkLit next (decide ((drand s.random_seed).1 < 1 / 2)), setSeed s (drand s.random_seed).2)
  else (mkLit next (s.polarity next), s)

/-- `Solver::pickBranchLit` (lines 583-610). -/
def pickBranchLit (s : Solver) : Option Lit × Solver :=
  let r1 := pickRandom (setSeed s (drand s.random_seed).2) (drand s.random_seed).1
  let r2 := pickLoop (r1.2.order_heap.length + 1) r1.2 r1.1
  match r2.1 with
  | none => (none, r2.2)
  | some next => (some (pickPolarity r2.2 next).1, (pickPolarity r2.2 next).2)

/-! ### Search -/

/-- Modelled from the spec: `withinBudget()` (section 5): no interrupt and both budgets
not exhausted. -/
def withinBudget (s : Solver) : Bool :=
  !s.asynch_interrupt &&
    (decide (s.conflict_budget < 0) || decide ((s.conflicts : Int) < s.conflict_budget)) &&
    (decide (s.propagation_budget < 0) ||
      decide ((s.propagations : Int) < s.propagation_budget))

/-- The outcome of the assumption loop of `search` (lines 1249-1263). -/
inductive AssumeResult where
  | next (l : Option Lit)
  | failed

/-- The loop `while (decisionLevel() < assumptions.size())` of `search`. -/
def assumeLoop : Nat → Solver → Option (AssumeResult × Solver)
  | 0, s => if decisionLevel s < s.assumptions.length then none
            else some (AssumeResult.next none, s)
  | fuel + 1, s =>
    if decisionLevel s < s.assumptions.length then
      if value s (s.assumptions.getD (decisionLevel s) 0) = l_True then
        assumeLoop fuel (newDecisionLevel s)
      else if value s (s.assumptions.getD (decisionLevel s) 0) = l_False then
        (analyzeFinal s (neg (s.assumptions.getD (decisionLevel s) 0))).map
          (fun t => (AssumeResult.failed, t))
      else some (AssumeResult.next (some (s.assumptions.getD (decisionLevel s) 0)), s)
    else some (AssumeResult.next none, s)

/-- Conversion of a `double` to `int` (truncation). -/
def toInt (x : ℚ) : Int := if 0 ≤ x then Rat.floor x else - Rat.floor (- x)

def countConflict (s : Solver) : Solver := { s with conflicts := s.conflicts + 1 }

/-- The enqueue of a learnt unit clause (lines 1194-1199). -/
def learnUnit (s : Solver) (r : AnalyzeResult) : Option Solver :=
  if decisionLevel s ≠ 0 then none
  else
    uncheckedEnqueue
      (if r.out_symmetry then insertSymmetryUnit s (var (r.out_learnt.getD 0 0)) else s)
      (r.out_learnt.getD 0 0) none

/-- The storing of a learnt clause of size at least two (lines 1201-1214). -/
def learnClause (s : Solver) (r : AnalyzeResult) (confl : CRef) : Option Solver :=
  if (s.ca.cl confl).fsymmetry = true ∧ r.out_symmetry = false then none
  else
    let a := s.ca.alloc r.out_learnt true (s.ca.cl confl).fsymmetry r.out_symmetry
               (if r.out_symmetry then some r.comp else none)
    match attachClause (pushLearnt (setCa s a.2) a.1) a.1 with
    | none => none
    | some s1 => uncheckedEnqueue (claBumpActivity s1 a.1) (r.out_learnt.getD 0 0) (some a.1)

/-- The adjustment of the limit of learnt clauses (lines 1221-1231). -/
def adjustLearnts (s : Solver) : Solver :=
  if s.learntsize_adjust_cnt - 1 = 0 then
    { s with learntsize_adjust_confl := s.learntsize_adjust_confl * s.learntsize_adjust_inc,
             learntsize_adjust_cnt := toInt (s.learntsize_adjust_confl * s.learntsize_adjust_inc),
             max_learnts := s.max_learnts * s.learntsize_inc }
  else { s with learntsize_adjust_cnt := s.learntsize_adjust_cnt - 1 }

/-- The conflict branch of the loop of `search` (lines 1183-1231) after `propagate`
returned the conflict `confl`; `none` in the first component is to go on with the loop. -/
def searchConflict (fuel : Nat) (s : Solver) (confl : CRef) : Option (Option lbool × Solver) :=
  if decisionLevel s = 0 then some (some l_False, countConflict s)
  else
    match analyze fuel (countConflict s) confl with
    | none => none
    | some r =>
      match (if r.1.out_learnt.length = 1 then learnUnit (cancelUntil r.2 r.1.out_btlevel) r.1
             else learnClause (cancelUntil r.2 r.1.out_btlevel) r.1 confl) with
      | none => none
      | some s1 => some (none, adjustLearnts (claDecayActivity (varDecayActivity s1)))

def countDecision (s : Solver) : Solver := { s with decisions := s.decisions + 1 }

def setDecisionFlag (s : Solver) (x : Var) : Solver :=
  { s with decisionVars := Function.update s.decisionVars x true }

def noteDecisionLevel (s : Solver) : Solver :=
  if decisionLevel s > s.max_decision_level then
    { s with max_decision_level := decisionLevel s } else s

/-- The simplification and the reduction of the learnt clauses in the no-conflict branch
of `search` (lines 1241-1247); `false` in the first component is the exit `return l_False`. -/
def searchSimplify (fuel : Nat) (s : Solver) : Option (Bool × Solver) :=
  match (if decisionLevel s = 0 then simplify fuel s else some (true, s)) with
  | none => none
  | some (false, s1) => some (false, s1)
  | some (true, s1) =>
    if ((s1.learnts.length : Int) - (nAssigns s1 : Int) : ℚ) ≥ s1.max_learnts then
      (reduceDB s1).map (fun t => (true, t))
    else some (true, s1)

/-- The choice of the next decision (lines 1249-1273): the next assumption, or
`pickBranchLit`. -/
def searchPick (s : Solver) : Option (AssumeResult × Solver) :=
  match assumeLoop (s.assumptions.length - decisionLevel s) s with
  | none => none
  | some (AssumeResult.failed, s1) => some (AssumeResult.failed, s1)
  | some (AssumeResult.next (some l), s1) => some (AssumeResult.next (some l), s1)
  | some (AssumeResult.next none, s1) =>
    some (AssumeResult.next (pickBranchLit (countDecision s1)).1,
          (pickBranchLit (countDecision s1)).2)

/-- The new decision level and the enqueue of the decision (lines 1275-1281). -/
def searchDecide (s : Solver) (next : Lit) : Option Solver :=
  (uncheckedEnqueue (setDecisionFlag (newDecisionLevel s) (var next)) next none).map
    noteDecisionLevel

/-- The no-conflict branch of the loop of `search` (lines 1234-1282); `conflictC` is the
last argument; `none` in the first component is to go on with the loop. -/
def searchNoConflict (fuel : Nat) (s : Solver) (nof_conflicts : Int) (conflictC : Nat) :
    Option (Option lbool × Solver) :=
  if (nof_conflicts ≥ 0 ∧ (conflictC : Int) ≥ nof_conflicts) ∨ withinBudget s = false then
    some (some l_Undef, cancelUntil s 0)
  else
    match searchSimplify fuel s with
    | none => none
    | some (false, s1) => some (some l_False, s1)
    | some (true, s1) =>
      match searchPick s1 with
      | none => none
      | some (AssumeResult.failed, s2) => some (some l_False, s2)
      | some (AssumeResult.next none, s2) => some (some l_True, s2)
      | some (AssumeResult.next (some next), s2) =>
        (searchDecide s2 next).map (fun t => (none, t))

/-- The loop `for (;;)` of `search` (lines 1180-1283); the last argument is `conflictC`. -/
def searchLoop (nof_conflicts : Int) : Nat → Solver → Nat → Option (lbool × Solver)
  | 0, _, _ => none
  | fuel + 1, s, conflictC =>
    match propagate (fuel + 1) s with
    | none => none
    | some (some confl, s1) =>
      match searchConflict (fuel + 1) s1 confl with
      | none => none
      | some (some st, s2) => some (st, s2)
      | some (none, s2) => searchLoop nof_conflicts fuel s2 (conflictC + 1)
    | some (none, s1) =>
      match searchNoConflict (fuel + 1) s1 nof_conflicts conflictC with
      | none => none
      | some (some st, s2) => some (st, s2)
      | some (none, s2) => searchLoop nof_conflicts fuel s2 conflictC

def countStart (s : Solver) : Solver := { s with starts := s.starts + 1 }

/-- `Solver::search` (lines 1170-1284). -/
def search (fuel : Nat) (s : Solver) (nof_conflicts : Int) : Option (lbool × Solver) :=
  if s.ok = false then none
  else searchLoop nof_conflicts fuel (countStart s) 0

/-- The greatest value of an `int`. -/
def INT_MAX : Nat := 2147483647

/-- The first loop of `luby` (line 1318); the result is `(size, seq)`.  The variables are
`int`: a value of `x + 1` (in the test) or of `2*size+1` above `INT_MAX` is a signed overflow,
which is `none`. -/
def lubyUp (x : Nat) : Nat → Nat → Nat → Option (Nat × Nat)
  | 0, _, _ => none
  | fuel + 1, size, seq =>
    if INT_MAX < x + 1 then none
    else if size < x + 1 then
      if INT_MAX < 2 * size + 1 then none else lubyUp x fuel (2 * size + 1) (seq + 1)
    else some (size, seq)

/-- The second loop of `luby` (lines 1320-1324); the result is `seq`. -/
def lubyDown : Nat → Nat → Nat → Nat → Option Nat
  | 0, _, _, _ => none
  | fuel + 1, size, seq, x =>
    if size - 1 ≠ x then lubyDown fuel ((size - 1) / 2) (seq - 1) (x % ((size - 1) / 2))
    else some seq

/-- The function `luby` (lines 1313-1327).  The argument `x` is an `int`: for `x = INT_MAX`
(and for a number that is no `int`) the sum `x + 1` of line 1318 overflows and the result is
`none`. -/
def luby (y : ℚ) (x : Nat) : Option ℚ :=
  match lubyUp x (x + 2) 1 0 with
  | none => none
  | some r =>
    match lubyDown (x + 2) r.1 r.2 x with
    | none => none
    | some seq1 => some (y ^ seq1)

/-- The base of the restart interval (line 1372). -/
def restBase (s : Solver) (curr_restarts : Nat) : Option ℚ :=
  if s.luby_restart then luby s.restart_inc curr_restarts
  else some (s.restart_inc ^ curr_restarts)

/-- The loop `while (status == l_Undef)` of `solve_` (lines 1371-1411); the last argument
is `curr_restarts`. -/
def solveLoop : Nat → Solver → Nat → Option (lbool × Solver)
  | 0, _, _ => none
  | fuel + 1, s, curr_restarts =>
    match restBase s curr_restarts with
    | none => none
    | some rb =>
      match search (fuel + 1) s (toInt (rb * s.restart_first)) with
      | none => none
      | some r =>
        if withinBudget r.2 = false then some r
        else if r.1 = l_Undef then solveLoop fuel r.2 (curr_restarts + 1)
        else some r

/-- The clearing of `model` and `conflict` at the start of `solve_` (lines 1332-1333). -/
def clearResult (s : Solver) : Solver := { s with model := [], conflict := [] }

/-- The initialisation of the limits in `solve_` (lines 1355-1359). -/
def initLimits (s : Solver) : Solver :=
  { s with solves := s.solves + 1,
           max_learnts := (nClauses s : ℚ) * s.learntsize_factor,
           learntsize_adjust_confl := s.learntsize_adjust_start_confl,
           learntsize_adjust_cnt := s.learntsize_adjust_start_confl }

def setModel (s : Solver) (m : List lbool) : Solver := { s with model := m }

/-- The writes of `solve_` after the search (lines 1417-1422). -/
def solveResult (s : Solver) (status : lbool) : Solver :=
  if status = l_True then setModel s ((List.range (nVars s)).map (valueVar s))
  else if status = l_False ∧ s.conflict.length = 0 then setOk s false
  else s

/-- `Solver::solve_` (lines 1330-1426); the assumptions are the member `assumptions`;
`notifyCNFUnits` has nothing to notify and only asserts the decision level. -/
def solve_ (fuel : Nat) (s : Solver) : Option (lbool × Solver) :=
  if s.ok = false then some (l_False, clearResult s)
  else if decisionLevel s ≠ 0 then none
  else
    match solveLoop fuel (initLimits (clearResult s)) 0 with
    | none => none
    | some r => some (r.1, cancelUntil (solveResult r.2 r.1) 0)

end Minisat


namespace Minisat
open lbool

/-! ## Auxiliary definitions for the proofs -/

/-- The part of the state that `propagate` leaves alone: the fields that `propagate` may
write are reset to fixed values.  Two states with the same `propKey` agree on every other
field. -/
def propKey (s : Solver) : Solver :=
  { s with assigns := fun _ => l_Undef, vardata := fun _ => mkVarData none 0, trail := [],
           qhead := 0, watches := fun _ => [], dirty := fun _ => false,
           ca := { s.ca with cl := fun _ => emptyClause }, symmetry_units := [],
           propagations := 0, simpDB_props := 0 }

/-- The part of the state that `uncheckedEnqueue` leaves alone. -/
def enqKey (s : Solver) : Solver :=
  { s with assigns := fun _ => l_Undef, vardata := fun _ => mkVarData none 0, trail := [] }

/-- The part of the state that the loop of `cancelUntil` leaves alone. -/
def cancelKey (s : Solver) : Solver :=
  { s with decisionVars := fun _ => false, assigns := fun _ => l_Undef,
           polarity := fun _ => false, order_heap := [] }

/-- The part of the state that `cancelUntil` leaves alone. -/
def cancelUntilKey (s : Solver) : Solver :=
  { s with decisionVars := fun _ => false, assigns := fun _ => l_Undef,
           polarity := fun _ => false, order_heap := [], qhead := 0, trail := [],
           trail_lim := [] }

/-- The part of the state that `analyze` leaves alone: the marks in `seen`, the activities,
the list `analyze_toclear` and the counters of literals are reset. -/
def anaKey (s : Solver) : Solver :=
  { s with seen := fun _ => 0, activity := fun _ => 0, var_inc := 0, cla_inc := 0,
           analyze_toclear := [], max_literals := 0, tot_literals := 0,
           ca := { s.ca with cl := fun cr => { s.ca.cl cr with activity := 0 } } }

/-- The solver after `n` calls of `newVar(l_Undef, true)` on the initial state. -/
def exVars : Nat → Solver
  | 0 => Solver.init
  | n + 1 => (newVar (exVars n) l_Undef true).2

/-- The state after a call sequence of `addClause_` (fuel 20 for each call), starting from
`s`; a call that does not return leaves the state as it is. -/
def exAdd (s : Solver) : List (List Lit) → Solver
  | [] => s
  | c :: cs =>
    match addClause_ 20 s c with
    | some r => exAdd r.2 cs
    | none => exAdd s cs

/-- The state after the decision `p` (`searchDecide`, lines 1275-1281 of `search`); a failing
enqueue leaves the state as it is. -/
def exDecide (s : Solver) (p : Lit) : Solver :=
  match searchDecide s p with
  | some t => t
  | none => s

/-- Example: two variables, the clause `(not x0, x1)`, the decision `x0`. -/
def exUnit : Solver := exDecide (exAdd (exVars 2) [[1, 2]]) 0

end Minisat


namespace Minisat
open lbool

/-! ## Invariants of the solver state

The predicates below describe the states that the operations of the solver produce.  They are
stated over the members of `Solver` and are proved to hold initially and to be kept by the
operations. -/

/-- The clause `cr` is in one of the two clause lists. -/
def Listed (s : Solver) (cr : CRef) : Prop := cr ∈ s.clauses ∨ cr ∈ s.learnts

/-- An attached clause: listed and not marked as removed. -/
def Attached (s : Solver) (cr : CRef) : Prop := Listed s cr ∧ (s.ca.cl cr).mark ≠ 1

/-- All literals of the clause are false under the current assignment. -/
def Falsified (s : Solver) (cr : CRef) : Prop :=
  ∀ l ∈ (s.ca.cl cr).lits, value s l = l_False

/-- The clause is unit under the current assignment: the literal at one position is
unassigned and the literals at all other positions are false. -/
def UnitUnder (s : Solver) (cr : CRef) : Prop :=
  ∃ i, i < (s.ca.cl cr).lits.length ∧ value s ((s.ca.cl cr).get i) = l_Undef ∧
    ∀ j, j < (s.ca.cl cr).lits.length → j ≠ i → value s ((s.ca.cl cr).get j) = l_False

/-- The literal `l` is one of the two watched literals `c[0]`, `c[1]`. -/
def Clause.watching (c : Clause) (l : Lit) : Prop := c.get 0 = l ∨ c.get 1 = l

/-- The trail, the assignment and the levels fit together. -/
structure TrailInv (s : Solver) : Prop where
  true_of_mem : ∀ l ∈ s.trail, value s l = l_True
  mem_of_assigned : ∀ v, s.assigns v ≠ l_Undef → ∃ l ∈ s.trail, var l = v
  nodup : (s.trail.map var).Nodup
  lim_le : ∀ x ∈ s.trail_lim, x ≤ s.trail.length
  lim_sorted : s.trail_lim.Sorted (fun a b => a ≤ b)
  level_take : ∀ j, j < s.trail_lim.length →
    ∀ l ∈ s.trail.take (s.trail_lim.getD j 0), level s (var l) ≤ j
  level_drop : ∀ j, j < s.trail_lim.length →
    ∀ l ∈ s.trail.drop (s.trail_lim.getD j 0), j < level s (var l)
  level_le : ∀ l ∈ s.trail, level s (var l) ≤ decisionLevel s

/-- The two-watched-literal scheme, for a propagation head `q`: every attached clause is
watched through its first two literals, the watchers of a list belong to clauses watching
the negation of the literal of the list, all references lie inside the arena, and a clause
with a false watched literal whose negation is among the first `q` trail literals has a true
literal of at most that level. -/
structure WatchInv (s : Solver) (q : Nat) : Prop where
  q_le : q ≤ s.trail.length
  lim_le_q : ∀ x ∈ s.trail_lim, x ≤ q
  size : ∀ cr, Attached s cr → 2 ≤ (s.ca.cl cr).lits.length
  nodup : ∀ cr, Attached s cr → (s.ca.cl cr).lits.Nodup
  watched : ∀ cr, Attached s cr → ∀ l, (s.ca.cl cr).watching l →
    ∃ w ∈ s.watches (neg l), w.cref = cr
  watcher : ∀ l, ∀ w ∈ s.watches l, (s.ca.cl w.cref).mark ≠ 1 →
    Listed s w.cref ∧ (s.ca.cl w.cref).watching (neg l) ∧
    (w.blocker ∈ (s.ca.cl w.cref).lits ∨
      (value s w.blocker = l_False ∧ level s (var w.blocker) = 0))
  removed_dirty : ∀ l, ∀ w ∈ s.watches l, (s.ca.cl w.cref).mark = 1 → s.dirty l = true
  crefs_nodup : ∀ l, ((s.watches l).map Watcher.cref).Nodup
  listed_lt : ∀ cr, Listed s cr → cr < s.ca.size
  watcher_lt : ∀ l, ∀ w ∈ s.watches l, w.cref < s.ca.size
  propagated : ∀ cr, Attached s cr → ∀ l, (s.ca.cl cr).watching l → value s l = l_False →
    neg l ∈ s.trail.take q →
    ∃ t ∈ (s.ca.cl cr).lits, value s t = l_True ∧ level s (var t) ≤ level s (var l)

/-- Every reason is an attached clause whose first literal is the literal implied and whose
other literals are false through literals that come earlier on the trail. -/
def ReasonInv (s : Solver) : Prop :=
  ∀ (pre : List Lit) (l : Lit) (post : List Lit) (cr : CRef),
    s.trail = pre ++ l :: post → reason s (var l) = some cr →
    Attached s cr ∧ (s.ca.cl cr).get 0 = l ∧ ∀ t ∈ (s.ca.cl cr).lits.drop 1, neg t ∈ pre

/-- The variables in use are below `nVars()`, no variable is released, the dirty lists are
recorded, no clause carries a forwarding reference and `seen` is clear. -/
structure VarInv (s : Solver) : Prop where
  trail_lt : ∀ l ∈ s.trail, var l < nVars s
  lits_lt : ∀ cr, Attached s cr → ∀ l ∈ (s.ca.cl cr).lits, var l < nVars s
  watches_nil : ∀ l, nVars s ≤ var l → s.watches l = []
  heap_lt : ∀ v ∈ s.order_heap, v < nVars s
  free_nil : s.free_vars = []
  released_nil : s.released_vars = []
  dirties : ∀ l, s.dirty l = true → l ∈ s.dirties
  not_reloced : ∀ cr, (s.ca.cl cr).reloced = false
  seen0 : ∀ v, s.seen v = 0

/-- The decisions below the number of assumptions are the assumptions: a trail literal
without reason at level `j + 1 <= assumptions.size()` is `assumptions[j]`. -/
def AssumInv (s : Solver) : Prop :=
  ∀ l ∈ s.trail, reason s (var l) = none → ∀ j, level s (var l) = j + 1 →
    j < s.assumptions.length → l = s.assumptions.getD j 0

/-- Every unassigned decision variable is in the order heap. -/
def HeapInv (s : Solver) : Prop :=
  ∀ v, v < nVars s → s.decision v = true → s.assigns v = l_Undef → v ∈ s.order_heap

/-- The invariants that the watcher loop carries along with the loop invariant. -/
structure AuxInv (s : Solver) : Prop where
  rs : ReasonInv s
  vr : VarInv s
  asm : AssumInv s
  hp : HeapInv s

/-- The clause has a literal of the current decision level. -/
def TopLit (s : Solver) (cr : CRef) : Prop :=
  ∃ l ∈ (s.ca.cl cr).lits, level s (var l) = decisionLevel s

/-- The state `t` agrees with `s` on the trail, the assignment, the variable data, the order
heap and the other members about the variables. -/
structure Frame (s t : Solver) : Prop where
  trail : t.trail = s.trail
  trail_lim : t.trail_lim = s.trail_lim
  assigns : t.assigns = s.assigns
  vardata : t.vardata = s.vardata
  dirty : t.dirty = s.dirty
  dirties : t.dirties = s.dirties
  order_heap : t.order_heap = s.order_heap
  free_vars : t.free_vars = s.free_vars
  released_vars : t.released_vars = s.released_vars
  seen : t.seen = s.seen
  assumptions : t.assumptions = s.assumptions
  decision : t.decision = s.decision
  next_var : t.next_var = s.next_var
  qhead : t.qhead = s.qhead
  ok : t.ok = s.ok

/-- The state `t` agrees with `s` on everything that the invariants read, apart from `seen`:
the clauses may differ in their activity only. -/
structure AFrame (s t : Solver) : Prop where
  trail : t.trail = s.trail
  trail_lim : t.trail_lim = s.trail_lim
  assigns : t.assigns = s.assigns
  vardata : t.vardata = s.vardata
  watches : t.watches = s.watches
  dirty : t.dirty = s.dirty
  dirties : t.dirties = s.dirties
  clauses : t.clauses = s.clauses
  learnts : t.learnts = s.learnts
  order_heap : t.order_heap = s.order_heap
  free_vars : t.free_vars = s.free_vars
  released_vars : t.released_vars = s.released_vars
  assumptions : t.assumptions = s.assumptions
  decision : t.decision = s.decision
  next_var : t.next_var = s.next_var
  qhead : t.qhead = s.qhead
  ok : t.ok = s.ok
  conflict : t.conflict = s.conflict
  ccmin_mode : t.ccmin_mode = s.ccmin_mode
  symmetry_units : t.symmetry_units = s.symmetry_units
  ca_size : t.ca.size = s.ca.size
  ca_wasted : t.ca.wasted = s.ca.wasted
  lits : ∀ cr, (t.ca.cl cr).lits = (s.ca.cl cr).lits
  mark : ∀ cr, (t.ca.cl cr).mark = (s.ca.cl cr).mark
  reloced : ∀ cr, (t.ca.cl cr).reloced = (s.ca.cl cr).reloced
  learnt : ∀ cr, (t.ca.cl cr).learnt = (s.ca.cl cr).learnt

/-- The number of marked literals among the trail positions `lim .. idx - 1`. -/
def seenCount (seen : Var → Nat) (trail : List Lit) (lim idx : Nat) : Nat :=
  ((trail.take idx).drop lim).countP (fun l => decide (seen (var l) ≠ 0))

/-- The invariant of the resolution loop of `analyze` for the state `s0` at the call, the
start `lim` of the current decision level and the position `idx` of the walk: the literals
collected have different variables, are marked, false and of a lower positive level; the
marked variables are those collected and those of the current level still to visit; and
`pathC` counts the latter. -/
structure AnaInv (s0 : Solver) (lim : Nat) (a : AnalyzeAcc) (idx : Nat) : Prop where
  key : anaKey a.s = anaKey s0
  out_nodup : (a.out.map var).Nodup
  out_seen : ∀ q ∈ a.out, a.s.seen (var q) = 1
  out_level : ∀ q ∈ a.out, 0 < level s0 (var q) ∧ level s0 (var q) < decisionLevel s0
  out_false : ∀ q ∈ a.out, value s0 q = l_False
  seen_where : ∀ v, a.s.seen v ≠ 0 →
    (∃ q ∈ a.out, var q = v) ∨ (∃ l ∈ (s0.trail.take idx).drop lim, var l = v)
  count : a.pathC = (seenCount a.s.seen s0.trail lim idx : Int)

/-- The invariants of a state in which the solver is at rest or at the head of the loop of
`search`. -/
structure Inv (s : Solver) : Prop where
  tr : TrailInv s
  wt : WatchInv s s.qhead
  ax : AuxInv s

/-- The clause `cr` needs no visit for the literal `p`: when it watches `neg p` it has a true
literal of at most the level of `p`. -/
def Handled (s : Solver) (p : Lit) (cr : CRef) : Prop :=
  (s.ca.cl cr).watching (neg p) →
    ∃ t ∈ (s.ca.cl cr).lits, value s t = l_True ∧ level s (var t) ≤ level s (var p)

/-- The state of the watcher loop of `propagate` for the literal `p = trail[q]`: `pre` are the
watchers written back so far, `ws` those still to visit. -/
structure LoopInv (s : Solver) (p : Lit) (q : Nat) (pre ws : List Watcher) : Prop where
  tr : TrailInv s
  wt : WatchInv s q
  wl : s.watches p = pre ++ ws
  hp : s.trail.getD q 0 = p
  hq : q < s.trail.length
  clean : ∀ w ∈ ws, (s.ca.cl w.cref).mark ≠ 1
  pending : ∀ cr, Attached s cr → Handled s p cr ∨ ∃ w ∈ ws, w.cref = cr

/-- The state carried by a `WStep`, if any. -/
def WStep.state? : WStep → Option Solver
  | WStep.keep _ s => some s
  | WStep.move s => some s
  | WStep.conflict _ s => some s
  | WStep.fail => none

/-- The step with a function applied to its state. -/
def WStep.mapState (f : Solver → Solver) : WStep → WStep
  | WStep.keep w s => WStep.keep w (f s)
  | WStep.move s => WStep.move (f s)
  | WStep.conflict w s => WStep.conflict w (f s)
  | WStep.fail => WStep.fail

end Minisat


namespace Minisat
open lbool

/-! ## Restart sequence -/

/-- The exponent of the Luby sequence as a recurrence: `e(x) = k - 1` when
`x + 1 = 2^k - 1`; otherwise `e(x) = e(x - (2^(k-1) - 1))` for the `k` with
`2^(k-1) ≤ x + 1 < 2^k - 1`. -/
inductive LubyExp : Nat → Nat → Prop where
  | top (x k : Nat) (h : x + 1 = 2 ^ k - 1) : LubyExp x (k - 1)
  | sub (x k e : Nat) (h1 : 2 ^ (k - 1) ≤ x + 1) (h2 : x + 1 < 2 ^ k - 1)
      (h : LubyExp (x - (2 ^ (k - 1) - 1)) e) : LubyExp x e

/-! ## Watched literals after `propagate` -/

/-- The two watched literals of the clause are both unassigned, or one of them is true. -/
def WatchedOk (s : Solver) (cr : CRef) : Prop :=
  (value s ((s.ca.cl cr).get 0) = l_Undef ∧ value s ((s.ca.cl cr).get 1) = l_Undef) ∨
    value s ((s.ca.cl cr).get 0) = l_True ∨ value s ((s.ca.cl cr).get 1) = l_True

/-- The state after `propagate` (fuel 20); a call that does not return leaves the state as
it is. -/
def exProp (s : Solver) : Solver :=
  match propagate 20 s with
  | some r => r.2
  | none => s

/-- Example: three variables and the clause `(x0, x1, x2)`.  The decision `not x1` moves the
watch of `x1` to `x2` (the watcher of `x0` keeps the blocker `x1`); after backtracking to
level 0 the decisions `x1` and `not x0` follow.  The state is the one before the last
`propagate`. -/
def exBlocker : Solver :=
  exDecide (exProp (exDecide (cancelUntil (exProp (exDecide (exAdd (exVars 3) [[0, 2, 4]]) 3)) 0)
    2)) 1

/-! ## Symmetry units at level 0 -/

/-- The state after the enqueue of a unit at level 0 (`uncheckedEnqueue(l)`); a failing
enqueue leaves the state as it is. -/
def exEnqueue (s : Solver) (l : Lit) : Solver :=
  match uncheckedEnqueue s l none with
  | some t => t
  | none => s

/-- The state after `search` has learnt the unit clause `(l)` with `out_symmetry` set (lines
1194-1199): the variable is inserted into `symmetry_units` and the literal is enqueued. -/
def exLearnSymUnit (s : Solver) (l : Lit) : Solver :=
  match learnUnit s { out_learnt := [l], out_btlevel := 0, out_symmetry := true, comp := [] } with
  | some t => t
  | none => s

/-- Example: three variables and the clause `(x0, not x1, not x2)`; `x1` becomes a symmetry
unit and is propagated (the watch of `not x1` moves to `not x2`); then the unit `x2` is
enqueued.  The state is the one before the `propagate` that derives `x0`. -/
def exSymUnit : Solver :=
  exEnqueue (exProp (exLearnSymUnit (exAdd (exVars 3) [[0, 3, 5]]) 2)) 4

/-! ## Writing the clauses in DIMACS format (`Solver.cc` lines 1460-1530)

The text written to the file is a string; `fprintf` with `%d` writes the decimal numeral. -/

/-- `mapVar` (lines 1460-1467): `map` holds `-1` for a variable without a number; the result
is `map[x]` with the new `map` and `max`. -/
def mapVar (x : Var) (map : List Int) (max : Nat) : Nat × List Int × Nat :=
  if map.length ≤ x ∨ map.getD x 0 = -1 then
    (max, (map ++ List.replicate (x + 1 - map.length) (-1)).set x (max : Int), max + 1)
  else ((map.getD x 0).toNat, map, max)

/-- The text of `fprintf(f, "%s%d", sign ? "-" : "", n)`. -/
def litText (sgn : Bool) (n : Nat) : String := (if sgn then "-" else "") ++ toString n

/-- The loop of `toDimacs(FILE*, Clause&, ...)` (lines 1474-1476) over the literals. -/
def dimacsLits (s : Solver) : List Lit → List Int → Nat → String × List Int × Nat
  | [], map, max => ("", map, max)
  | l :: ls, map, max =>
    if value s l ≠ l_False then
      ((litText (sign l) ((mapVar (var l) map max).1 + 1) ++ " ") ++
         (dimacsLits s ls (mapVar (var l) map max).2.1 (mapVar (var l) map max).2.2).1,
       (dimacsLits s ls (mapVar (var l) map max).2.1 (mapVar (var l) map max).2.2).2.1,
       (dimacsLits s ls (mapVar (var l) map max).2.1 (mapVar (var l) map max).2.2).2.2)
    else dimacsLits s ls map max

/-- `Solver::toDimacs(FILE*, Clause&, vec<Var>&, Var&)` (lines 1470-1478). -/
def toDimacsClause (s : Solver) (c : Clause) (map : List Int) (max : Nat) :
    String × List Int × Nat :=
  if satisfied s c then ("", map, max)
  else ((dimacsLits s c.lits map max).1 ++ "0\n", (dimacsLits s c.lits map max).2.1,
        (dimacsLits s c.lits map max).2.2)

/-- The inner loop of lines 1506-1511: the variables of the literals that are not false get
their numbers. -/
def mapLits (s : Solver) : List Lit → List Int → Nat → List Int × Nat
  | [], map, max => (map, max)
  | l :: ls, map, max =>
    if value s l ≠ l_False then
      mapLits s ls (mapVar (var l) map max).2.1 (mapVar (var l) map max).2.2
    else mapLits s ls map max

/-- The loop of lines 1506-1512 over `clauses`. -/
def mapClauses (s : Solver) : List CRef → List Int → Nat → List Int × Nat
  | [], map, max => (map, max)
  | cr :: crs, map, max =>
    if satisfied s (s.ca.cl cr) then mapClauses s crs map max
    else mapClauses s crs (mapLits s (s.ca.cl cr).lits map max).1
           (mapLits s (s.ca.cl cr).lits map max).2

/-- The loop of lines 1519-1522 over the assumptions; a false assumption fails the assertion. -/
def dimacsAssumps (s : Solver) : List Lit → List Int → Nat → Option (String × List Int × Nat)
  | [], map, max => some ("", map, max)
  | a :: as, map, max =>
    if value s a = l_False then none
    else
      (dimacsAssumps s as (mapVar (var a) map max).2.1 (mapVar (var a) map max).2.2).map
        (fun r => ((litText (sign a) ((mapVar (var a) map max).1 + 1) ++ " 0\n") ++ r.1,
                   r.2.1, r.2.2))

/-- The loop of lines 1524-1525 over `clauses`. -/
def dimacsClauses (s : Solver) : List CRef → List Int → Nat → String × List Int × Nat
  | [], map, max => ("", map, max)
  | cr :: crs, map, max =>
    ((toDimacsClause s (s.ca.cl cr) map max).1 ++
       (dimacsClauses s crs (toDimacsClause s (s.ca.cl cr) map max).2.1
         (toDimacsClause s (s.ca.cl cr) map max).2.2).1,
     (dimacsClauses s crs (toDimacsClause s (s.ca.cl cr) map max).2.1
         (toDimacsClause s (s.ca.cl cr) map max).2.2).2.1,
     (dimacsClauses s crs (toDimacsClause s (s.ca.cl cr) map max).2.1
         (toDimacsClause s (s.ca.cl cr) map max).2.2).2.2)

/-- The count of lines 1501-1504. -/
def countUnsatisfied (s : Solver) : Nat :=
  (s.clauses.filter (fun cr => !satisfied s (s.ca.cl cr))).length

/-- `Solver::toDimacs(FILE*, const vec<Lit>&)` (lines 1491-1530): the text written to `f`. -/
def toDimacs (s : Solver) (assumps : List Lit) : Option String :=
  if s.ok = false then some "p cnf 1 2\n1 0\n-1 0\n"
  else
    match dimacsAssumps s assumps (mapClauses s s.clauses [] 0).1
        (mapClauses s s.clauses [] 0).2 with
    | none => none
    | some a =>
      some (((((("p cnf " ++ toString (mapClauses s s.clauses [] 0).2) ++ " ") ++
        toString (countUnsatisfied s + assumps.length)) ++ "\n") ++ a.1) ++
        (dimacsClauses s s.clauses a.2.1 a.2.2).1)

/-! ## Registering a symmetry (`Solver.cc` lines 282-304 and 413-437) -/

/-- Modelled from the spec: the symmetry object of section 3 (`Symmetry.h` is not among the
sources): the identifier and the arrays `from[]`, `to[]` given to the constructor. -/
structure Symmetry where
  id : Nat
  src : List Lit
  tgt : List Lit
  deriving DecidableEq, Repr

/-- Modelled from the spec: `image(l)` is a table lookup, the identity on fixed literals
(section 4.9). -/
def Symmetry.getSymmetrical (σ : Symmetry) (l : Lit) : Lit :=
  ((σ.src.zip σ.tgt).lookup l).getD l

/-- Modelled from the spec: `inverse(l)` is a table lookup, the identity on fixed literals
(section 4.9). -/
def Symmetry.getInverse (σ : Symmetry) (l : Lit) : Lit :=
  ((σ.tgt.zip σ.src).lookup l).getD l

/-- Modelled from the spec: the members of `class Solver` read or written by `addSymmetry`
that are not in `Solver` (`Solver.h` is not among the sources): `symmetries`,
`watcherSymmetries` (section 3), the counter `invertingSyms`, the option
`varOrderOptimization` (`inverting-opt`) and the flag `debug`. -/
structure SymSolver where
  solver : Solver
  symmetries : List Symmetry
  watcherSymmetries : Lit → List Symmetry
  invertingSyms : Nat
  varOrderOptimization : Bool
  debug : Bool

/-- How a call ends that can fail an assertion: it returns with the state `done`, or the
assertion fails in the state `aborted`. -/
inductive Outcome (α : Type) where
  | done (s : α)
  | aborted (s : α)

/-- Equality of the two `std::set<Lit>` that hold the given literals. -/
def sameSet (a b : List Lit) : Bool :=
  a.all (fun l => decide (l ∈ b)) && b.all (fun l => decide (l ∈ a))

/-- The inner loop of `testSymmetry` (lines 424-433) over the clauses `clauses[j]`: some
clause of the size of `orig` has the set of inverse images equal to the set of `orig`. -/
def hasSymmetricalIn (inv : Lit → Lit) (s : Solver) (orig : Clause) : List CRef → Bool
  | [] => false
  | cr :: crs =>
    if orig.size = (s.ca.cl cr).size ∧ sameSet ((s.ca.cl cr).lits.map inv) orig.lits = true
    then true
    else hasSymmetricalIn inv s orig crs

/-- The outer loop of `testSymmetry` (lines 415-435) over the clauses `clauses[i]`; `all` is
the range `clauses[0..nClauses())` of the inner loop.  `none` is a failed assertion. -/
def testSymmetryLoop (img inv : Lit → Lit) (s : Solver) (all : List CRef) :
    List CRef → Option Bool
  | [] => some true
  | cr :: crs =>
    if sameSet ((s.ca.cl cr).lits.map img) (s.ca.cl cr).lits = true ∨
        hasSymmetricalIn inv s (s.ca.cl cr) all = true then
      testSymmetryLoop img inv s all crs
    else none

/-- `Solver::testSymmetry` (lines 413-437) for a symmetry with the functions
`getSymmetrical = img` and `getInverse = inv`.  Reading `clauses[i]` beyond the end of the
vector is a failure. -/
def testSymmetry (debug : Bool) (img inv : Lit → Lit) (s : Solver) : Option Bool :=
  if debug = false then some true
  else if nClauses s > s.clauses.length then none
  else testSymmetryLoop img inv s (s.clauses.take (nClauses s)) (s.clauses.take (nClauses s))

/-- The body of the loop of `addSymmetry` (lines 288-297) after the assertion, for the pair
`(from[i], to[i])`; the flag is `isInverting`. -/
def addSymmetryStep (sym : Symmetry) (st : SymSolver) (f t : Lit) (isInverting : Bool) :
    SymSolver × Bool :=
  if f = neg t then
    (if st.varOrderOptimization then
       { st with watcherSymmetries :=
                   Function.update st.watcherSymmetries f (st.watcherSymmetries f ++ [sym]),
                 solver := varBumpActivityBy st.solver (var f) (- st.solver.var_inc) }
     else
       { st with watcherSymmetries :=
                   Function.update st.watcherSymmetries f (st.watcherSymmetries f ++ [sym]) },
     true)
  else
    ({ st with watcherSymmetries :=
                 Function.update st.watcherSymmetries f (st.watcherSymmetries f ++ [sym]) },
     isInverting)

/-- The loop of `addSymmetry` (lines 287-298) over the pairs `(from[i], to[i])`. -/
def addSymmetryLoop (sym : Symmetry) : List (Lit × Lit) → SymSolver → Bool →
    Outcome (SymSolver × Bool)
  | [], st, isInverting => Outcome.done (st, isInverting)
  | p :: rest, st, isInverting =>
    if p.1 = p.2 then Outcome.aborted (st, isInverting)
    else addSymmetryLoop sym rest (addSymmetryStep sym st p.1 p.2 isInverting).1
           (addSymmetryStep sym st p.1 p.2 isInverting).2

def pushSymmetry (st : SymSolver) (sym : Symmetry) : SymSolver :=
  { st with symmetries := st.symmetries ++ [sym] }

def countInverting (st : SymSolver) (isInverting : Bool) : SymSolver :=
  if isInverting then { st with invertingSyms := st.invertingSyms + 1 } else st

/-- `Solver::addSymmetry` (lines 282-304). -/
def addSymmetry (st : SymSolver) (src tgt : List Lit) : Outcome SymSolver :=
  if src.length ≠ tgt.length then Outcome.aborted st
  else
    match addSymmetryLoop ⟨st.symmetries.length, src, tgt⟩ (src.zip tgt)
        (pushSymmetry st ⟨st.symmetries.length, src, tgt⟩) false with
    | Outcome.aborted r => Outcome.aborted r.1
    | Outcome.done r =>
      match testSymmetry r.1.debug
          (Symmetry.getSymmetrical ⟨st.symmetries.length, src, tgt⟩)
          (Symmetry.getInverse ⟨st.symmetries.length, src, tgt⟩) r.1.solver with
      | some _ => Outcome.done (countInverting r.1 r.2)
      | none => Outcome.aborted (countInverting r.1 r.2)

/-- A solver without symmetries around the state `s`, with the debug checks on. -/
def exSym (s : Solver) : SymSolver :=
  { solver := s, symmetries := [], watcherSymmetries := fun _ => [], invertingSyms := 0,
    varOrderOptimization := false, debug := true }

/-- The literals to which `addSymmetryLoop` gets before the first pair with equal
components. -/
def pairsBefore (ps : List (Lit × Lit)) : List Lit :=
  (ps.takeWhile (fun p => decide (p.1 ≠ p.2))).map Prod.fst

/-- The state in which the call ended. -/
def Outcome.state {α : Type} : Outcome α → α
  | Outcome.done s => s
  | Outcome.aborted s => s

/-- The call ended in a failed assertion. -/
def Outcome.isAborted {α : Type} : Outcome α → Bool
  | Outcome.done _ => false
  | Outcome.aborted _ => true

/-- Example: the exchange of the variables `x0` and `x1` as a function on literals. -/
def exSwap (l : Lit) : Lit :=
  if l = 0 then 2 else if l = 2 then 0 else if l = 1 then 3 else if l = 3 then 1 else l

end Minisat

/-! ## Permutations of the symmetry library (`sat_symmetry/src/Permutation.cc`) -/

namespace cosy

/-- Modelled from the spec: the members of `class Permutation` that `Permutation.cc` uses
(`cosy/Permutation.h` is not among the sources): `_cycles` holds the elements of all cycles one
after the other, `_cycles_lim` the end index of every closed cycle, `_image` and `_inverse` are
the lookup tables (section 4.9: image and inverse are table lookups).  A `Literal` is an
integer. -/
structure Permutation where
  cycles : List Int
  cycles_lim : List Nat
  image : Int → Option Int
  inverse : Int → Option Int

/-- A new permutation: no cycle, empty tables. -/
def Permutation.empty : Permutation :=
  { cycles := [], cycles_lim := [], image := fun _ => none, inverse := fun _ => none }

/-- `Permutation::addToCurrentCycle` (lines 7-20). -/
def Permutation.addToCurrentCycle (p : Permutation) (x : Int) : Permutation :=
  if (p.cycles ++ [x]).length > 0 ∧ p.cycles.length ≠ p.cycles_lim.getLastD 0 then
    { cycles := p.cycles ++ [x], cycles_lim := p.cycles_lim,
      image := Function.update p.image ((p.cycles ++ [x]).getD (p.cycles.length - 1) 0)
                 (some ((p.cycles ++ [x]).getD p.cycles.length 0)),
      inverse := Function.update p.inverse ((p.cycles ++ [x]).getD p.cycles.length 0)
                   (some ((p.cycles ++ [x]).getD (p.cycles.length - 1) 0)) }
  else { p with cycles := p.cycles ++ [x] }

/-- Modelled from the spec: `numberOfCycles()` is the number of closed cycles. -/
def Permutation.numberOfCycles (p : Permutation) : Nat := p.cycles_lim.length

/-- `Permutation::cycle` (lines 40-46): the elements from the end of the cycle before to the
end of cycle `i`; the check `i < numberOfCycles()` fails otherwise. -/
def Permutation.cycle (p : Permutation) (i : Nat) : Option (List Int) :=
  if i < p.numberOfCycles then
    some ((p.cycles.take (p.cycles_lim.getD i 0)).drop
      (if i = 0 then 0 else p.cycles_lim.getD (i - 1) 0))
  else none

/-- `Permutation::lastElementInCycle` (lines 48-53). -/
def Permutation.lastElementInCycle (p : Permutation) (i : Nat) : Option Int :=
  if i < p.numberOfCycles then some (p.cycles.getD (p.cycles_lim.getD i 0 - 1) 0) else none

def Permutation.pushLim (p : Permutation) (sz : Nat) : Permutation :=
  { p with cycles_lim := p.cycles_lim ++ [sz] }

def Permutation.link (p : Permutation) (e i : Int) : Permutation :=
  { p with image := Function.update p.image e (some i),
           inverse := Function.update p.inverse i (some e) }

/-- `Permutation::closeCurrentCycle` (lines 22-38); `none` is a failed check. -/
def Permutation.closeCurrentCycle (p : Permutation) : Option Permutation :=
  if p.cycles_lim.getLastD 0 = p.cycles.length then some p
  else if p.cycles.length < p.cycles_lim.getLastD 0 + 2 then none
  else
    match (p.pushLim p.cycles.length).lastElementInCycle
            ((p.pushLim p.cycles.length).cycles_lim.length - 1),
          (p.pushLim p.cycles.length).cycle
            ((p.pushLim p.cycles.length).cycles_lim.length - 1) with
    | some e, some (i :: _) => some ((p.pushLim p.cycles.length).link e i)
    | _, _ => none

/-- `Permutation::imageOf` (lines 54-56): `_image.at(element)` fails for a missing key. -/
def Permutation.imageOf (p : Permutation) (element : Int) : Option Int := p.image element

/-- `Permutation::inverseOf` (lines 57-59). -/
def Permutation.inverseOf (p : Permutation) (element : Int) : Option Int := p.inverse element

/-- A call of `addToCurrentCycle(x)` or of `closeCurrentCycle()`. -/
inductive PermOp where
  | add (x : Int)
  | close

/-- A sequence of calls on the permutation `p`. -/
def Permutation.run : List PermOp → Permutation → Option Permutation
  | [], p => some p
  | PermOp.add x :: ops, p => Permutation.run ops (p.addToCurrentCycle x)
  | PermOp.close :: ops, p =>
    match p.closeCurrentCycle with
    | none => none
    | some q => Permutation.run ops q

/-- The end indices of the cycles `cs` laid out one after the other from the offset `off`. -/
def limsOf : List (List Int) → Nat → List Nat
  | [], _ => []
  | c :: cs, off => (off + c.length) :: limsOf cs (off + c.length)

/-- The tables map every element of the closed cycle `c` to the next one, the last to the
first, and back. -/
def CycOk (img inv : Int → Option Int) (c : List Int) : Prop :=
  ∀ j, j < c.length → img (c.getD j 0) = some (c.getD ((j + 1) % c.length) 0) ∧
    inv (c.getD ((j + 1) % c.length) 0) = some (c.getD j 0)

/-- The tables link the consecutive elements of the open cycle `cur`. -/
def ChainOk (img inv : Int → Option Int) (cur : List Int) : Prop :=
  ∀ j, j + 1 < cur.length → img (cur.getD j 0) = some (cur.getD (j + 1) 0) ∧
    inv (cur.getD (j + 1) 0) = some (cur.getD j 0)

/-- The permutation `p` holds the closed cycles `cs` and the open cycle `cur`. -/
structure PermInv (p : Permutation) (cs : List (List Int)) (cur : List Int) : Prop where
  cycles_eq : p.cycles = cs.flatten ++ cur
  lims_eq : p.cycles_lim = limsOf cs 0
  two_le : ∀ c ∈ cs, 2 ≤ c.length
  closed : ∀ c ∈ cs, CycOk p.image p.inverse c
  chain : ChainOk p.image p.inverse cur

/-- Example: the cycles `(1 2 3)` and `(-1 -2 -3)`. -/
def exPerm : List PermOp :=
  [PermOp.add 1, PermOp.add 2, PermOp.add 3, PermOp.close,
   PermOp.add (-1), PermOp.add (-2), PermOp.add (-3), PermOp.close]

end cosy

namespace Minisat
open lbool

/-! ## Conflict analysis: what the parts of `analyze` establish -/

/-- What the resolution loop returns: the literals collected and the pivot `p`. -/
structure AnaPost (s0 : Solver) (lim : Nat) (res : AnalyzeAcc × Lit × List CRef) : Prop where
  key : anaKey res.1.s = anaKey s0
  out_nodup : (res.1.out.map var).Nodup
  out_seen : ∀ q ∈ res.1.out, res.1.s.seen (var q) = 1
  out_level : ∀ q ∈ res.1.out, 0 < level s0 (var q) ∧ level s0 (var q) < decisionLevel s0
  out_false : ∀ q ∈ res.1.out, value s0 q = l_False
  seen_out : ∀ v, res.1.s.seen v ≠ 0 → ∃ q ∈ res.1.out, var q = v
  pivot : res.2.1 ∈ s0.trail.drop lim

/-- Every marked variable has a literal in `analyze_toclear`. -/
def SeenCovered (s : Solver) : Prop :=
  ∀ v, s.seen v ≠ 0 → ∃ l ∈ s.analyze_toclear, var l = v

/-- What `analyze` returns for a conflict in the state `s`: the state differs in the
activities and counters only and `seen` is clear again; the learnt clause is the negation of a
trail literal `p` of the current decision level followed by false literals of different
variables and of lower positive levels; the backtrack level is the greatest of these levels (the
level of `out_learnt[1]`), or 0 for a unit clause. -/
structure AnalyzeSpec (s : Solver) (r : AnalyzeResult × Solver) : Prop where
  key : anaKey r.2 = anaKey s
  seen0 : ∀ v, r.2.seen v = 0
  shape : ∃ p tl, r.1.out_learnt = neg p :: tl ∧ p ∈ s.trail ∧
    level s (var p) = decisionLevel s ∧ (tl.map var).Nodup ∧
    (∀ q ∈ tl, value s q = l_False ∧ 0 < level s (var q) ∧
      level s (var q) ≤ r.1.out_btlevel) ∧
    r.1.out_btlevel < decisionLevel s ∧ (tl = [] → r.1.out_btlevel = 0) ∧
    (tl ≠ [] → r.1.out_btlevel = level s (var (tl.getD 0 0)))

/-- Example: three variables, the clauses `(not x0, not x1, x2)` and `(not x0, not x1, not x2)`,
the decision `x0`, propagated, and the decision `x1`: the state before the `propagate` that
finds the conflict. -/
def exConflict : Solver :=
  exDecide (exProp (exDecide (exAdd (exAdd (exVars 3) [[1, 3, 4]]) [[1, 3, 5]]) 0)) 2

/-! ## Garbage collection -/

/-- The part of the state that the garbage collection leaves alone: the arena, the watcher
lists with their dirty marks, the reasons and the two clause lists are reset. -/
def gcKey (s : Solver) : Solver :=
  { s with ca := { cl := fun _ => emptyClause, size := 0, wasted := 0 },
           watches := fun _ => [], dirty := fun _ => false, dirties := [],
           vardata := fun v => mkVarData none (s.vardata v).level,
           learnts := [], clauses := [] }

/-- The part of the state that the passes of `relocAll` after `watches.cleanAll()` leave
alone. -/
def relocKey (s : Solver) : Solver :=
  { s with ca := { cl := fun _ => emptyClause, size := 0, wasted := 0 },
           watches := fun _ => [],
           vardata := fun v => mkVarData none (s.vardata v).level,
           learnts := [], clauses := [] }

/-- The clause `cr` of the old arena has been moved to the offset `n` of the new arena. -/
def Fwd (S : Solver) (cr n : CRef) : Prop :=
  (S.ca.cl cr).reloced = true ∧ (S.ca.cl cr).relocation = n

/-- The state `S` and the new arena `tgt` in the course of `relocAll`, for the state `s0`
after `watches.cleanAll()`: a clause of the old arena is untouched, or it carries the
forwarding reference to its copy in the new arena; different clauses have different copies; the
new arena holds copies and empty slots only. -/
structure RelocInv (s0 S : Solver) (tgt : ClauseAllocator) : Prop where
  slot : ∀ cr, S.ca.cl cr = s0.ca.cl cr ∨
    ∃ n, S.ca.cl cr = forwardTo (s0.ca.cl cr) n ∧ n < tgt.size ∧ tgt.cl n = s0.ca.cl cr
  inj : ∀ cr cr' n, Fwd S cr n → Fwd S cr' n → cr = cr'
  copies : ∀ n, tgt.cl n = emptyClause ∨ ∃ cr, Fwd S cr n ∧ tgt.cl n = s0.ca.cl cr
  empty_above : ∀ n, tgt.size ≤ n → tgt.cl n = emptyClause
  att : ∀ cr n, Fwd S cr n → Attached s0 cr
  key : relocKey S = relocKey s0
  levels : ∀ v, (S.vardata v).level = (s0.vardata v).level

/-- The watcher `w'` is the watcher `w` with its reference moved. -/
def WFwd (S : Solver) (w w' : Watcher) : Prop := w'.blocker = w.blocker ∧ Fwd S w.cref w'.cref

/-- What `garbageCollect` does to the state `s`, with `φ` the new reference of a clause: the
watchers of removed clauses are gone and every other reference in the watcher lists, in
`learnts`, in `clauses` and in the reasons of the trail variables is replaced by the new one;
the new arena holds at `φ cr` the clause that the old one held at `cr`, for every attached
clause, and nothing else. -/
structure GcSpec (s s' : Solver) (φ : CRef → CRef) : Prop where
  key : gcKey s' = gcKey s
  watches : ∀ l, s'.watches l =
    ((s.watches l).filter (fun w => !isRemoved s w.cref)).map (fun w => ⟨φ w.cref, w.blocker⟩)
  learnts : s'.learnts = (s.learnts.filter (fun c => !isRemoved s c)).map φ
  clauses : s'.clauses = (s.clauses.filter (fun c => !isRemoved s c)).map φ
  reasons : ∀ l ∈ s.trail, reason s' (var l) = (reason s (var l)).map φ
  levels : ∀ v, level s' v = level s v
  live : ∀ cr, Attached s cr → φ cr < s'.ca.size ∧ s'.ca.cl (φ cr) = s.ca.cl cr
  inj : ∀ cr cr', Attached s cr → Attached s cr' → φ cr = φ cr' → cr = cr'
  arena : ∀ n, s'.ca.cl n = emptyClause ∨
    ∃ cr, Attached s cr ∧ φ cr = n ∧ s'.ca.cl n = s.ca.cl cr
  above : ∀ n, s'.ca.size ≤ n → s'.ca.cl n = emptyClause
  dirty : ∀ l, s'.dirty l = false
  dirties : s'.dirties = []
  wasted : s'.ca.wasted = 0

/-- The reference `cr` is a clause of the arena of `t` that is not deleted and is the copy of
the clause `cr0` of the arena of `s`: the literals, the header flags and the extra field are
the same. -/
def CopyOf (s t : Solver) (cr0 cr : CRef) : Prop :=
  cr < t.ca.size ∧ isRemoved t cr = false ∧ t.ca.cl cr = s.ca.cl cr0

/-! ## Compatibility sets (`Solver.cc` lines 736-777 and 1619-1649)

A compatibility set `std::set<Symmetry*>` is the increasing list of the identifiers of its
symmetries. -/

/-- Modelled from the spec: `Symmetry::stabilize(clause)` (section 4.9, `Symmetry.h` is not
among the sources): applying the symmetry to the clause yields a clause of the instance, up
to ordering.  The instance is the vector `clauses`. -/
def stabilize (s : Solver) (σ : Symmetry) (c : List Lit) : Bool :=
  s.clauses.any (fun cr => sameSet (c.map σ.getSymmetrical) (s.ca.cl cr).lits)

/-- The call `comp->insert(sym)` on the increasing list of identifiers. -/
def insertComp (i : Nat) : List Nat → List Nat
  | [] => [i]
  | j :: js => if i < j then i :: j :: js else if i = j then j :: js else j :: insertComp i js

/-- The last loop of `analyze` (lines 770-777) over the symmetries in the order of the loop:
a symmetry that is not in `comp` and stabilizes the clause is inserted. -/
def stabLoop (stab : Symmetry → Bool) : List Symmetry → List Nat → List Nat
  | [], comp => comp
  | σ :: rest, comp =>
    if σ.id ∈ comp then stabLoop stab rest comp
    else if stab σ then stabLoop stab rest (insertComp σ.id comp)
    else stabLoop stab rest comp

/-- `Solver::analyze` (lines 630-778) with the symmetries of the solver: the last loop runs
over `symmetries` from the last to the first. -/
def analyzeSym (fuel : Nat) (S : SymSolver) (confl : CRef) : Option (AnalyzeResult × Solver) :=
  match analyze fuel S.solver confl with
  | none => none
  | some r =>
    if r.1.out_symmetry = false then some r
    else some ({ r.1 with comp := stabLoop (fun σ => stabilize r.2 σ r.1.out_learnt)
                                    S.symmetries.reverse r.1.comp }, r.2)

/-- The loop of `learntSymmetryClause` (lines 1631-1637) over the symmetries in the order of
the loop: every symmetry that stabilizes the clause is inserted. -/
def stabAll (stab : Symmetry → Bool) : List Symmetry → List Nat → List Nat
  | [], comp => comp
  | σ :: rest, comp =>
    if stab σ then stabAll stab rest (insertComp σ.id comp) else stabAll stab rest comp

/-- `Solver::learntSymmetryClause(type, p)` (lines 1619-1649).  The argument `vsbp` is the
answer of the external hook: `none` when there is no hook or no clause to inject, else the
clause `clauseToInject(type, p)`.  A literal of the clause that is not false is a failed
assertion. -/
def learntSymmetryClause (S : SymSolver) (vsbp : Option (List Lit)) :
    Option (Option CRef × SymSolver) :=
  match vsbp with
  | none => some (none, S)
  | some sbp =>
    if sbp.all (fun l => decide (value S.solver l = l_False)) then
      match attachClause
          (pushLearnt (setCa S.solver (S.solver.ca.alloc sbp true true true
              (some (stabAll (fun σ => stabilize S.solver σ sbp) S.symmetries.reverse []))).2)
            S.solver.ca.size) S.solver.ca.size with
      | none => none
      | some s1 => some (some S.solver.ca.size, { S with solver := s1 })
    else none

/-- The conflict returned by `propagate` (fuel 20), if any. -/
def exConfl (s : Solver) : Option CRef := (propagate 20 s).bind Prod.fst

def withSolver (S : SymSolver) (s : Solver) : SymSolver := { S with solver := s }

/-- The state after the injection of the clause `sbp` by `learntSymmetryClause`; a failing
call leaves the state as it is. -/
def exInject (S : SymSolver) (sbp : List Lit) : SymSolver :=
  match learntSymmetryClause S (some sbp) with
  | some r => r.2
  | none => S

/-- The state after the conflict branch of `search` (fuel 20) for the conflict `confl`; a
failing call leaves the state as it is. -/
def exLearn (s : Solver) (confl : CRef) : Solver :=
  match searchConflict 20 s confl with
  | some r => r.2
  | none => s

/-- Example: the variables `d f h g a b x` (numbers 0 to 6), the clauses
`(not d, not f, not h)`, `(f, not g)`, `(h, not g)`, `(d, not a)`, `(not a, x)`, `(d, not b)`,
`(not b, x)`, `(h, not x)`, and then the symmetry that exchanges `a` and `b`, registered by
`addSymmetry` with the identifier 0. -/
def exCompat0 : SymSolver :=
  (addSymmetry (exSym (exAdd (exVars 7)
    [[1, 3, 5], [2, 7], [4, 7], [0, 9], [9, 12], [0, 11], [11, 12], [4, 13]]))
    [8, 9, 10, 11] [10, 11, 8, 9]).state

/-- Example, first call of `solve` with the assumptions `d`, `g`: after the decision `d`, its
propagation, the decision `g` and the propagation that ends in the conflict with the clause
`(not d, not f, not h)` (reference 0). -/
def exCompat1 : SymSolver :=
  withSolver exCompat0 (exProp (exDecide (exProp (exDecide exCompat0.solver 0)) 6))

/-- Example: the hook injects the clause `(not d, not h, not f)` at the end of that
propagation. -/
def exCompat2 : SymSolver := exInject exCompat1 [1, 5, 3]

/-- Example: the conflict is analysed, `(not g, not d)` is learnt and propagated, and the call
ends with `cancelUntil(0)`.  Second call of `solve` with the assumptions `f`, `a`: after the
decision `f`, its propagation, the decision `a` and the propagation that ends in the conflict
with the clause `(h, not x)` (reference 22), and `conflicts++`. -/
def exCompat3 : SymSolver :=
  withSolver exCompat2 (countConflict (exProp (exDecide (exProp (exDecide
    (cancelUntil (exProp (exLearn exCompat2.solver 0)) 0) 2)) 8)))

/-! ## Removal of clauses -/

/-- What `removeClause(cr)` does to the members that the invariants read: the clause is
marked, the two watcher lists are smudged, and the reason of a locked clause is reset. -/
structure RemSpec (s t : Solver) (cr : CRef) : Prop where
  size : (s.ca.cl cr).size > 1
  trail : t.trail = s.trail
  trail_lim : t.trail_lim = s.trail_lim
  assigns : t.assigns = s.assigns
  watches : t.watches = s.watches
  clauses : t.clauses = s.clauses
  learnts : t.learnts = s.learnts
  order_heap : t.order_heap = s.order_heap
  free_vars : t.free_vars = s.free_vars
  released_vars : t.released_vars = s.released_vars
  seen : t.seen = s.seen
  assumptions : t.assumptions = s.assumptions
  decision : t.decision = s.decision
  next_var : t.next_var = s.next_var
  qhead : t.qhead = s.qhead
  ok : t.ok = s.ok
  ca_size : t.ca.size = s.ca.size
  cl_self : t.ca.cl cr = { s.ca.cl cr with mark := 1 }
  cl_other : ∀ c, c ≠ cr → t.ca.cl c = s.ca.cl c
  vardata : t.vardata =
    if locked s cr = true then
      Function.update s.vardata (var ((s.ca.cl cr).get 0))
        (mkVarData none (s.vardata (var ((s.ca.cl cr).get 0))).level)
    else s.vardata
  dirty : ∀ l, t.dirty l = true ↔
    (s.dirty l = true ∨ l = neg ((s.ca.cl cr).get 0) ∨ l = neg ((s.ca.cl cr).get 1))
  dirties_mono : ∀ l ∈ s.dirties, l ∈ t.dirties
  dirties_new : ∀ l, (l = neg ((s.ca.cl cr).get 0) ∨ l = neg ((s.ca.cl cr).get 1)) →
    s.dirty l = false → l ∈ t.dirties
  conflict : t.conflict = s.conflict

/-- What the loops of `removeSatisfied` and `reduceDB` do to the state: clauses are marked as
removed (a clause of `clauses` only when it is satisfied at level 0), literals are dropped from
clauses, and the reasons of removed clauses are reset. -/
structure DbStep (s t : Solver) : Prop where
  trail : t.trail = s.trail
  trail_lim : t.trail_lim = s.trail_lim
  assigns : t.assigns = s.assigns
  watches : t.watches = s.watches
  clauses : t.clauses = s.clauses
  learnts : t.learnts = s.learnts
  order_heap : t.order_heap = s.order_heap
  free_vars : t.free_vars = s.free_vars
  released_vars : t.released_vars = s.released_vars
  seen : t.seen = s.seen
  assumptions : t.assumptions = s.assumptions
  decision : t.decision = s.decision
  next_var : t.next_var = s.next_var
  qhead : t.qhead = s.qhead
  ok : t.ok = s.ok
  ca_size : t.ca.size = s.ca.size
  level : ∀ v, level t v = level s v
  lits_sub : ∀ c, ∀ l ∈ (t.ca.cl c).lits, l ∈ (s.ca.cl c).lits
  mark_mono : ∀ c, (s.ca.cl c).mark = 1 → (t.ca.cl c).mark = 1
  learnt : ∀ c, (t.ca.cl c).learnt = (s.ca.cl c).learnt
  gone : ∀ c, (s.ca.cl c).mark ≠ 1 → (t.ca.cl c).mark = 1 →
    (satisfied s (s.ca.cl c) = true ∧ decisionLevel s = 0) ∨ c ∈ s.learnts
  conflict : t.conflict = s.conflict

/-! ## Decisions -/

/-- The part of the state that `pickBranchLit` and the counting of the decision leave alone. -/
def pickKey (s : Solver) : Solver :=
  { s with order_heap := [], random_seed := 0, rnd_decisions := 0, decisions := 0 }

/-! ## The loop of `search` -/

/-- The part of the state that `analyzeFinal` leaves alone before it writes `conflict`. -/
def seenKey (s : Solver) : Solver := { s with seen := fun _ => 0 }

/-- What a step of `search` keeps: the assumptions, the member `conflict`, the number of
variables and the decision flags. -/
structure Step (s t : Solver) : Prop where
  assumptions : t.assumptions = s.assumptions
  conflict : t.conflict = s.conflict
  next_var : t.next_var = s.next_var
  decision : t.decision = s.decision

/-- The member `conflict` after a failed assumption: every literal is the negation of an
assumption, the assumption at the current decision level is false and its negation is among
the literals. -/
def FailedAssumption (s : Solver) : Prop :=
  (∀ l ∈ s.conflict, ∃ a ∈ s.assumptions, l = neg a) ∧
  decisionLevel s < s.assumptions.length ∧
  value s (s.assumptions.getD (decisionLevel s) 0) = lbool.l_False ∧
  neg (s.assumptions.getD (decisionLevel s) 0) ∈ s.conflict

end Minisat


namespace Minisat
open lbool

/-! ## The resolution chain of `analyze` -/

/-- The clauses that the `do ... while (pathC > 0)` loop of `analyze` (lines 644-680) looks
at, in the order of the loop: the recursion is the one of `analyzeLoop`, and the list returned
holds every `confl` of the loop (the conflict clause first, then the reasons of the literals
resolved on) instead of the symmetry-tagged ones only. -/
def analyzeChain : Nat → AnalyzeAcc → Bool → Option CRef → Nat → List CRef →
    Option (List CRef)
  | 0, _, _, _, _, _ => none
  | _ + 1, _, _, none, _, _ => none
  | fuel + 1, a, first, some cr, idx, chain =>
    let a1 := analyzeClause a cr first
    match analyzeWalk a1.s idx with
    | none => none
    | some pos =>
      let p := a1.s.trail.getD pos 0
      if (analyzePivot a1 p).pathC > 0 then
        analyzeChain fuel (analyzePivot a1 p) false (reason a1.s (var p)) pos (chain ++ [cr])
      else some (chain ++ [cr])

/-! ## The reduction of the learnt clauses -/

/-- The test of the loop of `reduceDB` (line 1047) for the clause `cr` at the index `i` of the
sorted vector, read in the state `s` at the call:
`c.size() > 2 && !locked(c) && (i < learnts.size() / 2 || c.activity() < extra_lim)`. -/
def reduceDBCond (s : Solver) (i : Nat) (cr : CRef) : Bool :=
  decide ((s.ca.cl cr).size > 2) && !locked s cr &&
    (decide (i < s.learnts.length / 2) ||
      decide ((s.ca.cl cr).activity < s.cla_inc / (s.learnts.length : ℚ)))

/-! ## Symmetrical propagation (`Solver.cc` lines 306-358 and 516-571)

The state of the symmetry objects (`Symmetry.h` is not among the sources) is not part of the
model: the notifications of `uncheckedEnqueue` and `cancelUntil` to the symmetries and the
printing of the tests are left out. -/

/-- Modelled from the spec: the members of `class Solver` read or written by
`propagateSymmetrical` that are in neither `Solver` nor `SymSolver` (`Solver.h` is not among
the sources): the options `addPropagationClauses` and `addConflictClauses` (both set from
`storing`, section 6) and the counters `sympropagations` and `symconflicts`. -/
structure PropSolver where
  sym : SymSolver
  addPropagationClauses : Bool
  addConflictClauses : Bool
  sympropagations : Nat
  symconflicts : Nat

/-- Modelled from the spec: `isDecision(l)` (`Solver.h` is not among the sources): a literal
without reason above level 0 (section 3: the reason is undefined for decisions and for
level-0 literals without clausal reason). -/
def isDecision (s : Solver) (l : Lit) : Bool :=
  decide (reason s (var l) = none) && decide (level s (var l) > 0)

/-- `Solver::testConflictClause` (lines 516-545); `none` is a failed assertion. -/
def testConflictClause (s : Solver) (debug : Bool) (l : Lit) (reasonn : List Lit) :
    Option Bool :=
  if debug = false then some true
  else if ¬ reasonn.length > 1 then none
  else if isDecision s l then none
  else if (reasonn.drop 1).any
      (fun q => decide (level s (var q) > level s (var (reasonn.getD 0 0)))) then none
  else if (reasonn.drop 2).any
      (fun q => decide (level s (var q) > level s (var (reasonn.getD 1 0)))) then none
  else if reasonn.any (fun q => decide (value s q ≠ l_False)) then none
  else some true

/-- `Solver::testPropagationClause` (lines 547-571); `none` is a failed assertion. -/
def testPropagationClause (s : Solver) (debug : Bool) (l : Lit) (reasonn : List Lit) :
    Option Bool :=
  if debug = false then some true
  else if ¬ reasonn.length > 1 then none
  else if isDecision s l then none
  else if value s (reasonn.getD 0 0) ≠ l_Undef then none
  else if (reasonn.drop 2).any
      (fun q => decide (level s (var q) > level s (var (reasonn.getD 1 0)))) then none
  else if (reasonn.drop 1).any (fun q => decide (value s q ≠ l_False)) then none
  else some true

/-- The clause `implic` and the flags `isSymmetry`, `isFirstSymmetry` of
`propagateSymmetrical` (lines 314-325).  `gssc` stands for
`Symmetry::getSortedSymmetricalClause`. -/
def symImplic (gssc : Solver → Symmetry → Clause → List Lit) (s : Solver) (σ : Symmetry)
    (l : Lit) : Option (List Lit × Bool × Bool) :=
  if level s (var l) = 0 then
    if var l ∈ s.symmetry_units then none
    else some ([σ.getSymmetrical l, neg l], false, false)
  else
    match reason s (var l) with
    | none => none
    | some R => some (gssc s σ (s.ca.cl R), (s.ca.cl R).symmetry, (s.ca.cl R).fsymmetry)

/-- The backtrack of lines 326-328. -/
def symBacktrack (s : Solver) (implic : List Lit) : Solver :=
  if decisionLevel s > level s (var (implic.getD 1 0)) then
    cancelUntil s (level s (var (implic.getD 1 0)))
  else s

/-- The compatibility set given to `ca.alloc` (lines 332-334): a copy of the set of the
reason clause of `l` when that clause is symmetry-tagged, else the null pointer (the inner
`none`); a tagged reason without a set is a failure. -/
def symCompat (s : Solver) (isSymmetry : Bool) (l : Lit) : Option (Option (List Nat)) :=
  if isSymmetry then
    match reason s (var l) with
    | none => none
    | some R => ((s.ca.cl R).scompat).map some
  else some none

/-- The storing of the new clause (lines 341-343 and 351-353). -/
def symStore (s : Solver) (cr : CRef) : Option Solver :=
  (attachClause (pushLearnt s cr) cr).map (fun t => claBumpActivity t cr)

/-- `Solver::propagateSymmetrical(sym, l)` (lines 306-358).  Modelled from the spec:
`sym->getSortedSymmetricalClause(clause, implic)` is a method of the symmetry object
(section 4.10, `Symmetry.h` is not among the sources); it is the parameter `gssc` that gives
`implic` for the current state, the symmetry and the reason clause.  A failed assertion and a
read of `implic[1]` beyond the end are `none`. -/
def propagateSymmetrical (gssc : Solver → Symmetry → Clause → List Lit) (P : PropSolver)
    (σ : Symmetry) (l : Lit) : Option (Option CRef × PropSolver) :=
  if value P.sym.solver (σ.getSymmetrical l) = l_True then none
  else
    match symImplic gssc P.sym.solver σ l with
    | none => none
    | some (implic, isSymmetry, isFirstSymmetry) =>
      if implic.length < 2 then none
      else if value (symBacktrack P.sym.solver implic) (implic.getD 0 0) = l_True then none
      else if value (symBacktrack P.sym.solver implic) (implic.getD 1 0) ≠ l_False then none
      else
        match symCompat (symBacktrack P.sym.solver implic) isSymmetry l with
        | none => none
        | some compat =>
          let s1 := symBacktrack P.sym.solver implic
          let a := s1.ca.alloc implic true isFirstSymmetry isSymmetry compat
          let s2 := setCa s1 a.2
          if value s2 (implic.getD 0 0) = l_Undef then
            match testPropagationClause s2 P.sym.debug l implic with
            | some true =>
              match (if P.addPropagationClauses then symStore s2 a.1 else some s2) with
              | none => none
              | some s3 =>
                match uncheckedEnqueue s3 (implic.getD 0 0) (some a.1) with
                | none => none
                | some s4 =>
                  some (none, { P with sym := { P.sym with solver := s4 },
                                       sympropagations := P.sympropagations + 1 })
            | _ => none
          else if value s2 (implic.getD 0 0) ≠ l_False then none
          else
            match testConflictClause s2 P.sym.debug l implic with
            | some true =>
              match (if P.addConflictClauses then symStore s2 a.1 else some s2) with
              | none => none
              | some s3 =>
                some (some a.1, { P with sym := { P.sym with solver := s3 },
                                         sympropagations := P.sympropagations + 1,
                                         symconflicts := P.symconflicts + 1 })
            | _ => none

/-- Every clause of the arena with `first_symmetry` has `symmetry`. -/
def FsOk (s : Solver) : Prop :=
  ∀ cr, (s.ca.cl cr).fsymmetry = true → (s.ca.cl cr).symmetry = true

/-- The part of the state that `propagate` leaves alone, with the headers of the clauses: of
the arena only the literals of the clauses are reset. -/
def hdrKey (s : Solver) : Solver :=
  { s with assigns := fun _ => l_Undef, vardata := fun _ => mkVarData none 0, trail := [],
           qhead := 0, watches := fun _ => [], dirty := fun _ => false,
           ca := { s.ca with cl := fun cr => { s.ca.cl cr with lits := [] } },
           symmetry_units := [], propagations := 0, simpDB_props := 0 }

/-- Example of `getSortedSymmetricalClause`: the image of the clause, literal by literal, in
the order of the clause. -/
def exGssc : Solver → Symmetry → Clause → List Lit :=
  fun _ σ c => c.lits.map σ.getSymmetrical

/-- Example: the symmetry that exchanges `x1` and `x2`. -/
def exSwap12 : Symmetry := ⟨0, [2, 3, 4, 5], [4, 5, 2, 3]⟩

/-- Example: three variables, the clause `(not x0, x1)`, the decision `x0` and its
propagation, which implies `x1` with the clause (reference 0) as reason; the symmetry that
exchanges `x1` and `x2` is registered; clauses are stored and the debug checks are off. -/
def exSymProp : PropSolver :=
  { sym := { solver := exProp (exDecide (exAdd (exVars 3) [[1, 2]]) 0),
             symmetries := [exSwap12], watcherSymmetries := fun _ => [],
             invertingSyms := 0, varOrderOptimization := false, debug := false },
    addPropagationClauses := true, addConflictClauses := true,
    sympropagations := 0, symconflicts := 0 }

/-- The trail after a step of the watcher loop that keeps the watcher. -/
def WStep.keepTrail : WStep → Option (List Lit)
  | WStep.keep _ s => some s.trail
  | _ => none

/-! ## The implication graph -/

/-- The variable `u` is reachable from the variable `v` through reason clauses: `u` is `v`,
or `v` has a reason clause and `u` is reachable from the variable of one of the literals of
that clause other than the first. -/
inductive Reach (s : Solver) : Var → Var → Prop
  | same (v : Var) : Reach s v v
  | step (v u : Var) (cr : CRef) (q : Lit) : reason s v = some cr →
      q ∈ (s.ca.cl cr).lits.drop 1 → Reach s (var q) u → Reach s v u

/-- The invariant of the loop of `analyzeFinal`, for the trail literals `B` from the first
decision mark on that are still to be visited and the visited ones `C`: only `seen` differs
from the initial state, the marked variables are `var p` or belong to `B`, a variable of `B`
is reachable from `var p` exactly when it is reachable from a marked variable of `B`, and the
list collected so far is `p` followed by the negations of the reason-less literals of `C`
reachable from `var p`, in decreasing trail order. -/
structure FinalInv (s : Solver) (p : Lit) (B C : List Lit) (S : Solver) (out : List Lit) :
    Prop where
  key : seenKey S = seenKey s
  seen_sub : ∀ v, S.seen v ≠ 0 → v = var p ∨ ∃ l ∈ B, var l = v
  closed : ∀ u ∈ B, (Reach s (var p) (var u) ↔
    ∃ l ∈ B, S.seen (var l) ≠ 0 ∧ Reach s (var l) (var u))
  out : ∃ ds : List Lit, out = p :: ds.map neg ∧ ds.Sublist C.reverse ∧
    ∀ d, d ∈ ds ↔ d ∈ C ∧ reason s (var d) = none ∧ Reach s (var p) (var d)

/-! ## Assumptions -/

/-- Modelled from the spec: `solve(assumptions)` copies its argument into the member
`assumptions` before it calls `solve_` (section 7, `Solver.h`). -/
def setAssumptions (s : Solver) (as : List Lit) : Solver := { s with assumptions := as }

/-- Example: the clauses `(x0, x1)`, `(not x0, x2)` and `(not x2)` over three variables (the
clauses `(1 2)`, `(-1 3)`, `(-3)` of the spec) and the assumptions `not x1`, `not x2`. -/
def exAssume : Solver :=
  setAssumptions (exAdd (exAdd (exAdd (exVars 3) [[0, 2]]) [[1, 4]]) [[5]]) [3, 5]

/-! ## Redundant literals (`litRedundant`) -/

/-- The recursive definition of redundancy in the words of the spec: a variable is redundant
when it has a reason clause and every literal of that clause other than the first has level
0, or is marked `seen_source` (1) or `seen_removable` (2), or is itself redundant by the same
rule.  The rule is read as an inductive definition: the last alternative is asked for the
literals for which none of the first three holds. -/
inductive SpecRedundant (s : Solver) : Var → Prop
  | mk (v : Var) (cr : CRef) : reason s v = some cr →
      (∀ l ∈ (s.ca.cl cr).lits.drop 1,
        ¬ (level s (var l) = 0 ∨ s.seen (var l) = 1 ∨ s.seen (var l) = 2) →
          SpecRedundant s (var l)) →
      SpecRedundant s v

/-- The implication graph is acyclic: every literal other than the first of the reason
clause of a trail literal is the negation of an earlier trail literal. -/
def Acyclic (s : Solver) : Prop :=
  ∀ (pre : List Lit) (l : Lit) (post : List Lit) (cr : CRef),
    s.trail = pre ++ l :: post → reason s (var l) = some cr →
    ∀ t ∈ (s.ca.cl cr).lits.drop 1, neg t ∈ pre

/-- The marks `seen_removable` (2) and `seen_failed` (3) agree with the recursive
definition. -/
def MarksOk (s : Solver) : Prop :=
  ∀ v, (s.seen v = 2 → SpecRedundant s v) ∧ (s.seen v = 3 → ¬ SpecRedundant s v)

/-- The loop of `litRedundant` after a literal is finished and marked (lines 825-832): the
exit with success on the empty stack, or the next index of the top element. -/
def litRedundantRet (fuel : Nat) (s : Solver) (stack : List (Nat × Lit)) :
    Option (Bool × Solver) :=
  match stack.getLast? with
  | none => some (true, s)
  | some e => litRedundantLoop fuel s (e.1 + 1) e.2 stack.dropLast

/-- The state `S` inside a call of `litRedundant` on the state `s`: only the marks and the
counters of `analyze` differ, a mark changes from `seen_undef` to `seen_removable` or
`seen_failed` only, and these marks agree with the recursive definition on `s`. -/
structure RedInv (s S : Solver) : Prop where
  key : anaKey S = anaKey s
  seen_mono : ∀ v, S.seen v = s.seen v ∨ (s.seen v = 0 ∧ (S.seen v = 2 ∨ S.seen v = 3))
  removable : ∀ v, S.seen v = 2 → SpecRedundant s v
  failed : ∀ v, S.seen v = 3 → ¬ SpecRedundant s v

/-- The loop of `litRedundant` from the index `i` of the reason clause `cr` of `p` finishes
`p`: every literal from `i` on passes the recursive definition, and with enough fuel the loop
arrives at the return from `p`, whatever the stack. -/
def RedOk (s S : Solver) (cr : CRef) (i : Nat) (p : Lit) : Prop :=
  ∃ (n : Nat) (S' : Solver), RedInv s S' ∧
    (∀ l ∈ (s.ca.cl cr).lits.drop i,
      ¬ (level s (var l) = 0 ∨ s.seen (var l) = 1 ∨ s.seen (var l) = 2) →
        SpecRedundant s (var l)) ∧
    ∀ (fuel : Nat) (stack : List (Nat × Lit)),
      litRedundantLoop (fuel + n) S i p stack = litRedundantRet fuel (markRemovable S' p) stack

/-- The loop of `litRedundant` from the index `i` of the reason clause of `p` fails: `p` and
the literals pushed above it are not redundant, and with enough fuel the loop returns `false`
after the sweep over the stack. -/
def RedFail (s S : Solver) (i : Nat) (p : Lit) : Prop :=
  ∃ (n : Nat) (S' : Solver) (stk : List (Nat × Lit)), RedInv s S' ∧
    (∀ e ∈ stk, ¬ SpecRedundant s (var e.2)) ∧ ¬ SpecRedundant s (var p) ∧
    ∀ (fuel : Nat) (stack : List (Nat × Lit)),
      litRedundantLoop (fuel + n) S i p stack = some (false, markFailed S' (stack ++ stk))

/-- Example: the state of `exSymProp` with the decision variable `x0` marked
`seen_source`. -/
def exRed : Solver := setSeen exSymProp.sym.solver 0 1

/-! ## The clauses of the instance during the search -/

/-- What `propagate` does to the clauses and to the assignment: the literals of a clause
stay among its literals, and the assigned variables keep their value, level and reason. -/
structure PKeep (s t : Solver) : Prop where
  lits_sub : ∀ cr, ∀ l ∈ (t.ca.cl cr).lits, l ∈ (s.ca.cl cr).lits
  assigned : ∀ v, s.assigns v ≠ l_Undef →
    t.assigns v = s.assigns v ∧ t.vardata v = s.vardata v

/-- No clause reference is in both clause lists. -/
def Disj (s : Solver) : Prop := ∀ cr ∈ s.clauses, cr ∉ s.learnts

/-- What the solver keeps from the state `s` to the state `t`: the literals that are true at
level 0 stay so, every clause of `clauses` that is not removed is satisfied at level 0 in `t`
or has a clause of `clauses` in `t` that is not removed and whose literals are among its
literals, the two clause lists stay disjoint and no variable disappears. -/
structure Keeps (s t : Solver) : Prop where
  fixed : ∀ l, value s l = l_True → level s (var l) = 0 →
    value t l = l_True ∧ level t (var l) = 0
  held : ∀ cr ∈ s.clauses, (s.ca.cl cr).mark ≠ 1 →
    (∃ l ∈ (s.ca.cl cr).lits, value t l = l_True ∧ level t (var l) = 0) ∨
    ∃ cr' ∈ t.clauses, (t.ca.cl cr').mark ≠ 1 ∧
      ∀ l ∈ (t.ca.cl cr').lits, l ∈ (s.ca.cl cr).lits
  disj : Disj s → Disj t
  nvars : nVars s ≤ nVars t

/-- The clause `c` that was passed to `addClause_` is accounted for in the state `s`: one of
its literals is true at level 0, or a clause of `clauses` that is not removed has its literals
among those of `c`, or `c` holds a literal of a variable of the solver and its negation. -/
def Cov (s : Solver) (c : List Lit) : Prop :=
  (∃ l ∈ c, value s l = l_True ∧ level s (var l) = 0) ∨
  (∃ cr ∈ s.clauses, (s.ca.cl cr).mark ≠ 1 ∧ ∀ l ∈ (s.ca.cl cr).lits, l ∈ c) ∨
  (∃ l ∈ c, neg l ∈ c ∧ var l < nVars s)

/-- The value of a literal under `model`. -/
def modelValue (m : List lbool) (l : Lit) : lbool := (m.getD (var l) l_Undef).xorSign (sign l)

/-- The solvers built from the initial state by `newVar` with `decision = true` and by
`addClause_` on clauses over variables of the solver, with the list of the clauses that were
passed to `addClause_`; no symmetry is registered and there is no assumption. -/
inductive Built : Solver → List (List Lit) → Prop
  | init : Built Solver.init []
  | var (s : Solver) (cs : List (List Lit)) (upol : lbool) :
      Built s cs → Built (newVar s upol true).2 cs
  | clause (s s' : Solver) (cs : List (List Lit)) (fuel : Nat) (c : List Lit) (b : Bool) :
      Built s cs → (∀ l ∈ c, var l < nVars s) → addClause_ fuel s c = some (b, s') →
      Built s' (c :: cs)

/-- The state `s'` is an exit of the search from `s` with `l_True`: it differs in the order
heap and in counters only from a state `s1` with the invariants and the head at the end of the
trail, reached from `s` by steps that keep the clauses, in which every variable of the order
heap is assigned or no decision variable. -/
def SatExit (s s' : Solver) : Prop :=
  ∃ s1, Inv s1 ∧ s1.qhead = s1.trail.length ∧ Step s s1 ∧ Keeps s s1 ∧
    pickKey s' = pickKey s1 ∧
    ∀ v ∈ s1.order_heap, s1.assigns v ≠ l_Undef ∨ s1.decision v = false

/-- Example: two variables and the clause `(x0, x1)` (the clause `(1 2)` of the spec). -/
def exSat : Solver := exAdd (exVars 2) [[0, 2]]

end Minisat


namespace Minisat
open lbool

end Minisat

namespace cosy

/-! ## The order of a permutation (`Permutation.cc` lines 70-94) -/

/-- The greatest value of the type `int`. -/
def INT_MAX : Nat := 2147483647

/-- The loop `for (;;)` of `gcd` (lines 71-78) on non-negative arguments; the first argument
bounds the number of rounds. -/
def gcdLoop : Nat → Nat → Nat → Option Nat
  | 0, _, _ => none
  | fuel + 1, a, b =>
    if a = 0 then some b
    else if b % a = 0 then some a
    else gcdLoop fuel (a % (b % a)) (b % a)

/-- The function `gcd` (lines 70-79) on non-negative arguments: the loop with `a + 1` rounds
allowed. -/
def gcd (a b : Nat) : Option Nat := gcdLoop (a + 1) a b

/-- The function `lcm` (lines 80-84) on non-negative arguments; a product `a / temp * b` above
`INT_MAX` is a signed overflow, which is `none`. -/
def lcm (a b : Nat) : Option Nat :=
  match gcd a b with
  | none => none
  | some temp =>
    if temp ≠ 0 then (if a / temp * b ≤ INT_MAX then some (a / temp * b) else none)
    else some 0

/-- The loop of `Permutation::order` (lines 89-91): the number of rounds left, the index `i`
and the value of `order`. -/
def Permutation.orderLoop (p : Permutation) : Nat → Nat → Nat → Option Nat
  | 0, _, order => some order
  | n + 1, i, order =>
    match p.cycle i with
    | none => none
    | some c =>
      match lcm order c.length with
      | none => none
      | some o => p.orderLoop n (i + 1) o

/-- `Permutation::order` (lines 86-94). -/
def Permutation.order (p : Permutation) : Option Nat :=
  p.orderLoop p.numberOfCycles 0 1

/-- The lengths of the cycles of `p`, in the order of the cycles. -/
def Permutation.cycleLengths (p : Permutation) : List Nat :=
  (List.range p.numberOfCycles).map (fun i => ((p.cycle i).getD []).length)

/-- The least common multiple of the numbers of a list, 1 for the empty list. -/
def lcmList (l : List Nat) : Nat := l.foldl Nat.lcm 1

end cosy

namespace Minisat
open lbool

/-! ## `removeSatisfied` -/

/-- No literal of the list at an index from 2 on is false. -/
def Trimmed (s : Solver) (ls : List Lit) : Prop :=
  ∀ i, 2 ≤ i → i < ls.length → value s (ls.getD i 0) ≠ l_False

/-- The state `t` in the course of `removeSatisfied`, for the state `s` at the call: the
assignment is the same; of a clause the first two literals are in place, no literal has more
occurrences than before and the literals that are gone are false; a clause with a true literal
has its literals as before; marks and dirty lists are kept; a reason is as before or reset; a
clause that was trimmed stays so. -/
structure RsRel (s t : Solver) : Prop where
  assigns : t.assigns = s.assigns
  take2 : ∀ c, (t.ca.cl c).lits.take 2 = (s.ca.cl c).lits.take 2
  count_le : ∀ c x, (t.ca.cl c).lits.count x ≤ (s.ca.cl c).lits.count x
  dropped : ∀ c, ∀ x ∈ (s.ca.cl c).lits, x ∉ (t.ca.cl c).lits → value s x = l_False
  sat_lits : ∀ c, satisfied s (s.ca.cl c) = true → (t.ca.cl c).lits = (s.ca.cl c).lits
  learnt : ∀ c, (t.ca.cl c).learnt = (s.ca.cl c).learnt
  mark_mono : ∀ c, (s.ca.cl c).mark = 1 → (t.ca.cl c).mark = 1
  dirty_mono : ∀ l, s.dirty l = true → t.dirty l = true
  reason : ∀ v, reason t v = reason s v ∨ reason t v = none
  trimmed : ∀ c, Trimmed s (s.ca.cl c).lits → Trimmed s (t.ca.cl c).lits

/-- Example: two variables, the clause `(not x0, x1)` and the unit clause `(x0)`: at level 0
`x0` is true and `x1` is implied with the clause as its reason. -/
def exLevel0 : Solver := exAdd (exAdd (exVars 2) [[1, 2]]) [[0]]

/-- Example: three variables, the clause `(x0, x1, x2)` and the unit clause `(not x2)`: the
literal at the index 2 of the clause is false at level 0. -/
def exTrim : Solver := exAdd (exAdd (exVars 3) [[0, 2, 4]]) [[5]]

/-! ## Conflict analysis with minimisation -/

/-- The option `ccmin-mode`. -/
def setCcminMode (s : Solver) (m : Nat) : Solver := { s with ccmin_mode := m }

/-- Example: four variables `a, b, c, d` (`x0 .. x3`), the clauses `(not b, not c, d)` and
`(not a, not c, not d)`, the decision `a`, propagated. -/
def exMin0 : Solver := exProp (exDecide (exAdd (exAdd (exVars 4) [[3, 5, 6]]) [[1, 5, 7]]) 0)

/-- Example: the state after `search` stored, at level 1, the learnt clause `(b, not a)` that
`analyze` returned with `out_symmetry` set (lines 1201-1214): the clause (reference 8) is
symmetry-tagged and is the reason of `b`. -/
def exMin1 : Solver :=
  match learnClause exMin0 ⟨[2, 1], 1, true, []⟩ 0 with
  | some s => s
  | none => exMin0

/-- Example: after the propagation of `b` the decision `c` follows; the state is the one
before the `propagate` that implies `d` and finds `(not a, not c, not d)` falsified. -/
def exMinSym : Solver := exDecide (exProp exMin1) 4

/-- Example: the state in which `search` calls `analyze` on the conflict
`(not a, not c, not d)` (reference 4). -/
def exMinConfl : Solver := countConflict (exProp exMinSym)

/-! ## The symmetry propagation inside `propagate` (lines 977-1013) -/

/-- Modelled from the spec: the symmetry objects and the external hook, as far as `propagate`
uses them (sections 4.9 and 4.12; `Symmetry.h` and the hook are not among the sources).  `Ω`
is the type of the internal state of all symmetry objects and of the hook.  `isActive`,
`isStab`, `isStabLevelZero` are the queries of a symmetry; `getNextToPropagate` gives the
literal (`none` is `lit_Undef`) and the state after the call; `getSortedSymmetricalClause` fills
`implic`; `notified` gives the state of the objects after the notifications sent while the
solver went from the first state to the second; `clauseToInject` is the answer of the hook at
lines 977-980, `none` when `opt_esbp_end` is off, there is no hook or no clause to inject. -/
structure SymObjects (Ω : Type) where
  isActive : Ω → Symmetry → Bool
  isStab : Ω → Symmetry → Bool
  isStabLevelZero : Ω → Symmetry → Bool
  getNextToPropagate : Ω → Symmetry → Option Lit × Ω
  getSortedSymmetricalClause : Ω → Solver → Symmetry → Clause → List Lit
  notified : Ω → Solver → Solver → Ω
  clauseToInject : Ω → Solver → Lit → Option (List Lit)

/-- The solver with the member `inactivePropagationOptimization` (line 97) and the state of
the symmetry objects. -/
structure SymPropSolver (Ω : Type) where
  prop : PropSolver
  inactivePropagationOptimization : Bool
  objs : Ω

def SymPropSolver.solver {Ω : Type} (S : SymPropSolver Ω) : Solver := S.prop.sym.solver

def SymPropSolver.withSolver {Ω : Type} (S : SymPropSolver Ω) (s : Solver) : SymPropSolver Ω :=
  { S with prop := { S.prop with sym := { S.prop.sym with solver := s } } }

/-- What the two loops of lines 982-1003 do, recorded in the order of the calls.  `active σ a`:
the first loop found `σ` active and `getNextToPropagate` returned `a`; `idle σ`: the first loop
found `σ` not active; `stab σ a`: the second loop found `σ` not active and a stabilizer at
level zero and `getNextToPropagate` returned `a`; `skipped σ`: the second loop passed over `σ`;
`invoke weak σ l qhead size confl opt`: `propagateSymmetrical(σ, l)` is called, by the second
loop when `weak` is true, with the values of `qhead`, `trail.size()`, `confl` and
`inactivePropagationOptimization` at the call. -/
inductive SymEvent where
  | active (σ : Symmetry) (a : Option Lit)
  | idle (σ : Symmetry)
  | stab (σ : Symmetry) (a : Option Lit)
  | skipped (σ : Symmetry)
  | invoke (weak : Bool) (σ : Symmetry) (l : Lit) (qhead size : Nat) (confl : Option CRef)
      (opt : Bool)
  deriving DecidableEq, Repr

/-- The weakly active loop (lines 983-992) over the symmetries from the last to the first; the
arguments are the symmetries not yet visited, the state, `confl` and the events so far. -/
def weaklyActiveLoop {Ω : Type} (Q : SymObjects Ω) :
    List Symmetry → SymPropSolver Ω → Option CRef → List SymEvent →
    Option (Option CRef × SymPropSolver Ω × List SymEvent)
  | [], S, confl, log => some (confl, S, log)
  | σ :: rest, S, confl, log =>
    if S.solver.qhead = S.solver.trail.length ∧ confl = none then
      if Q.isActive S.objs σ then
        match (Q.getNextToPropagate S.objs σ).1 with
        | none =>
          weaklyActiveLoop Q rest { S with objs := (Q.getNextToPropagate S.objs σ).2 } confl
            (log ++ [SymEvent.active σ none])
        | some orig =>
          match propagateSymmetrical
              (Q.getSortedSymmetricalClause (Q.getNextToPropagate S.objs σ).2) S.prop σ orig with
          | none => none
          | some r =>
            weaklyActiveLoop Q rest
              { S with prop := r.2,
                       objs := Q.notified (Q.getNextToPropagate S.objs σ).2 S.solver
                                 r.2.sym.solver }
              r.1
              (log ++ [SymEvent.active σ (some orig),
                SymEvent.invoke false σ orig S.solver.qhead S.solver.trail.length confl
                  S.inactivePropagationOptimization])
      else weaklyActiveLoop Q rest S confl (log ++ [SymEvent.idle σ])
    else some (confl, S, log)

/-- The weakly inactive loop (lines 995-1003). -/
def weaklyInactiveLoop {Ω : Type} (Q : SymObjects Ω) :
    List Symmetry → SymPropSolver Ω → Option CRef → List SymEvent →
    Option (Option CRef × SymPropSolver Ω × List SymEvent)
  | [], S, confl, log => some (confl, S, log)
  | σ :: rest, S, confl, log =>
    if S.inactivePropagationOptimization = true ∧ S.solver.qhead = S.solver.trail.length ∧
        confl = none then
      if Q.isActive S.objs σ = false ∧ Q.isStab S.objs σ = true ∧
          Q.isStabLevelZero S.objs σ = true then
        match (Q.getNextToPropagate S.objs σ).1 with
        | none =>
          weaklyInactiveLoop Q rest { S with objs := (Q.getNextToPropagate S.objs σ).2 } confl
            (log ++ [SymEvent.stab σ none])
        | some orig =>
          match propagateSymmetrical
              (Q.getSortedSymmetricalClause (Q.getNextToPropagate S.objs σ).2) S.prop σ orig with
          | none => none
          | some r =>
            weaklyInactiveLoop Q rest
              { S with prop := r.2,
                       objs := Q.notified (Q.getNextToPropagate S.objs σ).2 S.solver
                                 r.2.sym.solver }
              r.1
              (log ++ [SymEvent.stab σ (some orig),
                SymEvent.invoke true σ orig S.solver.qhead S.solver.trail.length confl
                  S.inactivePropagationOptimization])
      else weaklyInactiveLoop Q rest S confl (log ++ [SymEvent.skipped σ])
    else some (confl, S, log)

/-- The part of a pass of the loop of `propagate` after the watcher loop (lines 977-1003): the
call of the hook, whose result is dropped, and the two loops; the events of the pass are
returned. -/
def symmetryPass {Ω : Type} (Q : SymObjects Ω) (S : SymPropSolver Ω) (p : Lit)
    (confl : Option CRef) : Option (Option CRef × SymPropSolver Ω × List SymEvent) :=
  match learntSymmetryClause S.prop.sym (Q.clauseToInject S.objs S.solver p) with
  | none => none
  | some e =>
    match weaklyActiveLoop Q e.2.symmetries.reverse
        { S with prop := { S.prop with sym := e.2 },
                 objs := Q.notified S.objs S.solver e.2.solver } confl [] with
    | none => none
    | some a => weaklyInactiveLoop Q a.2.1.prop.sym.symmetries.reverse a.2.1 a.1 a.2.2

/-- The `while (qhead < trail.size())` loop of `propagate` (lines 908-1015) with the symmetry
propagation; the arguments are as for `propagateLoop`, with the events of the passes made so
far. -/
def propagateSymLoop {Ω : Type} (Q : SymObjects Ω) :
    Nat → SymPropSolver Ω → Option CRef → Nat → List (List SymEvent) →
    Option (Option CRef × Nat × SymPropSolver Ω × List (List SymEvent))
  | fuel, S, confl, n, passes =>
    if S.solver.qhead < S.solver.trail.length then
      match fuel with
      | 0 => none
      | fuel + 1 =>
        match propagateLit (S.solver.trail.getD S.solver.qhead 0)
            (setQhead S.solver (S.solver.qhead + 1)) with
        | none => none
        | some r =>
          match symmetryPass Q
              { S.withSolver r.2 with objs := Q.notified S.objs S.solver r.2 }
              (S.solver.trail.getD S.solver.qhead 0)
              (if r.1 ≠ none then r.1 else confl) with
          | none => none
          | some b =>
            propagateSymLoop Q fuel
              (if b.1 ≠ none then b.2.1.withSolver (setQhead b.2.1.solver b.2.1.solver.trail.length)
               else b.2.1)
              b.1 (n + 1) (passes ++ [b.2.2])
    else some (confl, n, S, passes)

/-- `Solver::propagate` (lines 902-1020) with the symmetry propagation: the conflict, the
state and the events of every pass of the loop. -/
def propagateSym {Ω : Type} (Q : SymObjects Ω) (fuel : Nat) (S : SymPropSolver Ω) :
    Option (Option CRef × SymPropSolver Ω × List (List SymEvent)) :=
  match propagateSymLoop Q fuel S none 0 [] with
  | none => none
  | some r => some (r.1, r.2.2.1.withSolver (countProps r.2.2.1.solver r.2.1), r.2.2.2)

/-- The marks of the decision levels are increasing and lie inside the trail. -/
def LimOk (s : Solver) : Prop :=
  s.trail_lim.Sorted (fun a b => a ≤ b) ∧ ∀ x ∈ s.trail_lim, x ≤ s.trail.length

/-- What C33 states about the events of one pass: `propagateSymmetrical` is only called with
`qhead = trail.size()` and `confl = CRef_Undef`; a call by the weakly inactive loop is made
with `inactivePropagationOptimization` set, after the weakly active loop visited every
symmetry and each of them was not active or answered `lit_Undef`. -/
def PassOk (syms : List Symmetry) (log : List SymEvent) : Prop :=
  (∀ w σ l q n c o, SymEvent.invoke w σ l q n c o ∈ log → q = n ∧ c = none) ∧
  (∀ pre post σ l q n c o, log = pre ++ SymEvent.invoke true σ l q n c o :: post →
    o = true ∧ (∀ τ a, SymEvent.active τ a ∈ pre → a = none) ∧
    (∀ τ ∈ syms, SymEvent.active τ none ∈ pre ∨ SymEvent.idle τ ∈ pre))

/-- The trail does not get shorter and `trail_lim` is kept. -/
def TGrow (s t : Solver) : Prop :=
  t.trail_lim = s.trail_lim ∧ s.trail.length ≤ t.trail.length

/-- The condition of the two loops: the head is at the end of the trail and there is no
conflict. -/
def SymGuard {Ω : Type} (S : SymPropSolver Ω) (confl : Option CRef) : Prop :=
  S.solver.qhead = S.solver.trail.length ∧ confl = none

/-- Every call recorded is made with `qhead = trail.size()` and without conflict, and a call
by the weakly inactive loop is made with the option set. -/
def InvokeOk (log : List SymEvent) : Prop :=
  ∀ w σ l q n c o, SymEvent.invoke w σ l q n c o ∈ log →
    q = n ∧ c = none ∧ (w = true → o = true)

/-- No call by the weakly inactive loop is recorded. -/
def NoWeak (log : List SymEvent) : Prop :=
  ∀ σ l q n c o, SymEvent.invoke true σ l q n c o ∉ log

/-- No visit of the weakly active loop to an active symmetry is recorded. -/
def NoActive (log : List SymEvent) : Prop := ∀ τ a, SymEvent.active τ a ∉ log

/-- The weakly active loop visited every symmetry, and each was not active or answered
`lit_Undef`. -/
def AllQuiet (syms : List Symmetry) (log : List SymEvent) : Prop :=
  (∀ τ a, SymEvent.active τ a ∈ log → a = none) ∧
  (∀ τ ∈ syms, SymEvent.active τ none ∈ log ∨ SymEvent.idle τ ∈ log)

/-- Example: the symmetry that exchanges `x1` and `x2`, registered a second time with the
identifier 1. -/
def exStab12 : Symmetry := ⟨1, [2, 3, 4, 5], [4, 5, 2, 3]⟩

/-- Example of the symmetry objects: the state is the queue of the symmetry 1; the symmetry 0
is active and has nothing to propagate; the symmetry 1 is not active, a stabilizer at level
zero, and answers with the head of its queue; `implic` is the image of the reason clause,
literal by literal; the hook injects nothing. -/
def exObjects : SymObjects (List Lit) :=
  { isActive := fun _ σ => decide (σ.id = 0),
    isStab := fun _ _ => true,
    isStabLevelZero := fun _ _ => true,
    getNextToPropagate := fun ω σ => if σ.id = 1 then (ω.head?, ω.tail) else (none, ω),
    getSortedSymmetricalClause := fun _ => exGssc,
    notified := fun ω _ _ => ω,
    clauseToInject := fun _ _ _ => none }

/-- Example: three variables, the clause `(not x0, x1)` and the decision `x0`, not yet
propagated; the two symmetries are registered, the option `inactive-opt` is set and the
symmetry 1 has `x1` to propagate. -/
def exPass : SymPropSolver (List Lit) :=
  { prop := { sym := { solver := exDecide (exAdd (exVars 3) [[1, 2]]) 0,
                       symmetries := [exSwap12, exStab12], watcherSymmetries := fun _ => [],
                       invertingSyms := 0, varOrderOptimization := false, debug := false },
              addPropagationClauses := true, addConflictClauses := true,
              sympropagations := 0, symconflicts := 0 },
    inactivePropagationOptimization := true,
    objs := [2] }

/-! ## Released variables -/

/-- Modelled from the spec: `addClause(l)` of `Solver.h` is `addClause_` on the clause that
holds the literal `l` only (`addClause(lits)` of the solver interface). -/
def addClauseLit (fuel : Nat) (s : Solver) (l : Lit) : Option (Bool × Solver) :=
  addClause_ fuel s [l]

/-- The write `released_vars.push(v)`. -/
def pushReleased (s : Solver) (v : Var) : Solver :=
  { s with released_vars := s.released_vars ++ [v] }

/-- `Solver::releaseVar` (lines 165-173). -/
def releaseVar (fuel : Nat) (s : Solver) (l : Lit) : Option Solver :=
  if value s l = l_Undef then
    (addClauseLit fuel s l).map (fun r => pushReleased r.2 (var l))
  else some s

/-- Every variable that is assigned in `s` has the same value in `t`. -/
def AGrow (s t : Solver) : Prop := ∀ v, s.assigns v ≠ l_Undef → t.assigns v = s.assigns v

/-- The members that the bookkeeping of the released variables reads, the assignment apart. -/
def relKey (s : Solver) : List Var × List Var × Nat × List Nat × Bool :=
  (s.released_vars, s.free_vars, s.next_var, s.trail_lim, s.ok)

/-- The state `t` agrees with `s` on the members of `relKey` and on the assignment. -/
def RSame (s t : Solver) : Prop := relKey t = relKey s ∧ t.assigns = s.assigns

/-- The states reached from the initial state by calls of `newVar`, `addClause_`, `releaseVar`
(on a literal of a variable of the solver) and `simplify` that return. -/
inductive Released : Solver → Prop
  | init : Released Solver.init
  | var (s : Solver) (upol : lbool) (dvar : Bool) : Released s → Released (newVar s upol dvar).2
  | clause (s s' : Solver) (fuel : Nat) (c : List Lit) (b : Bool) :
      Released s → addClause_ fuel s c = some (b, s') → Released s'
  | release (s s' : Solver) (fuel : Nat) (l : Lit) :
      Released s → var l < nVars s → releaseVar fuel s l = some s' → Released s'
  | simp (s s' : Solver) (fuel : Nat) (b : Bool) :
      Released s → simplify fuel s = some (b, s') → Released s'

/-- The bookkeeping of the released variables: while `ok` holds the released variables are
assigned and listed once; the freed variables are assigned, listed once and not released;
both are variables of the solver, and the solver is at level 0. -/
structure RelInv (s : Solver) : Prop where
  nodup : s.ok = true → s.released_vars.Nodup
  assigned : s.ok = true → ∀ v ∈ s.released_vars, s.assigns v ≠ l_Undef
  rel_lt : ∀ v ∈ s.released_vars, v < s.next_var
  free_assigned : ∀ v ∈ s.free_vars, s.assigns v ≠ l_Undef
  free_nodup : s.free_vars.Nodup
  free_lt : ∀ v ∈ s.free_vars, v < s.next_var
  disj : ∀ v ∈ s.released_vars, v ∉ s.free_vars
  level0 : s.trail_lim = []

/-- The result of `releaseVar`, the state itself when the call fails. -/
def exRelease (s : Solver) (l : Lit) : Solver := (releaseVar 20 s l).getD s

/-- Example: two variables, the units `x0` and `not x0` (`ok` is false), and `x1` released
twice. -/
def exReleaseTwice : Solver :=
  exRelease (exRelease (exAdd (exVars 2) [[0], [1]]) 2) 2

/-- Example: two variables, `x1` released, `simplify`, a new variable (which is `x1` again),
and `x1` released again. -/
def exReleaseReuse : Solver :=
  exRelease (newVar ((simplify 20 (exRelease (exVars 2) 2)).getD
    (false, exRelease (exVars 2) 2)).2 l_Undef true).2 2

/-! ## Symmetry notifications -/

/-- A call of `notifyEnqueued` (`enq = true`) or of `notifyBacktrack` (`enq = false`) on the
symmetry with the identifier `id`, with the literal `lit`. -/
structure Notice where
  enq : Bool
  id : Nat
  lit : Lit
  deriving DecidableEq, Repr

/-- Modelled from the spec: the solver with its symmetries (section 3) and, in place of the
state of the symmetry objects (`Symmetry.h` is not among the sources; section 4.9), the list
of the calls of `notifyEnqueued` and `notifyBacktrack` made so far. -/
structure NoteSolver where
  sym : SymSolver
  notes : List Notice

def NoteSolver.withSolver (N : NoteSolver) (s : Solver) : NoteSolver :=
  { N with sym := { N.sym with solver := s } }

/-- `Solver::notifySymmetries` (lines 381-409): the calls `notifyEnqueued(p)` on
`watcherSymmetries[p][i]` for `i` from the last index down (lines 403-405).  The calls
`notifyReasonOfBreaked` of the first loop are other calls and are not recorded.  The assertion
of line 407 holds when `debug` is off; with `debug` on it reads the symmetry objects, which
the model does not hold, and the result is `none`. -/
def notifySymmetries (N : NoteSolver) (p : Lit) : Option NoteSolver :=
  if N.sym.debug then none
  else
    some { N with notes := N.notes ++
      (N.sym.watcherSymmetries p).reverse.map (fun σ => ⟨true, σ.id, p⟩) }

/-- `Solver::notifySymmetriesBacktrack` (lines 361-379): the calls `notifyBacktrack(p)` on
`watcherSymmetries[p][i]` for `i` from the last index down (lines 375-377).  The calls
`cancelReasonOfBreaked` of the first loop are other calls and are not recorded. -/
def notifySymmetriesBacktrack (N : NoteSolver) (p : Lit) : NoteSolver :=
  { N with notes := N.notes ++
      (N.sym.watcherSymmetries p).reverse.map (fun σ => ⟨false, σ.id, p⟩) }

/-- `Solver::uncheckedEnqueue` (lines 880-888) with the notification of line 887. -/
def uncheckedEnqueueN (N : NoteSolver) (p : Lit) (from_ : Option CRef) : Option NoteSolver :=
  match uncheckedEnqueue N.sym.solver p from_ with
  | none => none
  | some s1 => notifySymmetries (N.withSolver s1) p

/-- `Solver::cancelUntil` (lines 253-280) with the notifications of line 260, which are sent
for `trail[c]` with `c` from `trail.size() - 1` down to `trail_lim[level]`. -/
def cancelUntilN (N : NoteSolver) (lvl : Nat) : NoteSolver :=
  if decisionLevel N.sym.solver > lvl then
    ((N.sym.solver.trail.drop (N.sym.solver.trail_lim.getD lvl 0)).reverse.foldl
      notifySymmetriesBacktrack N).withSolver (cancelUntil N.sym.solver lvl)
  else N

/-- The loop of `notifyCNFUnits` (lines 1747-1752) over the trail; `updateNotify` is a call on
the cosy manager, which is not part of the state. -/
def notifyUnitsLoop : NoteSolver → List Lit → Option NoteSolver
  | N, [] => some N
  | N, l :: ls =>
    match notifySymmetries N l with
    | none => none
    | some N1 => notifyUnitsLoop N1 ls

/-- `Solver::notifyCNFUnits` (lines 1744-1753). -/
def notifyCNFUnits (N : NoteSolver) : Option NoteSolver :=
  if decisionLevel N.sym.solver ≠ 0 then none
  else notifyUnitsLoop N N.sym.solver.trail

/-- The number of calls `notifyEnqueued(l)` minus the number of calls `notifyBacktrack(l)`
made so far on the symmetry with the identifier `id`. -/
def noteBalance (N : NoteSolver) (id : Nat) (l : Lit) : Int :=
  (N.notes.count ⟨true, id, l⟩ : Int) - (N.notes.count ⟨false, id, l⟩ : Int)

/-- The registration by `addSymmetry` of the symmetry that exchanges `x0` and `x1` on the
solver `s`, with the debug checks off; no call is recorded yet. -/
def exNoteReg (s : Solver) : NoteSolver :=
  { sym := (addSymmetry { exSym s with debug := false } [0, 1, 2, 3] [2, 3, 0, 1]).state,
    notes := [] }

/-- Example: two variables and the unit clauses `x0` and `x1`; the symmetry is registered
afterwards. -/
def exNoteUnits : NoteSolver := exNoteReg (exAdd (exVars 2) [[0], [2]])

/-- Example: from `exNoteUnits`, the call of `notifyCNFUnits` at the start of `solve_`
(line 1343), made twice, as when `solve_` is called twice. -/
def exNoteTwice : Option NoteSolver := (notifyCNFUnits exNoteUnits).bind notifyCNFUnits

/-- Example: two variables; the symmetry is registered first, then the unit clauses `x0` and
`x1` are added (`addClause_` enqueues the literal, line 194), then `solve_` starts with
`notifyCNFUnits`. -/
def exNoteLate : Option NoteSolver :=
  ((uncheckedEnqueueN (exNoteReg (exVars 2)) 0 none).bind
    (fun N => uncheckedEnqueueN N 2 none)).bind notifyCNFUnits

end Minisat


namespace Minisat
open lbool

/-! ## Basic facts on literals and values -/

theorem neg_neg (p : Nat) : neg (neg p) = p := by unfold neg; split_ifs <;> omega

theorem var_neg (p : Nat) : var (neg p) = var p := by unfold neg var; split_ifs <;> omega

theorem sign_neg (p : Nat) : sign (neg p) = !sign p := by
  have h1 : (neg p) % 2 = 1 ↔ ¬ (p % 2 = 1) := by
    unfold neg; split_ifs <;> constructor <;> intro <;> omega
  unfold sign
  by_cases h : p % 2 = 1 <;> simp [h, h1]

theorem neg_ne (p : Nat) : neg p ≠ p := by unfold neg; split_ifs <;> omega

theorem neg_inj {p q : Nat} (h : neg p = neg q) : p = q := by
  have := congrArg neg h; simpa [neg_neg] using this

theorem neg_eq_iff {p q : Nat} : neg p = q ↔ p = neg q := by
  constructor
  · intro h; rw [← h, neg_neg]
  · intro h; rw [h, neg_neg]

theorem lit_ext {p q : Nat} (hv : var p = var q) (hs : sign p = sign q) : p = q := by
  unfold var at hv; unfold sign at hs
  by_cases h : p % 2 = 1 <;> by_cases h' : q % 2 = 1 <;> simp [h, h'] at hs <;> omega

theorem eq_or_eq_neg_of_var_eq {p q : Nat} (hv : var p = var q) : p = q ∨ p = neg q := by
  unfold var at hv; unfold neg; split_ifs <;> omega

theorem var_mkLit (v : Nat) (b : Bool) : var (mkLit v b) = v := by
  unfold var mkLit; split_ifs <;> omega

theorem sign_mkLit (v : Nat) (b : Bool) : sign (mkLit v b) = b := by
  unfold sign mkLit; cases b <;> simp <;> omega

theorem value_neg (s : Solver) (p : Lit) :
    value s (neg p) = (value s p).xorSign true := by
  unfold value; rw [var_neg, sign_neg]
  cases s.assigns (var p) <;> cases sign p <;> rfl

theorem value_neg_true {s : Solver} {p : Lit} :
    value s (neg p) = l_True ↔ value s p = l_False := by
  rw [value_neg]; cases value s p <;> simp [lbool.xorSign]

theorem value_neg_false {s : Solver} {p : Lit} :
    value s (neg p) = l_False ↔ value s p = l_True := by
  rw [value_neg]; cases value s p <;> simp [lbool.xorSign]

theorem value_neg_undef {s : Solver} {p : Lit} :
    value s (neg p) = l_Undef ↔ value s p = l_Undef := by
  rw [value_neg]; cases value s p <;> simp [lbool.xorSign]

theorem value_undef_iff {s : Solver} {p : Lit} :
    value s p = l_Undef ↔ s.assigns (var p) = l_Undef := by
  unfold value; cases s.assigns (var p) <;> cases sign p <;> simp [lbool.xorSign]

theorem value_congr {s t : Solver} (h : t.assigns = s.assigns) (p : Lit) :
    value t p = value s p := by unfold value; rw [h]

/-- Two literals of the same variable that are both true are equal. -/
theorem eq_of_var_eq_of_true {s : Solver} {p q : Lit} (hv : var p = var q)
    (hp : value s p = l_True) (hq : value s q = l_True) : p = q := by
  rcases eq_or_eq_neg_of_var_eq hv with h | h
  · exact h
  · rw [h, value_neg_true] at hp; rw [hp] at hq; cases hq

/-! ## `uncheckedEnqueue` -/

theorem uncheckedEnqueue_eq {s s1 : Solver} {p : Lit} {r : Option CRef}
    (h : uncheckedEnqueue s p r = some s1) :
    value s p = l_Undef ∧
    s1 = { s with assigns := Function.update s.assigns (var p) (lbool.ofBool (!sign p)),
                  vardata := Function.update s.vardata (var p) (mkVarData r (decisionLevel s)),
                  trail := s.trail ++ [p] } := by
  unfold uncheckedEnqueue at h
  split_ifs at h with hv
  exact ⟨hv, (Option.some.inj h).symm⟩

theorem uncheckedEnqueue_some {s : Solver} {p : Lit} (r : Option CRef)
    (h : value s p = l_Undef) :
    uncheckedEnqueue s p r =
      some { s with assigns := Function.update s.assigns (var p) (lbool.ofBool (!sign p)),
                    vardata := Function.update s.vardata (var p) (mkVarData r (decisionLevel s)),
                    trail := s.trail ++ [p] } := by
  unfold uncheckedEnqueue; rw [if_pos h]

theorem uncheckedEnqueue_spec {s s1 : Solver} {p : Lit} {r : Option CRef}
    (h : uncheckedEnqueue s p r = some s1) :
    value s p = l_Undef ∧ s1.trail = s.trail ++ [p] ∧
    s1.assigns = Function.update s.assigns (var p) (lbool.ofBool (!sign p)) ∧
    s1.vardata = Function.update s.vardata (var p) (mkVarData r (decisionLevel s)) ∧
    enqKey s1 = enqKey s := by
  obtain ⟨h1, rfl⟩ := uncheckedEnqueue_eq h
  exact ⟨h1, rfl, rfl, rfl, rfl⟩

theorem enqKey_clauses {s t : Solver} (h : enqKey t = enqKey s) : t.clauses = s.clauses := by
  have := congrArg Solver.clauses h; simpa only [enqKey] using this

theorem enqKey_learnts {s t : Solver} (h : enqKey t = enqKey s) : t.learnts = s.learnts := by
  have := congrArg Solver.learnts h; simpa only [enqKey] using this

theorem enqKey_ca {s t : Solver} (h : enqKey t = enqKey s) : t.ca = s.ca := by
  have := congrArg Solver.ca h; simpa only [enqKey] using this

theorem enqKey_watches {s t : Solver} (h : enqKey t = enqKey s) : t.watches = s.watches := by
  have := congrArg Solver.watches h; simpa only [enqKey] using this

theorem enqKey_qhead {s t : Solver} (h : enqKey t = enqKey s) : t.qhead = s.qhead := by
  have := congrArg Solver.qhead h; simpa only [enqKey] using this

theorem enqKey_trail_lim {s t : Solver} (h : enqKey t = enqKey s) :
    t.trail_lim = s.trail_lim := by
  have := congrArg Solver.trail_lim h; simpa only [enqKey] using this

theorem enqKey_ok {s t : Solver} (h : enqKey t = enqKey s) : t.ok = s.ok := by
  have := congrArg Solver.ok h; simpa only [enqKey] using this

theorem value_of_assigns_update_self (t : Solver) (a : Var → lbool) (p : Lit)
    (h : t.assigns = Function.update a (var p) (lbool.ofBool (!sign p))) :
    value t p = l_True := by
  unfold value; rw [h]; simp only [Function.update_same, lbool.ofBool]
  cases sign p <;> simp [lbool.xorSign]

theorem value_enqueue_self (s : Solver) (p : Lit) (vd : Var → VarData) (tr : List Lit) :
    value { s with assigns := Function.update s.assigns (var p) (lbool.ofBool (!sign p)),
                   vardata := vd, trail := tr } p = l_True := by
  unfold value; simp [lbool.ofBool]
  cases sign p <;> simp [lbool.xorSign]

theorem value_enqueue_other (s : Solver) (p q : Lit) (vd : Var → VarData) (tr : List Lit)
    (h : var q ≠ var p) :
    value { s with assigns := Function.update s.assigns (var p) (lbool.ofBool (!sign p)),
                   vardata := vd, trail := tr } q = value s q := by
  unfold value; simp [Function.update_noteq h]

end Minisat


namespace Minisat
open lbool

/-! ## The body of the watcher loop, case by case -/

theorem value_setLits (s : Solver) (cr : CRef) (ls : List Lit) (p : Lit) :
    value (setLits s cr ls) p = value s p := rfl

theorem findWatch_congr {s t : Solver} (h : t.assigns = s.assigns) :
    ∀ (ls : List Lit) (k : Nat), findWatch t ls k = findWatch s ls k := by
  intro ls
  induction ls with
  | nil => intro k; rfl
  | cons l ls ih => intro k; simp only [findWatch, value_congr h, ih]

/-- The body of the watcher loop in terms of the values in the state before the step. -/
theorem watchStep_unfold (p : Lit) (b : Bool) (w : Watcher) (s : Solver) :
    watchStep p b w s =
      if value s w.blocker = l_True then WStep.keep w s
      else if (swapFalseLit (s.ca.cl w.cref).lits (neg p)).getD 1 0 = neg p then
        if (swapFalseLit (s.ca.cl w.cref).lits (neg p)).getD 0 0 ≠ w.blocker ∧
            value s ((swapFalseLit (s.ca.cl w.cref).lits (neg p)).getD 0 0) = l_True then
          WStep.keep ⟨w.cref, (swapFalseLit (s.ca.cl w.cref).lits (neg p)).getD 0 0⟩
            (setLits s w.cref (swapFalseLit (s.ca.cl w.cref).lits (neg p)))
        else
          match findWatch s ((swapFalseLit (s.ca.cl w.cref).lits (neg p)).drop 2) 2 with
          | some k =>
            if neg ((swapFalseLit (s.ca.cl w.cref).lits (neg p)).getD k 0) = p then WStep.fail
            else WStep.move (pushWatch
              (setLits (setLits s w.cref (swapFalseLit (s.ca.cl w.cref).lits (neg p))) w.cref
                (moveWatch (swapFalseLit (s.ca.cl w.cref).lits (neg p)) k (neg p)))
              (neg ((swapFalseLit (s.ca.cl w.cref).lits (neg p)).getD k 0))
              ⟨w.cref, (swapFalseLit (s.ca.cl w.cref).lits (neg p)).getD 0 0⟩)
          | none =>
            if value s ((swapFalseLit (s.ca.cl w.cref).lits (neg p)).getD 0 0) = l_False then
              WStep.conflict ⟨w.cref, (swapFalseLit (s.ca.cl w.cref).lits (neg p)).getD 0 0⟩
                (setQhead (setLits s w.cref (swapFalseLit (s.ca.cl w.cref).lits (neg p)))
                  s.trail.length)
            else
              match uncheckedEnqueue
                  (tagSymmetryUnit b
                    (setLits s w.cref (swapFalseLit (s.ca.cl w.cref).lits (neg p)))
                    (var ((swapFalseLit (s.ca.cl w.cref).lits (neg p)).getD 0 0)))
                  ((swapFalseLit (s.ca.cl w.cref).lits (neg p)).getD 0 0) (some w.cref) with
              | none => WStep.fail
              | some s3 =>
                WStep.keep ⟨w.cref, (swapFalseLit (s.ca.cl w.cref).lits (neg p)).getD 0 0⟩ s3
      else WStep.fail := by
  unfold watchStep
  dsimp only
  rw [findWatch_congr (show (setLits s w.cref _).assigns = s.assigns from rfl)]
  rfl

theorem watchStep_keep {p : Lit} {b : Bool} {w w1 : Watcher} {s s1 : Solver}
    (h : watchStep p b w s = WStep.keep w1 s1) :
    (value s w.blocker = l_True ∧ w1 = w ∧ s1 = s) ∨
    (value s w.blocker ≠ l_True ∧
      (swapFalseLit (s.ca.cl w.cref).lits (neg p)).getD 1 0 = neg p ∧
      w1 = ⟨w.cref, (swapFalseLit (s.ca.cl w.cref).lits (neg p)).getD 0 0⟩ ∧
      ((value s ((swapFalseLit (s.ca.cl w.cref).lits (neg p)).getD 0 0) = l_True ∧
          s1 = setLits s w.cref (swapFalseLit (s.ca.cl w.cref).lits (neg p))) ∨
       (findWatch s ((swapFalseLit (s.ca.cl w.cref).lits (neg p)).drop 2) 2 = none ∧
          uncheckedEnqueue
            (tagSymmetryUnit b (setLits s w.cref (swapFalseLit (s.ca.cl w.cref).lits (neg p)))
                (var ((swapFalseLit (s.ca.cl w.cref).lits (neg p)).getD 0 0)))
            ((swapFalseLit (s.ca.cl w.cref).lits (neg p)).getD 0 0) (some w.cref) = some s1))) := by
  rw [watchStep_unfold] at h
  generalize swapFalseLit (s.ca.cl w.cref).lits (neg p) = lits1 at h ⊢
  by_cases h1 : value s w.blocker = l_True
  · rw [if_pos h1] at h; cases h; exact Or.inl ⟨h1, rfl, rfl⟩
  · rw [if_neg h1] at h
    by_cases h2 : lits1.getD 1 0 = neg p
    · rw [if_pos h2] at h
      by_cases h3 : lits1.getD 0 0 ≠ w.blocker ∧ value s (lits1.getD 0 0) = l_True
      · rw [if_pos h3] at h; cases h; exact Or.inr ⟨h1, h2, rfl, Or.inl ⟨h3.2, rfl⟩⟩
      · rw [if_neg h3] at h
        generalize hf : findWatch s (lits1.drop 2) 2 = fw at h ⊢
        cases fw with
        | some k =>
          dsimp only at h
          by_cases h4 : neg (lits1.getD k 0) = p
          · rw [if_pos h4] at h; cases h
          · rw [if_neg h4] at h; cases h
        | none =>
          dsimp only at h
          by_cases h5 : value s (lits1.getD 0 0) = l_False
          · rw [if_pos h5] at h; cases h
          · rw [if_neg h5] at h
            generalize he : uncheckedEnqueue _ _ _ = ue at h
            cases ue with
            | none => cases h
            | some s3 => cases h; exact Or.inr ⟨h1, h2, rfl, Or.inr ⟨rfl, rfl⟩⟩
    · rw [if_neg h2] at h; cases h

theorem watchStep_move {p : Lit} {b : Bool} {w : Watcher} {s s1 : Solver}
    (h : watchStep p b w s = WStep.move s1) :
    ∃ k, value s w.blocker ≠ l_True ∧
      (swapFalseLit (s.ca.cl w.cref).lits (neg p)).getD 1 0 = neg p ∧
      ¬ ((swapFalseLit (s.ca.cl w.cref).lits (neg p)).getD 0 0 ≠ w.blocker ∧
          value s ((swapFalseLit (s.ca.cl w.cref).lits (neg p)).getD 0 0) = l_True) ∧
      findWatch s ((swapFalseLit (s.ca.cl w.cref).lits (neg p)).drop 2) 2 = some k ∧
      neg ((swapFalseLit (s.ca.cl w.cref).lits (neg p)).getD k 0) ≠ p ∧
      s1 = pushWatch
        (setLits (setLits s w.cref (swapFalseLit (s.ca.cl w.cref).lits (neg p))) w.cref
          (moveWatch (swapFalseLit (s.ca.cl w.cref).lits (neg p)) k (neg p)))
        (neg ((swapFalseLit (s.ca.cl w.cref).lits (neg p)).getD k 0))
        ⟨w.cref, (swapFalseLit (s.ca.cl w.cref).lits (neg p)).getD 0 0⟩ := by
  rw [watchStep_unfold] at h
  generalize swapFalseLit (s.ca.cl w.cref).lits (neg p) = lits1 at h ⊢
  by_cases h1 : value s w.blocker = l_True
  · rw [if_pos h1] at h; cases h
  · rw [if_neg h1] at h
    by_cases h2 : lits1.getD 1 0 = neg p
    · rw [if_pos h2] at h
      by_cases h3 : lits1.getD 0 0 ≠ w.blocker ∧ value s (lits1.getD 0 0) = l_True
      · rw [if_pos h3] at h; cases h
      · rw [if_neg h3] at h
        generalize hf : findWatch s (lits1.drop 2) 2 = fw at h ⊢
        cases fw with
        | some k =>
          dsimp only at h
          by_cases h4 : neg (lits1.getD k 0) = p
          · rw [if_pos h4] at h; cases h
          · rw [if_neg h4] at h; cases h; exact ⟨k, h1, h2, h3, rfl, h4, rfl⟩
        | none =>
          dsimp only at h
          by_cases h5 : value s (lits1.getD 0 0) = l_False
          · rw [if_pos h5] at h; cases h
          · rw [if_neg h5] at h
            generalize he : uncheckedEnqueue _ _ _ = ue at h
            cases ue with
            | none => cases h
            | some s3 => cases h
    · rw [if_neg h2] at h; cases h

theorem watchStep_conflict {p : Lit} {b : Bool} {w w1 : Watcher} {s s1 : Solver}
    (h : watchStep p b w s = WStep.conflict w1 s1) :
    value s w.blocker ≠ l_True ∧
      (swapFalseLit (s.ca.cl w.cref).lits (neg p)).getD 1 0 = neg p ∧
      findWatch s ((swapFalseLit (s.ca.cl w.cref).lits (neg p)).drop 2) 2 = none ∧
      value s ((swapFalseLit (s.ca.cl w.cref).lits (neg p)).getD 0 0) = l_False ∧
      w1 = ⟨w.cref, (swapFalseLit (s.ca.cl w.cref).lits (neg p)).getD 0 0⟩ ∧
      s1 = setQhead (setLits s w.cref (swapFalseLit (s.ca.cl w.cref).lits (neg p)))
             s.trail.length := by
  rw [watchStep_unfold] at h
  generalize swapFalseLit (s.ca.cl w.cref).lits (neg p) = lits1 at h ⊢
  by_cases h1 : value s w.blocker = l_True
  · rw [if_pos h1] at h; cases h
  · rw [if_neg h1] at h
    by_cases h2 : lits1.getD 1 0 = neg p
    · rw [if_pos h2] at h
      by_cases h3 : lits1.getD 0 0 ≠ w.blocker ∧ value s (lits1.getD 0 0) = l_True
      · rw [if_pos h3] at h; cases h
      · rw [if_neg h3] at h
        generalize hf : findWatch s (lits1.drop 2) 2 = fw at h ⊢
        cases fw with
        | some k =>
          dsimp only at h
          by_cases h4 : neg (lits1.getD k 0) = p
          · rw [if_pos h4] at h; cases h
          · rw [if_neg h4] at h; cases h
        | none =>
          dsimp only at h
          by_cases h5 : value s (lits1.getD 0 0) = l_False
          · rw [if_pos h5] at h; cases h; exact ⟨h1, h2, rfl, h5, rfl, rfl⟩
          · rw [if_neg h5] at h
            generalize he : uncheckedEnqueue _ _ _ = ue at h
            cases ue with
            | none => cases h
            | some s3 => cases h
    · rw [if_neg h2] at h; cases h

/-! ## Frame of `propagate` -/

theorem propKey_setLits (s : Solver) (cr : CRef) (ls : List Lit) :
    propKey (setLits s cr ls) = propKey s := rfl

theorem propKey_pushWatch (s : Solver) (l : Lit) (w : Watcher) :
    propKey (pushWatch s l w) = propKey s := rfl

theorem propKey_setQhead (s : Solver) (q : Nat) : propKey (setQhead s q) = propKey s := rfl

theorem propKey_setWatches (s : Solver) (l : Lit) (ws : List Watcher) :
    propKey (setWatches s l ws) = propKey s := rfl

theorem propKey_tagSymmetryUnit (b : Bool) (s : Solver) (v : Var) :
    propKey (tagSymmetryUnit b s v) = propKey s := by
  unfold tagSymmetryUnit; split_ifs <;> rfl

theorem propKey_uncheckedEnqueue {s s1 : Solver} {p : Lit} {r : Option CRef}
    (h : uncheckedEnqueue s p r = some s1) : propKey s1 = propKey s := by
  rw [(uncheckedEnqueue_eq h).2]; rfl

theorem propKey_watchStep_keep {p : Lit} {b : Bool} {w w1 : Watcher} {s s1 : Solver}
    (h : watchStep p b w s = WStep.keep w1 s1) : propKey s1 = propKey s := by
  rcases watchStep_keep h with ⟨_, _, rfl⟩ | ⟨_, _, _, ⟨_, rfl⟩ | ⟨_, he⟩⟩
  · rfl
  · rw [propKey_setLits]
  · rw [propKey_uncheckedEnqueue he, propKey_tagSymmetryUnit, propKey_setLits]

theorem propKey_watchStep_move {p : Lit} {b : Bool} {w : Watcher} {s s1 : Solver}
    (h : watchStep p b w s = WStep.move s1) : propKey s1 = propKey s := by
  obtain ⟨k, _, _, _, _, _, rfl⟩ := watchStep_move h
  rw [propKey_pushWatch, propKey_setLits, propKey_setLits]

theorem propKey_watchStep_conflict {p : Lit} {b : Bool} {w w1 : Watcher} {s s1 : Solver}
    (h : watchStep p b w s = WStep.conflict w1 s1) : propKey s1 = propKey s := by
  obtain ⟨_, _, _, _, _, rfl⟩ := watchStep_conflict h
  rw [propKey_setQhead, propKey_setLits]

theorem propKey_propagateWatchers (p : Lit) (b : Bool) :
    ∀ (ws : List Watcher) (s : Solver) (r : Option CRef × List Watcher × Solver),
      propagateWatchers p b ws s = some r → propKey r.2.2 = propKey s := by
  intro ws
  induction ws with
  | nil => intro s r h; simp [propagateWatchers] at h; subst h; rfl
  | cons w rest ih =>
    intro s r h
    rw [propagateWatchers] at h
    split at h
    · cases h
    · rename_i w1 s1 hw
      simp only [Option.map_eq_some'] at h
      obtain ⟨a, ha, rfl⟩ := h
      exact (ih _ _ ha).trans (propKey_watchStep_keep hw)
    · rename_i s1 hw
      exact (ih _ _ h).trans (propKey_watchStep_move hw)
    · rename_i w1 s1 hw
      cases h
      exact propKey_watchStep_conflict hw

theorem propKey_lookup (s : Solver) (p : Lit) : propKey (lookup s p) = propKey s := by
  unfold lookup; split_ifs <;> rfl

theorem propKey_propagateLit {p : Lit} {s : Solver} {r : Option CRef × Solver}
    (h : propagateLit p s = some r) : propKey r.2 = propKey s := by
  unfold propagateLit at h
  split at h
  · cases h
  · rename_i r1 h1
    cases h
    rw [propKey_setWatches]
    exact (propKey_propagateWatchers _ _ _ _ _ h1).trans (propKey_lookup s p)

theorem propagateLoop_done {fuel : Nat} {s : Solver} {confl : Option CRef} {n : Nat}
    (h : ¬ s.qhead < s.trail.length) : propagateLoop fuel s confl n = some (confl, n, s) := by
  unfold propagateLoop; rw [if_neg h]

theorem propagateLoop_step {fuel : Nat} {s : Solver} {confl : Option CRef} {n : Nat}
    (h : s.qhead < s.trail.length) :
    propagateLoop (fuel + 1) s confl n =
      match propagateLit (s.trail.getD s.qhead 0) (setQhead s (s.qhead + 1)) with
      | none => none
      | some (some cr, s1) => propagateLoop fuel (setQhead s1 s1.trail.length) (some cr) (n + 1)
      | some (none, s1) =>
        propagateLoop fuel (if confl ≠ none then setQhead s1 s1.trail.length else s1) confl
          (n + 1) := by
  rw [propagateLoop, if_pos h]
  try rfl

theorem propagateLoop_zero {s : Solver} {confl : Option CRef} {n : Nat}
    (h : s.qhead < s.trail.length) : propagateLoop 0 s confl n = none := by
  rw [propagateLoop, if_pos h]

theorem propKey_propagateLoop :
    ∀ (fuel : Nat) (s : Solver) (confl : Option CRef) (n : Nat)
      (r : Option CRef × Nat × Solver),
      propagateLoop fuel s confl n = some r → propKey r.2.2 = propKey s := by
  intro fuel
  induction fuel with
  | zero =>
    intro s confl n r h
    by_cases hq : s.qhead < s.trail.length
    · rw [propagateLoop_zero hq] at h; cases h
    · rw [propagateLoop_done hq] at h; cases h; rfl
  | succ fuel ih =>
    intro s confl n r h
    by_cases hq : s.qhead < s.trail.length
    · rw [propagateLoop_step hq] at h
      split at h
      · cases h
      · rename_i cr s1 h1
        exact (ih _ _ _ _ h).trans (propKey_propagateLit h1)
      · rename_i s1 h1
        refine (ih _ _ _ _ h).trans ?_
        have := propKey_propagateLit h1
        split_ifs
        · exact this
        · exact this
    · rw [propagateLoop_done hq] at h; cases h; rfl

theorem propKey_propagate {fuel : Nat} {s : Solver} {r : Option CRef × Solver}
    (h : propagate fuel s = some r) : propKey r.2 = propKey s := by
  unfold propagate at h
  split at h
  · cases h
  · rename_i r1 h1
    cases h
    exact propKey_propagateLoop _ _ _ _ _ h1

end Minisat


namespace Minisat
open lbool

/-! ## The loop of `addClause_` -/

theorem sortLits_sorted (ps : List Nat) : (sortLits ps).Sorted (fun a b => a ≤ b) :=
  List.sorted_insertionSort _ ps

theorem mem_sortLits {ps : List Nat} {l : Nat} : l ∈ sortLits ps ↔ l ∈ ps :=
  (List.perm_insertionSort _ ps).mem_iff

theorem addClauseLoop_none_of_true (s : Solver) :
    ∀ (qs : List Lit) (p : Option Lit), (∃ q ∈ qs, value s q = l_True) →
      addClauseLoop s qs p = none := by
  intro qs
  induction qs with
  | nil => intro p h; obtain ⟨q, hq, _⟩ := h; cases hq
  | cons z rest ih =>
    intro p h
    rw [addClauseLoop]
    by_cases h1 : value s z = l_True ∨ some z = p.map neg
    · rw [if_pos h1]
    · rw [if_neg h1]
      have hr : ∃ q ∈ rest, value s q = l_True := by
        obtain ⟨q, hq, hv⟩ := h
        rcases List.mem_cons.mp hq with rfl | hq
        · exact absurd (Or.inl hv) h1
        · exact ⟨q, hq, hv⟩
      split_ifs
      · rw [ih _ hr]; rfl
      · exact ih _ hr

theorem addClauseLoop_all_false (s : Solver) :
    ∀ (qs : List Lit), (∀ q ∈ qs, value s q = l_False) → addClauseLoop s qs none = some [] := by
  intro qs
  induction qs with
  | nil => intro _; rfl
  | cons z rest ih =>
    intro h
    have hz := h z (List.mem_cons_self _ _)
    rw [addClauseLoop]
    rw [if_neg (by simp [hz]), if_neg (by simp [hz])]
    exact ih (fun q hq => h q (List.mem_cons_of_mem _ hq))

/-- A sorted list that holds an even literal `x` and its negation `x + 1` makes the loop
leave with `return true`. -/
theorem addClauseLoop_taut (s : Solver) (x : Nat) (hx : x % 2 = 0) :
    ∀ (qs : List Nat) (prev : Option Nat), qs.Sorted (fun a b => a ≤ b) → x + 1 ∈ qs →
      (x ∈ qs ∨ (prev = some x ∧ value s x = l_Undef ∧ ∀ z ∈ qs, x ≤ z)) →
      addClauseLoop s qs prev = none := by
  have hneg : neg x = x + 1 := by unfold neg; rw [if_pos hx]
  intro qs
  induction qs with
  | nil => intro prev _ h; cases h
  | cons z rest ih =>
    intro prev hs hy hc
    have hsr : rest.Sorted (fun a b => a ≤ b) := hs.of_cons
    have hle : ∀ q ∈ rest, z ≤ q := fun q hq => List.rel_of_sorted_cons hs q hq
    rw [addClauseLoop]
    by_cases h1 : value s z = l_True ∨ some z = prev.map neg
    · rw [if_pos h1]
    · rw [if_neg h1]
      -- both branches call the loop on `rest`
      suffices hsuff : ∀ prev', ((value s z ≠ l_False ∧ some z ≠ prev) ∧ prev' = some z) ∨
          (¬ (value s z ≠ l_False ∧ some z ≠ prev) ∧ prev' = prev) →
          addClauseLoop s rest prev' = none by
        by_cases h2 : value s z ≠ l_False ∧ some z ≠ prev
        · rw [if_pos h2, hsuff _ (Or.inl ⟨h2, rfl⟩)]; rfl
        · rw [if_neg h2]; exact hsuff _ (Or.inr ⟨h2, rfl⟩)
      intro prev' hp'
      rcases hc with hxin | ⟨hprev, hu, hge⟩
      · rcases List.mem_cons.mp hxin with hxz | hxr
        · -- z = x
          subst hxz
          have hyr : x + 1 ∈ rest := by
            rcases List.mem_cons.mp hy with h | h
            · omega
            · exact h
          by_cases hvx : value s x = l_Undef
          · have hp'' : prev' = some x := by
              rcases hp' with ⟨_, h⟩ | ⟨h2, h⟩
              · exact h
              · rw [h]
                by_contra hne
                exact h2 ⟨by rw [hvx]; simp, fun e => hne e.symm⟩
            exact ih prev' hsr hyr (Or.inr ⟨hp'', hvx, hle⟩)
          · have hvf : value s x = l_False := by
              cases hv : value s x with
              | l_True => exact absurd (Or.inl hv) h1
              | l_False => rfl
              | l_Undef => exact absurd hv hvx
            exact addClauseLoop_none_of_true s rest prev'
              ⟨x + 1, hyr, by rw [← hneg]; exact value_neg_true.mpr hvf⟩
        · have hyr : x + 1 ∈ rest := by
            rcases List.mem_cons.mp hy with h | h
            · have := hle x hxr; omega
            · exact h
          exact ih prev' hsr hyr (Or.inl hxr)
      · have hxz : x ≤ z := hge z (List.mem_cons_self _ _)
        have hzy : z ≤ x + 1 := by
          rcases List.mem_cons.mp hy with h | h
          · omega
          · exact hle _ h
        have hzx : z = x := by
          rcases Nat.lt_or_ge x z with hlt | hge'
          · exfalso
            apply h1; right
            rw [hprev]; simp only [Option.map_some']
            rw [hneg]; congr 1; omega
          · omega
        subst hzx
        have hyr : z + 1 ∈ rest := by
          rcases List.mem_cons.mp hy with h | h
          · omega
          · exact h
        have hp'' : prev' = some z := by
          rcases hp' with ⟨_, h⟩ | ⟨_, h⟩
          · exact h
          · rw [h, hprev]
        exact ih prev' hsr hyr (Or.inr ⟨hp'', hu, hle⟩)

/-- What the loop of `addClause_` returns on a sorted list, when it returns a list. -/
theorem addClauseLoop_spec (s : Solver) :
    ∀ (qs : List Nat) (prev : Option Nat) (L : List Nat), qs.Sorted (fun a b => a ≤ b) →
      (∀ p0, prev = some p0 → ∀ q ∈ qs, p0 ≤ q) → addClauseLoop s qs prev = some L →
      L.Sorted (fun a b => a < b) ∧
      (∀ l, l ∈ L ↔ l ∈ qs ∧ value s l ≠ l_False ∧ some l ≠ prev) ∧
      (∀ p0, prev = some p0 → ∀ l ∈ L, p0 < l) := by
  intro qs
  induction qs with
  | nil =>
    intro prev L _ _ h
    rw [addClauseLoop] at h; cases h
    exact ⟨List.sorted_nil, by simp, by simp⟩
  | cons z rest ih =>
    intro prev L hs hp h
    have hsr : rest.Sorted (fun a b => a ≤ b) := hs.of_cons
    have hle : ∀ q ∈ rest, z ≤ q := fun q hq => List.rel_of_sorted_cons hs q hq
    rw [addClauseLoop] at h
    by_cases h1 : value s z = l_True ∨ some z = prev.map neg
    · rw [if_pos h1] at h; cases h
    · rw [if_neg h1] at h
      by_cases h2 : value s z ≠ l_False ∧ some z ≠ prev
      · rw [if_pos h2] at h
        simp only [Option.map_eq_some'] at h
        obtain ⟨L', hL', rfl⟩ := h
        obtain ⟨hsL, hmem, hlt⟩ := ih (some z) L' hsr
          (fun p0 hp0 q hq => by cases hp0; exact hle q hq) hL'
        refine ⟨List.sorted_cons.mpr ⟨fun l hl => hlt z rfl l hl, hsL⟩, ?_, ?_⟩
        · intro l
          rw [List.mem_cons, hmem, List.mem_cons]
          constructor
          · rintro (rfl | ⟨hr, hv, hne⟩)
            · exact ⟨Or.inl rfl, h2.1, h2.2⟩
            · refine ⟨Or.inr hr, hv, ?_⟩
              intro e
              have hzl : z ≤ l := hle l hr
              have : l ≠ z := fun e' => hne (by rw [e'])
              have := hp l e.symm z (List.mem_cons_self _ _)
              omega
          · rintro ⟨hl | hl, hv, hne⟩
            · exact Or.inl hl
            · by_cases e : l = z
              · exact Or.inl e
              · exact Or.inr ⟨hl, hv, fun e' => e (Option.some.inj e')⟩
        · intro p0 hp0 l hl
          have hpz : p0 ≤ z := hp p0 hp0 z (List.mem_cons_self _ _)
          have hne : z ≠ p0 := fun e => h2.2 (by rw [hp0, e])
          rcases List.mem_cons.mp hl with rfl | hl
          · omega
          · have := hlt z rfl l hl; omega
      · rw [if_neg h2] at h
        obtain ⟨hsL, hmem, hlt⟩ := ih prev L hsr
          (fun p0 hp0 q hq => hp p0 hp0 q (List.mem_cons_of_mem _ hq)) h
        refine ⟨hsL, ?_, hlt⟩
        intro l
        rw [hmem, List.mem_cons]
        constructor
        · rintro ⟨hr, hv, hne⟩; exact ⟨Or.inr hr, hv, hne⟩
        · rintro ⟨hl | hl, hv, hne⟩
          · subst hl; exact absurd ⟨hv, hne⟩ h2
          · exact ⟨hl, hv, hne⟩

/-- The loop of `addClause_` returns a list when no literal is true and no literal comes
with its negation. -/
theorem addClauseLoop_some (s : Solver) :
    ∀ (qs : List Nat) (prev : Option Nat), (∀ q ∈ qs, value s q ≠ l_True) →
      (∀ q ∈ qs, some q ≠ prev.map neg) → (∀ q ∈ qs, neg q ∉ qs) →
      ∃ L, addClauseLoop s qs prev = some L := by
  intro qs
  induction qs with
  | nil => intro prev _ _ _; exact ⟨[], rfl⟩
  | cons z rest ih =>
    intro prev hv hp hn
    rw [addClauseLoop]
    have h1 : ¬ (value s z = l_True ∨ some z = prev.map neg) := by
      rintro (h | h)
      · exact hv z (List.mem_cons_self _ _) h
      · exact hp z (List.mem_cons_self _ _) h
    rw [if_neg h1]
    have hvr : ∀ q ∈ rest, value s q ≠ l_True := fun q hq => hv q (List.mem_cons_of_mem _ hq)
    have hnr : ∀ q ∈ rest, neg q ∉ rest :=
      fun q hq hq' => hn q (List.mem_cons_of_mem _ hq) (List.mem_cons_of_mem _ hq')
    by_cases h2 : value s z ≠ l_False ∧ some z ≠ prev
    · rw [if_pos h2]
      obtain ⟨L, hL⟩ := ih (some z) hvr
        (fun q hq e => by
          simp only [Option.map_some', Option.some.injEq] at e
          exact hn z (List.mem_cons_self _ _) (by rw [← e]; exact List.mem_cons_of_mem _ hq))
        hnr
      exact ⟨z :: L, by rw [hL]; rfl⟩
    · rw [if_neg h2]
      exact ih prev hvr (fun q hq => hp q (List.mem_cons_of_mem _ hq)) hnr

end Minisat


namespace Minisat
open lbool

/-! ## `attachClause`, `cancelUntil`: explicit results -/

theorem attachClause_some {s : Solver} {cr : CRef} (h : (s.ca.cl cr).size > 1) :
    attachClause s cr = some (countAttach
      (pushWatch (pushWatch s (neg ((s.ca.cl cr).get 0)) ⟨cr, (s.ca.cl cr).get 1⟩)
        (neg ((s.ca.cl cr).get 1)) ⟨cr, (s.ca.cl cr).get 0⟩)
      (s.ca.cl cr)) := by
  unfold attachClause; rw [if_pos h]

theorem attachClause_eq {s t : Solver} {cr : CRef} (h : attachClause s cr = some t) :
    (s.ca.cl cr).size > 1 ∧ t = countAttach
      (pushWatch (pushWatch s (neg ((s.ca.cl cr).get 0)) ⟨cr, (s.ca.cl cr).get 1⟩)
        (neg ((s.ca.cl cr).get 1)) ⟨cr, (s.ca.cl cr).get 0⟩)
      (s.ca.cl cr) := by
  unfold attachClause at h
  split_ifs at h with h1
  exact ⟨h1, (Option.some.inj h).symm⟩

theorem countAttach_ok (s : Solver) (c : Clause) : (countAttach s c).ok = s.ok := by
  unfold countAttach; split_ifs <;> rfl

theorem countAttach_trail (s : Solver) (c : Clause) : (countAttach s c).trail = s.trail := by
  unfold countAttach; split_ifs <;> rfl

theorem countAttach_clauses (s : Solver) (c : Clause) :
    (countAttach s c).clauses = s.clauses := by
  unfold countAttach; split_ifs <;> rfl

theorem countAttach_learnts (s : Solver) (c : Clause) :
    (countAttach s c).learnts = s.learnts := by
  unfold countAttach; split_ifs <;> rfl

theorem countAttach_ca (s : Solver) (c : Clause) : (countAttach s c).ca = s.ca := by
  unfold countAttach; split_ifs <;> rfl

theorem countAttach_watches (s : Solver) (c : Clause) :
    (countAttach s c).watches = s.watches := by
  unfold countAttach; split_ifs <;> rfl

theorem countAttach_assigns (s : Solver) (c : Clause) :
    (countAttach s c).assigns = s.assigns := by
  unfold countAttach; split_ifs <;> rfl

theorem setOk_self {s : Solver} {b : Bool} (h : s.ok = b) : setOk s b = s := by
  cases s; simp only [setOk] at *; simp [h]

/-! ## C2 -/

/-- C2.  At decision level 0, whenever `addClause_` returns, its result is `false` exactly
when the flag `ok` is `false` after the call; and when `ok` is already `false` the call
returns `false` and leaves the whole state unchanged. -/
theorem addClause_false_iff_not_ok (fuel : Nat) (s : Solver) (ps : List Lit)
    (h0 : decisionLevel s = 0) :
    (∀ b s', addClause_ fuel s ps = some (b, s') → (b = false ↔ s'.ok = false)) ∧
    (s.ok = false → addClause_ fuel s ps = some (false, s)) := by
  constructor
  · intro b s' h
    unfold addClause_ at h
    rw [if_neg (by simp [h0])] at h
    by_cases hok : s.ok = false
    · rw [if_pos hok] at h; cases h; simp [hok]
    · rw [if_neg hok] at h
      have hok' : s.ok = true := by simpa using hok
      split at h
      · cases h; simp [hok']
      · cases h; simp [setOk]
      · split at h
        · cases h
        · split at h
          · cases h
          · cases h; simp [setOk]
      · simp only [Option.map_eq_some'] at h
        obtain ⟨t, ht, he⟩ := h
        cases he
        rw [(attachClause_eq ht).2, countAttach_ok]
        simp [pushWatch, pushClause, setCa, hok']
  · intro hok
    unfold addClause_
    rw [if_neg (by simp [h0]), if_pos hok]

/-! ## C3 -/

/-- C3.  With `ok = true` at decision level 0, adding a clause whose literals are all false
(in particular the empty clause) returns `false` and sets `ok = false`; `solve_` on the
state so reached returns `l_False` and its `conflict` vector is empty. -/
theorem addClause_all_false_unsat (fuel fuel2 : Nat) (s : Solver) (ps : List Lit)
    (h0 : decisionLevel s = 0) (hok : s.ok = true) (hf : ∀ l ∈ ps, value s l = l_False) :
    addClause_ fuel s ps = some (false, setOk s false) ∧
    solve_ fuel2 (setOk s false) = some (l_False, clearResult (setOk s false)) ∧
    (clearResult (setOk s false)).conflict = [] := by
  refine ⟨?_, ?_, rfl⟩
  · unfold addClause_
    rw [if_neg (by simp [h0]), if_neg (by simp [hok]),
      addClauseLoop_all_false s _ (fun q hq => hf q (mem_sortLits.mp hq))]
  · unfold solve_
    rw [if_pos (show (setOk s false).ok = false from rfl)]

/-! ## C4 -/

theorem addClauseLoop_taut_sorted (s : Solver) (ps : List Nat) (p : Nat)
    (hp : p ∈ ps) (hn : neg p ∈ ps) : addClauseLoop s (sortLits ps) none = none := by
  by_cases hpar : p % 2 = 0
  · have hneg : neg p = p + 1 := by unfold neg; rw [if_pos hpar]
    exact addClauseLoop_taut s p hpar _ none (sortLits_sorted ps)
      (by rw [← hneg]; exact mem_sortLits.mpr hn) (Or.inl (mem_sortLits.mpr hp))
  · have hneg : neg p = p - 1 := by unfold neg; rw [if_neg hpar]
    have hpar' : (p - 1) % 2 = 0 := by omega
    have hp1 : p - 1 + 1 = p := by omega
    exact addClauseLoop_taut s (p - 1) hpar' _ none (sortLits_sorted ps)
      (by rw [hp1]; exact mem_sortLits.mpr hp)
      (Or.inl (by rw [← hneg]; exact mem_sortLits.mpr hn))

/-- C4.  With `ok = true` at decision level 0, adding a clause that holds a literal and its
negation returns `true` and leaves the whole solver state unchanged. -/
theorem addClause_tautology (fuel : Nat) (s : Solver) (ps : List Lit) (p : Lit)
    (h0 : decisionLevel s = 0) (hok : s.ok = true) (hp : p ∈ ps) (hn : neg p ∈ ps) :
    addClause_ fuel s ps = some (true, s) := by
  unfold addClause_
  rw [if_neg (by simp [h0]), if_neg (by simp [hok]), addClauseLoop_taut_sorted s ps p hp hn]

end Minisat


namespace Minisat
open lbool

/-! ## C5 -/

/-- C5.  With `ok = true` at decision level 0, for a clause without a true literal and
without a complementary pair in which two distinct literals are not false, `addClause_`
returns `true`, keeps the trail, and stores exactly one original clause at the end of the
arena: its literals are the non-false literals of `ps` in strictly increasing order, all
flags are cleared, and it is watched through its first two literals. -/
theorem addClause_stores_clause (fuel : Nat) (s : Solver) (ps : List Lit) (a b : Lit)
    (h0 : decisionLevel s = 0) (hok : s.ok = true)
    (hnt : ∀ l ∈ ps, value s l ≠ l_True) (hnc : ∀ l ∈ ps, neg l ∉ ps)
    (ha : a ∈ ps) (hb : b ∈ ps) (hab : a ≠ b)
    (hav : value s a ≠ l_False) (hbv : value s b ≠ l_False) :
    ∃ (L : List Lit) (s' : Solver),
      addClause_ fuel s ps = some (true, s') ∧
      L.Sorted (fun x y => x < y) ∧ (∀ l, l ∈ L ↔ l ∈ ps ∧ value s l ≠ l_False) ∧
      s'.trail = s.trail ∧ s'.assigns = s.assigns ∧
      s'.clauses = s.clauses ++ [s.ca.size] ∧ s'.learnts = s.learnts ∧
      s'.ca.cl s.ca.size =
        { lits := L, learnt := false, fsymmetry := false, symmetry := false, scompat := none,
          activity := 0, mark := 0, reloced := false, relocation := 0 } ∧
      (∀ cr, cr ≠ s.ca.size → s'.ca.cl cr = s.ca.cl cr) ∧
      s'.watches (neg (L.getD 0 0)) =
        s.watches (neg (L.getD 0 0)) ++ [⟨s.ca.size, L.getD 1 0⟩] ∧
      s'.watches (neg (L.getD 1 0)) =
        s.watches (neg (L.getD 1 0)) ++ [⟨s.ca.size, L.getD 0 0⟩] ∧
      (∀ l, l ≠ neg (L.getD 0 0) → l ≠ neg (L.getD 1 0) → s'.watches l = s.watches l) := by
  obtain ⟨L, hL⟩ := addClauseLoop_some s (sortLits ps) none
    (fun q hq => hnt q (mem_sortLits.mp hq)) (fun q _ => by simp)
    (fun q hq hq' => hnc q (mem_sortLits.mp hq) (mem_sortLits.mp hq'))
  obtain ⟨hsorted, hmem, -⟩ := addClauseLoop_spec s _ none L (sortLits_sorted ps)
    (fun p0 hp0 => by cases hp0) hL
  have hmem' : ∀ l, l ∈ L ↔ l ∈ ps ∧ value s l ≠ l_False := by
    intro l; rw [hmem, mem_sortLits]; simp
  have haL : a ∈ L := (hmem' a).mpr ⟨ha, hav⟩
  have hbL : b ∈ L := (hmem' b).mpr ⟨hb, hbv⟩
  -- the list has at least two elements
  obtain ⟨x, y, r, rfl⟩ : ∃ x y r, L = x :: y :: r := by
    match L, haL, hbL with
    | [], h, _ => cases h
    | [z], h1, h2 =>
      simp only [List.mem_singleton] at h1 h2
      exact absurd (h1.trans h2.symm) hab
    | x :: y :: r, _, _ => exact ⟨x, y, r, rfl⟩
  have hxy : x ≠ y :=
    Nat.ne_of_lt (List.rel_of_sorted_cons hsorted y (List.mem_cons_self _ _))
  have key : addClause_ fuel s ps = some (true, countAttach
      (pushWatch (pushWatch
        (pushClause (setCa s (s.ca.alloc (x :: y :: r) false false false none).2) s.ca.size)
        (neg x) ⟨s.ca.size, y⟩) (neg y) ⟨s.ca.size, x⟩)
      { lits := x :: y :: r, learnt := false, fsymmetry := false, symmetry := false,
        scompat := none, activity := 0, mark := 0, reloced := false, relocation := 0 }) := by
    unfold addClause_
    rw [if_neg (by simp [h0]), if_neg (by simp [hok]), hL]
    simp only
    rw [show (s.ca.alloc (x :: y :: r) false false false none).1 = s.ca.size from rfl]
    rw [attachClause_some (by simp [pushClause, setCa, ClauseAllocator.alloc, Clause.size])]
    simp [pushClause, setCa, ClauseAllocator.alloc, Clause.get]
  generalize hs' : countAttach
      (pushWatch (pushWatch
        (pushClause (setCa s (s.ca.alloc (x :: y :: r) false false false none).2) s.ca.size)
        (neg x) ⟨s.ca.size, y⟩) (neg y) ⟨s.ca.size, x⟩)
      { lits := x :: y :: r, learnt := false, fsymmetry := false, symmetry := false,
        scompat := none, activity := 0, mark := 0, reloced := false, relocation := 0 } = s' at key
  have hnxy : neg x ≠ neg y := fun e => hxy (neg_inj e)
  have e1 : s'.trail = s.trail := by
    rw [← hs', countAttach_trail]; simp only [pushWatch, pushClause, setCa]
  have e2 : s'.assigns = s.assigns := by
    rw [← hs', countAttach_assigns]; simp only [pushWatch, pushClause, setCa]
  have e3 : s'.clauses = s.clauses ++ [s.ca.size] := by
    rw [← hs', countAttach_clauses]; simp only [pushWatch, pushClause, setCa]
  have e4 : s'.learnts = s.learnts := by
    rw [← hs', countAttach_learnts]; simp only [pushWatch, pushClause, setCa]
  have e5 : s'.ca = (s.ca.alloc (x :: y :: r) false false false none).2 := by
    rw [← hs', countAttach_ca]; simp only [pushWatch, pushClause, setCa]
  have e6 : s'.watches = Function.update (Function.update s.watches (neg x)
      (s.watches (neg x) ++ [⟨s.ca.size, y⟩])) (neg y) (s.watches (neg y) ++ [⟨s.ca.size, x⟩]) := by
    rw [← hs', countAttach_watches]
    simp only [pushWatch, pushClause, setCa, Function.update_noteq hnxy.symm]
  refine ⟨x :: y :: r, s', key, hsorted, hmem', e1, e2, e3, e4, ?_, ?_, ?_, ?_, ?_⟩
  · rw [e5]; simp [ClauseAllocator.alloc]
  · intro cr hcr
    rw [e5]; simp [ClauseAllocator.alloc, Function.update_noteq hcr]
  · rw [e6]; simp [Function.update_noteq hnxy]
  · rw [e6]; simp
  · intro l h1 h2
    simp only [List.getD_cons_zero, List.getD_cons_succ] at h1 h2
    rw [e6]; simp [Function.update_noteq h1, Function.update_noteq h2]

end Minisat


namespace Minisat
open lbool

theorem propKey_clauses {s t : Solver} (h : propKey t = propKey s) : t.clauses = s.clauses := by
  have := congrArg Solver.clauses h; simpa only [propKey] using this

theorem propKey_learnts {s t : Solver} (h : propKey t = propKey s) : t.learnts = s.learnts := by
  have := congrArg Solver.learnts h; simpa only [propKey] using this

theorem propKey_ok {s t : Solver} (h : propKey t = propKey s) : t.ok = s.ok := by
  have := congrArg Solver.ok h; simpa only [propKey] using this

theorem propKey_trail_lim {s t : Solver} (h : propKey t = propKey s) :
    t.trail_lim = s.trail_lim := by
  have := congrArg Solver.trail_lim h; simpa only [propKey] using this

theorem propKey_ca_size {s t : Solver} (h : propKey t = propKey s) : t.ca.size = s.ca.size := by
  have := congrArg (fun x => x.ca.size) h; simpa only [propKey] using this

theorem propKey_conflict {s t : Solver} (h : propKey t = propKey s) :
    t.conflict = s.conflict := by
  have := congrArg Solver.conflict h; simpa only [propKey] using this

/-! ## C6 -/

/-- C6.  With `ok = true` at decision level 0, for a clause in which `l` is unassigned and
every other literal is false, `addClause_` stores no clause: it enqueues `l` (true, level
0, no reason, last on the trail), runs `propagate` on that state and returns `true` exactly
when `propagate` reports no conflict; neither call changes the clause lists or allocates. -/
theorem addClause_unit (fuel : Nat) (s : Solver) (ps : List Lit) (l : Lit)
    (h0 : decisionLevel s = 0) (hok : s.ok = true) (hl : l ∈ ps) (hlv : value s l = l_Undef)
    (hothers : ∀ q ∈ ps, q ≠ l → value s q = l_False) :
    ∃ s1, uncheckedEnqueue s l none = some s1 ∧
      value s1 l = l_True ∧ level s1 (var l) = 0 ∧ reason s1 (var l) = none ∧
      s1.trail = s.trail ++ [l] ∧ s1.clauses = s.clauses ∧ s1.learnts = s.learnts ∧
      s1.ca = s.ca ∧
      addClause_ fuel s ps = (propagate fuel s1).map
        (fun r => (decide (r.1 = none), setOk r.2 (decide (r.1 = none)))) ∧
      (∀ b s', addClause_ fuel s ps = some (b, s') →
        s'.clauses = s.clauses ∧ s'.learnts = s.learnts ∧ s'.ca.size = s.ca.size ∧
        (b = true ↔ ∃ s2, propagate fuel s1 = some (none, s2))) := by
  -- the loop keeps exactly `l`
  have hnt : ∀ q ∈ ps, value s q ≠ l_True := by
    intro q hq
    by_cases e : q = l
    · rw [e, hlv]; simp
    · rw [hothers q hq e]; simp
  have hnc : ∀ q ∈ ps, neg q ∉ ps := by
    intro q hq hq'
    by_cases e : q = l
    · subst e
      have := hothers (neg q) hq' (neg_ne q)
      rw [value_neg_false] at this
      rw [hlv] at this; cases this
    · have hqf := hothers q hq e
      by_cases e' : neg q = l
      · rw [← e', value_neg_undef, hqf] at hlv; cases hlv
      · have := hothers (neg q) hq' e'
        rw [value_neg_false, hqf] at this; cases this
  obtain ⟨L, hL⟩ := addClauseLoop_some s (sortLits ps) none
    (fun q hq => hnt q (mem_sortLits.mp hq)) (fun q _ => by simp)
    (fun q hq hq' => hnc q (mem_sortLits.mp hq) (mem_sortLits.mp hq'))
  obtain ⟨hsorted, hmem, -⟩ := addClauseLoop_spec s _ none L (sortLits_sorted ps)
    (fun p0 hp0 => by cases hp0) hL
  have hmem' : ∀ q, q ∈ L ↔ q = l := by
    intro q; rw [hmem, mem_sortLits]
    constructor
    · rintro ⟨hq, hv, -⟩
      by_contra e
      exact hv (hothers q hq e)
    · rintro rfl
      exact ⟨hl, by rw [hlv]; simp, by simp⟩
  have hLl : L = [l] := by
    have hnd : L.Nodup := hsorted.nodup
    match L, hmem', hnd with
    | [], h, _ => exact absurd ((h l).mpr rfl) (by simp)
    | [z], h, _ => rw [(h z).mp (List.mem_cons_self _ _)]
    | x :: y :: r, h, hnd =>
      have hx := (h x).mp (List.mem_cons_self _ _)
      have hy := (h y).mp (List.mem_cons_of_mem _ (List.mem_cons_self _ _))
      rw [hx, hy] at hnd
      simp at hnd
  subst hLl
  have hadd : addClause_ fuel s ps =
      match uncheckedEnqueue s l none with
      | none => none
      | some s1 =>
        match propagate fuel s1 with
        | none => none
        | some r => some (decide (r.1 = none), setOk r.2 (decide (r.1 = none))) := by
    unfold addClause_
    rw [if_neg (by simp [h0]), if_neg (by simp [hok]), hL]
    try rfl
  obtain ⟨s1, hs1⟩ : ∃ s1, uncheckedEnqueue s l none = some s1 :=
    ⟨_, uncheckedEnqueue_some none hlv⟩
  obtain ⟨-, htr, has, hvd, hk1⟩ := uncheckedEnqueue_spec hs1
  rw [hs1] at hadd
  simp only at hadd
  refine ⟨s1, hs1, value_of_assigns_update_self s1 _ l has, ?_, ?_, htr, enqKey_clauses hk1,
    enqKey_learnts hk1, enqKey_ca hk1, ?_, ?_⟩
  · simp only [level, hvd, Function.update_same, mkVarData, h0]
  · simp only [reason, hvd, Function.update_same, mkVarData]
  · rw [hadd]
    cases propagate fuel s1 <;> rfl
  · intro b s' h
    rw [hadd] at h
    generalize hp : propagate fuel s1 = pr at h ⊢
    cases pr with
    | none => cases h
    | some r =>
      simp only [Option.some.injEq, Prod.mk.injEq] at h
      obtain ⟨rfl, rfl⟩ := h
      have hk := propKey_propagate hp
      refine ⟨?_, ?_, ?_, ?_⟩
      · rw [← enqKey_clauses hk1, ← propKey_clauses hk]; simp only [setOk]
      · rw [← enqKey_learnts hk1, ← propKey_learnts hk]; simp only [setOk]
      · rw [← enqKey_ca hk1, ← propKey_ca_size hk]; simp only [setOk]
      · obtain ⟨c, s2⟩ := r
        cases c <;> simp

end Minisat


namespace Minisat
open lbool

/-! ## `cancelUntil` -/

theorem cancelKey_insertVarOrder (s : Solver) (x : Var) :
    cancelKey (insertVarOrder s x) = cancelKey s := by
  unfold insertVarOrder; split_ifs <;> rfl

theorem cancelKey_savePhase (s : Solver) (c : Nat) (p : Lit) :
    cancelKey (savePhase s c p) = cancelKey s := by
  unfold savePhase; split_ifs <;> rfl

theorem cancelKey_unassign (s : Solver) (x : Var) : cancelKey (unassign s x) = cancelKey s := rfl

theorem cancelKey_cancelStep (s : Solver) (c : Nat) : cancelKey (cancelStep s c) = cancelKey s := by
  unfold cancelStep
  rw [cancelKey_insertVarOrder, cancelKey_savePhase, cancelKey_unassign]

theorem cancelKey_cancelLoop (lim : Nat) :
    ∀ (n : Nat) (s : Solver), cancelKey (cancelLoop lim n s) = cancelKey s := by
  intro n
  induction n with
  | zero => intro s; rfl
  | succ n ih => intro s; rw [cancelLoop, ih, cancelKey_cancelStep]

theorem cancelKey_trail {s t : Solver} (h : cancelKey t = cancelKey s) : t.trail = s.trail := by
  have := congrArg Solver.trail h; simpa only [cancelKey] using this

theorem cancelKey_trail_lim {s t : Solver} (h : cancelKey t = cancelKey s) :
    t.trail_lim = s.trail_lim := by
  have := congrArg Solver.trail_lim h; simpa only [cancelKey] using this

theorem cancelKey_vardata {s t : Solver} (h : cancelKey t = cancelKey s) :
    t.vardata = s.vardata := by
  have := congrArg Solver.vardata h; simpa only [cancelKey] using this

theorem insertVarOrder_assigns (s : Solver) (x : Var) :
    (insertVarOrder s x).assigns = s.assigns := by
  unfold insertVarOrder; split_ifs <;> rfl

theorem savePhase_assigns (s : Solver) (c : Nat) (p : Lit) :
    (savePhase s c p).assigns = s.assigns := by
  unfold savePhase; split_ifs <;> rfl

theorem cancelStep_assigns (s : Solver) (c : Nat) :
    (cancelStep s c).assigns = Function.update s.assigns (var (s.trail.getD c 0)) l_Undef := by
  unfold cancelStep
  rw [insertVarOrder_assigns, savePhase_assigns]
  rfl

/-- The assignment after the loop of `cancelUntil`: the variables of the trail positions
`lim .. lim + n - 1` are unassigned, the others keep their value. -/
theorem cancelLoop_assigns (lim : Nat) :
    ∀ (n : Nat) (s : Solver) (v : Var),
      ((∃ c, lim ≤ c ∧ c < lim + n ∧ var (s.trail.getD c 0) = v) →
        (cancelLoop lim n s).assigns v = l_Undef) ∧
      ((¬ ∃ c, lim ≤ c ∧ c < lim + n ∧ var (s.trail.getD c 0) = v) →
        (cancelLoop lim n s).assigns v = s.assigns v) := by
  intro n
  induction n with
  | zero =>
    intro s v
    refine ⟨?_, fun _ => rfl⟩
    rintro ⟨c, h1, h2, -⟩; omega
  | succ n ih =>
    intro s v
    have htr := cancelKey_trail (cancelKey_cancelStep s (lim + n))
    have ih1 := ih (cancelStep s (lim + n)) v
    rw [htr, cancelStep_assigns] at ih1
    by_cases h : ∃ c, lim ≤ c ∧ c < lim + n ∧ var (s.trail.getD c 0) = v
    · refine ⟨fun _ => ?_, fun hn => ?_⟩
      · rw [cancelLoop]; exact ih1.1 h
      · exfalso; apply hn
        obtain ⟨c, h1, h2, h3⟩ := h
        exact ⟨c, h1, by omega, h3⟩
    · by_cases hv : var (s.trail.getD (lim + n) 0) = v
      · refine ⟨fun _ => ?_, fun hn => ?_⟩
        · rw [cancelLoop, ih1.2 h, ← hv, Function.update_same]
        · exfalso; exact hn ⟨lim + n, by omega, by omega, hv⟩
      · refine ⟨fun hx => ?_, fun _ => ?_⟩
        · exfalso
          obtain ⟨c, h1, h2, h3⟩ := hx
          by_cases hc : c = lim + n
          · subst hc; exact hv h3
          · exact h ⟨c, h1, by omega, h3⟩
        · rw [cancelLoop, ih1.2 h, Function.update_noteq (Ne.symm hv)]

theorem cancelUntilKey_of_cancelKey {s t : Solver} (h : cancelKey t = cancelKey s) :
    cancelUntilKey t = cancelUntilKey s := by
  have : cancelUntilKey t = { cancelKey t with qhead := 0, trail := [], trail_lim := [] } := rfl
  rw [this, h]; rfl

theorem cancelUntilKey_cancelUntil (s : Solver) (lvl : Nat) :
    cancelUntilKey (cancelUntil s lvl) = cancelUntilKey s := by
  unfold cancelUntil
  split_ifs
  · exact (show cancelUntilKey (shrinkTrail _ _ _) = cancelUntilKey (cancelLoop _ _ s) from rfl).trans
      (cancelUntilKey_of_cancelKey (cancelKey_cancelLoop _ _ s))
  · rfl

theorem cancelUntil_ok (s : Solver) (lvl : Nat) : (cancelUntil s lvl).ok = s.ok := by
  have := congrArg Solver.ok (cancelUntilKey_cancelUntil s lvl)
  simpa only [cancelUntilKey] using this

theorem cancelUntil_conflict (s : Solver) (lvl : Nat) :
    (cancelUntil s lvl).conflict = s.conflict := by
  have := congrArg Solver.conflict (cancelUntilKey_cancelUntil s lvl)
  simpa only [cancelUntilKey] using this

theorem cancelUntil_vardata (s : Solver) (lvl : Nat) :
    (cancelUntil s lvl).vardata = s.vardata := by
  have := congrArg Solver.vardata (cancelUntilKey_cancelUntil s lvl)
  simpa only [cancelUntilKey] using this

/-- The explicit result of `cancelUntil` when it backtracks. -/
theorem cancelUntil_of_lt {s : Solver} {lvl : Nat} (h : lvl < decisionLevel s) :
    (cancelUntil s lvl).trail = s.trail.take (s.trail_lim.getD lvl 0) ∧
    (cancelUntil s lvl).trail_lim = s.trail_lim.take lvl ∧
    (cancelUntil s lvl).qhead = s.trail_lim.getD lvl 0 ∧
    (∀ v, ((∃ l ∈ s.trail.drop (s.trail_lim.getD lvl 0), var l = v) →
        (cancelUntil s lvl).assigns v = l_Undef) ∧
      ((¬ ∃ l ∈ s.trail.drop (s.trail_lim.getD lvl 0), var l = v) →
        (cancelUntil s lvl).assigns v = s.assigns v)) := by
  unfold cancelUntil
  rw [if_pos h]
  have hk := cancelKey_cancelLoop (s.trail_lim.getD lvl 0)
    (s.trail.length - s.trail_lim.getD lvl 0) s
  refine ⟨?_, ?_, rfl, ?_⟩
  · show (cancelLoop _ _ s).trail.take _ = _
    rw [cancelKey_trail hk]
  · show (cancelLoop _ _ s).trail_lim.take _ = _
    rw [cancelKey_trail_lim hk]
  · intro v
    have hiff : (∃ c, s.trail_lim.getD lvl 0 ≤ c ∧
        c < s.trail_lim.getD lvl 0 + (s.trail.length - s.trail_lim.getD lvl 0) ∧
        var (s.trail.getD c 0) = v) ↔
        ∃ l ∈ s.trail.drop (s.trail_lim.getD lvl 0), var l = v := by
      constructor
      · rintro ⟨c, h1, h2, h3⟩
        have hc : c < s.trail.length := by omega
        refine ⟨s.trail.getD c 0, ?_, h3⟩
        rw [List.mem_iff_getElem]
        refine ⟨c - s.trail_lim.getD lvl 0, by rw [List.length_drop]; omega, ?_⟩
        rw [List.getElem_drop, List.getD_eq_getElem _ _ hc]
        congr 1; omega
      · rintro ⟨l, hl, h3⟩
        rw [List.mem_iff_getElem] at hl
        obtain ⟨i, hi, rfl⟩ := hl
        rw [List.length_drop] at hi
        refine ⟨s.trail_lim.getD lvl 0 + i, by omega, by omega, ?_⟩
        rw [List.getD_eq_getElem _ _ (by omega)]
        rw [List.getElem_drop] at h3
        exact h3
    have := cancelLoop_assigns (s.trail_lim.getD lvl 0)
      (s.trail.length - s.trail_lim.getD lvl 0) s v
    rw [hiff] at this
    exact this

/-! ## C9 -/

/-- C9.  For every state and every `k < decisionLevel()`: after `cancelUntil(k)` the decision
level is `k`, the trail is the first `trail_lim[k]` literals of the old trail, `qhead` is
`trail_lim[k]` (which is the new trail length when `trail_lim[k]` does not exceed the old
one), every variable of a removed literal has value `l_Undef`, the retained literals keep
level and reason, and they keep their value when no variable occurs twice on the old trail;
with `decisionLevel() <= k` the call changes nothing. -/
theorem cancelUntil_spec (s : Solver) (k : Nat) :
    (k < decisionLevel s →
      decisionLevel (cancelUntil s k) = k ∧
      (cancelUntil s k).trail = s.trail.take (s.trail_lim.getD k 0) ∧
      (cancelUntil s k).qhead = s.trail_lim.getD k 0 ∧
      (s.trail_lim.getD k 0 ≤ s.trail.length →
        (cancelUntil s k).trail.length = s.trail_lim.getD k 0) ∧
      (∀ l ∈ s.trail.drop (s.trail_lim.getD k 0), valueVar (cancelUntil s k) (var l) = l_Undef) ∧
      (∀ l ∈ (cancelUntil s k).trail,
        level (cancelUntil s k) (var l) = level s (var l) ∧
        reason (cancelUntil s k) (var l) = reason s (var l)) ∧
      ((s.trail.map var).Nodup →
        ∀ l ∈ (cancelUntil s k).trail, value (cancelUntil s k) l = value s l)) ∧
    (decisionLevel s ≤ k → cancelUntil s k = s) := by
  constructor
  · intro hk
    obtain ⟨htr, hlim, hq, has⟩ := cancelUntil_of_lt hk
    refine ⟨?_, htr, hq, ?_, ?_, ?_, ?_⟩
    · unfold decisionLevel at hk ⊢
      rw [hlim, List.length_take]; omega
    · intro hle; rw [htr, List.length_take]; omega
    · intro l hl
      unfold valueVar
      exact (has (var l)).1 ⟨l, hl, rfl⟩
    · intro l _
      refine ⟨?_, ?_⟩
      · unfold level; rw [cancelUntil_vardata]
      · unfold reason; rw [cancelUntil_vardata]
    · intro hnd l hl
      rw [htr] at hl
      unfold value
      rw [(has (var l)).2]
      rintro ⟨l', hl', hv⟩
      have hsplit := List.take_append_drop (s.trail_lim.getD k 0) s.trail
      rw [← hsplit, List.map_append, List.nodup_append] at hnd
      exact hnd.2.2 (List.mem_map_of_mem var hl) (hv ▸ List.mem_map_of_mem var hl')
  · intro hk
    unfold cancelUntil
    rw [if_neg (by omega)]

/-! ## C7 -/

theorem solveResult_false_ok (s : Solver) (h : s.conflict = []) :
    (solveResult s l_False).ok = false := by
  unfold solveResult
  rw [if_neg (by decide), if_pos ⟨rfl, by rw [h]; rfl⟩]
  rfl

theorem solveResult_conflict (s : Solver) (st : lbool) :
    (solveResult s st).conflict = s.conflict := by
  unfold solveResult
  split_ifs <;> rfl

/-- C7.  The `ok` flag is never set back to true: in a state with `ok = false`,
`addClause_` and `simplify` (called at decision level 0, which both assert) return false
and leave the state as it is, and `solve_` returns `l_False` with `model` and `conflict`
cleared and `ok` still false; and whenever `solve_` returns `l_False` with an empty
`conflict`, `ok` is false afterwards. -/
theorem ok_never_restored (fuel : Nat) (s : Solver) :
    (s.ok = false → decisionLevel s = 0 →
      (∀ ps, addClause_ fuel s ps = some (false, s)) ∧ simplify fuel s = some (false, s)) ∧
    (s.ok = false →
      solve_ fuel s = some (l_False, clearResult s) ∧ (clearResult s).ok = false ∧
      (clearResult s).model = [] ∧ (clearResult s).conflict = []) ∧
    (∀ s', solve_ fuel s = some (l_False, s') → s'.conflict = [] → s'.ok = false) := by
  refine ⟨?_, ?_, ?_⟩
  · intro hok h0
    constructor
    · intro ps
      unfold addClause_
      rw [if_neg (by simp [h0]), if_pos hok]
    · unfold simplify
      rw [if_neg (by simp [h0]), if_pos hok, setOk_self hok]
  · intro hok
    refine ⟨?_, hok, rfl, rfl⟩
    unfold solve_
    rw [if_pos hok]
  · intro s' hs hc
    unfold solve_ at hs
    by_cases hok : s.ok = false
    · rw [if_pos hok] at hs
      cases hs
      exact hok
    · rw [if_neg hok] at hs
      by_cases h0 : decisionLevel s ≠ 0
      · rw [if_pos h0] at hs; cases hs
      · rw [if_neg h0] at hs
        cases hr : solveLoop fuel (initLimits (clearResult s)) 0 with
        | none => rw [hr] at hs; cases hs
        | some r =>
          rw [hr] at hs
          obtain ⟨st, t⟩ := r
          simp only [Option.some.injEq, Prod.mk.injEq] at hs
          obtain ⟨rfl, rfl⟩ := hs
          rw [cancelUntil_conflict, solveResult_conflict] at hc
          rw [cancelUntil_ok]
          exact solveResult_false_ok t hc

end Minisat


namespace Minisat
open lbool

/-! ## The trail invariant -/

theorem level_congr {s t : Solver} (h : t.vardata = s.vardata) (x : Var) :
    level t x = level s x := by unfold level; rw [h]

theorem reason_congr {s t : Solver} (h : t.vardata = s.vardata) (x : Var) :
    reason t x = reason s x := by unfold reason; rw [h]

theorem TrailInv.congr_tr {s t : Solver} (h : TrailInv s) (h1 : t.trail = s.trail)
    (h2 : t.trail_lim = s.trail_lim) (h3 : t.assigns = s.assigns)
    (h4 : t.vardata = s.vardata) : TrailInv t := by
  have hv : ∀ l, value t l = value s l := value_congr h3
  have hl : ∀ x, level t x = level s x := level_congr h4
  constructor
  · intro l hl'; rw [hv]; exact h.true_of_mem l (h1 ▸ hl')
  · intro v hv'; rw [h1]; exact h.mem_of_assigned v (h3 ▸ hv')
  · rw [h1]; exact h.nodup
  · rw [h1, h2]; exact h.lim_le
  · rw [h2]; exact h.lim_sorted
  · intro j hj l hl'; rw [hl]; rw [h1, h2] at hl'; exact h.level_take j (h2 ▸ hj) l hl'
  · intro j hj l hl'; rw [hl]; rw [h1, h2] at hl'; exact h.level_drop j (h2 ▸ hj) l hl'
  · intro l hl'; rw [hl]; unfold decisionLevel; rw [h2]; exact h.level_le l (h1 ▸ hl')

theorem value_true_ne_undef {s : Solver} {l : Lit} (h : value s l = l_True) :
    s.assigns (var l) ≠ l_Undef := by
  intro hu; rw [value_undef_iff.mpr hu] at h; cases h

theorem value_false_ne_undef {s : Solver} {l : Lit} (h : value s l = l_False) :
    s.assigns (var l) ≠ l_Undef := by
  intro hu; rw [value_undef_iff.mpr hu] at h; cases h

/-- A true literal is on the trail. -/
theorem TrailInv.mem_of_true {s : Solver} (h : TrailInv s) {l : Lit}
    (hl : value s l = l_True) : l ∈ s.trail := by
  obtain ⟨l', hl', hv⟩ := h.mem_of_assigned (var l) (value_true_ne_undef hl)
  have := eq_of_var_eq_of_true hv (h.true_of_mem l' hl') hl
  exact this ▸ hl'

/-- The negation of a false literal is on the trail. -/
theorem TrailInv.neg_mem_of_false {s : Solver} (h : TrailInv s) {l : Lit}
    (hl : value s l = l_False) : neg l ∈ s.trail :=
  h.mem_of_true (value_neg_true.mpr hl)

/-- A literal whose variable is on the trail is assigned. -/
theorem TrailInv.assigned_of_mem {s : Solver} (h : TrailInv s) {l : Lit}
    (hl : l ∈ s.trail) : s.assigns (var l) ≠ l_Undef :=
  value_true_ne_undef (h.true_of_mem l hl)

/-- The literals from the last decision mark on have the current decision level. -/
theorem TrailInv.level_eq_of_drop {s : Solver} (h : TrailInv s) {q : Nat}
    (hq : ∀ x ∈ s.trail_lim, x ≤ q) {l : Lit} (hl : l ∈ s.trail.drop q) :
    level s (var l) = decisionLevel s := by
  have hle := h.level_le l (List.mem_of_mem_drop hl)
  unfold decisionLevel at hle ⊢
  rcases Nat.eq_zero_or_pos s.trail_lim.length with h0 | hpos
  · omega
  · have hj : s.trail_lim.length - 1 < s.trail_lim.length := by omega
    have hx : s.trail_lim.getD (s.trail_lim.length - 1) 0 ≤ q := by
      apply hq
      rw [List.getD_eq_getElem _ _ hj]
      exact List.getElem_mem _
    have hmem : l ∈ s.trail.drop (s.trail_lim.getD (s.trail_lim.length - 1) 0) := by
      have : s.trail.drop q =
          (s.trail.drop (s.trail_lim.getD (s.trail_lim.length - 1) 0)).drop
            (q - s.trail_lim.getD (s.trail_lim.length - 1) 0) := by
        rw [List.drop_drop]; congr 1; omega
      rw [this] at hl
      exact List.mem_of_mem_drop hl
    have := h.level_drop _ hj l hmem
    omega

/-- A true literal has at most the level of the literals from the last mark on. -/
theorem TrailInv.level_le_of_drop {s : Solver} (h : TrailInv s) {q : Nat}
    (hq : ∀ x ∈ s.trail_lim, x ≤ q) {l t : Lit} (hl : l ∈ s.trail.drop q)
    (ht : s.assigns (var t) ≠ l_Undef) : level s (var t) ≤ level s (var l) := by
  rw [h.level_eq_of_drop hq hl]
  obtain ⟨t', ht', hv⟩ := h.mem_of_assigned (var t) ht
  rw [← hv]
  exact h.level_le t' ht'

theorem getD_mem_drop {α : Type} (l : List α) (d : α) {q : Nat} (hq : q < l.length) :
    l.getD q d ∈ l.drop q := by
  rw [List.getD_eq_getElem _ _ hq, List.mem_iff_getElem]
  exact ⟨0, by rw [List.length_drop]; omega, by rw [List.getElem_drop]; rfl⟩

/-- The invariant after an enqueue, in terms of the fields written. -/
theorem TrailInv.enqueue_tr {s t : Solver} (h : TrailInv s) {p : Lit} {r : Option CRef}
    (hu : value s p = l_Undef) (h1 : t.trail = s.trail ++ [p])
    (h2 : t.trail_lim = s.trail_lim)
    (h3 : t.assigns = Function.update s.assigns (var p) (lbool.ofBool (!sign p)))
    (h4 : t.vardata = Function.update s.vardata (var p) (mkVarData r (decisionLevel s))) :
    TrailInv t := by
  have hpu : s.assigns (var p) = l_Undef := value_undef_iff.mp hu
  have hne : ∀ l ∈ s.trail, var l ≠ var p := by
    intro l hl he
    exact h.assigned_of_mem hl (he ▸ hpu)
  have hval : ∀ l, var l ≠ var p → value t l = value s l := by
    intro l hl; unfold value; rw [h3, Function.update_noteq hl]
  have hlev : ∀ l, var l ≠ var p → level t (var l) = level s (var l) := by
    intro l hl; unfold level; rw [h4, Function.update_noteq hl]
  have hlevp : level t (var p) = decisionLevel s := by
    unfold level; rw [h4, Function.update_same]; rfl
  have hdl : decisionLevel t = decisionLevel s := by unfold decisionLevel; rw [h2]
  constructor
  · intro l hl
    rw [h1, List.mem_append, List.mem_singleton] at hl
    rcases hl with hl | rfl
    · rw [hval l (hne l hl)]; exact h.true_of_mem l hl
    · exact value_of_assigns_update_self t s.assigns l h3
  · intro v hv
    rw [h3] at hv
    by_cases hvp : v = var p
    · exact ⟨p, by rw [h1]; simp, hvp.symm⟩
    · rw [Function.update_noteq hvp] at hv
      obtain ⟨l, hl, hlv⟩ := h.mem_of_assigned v hv
      exact ⟨l, by rw [h1]; exact List.mem_append_left _ hl, hlv⟩
  · rw [h1, List.map_append, List.nodup_append]
    refine ⟨h.nodup, by simp, ?_⟩
    intro x hx hx'
    rw [List.map_singleton, List.mem_singleton] at hx'
    obtain ⟨l, hl, rfl⟩ := List.mem_map.mp hx
    exact hne l hl hx'
  · intro x hx
    rw [h2] at hx
    have := h.lim_le x hx
    rw [h1, List.length_append]; simp; omega
  · rw [h2]; exact h.lim_sorted
  · intro j hj l hl
    rw [h2] at hj hl
    have hle : s.trail_lim.getD j 0 ≤ s.trail.length := by
      apply h.lim_le; rw [List.getD_eq_getElem _ _ hj]; exact List.getElem_mem _
    rw [h1, List.take_append_of_le_length hle] at hl
    rw [hlev l (hne l (List.mem_of_mem_take hl))]
    exact h.level_take j hj l hl
  · intro j hj l hl
    rw [h2] at hj hl
    have hle : s.trail_lim.getD j 0 ≤ s.trail.length := by
      apply h.lim_le; rw [List.getD_eq_getElem _ _ hj]; exact List.getElem_mem _
    rw [h1, List.drop_append_of_le_length hle, List.mem_append, List.mem_singleton] at hl
    rcases hl with hl | rfl
    · rw [hlev l (hne l (List.mem_of_mem_drop hl))]
      exact h.level_drop j hj l hl
    · rw [hlevp]; exact hj
  · intro l hl
    rw [hdl]
    rw [h1, List.mem_append, List.mem_singleton] at hl
    rcases hl with hl | rfl
    · rw [hlev l (hne l hl)]; exact h.level_le l hl
    · rw [hlevp]

end Minisat


namespace Minisat
open lbool

/-! ## The literal exchanges of the watcher loop -/

theorem length_two_le {α : Type} {l : List α} (h : 2 ≤ l.length) :
    ∃ a b rest, l = a :: b :: rest := by
  match l, h with
  | a :: b :: rest, _ => exact ⟨a, b, rest, rfl⟩

theorem swapFalseLit_cons (a b f : Lit) (rest : List Lit) :
    swapFalseLit (a :: b :: rest) f = if a = f then b :: f :: rest else a :: b :: rest := by
  unfold swapFalseLit
  simp only [List.getD_cons_zero, List.getD_cons_succ, List.set_cons_zero, List.set_cons_succ]

/-- After "make sure the false literal is data[1]" a clause that watches `f` has `f` at
index 1; the clause is the same up to the exchange of its first two literals. -/
theorem swapFalseLit_watching {lits : List Lit} {f : Lit} (h2 : 2 ≤ lits.length)
    (hw : lits.getD 0 0 = f ∨ lits.getD 1 0 = f) :
    ∃ a rest, swapFalseLit lits f = a :: f :: rest ∧
      (lits = a :: f :: rest ∨ lits = f :: a :: rest) := by
  obtain ⟨a, b, rest, rfl⟩ := length_two_le h2
  rw [swapFalseLit_cons]
  simp only [List.getD_cons_zero, List.getD_cons_succ] at hw
  by_cases ha : a = f
  · rw [if_pos ha]; subst ha
    exact ⟨b, rest, rfl, Or.inr rfl⟩
  · rw [if_neg ha]
    rcases hw with hw | hw
    · exact absurd hw ha
    · subst hw; exact ⟨a, rest, rfl, Or.inl rfl⟩

theorem findWatch_some {s : Solver} :
    ∀ (ls : List Lit) (k0 k : Nat), findWatch s ls k0 = some k →
      k0 ≤ k ∧ k - k0 < ls.length ∧ value s (ls.getD (k - k0) 0) ≠ l_False := by
  intro ls
  induction ls with
  | nil => intro k0 k h; cases h
  | cons l ls ih =>
    intro k0 k h
    unfold findWatch at h
    by_cases hl : value s l ≠ l_False
    · rw [if_pos hl] at h
      cases h
      simp [hl]
    · rw [if_neg hl] at h
      obtain ⟨h1, h2, h3⟩ := ih (k0 + 1) k h
      refine ⟨by omega, by simp; omega, ?_⟩
      have : k - k0 = (k - (k0 + 1)) + 1 := by omega
      rw [this, List.getD_cons_succ]
      exact h3

theorem findWatch_none {s : Solver} :
    ∀ (ls : List Lit) (k0 : Nat), findWatch s ls k0 = none →
      ∀ l ∈ ls, value s l = l_False := by
  intro ls
  induction ls with
  | nil => intro k0 _ l hl; cases hl
  | cons x ls ih =>
    intro k0 h l hl
    unfold findWatch at h
    by_cases hx : value s x ≠ l_False
    · rw [if_pos hx] at h; cases h
    · rw [if_neg hx] at h
      rw [List.mem_cons] at hl
      rcases hl with rfl | hl
      · exact not_not.mp hx
      · exact ih (k0 + 1) h l hl

theorem moveWatch_cons (a f : Lit) (rest : List Lit) (k : Nat) (hk : 2 ≤ k) :
    moveWatch (a :: f :: rest) k f = a :: rest.getD (k - 2) 0 :: rest.set (k - 2) f := by
  obtain ⟨j, rfl⟩ : ∃ j, k = j + 2 := ⟨k - 2, by omega⟩
  unfold moveWatch
  simp only [List.getD_cons_succ, List.set_cons_succ, List.set_cons_zero, Nat.add_sub_cancel]

theorem getD_cons_cons (a b : Lit) (rest : List Lit) (k : Nat) (hk : 2 ≤ k) :
    (a :: b :: rest).getD k 0 = rest.getD (k - 2) 0 := by
  obtain ⟨j, rfl⟩ : ∃ j, k = j + 2 := ⟨k - 2, by omega⟩
  simp only [List.getD_cons_succ, Nat.add_sub_cancel]

/-- Writing the element at index `j` to the front and `f` to index `j` is a permutation of
`f :: rest`. -/
theorem perm_getD_set {rest : List Lit} {j : Nat} (hj : j < rest.length) (f : Lit) :
    (rest.getD j 0 :: rest.set j f).Perm (f :: rest) := by
  induction rest generalizing j with
  | nil => simp at hj
  | cons x xs ih =>
    cases j with
    | zero =>
      simp only [List.getD_cons_zero, List.set_cons_zero]
      exact List.Perm.swap _ _ _
    | succ j =>
      simp only [List.getD_cons_succ, List.set_cons_succ]
      have := ih (j := j) (by simpa using hj)
      exact ((List.Perm.swap _ _ _).trans (List.Perm.cons x this)).trans (List.Perm.swap _ _ _)

theorem getD_mem_of_lt {rest : List Lit} {j : Nat} (hj : j < rest.length) :
    rest.getD j 0 ∈ rest := by
  rw [List.getD_eq_getElem _ _ hj]; exact List.getElem_mem _

end Minisat


namespace Minisat
open lbool

/-! ## The watch invariant under changes that keep the watched literals -/

theorem Attached.congr_att {s t : Solver} {cr : CRef} (h7 : t.clauses = s.clauses)
    (h8 : t.learnts = s.learnts) (hm : (t.ca.cl cr).mark = (s.ca.cl cr).mark) :
    Attached t cr ↔ Attached s cr := by
  unfold Attached Listed; rw [h7, h8, hm]

/-- The watch invariant only depends on the literals of a clause as a set and on which two
are watched. -/
theorem WatchInv.congr_wt {s t : Solver} {q : Nat} (h : WatchInv s q)
    (h1 : t.trail = s.trail) (h2 : t.trail_lim = s.trail_lim) (h3 : t.assigns = s.assigns)
    (h4 : t.vardata = s.vardata) (h5 : t.watches = s.watches) (h6 : t.dirty = s.dirty)
    (h7 : t.clauses = s.clauses) (h8 : t.learnts = s.learnts)
    (hsz : t.ca.size = s.ca.size)
    (hm : ∀ cr, (t.ca.cl cr).mark = (s.ca.cl cr).mark)
    (hperm : ∀ cr, (t.ca.cl cr).lits.Perm (s.ca.cl cr).lits)
    (hw : ∀ cr l, (t.ca.cl cr).watching l ↔ (s.ca.cl cr).watching l) : WatchInv t q := by
  have hv : ∀ l, value t l = value s l := value_congr h3
  have hl : ∀ x, level t x = level s x := level_congr h4
  have hat : ∀ cr, Attached t cr ↔ Attached s cr := fun cr => Attached.congr_att h7 h8 (hm cr)
  constructor
  · rw [h1]; exact h.q_le
  · rw [h2]; exact h.lim_le_q
  · intro cr hcr; rw [(hperm cr).length_eq]; exact h.size cr ((hat cr).mp hcr)
  · intro cr hcr; rw [(hperm cr).nodup_iff]; exact h.nodup cr ((hat cr).mp hcr)
  · intro cr hcr l hl'
    rw [h5]; exact h.watched cr ((hat cr).mp hcr) l ((hw cr l).mp hl')
  · intro l w hw' hmk
    rw [h5] at hw'; rw [hm] at hmk
    obtain ⟨a, b, c⟩ := h.watcher l w hw' hmk
    refine ⟨?_, (hw _ _).mpr b, ?_⟩
    · unfold Listed at a ⊢; rw [h7, h8]; exact a
    · rw [(hperm _).mem_iff, hv, hl]; exact c
  · intro l w hw' hmk
    rw [h5] at hw'; rw [hm] at hmk; rw [h6]
    exact h.removed_dirty l w hw' hmk
  · intro l; rw [h5]; exact h.crefs_nodup l
  · intro cr hcr; rw [hsz]; apply h.listed_lt
    unfold Listed at hcr ⊢; rw [← h7, ← h8]; exact hcr
  · intro l w hw'; rw [hsz]; rw [h5] at hw'; exact h.watcher_lt l w hw'
  · intro cr hcr l hl' hf hmem
    rw [hv] at hf; rw [h1] at hmem
    obtain ⟨x, hx, hxv, hxl⟩ := h.propagated cr ((hat cr).mp hcr) l ((hw cr l).mp hl') hf hmem
    exact ⟨x, (hperm cr).mem_iff.mpr hx, by rw [hv]; exact hxv, by rw [hl, hl]; exact hxl⟩

theorem Handled.congr_hd {s t : Solver} {p : Lit} {cr : CRef} (h : Handled s p cr)
    (h3 : t.assigns = s.assigns) (h4 : t.vardata = s.vardata)
    (hperm : (t.ca.cl cr).lits.Perm (s.ca.cl cr).lits)
    (hw : ∀ l, (t.ca.cl cr).watching l ↔ (s.ca.cl cr).watching l) : Handled t p cr := by
  intro hwt
  obtain ⟨x, hx, hxv, hxl⟩ := h ((hw _).mp hwt)
  refine ⟨x, hperm.mem_iff.mpr hx, ?_, ?_⟩
  · rw [value_congr h3]; exact hxv
  · rw [level_congr h4, level_congr h4]; exact hxl

theorem LoopInv.congr_lp {s t : Solver} {p : Lit} {q : Nat} {pre ws : List Watcher}
    (h : LoopInv s p q pre ws)
    (h1 : t.trail = s.trail) (h2 : t.trail_lim = s.trail_lim) (h3 : t.assigns = s.assigns)
    (h4 : t.vardata = s.vardata) (h5 : t.watches = s.watches) (h6 : t.dirty = s.dirty)
    (h7 : t.clauses = s.clauses) (h8 : t.learnts = s.learnts)
    (hsz : t.ca.size = s.ca.size)
    (hm : ∀ cr, (t.ca.cl cr).mark = (s.ca.cl cr).mark)
    (hperm : ∀ cr, (t.ca.cl cr).lits.Perm (s.ca.cl cr).lits)
    (hw : ∀ cr l, (t.ca.cl cr).watching l ↔ (s.ca.cl cr).watching l) :
    LoopInv t p q pre ws := by
  constructor
  · exact h.tr.congr_tr h1 h2 h3 h4
  · exact h.wt.congr_wt h1 h2 h3 h4 h5 h6 h7 h8 hsz hm hperm hw
  · rw [h5]; exact h.wl
  · rw [h1]; exact h.hp
  · rw [h1]; exact h.hq
  · intro w hw'; rw [hm]; exact h.clean w hw'
  · intro cr hcr
    rcases h.pending cr ((Attached.congr_att h7 h8 (hm cr)).mp hcr) with hh | hh
    · exact Or.inl (hh.congr_hd h3 h4 (hperm cr) (hw cr))
    · exact Or.inr hh

/-! ### The clause arena after `setLits` -/

theorem setLits_cl_self (s : Solver) (cr : CRef) (ls : List Lit) :
    (setLits s cr ls).ca.cl cr = { s.ca.cl cr with lits := ls } := by
  simp only [setLits, Function.update_same]

theorem setLits_cl_other (s : Solver) {cr cr' : CRef} (ls : List Lit) (h : cr' ≠ cr) :
    (setLits s cr ls).ca.cl cr' = s.ca.cl cr' := by
  simp only [setLits, Function.update_noteq h]

theorem setLits_mark (s : Solver) (cr cr' : CRef) (ls : List Lit) :
    ((setLits s cr ls).ca.cl cr').mark = (s.ca.cl cr').mark := by
  by_cases h : cr' = cr
  · subst h; rw [setLits_cl_self]
  · rw [setLits_cl_other s ls h]

theorem setLits_lits_self (s : Solver) (cr : CRef) (ls : List Lit) :
    ((setLits s cr ls).ca.cl cr).lits = ls := by
  rw [setLits_cl_self]

/-- The exchange of the first two literals keeps the loop invariant. -/
theorem LoopInv.swap {s : Solver} {p : Lit} {q : Nat} {pre ws : List Watcher}
    (h : LoopInv s p q pre ws) (cr : CRef) (h2 : 2 ≤ (s.ca.cl cr).lits.length)
    (hw : (s.ca.cl cr).watching (neg p)) :
    LoopInv (setLits s cr (swapFalseLit (s.ca.cl cr).lits (neg p))) p q pre ws := by
  obtain ⟨a, rest, he, hor⟩ := swapFalseLit_watching h2 hw
  refine LoopInv.congr_lp (t := setLits s cr (swapFalseLit (s.ca.cl cr).lits (neg p))) h
    rfl rfl rfl rfl rfl rfl rfl rfl rfl (fun cr' => setLits_mark s cr cr' _) ?_ ?_
  · intro cr'
    by_cases hc : cr' = cr
    · subst hc
      rw [setLits_lits_self, he]
      rcases hor with hor | hor <;> rw [hor]
      exact List.Perm.swap _ _ _
    · rw [setLits_cl_other s _ hc]
  · intro cr' l
    by_cases hc : cr' = cr
    · subst hc
      unfold Clause.watching Clause.get
      rw [setLits_lits_self, he]
      rcases hor with hor | hor <;> rw [hor]
      simp only [List.getD_cons_zero, List.getD_cons_succ]
      exact Or.comm
    · rw [setLits_cl_other s _ hc]

end Minisat


namespace Minisat
open lbool

/-! ## The steps of the watcher loop keep the loop invariant -/

/-- The loop invariant only reads the trail, the assignment, the variable data, the watcher
lists, the dirty flags, the clause lists and the arena. -/
theorem LoopInv.of_eq_lp {s t : Solver} {p : Lit} {q : Nat} {pre ws : List Watcher}
    (h : LoopInv s p q pre ws)
    (h1 : t.trail = s.trail) (h2 : t.trail_lim = s.trail_lim) (h3 : t.assigns = s.assigns)
    (h4 : t.vardata = s.vardata) (h5 : t.watches = s.watches) (h6 : t.dirty = s.dirty)
    (h7 : t.clauses = s.clauses) (h8 : t.learnts = s.learnts) (h9 : t.ca = s.ca) :
    LoopInv t p q pre ws :=
  h.congr_lp h1 h2 h3 h4 h5 h6 h7 h8 (by rw [h9]) (fun cr => by rw [h9]) (fun cr => by rw [h9])
    (fun cr l => by rw [h9])

theorem setWatches_watches_self (s : Solver) (p : Lit) (X : List Watcher) :
    (setWatches s p X).watches p = X := by
  simp only [setWatches, Function.update_same]

theorem setWatches_watches_other (s : Solver) {p l : Lit} (X : List Watcher) (h : l ≠ p) :
    (setWatches s p X).watches l = s.watches l := by
  simp only [setWatches, Function.update_noteq h]

theorem mem_replace {α : Type} {pre rest : List α} {w w' x : α}
    (h : x ∈ pre ++ w' :: rest) : x = w' ∨ x ∈ pre ++ w :: rest := by
  simp only [List.mem_append, List.mem_cons] at h ⊢
  tauto

/-- The watcher at the head of the remaining list is replaced by one for the same clause
with a blocker taken from the clause: the watch invariant stays. -/
theorem LoopInv.replace_wt {s : Solver} {p : Lit} {q : Nat} {pre rest : List Watcher}
    {w : Watcher} (h : LoopInv s p q pre (w :: rest)) (b : Lit)
    (hb : b ∈ (s.ca.cl w.cref).lits) :
    WatchInv (setWatches s p (pre ++ ⟨w.cref, b⟩ :: rest)) q := by
  have hwmem : w ∈ s.watches p := by rw [h.wl]; simp
  have hclean : (s.ca.cl w.cref).mark ≠ 1 := h.clean w (List.mem_cons_self _ _)
  obtain ⟨hlisted, hwatching, -⟩ := h.wt.watcher p w hwmem hclean
  have hW : ∀ l, ∀ x ∈ (setWatches s p (pre ++ ⟨w.cref, b⟩ :: rest)).watches l,
      x = ⟨w.cref, b⟩ ∧ l = p ∨ x ∈ s.watches l := by
    intro l x hx
    by_cases hl : l = p
    · subst hl
      rw [setWatches_watches_self] at hx
      rcases mem_replace (w := w) hx with rfl | hx
      · exact Or.inl ⟨rfl, rfl⟩
      · exact Or.inr (h.wl ▸ hx)
    · rw [setWatches_watches_other s _ hl] at hx; exact Or.inr hx
  constructor
  · exact h.wt.q_le
  · exact h.wt.lim_le_q
  · exact h.wt.size
  · exact h.wt.nodup
  · intro cr hcr l hl
    obtain ⟨x, hx, hxc⟩ := h.wt.watched cr hcr l hl
    by_cases hlp : neg l = p
    · rw [hlp, setWatches_watches_self]
      rw [hlp, h.wl] at hx
      by_cases hxw : x = w
      · exact ⟨⟨w.cref, b⟩, by simp, by rw [← hxc, hxw]⟩
      · refine ⟨x, ?_, hxc⟩
        simp only [List.mem_append, List.mem_cons] at hx ⊢
        tauto
    · rw [setWatches_watches_other s _ hlp]; exact ⟨x, hx, hxc⟩
  · intro l x hx hmk
    rcases hW l x hx with ⟨rfl, rfl⟩ | hx
    · exact ⟨hlisted, hwatching, Or.inl hb⟩
    · exact h.wt.watcher l x hx hmk
  · intro l x hx hmk
    rcases hW l x hx with ⟨rfl, rfl⟩ | hx
    · exact absurd hmk hclean
    · exact h.wt.removed_dirty l x hx hmk
  · intro l
    by_cases hl : l = p
    · subst hl
      rw [setWatches_watches_self]
      have := h.wt.crefs_nodup l
      rw [h.wl] at this
      simpa using this
    · rw [setWatches_watches_other s _ hl]; exact h.wt.crefs_nodup l
  · exact h.wt.listed_lt
  · intro l x hx
    rcases hW l x hx with ⟨rfl, rfl⟩ | hx
    · exact h.wt.watcher_lt l w hwmem
    · exact h.wt.watcher_lt l x hx
  · exact h.wt.propagated

/-- The watcher `w` is written back, possibly with a new blocker taken from the clause: the
clause is handled. -/
theorem LoopInv.keep {s : Solver} {p : Lit} {q : Nat} {pre rest : List Watcher} {w : Watcher}
    (h : LoopInv s p q pre (w :: rest)) (b : Lit) (hb : b ∈ (s.ca.cl w.cref).lits)
    (hh : Handled s p w.cref) :
    LoopInv (setWatches s p (pre ++ ⟨w.cref, b⟩ :: rest)) p q (pre ++ [⟨w.cref, b⟩]) rest := by
  refine ⟨h.tr.congr_tr rfl rfl rfl rfl, h.replace_wt b hb, ?_, h.hp, h.hq, ?_, ?_⟩
  · rw [setWatches_watches_self]; simp
  · intro x hx; exact h.clean x (List.mem_cons_of_mem _ hx)
  · intro cr hcr
    rcases h.pending cr hcr with hh' | ⟨x, hx, hxc⟩
    · exact Or.inl hh'
    · rw [List.mem_cons] at hx
      rcases hx with rfl | hx
      · exact Or.inl (hxc ▸ hh)
      · exact Or.inr ⟨x, hx, hxc⟩

end Minisat


namespace Minisat
open lbool

theorem nodup_mid {α β : Type} (f : α → β) {pre rest : List α} {w x : α}
    (h : ((pre ++ w :: rest).map f).Nodup) (hx : x ∈ pre ++ rest) : f x ≠ f w := by
  rw [List.map_append, List.map_cons, List.nodup_middle, List.nodup_cons, ← List.map_append] at h
  intro e
  exact h.1 (e ▸ List.mem_map_of_mem f hx)

theorem LoopInv.value_p {s : Solver} {p : Lit} {q : Nat} {pre ws : List Watcher}
    (h : LoopInv s p q pre ws) : value s p = l_True := by
  apply h.tr.true_of_mem
  rw [← h.hp, List.getD_eq_getElem _ _ h.hq]
  exact List.getElem_mem _

theorem LoopInv.p_mem_drop {s : Solver} {p : Lit} {q : Nat} {pre ws : List Watcher}
    (h : LoopInv s p q pre ws) : p ∈ s.trail.drop q := by
  rw [← h.hp]; exact getD_mem_drop _ _ h.hq

/-- The watch of the clause of `w` moves from `neg p` to the literal at index `j + 2`, which is
not false: the watcher leaves the list of `p` and a new one enters the list of the negation
of the new watched literal. -/
theorem LoopInv.move_abs {s t : Solver} {p : Lit} {q : Nat} {pre rest : List Watcher}
    {w : Watcher} {a : Lit} {rs : List Lit} {j : Nat}
    (h : LoopInv s p q pre (w :: rest))
    (hL : (s.ca.cl w.cref).lits = a :: neg p :: rs) (hj : j < rs.length)
    (hc : value s (rs.getD j 0) ≠ l_False)
    (h1 : t.trail = s.trail) (h2 : t.trail_lim = s.trail_lim) (h3 : t.assigns = s.assigns)
    (h4 : t.vardata = s.vardata) (h6 : t.dirty = s.dirty)
    (h7 : t.clauses = s.clauses) (h8 : t.learnts = s.learnts)
    (hsz : t.ca.size = s.ca.size)
    (hcl : ∀ cr', cr' ≠ w.cref → t.ca.cl cr' = s.ca.cl cr')
    (hmk : (t.ca.cl w.cref).mark = (s.ca.cl w.cref).mark)
    (hlits : (t.ca.cl w.cref).lits = a :: rs.getD j 0 :: rs.set j (neg p))
    (hwp : t.watches p = pre ++ rest)
    (hwc : t.watches (neg (rs.getD j 0)) = s.watches (neg (rs.getD j 0)) ++ [⟨w.cref, a⟩])
    (hwo : ∀ l, l ≠ p → l ≠ neg (rs.getD j 0) → t.watches l = s.watches l) :
    LoopInv t p q pre rest := by
  have hv : ∀ l, value t l = value s l := value_congr h3
  have hlv : ∀ x, level t x = level s x := level_congr h4
  have hpT := h.value_p
  have hnpF : value s (neg p) = l_False := value_neg_false.mpr hpT
  have hwmem : w ∈ s.watches p := by rw [h.wl]; simp
  have hclean : (s.ca.cl w.cref).mark ≠ 1 := h.clean w (List.mem_cons_self _ _)
  obtain ⟨hlisted, -, -⟩ := h.wt.watcher p w hwmem hclean
  have hatt : Attached s w.cref := ⟨hlisted, hclean⟩
  have hmark : ∀ cr, (t.ca.cl cr).mark = (s.ca.cl cr).mark := by
    intro cr
    by_cases hcr : cr = w.cref
    · rw [hcr]; exact hmk
    · rw [hcl cr hcr]
  have hat : ∀ cr, Attached t cr ↔ Attached s cr := fun cr => Attached.congr_att h7 h8 (hmark cr)
  have hnd := h.wt.nodup _ hatt
  rw [hL] at hnd
  have hcmem : rs.getD j 0 ∈ rs := getD_mem_of_lt hj
  generalize hcdef : rs.getD j 0 = c at *
  have hca : c ≠ a := by
    rintro rfl
    simp only [List.nodup_cons, List.mem_cons, not_or] at hnd
    exact hnd.1.2 hcmem
  have hcp : c ≠ neg p := by
    rintro rfl; exact hc hnpF
  have hanp : a ≠ neg p := by
    simp only [List.nodup_cons, List.mem_cons, not_or] at hnd
    exact hnd.1.1
  have hncp : neg c ≠ p := fun e => hcp (neg_eq_iff.mp e)
  have hperm : (t.ca.cl w.cref).lits.Perm (s.ca.cl w.cref).lits := by
    rw [hlits, hL, ← hcdef]
    exact List.Perm.cons a (perm_getD_set hj (neg p))
  have hpermall : ∀ cr, (t.ca.cl cr).lits.Perm (s.ca.cl cr).lits := by
    intro cr
    by_cases hcr : cr = w.cref
    · rw [hcr]; exact hperm
    · rw [hcl cr hcr]
  -- the watched literals of the clause before and after
  have hws : ∀ l, (s.ca.cl w.cref).watching l ↔ (l = a ∨ l = neg p) := by
    intro l; unfold Clause.watching Clause.get
    rw [hL]; simp only [List.getD_cons_zero, List.getD_cons_succ]
    constructor <;> (intro h'; rcases h' with h' | h' <;> simp [h'])
  have hwt : ∀ l, (t.ca.cl w.cref).watching l ↔ (l = a ∨ l = c) := by
    intro l; unfold Clause.watching Clause.get
    rw [hlits]; simp only [List.getD_cons_zero, List.getD_cons_succ]
    constructor <;> (intro h'; rcases h' with h' | h' <;> simp [h'])
  -- no watcher of the clause in the list of the new literal
  have hfresh : ∀ x ∈ s.watches (neg c), x.cref ≠ w.cref := by
    intro x hx hxc
    obtain ⟨-, hw', -⟩ := h.wt.watcher (neg c) x hx (hxc ▸ hclean)
    rw [hxc, hws, neg_neg] at hw'
    rcases hw' with hw' | hw'
    · exact hca hw'
    · exact hcp hw'
  have hpre : ∀ x ∈ pre ++ rest, x.cref ≠ w.cref ∧ x ∈ s.watches p := by
    intro x hx
    have hnodup := h.wt.crefs_nodup p
    rw [h.wl] at hnodup ⊢
    refine ⟨nodup_mid Watcher.cref hnodup hx, ?_⟩
    simp only [List.mem_append, List.mem_cons] at hx ⊢
    tauto
  -- every watcher of `t` is the new one or a watcher of `s` in the same list
  have hW : ∀ l, ∀ x ∈ t.watches l,
      (x = ⟨w.cref, a⟩ ∧ l = neg c) ∨ (x ∈ s.watches l ∧ (l = p → x.cref ≠ w.cref)) := by
    intro l x hx
    by_cases hl : l = p
    · subst hl
      rw [hwp] at hx
      exact Or.inr ⟨(hpre x hx).2, fun _ => (hpre x hx).1⟩
    · by_cases hl' : l = neg c
      · subst hl'
        rw [hwc, List.mem_append, List.mem_singleton] at hx
        rcases hx with hx | hx
        · exact Or.inr ⟨hx, fun e => absurd e hl⟩
        · exact Or.inl ⟨hx, rfl⟩
      · rw [hwo l hl hl'] at hx
        exact Or.inr ⟨hx, fun e => absurd e hl⟩
  refine ⟨h.tr.congr_tr h1 h2 h3 h4, ?_, hwp, by rw [h1]; exact h.hp, by rw [h1]; exact h.hq,
    ?_, ?_⟩
  · constructor
    · rw [h1]; exact h.wt.q_le
    · rw [h2]; exact h.wt.lim_le_q
    · intro cr hcr; rw [(hpermall cr).length_eq]; exact h.wt.size cr ((hat cr).mp hcr)
    · intro cr hcr; rw [(hpermall cr).nodup_iff]; exact h.wt.nodup cr ((hat cr).mp hcr)
    · -- watched
      intro cr hcr l hl
      by_cases hcr' : cr = w.cref
      · subst hcr'
        rw [hwt] at hl
        rcases hl with rfl | rfl
        · obtain ⟨x, hx, hxc⟩ := h.wt.watched _ hatt l ((hws l).mpr (Or.inl rfl))
          have hlp : neg l ≠ p := fun e => hanp (neg_eq_iff.mp e)
          have hlc : neg l ≠ neg c := fun e => hca (neg_inj e).symm
          rw [hwo _ hlp hlc]
          exact ⟨x, hx, hxc⟩
        · rw [hwc]; exact ⟨⟨w.cref, a⟩, by simp, rfl⟩
      · rw [hcl cr hcr'] at hl
        obtain ⟨x, hx, hxc⟩ := h.wt.watched cr ((hat cr).mp hcr) l hl
        refine ⟨x, ?_, hxc⟩
        by_cases hlp : neg l = p
        · rw [hlp, hwp]
          rw [hlp, h.wl] at hx
          simp only [List.mem_append, List.mem_cons] at hx ⊢
          rcases hx with hx | rfl | hx
          · exact Or.inl hx
          · exact absurd hxc.symm hcr'
          · exact Or.inr hx
        · by_cases hlc : neg l = neg c
          · rw [hlc, hwc]; rw [hlc] at hx; exact List.mem_append_left _ hx
          · rw [hwo _ hlp hlc]; exact hx
    · -- watcher
      intro l x hx hmk'
      rcases hW l x hx with ⟨rfl, rfl⟩ | ⟨hx', hxp⟩
      · refine ⟨?_, ?_, Or.inl ?_⟩
        · unfold Listed at hlisted ⊢; rw [h7, h8]; exact hlisted
        · rw [neg_neg]; exact (hwt c).mpr (Or.inr rfl)
        · show a ∈ (t.ca.cl w.cref).lits
          rw [hlits]; simp
      · rw [hmark] at hmk'
        obtain ⟨a1, b1, c1⟩ := h.wt.watcher l x hx' hmk'
        refine ⟨?_, ?_, ?_⟩
        · unfold Listed at a1 ⊢; rw [h7, h8]; exact a1
        · by_cases hxc : x.cref = w.cref
          · rw [hxc] at b1 ⊢
            rw [hws] at b1
            rw [hwt]
            rcases b1 with b1 | b1
            · exact Or.inl b1
            · exact absurd hxc (hxp (neg_inj b1))
          · rw [hcl _ hxc]; exact b1
        · rw [(hpermall _).mem_iff, hv, hlv]; exact c1
    · -- removed_dirty
      intro l x hx hmk'
      rw [h6]
      rcases hW l x hx with ⟨rfl, rfl⟩ | ⟨hx', -⟩
      · rw [hmark] at hmk'; exact absurd hmk' hclean
      · rw [hmark] at hmk'; exact h.wt.removed_dirty l x hx' hmk'
    · -- crefs_nodup
      intro l
      by_cases hl : l = p
      · subst hl
        rw [hwp]
        have := h.wt.crefs_nodup l
        rw [h.wl] at this
        simp only [List.map_append, List.map_cons] at this ⊢
        exact this.sublist ((List.Sublist.refl _).append (List.sublist_cons_self _ _))
      · by_cases hl' : l = neg c
        · subst hl'
          rw [hwc, List.map_append, List.nodup_append]
          refine ⟨h.wt.crefs_nodup _, by simp, ?_⟩
          intro y hy hy'
          simp only [List.map_cons, List.map_nil, List.mem_singleton] at hy'
          obtain ⟨x, hx, rfl⟩ := List.mem_map.mp hy
          exact hfresh x hx hy'
        · rw [hwo l hl hl']; exact h.wt.crefs_nodup l
    · intro cr hcr; rw [hsz]; apply h.wt.listed_lt
      unfold Listed at hcr ⊢; rw [← h7, ← h8]; exact hcr
    · intro l x hx
      rw [hsz]
      rcases hW l x hx with ⟨rfl, rfl⟩ | ⟨hx', -⟩
      · exact h.wt.watcher_lt p w hwmem
      · exact h.wt.watcher_lt l x hx'
    · -- propagated
      intro cr hcr l hl hf hmem
      rw [hv] at hf; rw [h1] at hmem
      have key : (s.ca.cl cr).watching l := by
        by_cases hcr' : cr = w.cref
        · subst hcr'
          rw [hwt] at hl
          rw [hws]
          rcases hl with hl | hl
          · exact Or.inl hl
          · rw [hl] at hf; exact absurd hf hc
        · rw [hcl cr hcr'] at hl; exact hl
      obtain ⟨x, hx, hxv, hxl⟩ := h.wt.propagated cr ((hat cr).mp hcr) l key hf hmem
      exact ⟨x, (hpermall cr).mem_iff.mpr hx, by rw [hv]; exact hxv,
        by rw [hlv, hlv]; exact hxl⟩
  · intro x hx; rw [hmark]; exact h.clean x (List.mem_cons_of_mem _ hx)
  · intro cr hcr
    by_cases hcr' : cr = w.cref
    · subst hcr'
      left
      intro hw'
      rw [hwt] at hw'
      rcases hw' with hw' | hw'
      · exact absurd hw'.symm hanp
      · exact absurd hw'.symm hcp
    · rcases h.pending cr ((hat cr).mp hcr) with hh | ⟨x, hx, hxc⟩
      · left
        exact hh.congr_hd h3 h4 (hpermall cr) (fun l => by rw [hcl cr hcr'])
      · right
        rw [List.mem_cons] at hx
        rcases hx with rfl | hx
        · exact absurd hxc.symm hcr'
        · exact ⟨x, hx, hxc⟩

end Minisat


namespace Minisat
open lbool

/-- The values and levels of the assigned variables after an enqueue. -/
theorem enqueue_value_eq {s t : Solver} {x : Lit}
    (hu : value s x = l_Undef)
    (h3 : t.assigns = Function.update s.assigns (var x) (lbool.ofBool (!sign x)))
    {l : Lit} (hl : s.assigns (var l) ≠ l_Undef) : value t l = value s l := by
  have hne : var l ≠ var x := fun e => hl (e ▸ value_undef_iff.mp hu)
  unfold value; rw [h3, Function.update_noteq hne]

theorem enqueue_level_eq {s t : Solver} {x : Lit} {r : Option CRef}
    (hu : value s x = l_Undef)
    (h4 : t.vardata = Function.update s.vardata (var x) (mkVarData r (decisionLevel s)))
    {l : Lit} (hl : s.assigns (var l) ≠ l_Undef) : level t (var l) = level s (var l) := by
  have hne : var l ≠ var x := fun e => hl (e ▸ value_undef_iff.mp hu)
  unfold level; rw [h4, Function.update_noteq hne]

/-- The watch invariant for the head `q` after an enqueue. -/
theorem WatchInv.enqueue_wt {s t : Solver} {q : Nat} (h : WatchInv s q) (htr : TrailInv s)
    {x : Lit} {r : Option CRef} (hu : value s x = l_Undef)
    (h1 : t.trail = s.trail ++ [x]) (h2 : t.trail_lim = s.trail_lim)
    (h3 : t.assigns = Function.update s.assigns (var x) (lbool.ofBool (!sign x)))
    (h4 : t.vardata = Function.update s.vardata (var x) (mkVarData r (decisionLevel s)))
    (h5 : t.watches = s.watches) (h6 : t.dirty = s.dirty)
    (h7 : t.clauses = s.clauses) (h8 : t.learnts = s.learnts) (h9' : t.ca = s.ca) :
    WatchInv t q := by
  have h9 : t.ca.cl = s.ca.cl := by rw [h9']
  have hat : ∀ cr, Attached t cr ↔ Attached s cr :=
    fun cr => Attached.congr_att h7 h8 (by rw [h9])
  constructor
  · rw [h1, List.length_append]; have := h.q_le; omega
  · rw [h2]; exact h.lim_le_q
  · intro cr hcr; rw [h9]; exact h.size cr ((hat cr).mp hcr)
  · intro cr hcr; rw [h9]; exact h.nodup cr ((hat cr).mp hcr)
  · intro cr hcr l hl
    rw [h9] at hl; rw [h5]; exact h.watched cr ((hat cr).mp hcr) l hl
  · intro l w hw hmk
    rw [h5] at hw; rw [h9] at hmk ⊢
    obtain ⟨a, b, c⟩ := h.watcher l w hw hmk
    refine ⟨?_, b, ?_⟩
    · unfold Listed at a ⊢; rw [h7, h8]; exact a
    · rcases c with c | ⟨c1, c2⟩
      · exact Or.inl c
      · right
        have := value_false_ne_undef c1
        rw [enqueue_value_eq hu h3 this, enqueue_level_eq hu h4 this]
        exact ⟨c1, c2⟩
  · intro l w hw hmk
    rw [h5] at hw; rw [h9] at hmk; rw [h6]
    exact h.removed_dirty l w hw hmk
  · intro l; rw [h5]; exact h.crefs_nodup l
  · intro cr hcr; rw [h9']; apply h.listed_lt
    unfold Listed at hcr ⊢; rw [← h7, ← h8]; exact hcr
  · intro l w hw; rw [h9']; rw [h5] at hw; exact h.watcher_lt l w hw
  · intro cr hcr l hl hf hmem
    rw [h9] at hl ⊢
    rw [h1, List.take_append_of_le_length h.q_le] at hmem
    have hnl : value s (neg l) = l_True := htr.true_of_mem _ (List.mem_of_mem_take hmem)
    have hlf : value s l = l_False := value_neg_true.mp hnl
    obtain ⟨y, hy, hyv, hyl⟩ := h.propagated cr ((hat cr).mp hcr) l hl hlf hmem
    refine ⟨y, hy, ?_, ?_⟩
    · rw [enqueue_value_eq hu h3 (value_true_ne_undef hyv)]; exact hyv
    · rw [enqueue_level_eq hu h4 (value_true_ne_undef hyv),
        enqueue_level_eq hu h4 (value_false_ne_undef hlf)]
      exact hyl

/-- The loop invariant after an enqueue. -/
theorem LoopInv.enqueue_lp {s t : Solver} {p : Lit} {q : Nat} {pre ws : List Watcher}
    (h : LoopInv s p q pre ws)
    {x : Lit} {r : Option CRef} (hu : value s x = l_Undef)
    (h1 : t.trail = s.trail ++ [x]) (h2 : t.trail_lim = s.trail_lim)
    (h3 : t.assigns = Function.update s.assigns (var x) (lbool.ofBool (!sign x)))
    (h4 : t.vardata = Function.update s.vardata (var x) (mkVarData r (decisionLevel s)))
    (h5 : t.watches = s.watches) (h6 : t.dirty = s.dirty)
    (h7 : t.clauses = s.clauses) (h8 : t.learnts = s.learnts) (h9' : t.ca = s.ca) :
    LoopInv t p q pre ws := by
  have h9 : t.ca.cl = s.ca.cl := by rw [h9']
  have hpa : s.assigns (var p) ≠ l_Undef := value_true_ne_undef h.value_p
  refine ⟨h.tr.enqueue_tr hu h1 h2 h3 h4, h.wt.enqueue_wt h.tr hu h1 h2 h3 h4 h5 h6 h7 h8 h9',
    by rw [h5]; exact h.wl, ?_, ?_, ?_, ?_⟩
  · rw [h1, List.getD_append _ _ _ _ h.hq]; exact h.hp
  · rw [h1, List.length_append]; have := h.hq; omega
  · intro w hw; rw [h9]; exact h.clean w hw
  · intro cr hcr
    rcases h.pending cr ((Attached.congr_att h7 h8 (by rw [h9])).mp hcr) with hh | hh
    · left
      intro hw
      rw [h9] at hw ⊢
      obtain ⟨y, hy, hyv, hyl⟩ := hh hw
      refine ⟨y, hy, ?_, ?_⟩
      · rw [enqueue_value_eq hu h3 (value_true_ne_undef hyv)]; exact hyv
      · rw [enqueue_level_eq hu h4 (value_true_ne_undef hyv), enqueue_level_eq hu h4 hpa]
        exact hyl
    · exact Or.inr hh

/-- The literal just enqueued is true, at the level of the literal being propagated. -/
theorem LoopInv.enqueue_handled {s t : Solver} {p : Lit} {q : Nat} {pre ws : List Watcher}
    (h : LoopInv s p q pre ws)
    {x : Lit} {r : Option CRef} (hu : value s x = l_Undef)
    (h3 : t.assigns = Function.update s.assigns (var x) (lbool.ofBool (!sign x)))
    (h4 : t.vardata = Function.update s.vardata (var x) (mkVarData r (decisionLevel s)))
    (h9 : t.ca.cl = s.ca.cl) {cr : CRef} (hx : x ∈ (s.ca.cl cr).lits) :
    Handled t p cr := by
  intro _
  have hpa : s.assigns (var p) ≠ l_Undef := value_true_ne_undef h.value_p
  refine ⟨x, by rw [h9]; exact hx, value_of_assigns_update_self t s.assigns x h3, ?_⟩
  rw [enqueue_level_eq hu h4 hpa, h.tr.level_eq_of_drop h.wt.lim_le_q h.p_mem_drop]
  unfold level; rw [h4, Function.update_same]; exact Nat.le_refl _

end Minisat


namespace Minisat
open lbool

/-! ## The body of the watcher loop keeps the loop invariant -/

theorem watchStep_fail {p : Lit} {b : Bool} {w : Watcher} {s : Solver}
    (h : watchStep p b w s = WStep.fail) :
    value s w.blocker ≠ l_True ∧
    ((swapFalseLit (s.ca.cl w.cref).lits (neg p)).getD 1 0 ≠ neg p ∨
     (∃ k, findWatch s ((swapFalseLit (s.ca.cl w.cref).lits (neg p)).drop 2) 2 = some k ∧
        neg ((swapFalseLit (s.ca.cl w.cref).lits (neg p)).getD k 0) = p) ∨
     (¬ ((swapFalseLit (s.ca.cl w.cref).lits (neg p)).getD 0 0 ≠ w.blocker ∧
          value s ((swapFalseLit (s.ca.cl w.cref).lits (neg p)).getD 0 0) = l_True) ∧
      value s ((swapFalseLit (s.ca.cl w.cref).lits (neg p)).getD 0 0) ≠ l_False ∧
      uncheckedEnqueue
        (tagSymmetryUnit b (setLits s w.cref (swapFalseLit (s.ca.cl w.cref).lits (neg p)))
          (var ((swapFalseLit (s.ca.cl w.cref).lits (neg p)).getD 0 0)))
        ((swapFalseLit (s.ca.cl w.cref).lits (neg p)).getD 0 0) (some w.cref) = none)) := by
  rw [watchStep_unfold] at h
  generalize swapFalseLit (s.ca.cl w.cref).lits (neg p) = lits1 at h ⊢
  by_cases h1 : value s w.blocker = l_True
  · rw [if_pos h1] at h; cases h
  · rw [if_neg h1] at h
    refine ⟨h1, ?_⟩
    by_cases h2 : lits1.getD 1 0 = neg p
    · rw [if_pos h2] at h
      by_cases h3 : lits1.getD 0 0 ≠ w.blocker ∧ value s (lits1.getD 0 0) = l_True
      · rw [if_pos h3] at h; cases h
      · rw [if_neg h3] at h
        generalize hf : findWatch s (lits1.drop 2) 2 = fw at h ⊢
        cases fw with
        | some k =>
          dsimp only at h
          by_cases h4 : neg (lits1.getD k 0) = p
          · exact Or.inr (Or.inl ⟨k, rfl, h4⟩)
          · rw [if_neg h4] at h; cases h
        | none =>
          dsimp only at h
          by_cases h5 : value s (lits1.getD 0 0) = l_False
          · rw [if_pos h5] at h; cases h
          · rw [if_neg h5] at h
            generalize he : uncheckedEnqueue _ _ _ = ue at h ⊢
            cases ue with
            | none => exact Or.inr (Or.inr ⟨h3, h5, rfl⟩)
            | some s3 => cases h
    · exact Or.inl h2

theorem tagSymmetryUnit_fields (b : Bool) (s : Solver) (v : Var) :
    (tagSymmetryUnit b s v).trail = s.trail ∧ (tagSymmetryUnit b s v).trail_lim = s.trail_lim ∧
    (tagSymmetryUnit b s v).assigns = s.assigns ∧ (tagSymmetryUnit b s v).vardata = s.vardata ∧
    (tagSymmetryUnit b s v).watches = s.watches ∧ (tagSymmetryUnit b s v).dirty = s.dirty ∧
    (tagSymmetryUnit b s v).clauses = s.clauses ∧ (tagSymmetryUnit b s v).learnts = s.learnts ∧
    (tagSymmetryUnit b s v).ca = s.ca := by
  unfold tagSymmetryUnit
  split_ifs
  · exact ⟨rfl, rfl, rfl, rfl, rfl, rfl, rfl, rfl, rfl⟩
  · exact ⟨rfl, rfl, rfl, rfl, rfl, rfl, rfl, rfl, rfl⟩

theorem enqKey_dirty {s t : Solver} (h : enqKey t = enqKey s) : t.dirty = s.dirty := by
  have := congrArg Solver.dirty h; simpa only [enqKey] using this

/-- The facts about the watcher at the head of the remaining list. -/
theorem LoopInv.head {s : Solver} {p : Lit} {q : Nat} {pre rest : List Watcher} {w : Watcher}
    (h : LoopInv s p q pre (w :: rest)) :
    Attached s w.cref ∧
    (w.blocker ∈ (s.ca.cl w.cref).lits ∨
      (value s w.blocker = l_False ∧ level s (var w.blocker) = 0)) ∧
    ∃ a rs, swapFalseLit (s.ca.cl w.cref).lits (neg p) = a :: neg p :: rs ∧
      ((s.ca.cl w.cref).lits = a :: neg p :: rs ∨ (s.ca.cl w.cref).lits = neg p :: a :: rs) := by
  have hwmem : w ∈ s.watches p := by rw [h.wl]; simp
  have hclean : (s.ca.cl w.cref).mark ≠ 1 := h.clean w (List.mem_cons_self _ _)
  obtain ⟨hlisted, hwatching, hb⟩ := h.wt.watcher p w hwmem hclean
  have hatt : Attached s w.cref := ⟨hlisted, hclean⟩
  exact ⟨hatt, hb, swapFalseLit_watching (h.wt.size _ hatt) hwatching⟩

/-- A true literal of the clause of a pending watcher handles the clause. -/
theorem LoopInv.handled_of_true {s : Solver} {p : Lit} {q : Nat} {pre ws : List Watcher}
    (h : LoopInv s p q pre ws) {cr : CRef} {x : Lit} (hx : x ∈ (s.ca.cl cr).lits)
    (hv : value s x = l_True) : Handled s p cr :=
  fun _ => ⟨x, hx, hv, h.tr.level_le_of_drop h.wt.lim_le_q h.p_mem_drop (value_true_ne_undef hv)⟩

end Minisat


namespace Minisat
open lbool

/-! ## The steps on the state of the program

The program leaves the list of `p` alone while it traverses it and writes the kept watchers
back at the end; the invariant is stated for the state in which the list of `p` holds the
watchers written back so far followed by those still to visit. -/

theorem watcher_eta (w : Watcher) : (⟨w.cref, w.blocker⟩ : Watcher) = w := by cases w; rfl

theorem watchStep_keep_inv {p : Lit} {b : Bool} {w w1 : Watcher} {s s1 : Solver} {q : Nat}
    {pre rest : List Watcher}
    (h : LoopInv (setWatches s p (pre ++ w :: rest)) p q pre (w :: rest))
    (hk : watchStep p b w s = WStep.keep w1 s1) :
    LoopInv (setWatches s1 p (pre ++ w1 :: rest)) p q (pre ++ [w1]) rest := by
  obtain ⟨hatt, hblk, a, rs, he, hor⟩ := h.head
  have he' : swapFalseLit (s.ca.cl w.cref).lits (neg p) = a :: neg p :: rs := he
  have hm := h.swap w.cref (h.wt.size _ hatt) (h.wt.watcher p w (by rw [h.wl]; simp)
    (h.clean w (List.mem_cons_self _ _))).2.1
  rw [he] at hm
  rcases watchStep_keep hk with ⟨hbT, rfl, rfl⟩ | ⟨hbn, -, rfl, ⟨hfT, rfl⟩ | ⟨-, henq⟩⟩
  · -- the blocker is true
    have hb : w1.blocker ∈ ((setWatches s1 p (pre ++ w1 :: rest)).ca.cl w1.cref).lits := by
      rcases hblk with hb | ⟨hb, -⟩
      · exact hb
      · rw [show value (setWatches s1 p (pre ++ w1 :: rest)) w1.blocker = value s1 w1.blocker
          from rfl, hbT] at hb
        cases hb
    have := h.keep w1.blocker hb (h.handled_of_true hb hbT)
    rw [watcher_eta] at this
    exact this.of_eq_lp rfl rfl rfl rfl
      (by simp only [setWatches, Function.update_idem]) rfl rfl rfl rfl
  · -- the other watched literal is true
    rw [he'] at hfT ⊢
    simp only [List.getD_cons_zero] at hfT ⊢
    have hamem : a ∈ ((setLits (setWatches s p (pre ++ w :: rest)) w.cref
        (a :: neg p :: rs)).ca.cl w.cref).lits := by
      rw [setLits_lits_self]; simp
    have := hm.keep a hamem (hm.handled_of_true hamem hfT)
    exact this.of_eq_lp rfl rfl rfl rfl
      (by simp only [setWatches, setLits, Function.update_idem]) rfl rfl rfl rfl
  · -- unit clause: the first literal is enqueued
    rw [he'] at henq ⊢
    simp only [List.getD_cons_zero] at henq ⊢
    obtain ⟨hu, e1, e3, e4, ek⟩ := uncheckedEnqueue_spec henq
    obtain ⟨f1, f2, f3, f4, f5, f6, f7, f8, f9⟩ :=
      tagSymmetryUnit_fields b (setLits s w.cref (a :: neg p :: rs)) (var a)
    have hu' : value (setLits (setWatches s p (pre ++ w :: rest)) w.cref (a :: neg p :: rs)) a
        = l_Undef := by
      rw [← hu]; unfold value; rw [f3]; rfl
    have hdl : decisionLevel (tagSymmetryUnit b (setLits s w.cref (a :: neg p :: rs)) (var a))
        = decisionLevel (setLits (setWatches s p (pre ++ w :: rest)) w.cref
            (a :: neg p :: rs)) := by
      unfold decisionLevel; rw [f2]; rfl
    rw [hdl] at e4
    have hamem : a ∈ ((setLits (setWatches s p (pre ++ w :: rest)) w.cref
        (a :: neg p :: rs)).ca.cl w.cref).lits := by
      rw [setLits_lits_self]; simp
    have ht : LoopInv (setWatches s1 p (pre ++ w :: rest)) p q pre (w :: rest) := by
      refine hm.enqueue_lp (r := some w.cref) hu' ?_ ?_ ?_ ?_ ?_ ?_ ?_ ?_ ?_
      · show s1.trail = _; rw [e1, f1]; rfl
      · show s1.trail_lim = _; rw [enqKey_trail_lim ek, f2]; rfl
      · show s1.assigns = _; rw [e3, f3]; rfl
      · show s1.vardata = _; rw [e4, f4]; rfl
      · show Function.update s1.watches _ _ = _
        rw [enqKey_watches ek, f5]; rfl
      · show s1.dirty = _; rw [enqKey_dirty ek, f6]; rfl
      · show s1.clauses = _; rw [enqKey_clauses ek, f7]; rfl
      · show s1.learnts = _; rw [enqKey_learnts ek, f8]; rfl
      · show s1.ca = _; rw [enqKey_ca ek, f9]; rfl
    have hh : Handled (setWatches s1 p (pre ++ w :: rest)) p w.cref := by
      refine hm.enqueue_handled (r := some w.cref) hu' ?_ ?_ ?_ hamem
      · show s1.assigns = _; rw [e3, f3]; rfl
      · show s1.vardata = _; rw [e4, f4]; rfl
      · show s1.ca.cl = _; rw [enqKey_ca ek, f9]; rfl
    have hamem' : a ∈ ((setWatches s1 p (pre ++ w :: rest)).ca.cl w.cref).lits := by
      show a ∈ (s1.ca.cl w.cref).lits
      rw [enqKey_ca ek, f9, setLits_lits_self]; simp
    have := ht.keep a hamem' hh
    exact this.of_eq_lp rfl rfl rfl rfl
      (by simp only [setWatches, Function.update_idem]) rfl rfl rfl rfl

end Minisat


namespace Minisat
open lbool

theorem watchStep_move_inv {p : Lit} {b : Bool} {w : Watcher} {s s1 : Solver} {q : Nat}
    {pre rest : List Watcher}
    (h : LoopInv (setWatches s p (pre ++ w :: rest)) p q pre (w :: rest))
    (hk : watchStep p b w s = WStep.move s1) :
    LoopInv (setWatches s1 p (pre ++ rest)) p q pre rest := by
  obtain ⟨hatt, hblk, a, rs, he, hor⟩ := h.head
  have he' : swapFalseLit (s.ca.cl w.cref).lits (neg p) = a :: neg p :: rs := he
  have hm := h.swap w.cref (h.wt.size _ hatt) (h.wt.watcher p w (by rw [h.wl]; simp)
    (h.clean w (List.mem_cons_self _ _))).2.1
  rw [he] at hm
  obtain ⟨k, -, -, -, hfw, hnp, rfl⟩ := watchStep_move hk
  rw [he'] at hfw hnp ⊢
  simp only [List.drop_succ_cons, List.drop_zero, List.getD_cons_zero] at hfw ⊢
  obtain ⟨hk2, hklt, hkv⟩ := findWatch_some _ _ _ hfw
  rw [getD_cons_cons a (neg p) rs k hk2] at hnp ⊢
  rw [moveWatch_cons a (neg p) rs k hk2]
  have hnp' : neg (rs.getD (k - 2) 0) ≠ p := hnp
  refine hm.move_abs (j := k - 2) (by rw [setLits_lits_self]) hklt hkv rfl rfl rfl rfl rfl rfl
    rfl rfl ?_ ?_ ?_ ?_ ?_ ?_
  · intro cr' hcr'
    simp only [setWatches, pushWatch, setLits, Function.update_noteq hcr']
  · simp only [setWatches, pushWatch, setLits, Function.update_same]
  · simp only [setWatches, pushWatch, setLits, Function.update_same]
  · simp only [setWatches, pushWatch, setLits, Function.update_same]
  · simp only [setWatches, pushWatch, setLits, Function.update_same,
      Function.update_noteq hnp']
  · intro l hl hl'
    simp only [setWatches, pushWatch, setLits, Function.update_noteq hl,
      Function.update_noteq hl']

theorem watchStep_conflict_inv {p : Lit} {b : Bool} {w w1 : Watcher} {s s1 : Solver} {q : Nat}
    {pre rest : List Watcher}
    (h : LoopInv (setWatches s p (pre ++ w :: rest)) p q pre (w :: rest))
    (hk : watchStep p b w s = WStep.conflict w1 s1) :
    TrailInv (setWatches s1 p (pre ++ w1 :: rest)) ∧
    WatchInv (setWatches s1 p (pre ++ w1 :: rest)) q ∧
    Attached (setWatches s1 p (pre ++ w1 :: rest)) w1.cref ∧
    Falsified (setWatches s1 p (pre ++ w1 :: rest)) w1.cref ∧
    s1.qhead = s1.trail.length := by
  obtain ⟨hatt, hblk, a, rs, he, hor⟩ := h.head
  have he' : swapFalseLit (s.ca.cl w.cref).lits (neg p) = a :: neg p :: rs := he
  have hm := h.swap w.cref (h.wt.size _ hatt) (h.wt.watcher p w (by rw [h.wl]; simp)
    (h.clean w (List.mem_cons_self _ _))).2.1
  rw [he] at hm
  obtain ⟨-, -, hfw, hfF, rfl, rfl⟩ := watchStep_conflict hk
  rw [he'] at hfw hfF ⊢
  simp only [List.drop_succ_cons, List.drop_zero, List.getD_cons_zero] at hfw hfF ⊢
  have hamem : a ∈ ((setLits (setWatches s p (pre ++ w :: rest)) w.cref
      (a :: neg p :: rs)).ca.cl w.cref).lits := by
    rw [setLits_lits_self]; simp
  have hwt := hm.replace_wt a hamem
  have hpF : value s (neg p) = l_False := value_neg_false.mpr h.value_p
  refine ⟨hm.tr.congr_tr rfl rfl rfl rfl, ?_, ?_, ?_, rfl⟩
  · exact hwt.congr_wt rfl rfl rfl rfl
      (by simp only [setWatches, setQhead, setLits, Function.update_idem]) rfl rfl rfl rfl
      (fun cr => rfl) (fun cr => List.Perm.refl _) (fun cr l => Iff.rfl)
  · exact ⟨hatt.1, by
      show ((setLits s w.cref (a :: neg p :: rs)).ca.cl w.cref).mark ≠ 1
      rw [setLits_mark]; exact hatt.2⟩
  · intro l hl
    have hl' : l ∈ ((setLits s w.cref (a :: neg p :: rs)).ca.cl w.cref).lits := hl
    rw [setLits_lits_self] at hl'
    show value s l = l_False
    simp only [List.mem_cons] at hl'
    rcases hl' with rfl | rfl | hl'
    · exact hfF
    · exact hpF
    · exact findWatch_none _ _ hfw l hl'

theorem uncheckedEnqueue_none {s : Solver} {x : Lit} {r : Option CRef}
    (h : uncheckedEnqueue s x r = none) : value s x ≠ l_Undef := by
  intro hu
  rw [uncheckedEnqueue_some r hu] at h
  cases h

/-- Under the loop invariant no assertion of the loop body fails. -/
theorem watchStep_ne_fail {p : Lit} {b : Bool} {w : Watcher} {s : Solver} {q : Nat}
    {pre rest : List Watcher}
    (h : LoopInv (setWatches s p (pre ++ w :: rest)) p q pre (w :: rest)) :
    watchStep p b w s ≠ WStep.fail := by
  intro hk
  obtain ⟨hatt, hblk, a, rs, he, hor⟩ := h.head
  have he' : swapFalseLit (s.ca.cl w.cref).lits (neg p) = a :: neg p :: rs := he
  have hpF : value s (neg p) = l_False := value_neg_false.mpr h.value_p
  obtain ⟨hbn, hcase⟩ := watchStep_fail hk
  rw [he'] at hcase
  simp only [List.drop_succ_cons, List.drop_zero, List.getD_cons_zero, List.getD_cons_succ]
    at hcase
  rcases hcase with h1 | ⟨k, hfw, hnp⟩ | ⟨h3, h5, henq⟩
  · exact h1 rfl
  · obtain ⟨hk2, hklt, hkv⟩ := findWatch_some _ _ _ hfw
    rw [getD_cons_cons a (neg p) rs k hk2] at hnp
    rw [neg_eq_iff.mp hnp] at hkv
    exact hkv hpF
  · have hne := uncheckedEnqueue_none henq
    have hval : value (tagSymmetryUnit b (setLits s w.cref (a :: neg p :: rs)) (var a)) a
        = value s a := by
      unfold value; rw [(tagSymmetryUnit_fields b _ _).2.2.1]; rfl
    rw [hval] at hne
    have haT : value s a = l_True := by
      cases hv : value s a
      · rfl
      · exact absurd hv h5
      · exact absurd hv hne
    by_cases hab : a = w.blocker
    · exact hbn (hab ▸ haT)
    · exact h3 ⟨hab, haT⟩

end Minisat


namespace Minisat
open lbool

/-! ## The watcher loop -/

theorem tagSymmetryUnit_qhead (b : Bool) (s : Solver) (v : Var) :
    (tagSymmetryUnit b s v).qhead = s.qhead := by
  unfold tagSymmetryUnit; split_ifs <;> rfl

theorem watchStep_keep_qhead {p : Lit} {b : Bool} {w w1 : Watcher} {s s1 : Solver}
    (hk : watchStep p b w s = WStep.keep w1 s1) : s1.qhead = s.qhead := by
  rcases watchStep_keep hk with ⟨-, -, rfl⟩ | ⟨-, -, -, ⟨-, rfl⟩ | ⟨-, henq⟩⟩
  · rfl
  · rfl
  · obtain ⟨-, -, -, -, ek⟩ := uncheckedEnqueue_spec henq
    rw [enqKey_qhead ek, tagSymmetryUnit_qhead]; rfl

theorem watchStep_move_qhead {p : Lit} {b : Bool} {w : Watcher} {s s1 : Solver}
    (hk : watchStep p b w s = WStep.move s1) : s1.qhead = s.qhead := by
  obtain ⟨k, -, -, -, -, -, rfl⟩ := watchStep_move hk
  rfl

/-- The watcher loop from a state that satisfies the loop invariant: it returns (no assertion
fails); without conflict the invariant holds at the end with nothing left to visit and the
head is where it was; with a conflict the clause returned is attached and falsified. -/
theorem propagateWatchers_inv {p : Lit} {b : Bool} {q : Nat} :
    ∀ (ws pre : List Watcher) (s : Solver),
      LoopInv (setWatches s p (pre ++ ws)) p q pre ws →
      ∃ confl kept s', propagateWatchers p b ws s = some (confl, kept, s') ∧
        (confl = none →
          LoopInv (setWatches s' p (pre ++ kept)) p q (pre ++ kept) [] ∧ s'.qhead = s.qhead) ∧
        (∀ cr, confl = some cr →
          TrailInv (setWatches s' p (pre ++ kept)) ∧
          WatchInv (setWatches s' p (pre ++ kept)) q ∧
          Attached (setWatches s' p (pre ++ kept)) cr ∧
          Falsified (setWatches s' p (pre ++ kept)) cr ∧
          s'.qhead = s'.trail.length) := by
  intro ws
  induction ws with
  | nil =>
    intro pre s h
    refine ⟨none, [], s, rfl, fun _ => ⟨?_, rfl⟩, fun cr hcr => by cases hcr⟩
    simpa using h
  | cons w rest ih =>
    intro pre s h
    unfold propagateWatchers
    cases hstep : watchStep p b w s with
    | fail => exact absurd hstep (watchStep_ne_fail h)
    | keep w1 s1 =>
      have h1 := watchStep_keep_inv h hstep
      have h1' : LoopInv (setWatches s1 p ((pre ++ [w1]) ++ rest)) p q (pre ++ [w1]) rest := by
        simpa using h1
      obtain ⟨confl, kept, s', hr, hnone, hsome⟩ := ih (pre ++ [w1]) s1 h1'
      refine ⟨confl, w1 :: kept, s', ?_, ?_, ?_⟩
      · simp only [hr, Option.map_some']
      · intro hc
        obtain ⟨hA, hB⟩ := hnone hc
        refine ⟨?_, hB.trans (watchStep_keep_qhead hstep)⟩
        simpa using hA
      · intro cr hc
        have := hsome cr hc
        simpa using this
    | move s1 =>
      have h1 := watchStep_move_inv h hstep
      obtain ⟨confl, kept, s', hr, hnone, hsome⟩ := ih pre s1 h1
      refine ⟨confl, kept, s', hr, ?_, hsome⟩
      intro hc
      obtain ⟨hA, hB⟩ := hnone hc
      exact ⟨hA, hB.trans (watchStep_move_qhead hstep)⟩
    | conflict w1 s1 =>
      refine ⟨some w1.cref, w1 :: rest, s1, rfl, ?_, ?_⟩
      · intro hc; cases hc
      · intro cr hc
        cases hc
        exact watchStep_conflict_inv h hstep

end Minisat


namespace Minisat
open lbool

/-! ## The lookup of a watcher list and the propagation of one literal -/

theorem cleanWatch_watches_self (s : Solver) (p : Lit) :
    (cleanWatch s p).watches p = (s.watches p).filter (fun w => !isRemoved s w.cref) := by
  simp only [cleanWatch, Function.update_same]

theorem cleanWatch_watches_other (s : Solver) {p l : Lit} (h : l ≠ p) :
    (cleanWatch s p).watches l = s.watches l := by
  simp only [cleanWatch, Function.update_noteq h]

theorem cleanWatch_mem {s : Solver} {p l : Lit} {w : Watcher}
    (h : w ∈ (cleanWatch s p).watches l) :
    w ∈ s.watches l ∧ (l = p → (s.ca.cl w.cref).mark ≠ 1) := by
  by_cases hl : l = p
  · subst hl
    rw [cleanWatch_watches_self, List.mem_filter] at h
    refine ⟨h.1, fun _ => ?_⟩
    have := h.2
    simpa [isRemoved] using this
  · rw [cleanWatch_watches_other s hl] at h
    exact ⟨h, fun e => absurd e hl⟩

theorem WatchInv.cleanWatch {s : Solver} {q : Nat} (h : WatchInv s q) (p : Lit) :
    WatchInv (cleanWatch s p) q := by
  constructor
  · exact h.q_le
  · exact h.lim_le_q
  · exact h.size
  · exact h.nodup
  · intro cr hcr l hl
    obtain ⟨w, hw, hwc⟩ := h.watched cr hcr l hl
    refine ⟨w, ?_, hwc⟩
    by_cases hlp : neg l = p
    · rw [hlp, cleanWatch_watches_self, List.mem_filter]
      refine ⟨hlp ▸ hw, ?_⟩
      have : (s.ca.cl w.cref).mark ≠ 1 := hwc ▸ hcr.2
      simpa [isRemoved] using this
    · rw [cleanWatch_watches_other s hlp]; exact hw
  · intro l w hw hmk
    exact h.watcher l w (cleanWatch_mem hw).1 hmk
  · intro l w hw hmk
    obtain ⟨hw', hne⟩ := cleanWatch_mem hw
    by_cases hl : l = p
    · exact absurd hmk (hne hl)
    · show Function.update s.dirty p false l = true
      rw [Function.update_noteq hl]
      exact h.removed_dirty l w hw' hmk
  · intro l
    by_cases hl : l = p
    · subst hl
      rw [cleanWatch_watches_self]
      exact (h.crefs_nodup l).sublist ((List.filter_sublist _).map _)
    · rw [cleanWatch_watches_other s hl]; exact h.crefs_nodup l
  · exact h.listed_lt
  · intro l w hw; exact h.watcher_lt l w (cleanWatch_mem hw).1
  · exact h.propagated

/-- After the lookup the list of `p` holds no watcher of a removed clause. -/
theorem WatchInv.lookup_wt {s : Solver} {q : Nat} (h : WatchInv s q) (p : Lit) :
    WatchInv (lookup s p) q ∧ ∀ w ∈ (lookup s p).watches p, ((lookup s p).ca.cl w.cref).mark ≠ 1 := by
  unfold Minisat.lookup
  by_cases hd : s.dirty p = true
  · rw [if_pos hd]
    exact ⟨h.cleanWatch p, fun w hw => (cleanWatch_mem hw).2 rfl⟩
  · rw [if_neg hd]
    exact ⟨h, fun w hw hmk => hd (h.removed_dirty p w hw hmk)⟩

theorem lookup_fields (s : Solver) (p : Lit) :
    (lookup s p).trail = s.trail ∧ (lookup s p).trail_lim = s.trail_lim ∧
    (lookup s p).assigns = s.assigns ∧ (lookup s p).vardata = s.vardata ∧
    (lookup s p).qhead = s.qhead ∧ (lookup s p).symmetry_units = s.symmetry_units := by
  unfold lookup
  split_ifs
  · exact ⟨rfl, rfl, rfl, rfl, rfl, rfl⟩
  · exact ⟨rfl, rfl, rfl, rfl, rfl, rfl⟩

/-- The watch invariant for the next head, once every clause is handled for `p`. -/
theorem LoopInv.finish {s : Solver} {p : Lit} {q : Nat} {pre : List Watcher}
    (h : LoopInv s p q pre []) : WatchInv s (q + 1) := by
  have hq := h.hq
  refine ⟨by omega, fun x hx => Nat.le_succ_of_le (h.wt.lim_le_q x hx), h.wt.size, h.wt.nodup,
    h.wt.watched, h.wt.watcher, h.wt.removed_dirty, h.wt.crefs_nodup, h.wt.listed_lt,
    h.wt.watcher_lt, ?_⟩
  intro cr hcr l hl hf hmem
  have htake : s.trail.take (q + 1) = s.trail.take q ++ [p] := by
    rw [List.take_succ, ← h.hp, List.getD_eq_getElem _ _ hq, List.getElem?_eq_getElem hq]
    rfl
  rw [htake, List.mem_append, List.mem_singleton] at hmem
  rcases hmem with hmem | hmem
  · exact h.wt.propagated cr hcr l hl hf hmem
  · rcases h.pending cr hcr with hh | ⟨w, hw, -⟩
    · have hlp : l = neg p := neg_eq_iff.mp hmem
      have := hh (hlp ▸ hl)
      rw [hlp, var_neg]
      exact this
    · cases hw

/-- The loop invariant at the start of the watcher loop, after the lookup of the list. -/
theorem propagateLit_init {s : Solver} {p : Lit} {q : Nat} (htr : TrailInv s)
    (hwt : WatchInv s q) (hp : s.trail.getD q 0 = p) (hq : q < s.trail.length) :
    LoopInv (setWatches (lookup s p) p ([] ++ (lookup s p).watches p)) p q []
      ((lookup s p).watches p) := by
  obtain ⟨f1, f2, f3, f4, f5, f6⟩ := lookup_fields s p
  obtain ⟨hwl, hclean⟩ := hwt.lookup_wt p
  have hl : LoopInv (lookup s p) p q [] ((lookup s p).watches p) := by
    refine ⟨htr.congr_tr f1 f2 f3 f4, hwl, rfl, by rw [f1]; exact hp, by rw [f1]; exact hq,
      hclean, ?_⟩
    intro cr hcr
    by_cases hw : ((lookup s p).ca.cl cr).watching (neg p)
    · obtain ⟨w, hw', hwc⟩ := hwl.watched cr hcr _ hw
      rw [neg_neg] at hw'
      exact Or.inr ⟨w, hw', hwc⟩
    · exact Or.inl (fun h => absurd h hw)
  refine hl.of_eq_lp rfl rfl rfl rfl ?_ rfl rfl rfl rfl
  simp only [setWatches, List.nil_append, Function.update_eq_self]

/-- The propagation of the literal `p = trail[q]` from a state that satisfies the watch
invariant for `q`: it returns; without conflict the invariant holds for `q + 1`; with a
conflict the clause returned is attached and falsified and the head is at the end of the
trail. -/
theorem propagateLit_inv {s : Solver} {p : Lit} {q : Nat} (htr : TrailInv s)
    (hwt : WatchInv s q) (hp : s.trail.getD q 0 = p) (hq : q < s.trail.length) :
    ∃ confl s', propagateLit p s = some (confl, s') ∧ TrailInv s' ∧
      (confl = none → WatchInv s' (q + 1) ∧ s'.qhead = s.qhead) ∧
      (∀ cr, confl = some cr →
        WatchInv s' q ∧ Attached s' cr ∧ Falsified s' cr ∧ s'.qhead = s'.trail.length) := by
  obtain ⟨f1, f2, f3, f4, f5, f6⟩ := lookup_fields s p
  have hinit := propagateLit_init htr hwt hp hq
  obtain ⟨confl, kept, s', hr, hnone, hsome⟩ :=
    propagateWatchers_inv (b := decide (decisionLevel s = 0) && decide (var p ∈ s.symmetry_units))
      _ [] (lookup s p) hinit
  simp only [List.nil_append] at hnone hsome
  refine ⟨confl, setWatches s' p kept, ?_, ?_, ?_, ?_⟩
  · unfold propagateLit
    rw [hr]
  · cases confl with
    | none => exact (hnone rfl).1.tr
    | some cr => exact (hsome cr rfl).1
  · intro hc
    obtain ⟨hA, hB⟩ := hnone hc
    exact ⟨hA.finish, hB.trans f5⟩
  · intro cr hc
    obtain ⟨-, hB, hC, hD, hE⟩ := hsome cr hc
    exact ⟨hB, hC, hD, hE⟩

end Minisat


namespace Minisat
open lbool

/-! ## The loop of `propagate` -/

theorem WatchInv.of_eq_wt {s t : Solver} {q : Nat} (h : WatchInv s q)
    (h1 : t.trail = s.trail) (h2 : t.trail_lim = s.trail_lim) (h3 : t.assigns = s.assigns)
    (h4 : t.vardata = s.vardata) (h5 : t.watches = s.watches) (h6 : t.dirty = s.dirty)
    (h7 : t.clauses = s.clauses) (h8 : t.learnts = s.learnts) (h9 : t.ca = s.ca) :
    WatchInv t q :=
  h.congr_wt h1 h2 h3 h4 h5 h6 h7 h8 (by rw [h9]) (fun cr => by rw [h9]) (fun cr => by rw [h9])
    (fun cr l => by rw [h9])

theorem Attached.of_eq_att {s t : Solver} {cr : CRef} (h : Attached s cr)
    (h7 : t.clauses = s.clauses) (h8 : t.learnts = s.learnts) (h9 : t.ca.cl = s.ca.cl) :
    Attached t cr := (Attached.congr_att h7 h8 (by rw [h9])).mpr h

theorem Falsified.of_eq_fal {s t : Solver} {cr : CRef} (h : Falsified s cr)
    (h3 : t.assigns = s.assigns) (h9 : t.ca.cl = s.ca.cl) : Falsified t cr := by
  intro l hl
  rw [h9] at hl
  rw [value_congr h3]
  exact h l hl

/-- The loop of `propagate` from a state that satisfies the invariants for its head: if it
returns, the head is at the end of the trail; without conflict the invariants hold for the
new head; with a conflict the clause returned is attached and falsified. -/
theorem propagateLoop_inv :
    ∀ (fuel : Nat) (s : Solver) (n : Nat) (r : Option CRef × Nat × Solver),
      TrailInv s → WatchInv s s.qhead → propagateLoop fuel s none n = some r →
      TrailInv r.2.2 ∧ r.2.2.qhead = r.2.2.trail.length ∧
      (r.1 = none → WatchInv r.2.2 r.2.2.qhead) ∧
      (∀ cr, r.1 = some cr →
        (∃ q, WatchInv r.2.2 q) ∧ Attached r.2.2 cr ∧ Falsified r.2.2 cr) := by
  intro fuel
  induction fuel with
  | zero =>
    intro s n r htr hwt h
    by_cases hq : s.qhead < s.trail.length
    · rw [propagateLoop_zero hq] at h; cases h
    · rw [propagateLoop_done hq] at h; cases h
      have := hwt.q_le
      refine ⟨htr, ?_, fun _ => hwt, fun cr hc => by cases hc⟩
      show s.qhead = s.trail.length
      omega
  | succ fuel ih =>
    intro s n r htr hwt h
    by_cases hq : s.qhead < s.trail.length
    · rw [propagateLoop_step hq] at h
      obtain ⟨confl, s1, hr, htr1, hnone, hsome⟩ :=
        propagateLit_inv (s := setQhead s (s.qhead + 1)) (p := s.trail.getD s.qhead 0)
          (q := s.qhead) (htr.congr_tr rfl rfl rfl rfl)
          (hwt.of_eq_wt rfl rfl rfl rfl rfl rfl rfl rfl rfl) rfl hq
      rw [hr] at h
      cases confl with
      | none =>
        obtain ⟨hA, hB⟩ := hnone rfl
        simp only [ne_eq, not_true_eq_false, if_false] at h
        have hB' : s1.qhead = s.qhead + 1 := hB
        exact ih s1 (n + 1) r htr1 (hB' ▸ hA) h
      | some cr =>
        obtain ⟨hA, hB, hC, hD⟩ := hsome cr rfl
        have hdone : ¬ (setQhead s1 s1.trail.length).qhead
            < (setQhead s1 s1.trail.length).trail.length := by
          show ¬ s1.trail.length < s1.trail.length
          omega
        simp only [propagateLoop_done hdone] at h
        cases h
        refine ⟨htr1.congr_tr rfl rfl rfl rfl, rfl, (fun hc => by cases hc), ?_⟩
        intro cr' hc
        cases hc
        exact ⟨⟨s.qhead, hA.of_eq_wt rfl rfl rfl rfl rfl rfl rfl rfl rfl⟩,
          hB.of_eq_att rfl rfl rfl, hC.of_eq_fal rfl rfl⟩
    · rw [propagateLoop_done hq] at h; cases h
      have := hwt.q_le
      refine ⟨htr, ?_, fun _ => hwt, fun cr hc => by cases hc⟩
      show s.qhead = s.trail.length
      omega

/-- The invariants after `propagate`. -/
theorem propagate_inv {fuel : Nat} {s : Solver} {r : Option CRef × Solver}
    (htr : TrailInv s) (hwt : WatchInv s s.qhead) (h : propagate fuel s = some r) :
    TrailInv r.2 ∧ r.2.qhead = r.2.trail.length ∧
    (r.1 = none → WatchInv r.2 r.2.qhead) ∧
    (∀ cr, r.1 = some cr → (∃ q, WatchInv r.2 q) ∧ Attached r.2 cr ∧ Falsified r.2 cr) := by
  unfold propagate at h
  cases hl : propagateLoop fuel s none 0 with
  | none => rw [hl] at h; cases h
  | some r1 =>
    rw [hl] at h
    cases h
    obtain ⟨hA, hB, hC, hD⟩ := propagateLoop_inv fuel s 0 r1 htr hwt hl
    refine ⟨hA.congr_tr rfl rfl rfl rfl, hB, ?_, ?_⟩
    · intro hc
      exact (hC hc).of_eq_wt rfl rfl rfl rfl rfl rfl rfl rfl rfl
    · intro cr hc
      obtain ⟨⟨q, hq⟩, hE, hF⟩ := hD cr hc
      exact ⟨⟨q, hq.of_eq_wt rfl rfl rfl rfl rfl rfl rfl rfl rfl⟩, hE.of_eq_att rfl rfl rfl,
        hF.of_eq_fal rfl rfl⟩

/-- With the head at the end of the trail, a clause with a false watched literal has a true
literal. -/
theorem WatchInv.true_of_false {s : Solver} (htr : TrailInv s)
    (hwt : WatchInv s s.trail.length) {cr : CRef} (hcr : Attached s cr) {l : Lit}
    (hl : (s.ca.cl cr).watching l) (hf : value s l = l_False) :
    ∃ t ∈ (s.ca.cl cr).lits, value s t = l_True := by
  have hmem : neg l ∈ s.trail.take s.trail.length := by
    rw [List.take_length]; exact htr.neg_mem_of_false hf
  obtain ⟨t, ht, htv, -⟩ := hwt.propagated cr hcr l hl hf hmem
  exact ⟨t, ht, htv⟩

/-- With the head at the end of the trail no attached clause is falsified or unit. -/
theorem WatchInv.no_unit {s : Solver} (htr : TrailInv s) (hwt : WatchInv s s.trail.length)
    {cr : CRef} (hcr : Attached s cr) : ¬ Falsified s cr ∧ ¬ UnitUnder s cr := by
  have hsz := hwt.size cr hcr
  have hget : ∀ i, i < (s.ca.cl cr).lits.length → (s.ca.cl cr).get i ∈ (s.ca.cl cr).lits := by
    intro i hi
    unfold Clause.get
    rw [List.getD_eq_getElem _ _ hi]; exact List.getElem_mem _
  constructor
  · intro hF
    obtain ⟨t, ht, htv⟩ := hwt.true_of_false htr hcr (l := (s.ca.cl cr).get 0) (Or.inl rfl)
      (hF _ (hget 0 (by omega)))
    rw [hF t ht] at htv
    cases htv
  · rintro ⟨i, hi, hiu, hrest⟩
    -- one of the two watched positions is not `i`, and its literal is false
    obtain ⟨j, hj2, hji⟩ : ∃ j, j < 2 ∧ j ≠ i := by
      by_cases h0 : i = 0
      · exact ⟨1, by omega, by omega⟩
      · exact ⟨0, by omega, fun e => h0 e.symm⟩
    have hjl : j < (s.ca.cl cr).lits.length := by omega
    have hw : (s.ca.cl cr).watching ((s.ca.cl cr).get j) := by
      have : j = 0 ∨ j = 1 := by omega
      rcases this with rfl | rfl
      · exact Or.inl rfl
      · exact Or.inr rfl
    obtain ⟨t, ht, htv⟩ := hwt.true_of_false htr hcr hw (hrest j hjl hji)
    obtain ⟨k, hk, rfl⟩ := List.mem_iff_getElem.mp ht
    have hkget : (s.ca.cl cr).get k = (s.ca.cl cr).lits[k] := by
      unfold Clause.get; rw [List.getD_eq_getElem _ _ hk]
    rw [← hkget] at htv
    by_cases hki : k = i
    · rw [hki, hiu] at htv; cases htv
    · rw [hrest k hk hki] at htv; cases htv

end Minisat


namespace Minisat
open lbool

/-! ## The auxiliary invariants under the steps of the watcher loop -/

theorem propKey_fields {s t : Solver} (h : propKey t = propKey s) :
    t.order_heap = s.order_heap ∧ t.free_vars = s.free_vars ∧
    t.released_vars = s.released_vars ∧ t.seen = s.seen ∧ t.assumptions = s.assumptions ∧
    t.decision = s.decision ∧ t.next_var = s.next_var ∧ t.dirties = s.dirties := by
  refine ⟨?_, ?_, ?_, ?_, ?_, ?_, ?_, ?_⟩
  · have := congrArg Solver.order_heap h; simpa only [propKey] using this
  · have := congrArg Solver.free_vars h; simpa only [propKey] using this
  · have := congrArg Solver.released_vars h; simpa only [propKey] using this
  · have := congrArg Solver.seen h; simpa only [propKey] using this
  · have := congrArg Solver.assumptions h; simpa only [propKey] using this
  · have := congrArg Solver.decision h; simpa only [propKey] using this
  · have := congrArg Solver.next_var h; simpa only [propKey] using this
  · have := congrArg Solver.dirties h; simpa only [propKey] using this

/-- The auxiliary invariants when the literals of the clauses are permuted, the first literal
of a clause with a true first literal staying in place; the members read are listed. -/
theorem AuxInv.congr_ax {s t : Solver} (h : AuxInv s) (hti : TrailInv s)
    (k1 : t.order_heap = s.order_heap) (k2 : t.free_vars = s.free_vars)
    (k3 : t.released_vars = s.released_vars) (k4 : t.seen = s.seen)
    (k5 : t.assumptions = s.assumptions) (k6 : t.decision = s.decision)
    (k7 : t.next_var = s.next_var) (k8 : t.dirties = s.dirties)
    (h7 : t.clauses = s.clauses) (h8 : t.learnts = s.learnts)
    (h1 : t.trail = s.trail) (h3 : t.assigns = s.assigns) (h4 : t.vardata = s.vardata)
    (h5 : ∀ l, nVars s ≤ var l → t.watches l = [])
    (h6 : ∀ l, t.dirty l = true → s.dirty l = true)
    (hm : ∀ cr, (t.ca.cl cr).mark = (s.ca.cl cr).mark)
    (hr : ∀ cr, (t.ca.cl cr).reloced = (s.ca.cl cr).reloced)
    (hperm : ∀ cr, (t.ca.cl cr).lits.Perm (s.ca.cl cr).lits)
    (h0 : ∀ cr, value s ((s.ca.cl cr).get 0) = l_True →
      (t.ca.cl cr).get 0 = (s.ca.cl cr).get 0 ∧
      ∀ x, x ∈ (t.ca.cl cr).lits.drop 1 ↔ x ∈ (s.ca.cl cr).lits.drop 1) :
    AuxInv t := by
  have hat : ∀ cr, Attached t cr ↔ Attached s cr := fun cr => Attached.congr_att h7 h8 (hm cr)
  have hnv : nVars t = nVars s := k7
  refine ⟨?_, ?_, ?_, ?_⟩
  · intro pre l post cr htr hre
    rw [h1] at htr
    rw [reason_congr h4] at hre
    obtain ⟨a, b, c⟩ := h.rs pre l post cr htr hre
    have hl : l ∈ s.trail := by rw [htr]; simp
    -- the first literal of the reason is true
    have hv : value s ((s.ca.cl cr).get 0) = l_True := by
      rw [b]; exact hti.true_of_mem l hl
    obtain ⟨e1, e2⟩ := h0 cr hv
    exact ⟨(hat cr).mpr a, e1.trans b, fun x hx => c x ((e2 x).mp hx)⟩
  · constructor
    · intro l hl; rw [hnv]; exact h.vr.trail_lt l (h1 ▸ hl)
    · intro cr hcr l hl
      rw [hnv]; exact h.vr.lits_lt cr ((hat cr).mp hcr) l ((hperm cr).mem_iff.mp hl)
    · intro l hl; rw [hnv] at hl; exact h5 l hl
    · intro v hv; rw [hnv]; rw [k1] at hv; exact h.vr.heap_lt v hv
    · rw [k2]; exact h.vr.free_nil
    · rw [k3]; exact h.vr.released_nil
    · intro l hl; rw [k8]; exact h.vr.dirties l (h6 l hl)
    · intro cr; rw [hr]; exact h.vr.not_reloced cr
    · intro v; rw [k4]; exact h.vr.seen0 v
  · intro l hl hre j hlev hj
    rw [h1] at hl; rw [reason_congr h4] at hre; rw [level_congr h4] at hlev; rw [k5] at hj ⊢
    exact h.asm l hl hre j hlev hj
  · intro v hv hd hu
    rw [hnv] at hv; rw [k6] at hd; rw [h3] at hu; rw [k1]
    exact h.hp v hv hd hu

/-- The auxiliary invariants under a change inside `propagate`. -/
theorem AuxInv.perm {s t : Solver} (h : AuxInv s) (hti : TrailInv s)
    (hk : propKey t = propKey s)
    (h1 : t.trail = s.trail) (h3 : t.assigns = s.assigns) (h4 : t.vardata = s.vardata)
    (h5 : ∀ l, nVars s ≤ var l → t.watches l = [])
    (h6 : ∀ l, t.dirty l = true → s.dirty l = true)
    (hm : ∀ cr, (t.ca.cl cr).mark = (s.ca.cl cr).mark)
    (hr : ∀ cr, (t.ca.cl cr).reloced = (s.ca.cl cr).reloced)
    (hperm : ∀ cr, (t.ca.cl cr).lits.Perm (s.ca.cl cr).lits)
    (h0 : ∀ cr, value s ((s.ca.cl cr).get 0) = l_True →
      (t.ca.cl cr).get 0 = (s.ca.cl cr).get 0 ∧
      ∀ x, x ∈ (t.ca.cl cr).lits.drop 1 ↔ x ∈ (s.ca.cl cr).lits.drop 1) :
    AuxInv t := by
  obtain ⟨k1, k2, k3, k4, k5, k6, k7, k8⟩ := propKey_fields hk
  exact h.congr_ax hti k1 k2 k3 k4 k5 k6 k7 k8 (propKey_clauses hk) (propKey_learnts hk) h1 h3
    h4 h5 h6 hm hr hperm h0

theorem append_singleton_eq_split {α : Type} {tr pre post : List α} {l x : α}
    (h : tr ++ [x] = pre ++ l :: post) :
    (∃ post', post = post' ++ [x] ∧ tr = pre ++ l :: post') ∨
    (post = [] ∧ pre = tr ∧ l = x) := by
  rcases List.eq_nil_or_concat post with rfl | ⟨post', y, rfl⟩
  · right
    have := List.append_inj' h rfl
    simp only [List.cons.injEq, and_true] at this
    exact ⟨rfl, this.1.symm, this.2.symm⟩
  · left
    have h' : tr ++ [x] = (pre ++ l :: post') ++ [y] := by
      rw [h]; simp
    have := List.append_inj' h' rfl
    simp only [List.cons.injEq, and_true] at this
    refine ⟨post', ?_, this.1⟩
    rw [this.2]; simp

/-- The auxiliary invariants after an enqueue, with a reason whose other literals are false
or, without reason, with a literal that may be a decision. -/
theorem AuxInv.enqueue_ax {s t : Solver} (h : AuxInv s) (hti : TrailInv s) {x : Lit}
    {r : Option CRef} (hu : value s x = l_Undef) (hk : propKey t = propKey s)
    (h1 : t.trail = s.trail ++ [x])
    (h3 : t.assigns = Function.update s.assigns (var x) (lbool.ofBool (!sign x)))
    (h4 : t.vardata = Function.update s.vardata (var x) (mkVarData r (decisionLevel s)))
    (h5 : ∀ l, nVars s ≤ var l → t.watches l = [])
    (h6 : ∀ l, t.dirty l = true → s.dirty l = true) (h9 : t.ca.cl = s.ca.cl)
    (hx : var x < nVars s)
    (hr : ∀ cr, r = some cr → Attached s cr ∧ (s.ca.cl cr).get 0 = x ∧
      ∀ y ∈ (s.ca.cl cr).lits.drop 1, value s y = l_False)
    (has : r = none → ∀ j, decisionLevel s = j + 1 → j < s.assumptions.length →
      x = s.assumptions.getD j 0) :
    AuxInv t := by
  obtain ⟨k1, k2, k3, k4, k5, k6, k7, k8⟩ := propKey_fields hk
  have h7 := propKey_clauses hk
  have h8 := propKey_learnts hk
  have hat : ∀ cr, Attached t cr ↔ Attached s cr :=
    fun cr => Attached.congr_att h7 h8 (by rw [h9])
  have hnv : nVars t = nVars s := k7
  have hne : ∀ l ∈ s.trail, var l ≠ var x := by
    intro l hl e
    exact hti.assigned_of_mem hl (e ▸ value_undef_iff.mp hu)
  have hreason : ∀ l ∈ s.trail, reason t (var l) = reason s (var l) := by
    intro l hl; unfold reason; rw [h4, Function.update_noteq (hne l hl)]
  have hlevel : ∀ l ∈ s.trail, level t (var l) = level s (var l) := by
    intro l hl; unfold level; rw [h4, Function.update_noteq (hne l hl)]
  have hrx : reason t (var x) = r := by
    unfold reason; rw [h4, Function.update_same]; rfl
  have hlx : level t (var x) = decisionLevel s := by
    unfold level; rw [h4, Function.update_same]; rfl
  refine ⟨?_, ?_, ?_, ?_⟩
  · intro pre l post cr htr hre
    rw [h1] at htr
    rcases append_singleton_eq_split htr with ⟨post', -, hs⟩ | ⟨-, rfl, rfl⟩
    · have hl : l ∈ s.trail := by rw [hs]; simp
      rw [hreason l hl] at hre
      obtain ⟨a, b, c⟩ := h.rs pre l post' cr hs hre
      rw [h9]
      exact ⟨(hat cr).mpr a, b, c⟩
    · rw [hrx] at hre
      obtain ⟨a, b, c⟩ := hr cr hre
      rw [h9]
      exact ⟨(hat cr).mpr a, b, fun y hy => hti.neg_mem_of_false (c y hy)⟩
  · constructor
    · intro l hl
      rw [hnv]
      rw [h1, List.mem_append, List.mem_singleton] at hl
      rcases hl with hl | rfl
      · exact h.vr.trail_lt l hl
      · exact hx
    · intro cr hcr l hl
      rw [hnv]; rw [h9] at hl; exact h.vr.lits_lt cr ((hat cr).mp hcr) l hl
    · intro l hl; rw [hnv] at hl; exact h5 l hl
    · intro v hv; rw [hnv]; rw [k1] at hv; exact h.vr.heap_lt v hv
    · rw [k2]; exact h.vr.free_nil
    · rw [k3]; exact h.vr.released_nil
    · intro l hl; rw [k8]; exact h.vr.dirties l (h6 l hl)
    · intro cr; rw [h9]; exact h.vr.not_reloced cr
    · intro v; rw [k4]; exact h.vr.seen0 v
  · intro l hl hre j hlev hj
    rw [k5] at hj ⊢
    rw [h1, List.mem_append, List.mem_singleton] at hl
    rcases hl with hl | rfl
    · rw [hreason l hl] at hre; rw [hlevel l hl] at hlev
      exact h.asm l hl hre j hlev hj
    · rw [hrx] at hre; rw [hlx] at hlev
      exact has hre j hlev hj
  · intro v hv hd hu'
    rw [hnv] at hv; rw [k6] at hd; rw [k1]
    rw [h3] at hu'
    by_cases hvx : v = var x
    · subst hvx
      rw [Function.update_same] at hu'
      cases hs : sign x <;> rw [hs] at hu' <;> cases hu'
    · rw [Function.update_noteq hvx] at hu'
      exact h.hp v hv hd hu'

end Minisat


namespace Minisat
open lbool

/-! ## The auxiliary invariants under the body of the watcher loop -/

theorem setLits_reloced (s : Solver) (cr cr' : CRef) (ls : List Lit) :
    ((setLits s cr ls).ca.cl cr').reloced = (s.ca.cl cr').reloced := by
  by_cases h : cr' = cr
  · subst h; rw [setLits_cl_self]
  · rw [setLits_cl_other s ls h]

theorem LoopInv.p_mem {s : Solver} {p : Lit} {q : Nat} {pre ws : List Watcher}
    (h : LoopInv s p q pre ws) : p ∈ s.trail := List.mem_of_mem_drop h.p_mem_drop

/-- The exchange of the first two literals keeps the auxiliary invariants. -/
theorem LoopInv.swap_aux {s : Solver} {p : Lit} {q : Nat} {pre ws : List Watcher}
    (h : LoopInv s p q pre ws) (ha : AuxInv s) (cr : CRef)
    (h2 : 2 ≤ (s.ca.cl cr).lits.length) (hw : (s.ca.cl cr).watching (neg p)) :
    AuxInv (setLits s cr (swapFalseLit (s.ca.cl cr).lits (neg p))) := by
  obtain ⟨a, rest, he, hor⟩ := swapFalseLit_watching h2 hw
  have hpF : value s (neg p) = l_False := value_neg_false.mpr h.value_p
  refine ha.perm h.tr (propKey_setLits _ _ _) rfl rfl rfl (fun l hl => ha.vr.watches_nil l hl)
    (fun l hl => hl) (fun cr' => setLits_mark s cr cr' _) (fun cr' => setLits_reloced s cr cr' _)
    ?_ ?_
  · intro cr'
    by_cases hc : cr' = cr
    · subst hc
      rw [setLits_lits_self, he]
      rcases hor with hor | hor <;> rw [hor]
      exact List.Perm.swap _ _ _
    · rw [setLits_cl_other s _ hc]
  · intro cr' hv
    by_cases hc : cr' = cr
    · subst hc
      have hne : (s.ca.cl cr').lits.getD 0 0 ≠ neg p := by
        intro e
        have : value s ((s.ca.cl cr').get 0) = l_False := by
          unfold Clause.get; rw [e]; exact hpF
        rw [this] at hv; cases hv
      have hsame : swapFalseLit (s.ca.cl cr').lits (neg p) = (s.ca.cl cr').lits := by
        unfold swapFalseLit; rw [if_neg hne]
      unfold Clause.get
      rw [setLits_lits_self, hsame]
      exact ⟨rfl, fun x => Iff.rfl⟩
    · rw [setLits_cl_other s _ hc]
      exact ⟨rfl, fun x => Iff.rfl⟩

/-- The facts about the state after the exchange that the cases of the loop body share. -/
theorem LoopInv.swap_facts {s : Solver} {p : Lit} {q : Nat} {pre rest : List Watcher}
    {w : Watcher} (h : LoopInv (setWatches s p (pre ++ w :: rest)) p q pre (w :: rest))
    (ha : AuxInv (setWatches s p (pre ++ w :: rest))) :
    ∃ a rs, swapFalseLit (s.ca.cl w.cref).lits (neg p) = a :: neg p :: rs ∧
      Attached s w.cref ∧ var a < nVars s ∧ (∀ y ∈ rs, var y < nVars s) ∧
      (∀ l, nVars s ≤ var l → l ≠ p ∧ s.watches l = []) ∧
      LoopInv (setLits (setWatches s p (pre ++ w :: rest)) w.cref (a :: neg p :: rs)) p q pre
        (w :: rest) ∧
      AuxInv (setLits (setWatches s p (pre ++ w :: rest)) w.cref (a :: neg p :: rs)) := by
  obtain ⟨hatt, hblk, a, rs, he, hor⟩ := h.head
  have he' : swapFalseLit (s.ca.cl w.cref).lits (neg p) = a :: neg p :: rs := he
  have hwg := (h.wt.watcher p w (by rw [h.wl]; simp) (h.clean w (List.mem_cons_self _ _))).2.1
  have hm := h.swap w.cref (h.wt.size _ hatt) hwg
  have hma := h.swap_aux ha w.cref (h.wt.size _ hatt) hwg
  rw [he] at hm hma
  have hlt := ha.vr.lits_lt w.cref hatt
  have hmem : ∀ y, y ∈ a :: neg p :: rs → y ∈ (s.ca.cl w.cref).lits := by
    intro y hy
    rcases hor with hor | hor
    · exact (show (s.ca.cl w.cref).lits = _ from hor) ▸ hy
    · rw [show (s.ca.cl w.cref).lits = _ from hor]
      simp only [List.mem_cons] at hy ⊢
      tauto
  have hnil : ∀ l, nVars s ≤ var l → l ≠ p ∧ s.watches l = [] := by
    intro l hl
    have hlp : l ≠ p := by
      rintro rfl
      have := ha.vr.trail_lt l h.p_mem
      exact absurd this (Nat.not_lt.mpr hl)
    refine ⟨hlp, ?_⟩
    have := ha.vr.watches_nil l hl
    rwa [setWatches_watches_other s _ hlp] at this
  exact ⟨a, rs, he', hatt, hlt a (hmem a (by simp)),
    fun y hy => hlt y (hmem y (by simp [hy])), hnil, hm, hma⟩

theorem watchStep_keep_aux {p : Lit} {b : Bool} {w w1 : Watcher} {s s1 : Solver} {q : Nat}
    {pre rest : List Watcher}
    (h : LoopInv (setWatches s p (pre ++ w :: rest)) p q pre (w :: rest))
    (ha : AuxInv (setWatches s p (pre ++ w :: rest)))
    (hk : watchStep p b w s = WStep.keep w1 s1) :
    AuxInv (setWatches s1 p (pre ++ w1 :: rest)) := by
  obtain ⟨a, rs, he, hatt, hva, hvrs, hnil, hm, hma⟩ := h.swap_facts ha
  rcases watchStep_keep hk with ⟨-, rfl, rfl⟩ | ⟨-, -, rfl, ⟨-, rfl⟩ | ⟨hfw, henq⟩⟩
  · exact ha
  · rw [he]
    refine hma.perm hm.tr ?_ rfl rfl rfl ?_ (fun l hl => hl) (fun cr => rfl) (fun cr => rfl)
      (fun cr => List.Perm.refl _) (fun cr _ => ⟨rfl, fun x => Iff.rfl⟩)
    · rw [propKey_setWatches, propKey_setLits, propKey_setLits, propKey_setWatches]
    · intro l hl
      obtain ⟨hlp, hw⟩ := hnil l hl
      show Function.update s.watches p _ l = []
      rw [Function.update_noteq hlp]; exact hw
  · rw [he] at henq hfw ⊢
    simp only [List.getD_cons_zero, List.drop_succ_cons, List.drop_zero] at henq hfw ⊢
    obtain ⟨hu, e1, e3, e4, ek⟩ := uncheckedEnqueue_spec henq
    obtain ⟨f1, f2, f3, f4, f5, f6, f7, f8, f9⟩ :=
      tagSymmetryUnit_fields b (setLits s w.cref (a :: neg p :: rs)) (var a)
    have hu' : value (setLits (setWatches s p (pre ++ w :: rest)) w.cref (a :: neg p :: rs)) a
        = l_Undef := by
      rw [← hu]; unfold value; rw [f3]; rfl
    have hdl : decisionLevel (tagSymmetryUnit b (setLits s w.cref (a :: neg p :: rs)) (var a))
        = decisionLevel (setLits (setWatches s p (pre ++ w :: rest)) w.cref
            (a :: neg p :: rs)) := by
      unfold decisionLevel; rw [f2]; rfl
    rw [hdl] at e4
    have hpF : value s (neg p) = l_False := value_neg_false.mpr h.value_p
    refine hma.enqueue_ax hm.tr (r := some w.cref) hu' ?_ ?_ ?_ ?_ ?_ ?_ ?_ hva ?_ ?_
    · rw [propKey_setWatches, propKey_uncheckedEnqueue henq, propKey_tagSymmetryUnit,
        propKey_setLits, propKey_setLits, propKey_setWatches]
    · show s1.trail = _; rw [e1, f1]; rfl
    · show s1.assigns = _; rw [e3, f3]; rfl
    · show s1.vardata = _; rw [e4, f4]; rfl
    · intro l hl
      obtain ⟨hlp, hw⟩ := hnil l hl
      show Function.update s1.watches p _ l = []
      rw [Function.update_noteq hlp, enqKey_watches ek, f5]; exact hw
    · intro l hl
      have : s1.dirty l = true := hl
      rw [enqKey_dirty ek, f6] at this; exact this
    · show s1.ca.cl = _; rw [enqKey_ca ek, f9]; rfl
    · intro cr hcr
      cases hcr
      refine ⟨hm.head.1, ?_, ?_⟩
      · unfold Clause.get; rw [setLits_lits_self]; rfl
      · intro y hy
        rw [setLits_lits_self] at hy
        simp only [List.drop_succ_cons, List.drop_zero, List.mem_cons] at hy
        rcases hy with rfl | hy
        · exact hpF
        · exact findWatch_none _ _ hfw y hy
    · intro hr; cases hr

end Minisat


namespace Minisat
open lbool

theorem setWatches_ca (s : Solver) (p : Lit) (X : List Watcher) :
    (setWatches s p X).ca = s.ca := rfl

theorem pushWatch_ca (s : Solver) (l : Lit) (w : Watcher) : (pushWatch s l w).ca = s.ca := rfl

theorem watchStep_move_aux {p : Lit} {b : Bool} {w : Watcher} {s s1 : Solver} {q : Nat}
    {pre rest : List Watcher}
    (h : LoopInv (setWatches s p (pre ++ w :: rest)) p q pre (w :: rest))
    (ha : AuxInv (setWatches s p (pre ++ w :: rest)))
    (hk : watchStep p b w s = WStep.move s1) :
    AuxInv (setWatches s1 p (pre ++ rest)) := by
  obtain ⟨a, rs, he, hatt, hva, hvrs, hnil, hm, hma⟩ := h.swap_facts ha
  obtain ⟨k, -, -, -, hfw, hnp, rfl⟩ := watchStep_move hk
  rw [he] at hfw hnp ⊢
  simp only [List.drop_succ_cons, List.drop_zero, List.getD_cons_zero] at hfw ⊢
  obtain ⟨hk2, hklt, hkv⟩ := findWatch_some _ _ _ hfw
  rw [getD_cons_cons a (neg p) rs k hk2] at hnp ⊢
  rw [moveWatch_cons a (neg p) rs k hk2]
  have hcv : var (rs.getD (k - 2) 0) < nVars s := hvrs _ (getD_mem_of_lt hklt)
  refine hma.perm hm.tr ?_ rfl rfl rfl ?_ (fun l hl => hl) ?_ ?_ ?_ ?_
  · rw [propKey_setWatches, propKey_pushWatch, propKey_setLits, propKey_setLits,
      propKey_setLits, propKey_setWatches]
  · intro l hl
    obtain ⟨hlp, hw⟩ := hnil l hl
    have hlc : l ≠ neg (rs.getD (k - 2) 0) := by
      rintro rfl
      rw [var_neg] at hl
      exact absurd hcv (Nat.not_lt.mpr hl)
    simp only [setWatches, pushWatch, setLits, Function.update_noteq hlp,
      Function.update_noteq hlc]
    exact hw
  · intro cr
    rw [setWatches_ca, pushWatch_ca, setLits_mark, setLits_mark, setLits_mark]; rfl
  · intro cr
    rw [setWatches_ca, pushWatch_ca, setLits_reloced, setLits_reloced, setLits_reloced]; rfl
  · intro cr
    rw [setWatches_ca, pushWatch_ca]
    by_cases hc : cr = w.cref
    · subst hc
      rw [setLits_lits_self, setLits_lits_self]
      exact List.Perm.cons a (perm_getD_set hklt (neg p))
    · rw [setLits_cl_other _ _ hc, setLits_cl_other _ _ hc, setLits_cl_other _ _ hc]; rfl
  · intro cr _
    rw [setWatches_ca, pushWatch_ca]
    by_cases hc : cr = w.cref
    · subst hc
      unfold Clause.get
      rw [setLits_lits_self, setLits_lits_self]
      refine ⟨rfl, fun x => ?_⟩
      simp only [List.drop_succ_cons, List.drop_zero]
      exact (perm_getD_set hklt (neg p)).mem_iff
    · rw [setLits_cl_other _ _ hc, setLits_cl_other _ _ hc, setLits_cl_other _ _ hc]
      exact ⟨rfl, fun x => Iff.rfl⟩

theorem watchStep_conflict_aux {p : Lit} {b : Bool} {w w1 : Watcher} {s s1 : Solver} {q : Nat}
    {pre rest : List Watcher}
    (h : LoopInv (setWatches s p (pre ++ w :: rest)) p q pre (w :: rest))
    (ha : AuxInv (setWatches s p (pre ++ w :: rest)))
    (hk : watchStep p b w s = WStep.conflict w1 s1) :
    AuxInv (setWatches s1 p (pre ++ w1 :: rest)) := by
  obtain ⟨a, rs, he, hatt, hva, hvrs, hnil, hm, hma⟩ := h.swap_facts ha
  obtain ⟨-, -, -, -, rfl, rfl⟩ := watchStep_conflict hk
  rw [he]
  refine hma.perm hm.tr ?_ rfl rfl rfl ?_ (fun l hl => hl) (fun cr => rfl) (fun cr => rfl)
    (fun cr => List.Perm.refl _) (fun cr _ => ⟨rfl, fun x => Iff.rfl⟩)
  · rw [propKey_setWatches, propKey_setQhead, propKey_setLits, propKey_setLits,
      propKey_setWatches]
  · intro l hl
    obtain ⟨hlp, hw⟩ := hnil l hl
    show Function.update s.watches p _ l = []
    rw [Function.update_noteq hlp]; exact hw

/-- The watcher loop keeps the auxiliary invariants. -/
theorem propagateWatchers_aux {p : Lit} {b : Bool} {q : Nat} :
    ∀ (ws pre : List Watcher) (s : Solver),
      LoopInv (setWatches s p (pre ++ ws)) p q pre ws →
      AuxInv (setWatches s p (pre ++ ws)) →
      ∀ confl kept s', propagateWatchers p b ws s = some (confl, kept, s') →
        AuxInv (setWatches s' p (pre ++ kept)) := by
  intro ws
  induction ws with
  | nil =>
    intro pre s h ha confl kept s' hr
    cases hr
    exact ha
  | cons w rest ih =>
    intro pre s h ha confl kept s' hr
    unfold propagateWatchers at hr
    cases hstep : watchStep p b w s with
    | fail => rw [hstep] at hr; cases hr
    | keep w1 s1 =>
      rw [hstep] at hr
      dsimp only at hr
      have h1 := watchStep_keep_inv h hstep
      have a1 := watchStep_keep_aux h ha hstep
      have h1' : LoopInv (setWatches s1 p ((pre ++ [w1]) ++ rest)) p q (pre ++ [w1]) rest := by
        simpa using h1
      have a1' : AuxInv (setWatches s1 p ((pre ++ [w1]) ++ rest)) := by
        simpa using a1
      cases hrec : propagateWatchers p b rest s1 with
      | none => rw [hrec] at hr; cases hr
      | some r =>
        obtain ⟨c, kp, st⟩ := r
        rw [hrec] at hr
        cases hr
        have := ih (pre ++ [w1]) s1 h1' a1' c kp st hrec
        simpa using this
    | move s1 =>
      rw [hstep] at hr
      dsimp only at hr
      exact ih pre s1 (watchStep_move_inv h hstep) (watchStep_move_aux h ha hstep) _ _ _ hr
    | conflict w1 s1 =>
      rw [hstep] at hr
      dsimp only at hr
      cases hr
      exact watchStep_conflict_aux h ha hstep

end Minisat


namespace Minisat
open lbool

/-! ## `propagate` keeps the auxiliary invariants -/

theorem lookup_ca (s : Solver) (p : Lit) : (lookup s p).ca = s.ca := by
  unfold lookup; split_ifs <;> rfl

theorem lookup_dirty {s : Solver} {p l : Lit} (h : (lookup s p).dirty l = true) :
    s.dirty l = true := by
  unfold lookup at h
  split_ifs at h with hd
  · by_cases hl : l = p
    · rw [hl]; exact hd
    · have : Function.update s.dirty p false l = true := h
      rwa [Function.update_noteq hl] at this
  · exact h

theorem lookup_watches_nil {s : Solver} {p l : Lit} (h : s.watches l = []) :
    (lookup s p).watches l = [] := by
  unfold lookup
  split_ifs
  · by_cases hl : l = p
    · subst hl; rw [cleanWatch_watches_self, h]; rfl
    · rw [cleanWatch_watches_other s hl]; exact h
  · exact h

theorem AuxInv.lookup_ax {s : Solver} (ha : AuxInv s) (htr : TrailInv s) (p : Lit) :
    AuxInv (lookup s p) := by
  obtain ⟨f1, f2, f3, f4, f5, f6⟩ := lookup_fields s p
  refine ha.perm htr (propKey_lookup s p) f1 f3 f4
    (fun l hl => lookup_watches_nil (ha.vr.watches_nil l hl)) (fun l hl => lookup_dirty hl)
    (fun cr => by rw [lookup_ca]) (fun cr => by rw [lookup_ca])
    (fun cr => by rw [lookup_ca]) (fun cr _ => by rw [lookup_ca]; exact ⟨rfl, fun x => Iff.rfl⟩)

theorem propagateLit_aux {s : Solver} {p : Lit} {q : Nat} (htr : TrailInv s)
    (hwt : WatchInv s q) (ha : AuxInv s) (hp : s.trail.getD q 0 = p)
    (hq : q < s.trail.length) {confl : Option CRef} {s' : Solver}
    (hr : propagateLit p s = some (confl, s')) : AuxInv s' := by
  obtain ⟨f1, f2, f3, f4, f5, f6⟩ := lookup_fields s p
  have hinit := propagateLit_init htr hwt hp hq
  have hal := ha.lookup_ax htr p
  have hainit : AuxInv (setWatches (lookup s p) p ([] ++ (lookup s p).watches p)) := by
    refine hal.perm (htr.congr_tr f1 f2 f3 f4) (propKey_setWatches _ _ _) rfl rfl rfl ?_
      (fun l hl => hl) (fun cr => rfl) (fun cr => rfl) (fun cr => List.Perm.refl _)
      (fun cr _ => ⟨rfl, fun x => Iff.rfl⟩)
    intro l hl
    have := hal.vr.watches_nil l hl
    simp only [setWatches, List.nil_append, Function.update_eq_self]
    exact this
  unfold propagateLit at hr
  cases hw : propagateWatchers p
      (decide (decisionLevel s = 0) && decide (var p ∈ s.symmetry_units))
      ((lookup s p).watches p) (lookup s p) with
  | none => rw [hw] at hr; cases hr
  | some r =>
    obtain ⟨c, kept, st⟩ := r
    rw [hw] at hr
    cases hr
    have := propagateWatchers_aux _ [] (lookup s p) hinit hainit c kept st hw
    simpa using this

/-- The loop of `propagate` keeps the auxiliary invariants. -/
theorem propagateLoop_aux :
    ∀ (fuel : Nat) (s : Solver) (n : Nat) (r : Option CRef × Nat × Solver),
      TrailInv s → WatchInv s s.qhead → AuxInv s → propagateLoop fuel s none n = some r →
      AuxInv r.2.2 := by
  intro fuel
  induction fuel with
  | zero =>
    intro s n r htr hwt ha h
    by_cases hq : s.qhead < s.trail.length
    · rw [propagateLoop_zero hq] at h; cases h
    · rw [propagateLoop_done hq] at h; cases h; exact ha
  | succ fuel ih =>
    intro s n r htr hwt ha h
    by_cases hq : s.qhead < s.trail.length
    · rw [propagateLoop_step hq] at h
      have htr0 : TrailInv (setQhead s (s.qhead + 1)) := htr.congr_tr rfl rfl rfl rfl
      have hwt0 : WatchInv (setQhead s (s.qhead + 1)) s.qhead :=
        hwt.of_eq_wt rfl rfl rfl rfl rfl rfl rfl rfl rfl
      have ha0 : AuxInv (setQhead s (s.qhead + 1)) :=
        ha.perm htr (propKey_setQhead _ _) rfl rfl rfl (fun l hl => ha.vr.watches_nil l hl)
          (fun l hl => hl) (fun cr => rfl) (fun cr => rfl) (fun cr => List.Perm.refl _)
          (fun cr _ => ⟨rfl, fun x => Iff.rfl⟩)
      obtain ⟨confl, s1, hr, htr1, hnone, hsome⟩ :=
        propagateLit_inv (s := setQhead s (s.qhead + 1)) (p := s.trail.getD s.qhead 0)
          (q := s.qhead) htr0 hwt0 rfl hq
      have ha1 := propagateLit_aux htr0 hwt0 ha0 rfl hq hr
      rw [hr] at h
      cases confl with
      | none =>
        obtain ⟨hA, hB⟩ := hnone rfl
        simp only [ne_eq, not_true_eq_false, if_false] at h
        have hB' : s1.qhead = s.qhead + 1 := hB
        exact ih s1 (n + 1) r htr1 (hB' ▸ hA) ha1 h
      | some cr =>
        have hdone : ¬ (setQhead s1 s1.trail.length).qhead
            < (setQhead s1 s1.trail.length).trail.length := by
          show ¬ s1.trail.length < s1.trail.length
          omega
        simp only [propagateLoop_done hdone] at h
        cases h
        exact ha1.perm htr1 (propKey_setQhead _ _) rfl rfl rfl
          (fun l hl => ha1.vr.watches_nil l hl)
          (fun l hl => hl) (fun cr => rfl) (fun cr => rfl) (fun cr => List.Perm.refl _)
          (fun cr _ => ⟨rfl, fun x => Iff.rfl⟩)
    · rw [propagateLoop_done hq] at h; cases h; exact ha

theorem propagate_aux {fuel : Nat} {s : Solver} {r : Option CRef × Solver}
    (htr : TrailInv s) (hwt : WatchInv s s.qhead) (ha : AuxInv s)
    (h : propagate fuel s = some r) : AuxInv r.2 := by
  unfold propagate at h
  cases hl : propagateLoop fuel s none 0 with
  | none => rw [hl] at h; cases h
  | some r1 =>
    rw [hl] at h
    cases h
    have ha1 := propagateLoop_aux fuel s 0 r1 htr hwt ha hl
    have htr1 := (propagateLoop_inv fuel s 0 r1 htr hwt hl).1
    exact ha1.perm htr1 rfl rfl rfl rfl
      (fun l hl => ha1.vr.watches_nil l hl)
      (fun l hl => hl) (fun cr => rfl) (fun cr => rfl) (fun cr => List.Perm.refl _)
      (fun cr _ => ⟨rfl, fun x => Iff.rfl⟩)

end Minisat


namespace Minisat
open lbool

/-! ## The invariants hold initially and are kept by `newVar` -/

theorem Inv.init : Inv Solver.init := by
  refine ⟨?_, ?_, ?_⟩
  · constructor
    · intro l hl; cases hl
    · intro v hv; exact absurd rfl hv
    · exact List.nodup_nil
    · intro x hx; cases hx
    · exact List.sorted_nil
    · intro j hj; cases hj
    · intro j hj; cases hj
    · intro l hl; cases hl
  · constructor
    · exact Nat.le_refl _
    · intro x hx; cases hx
    · intro cr hcr; rcases hcr.1 with h | h <;> cases h
    · intro cr hcr; rcases hcr.1 with h | h <;> cases h
    · intro cr hcr; rcases hcr.1 with h | h <;> cases h
    · intro l w hw; cases hw
    · intro l w hw; cases hw
    · intro l; exact List.nodup_nil
    · intro cr hcr; rcases hcr with h | h <;> cases h
    · intro l w hw; cases hw
    · intro cr hcr; rcases hcr.1 with h | h <;> cases h
  · refine ⟨?_, ?_, ?_, ?_⟩
    · intro pre l post cr h
      have : (pre ++ l :: post).length = 0 := by rw [← h]; rfl
      simp at this
    · constructor
      · intro l hl; cases hl
      · intro cr hcr; rcases hcr.1 with h | h <;> cases h
      · intro l _; rfl
      · intro v hv; cases hv
      · rfl
      · rfl
      · intro l hl; cases hl
      · intro cr; rfl
      · intro v; rfl
    · intro l hl; cases hl
    · intro v hv; cases hv

theorem takeVar_of_free_nil {s : Solver} (h : s.free_vars = []) :
    takeVar s = (s.next_var, { s with next_var := s.next_var + 1 }) := by
  unfold takeVar; rw [h]; rfl

theorem insertVarOrder_fields (s : Solver) (x : Var) :
    (insertVarOrder s x).trail = s.trail ∧ (insertVarOrder s x).trail_lim = s.trail_lim ∧
    (insertVarOrder s x).assigns = s.assigns ∧ (insertVarOrder s x).vardata = s.vardata ∧
    (insertVarOrder s x).watches = s.watches ∧ (insertVarOrder s x).dirty = s.dirty ∧
    (insertVarOrder s x).dirties = s.dirties ∧ (insertVarOrder s x).clauses = s.clauses ∧
    (insertVarOrder s x).learnts = s.learnts ∧ (insertVarOrder s x).ca = s.ca ∧
    (insertVarOrder s x).qhead = s.qhead ∧ (insertVarOrder s x).seen = s.seen ∧
    (insertVarOrder s x).decision = s.decision ∧ (insertVarOrder s x).next_var = s.next_var ∧
    (insertVarOrder s x).free_vars = s.free_vars ∧
    (insertVarOrder s x).released_vars = s.released_vars ∧
    (insertVarOrder s x).assumptions = s.assumptions ∧ (insertVarOrder s x).ok = s.ok := by
  unfold insertVarOrder
  split_ifs
  · exact ⟨rfl, rfl, rfl, rfl, rfl, rfl, rfl, rfl, rfl, rfl, rfl, rfl, rfl, rfl, rfl, rfl, rfl,
      rfl⟩
  · exact ⟨rfl, rfl, rfl, rfl, rfl, rfl, rfl, rfl, rfl, rfl, rfl, rfl, rfl, rfl, rfl, rfl, rfl,
      rfl⟩

theorem insertVarOrder_heap (s : Solver) (x : Var) :
    (∀ v, v ∈ (insertVarOrder s x).order_heap ↔ v ∈ s.order_heap ∨
      (v = x ∧ s.decision x = true)) := by
  intro v
  unfold insertVarOrder
  split_ifs with h
  · show v ∈ s.order_heap ++ [x] ↔ _
    rw [List.mem_append, List.mem_singleton]
    constructor
    · rintro (h' | h')
      · exact Or.inl h'
      · exact Or.inr ⟨h', h.2⟩
    · rintro (h' | h')
      · exact Or.inl h'
      · exact Or.inr h'.1
  · constructor
    · intro h'; exact Or.inl h'
    · rintro (h' | ⟨rfl, hd⟩)
      · exact h'
      · by_contra hv
        exact h ⟨hv, hd⟩

/-- The fields of the state after `newVar` when no variable is free for reuse. -/
theorem newVar_fields {s : Solver} (hf : s.free_vars = []) (upol : lbool) (dvar : Bool) :
    (newVar s upol dvar).1 = s.next_var ∧
    (newVar s upol dvar).2.trail = s.trail ∧
    (newVar s upol dvar).2.trail_lim = s.trail_lim ∧
    (newVar s upol dvar).2.assigns = Function.update s.assigns s.next_var l_Undef ∧
    (newVar s upol dvar).2.vardata = Function.update s.vardata s.next_var (mkVarData none 0) ∧
    (newVar s upol dvar).2.watches = s.watches ∧ (newVar s upol dvar).2.dirty = s.dirty ∧
    (newVar s upol dvar).2.dirties = s.dirties ∧ (newVar s upol dvar).2.clauses = s.clauses ∧
    (newVar s upol dvar).2.learnts = s.learnts ∧ (newVar s upol dvar).2.ca = s.ca ∧
    (newVar s upol dvar).2.qhead = s.qhead ∧
    (newVar s upol dvar).2.seen = Function.update s.seen s.next_var 0 ∧
    (newVar s upol dvar).2.decision = Function.update s.decision s.next_var dvar ∧
    (newVar s upol dvar).2.next_var = s.next_var + 1 ∧
    (newVar s upol dvar).2.free_vars = [] ∧
    (newVar s upol dvar).2.released_vars = s.released_vars ∧
    (newVar s upol dvar).2.assumptions = s.assumptions ∧
    (newVar s upol dvar).2.ok = s.ok ∧
    (∀ v, v ∈ (newVar s upol dvar).2.order_heap ↔ v ∈ s.order_heap ∨
      (v = s.next_var ∧ dvar = true)) := by
  unfold newVar
  rw [takeVar_of_free_nil hf]
  dsimp only
  unfold setDecisionVar
  obtain ⟨a1, a2, a3, a4, a5, a6, a7, a8, a9, a10, a11, a12, a13, a14, a15, a16, a17, a18⟩ :=
    insertVarOrder_fields
      (setDecision (initVar { s with next_var := s.next_var + 1 } s.next_var upol)
        s.next_var dvar) s.next_var
  refine ⟨rfl, ?_, ?_, ?_, ?_, ?_, ?_, ?_, ?_, ?_, ?_, ?_, ?_, ?_, ?_, ?_, ?_, ?_, ?_, ?_⟩
  · rw [a1]; rfl
  · rw [a2]; rfl
  · rw [a3]; rfl
  · rw [a4]; rfl
  · rw [a5]; rfl
  · rw [a6]; rfl
  · rw [a7]; rfl
  · rw [a8]; rfl
  · rw [a9]; rfl
  · rw [a10]; rfl
  · rw [a11]; rfl
  · rw [a12]; rfl
  · rw [a13]; rfl
  · rw [a14]; rfl
  · rw [a15]; exact hf
  · rw [a16]; rfl
  · rw [a17]; rfl
  · rw [a18]; rfl
  · intro v
    rw [insertVarOrder_heap]
    have : (setDecision (initVar { s with next_var := s.next_var + 1 } s.next_var upol)
        s.next_var dvar).decision s.next_var = dvar := by
      simp only [setDecision, Function.update_same]
    rw [this]
    rfl

end Minisat


namespace Minisat
open lbool

/-- The invariants after the introduction of the fresh variable `next_var`. -/
theorem Inv.fresh_var {s t : Solver} (h : Inv s) (dvar : Bool)
    (h1 : t.trail = s.trail) (h2 : t.trail_lim = s.trail_lim)
    (h3 : t.assigns = Function.update s.assigns s.next_var l_Undef)
    (h4 : t.vardata = Function.update s.vardata s.next_var (mkVarData none 0))
    (h5 : t.watches = s.watches) (h6 : t.dirty = s.dirty) (h6' : t.dirties = s.dirties)
    (h7 : t.clauses = s.clauses) (h8 : t.learnts = s.learnts) (h9 : t.ca = s.ca)
    (h10 : t.qhead = s.qhead) (h11 : t.seen = Function.update s.seen s.next_var 0)
    (h12 : t.decision = Function.update s.decision s.next_var dvar)
    (h13 : t.next_var = s.next_var + 1) (h14 : t.free_vars = [])
    (h15 : t.released_vars = s.released_vars) (h16 : t.assumptions = s.assumptions)
    (h17 : ∀ v, v ∈ t.order_heap ↔ v ∈ s.order_heap ∨ (v = s.next_var ∧ dvar = true)) :
    Inv t := by
  have hat : ∀ cr, Attached t cr ↔ Attached s cr :=
    fun cr => Attached.congr_att h7 h8 (by rw [h9])
  have hnv : nVars t = nVars s + 1 := h13
  have hval : ∀ l, var l ≠ s.next_var → value t l = value s l := by
    intro l hl; unfold value; rw [h3, Function.update_noteq hl]
  have hlev : ∀ l, var l ≠ s.next_var → level t (var l) = level s (var l) := by
    intro l hl; unfold level; rw [h4, Function.update_noteq hl]
  have hrea : ∀ l, var l ≠ s.next_var → reason t (var l) = reason s (var l) := by
    intro l hl; unfold reason; rw [h4, Function.update_noteq hl]
  have htne : ∀ l ∈ s.trail, var l ≠ s.next_var :=
    fun l hl => Nat.ne_of_lt (h.ax.vr.trail_lt l hl)
  have hane : ∀ l, s.assigns (var l) ≠ l_Undef → var l ≠ s.next_var := by
    intro l hl
    obtain ⟨l', hl', e⟩ := h.tr.mem_of_assigned (var l) hl
    rw [← e]; exact htne l' hl'
  have hcne : ∀ cr, Attached s cr → ∀ l ∈ (s.ca.cl cr).lits, var l ≠ s.next_var :=
    fun cr hcr l hl => Nat.ne_of_lt (h.ax.vr.lits_lt cr hcr l hl)
  have hget : ∀ cr, Attached s cr → ∀ l, (s.ca.cl cr).watching l → l ∈ (s.ca.cl cr).lits := by
    intro cr hcr l hl
    have hsz := h.wt.size cr hcr
    unfold Clause.watching Clause.get at hl
    rcases hl with hl | hl
    · rw [← hl, List.getD_eq_getElem _ _ (by omega)]; exact List.getElem_mem _
    · rw [← hl, List.getD_eq_getElem _ _ (by omega)]; exact List.getElem_mem _
  refine ⟨?_, ?_, ⟨?_, ?_, ?_, ?_⟩⟩
  · constructor
    · intro l hl; rw [h1] at hl; rw [hval l (htne l hl)]; exact h.tr.true_of_mem l hl
    · intro v hv
      rw [h3] at hv
      by_cases e : v = s.next_var
      · rw [e, Function.update_same] at hv; exact absurd rfl hv
      · rw [Function.update_noteq e] at hv
        rw [h1]; exact h.tr.mem_of_assigned v hv
    · rw [h1]; exact h.tr.nodup
    · rw [h1, h2]; exact h.tr.lim_le
    · rw [h2]; exact h.tr.lim_sorted
    · intro j hj l hl
      rw [h1, h2] at hl; rw [h2] at hj
      rw [hlev l (htne l (List.mem_of_mem_take hl))]
      exact h.tr.level_take j hj l hl
    · intro j hj l hl
      rw [h1, h2] at hl; rw [h2] at hj
      rw [hlev l (htne l (List.mem_of_mem_drop hl))]
      exact h.tr.level_drop j hj l hl
    · intro l hl
      rw [h1] at hl
      rw [hlev l (htne l hl)]
      unfold decisionLevel; rw [h2]
      exact h.tr.level_le l hl
  · rw [h10]
    constructor
    · rw [h1]; exact h.wt.q_le
    · rw [h2]; exact h.wt.lim_le_q
    · intro cr hcr; rw [h9]; exact h.wt.size cr ((hat cr).mp hcr)
    · intro cr hcr; rw [h9]; exact h.wt.nodup cr ((hat cr).mp hcr)
    · intro cr hcr l hl
      rw [h9] at hl; rw [h5]; exact h.wt.watched cr ((hat cr).mp hcr) l hl
    · intro l w hw hmk
      rw [h5] at hw; rw [h9] at hmk ⊢
      obtain ⟨a, b, c⟩ := h.wt.watcher l w hw hmk
      refine ⟨?_, b, ?_⟩
      · unfold Listed at a ⊢; rw [h7, h8]; exact a
      · rcases c with c | ⟨c1, c2⟩
        · exact Or.inl c
        · right
          have hne := hane _ (value_false_ne_undef c1)
          rw [hval _ hne, hlev _ hne]; exact ⟨c1, c2⟩
    · intro l w hw hmk
      rw [h5] at hw; rw [h9] at hmk; rw [h6]
      exact h.wt.removed_dirty l w hw hmk
    · intro l; rw [h5]; exact h.wt.crefs_nodup l
    · intro cr hcr; rw [h9]; apply h.wt.listed_lt
      unfold Listed at hcr ⊢; rw [← h7, ← h8]; exact hcr
    · intro l w hw; rw [h9]; rw [h5] at hw; exact h.wt.watcher_lt l w hw
    · intro cr hcr l hl hf hmem
      have hcr' := (hat cr).mp hcr
      rw [h9] at hl ⊢
      rw [h1] at hmem
      have hlm := hget cr hcr' l hl
      rw [hval l (hcne cr hcr' l hlm)] at hf
      obtain ⟨x, hx, hxv, hxl⟩ := h.wt.propagated cr hcr' l hl hf hmem
      refine ⟨x, hx, ?_, ?_⟩
      · rw [hval x (hcne cr hcr' x hx)]; exact hxv
      · rw [hlev x (hcne cr hcr' x hx), hlev l (hcne cr hcr' l hlm)]; exact hxl
  · intro pre l post cr htr hre
    rw [h1] at htr
    have hl : l ∈ s.trail := by rw [htr]; simp
    rw [hrea l (htne l hl)] at hre
    obtain ⟨a, b, c⟩ := h.ax.rs pre l post cr htr hre
    rw [h9]
    exact ⟨(hat cr).mpr a, b, c⟩
  · constructor
    · intro l hl; rw [hnv]; rw [h1] at hl; exact Nat.lt_succ_of_lt (h.ax.vr.trail_lt l hl)
    · intro cr hcr l hl
      rw [hnv]; rw [h9] at hl
      exact Nat.lt_succ_of_lt (h.ax.vr.lits_lt cr ((hat cr).mp hcr) l hl)
    · intro l hl
      rw [hnv] at hl; rw [h5]
      exact h.ax.vr.watches_nil l (by omega)
    · intro v hv
      rw [hnv]
      rcases (h17 v).mp hv with hv | ⟨rfl, -⟩
      · exact Nat.lt_succ_of_lt (h.ax.vr.heap_lt v hv)
      · exact Nat.lt_succ_self _
    · exact h14
    · rw [h15]; exact h.ax.vr.released_nil
    · intro l hl; rw [h6']; rw [h6] at hl; exact h.ax.vr.dirties l hl
    · intro cr; rw [h9]; exact h.ax.vr.not_reloced cr
    · intro v
      rw [h11]
      by_cases e : v = s.next_var
      · rw [e, Function.update_same]
      · rw [Function.update_noteq e]; exact h.ax.vr.seen0 v
  · intro l hl hre j hlev' hj
    rw [h1] at hl
    rw [hrea l (htne l hl)] at hre
    rw [hlev l (htne l hl)] at hlev'
    rw [h16] at hj ⊢
    exact h.ax.asm l hl hre j hlev' hj
  · intro v hv hd hu
    rw [hnv] at hv
    rw [h17]
    by_cases e : v = s.next_var
    · right
      rw [h12, e, Function.update_same] at hd
      exact ⟨e, hd⟩
    · left
      rw [h12, Function.update_noteq e] at hd
      rw [h3, Function.update_noteq e] at hu
      have hv' : v < nVars s := by
        have : v < s.next_var + 1 := hv
        have e' : v ≠ s.next_var := e
        show v < s.next_var
        omega
      exact h.ax.hp v hv' hd hu

/-- `newVar` keeps the invariants. -/
theorem Inv.new_var {s : Solver} (h : Inv s) (upol : lbool) (dvar : Bool) :
    Inv (newVar s upol dvar).2 := by
  obtain ⟨-, a1, a2, a3, a4, a5, a6, a7, a8, a9, a10, a11, a12, a13, a14, a15, a16, a17, -, a19⟩
    := newVar_fields h.ax.vr.free_nil upol dvar
  exact h.fresh_var dvar a1 a2 a3 a4 a5 a6 a7 a8 a9 a10 a11 a12 a13 a14 a15 a16 a17 a19

end Minisat


namespace Minisat
open lbool

/-! ## Attaching a new clause -/

/-- The watch invariant after a clause `a :: b :: rest` was allocated at the end of the arena,
listed and attached. -/
theorem WatchInv.attach_wt {s t : Solver} {q : Nat} (h : WatchInv s q)
    {a b : Lit} {rest : List Lit} (hnd : (a :: b :: rest).Nodup)
    (h1 : t.trail = s.trail) (h2 : t.trail_lim = s.trail_lim) (h3 : t.assigns = s.assigns)
    (h4 : t.vardata = s.vardata) (h6 : t.dirty = s.dirty)
    (hlist : ∀ cr, Listed t cr ↔ Listed s cr ∨ cr = s.ca.size)
    (hsz : s.ca.size < t.ca.size)
    (hnew : (t.ca.cl s.ca.size).lits = a :: b :: rest ∧ (t.ca.cl s.ca.size).mark ≠ 1)
    (hold : ∀ cr, cr ≠ s.ca.size → t.ca.cl cr = s.ca.cl cr)
    (hw0 : t.watches (neg a) = s.watches (neg a) ++ [⟨s.ca.size, b⟩])
    (hw1 : t.watches (neg b) = s.watches (neg b) ++ [⟨s.ca.size, a⟩])
    (hwo : ∀ l, l ≠ neg a → l ≠ neg b → t.watches l = s.watches l)
    (hprop : ∀ l, l = a ∨ l = b → value s l = l_False → neg l ∈ s.trail.take q →
      ∃ x ∈ a :: b :: rest, value s x = l_True ∧ level s (var x) ≤ level s (var l)) :
    WatchInv t q := by
  have hv : ∀ l, value t l = value s l := value_congr h3
  have hlv : ∀ x, level t x = level s x := level_congr h4
  have hab : a ≠ b := by
    intro e; subst e; simp at hnd
  have hnab : neg a ≠ neg b := fun e => hab (neg_inj e)
  have hatt_old : ∀ cr, cr ≠ s.ca.size → (Attached t cr ↔ Attached s cr) := by
    intro cr hcr
    unfold Attached
    rw [hlist, hold cr hcr]
    constructor
    · rintro ⟨h' | h', hm⟩
      · exact ⟨h', hm⟩
      · exact absurd h' hcr
    · rintro ⟨h', hm⟩; exact ⟨Or.inl h', hm⟩
  have hwn : (t.ca.cl s.ca.size).watching = fun l => a = l ∨ b = l := by
    funext l; unfold Clause.watching Clause.get; rw [hnew.1]; rfl
  -- the watchers of `t`
  have hW : ∀ l, ∀ x ∈ t.watches l,
      (x.cref = s.ca.size ∧ ((l = neg a ∧ x.blocker = b) ∨ (l = neg b ∧ x.blocker = a))) ∨
      x ∈ s.watches l := by
    intro l x hx
    by_cases hl0 : l = neg a
    · subst hl0
      rw [hw0, List.mem_append, List.mem_singleton] at hx
      rcases hx with hx | rfl
      · exact Or.inr hx
      · exact Or.inl ⟨rfl, Or.inl ⟨rfl, rfl⟩⟩
    · by_cases hl1 : l = neg b
      · subst hl1
        rw [hw1, List.mem_append, List.mem_singleton] at hx
        rcases hx with hx | rfl
        · exact Or.inr hx
        · exact Or.inl ⟨rfl, Or.inr ⟨rfl, rfl⟩⟩
      · rw [hwo l hl0 hl1] at hx; exact Or.inr hx
  have hWs : ∀ l, ∀ x ∈ s.watches l, x ∈ t.watches l := by
    intro l x hx
    by_cases hl0 : l = neg a
    · subst hl0; rw [hw0]; exact List.mem_append_left _ hx
    · by_cases hl1 : l = neg b
      · subst hl1; rw [hw1]; exact List.mem_append_left _ hx
      · rw [hwo l hl0 hl1]; exact hx
  have hfresh : ∀ l, ∀ x ∈ s.watches l, x.cref ≠ s.ca.size :=
    fun l x hx => Nat.ne_of_lt (h.watcher_lt l x hx)
  constructor
  · rw [h1]; exact h.q_le
  · rw [h2]; exact h.lim_le_q
  · intro cr hcr
    by_cases e : cr = s.ca.size
    · rw [e, hnew.1]; simp
    · rw [hold cr e]; exact h.size cr ((hatt_old cr e).mp hcr)
  · intro cr hcr
    by_cases e : cr = s.ca.size
    · rw [e, hnew.1]; exact hnd
    · rw [hold cr e]; exact h.nodup cr ((hatt_old cr e).mp hcr)
  · intro cr hcr l hl
    by_cases e : cr = s.ca.size
    · subst e
      rw [hwn] at hl
      rcases hl with rfl | rfl
      · rw [hw0]; exact ⟨⟨s.ca.size, b⟩, by simp, rfl⟩
      · rw [hw1]; exact ⟨⟨s.ca.size, a⟩, by simp, rfl⟩
    · rw [hold cr e] at hl
      obtain ⟨x, hx, hxc⟩ := h.watched cr ((hatt_old cr e).mp hcr) l hl
      exact ⟨x, hWs _ x hx, hxc⟩
  · intro l x hx hmk
    rcases hW l x hx with ⟨hc, hcase⟩ | hx'
    · rw [hc]
      refine ⟨(hlist _).mpr (Or.inr rfl), ?_, Or.inl ?_⟩
      · rw [hwn]
        rcases hcase with ⟨rfl, -⟩ | ⟨rfl, -⟩
        · rw [neg_neg]; exact Or.inl rfl
        · rw [neg_neg]; exact Or.inr rfl
      · rw [hnew.1]
        rcases hcase with ⟨-, e⟩ | ⟨-, e⟩ <;> rw [e] <;> simp
    · have hne := hfresh l x hx'
      rw [hold _ hne] at hmk ⊢
      obtain ⟨c1, c2, c3⟩ := h.watcher l x hx' hmk
      exact ⟨(hlist _).mpr (Or.inl c1), c2, by rw [hv, hlv]; exact c3⟩
  · intro l x hx hmk
    rw [h6]
    rcases hW l x hx with ⟨hc, -⟩ | hx'
    · rw [hc] at hmk; exact absurd hmk hnew.2
    · rw [hold _ (hfresh l x hx')] at hmk
      exact h.removed_dirty l x hx' hmk
  · intro l
    have hno : s.ca.size ∉ (s.watches l).map Watcher.cref := by
      intro hm
      obtain ⟨x, hx, e⟩ := List.mem_map.mp hm
      exact hfresh l x hx e
    by_cases hl0 : l = neg a
    · subst hl0
      rw [hw0, List.map_append, List.nodup_append]
      refine ⟨h.crefs_nodup _, by simp, ?_⟩
      intro y hy hy'
      simp only [List.map_cons, List.map_nil, List.mem_singleton] at hy'
      exact hno (hy' ▸ hy)
    · by_cases hl1 : l = neg b
      · subst hl1
        rw [hw1, List.map_append, List.nodup_append]
        refine ⟨h.crefs_nodup _, by simp, ?_⟩
        intro y hy hy'
        simp only [List.map_cons, List.map_nil, List.mem_singleton] at hy'
        exact hno (hy' ▸ hy)
      · rw [hwo l hl0 hl1]; exact h.crefs_nodup l
  · intro cr hcr
    rcases (hlist cr).mp hcr with h' | rfl
    · exact Nat.lt_trans (h.listed_lt cr h') hsz
    · exact hsz
  · intro l x hx
    rcases hW l x hx with ⟨hc, -⟩ | hx'
    · rw [hc]; exact hsz
    · exact Nat.lt_trans (h.watcher_lt l x hx') hsz
  · intro cr hcr l hl hf hmem
    rw [hv] at hf; rw [h1] at hmem
    by_cases e : cr = s.ca.size
    · subst e
      rw [hwn] at hl
      obtain ⟨x, hx, hxv, hxl⟩ := hprop l (by rcases hl with e | e <;> simp [e]) hf hmem
      exact ⟨x, by rw [hnew.1]; exact hx, by rw [hv]; exact hxv, by rw [hlv, hlv]; exact hxl⟩
    · rw [hold cr e] at hl ⊢
      obtain ⟨x, hx, hxv, hxl⟩ := h.propagated cr ((hatt_old cr e).mp hcr) l hl hf hmem
      exact ⟨x, hx, by rw [hv]; exact hxv, by rw [hlv, hlv]; exact hxl⟩

/-- The auxiliary invariants after a clause was allocated at the end of the arena, listed and
attached. -/
theorem AuxInv.attach_ax {s t : Solver} (h : AuxInv s) (hlt : ∀ cr, Listed s cr → cr < s.ca.size)
    {a b : Lit} {rest : List Lit} (hvar : ∀ l ∈ a :: b :: rest, var l < nVars s)
    (hf : Frame s t)
    (hlist : ∀ cr, Listed t cr ↔ Listed s cr ∨ cr = s.ca.size)
    (hnew : (t.ca.cl s.ca.size).lits = a :: b :: rest ∧ (t.ca.cl s.ca.size).mark ≠ 1 ∧
      (t.ca.cl s.ca.size).reloced = false)
    (hold : ∀ cr, cr ≠ s.ca.size → t.ca.cl cr = s.ca.cl cr)
    (hwo : ∀ l, l ≠ neg a → l ≠ neg b → t.watches l = s.watches l) :
    AuxInv t := by
  have hnv : nVars t = nVars s := hf.next_var
  have hatt_old : ∀ cr, cr ≠ s.ca.size → (Attached t cr ↔ Attached s cr) := by
    intro cr hcr
    unfold Attached
    rw [hlist, hold cr hcr]
    constructor
    · rintro ⟨h' | h', hm⟩
      · exact ⟨h', hm⟩
      · exact absurd h' hcr
    · rintro ⟨h', hm⟩; exact ⟨Or.inl h', hm⟩
  refine ⟨?_, ?_, ?_, ?_⟩
  · intro pre l post cr htr hre
    rw [hf.trail] at htr
    rw [reason_congr hf.vardata] at hre
    obtain ⟨c1, c2, c3⟩ := h.rs pre l post cr htr hre
    have hne : cr ≠ s.ca.size := Nat.ne_of_lt (hlt cr c1.1)
    rw [hold cr hne]
    exact ⟨(hatt_old cr hne).mpr c1, c2, c3⟩
  · constructor
    · intro l hl; rw [hnv]; rw [hf.trail] at hl; exact h.vr.trail_lt l hl
    · intro cr hcr l hl
      rw [hnv]
      by_cases e : cr = s.ca.size
      · rw [e, hnew.1] at hl; exact hvar l hl
      · rw [hold cr e] at hl; exact h.vr.lits_lt cr ((hatt_old cr e).mp hcr) l hl
    · intro l hl
      rw [hnv] at hl
      have h0 : l ≠ neg a := by
        rintro rfl
        rw [var_neg] at hl
        exact absurd (hvar a (by simp)) (Nat.not_lt.mpr hl)
      have h1 : l ≠ neg b := by
        rintro rfl
        rw [var_neg] at hl
        exact absurd (hvar b (by simp)) (Nat.not_lt.mpr hl)
      rw [hwo l h0 h1]; exact h.vr.watches_nil l hl
    · intro v hv; rw [hnv]; rw [hf.order_heap] at hv; exact h.vr.heap_lt v hv
    · rw [hf.free_vars]; exact h.vr.free_nil
    · rw [hf.released_vars]; exact h.vr.released_nil
    · intro l hl; rw [hf.dirties]; rw [hf.dirty] at hl; exact h.vr.dirties l hl
    · intro cr
      by_cases e : cr = s.ca.size
      · rw [e]; exact hnew.2.2
      · rw [hold cr e]; exact h.vr.not_reloced cr
    · intro v; rw [hf.seen]; exact h.vr.seen0 v
  · intro l hl hre j hlev hj
    rw [hf.trail] at hl; rw [reason_congr hf.vardata] at hre
    rw [level_congr hf.vardata] at hlev; rw [hf.assumptions] at hj ⊢
    exact h.asm l hl hre j hlev hj
  · intro v hv hd hu
    rw [hnv] at hv; rw [hf.decision] at hd; rw [hf.assigns] at hu; rw [hf.order_heap]
    exact h.hp v hv hd hu

theorem Frame.refl (s : Solver) : Frame s s :=
  ⟨rfl, rfl, rfl, rfl, rfl, rfl, rfl, rfl, rfl, rfl, rfl, rfl, rfl, rfl, rfl⟩

theorem Frame.trans {s t u : Solver} (h1 : Frame s t) (h2 : Frame t u) : Frame s u :=
  ⟨h2.trail.trans h1.trail, h2.trail_lim.trans h1.trail_lim, h2.assigns.trans h1.assigns,
   h2.vardata.trans h1.vardata, h2.dirty.trans h1.dirty, h2.dirties.trans h1.dirties,
   h2.order_heap.trans h1.order_heap, h2.free_vars.trans h1.free_vars,
   h2.released_vars.trans h1.released_vars, h2.seen.trans h1.seen,
   h2.assumptions.trans h1.assumptions, h2.decision.trans h1.decision,
   h2.next_var.trans h1.next_var, h2.qhead.trans h1.qhead, h2.ok.trans h1.ok⟩

theorem Frame.countAttach (s : Solver) (c : Clause) : Frame s (countAttach s c) := by
  unfold Minisat.countAttach
  split_ifs
  · exact ⟨rfl, rfl, rfl, rfl, rfl, rfl, rfl, rfl, rfl, rfl, rfl, rfl, rfl, rfl, rfl⟩
  · exact ⟨rfl, rfl, rfl, rfl, rfl, rfl, rfl, rfl, rfl, rfl, rfl, rfl, rfl, rfl, rfl⟩

theorem Frame.pushWatch (s : Solver) (l : Lit) (w : Watcher) : Frame s (pushWatch s l w) :=
  ⟨rfl, rfl, rfl, rfl, rfl, rfl, rfl, rfl, rfl, rfl, rfl, rfl, rfl, rfl, rfl⟩

/-- The state after `attachClause` for a clause `a :: b :: rest` with `a ≠ b`. -/
theorem attachClause_facts {s t : Solver} {cr : CRef} {a b : Lit} {rest : List Lit}
    (hL : (s.ca.cl cr).lits = a :: b :: rest) (hab : a ≠ b)
    (h : attachClause s cr = some t) :
    Frame s t ∧ t.ca = s.ca ∧ t.clauses = s.clauses ∧ t.learnts = s.learnts ∧
    t.watches (neg a) = s.watches (neg a) ++ [⟨cr, b⟩] ∧
    t.watches (neg b) = s.watches (neg b) ++ [⟨cr, a⟩] ∧
    (∀ l, l ≠ neg a → l ≠ neg b → t.watches l = s.watches l) := by
  obtain ⟨-, rfl⟩ := attachClause_eq h
  have h0 : (s.ca.cl cr).get 0 = a := by unfold Clause.get; rw [hL]; rfl
  have h1 : (s.ca.cl cr).get 1 = b := by unfold Clause.get; rw [hL]; rfl
  rw [h0, h1]
  have hnab : neg a ≠ neg b := fun e => hab (neg_inj e)
  refine ⟨((Frame.pushWatch _ _ _).trans (Frame.pushWatch _ _ _)).trans
    (Frame.countAttach _ _), ?_, ?_, ?_, ?_, ?_, ?_⟩
  · rw [countAttach_ca]; rfl
  · rw [countAttach_clauses]; rfl
  · rw [countAttach_learnts]; rfl
  · rw [countAttach_watches]
    simp only [pushWatch, Function.update_noteq hnab, Function.update_same]
  · rw [countAttach_watches]
    simp only [pushWatch, Function.update_noteq hnab.symm, Function.update_same]
  · intro l hl0 hl1
    rw [countAttach_watches]
    simp only [pushWatch, Function.update_noteq hl0, Function.update_noteq hl1]

end Minisat


namespace Minisat
open lbool

/-! ## `addClause_` keeps the invariants -/

theorem Inv.of_frame {s t : Solver} (h : Inv s) (hf : Frame s t) (h5 : t.watches = s.watches)
    (h7 : t.clauses = s.clauses) (h8 : t.learnts = s.learnts) (h9 : t.ca = s.ca) : Inv t := by
  refine ⟨h.tr.congr_tr hf.trail hf.trail_lim hf.assigns hf.vardata, ?_, ?_⟩
  · rw [hf.qhead]
    exact h.wt.of_eq_wt hf.trail hf.trail_lim hf.assigns hf.vardata h5 hf.dirty h7 h8 h9
  · have hat : ∀ cr, Attached t cr ↔ Attached s cr :=
      fun cr => Attached.congr_att h7 h8 (by rw [h9])
    have hnv : nVars t = nVars s := hf.next_var
    refine ⟨?_, ?_, ?_, ?_⟩
    · intro pre l post cr htr hre
      rw [hf.trail] at htr
      rw [reason_congr hf.vardata] at hre
      rw [h9]
      obtain ⟨c1, c2, c3⟩ := h.ax.rs pre l post cr htr hre
      exact ⟨(hat cr).mpr c1, c2, c3⟩
    · constructor
      · intro l hl; rw [hnv]; rw [hf.trail] at hl; exact h.ax.vr.trail_lt l hl
      · intro cr hcr l hl
        rw [hnv]; rw [h9] at hl; exact h.ax.vr.lits_lt cr ((hat cr).mp hcr) l hl
      · intro l hl; rw [hnv] at hl; rw [h5]; exact h.ax.vr.watches_nil l hl
      · intro v hv; rw [hnv]; rw [hf.order_heap] at hv; exact h.ax.vr.heap_lt v hv
      · rw [hf.free_vars]; exact h.ax.vr.free_nil
      · rw [hf.released_vars]; exact h.ax.vr.released_nil
      · intro l hl; rw [hf.dirties]; rw [hf.dirty] at hl; exact h.ax.vr.dirties l hl
      · intro cr; rw [h9]; exact h.ax.vr.not_reloced cr
      · intro v; rw [hf.seen]; exact h.ax.vr.seen0 v
    · intro l hl hre j hlev hj
      rw [hf.trail] at hl; rw [reason_congr hf.vardata] at hre
      rw [level_congr hf.vardata] at hlev; rw [hf.assumptions] at hj ⊢
      exact h.ax.asm l hl hre j hlev hj
    · intro v hv hd hu
      rw [hnv] at hv; rw [hf.decision] at hd; rw [hf.assigns] at hu; rw [hf.order_heap]
      exact h.ax.hp v hv hd hu

/-- The invariants after an enqueue without reason at decision level 0, or of a decision
that is the assumption of its level. -/
theorem Inv.enqueue_none {s t : Solver} (h : Inv s) {x : Lit} (hx : var x < nVars s)
    (has : ∀ j, decisionLevel s = j + 1 → j < s.assumptions.length →
      x = s.assumptions.getD j 0)
    (he : uncheckedEnqueue s x none = some t) : Inv t := by
  obtain ⟨hu, e1, e3, e4, ek⟩ := uncheckedEnqueue_spec he
  refine ⟨h.tr.enqueue_tr hu e1 (enqKey_trail_lim ek) e3 e4, ?_, ?_⟩
  · rw [enqKey_qhead ek]
    exact h.wt.enqueue_wt h.tr hu e1 (enqKey_trail_lim ek) e3 e4 (enqKey_watches ek)
      (enqKey_dirty ek) (enqKey_clauses ek) (enqKey_learnts ek) (enqKey_ca ek)
  · refine h.ax.enqueue_ax h.tr hu (propKey_uncheckedEnqueue he) e1 e3 e4 ?_ ?_ ?_ hx ?_
      (fun _ => has)
    · intro l hl; rw [enqKey_watches ek]; exact h.ax.vr.watches_nil l hl
    · intro l hl; rw [enqKey_dirty ek] at hl; exact hl
    · rw [enqKey_ca ek]
    · intro cr hcr; cases hcr

theorem Frame.setOk_irrel (s : Solver) (b : Bool) (h : s.ok = b) : Frame s (setOk s b) :=
  ⟨rfl, rfl, rfl, rfl, rfl, rfl, rfl, rfl, rfl, rfl, rfl, rfl, rfl, rfl, h.symm⟩

theorem sorted_lt_nodup {L : List Nat} (h : L.Sorted (fun a b => a < b)) : L.Nodup := by
  induction L with
  | nil => exact List.nodup_nil
  | cons x xs ih =>
    rw [List.nodup_cons]
    refine ⟨fun hx => ?_, ih h.of_cons⟩
    exact Nat.lt_irrefl x (List.rel_of_sorted_cons h x hx)

/-- The invariants after the allocation, listing and attachment of a new original clause
whose first two literals are not false. -/
theorem Inv.store {s t : Solver} (h : Inv s) {a b : Lit} {rest : List Lit}
    (hnd : (a :: b :: rest).Nodup) (hvar : ∀ l ∈ a :: b :: rest, var l < nVars s)
    (ha : value s a ≠ l_False) (hb : value s b ≠ l_False)
    (ht : attachClause
      (pushClause (setCa s (s.ca.alloc (a :: b :: rest) false false false none).2)
        (s.ca.alloc (a :: b :: rest) false false false none).1)
      (s.ca.alloc (a :: b :: rest) false false false none).1 = some t) :
    Inv t := by
  have hab : a ≠ b := by
    intro e; subst e; simp at hnd
  have hL : ((pushClause (setCa s (s.ca.alloc (a :: b :: rest) false false false none).2)
      (s.ca.alloc (a :: b :: rest) false false false none).1).ca.cl s.ca.size).lits
      = a :: b :: rest := by
    simp only [pushClause, setCa, ClauseAllocator.alloc, Function.update_same]
  obtain ⟨hf, hca, hcl, hle, hw0, hw1, hwo⟩ :=
    attachClause_facts hL hab ht
  have hf0 : Frame s (pushClause (setCa s (s.ca.alloc (a :: b :: rest) false false false none).2)
      (s.ca.alloc (a :: b :: rest) false false false none).1) :=
    ⟨rfl, rfl, rfl, rfl, rfl, rfl, rfl, rfl, rfl, rfl, rfl, rfl, rfl, rfl, rfl⟩
  have hf' : Frame s t := hf0.trans hf
  have hlist : ∀ cr, Listed t cr ↔ Listed s cr ∨ cr = s.ca.size := by
    intro cr
    unfold Listed
    rw [hcl, hle]
    show cr ∈ s.clauses ++ [s.ca.size] ∨ cr ∈ s.learnts ↔ _
    rw [List.mem_append, List.mem_singleton]
    tauto
  have hnewcl : t.ca.cl s.ca.size =
      { lits := a :: b :: rest, learnt := false, fsymmetry := false, symmetry := false,
        scompat := none, activity := 0, mark := 0, reloced := false, relocation := 0 } := by
    rw [hca]
    simp only [pushClause, setCa, ClauseAllocator.alloc, Function.update_same]
  have hold : ∀ cr, cr ≠ s.ca.size → t.ca.cl cr = s.ca.cl cr := by
    intro cr hcr
    rw [hca]
    simp only [pushClause, setCa, ClauseAllocator.alloc, Function.update_noteq hcr]
  have hsz : s.ca.size < t.ca.size := by
    rw [hca]
    simp only [pushClause, setCa, ClauseAllocator.alloc, clauseWord32Size]
    omega
  refine ⟨h.tr.congr_tr hf'.trail hf'.trail_lim hf'.assigns hf'.vardata, ?_, ?_⟩
  · rw [hf'.qhead]
    refine h.wt.attach_wt hnd hf'.trail hf'.trail_lim hf'.assigns hf'.vardata hf'.dirty hlist hsz
      ⟨by rw [hnewcl], by rw [hnewcl]; exact Nat.zero_ne_one⟩ hold hw0 hw1 hwo ?_
    intro l hl hlf
    rcases hl with rfl | rfl
    · exact absurd hlf ha
    · exact absurd hlf hb
  · exact h.ax.attach_ax h.wt.listed_lt hvar hf' hlist
      ⟨by rw [hnewcl], by rw [hnewcl]; exact Nat.zero_ne_one, by rw [hnewcl]⟩ hold hwo

/-- `addClause_` keeps the invariants when it returns true. -/
theorem Inv.addClause {fuel : Nat} {s s' : Solver} {ps : List Lit} {b : Bool} (h : Inv s)
    (hv : ∀ l ∈ ps, var l < nVars s) (hr : addClause_ fuel s ps = some (b, s')) :
    b = true → Inv s' := by
  intro hb
  unfold addClause_ at hr
  by_cases h0 : decisionLevel s ≠ 0
  · rw [if_pos h0] at hr; cases hr
  rw [if_neg h0] at hr
  have h0' : decisionLevel s = 0 := not_not.mp h0
  by_cases hok : s.ok = false
  · rw [if_pos hok] at hr; cases hr; cases hb
  rw [if_neg hok] at hr
  cases hL : addClauseLoop s (sortLits ps) none with
  | none => rw [hL] at hr; cases hr; exact h
  | some L =>
    rw [hL] at hr
    obtain ⟨hsorted, hmem, -⟩ := addClauseLoop_spec s (sortLits ps) none L (sortLits_sorted ps)
      (fun p0 hp0 => by cases hp0) hL
    have hLv : ∀ l ∈ L, var l < nVars s :=
      fun l hl => hv l (mem_sortLits.mp ((hmem l).mp hl).1)
    have hLf : ∀ l ∈ L, value s l ≠ l_False := fun l hl => ((hmem l).mp hl).2.1
    match L, hr, hsorted, hLv, hLf with
    | [], hr, _, _, _ => cases hr; cases hb
    | [l], hr, _, hLv, _ =>
      dsimp only at hr
      cases he : uncheckedEnqueue s l none with
      | none => rw [he] at hr; cases hr
      | some s1 =>
        rw [he] at hr
        dsimp only at hr
        have h1 : Inv s1 := h.enqueue_none (hLv l (by simp))
          (fun j hj => by rw [h0'] at hj; cases hj) he
        cases hp : propagate fuel s1 with
        | none => rw [hp] at hr; cases hr
        | some r =>
          rw [hp] at hr
          cases hr
          have hrn : r.1 = none := by simpa using hb
          obtain ⟨hA, hB, hC, -⟩ := propagate_inv h1.tr h1.wt hp
          have hD := propagate_aux h1.tr h1.wt h1.ax hp
          have hI : Inv r.2 := ⟨hA, hC hrn, hD⟩
          refine hI.of_frame ?_ rfl rfl rfl rfl
          refine Frame.setOk_irrel _ _ ?_
          rw [propKey_ok (propKey_propagate hp), enqKey_ok (uncheckedEnqueue_spec he).2.2.2.2]
          simp [hrn]
          simpa using hok
    | a :: c :: rest, hr, hsorted, hLv, hLf =>
      dsimp only at hr
      cases ht : attachClause
          (pushClause (setCa s (s.ca.alloc (a :: c :: rest) false false false none).2)
            (s.ca.alloc (a :: c :: rest) false false false none).1)
          (s.ca.alloc (a :: c :: rest) false false false none).1 with
      | none => rw [ht] at hr; cases hr
      | some t =>
        rw [ht] at hr
        cases hr
        exact h.store (sorted_lt_nodup hsorted) hLv (hLf a (by simp)) (hLf c (by simp)) ht

end Minisat


namespace Minisat
open lbool

/-! ## Decisions -/

/-- The auxiliary invariants only read the members listed here. -/
theorem AuxInv.of_eq_ax {s t : Solver} (h : AuxInv s) (h1 : t.trail = s.trail)
    (h3 : t.assigns = s.assigns) (h4 : t.vardata = s.vardata) (h5 : t.watches = s.watches)
    (h6 : t.dirty = s.dirty) (h6' : t.dirties = s.dirties)
    (h7 : t.clauses = s.clauses) (h8 : t.learnts = s.learnts) (h9 : t.ca = s.ca)
    (k1 : t.order_heap = s.order_heap) (k2 : t.free_vars = s.free_vars)
    (k3 : t.released_vars = s.released_vars) (k4 : t.seen = s.seen)
    (k5 : t.assumptions = s.assumptions) (k6 : t.decision = s.decision)
    (k7 : t.next_var = s.next_var) : AuxInv t := by
  have hat : ∀ cr, Attached t cr ↔ Attached s cr :=
    fun cr => Attached.congr_att h7 h8 (by rw [h9])
  have hnv : nVars t = nVars s := k7
  refine ⟨?_, ?_, ?_, ?_⟩
  · intro pre l post cr htr hre
    rw [h1] at htr
    rw [reason_congr h4] at hre
    rw [h9]
    obtain ⟨c1, c2, c3⟩ := h.rs pre l post cr htr hre
    exact ⟨(hat cr).mpr c1, c2, c3⟩
  · constructor
    · intro l hl; rw [hnv]; rw [h1] at hl; exact h.vr.trail_lt l hl
    · intro cr hcr l hl
      rw [hnv]; rw [h9] at hl; exact h.vr.lits_lt cr ((hat cr).mp hcr) l hl
    · intro l hl; rw [hnv] at hl; rw [h5]; exact h.vr.watches_nil l hl
    · intro v hv; rw [hnv]; rw [k1] at hv; exact h.vr.heap_lt v hv
    · rw [k2]; exact h.vr.free_nil
    · rw [k3]; exact h.vr.released_nil
    · intro l hl; rw [h6']; rw [h6] at hl; exact h.vr.dirties l hl
    · intro cr; rw [h9]; exact h.vr.not_reloced cr
    · intro v; rw [k4]; exact h.vr.seen0 v
  · intro l hl hre j hlev hj
    rw [h1] at hl; rw [reason_congr h4] at hre
    rw [level_congr h4] at hlev; rw [k5] at hj ⊢
    exact h.asm l hl hre j hlev hj
  · intro v hv hd hu
    rw [hnv] at hv; rw [k6] at hd; rw [h3] at hu; rw [k1]
    exact h.hp v hv hd hu

theorem getD_append_left {α : Type} (l l' : List α) (d : α) {j : Nat} (hj : j < l.length) :
    (l ++ l').getD j d = l.getD j d := by
  rw [List.getD_eq_getElem _ _ hj, List.getD_eq_getElem _ _ (by simp; omega),
    List.getElem_append_left hj]

theorem getD_append_length {α : Type} (l : List α) (x d : α) :
    (l ++ [x]).getD l.length d = x := by
  rw [List.getD_eq_getElem _ _ (by simp)]
  simp

/-- A new decision level, opened when the whole trail is propagated, keeps the invariants. -/
theorem Inv.new_level {s : Solver} (h : Inv s) (hq : s.qhead = s.trail.length) :
    Inv (newDecisionLevel s) := by
  refine ⟨?_, ?_, ?_⟩
  · constructor
    · exact h.tr.true_of_mem
    · exact h.tr.mem_of_assigned
    · exact h.tr.nodup
    · intro x hx
      have hx' : x ∈ s.trail_lim ++ [s.trail.length] := hx
      rw [List.mem_append, List.mem_singleton] at hx'
      rcases hx' with hx' | rfl
      · exact h.tr.lim_le x hx'
      · exact Nat.le_refl _
    · show (s.trail_lim ++ [s.trail.length]).Sorted _
      rw [List.Sorted, List.pairwise_append]
      refine ⟨h.tr.lim_sorted, List.pairwise_singleton _ _, ?_⟩
      intro a ha b hb
      rw [List.mem_singleton] at hb
      rw [hb]; exact h.tr.lim_le a ha
    · intro j hj l hl
      have hj' : j < (s.trail_lim ++ [s.trail.length]).length := hj
      rw [List.length_append, List.length_singleton] at hj'
      have hl' : l ∈ s.trail.take ((s.trail_lim ++ [s.trail.length]).getD j 0) := hl
      by_cases hjl : j < s.trail_lim.length
      · rw [getD_append_left _ _ _ hjl] at hl'
        exact h.tr.level_take j hjl l hl'
      · have e : j = s.trail_lim.length := by omega
        rw [e]
        exact h.tr.level_le l (List.mem_of_mem_take hl')
    · intro j hj l hl
      have hj' : j < (s.trail_lim ++ [s.trail.length]).length := hj
      rw [List.length_append, List.length_singleton] at hj'
      have hl' : l ∈ s.trail.drop ((s.trail_lim ++ [s.trail.length]).getD j 0) := hl
      by_cases hjl : j < s.trail_lim.length
      · rw [getD_append_left _ _ _ hjl] at hl'
        exact h.tr.level_drop j hjl l hl'
      · have e : j = s.trail_lim.length := by omega
        rw [e, getD_append_length, List.drop_length] at hl'
        cases hl'
    · intro l hl
      have := h.tr.level_le l hl
      show level s (var l) ≤ (s.trail_lim ++ [s.trail.length]).length
      rw [List.length_append, List.length_singleton]
      unfold decisionLevel at this
      omega
  · have hwt := h.wt
    refine ⟨hwt.q_le, ?_, hwt.size, hwt.nodup, hwt.watched, hwt.watcher, hwt.removed_dirty,
      hwt.crefs_nodup, hwt.listed_lt, hwt.watcher_lt, hwt.propagated⟩
    intro x hx
    have hx' : x ∈ s.trail_lim ++ [s.trail.length] := hx
    rw [List.mem_append, List.mem_singleton] at hx'
    rcases hx' with hx' | rfl
    · exact hwt.lim_le_q x hx'
    · exact Nat.le_of_eq hq.symm
  · exact h.ax.of_eq_ax rfl rfl rfl rfl rfl rfl rfl rfl rfl rfl rfl rfl rfl rfl rfl rfl

theorem Frame.noteDecisionLevel (s : Solver) : Frame s (noteDecisionLevel s) := by
  unfold Minisat.noteDecisionLevel
  split_ifs
  · exact ⟨rfl, rfl, rfl, rfl, rfl, rfl, rfl, rfl, rfl, rfl, rfl, rfl, rfl, rfl, rfl⟩
  · exact Frame.refl s

theorem noteDecisionLevel_fields (s : Solver) :
    (noteDecisionLevel s).watches = s.watches ∧ (noteDecisionLevel s).clauses = s.clauses ∧
    (noteDecisionLevel s).learnts = s.learnts ∧ (noteDecisionLevel s).ca = s.ca := by
  unfold noteDecisionLevel
  split_ifs
  · exact ⟨rfl, rfl, rfl, rfl⟩
  · exact ⟨rfl, rfl, rfl, rfl⟩

/-- The decision `next` keeps the invariants. -/
theorem Inv.decision {s t : Solver} (h : Inv s) (hq : s.qhead = s.trail.length) {next : Lit}
    (hx : var next < nVars s)
    (has : decisionLevel s < s.assumptions.length →
      next = s.assumptions.getD (decisionLevel s) 0)
    (hd : searchDecide s next = some t) : Inv t := by
  unfold searchDecide at hd
  cases he : uncheckedEnqueue (setDecisionFlag (newDecisionLevel s) (var next)) next none with
  | none => rw [he] at hd; cases hd
  | some s1 =>
    rw [he] at hd
    cases hd
    have h0 : Inv (setDecisionFlag (newDecisionLevel s) (var next)) :=
      (h.new_level hq).of_frame
        ⟨rfl, rfl, rfl, rfl, rfl, rfl, rfl, rfl, rfl, rfl, rfl, rfl, rfl, rfl, rfl⟩
        rfl rfl rfl rfl
    have h1 : Inv s1 := by
      refine h0.enqueue_none hx ?_ he
      intro j hj hjl
      have hj' : (s.trail_lim ++ [s.trail.length]).length = j + 1 := hj
      rw [List.length_append, List.length_singleton] at hj'
      have e : j = decisionLevel s := by unfold decisionLevel; omega
      rw [e] at hjl ⊢
      exact has hjl
    obtain ⟨a1, a2, a3, a4⟩ := noteDecisionLevel_fields s1
    exact h1.of_frame (Frame.noteDecisionLevel s1) a1 a2 a3 a4

end Minisat


namespace Minisat
open lbool

/-! ## C10 -/

/-- C10.  From a state that satisfies the trail invariant and the watch invariant for its
propagation head (the invariants that the operations of the solver establish and keep):
whenever `propagate` returns, `qhead = trail.size()`; and when it returns `CRef_Undef`, no
attached clause is falsified or unit under the assignment. -/
theorem propagate_post (fuel : Nat) (s : Solver) (r : Option CRef × Solver)
    (htr : TrailInv s) (hwt : WatchInv s s.qhead) (h : propagate fuel s = some r) :
    r.2.qhead = r.2.trail.length ∧
    (r.1 = none → ∀ cr, Attached r.2 cr → ¬ Falsified r.2 cr ∧ ¬ UnitUnder r.2 cr) := by
  obtain ⟨hA, hB, hC, -⟩ := propagate_inv htr hwt h
  refine ⟨hB, fun hn cr hcr => ?_⟩
  have hw := hC hn
  rw [hB] at hw
  exact hw.no_unit hA hcr

end Minisat


namespace Minisat
open lbool

/-! ## `cancelUntil` keeps the invariants -/

theorem cancelUntilKey_fields {s t : Solver} (h : cancelUntilKey t = cancelUntilKey s) :
    t.vardata = s.vardata ∧ t.watches = s.watches ∧ t.dirty = s.dirty ∧
    t.dirties = s.dirties ∧ t.clauses = s.clauses ∧ t.learnts = s.learnts ∧ t.ca = s.ca ∧
    t.free_vars = s.free_vars ∧ t.released_vars = s.released_vars ∧ t.seen = s.seen ∧
    t.assumptions = s.assumptions ∧ t.decision = s.decision ∧ t.next_var = s.next_var ∧
    t.ok = s.ok := by
  refine ⟨?_, ?_, ?_, ?_, ?_, ?_, ?_, ?_, ?_, ?_, ?_, ?_, ?_, ?_⟩
  · have := congrArg Solver.vardata h; simpa only [cancelUntilKey] using this
  · have := congrArg Solver.watches h; simpa only [cancelUntilKey] using this
  · have := congrArg Solver.dirty h; simpa only [cancelUntilKey] using this
  · have := congrArg Solver.dirties h; simpa only [cancelUntilKey] using this
  · have := congrArg Solver.clauses h; simpa only [cancelUntilKey] using this
  · have := congrArg Solver.learnts h; simpa only [cancelUntilKey] using this
  · have := congrArg Solver.ca h; simpa only [cancelUntilKey] using this
  · have := congrArg Solver.free_vars h; simpa only [cancelUntilKey] using this
  · have := congrArg Solver.released_vars h; simpa only [cancelUntilKey] using this
  · have := congrArg Solver.seen h; simpa only [cancelUntilKey] using this
  · have := congrArg Solver.assumptions h; simpa only [cancelUntilKey] using this
  · have := congrArg Solver.decision h; simpa only [cancelUntilKey] using this
  · have := congrArg Solver.next_var h; simpa only [cancelUntilKey] using this
  · have := congrArg Solver.ok h; simpa only [cancelUntilKey] using this

theorem cancelKey_decision {s t : Solver} (h : cancelKey t = cancelKey s) :
    t.decision = s.decision := by
  have := congrArg Solver.decision h; simpa only [cancelKey] using this

theorem cancelStep_heap (s : Solver) (c : Nat) (v : Var) :
    v ∈ (cancelStep s c).order_heap ↔
      v ∈ s.order_heap ∨ (v = var (s.trail.getD c 0) ∧ s.decision v = true) := by
  unfold cancelStep
  rw [insertVarOrder_heap]
  have h1 : (savePhase (unassign s (var (s.trail.getD c 0))) c (s.trail.getD c 0)).order_heap
      = s.order_heap := by
    unfold savePhase; split_ifs <;> rfl
  have h2 : (savePhase (unassign s (var (s.trail.getD c 0))) c (s.trail.getD c 0)).decision
      = s.decision := by
    unfold savePhase; split_ifs <;> rfl
  rw [h1, h2]
  constructor
  · rintro (h | ⟨rfl, h⟩)
    · exact Or.inl h
    · exact Or.inr ⟨rfl, h⟩
  · rintro (h | ⟨rfl, h⟩)
    · exact Or.inl h
    · exact Or.inr ⟨rfl, h⟩

/-- The order heap after the loop of `cancelUntil`: the decision variables of the trail
positions `lim .. lim + n - 1` are put back. -/
theorem cancelLoop_heap (lim : Nat) :
    ∀ (n : Nat) (s : Solver) (v : Var),
      v ∈ (cancelLoop lim n s).order_heap ↔
        v ∈ s.order_heap ∨
          (s.decision v = true ∧ ∃ c, lim ≤ c ∧ c < lim + n ∧ var (s.trail.getD c 0) = v) := by
  intro n
  induction n with
  | zero =>
    intro s v
    rw [cancelLoop]
    constructor
    · intro h; exact Or.inl h
    · rintro (h | ⟨-, c, h1, h2, -⟩)
      · exact h
      · omega
  | succ n ih =>
    intro s v
    have hk := cancelKey_cancelStep s (lim + n)
    rw [cancelLoop, ih, cancelKey_trail hk, cancelKey_decision hk, cancelStep_heap]
    constructor
    · rintro ((h | ⟨rfl, h⟩) | ⟨hd, c, h1, h2, h3⟩)
      · exact Or.inl h
      · exact Or.inr ⟨h, lim + n, by omega, by omega, rfl⟩
      · exact Or.inr ⟨hd, c, h1, by omega, h3⟩
    · rintro (h | ⟨hd, c, h1, h2, h3⟩)
      · exact Or.inl (Or.inl h)
      · by_cases hc : c = lim + n
        · subst hc; exact Or.inl (Or.inr ⟨h3.symm, hd⟩)
        · exact Or.inr ⟨hd, c, h1, by omega, h3⟩

theorem cancelUntil_heap {s : Solver} {lvl : Nat} (h : lvl < decisionLevel s) (v : Var) :
    v ∈ (cancelUntil s lvl).order_heap ↔
      v ∈ s.order_heap ∨
        (s.decision v = true ∧ ∃ l ∈ s.trail.drop (s.trail_lim.getD lvl 0), var l = v) := by
  unfold cancelUntil
  rw [if_pos h]
  show v ∈ (cancelLoop _ _ s).order_heap ↔ _
  rw [cancelLoop_heap]
  have hiff : (∃ c, s.trail_lim.getD lvl 0 ≤ c ∧
      c < s.trail_lim.getD lvl 0 + (s.trail.length - s.trail_lim.getD lvl 0) ∧
      var (s.trail.getD c 0) = v) ↔
      ∃ l ∈ s.trail.drop (s.trail_lim.getD lvl 0), var l = v := by
    constructor
    · rintro ⟨c, h1, h2, h3⟩
      have hc : c < s.trail.length := by omega
      refine ⟨s.trail.getD c 0, ?_, h3⟩
      rw [List.mem_iff_getElem]
      refine ⟨c - s.trail_lim.getD lvl 0, by rw [List.length_drop]; omega, ?_⟩
      rw [List.getElem_drop, List.getD_eq_getElem _ _ hc]
      congr 1; omega
    · rintro ⟨l, hl, h3⟩
      rw [List.mem_iff_getElem] at hl
      obtain ⟨i, hi, rfl⟩ := hl
      rw [List.length_drop] at hi
      refine ⟨s.trail_lim.getD lvl 0 + i, by omega, by omega, ?_⟩
      rw [List.getD_eq_getElem _ _ (by omega)]
      rw [List.getElem_drop] at h3
      exact h3
  rw [hiff]

theorem sorted_take_le {L : List Nat} (h : L.Sorted (fun a b => a ≤ b)) {k : Nat}
    (hk : k < L.length) {x : Nat} (hx : x ∈ L.take k) : x ≤ L.getD k 0 := by
  rw [List.getD_eq_getElem _ _ hk]
  obtain ⟨i, hi, rfl⟩ := List.mem_iff_getElem.mp hx
  rw [List.length_take] at hi
  rw [List.getElem_take]
  have hik : i < k := by omega
  exact (List.pairwise_iff_getElem.mp h) i k (by omega) hk hik

theorem mem_drop_of_take_drop {α : Type} {l : List α} {m n : Nat} {x : α}
    (h : x ∈ (l.take n).drop m) : x ∈ l.drop m := by
  rw [List.drop_take] at h
  exact List.mem_of_mem_take h

/-- The invariants after backtracking, stated for the fields that `cancelUntil` writes. -/
theorem Inv.backtrack {s t : Solver} {q k : Nat} (htr : TrailInv s) (hwt : WatchInv s q)
    (hax : AuxInv s) (hk : k < decisionLevel s)
    (c1 : t.trail = s.trail.take (s.trail_lim.getD k 0))
    (c2 : t.trail_lim = s.trail_lim.take k) (c3 : t.qhead = s.trail_lim.getD k 0)
    (c4 : ∀ v, ((∃ l ∈ s.trail.drop (s.trail_lim.getD k 0), var l = v) →
        t.assigns v = l_Undef) ∧
      ((¬ ∃ l ∈ s.trail.drop (s.trail_lim.getD k 0), var l = v) → t.assigns v = s.assigns v))
    (c5 : ∀ v, v ∈ t.order_heap ↔ v ∈ s.order_heap ∨
        (s.decision v = true ∧ ∃ l ∈ s.trail.drop (s.trail_lim.getD k 0), var l = v))
    (f4 : t.vardata = s.vardata) (f5 : t.watches = s.watches) (f6 : t.dirty = s.dirty)
    (f6' : t.dirties = s.dirties) (f7 : t.clauses = s.clauses) (f8 : t.learnts = s.learnts)
    (f9 : t.ca = s.ca) (g2 : t.free_vars = s.free_vars)
    (g3 : t.released_vars = s.released_vars) (g4 : t.seen = s.seen)
    (g5 : t.assumptions = s.assumptions) (g6 : t.decision = s.decision)
    (g7 : t.next_var = s.next_var) : Inv t := by
  have hkl : k < s.trail_lim.length := hk
  have hlimmem : s.trail_lim.getD k 0 ∈ s.trail_lim := by
    rw [List.getD_eq_getElem _ _ hkl]; exact List.getElem_mem _
  have hlim_le : s.trail_lim.getD k 0 ≤ s.trail.length := htr.lim_le _ hlimmem
  have hlim_q : s.trail_lim.getD k 0 ≤ q := hwt.lim_le_q _ hlimmem
  generalize hlim : s.trail_lim.getD k 0 = lim at *
  have hsplit : s.trail.take lim ++ s.trail.drop lim = s.trail := List.take_append_drop _ _
  have hnd := htr.nodup
  rw [← hsplit, List.map_append, List.nodup_append] at hnd
  have hdisj : ∀ l ∈ s.trail.take lim, ¬ ∃ l' ∈ s.trail.drop lim, var l' = var l := by
    rintro l hl ⟨l', hl', e⟩
    exact hnd.2.2 (List.mem_map_of_mem var hl) (e ▸ List.mem_map_of_mem var hl')
  have hlv : ∀ x, level t x = level s x := level_congr f4
  have hat : ∀ cr, Attached t cr ↔ Attached s cr :=
    fun cr => Attached.congr_att f7 f8 (by rw [f9])
  have hnv : nVars t = nVars s := g7
  -- values
  have hval_take : ∀ l ∈ s.trail.take lim, value t l = value s l := by
    intro l hl; unfold value; rw [(c4 (var l)).2 (hdisj l hl)]
  have hval_of : ∀ l, t.assigns (var l) ≠ l_Undef → value t l = value s l := by
    intro l hl
    have : ¬ ∃ l' ∈ s.trail.drop lim, var l' = var l := fun h => hl ((c4 (var l)).1 h)
    unfold value; rw [(c4 (var l)).2 this]
  -- an assigned literal of level at most `k` keeps its value
  have hkeep : ∀ l, s.assigns (var l) ≠ l_Undef → level s (var l) ≤ k →
      value t l = value s l := by
    intro l hl hle
    have : ¬ ∃ l' ∈ s.trail.drop lim, var l' = var l := by
      rintro ⟨l', hl', e⟩
      have := htr.level_drop k hkl l' (hlim ▸ hl')
      rw [e] at this
      omega
    unfold value; rw [(c4 (var l)).2 this]
  have hlt_take : ∀ l ∈ s.trail.take lim, level s (var l) ≤ k :=
    fun l hl => htr.level_take k hkl l (hlim ▸ hl)
  have hlim_take : ∀ x ∈ s.trail_lim.take k, x ≤ lim := by
    intro x hx; rw [← hlim]; exact sorted_take_le htr.lim_sorted hkl hx
  have hlen : t.trail.length = lim := by rw [c1, List.length_take]; omega
  have hgetD : ∀ j, j < k → (s.trail_lim.take k).getD j 0 = s.trail_lim.getD j 0 := by
    intro j hj
    rw [List.getD_eq_getElem _ _ (by rw [List.length_take]; omega), List.getElem_take]
    exact (List.getD_eq_getElem _ _ (by omega)).symm
  refine ⟨?_, ?_, ⟨?_, ?_, ?_, ?_⟩⟩
  · constructor
    · intro l hl
      rw [c1] at hl
      rw [hval_take l hl]; exact htr.true_of_mem l (List.mem_of_mem_take hl)
    · intro v hv
      have hnot : ¬ ∃ l ∈ s.trail.drop lim, var l = v := fun h => hv ((c4 v).1 h)
      rw [(c4 v).2 hnot] at hv
      obtain ⟨l, hl, e⟩ := htr.mem_of_assigned v hv
      rw [← hsplit, List.mem_append] at hl
      rcases hl with hl | hl
      · exact ⟨l, by rw [c1]; exact hl, e⟩
      · exact absurd ⟨l, hl, e⟩ hnot
    · rw [c1]; exact hnd.1
    · intro x hx
      rw [c2] at hx; rw [hlen]; exact hlim_take x hx
    · rw [c2]; exact htr.lim_sorted.sublist (List.take_sublist _ _)
    · intro j hj l hl
      rw [c2, List.length_take] at hj
      have hjk : j < k := by omega
      rw [c1, c2, hgetD j hjk] at hl
      rw [hlv]
      refine htr.level_take j (by omega) l ?_
      rw [List.take_take] at hl
      exact List.mem_of_mem_take (l := s.trail.take (s.trail_lim.getD j 0))
        (by rw [List.take_take]; rwa [Nat.min_comm] at hl)
    · intro j hj l hl
      rw [c2, List.length_take] at hj
      have hjk : j < k := by omega
      rw [c1, c2, hgetD j hjk] at hl
      rw [hlv]
      exact htr.level_drop j (by omega) l (mem_drop_of_take_drop hl)
    · intro l hl
      rw [c1] at hl
      rw [hlv]
      unfold decisionLevel
      rw [c2, List.length_take]
      have := hlt_take l hl
      omega
  · rw [c3]
    constructor
    · rw [hlen]
    · intro x hx; rw [c2] at hx; exact hlim_take x hx
    · intro cr hcr; rw [f9]; exact hwt.size cr ((hat cr).mp hcr)
    · intro cr hcr; rw [f9]; exact hwt.nodup cr ((hat cr).mp hcr)
    · intro cr hcr l hl
      rw [f9] at hl; rw [f5]; exact hwt.watched cr ((hat cr).mp hcr) l hl
    · intro l w hw hmk
      rw [f5] at hw; rw [f9] at hmk ⊢
      obtain ⟨a, b, c⟩ := hwt.watcher l w hw hmk
      refine ⟨?_, b, ?_⟩
      · unfold Listed at a ⊢; rw [f7, f8]; exact a
      · rcases c with c | ⟨c1', c2'⟩
        · exact Or.inl c
        · right
          rw [hkeep _ (value_false_ne_undef c1') (by omega), hlv]
          exact ⟨c1', c2'⟩
    · intro l w hw hmk
      rw [f5] at hw; rw [f9] at hmk; rw [f6]
      exact hwt.removed_dirty l w hw hmk
    · intro l; rw [f5]; exact hwt.crefs_nodup l
    · intro cr hcr; rw [f9]; apply hwt.listed_lt
      unfold Listed at hcr ⊢; rw [← f7, ← f8]; exact hcr
    · intro l w hw; rw [f9]; rw [f5] at hw; exact hwt.watcher_lt l w hw
    · intro cr hcr l hl hf hmem
      rw [f9] at hl ⊢
      rw [c1, List.take_take, Nat.min_self] at hmem
      have hf' : value s l = l_False := by
        rw [← hval_of l (value_false_ne_undef hf)]; exact hf
      have hmem' : neg l ∈ s.trail.take q := by
        have : s.trail.take lim = (s.trail.take q).take lim := by
          rw [List.take_take, Nat.min_eq_left hlim_q]
        rw [this] at hmem
        exact List.mem_of_mem_take hmem
      obtain ⟨x, hx, hxv, hxl⟩ := hwt.propagated cr ((hat cr).mp hcr) l hl hf' hmem'
      have hll : level s (var l) ≤ k := by
        have := hlt_take (neg l) hmem
        rwa [var_neg] at this
      refine ⟨x, hx, ?_, by rw [hlv, hlv]; exact hxl⟩
      rw [hkeep x (value_true_ne_undef hxv) (by omega)]
      exact hxv
  · intro pre l post cr htr' hre
    rw [c1] at htr'
    rw [reason_congr f4] at hre
    have : s.trail = pre ++ l :: (post ++ s.trail.drop lim) := by
      have h' := hsplit
      rw [htr'] at h'
      simpa using h'.symm
    obtain ⟨a, b, c⟩ := hax.rs pre l _ cr this hre
    rw [f9]
    exact ⟨(hat cr).mpr a, b, c⟩
  · constructor
    · intro l hl
      rw [hnv]; rw [c1] at hl
      exact hax.vr.trail_lt l (List.mem_of_mem_take hl)
    · intro cr hcr l hl
      rw [hnv]; rw [f9] at hl; exact hax.vr.lits_lt cr ((hat cr).mp hcr) l hl
    · intro l hl; rw [hnv] at hl; rw [f5]; exact hax.vr.watches_nil l hl
    · intro v hv
      rw [hnv]
      rcases (c5 v).mp hv with hv | ⟨-, l, hl, e⟩
      · exact hax.vr.heap_lt v hv
      · rw [← e]; exact hax.vr.trail_lt l (List.mem_of_mem_drop hl)
    · rw [g2]; exact hax.vr.free_nil
    · rw [g3]; exact hax.vr.released_nil
    · intro l hl; rw [f6']; rw [f6] at hl; exact hax.vr.dirties l hl
    · intro cr; rw [f9]; exact hax.vr.not_reloced cr
    · intro v; rw [g4]; exact hax.vr.seen0 v
  · intro l hl hre j hlev hj
    rw [c1] at hl
    rw [reason_congr f4] at hre; rw [hlv] at hlev; rw [g5] at hj ⊢
    exact hax.asm l (List.mem_of_mem_take hl) hre j hlev hj
  · intro v hv hd hu
    rw [hnv] at hv; rw [g6] at hd
    rw [c5]
    by_cases hdrop : ∃ l ∈ s.trail.drop lim, var l = v
    · exact Or.inr ⟨hd, hdrop⟩
    · rw [(c4 v).2 hdrop] at hu
      exact Or.inl (hax.hp v hv hd hu)

/-- `cancelUntil(k)` with `k < decisionLevel()` keeps the invariants, the head being
`trail_lim[k]`; the watch invariant is needed for some head only. -/
theorem Inv.cancel {s : Solver} {q k : Nat} (htr : TrailInv s) (hwt : WatchInv s q)
    (hax : AuxInv s) (hk : k < decisionLevel s) : Inv (cancelUntil s k) := by
  obtain ⟨c1, c2, c3, c4⟩ := cancelUntil_of_lt hk
  obtain ⟨f4, f5, f6, f6', f7, f8, f9, g2, g3, g4, g5, g6, g7, -⟩ :=
    cancelUntilKey_fields (cancelUntilKey_cancelUntil s k)
  exact Inv.backtrack htr hwt hax hk c1 c2 c3 c4 (cancelUntil_heap hk) f4 f5 f6 f6' f7 f8 f9
    g2 g3 g4 g5 g6 g7

/-- `cancelUntil` keeps the invariants of a state at rest. -/
theorem Inv.cancel_any {s : Solver} (h : Inv s) (k : Nat) : Inv (cancelUntil s k) := by
  by_cases hk : k < decisionLevel s
  · exact Inv.cancel h.tr h.wt h.ax hk
  · have : cancelUntil s k = s := by
      unfold cancelUntil; rw [if_neg (by omega)]
    rw [this]; exact h

end Minisat


namespace Minisat
open lbool

/-! ## The conflict clause has a literal of the current level -/

theorem watchStep_conflict_top {p : Lit} {b : Bool} {w w1 : Watcher} {s s1 : Solver} {q : Nat}
    {pre rest : List Watcher}
    (h : LoopInv (setWatches s p (pre ++ w :: rest)) p q pre (w :: rest))
    (hk : watchStep p b w s = WStep.conflict w1 s1) : TopLit s1 w1.cref := by
  obtain ⟨hatt, hblk, a, rs, he, hor⟩ := h.head
  have he' : swapFalseLit (s.ca.cl w.cref).lits (neg p) = a :: neg p :: rs := he
  obtain ⟨-, -, -, -, rfl, rfl⟩ := watchStep_conflict hk
  rw [he']
  refine ⟨neg p, ?_, ?_⟩
  · show neg p ∈ ((setLits s w.cref (a :: neg p :: rs)).ca.cl w.cref).lits
    rw [setLits_lits_self]; simp
  · rw [var_neg]
    exact h.tr.level_eq_of_drop h.wt.lim_le_q h.p_mem_drop

theorem propagateWatchers_top {p : Lit} {b : Bool} {q : Nat} :
    ∀ (ws pre : List Watcher) (s : Solver),
      LoopInv (setWatches s p (pre ++ ws)) p q pre ws →
      ∀ cr kept s', propagateWatchers p b ws s = some (some cr, kept, s') → TopLit s' cr := by
  intro ws
  induction ws with
  | nil => intro pre s h cr kept s' hr; cases hr
  | cons w rest ih =>
    intro pre s h cr kept s' hr
    unfold propagateWatchers at hr
    cases hstep : watchStep p b w s with
    | fail => rw [hstep] at hr; cases hr
    | keep w1 s1 =>
      rw [hstep] at hr
      dsimp only at hr
      have h1 := watchStep_keep_inv h hstep
      have h1' : LoopInv (setWatches s1 p ((pre ++ [w1]) ++ rest)) p q (pre ++ [w1]) rest := by
        simpa using h1
      cases hrec : propagateWatchers p b rest s1 with
      | none => rw [hrec] at hr; cases hr
      | some r =>
        obtain ⟨c, kp, st⟩ := r
        rw [hrec] at hr
        cases hr
        exact ih (pre ++ [w1]) s1 h1' _ kp _ hrec
    | move s1 =>
      rw [hstep] at hr
      dsimp only at hr
      exact ih pre s1 (watchStep_move_inv h hstep) _ _ _ hr
    | conflict w1 s1 =>
      rw [hstep] at hr
      dsimp only at hr
      cases hr
      exact watchStep_conflict_top h hstep

theorem TopLit.of_eq_top {s t : Solver} {cr : CRef} (h : TopLit s cr)
    (h2 : t.trail_lim = s.trail_lim) (h4 : t.vardata = s.vardata) (h9 : t.ca = s.ca) :
    TopLit t cr := by
  obtain ⟨l, hl, hlev⟩ := h
  refine ⟨l, by rw [h9]; exact hl, ?_⟩
  rw [level_congr h4]; unfold decisionLevel; rw [h2]; exact hlev

theorem propagateLit_top {s : Solver} {p : Lit} {q : Nat} (htr : TrailInv s)
    (hwt : WatchInv s q) (hp : s.trail.getD q 0 = p) (hq : q < s.trail.length)
    {cr : CRef} {s' : Solver} (hr : propagateLit p s = some (some cr, s')) : TopLit s' cr := by
  have hinit := propagateLit_init htr hwt hp hq
  unfold propagateLit at hr
  cases hw : propagateWatchers p
      (decide (decisionLevel s = 0) && decide (var p ∈ s.symmetry_units))
      ((lookup s p).watches p) (lookup s p) with
  | none => rw [hw] at hr; cases hr
  | some r =>
    obtain ⟨c, kept, st⟩ := r
    rw [hw] at hr
    cases hr
    exact (propagateWatchers_top _ [] (lookup s p) hinit cr kept st hw).of_eq_top rfl rfl rfl

theorem propagateLoop_top :
    ∀ (fuel : Nat) (s : Solver) (n : Nat) (r : Option CRef × Nat × Solver),
      TrailInv s → WatchInv s s.qhead → propagateLoop fuel s none n = some r →
      ∀ cr, r.1 = some cr → TopLit r.2.2 cr := by
  intro fuel
  induction fuel with
  | zero =>
    intro s n r htr hwt h cr hc
    by_cases hq : s.qhead < s.trail.length
    · rw [propagateLoop_zero hq] at h; cases h
    · rw [propagateLoop_done hq] at h; cases h; cases hc
  | succ fuel ih =>
    intro s n r htr hwt h cr hc
    by_cases hq : s.qhead < s.trail.length
    · rw [propagateLoop_step hq] at h
      have htr0 : TrailInv (setQhead s (s.qhead + 1)) := htr.congr_tr rfl rfl rfl rfl
      have hwt0 : WatchInv (setQhead s (s.qhead + 1)) s.qhead :=
        hwt.of_eq_wt rfl rfl rfl rfl rfl rfl rfl rfl rfl
      obtain ⟨confl, s1, hr, htr1, hnone, hsome⟩ :=
        propagateLit_inv (s := setQhead s (s.qhead + 1)) (p := s.trail.getD s.qhead 0)
          (q := s.qhead) htr0 hwt0 rfl hq
      have htop := fun c (e : confl = some c) =>
        propagateLit_top htr0 hwt0 rfl hq (e ▸ hr)
      rw [hr] at h
      cases confl with
      | none =>
        obtain ⟨hA, hB⟩ := hnone rfl
        simp only [ne_eq, not_true_eq_false, if_false] at h
        have hB' : s1.qhead = s.qhead + 1 := hB
        exact ih s1 (n + 1) r htr1 (hB' ▸ hA) h cr hc
      | some c =>
        have hdone : ¬ (setQhead s1 s1.trail.length).qhead
            < (setQhead s1 s1.trail.length).trail.length := by
          show ¬ s1.trail.length < s1.trail.length
          omega
        simp only [propagateLoop_done hdone] at h
        cases h
        cases hc
        exact (htop cr rfl).of_eq_top rfl rfl rfl
    · rw [propagateLoop_done hq] at h; cases h; cases hc

theorem propagate_top {fuel : Nat} {s : Solver} {r : Option CRef × Solver}
    (htr : TrailInv s) (hwt : WatchInv s s.qhead) (h : propagate fuel s = some r) :
    ∀ cr, r.1 = some cr → TopLit r.2 cr := by
  intro cr hc
  unfold propagate at h
  cases hl : propagateLoop fuel s none 0 with
  | none => rw [hl] at h; cases h
  | some r1 =>
    rw [hl] at h
    cases h
    exact (propagateLoop_top fuel s 0 r1 htr hwt hl cr hc).of_eq_top rfl rfl rfl

end Minisat


namespace Minisat
open lbool

/-! ## The part of the state that `analyze` leaves alone -/

theorem anaKey_setSeen (s : Solver) (v : Var) (n : Nat) : anaKey (setSeen s v n) = anaKey s :=
  rfl

theorem anaKey_pushToclear (s : Solver) (l : Lit) : anaKey (pushToclear s l) = anaKey s := rfl

theorem anaKey_setToclear (s : Solver) (ls : List Lit) : anaKey (setToclear s ls) = anaKey s :=
  rfl

theorem anaKey_countLits (s : Solver) (n m : Nat) : anaKey (countLits s n m) = anaKey s := rfl

theorem anaKey_setVarActivity (s : Solver) (v : Var) (a : ℚ) :
    anaKey (setVarActivity s v a) = anaKey s := rfl

theorem anaKey_rescaleVarActivity (s : Solver) : anaKey (rescaleVarActivity s) = anaKey s := rfl

theorem anaKey_varBumpActivity (s : Solver) (v : Var) :
    anaKey (varBumpActivity s v) = anaKey s := by
  unfold varBumpActivity varBumpActivityBy
  split_ifs
  · rw [anaKey_rescaleVarActivity, anaKey_setVarActivity]
  · rw [anaKey_setVarActivity]

theorem anaKey_setActivity (s : Solver) (cr : CRef) (a : ℚ) :
    anaKey (setActivity s cr a) = anaKey s := by
  have h : (fun cr' => { (setActivity s cr a).ca.cl cr' with activity := (0 : ℚ) }) =
      (fun cr' => { s.ca.cl cr' with activity := (0 : ℚ) }) := by
    funext cr'
    by_cases e : cr' = cr
    · subst e; simp only [setActivity, Function.update_same]
    · simp only [setActivity, Function.update_noteq e]
  unfold anaKey
  rw [h]
  rfl

theorem anaKey_setClaInc (s : Solver) (x : ℚ) : anaKey (setClaInc s x) = anaKey s := rfl

theorem anaKey_foldl_setActivity (f : Solver → CRef → ℚ) :
    ∀ (xs : List CRef) (s : Solver),
      anaKey (xs.foldl (fun t x => setActivity t x (f t x)) s) = anaKey s := by
  intro xs
  induction xs with
  | nil => intro s; rfl
  | cons x xs ih => intro s; rw [List.foldl_cons, ih, anaKey_setActivity]

theorem anaKey_rescaleClaActivity (s : Solver) : anaKey (rescaleClaActivity s) = anaKey s := by
  unfold rescaleClaActivity
  rw [anaKey_setClaInc]
  exact anaKey_foldl_setActivity (fun t x => (t.ca.cl x).activity / (10 : ℚ) ^ 20) _ s

theorem anaKey_claBumpActivity (s : Solver) (cr : CRef) :
    anaKey (claBumpActivity s cr) = anaKey s := by
  unfold claBumpActivity
  split_ifs
  · rw [anaKey_rescaleClaActivity, anaKey_setActivity]
  · rw [anaKey_setActivity]

/-- What two states with the same `anaKey` share. -/
theorem anaKey_frame {s t : Solver} (h : anaKey t = anaKey s) : AFrame s t := by
  have hcl : ∀ cr, ({ t.ca.cl cr with activity := (0 : ℚ) } : Clause) =
      { s.ca.cl cr with activity := (0 : ℚ) } := by
    intro cr
    have := congrArg (fun x => x.ca.cl cr) h
    simpa only [anaKey] using this
  constructor
  · have := congrArg Solver.trail h; simpa only [anaKey] using this
  · have := congrArg Solver.trail_lim h; simpa only [anaKey] using this
  · have := congrArg Solver.assigns h; simpa only [anaKey] using this
  · have := congrArg Solver.vardata h; simpa only [anaKey] using this
  · have := congrArg Solver.watches h; simpa only [anaKey] using this
  · have := congrArg Solver.dirty h; simpa only [anaKey] using this
  · have := congrArg Solver.dirties h; simpa only [anaKey] using this
  · have := congrArg Solver.clauses h; simpa only [anaKey] using this
  · have := congrArg Solver.learnts h; simpa only [anaKey] using this
  · have := congrArg Solver.order_heap h; simpa only [anaKey] using this
  · have := congrArg Solver.free_vars h; simpa only [anaKey] using this
  · have := congrArg Solver.released_vars h; simpa only [anaKey] using this
  · have := congrArg Solver.assumptions h; simpa only [anaKey] using this
  · have := congrArg Solver.decision h; simpa only [anaKey] using this
  · have := congrArg Solver.next_var h; simpa only [anaKey] using this
  · have := congrArg Solver.qhead h; simpa only [anaKey] using this
  · have := congrArg Solver.ok h; simpa only [anaKey] using this
  · have := congrArg Solver.conflict h; simpa only [anaKey] using this
  · have := congrArg Solver.ccmin_mode h; simpa only [anaKey] using this
  · have := congrArg Solver.symmetry_units h; simpa only [anaKey] using this
  · have := congrArg (fun x => x.ca.size) h; simpa only [anaKey] using this
  · have := congrArg (fun x => x.ca.wasted) h; simpa only [anaKey] using this
  · intro cr; have := congrArg Clause.lits (hcl cr); exact this
  · intro cr; have := congrArg Clause.mark (hcl cr); exact this
  · intro cr; have := congrArg Clause.reloced (hcl cr); exact this
  · intro cr; have := congrArg Clause.learnt (hcl cr); exact this

theorem AFrame.attached {s t : Solver} (hf : AFrame s t) (cr : CRef) :
    Attached t cr ↔ Attached s cr := Attached.congr_att hf.clauses hf.learnts (hf.mark cr)

theorem AFrame.value_eq {s t : Solver} (hf : AFrame s t) (l : Lit) : value t l = value s l :=
  value_congr hf.assigns l

theorem AFrame.level_eq {s t : Solver} (hf : AFrame s t) (x : Var) : level t x = level s x :=
  level_congr hf.vardata x

theorem AFrame.reason_eq {s t : Solver} (hf : AFrame s t) (x : Var) :
    reason t x = reason s x := reason_congr hf.vardata x

theorem AFrame.get_eq {s t : Solver} (hf : AFrame s t) (cr : CRef) (i : Nat) :
    (t.ca.cl cr).get i = (s.ca.cl cr).get i := by
  unfold Clause.get; rw [hf.lits]

/-- The invariants in a state that differs in the activities only. -/
theorem Inv.of_aframe {s t : Solver} (h : Inv s) (hf : AFrame s t) (hs : t.seen = s.seen) :
    Inv t := by
  refine ⟨h.tr.congr_tr hf.trail hf.trail_lim hf.assigns hf.vardata, ?_, ?_⟩
  · rw [hf.qhead]
    exact h.wt.congr_wt hf.trail hf.trail_lim hf.assigns hf.vardata hf.watches hf.dirty
      hf.clauses hf.learnts hf.ca_size hf.mark (fun cr => by rw [hf.lits])
      (fun cr l => by unfold Clause.watching; rw [hf.get_eq, hf.get_eq])
  · exact h.ax.congr_ax h.tr hf.order_heap hf.free_vars hf.released_vars hs hf.assumptions
      hf.decision hf.next_var hf.dirties hf.clauses hf.learnts hf.trail hf.assigns hf.vardata
      (fun l hl => by rw [hf.watches]; exact h.ax.vr.watches_nil l hl)
      (fun l hl => by rw [hf.dirty] at hl; exact hl) hf.mark hf.reloced
      (fun cr => by rw [hf.lits])
      (fun cr _ => ⟨hf.get_eq cr 0, fun x => by rw [hf.lits]⟩)

end Minisat


namespace Minisat
open lbool

/-! ## Counting the marked literals -/

theorem countP_seen_other (f : Var → Nat) (v : Var) (n : Nat) :
    ∀ (xs : List Lit), v ∉ xs.map var →
      xs.countP (fun l => decide (Function.update f v n (var l) ≠ 0)) =
        xs.countP (fun l => decide (f (var l) ≠ 0)) := by
  intro xs
  induction xs with
  | nil => intro _; rfl
  | cons x xs ih =>
    intro h
    rw [List.map_cons, List.mem_cons, not_or] at h
    rw [List.countP_cons, List.countP_cons, ih h.2,
      Function.update_noteq (fun e => h.1 e.symm)]

theorem countP_seen_set (f : Var → Nat) (v : Var) (n : Nat) (hf : f v = 0) (hn : n ≠ 0) :
    ∀ (xs : List Lit), (xs.map var).Nodup → v ∈ xs.map var →
      xs.countP (fun l => decide (Function.update f v n (var l) ≠ 0)) =
        xs.countP (fun l => decide (f (var l) ≠ 0)) + 1 := by
  intro xs
  induction xs with
  | nil => intro _ h; cases h
  | cons x xs ih =>
    intro hnd h
    rw [List.map_cons, List.nodup_cons] at hnd
    rw [List.map_cons, List.mem_cons] at h
    rw [List.countP_cons, List.countP_cons]
    by_cases e : v = var x
    · have hx : v ∉ xs.map var := e ▸ hnd.1
      rw [countP_seen_other f v n xs hx, ← e, Function.update_same, hf]
      simp [hn]
    · rcases h with h | h
      · exact absurd h e
      · rw [ih hnd.2 h, Function.update_noteq (fun e' => e e'.symm)]
        omega

theorem countP_seen_clear (f : Var → Nat) (v : Var) (hf : f v ≠ 0) :
    ∀ (xs : List Lit), (xs.map var).Nodup → v ∈ xs.map var →
      xs.countP (fun l => decide (Function.update f v 0 (var l) ≠ 0)) + 1 =
        xs.countP (fun l => decide (f (var l) ≠ 0)) := by
  intro xs
  induction xs with
  | nil => intro _ h; cases h
  | cons x xs ih =>
    intro hnd h
    rw [List.map_cons, List.nodup_cons] at hnd
    rw [List.map_cons, List.mem_cons] at h
    rw [List.countP_cons, List.countP_cons]
    by_cases e : v = var x
    · have hx : v ∉ xs.map var := e ▸ hnd.1
      rw [countP_seen_other f v 0 xs hx, ← e, Function.update_same]
      simp [hf]
    · rcases h with h | h
      · exact absurd h e
      · rw [Function.update_noteq (fun e' => e e'.symm)]
        have := ih hnd.2 h
        omega

theorem countP_eq_zero_of_clear (f : Var → Nat) (xs : List Lit)
    (h : ∀ l ∈ xs, f (var l) = 0) : xs.countP (fun l => decide (f (var l) ≠ 0)) = 0 := by
  rw [List.countP_eq_zero]
  intro l hl
  simp [h l hl]

theorem exists_of_countP_pos (f : Var → Nat) (xs : List Lit)
    (h : 0 < xs.countP (fun l => decide (f (var l) ≠ 0))) : ∃ l ∈ xs, f (var l) ≠ 0 := by
  rw [List.countP_pos_iff] at h
  obtain ⟨l, hl, hp⟩ := h
  exact ⟨l, hl, by simpa using hp⟩

end Minisat


namespace Minisat
open lbool

/-! ## The resolution loop of `analyze` -/

theorem varBumpActivity_seen (s : Solver) (v : Var) : (varBumpActivity s v).seen = s.seen := by
  unfold varBumpActivity varBumpActivityBy
  split_ifs <;> rfl

theorem symUnitTest_fields (a : AnalyzeAcc) (q : Lit) :
    (symUnitTest a q).s = a.s ∧ (symUnitTest a q).pathC = a.pathC ∧
    (symUnitTest a q).out = a.out := by
  unfold symUnitTest
  split_ifs
  · exact ⟨rfl, rfl, rfl⟩
  · exact ⟨rfl, rfl, rfl⟩

theorem AnaInv.of_fields {s0 : Solver} {lim idx : Nat} {a b : AnalyzeAcc}
    (h : AnaInv s0 lim a idx) (h1 : b.s = a.s) (h2 : b.pathC = a.pathC) (h3 : b.out = a.out) :
    AnaInv s0 lim b idx := by
  constructor
  · rw [h1]; exact h.key
  · rw [h3]; exact h.out_nodup
  · rw [h1, h3]; exact h.out_seen
  · rw [h3]; exact h.out_level
  · rw [h3]; exact h.out_false
  · rw [h1, h3]; exact h.seen_where
  · rw [h1, h2]; exact h.count

theorem mem_slice_of_take {α : Type} {l : List α} {lim idx : Nat} {x : α}
    (h : x ∈ l.take idx) (hn : x ∉ l.take lim) : x ∈ (l.take idx).drop lim := by
  have hsplit := List.take_append_drop lim (l.take idx)
  rw [← hsplit, List.mem_append] at h
  rcases h with h | h
  · rw [List.take_take] at h
    exfalso; apply hn
    have : l.take (min lim idx) = (l.take lim).take (min lim idx) := by
      rw [List.take_take]; congr 1; omega
    rw [this] at h
    exact List.mem_of_mem_take h
  · exact h

theorem slice_nodup {s0 : Solver} (htr : TrailInv s0) (lim idx : Nat) :
    (((s0.trail.take idx).drop lim).map var).Nodup :=
  htr.nodup.sublist ((((List.drop_sublist _ _).trans (List.take_sublist _ _))).map var)

/-- One literal of the clause being resolved: false, its negation on the trail before the
position of the walk. -/
theorem analyzeLit_inv {s0 : Solver} {lim idx : Nat} {a : AnalyzeAcc} {q : Lit}
    (hI : AnaInv s0 lim a idx) (htr : TrailInv s0)
    (htop : ∀ l ∈ s0.trail.drop lim, level s0 (var l) = decisionLevel s0)
    (hlow : ∀ l ∈ s0.trail.take lim, level s0 (var l) < decisionLevel s0)
    (hq : value s0 q = l_False) (hpos : neg q ∈ s0.trail.take idx) :
    AnaInv s0 lim (analyzeLit a q) idx := by
  have hf := anaKey_frame hI.key
  have hlev : level a.s (var q) = level s0 (var q) := hf.level_eq _
  have hdl : decisionLevel a.s = decisionLevel s0 := by unfold decisionLevel; rw [hf.trail_lim]
  have hnqT : value s0 (neg q) = l_True := value_neg_true.mpr hq
  unfold analyzeLit
  by_cases h1 : a.s.seen (var q) = 0 ∧ level a.s (var q) > 0
  · rw [if_pos h1]
    have hseen' : (setSeen (varBumpActivity a.s (var q)) (var q) 1).seen =
        Function.update a.s.seen (var q) 1 := by
      show Function.update (varBumpActivity a.s (var q)).seen (var q) 1 = _
      rw [varBumpActivity_seen]
    have hkey' : anaKey (setSeen (varBumpActivity a.s (var q)) (var q) 1) = anaKey s0 := by
      rw [anaKey_setSeen, anaKey_varBumpActivity]; exact hI.key
    by_cases h2 : level a.s (var q) ≥ decisionLevel a.s
    · rw [if_pos h2]
      have hnl : neg q ∉ s0.trail.take lim := by
        intro hm
        have := hlow _ hm
        rw [var_neg] at this
        rw [hlev, hdl] at h2
        omega
      have hslice : neg q ∈ (s0.trail.take idx).drop lim := mem_slice_of_take hpos hnl
      constructor
      · exact hkey'
      · exact hI.out_nodup
      · intro q' hq'
        show (setSeen (varBumpActivity a.s (var q)) (var q) 1).seen (var q') = 1
        rw [hseen']
        by_cases e : var q' = var q
        · rw [e, Function.update_same]
        · rw [Function.update_noteq e]; exact hI.out_seen q' hq'
      · exact hI.out_level
      · exact hI.out_false
      · intro v hv
        have hv' : Function.update a.s.seen (var q) 1 v ≠ 0 := by rw [← hseen']; exact hv
        by_cases e : v = var q
        · right; exact ⟨neg q, hslice, by rw [var_neg, e]⟩
        · rw [Function.update_noteq e] at hv'
          exact hI.seen_where v hv'
      · show a.pathC + 1 = _
        rw [hI.count]
        unfold seenCount
        rw [hseen', countP_seen_set a.s.seen (var q) 1 h1.1 (by decide) _
          (slice_nodup htr lim idx)
          (by rw [← var_neg q]; exact List.mem_map_of_mem var hslice)]
        push_cast; ring
    · rw [if_neg h2]
      have hlt : level s0 (var q) < decisionLevel s0 := by
        rw [hlev, hdl] at h2; omega
      have hnot : var q ∉ ((s0.trail.take idx).drop lim).map var := by
        intro hm
        obtain ⟨l, hl, e⟩ := List.mem_map.mp hm
        have hl' := mem_drop_of_take_drop hl
        have := htop l hl'
        rw [e] at this
        omega
      constructor
      · exact hkey'
      · show ((a.out ++ [q]).map var).Nodup
        rw [List.map_append, List.nodup_append]
        refine ⟨hI.out_nodup, by simp, ?_⟩
        intro x hx hx'
        simp only [List.map_cons, List.map_nil, List.mem_singleton] at hx'
        obtain ⟨q', hq', e⟩ := List.mem_map.mp hx
        have := hI.out_seen q' hq'
        rw [e, hx', h1.1] at this
        cases this
      · intro q' hq'
        show (setSeen (varBumpActivity a.s (var q)) (var q) 1).seen (var q') = 1
        rw [hseen']
        have hq'' : q' ∈ a.out ++ [q] := hq'
        rw [List.mem_append, List.mem_singleton] at hq''
        by_cases e : var q' = var q
        · rw [e, Function.update_same]
        · rw [Function.update_noteq e]
          rcases hq'' with h' | h'
          · exact hI.out_seen q' h'
          · exact absurd (congrArg var h') e
      · intro q' hq'
        have hq'' : q' ∈ a.out ++ [q] := hq'
        rw [List.mem_append, List.mem_singleton] at hq''
        rcases hq'' with h' | h'
        · exact hI.out_level q' h'
        · rw [h']; exact ⟨by rw [← hlev]; exact h1.2, hlt⟩
      · intro q' hq'
        have hq'' : q' ∈ a.out ++ [q] := hq'
        rw [List.mem_append, List.mem_singleton] at hq''
        rcases hq'' with h' | h'
        · exact hI.out_false q' h'
        · rw [h']; exact hq
      · intro v hv
        have hv' : Function.update a.s.seen (var q) 1 v ≠ 0 := by rw [← hseen']; exact hv
        by_cases e : v = var q
        · left; exact ⟨q, by show q ∈ a.out ++ [q]; simp, e.symm⟩
        · rw [Function.update_noteq e] at hv'
          rcases hI.seen_where v hv' with ⟨q', hq', e'⟩ | h'
          · left; exact ⟨q', by show q' ∈ a.out ++ [q]; simp [hq'], e'⟩
          · exact Or.inr h'
      · show a.pathC = _
        rw [hI.count]
        unfold seenCount
        rw [hseen', countP_seen_other a.s.seen (var q) 1 _ hnot]
  · rw [if_neg h1]
    obtain ⟨e1, e2, e3⟩ := symUnitTest_fields a q
    exact hI.of_fields e1 e2 e3

end Minisat


namespace Minisat
open lbool

/-! ## The restart sequence `luby` -/

theorem seq_lt_two_pow (n : Nat) : n < 2 ^ n := Nat.lt_two_pow n

theorem two_pow_pos (n : Nat) : 0 < 2 ^ n := Nat.pos_pow_of_pos n (by decide)

theorem int_max_eq : INT_MAX = 2 ^ 31 - 1 := by decide

theorem lubyUp_spec (x : Nat) (hx : x < INT_MAX) :
    ∀ (fuel seq : Nat), 2 ^ seq ≤ x + 1 → x + 2 ≤ fuel + seq →
    ∃ t, lubyUp x fuel (2 ^ (seq + 1) - 1) seq = some (2 ^ (t + 1) - 1, t) ∧
      2 ^ t ≤ x + 1 ∧ x + 1 ≤ 2 ^ (t + 1) - 1 := by
  have hx1 : ¬ INT_MAX < x + 1 := by omega
  intro fuel
  induction fuel with
  | zero =>
    intro seq h1 h2
    have := seq_lt_two_pow seq
    omega
  | succ n ih =>
    intro seq h1 h2
    unfold lubyUp
    rw [if_neg hx1]
    by_cases h : 2 ^ (seq + 1) - 1 < x + 1
    · rw [if_pos h]
      have hp := two_pow_pos (seq + 1)
      have e : 2 * (2 ^ (seq + 1) - 1) + 1 = 2 ^ (seq + 1 + 1) - 1 := by
        rw [pow_succ 2 (seq + 1)]; omega
      rw [e]
      have hlt : 2 ^ (seq + 1) < 2 ^ 31 := by
        have := int_max_eq
        omega
      have hs : seq + 1 < 31 := (Nat.pow_lt_pow_iff_right (by decide : 1 < 2)).mp hlt
      have hle : 2 ^ (seq + 1 + 1) ≤ 2 ^ 31 :=
        Nat.pow_le_pow_right (by decide) (by omega)
      have hov : ¬ INT_MAX < 2 ^ (seq + 1 + 1) - 1 := by
        have := int_max_eq
        omega
      rw [if_neg hov]
      exact ih (seq + 1) (by omega) (by omega)
    · rw [if_neg h]
      exact ⟨seq, rfl, h1, by omega⟩

/-- For `x = INT_MAX` and above the sum `x + 1` overflows. -/
theorem luby_overflow (y : ℚ) (x : Nat) (hx : INT_MAX ≤ x) : luby y x = none := by
  have h1 : INT_MAX < x + 1 := by omega
  unfold luby
  have : lubyUp x (x + 2) 1 0 = none := by
    rw [show x + 2 = (x + 1) + 1 by rfl, lubyUp, if_pos h1]
  rw [this]

theorem lubyDown_spec : ∀ (fuel seq x : Nat), x + 1 ≤ 2 ^ (seq + 1) - 1 → seq + 1 ≤ fuel →
    ∃ e, lubyDown fuel (2 ^ (seq + 1) - 1) seq x = some e ∧ LubyExp x e := by
  intro fuel
  induction fuel with
  | zero => intro seq x _ h2; omega
  | succ n ih =>
    intro seq x h1 h2
    unfold lubyDown
    by_cases h : 2 ^ (seq + 1) - 1 - 1 ≠ x
    · rw [if_pos h]
      cases seq with
      | zero => simp at h1 h; omega
      | succ t =>
        have hp := two_pow_pos (t + 1)
        have e1 : (2 ^ (t + 1 + 1) - 1 - 1) / 2 = 2 ^ (t + 1) - 1 := by
          rw [pow_succ 2 (t + 1)]; omega
        rw [e1]
        have e2 : t + 1 - 1 = t := by omega
        rw [e2]
        have hpow : 2 ^ (t + 1 + 1) = 2 * 2 ^ (t + 1) := by rw [pow_succ]; ring
        have hlt : x % (2 ^ (t + 1) - 1) < 2 ^ (t + 1) - 1 := by
          apply Nat.mod_lt
          have := two_pow_pos t
          rw [pow_succ]; omega
        obtain ⟨e, he, hL⟩ := ih t (x % (2 ^ (t + 1) - 1)) (by omega) (by omega)
        refine ⟨e, he, ?_⟩
        by_cases hx : x < 2 ^ (t + 1) - 1
        · rw [Nat.mod_eq_of_lt hx] at hL; exact hL
        · have hm : x % (2 ^ (t + 1) - 1) = x - (2 ^ (t + 1) - 1) := by
            rw [Nat.mod_eq_sub_mod (by omega)]
            apply Nat.mod_eq_of_lt
            omega
          rw [hm] at hL
          exact LubyExp.sub x (t + 1 + 1) e (by simpa using (by omega : 2 ^ (t + 1) ≤ x + 1))
            (by omega) (by simpa using hL)
    · rw [if_neg h]
      refine ⟨seq, rfl, ?_⟩
      have hp := two_pow_pos (seq + 1)
      have := LubyExp.top x (seq + 1) (by omega)
      simpa using this

theorem LubyExp.unique_exp : ∀ (n x e e' : Nat), x < n → LubyExp x e → LubyExp x e' → e = e' := by
  intro n
  induction n with
  | zero => intro x e e' h; omega
  | succ n ih =>
    intro x e e' hx h h'
    have key : ∀ a b : Nat, a < b → 2 ^ a * 2 ≤ 2 ^ b := by
      intro a b hab
      rw [← pow_succ]
      exact Nat.pow_le_pow_right (by decide) hab
    cases h with
    | top _ k hk =>
      cases h' with
      | top _ k' hk' =>
        have hp := two_pow_pos k
        have hp' := two_pow_pos k'
        have : 2 ^ k = 2 ^ k' := by omega
        have := Nat.pow_right_injective (le_refl 2) this
        rw [this]
      | sub _ k' _ h1 h2 h3 =>
        exfalso
        have hp := two_pow_pos k
        rcases Nat.lt_or_ge k k' with hlt | hge
        · have := Nat.pow_le_pow_right (by decide : 0 < 2) (by omega : k ≤ k' - 1)
          omega
        · have := Nat.pow_le_pow_right (by decide : 0 < 2) hge
          omega
    | sub _ k _ h1 h2 h3 =>
      cases h' with
      | top _ k' hk' =>
        exfalso
        have hp := two_pow_pos k'
        rcases Nat.lt_or_ge k' k with hlt | hge
        · have := Nat.pow_le_pow_right (by decide : 0 < 2) (by omega : k' ≤ k - 1)
          omega
        · have := Nat.pow_le_pow_right (by decide : 0 < 2) hge
          omega
      | sub _ k' _ h1' h2' h3' =>
        have hk : k = k' := by
          rcases Nat.lt_trichotomy k k' with hlt | heq | hgt
          · exfalso
            have := Nat.pow_le_pow_right (by decide : 0 < 2) (by omega : k ≤ k' - 1)
            omega
          · exact heq
          · exfalso
            have := Nat.pow_le_pow_right (by decide : 0 < 2) (by omega : k' ≤ k - 1)
            omega
        subst hk
        have hk1 : 1 ≤ k := by
          rcases Nat.eq_zero_or_pos k with h0 | h0
          · subst h0; simp at h2
          · exact h0
        have hp := two_pow_pos (k - 1)
        have h2p : 2 ≤ 2 ^ (k - 1) := by
          by_contra hc
          have h1p : 2 ^ (k - 1) = 1 := by omega
          have : 2 ^ k = 2 := by
            have := pow_succ 2 (k - 1)
            rw [show k - 1 + 1 = k by omega] at this
            omega
          omega
        exact ih _ e e' (by omega) h3 h3'

/-- C17 (amended): for every `x` with `0 ≤ x < INT_MAX` both loops of `luby(y, x)` terminate
without overflow and the result is `y` raised to the exponent `e(x)` that the recurrence
determines (`e(x) = k - 1` if `x + 1 = 2^k - 1`, else `e(x) = e(x - (2^(k-1) - 1))` with
`2^(k-1) ≤ x + 1 < 2^k - 1`); for `y = 2` the values at `x = 0..14` are
`1,1,2,1,1,2,4,1,1,2,1,1,2,4,8`. -/
theorem luby_spec (y : ℚ) (x : Nat) (hx : x < INT_MAX) :
    (∃ e, luby y x = some (y ^ e) ∧ LubyExp x e ∧ ∀ e', LubyExp x e' → e' = e) ∧
    (List.range 15).map (luby 2) =
      [some 1, some 1, some 2, some 1, some 1, some 2, some 4, some 1, some 1, some 2,
       some 1, some 1, some 2, some 4, some 8] := by
  have main : ∀ (y : ℚ) (x : Nat), x < INT_MAX → ∃ e, luby y x = some (y ^ e) ∧ LubyExp x e := by
    intro y x hx
    obtain ⟨t, ht, h1, h2⟩ := lubyUp_spec x hx (x + 2) 0 (by simp) (by omega)
    have hfuel : t + 1 ≤ x + 2 := by
      have := seq_lt_two_pow t
      omega
    obtain ⟨e, he, hL⟩ := lubyDown_spec (x + 2) t x h2 hfuel
    refine ⟨e, ?_, hL⟩
    unfold luby
    have ht' : lubyUp x (x + 2) 1 0 = some (2 ^ (t + 1) - 1, t) := by simpa using ht
    rw [ht']
    dsimp only
    rw [he]
  have vals : ∀ x e, x < 15 → LubyExp x e → luby 2 x = some ((2 : ℚ) ^ e) := by
    intro x e hx15 hL
    have hxm : x < INT_MAX := by
      have := int_max_eq
      have : (15 : Nat) ≤ 2 ^ 31 - 1 := by decide
      omega
    obtain ⟨e1, h1, h2⟩ := main 2 x hxm
    rw [h1, LubyExp.unique_exp (x + 1) x e e1 (by omega) hL h2]
  constructor
  · obtain ⟨e, h1, h2⟩ := main y x hx
    exact ⟨e, h1, h2, fun e' h' => LubyExp.unique_exp (x + 1) x e' e (by omega) h' h2⟩
  · have t0 : LubyExp 0 0 := LubyExp.top 0 1 (by decide)
    have t2 : LubyExp 2 1 := LubyExp.top 2 2 (by decide)
    have t6 : LubyExp 6 2 := LubyExp.top 6 3 (by decide)
    have t14 : LubyExp 14 3 := LubyExp.top 14 4 (by decide)
    have t1 : LubyExp 1 0 := LubyExp.sub 1 2 0 (by decide) (by decide) t0
    have t3 : LubyExp 3 0 := LubyExp.sub 3 3 0 (by decide) (by decide) t0
    have t4 : LubyExp 4 0 := LubyExp.sub 4 3 0 (by decide) (by decide) t1
    have t5 : LubyExp 5 1 := LubyExp.sub 5 3 1 (by decide) (by decide) t2
    have t7 : LubyExp 7 0 := LubyExp.sub 7 4 0 (by decide) (by decide) t0
    have t8 : LubyExp 8 0 := LubyExp.sub 8 4 0 (by decide) (by decide) t1
    have t9 : LubyExp 9 1 := LubyExp.sub 9 4 1 (by decide) (by decide) t2
    have t10 : LubyExp 10 0 := LubyExp.sub 10 4 0 (by decide) (by decide) t3
    have t11 : LubyExp 11 0 := LubyExp.sub 11 4 0 (by decide) (by decide) t4
    have t12 : LubyExp 12 1 := LubyExp.sub 12 4 1 (by decide) (by decide) t5
    have t13 : LubyExp 13 2 := LubyExp.sub 13 4 2 (by decide) (by decide) t6
    simp only [List.range, List.range.loop, List.map]
    rw [vals _ _ (by decide) t0, vals _ _ (by decide) t1, vals _ _ (by decide) t2,
      vals _ _ (by decide) t3, vals _ _ (by decide) t4, vals _ _ (by decide) t5,
      vals _ _ (by decide) t6, vals _ _ (by decide) t7, vals _ _ (by decide) t8,
      vals _ _ (by decide) t9, vals _ _ (by decide) t10, vals _ _ (by decide) t11,
      vals _ _ (by decide) t12, vals _ _ (by decide) t13, vals _ _ (by decide) t14]
    norm_num

end Minisat


namespace Minisat
open lbool

/-! ## Watched literals after `propagate` -/

theorem Inv.propagate_none {fuel : Nat} {s : Solver} {r : Option CRef × Solver} (h : Inv s)
    (hp : propagate fuel s = some r) (hn : r.1 = none) : Inv r.2 := by
  obtain ⟨h1, -, h3, -⟩ := propagate_inv h.tr h.wt hp
  exact ⟨h1, h3 hn, propagate_aux h.tr h.wt h.ax hp⟩

theorem Inv.exProp_inv {s : Solver} (h : Inv s)
    (hn : (propagate 20 s).map Prod.fst = some none) : Inv (exProp s) := by
  unfold exProp
  cases hp : propagate 20 s with
  | none => rw [hp] at hn; cases hn
  | some r =>
    rw [hp] at hn
    exact h.propagate_none hp (by simpa using hn)

/-- C20, as the code has it: after `propagate` returns without conflict, an attached clause with
a false watched literal `lits[0]` or `lits[1]` has a true literal, which need not be the other
watched literal (it can be the blocker of the watcher). -/
theorem propagate_watched (fuel : Nat) (s : Solver) (r : Option CRef × Solver)
    (htr : TrailInv s) (hwt : WatchInv s s.qhead) (h : propagate fuel s = some r)
    (hn : r.1 = none) (cr : CRef) (hcr : Attached r.2 cr) (i : Nat) (hi : i < 2)
    (hf : value r.2 ((r.2.ca.cl cr).get i) = l_False) :
    ∃ t ∈ (r.2.ca.cl cr).lits, value r.2 t = l_True := by
  obtain ⟨h1, h2, h3, -⟩ := propagate_inv htr hwt h
  have hw := h3 hn
  rw [h2] at hw
  have hwatch : (r.2.ca.cl cr).watching ((r.2.ca.cl cr).get i) := by
    unfold Clause.watching
    rcases (by omega : i = 0 ∨ i = 1) with e | e
    · left; rw [e]
    · right; rw [e]
  exact WatchInv.true_of_false h1 hw hcr hwatch hf

end Minisat


namespace Minisat
open lbool

/-! ## `addSymmetry` and `testSymmetry` -/

theorem addSymmetryStep_fields (sym : Symmetry) (st : SymSolver) (f t : Lit) (b : Bool) :
    (addSymmetryStep sym st f t b).1.symmetries = st.symmetries ∧
    (addSymmetryStep sym st f t b).1.watcherSymmetries =
      Function.update st.watcherSymmetries f (st.watcherSymmetries f ++ [sym]) := by
  unfold addSymmetryStep
  split_ifs <;> exact ⟨rfl, rfl⟩

theorem pairsBefore_cons_ne {p : Lit × Lit} (rest : List (Lit × Lit)) (h : p.1 ≠ p.2) :
    pairsBefore (p :: rest) = p.1 :: pairsBefore rest := by
  unfold pairsBefore
  rw [List.takeWhile_cons_of_pos (by simpa using h)]
  rfl

theorem pairsBefore_cons_eq {p : Lit × Lit} (rest : List (Lit × Lit)) (h : p.1 = p.2) :
    pairsBefore (p :: rest) = [] := by
  unfold pairsBefore
  rw [List.takeWhile_cons_of_neg (by simpa using h)]
  rfl

theorem addSymmetryLoop_abort (sym : Symmetry) :
    ∀ (ps : List (Lit × Lit)) (st : SymSolver) (b : Bool), (∃ p ∈ ps, p.1 = p.2) →
      ∃ r, addSymmetryLoop sym ps st b = Outcome.aborted r ∧
        r.1.symmetries = st.symmetries ∧
        ∀ l, r.1.watcherSymmetries l =
          st.watcherSymmetries l ++ List.replicate ((pairsBefore ps).count l) sym := by
  intro ps
  induction ps with
  | nil => intro st b h; obtain ⟨p, hp, -⟩ := h; cases hp
  | cons p rest ih =>
    intro st b h
    unfold addSymmetryLoop
    by_cases hp : p.1 = p.2
    · rw [if_pos hp]
      refine ⟨(st, b), rfl, rfl, ?_⟩
      intro l
      rw [pairsBefore_cons_eq rest hp]
      simp
    · rw [if_neg hp]
      have hrest : ∃ q ∈ rest, q.1 = q.2 := by
        obtain ⟨q, hq, e⟩ := h
        rcases List.mem_cons.mp hq with h1 | h1
        · rw [h1] at e; exact absurd e hp
        · exact ⟨q, h1, e⟩
      obtain ⟨r, hr, h1, h2⟩ := ih (addSymmetryStep sym st p.1 p.2 b).1
        (addSymmetryStep sym st p.1 p.2 b).2 hrest
      obtain ⟨f1, f2⟩ := addSymmetryStep_fields sym st p.1 p.2 b
      refine ⟨r, hr, by rw [h1, f1], ?_⟩
      intro l
      rw [h2 l, f2, pairsBefore_cons_ne rest hp]
      by_cases e : l = p.1
      · subst e
        rw [Function.update_same, List.count_cons_self, List.replicate_succ, List.append_assoc]
        rfl
      · rw [Function.update_noteq e, List.count_cons_of_ne e]

theorem exists_pair_of_index {src tgt : List Lit} (hl : src.length = tgt.length) {i : Nat}
    (hi : i < src.length) (h : src.getD i 0 = tgt.getD i 0) :
    ∃ p ∈ src.zip tgt, p.1 = p.2 := by
  have hi2 : i < tgt.length := by omega
  have hz : i < (src.zip tgt).length := by simp; omega
  refine ⟨(src.zip tgt)[i], List.getElem_mem hz, ?_⟩
  rw [List.getElem_zip]
  simp only
  rw [List.getD_eq_getElem _ _ hi, List.getD_eq_getElem _ _ hi2] at h
  exact h

/-- C14, as the code has it: `addSymmetry(from, to)` fails an assertion whenever the two arrays
have different lengths or `from[i] = to[i]` for some `i`.  With different lengths nothing has
been written.  With equal lengths the symmetry object is, at the failing assertion, already the
last element of `symmetries`, and of `watcherSymmetries[from[j]]` for every `j` before the first
index with `from[j] = to[j]`. -/
theorem addSymmetry_rejects (st : SymSolver) (src tgt : List Lit)
    (h : src.length ≠ tgt.length ∨ ∃ i, i < src.length ∧ src.getD i 0 = tgt.getD i 0) :
    ∃ st', addSymmetry st src tgt = Outcome.aborted st' ∧
      (src.length ≠ tgt.length → st' = st) ∧
      (src.length = tgt.length →
        st'.symmetries = st.symmetries ++ [⟨st.symmetries.length, src, tgt⟩] ∧
        ∀ l, st'.watcherSymmetries l =
          st.watcherSymmetries l ++
            List.replicate ((pairsBefore (src.zip tgt)).count l)
              ⟨st.symmetries.length, src, tgt⟩) := by
  unfold addSymmetry
  by_cases hl : src.length ≠ tgt.length
  · rw [if_pos hl]
    exact ⟨st, rfl, fun _ => rfl, fun e => absurd e hl⟩
  · rw [if_neg hl]
    have hl' : src.length = tgt.length := by omega
    have hex : ∃ p ∈ src.zip tgt, p.1 = p.2 := by
      rcases h with h | ⟨i, hi, e⟩
      · exact absurd h hl
      · exact exists_pair_of_index hl' hi e
    obtain ⟨r, hr, h1, h2⟩ := addSymmetryLoop_abort ⟨st.symmetries.length, src, tgt⟩
      (src.zip tgt) (pushSymmetry st ⟨st.symmetries.length, src, tgt⟩) false hex
    rw [hr]
    exact ⟨r.1, rfl, fun e => absurd hl' e, fun _ => ⟨h1, h2⟩⟩

theorem sameSet_iff (a b : List Lit) : sameSet a b = true ↔ ∀ l, l ∈ a ↔ l ∈ b := by
  unfold sameSet
  simp only [Bool.and_eq_true, List.all_eq_true, decide_eq_true_eq]
  constructor
  · rintro ⟨h1, h2⟩ l
    exact ⟨h1 l, h2 l⟩
  · intro h
    exact ⟨fun l hl => (h l).mp hl, fun l hl => (h l).mpr hl⟩

theorem hasSymmetricalIn_iff (inv : Lit → Lit) (s : Solver) (orig : Clause) :
    ∀ crs : List CRef, hasSymmetricalIn inv s orig crs = true ↔
      ∃ cr ∈ crs, orig.size = (s.ca.cl cr).size ∧
        sameSet ((s.ca.cl cr).lits.map inv) orig.lits = true := by
  intro crs
  induction crs with
  | nil => simp [hasSymmetricalIn]
  | cons cr crs ih =>
    unfold hasSymmetricalIn
    by_cases h : orig.size = (s.ca.cl cr).size ∧
        sameSet ((s.ca.cl cr).lits.map inv) orig.lits = true
    · rw [if_pos h]
      simp only [true_iff]
      exact ⟨cr, List.mem_cons_self _ _, h⟩
    · rw [if_neg h, ih]
      constructor
      · rintro ⟨c, hc, hh⟩
        exact ⟨c, List.mem_cons_of_mem _ hc, hh⟩
      · rintro ⟨c, hc, hh⟩
        rcases List.mem_cons.mp hc with e | e
        · rw [e] at hh; exact absurd hh h
        · exact ⟨c, e, hh⟩

theorem testSymmetryLoop_iff (img inv : Lit → Lit) (s : Solver) (all : List CRef) :
    ∀ crs : List CRef, testSymmetryLoop img inv s all crs = some true ↔
      ∀ cr ∈ crs, sameSet ((s.ca.cl cr).lits.map img) (s.ca.cl cr).lits = true ∨
        hasSymmetricalIn inv s (s.ca.cl cr) all = true := by
  intro crs
  induction crs with
  | nil => simp [testSymmetryLoop]
  | cons cr crs ih =>
    unfold testSymmetryLoop
    by_cases h : sameSet ((s.ca.cl cr).lits.map img) (s.ca.cl cr).lits = true ∨
        hasSymmetricalIn inv s (s.ca.cl cr) all = true
    · rw [if_pos h, ih]
      constructor
      · intro hh c hc
        rcases List.mem_cons.mp hc with e | e
        · rw [e]; exact h
        · exact hh c e
      · intro hh c hc
        exact hh c (List.mem_cons_of_mem _ hc)
    · rw [if_neg h]
      constructor
      · intro hh; cases hh
      · intro hh
        exact absurd (hh cr (List.mem_cons_self _ _)) h

theorem testSymmetryLoop_cases (img inv : Lit → Lit) (s : Solver) (all : List CRef) :
    ∀ crs : List CRef, testSymmetryLoop img inv s all crs = some true ∨
      testSymmetryLoop img inv s all crs = none := by
  intro crs
  induction crs with
  | nil => left; rfl
  | cons cr crs ih =>
    unfold testSymmetryLoop
    split_ifs
    · exact ih
    · right; rfl

theorem image_clause_iff {img inv : Lit → Lit} (h1 : ∀ l, inv (img l) = l)
    (h2 : ∀ l, img (inv l) = l) {d d' : List Lit} (hd : d.Nodup) (hd' : d'.Nodup) :
    (d.length = d'.length ∧ sameSet (d'.map inv) d = true) ↔
      ∀ l, l ∈ d' ↔ ∃ l0 ∈ d, img l0 = l := by
  rw [sameSet_iff]
  constructor
  · rintro ⟨-, h⟩ l
    constructor
    · intro hl
      exact ⟨inv l, (h (inv l)).mp (List.mem_map_of_mem inv hl), h2 l⟩
    · rintro ⟨l0, hl0, e⟩
      obtain ⟨l', hl', e'⟩ := List.mem_map.mp ((h l0).mpr hl0)
      rw [← e, ← e', h2]; exact hl'
  · intro h
    have hinj : Function.Injective img := by
      intro a b e
      rw [← h1 a, ← h1 b, e]
    have hperm : (d.map img).Perm d' := by
      rw [List.perm_ext_iff_of_nodup (hd.map hinj) hd']
      intro l
      rw [h l, List.mem_map]
    constructor
    · have := hperm.length_eq
      rw [List.length_map] at this
      exact this
    · intro x
      constructor
      · intro hx
        obtain ⟨l', hl', e⟩ := List.mem_map.mp hx
        obtain ⟨l0, hl0, e0⟩ := (h l').mp hl'
        rw [← e, ← e0, h1]; exact hl0
      · intro hx
        have : img x ∈ d' := (h (img x)).mpr ⟨x, hx, rfl⟩
        have := List.mem_map_of_mem inv this
        rw [h1] at this
        exact this

/-- C15: with the debug checks on, `getInverse` and `getSymmetrical` inverse to each other (and
the stored clauses free of repeated literals, `nClauses()` the length of `clauses`, as
`addClause_` keeps them), `testSymmetry(sym)` passes exactly when every stored original clause
`D` has a stored original clause `D'`, possibly `D` itself, whose literal set is the image of
`D`; otherwise its assertion fails. -/
theorem testSymmetry_iff (img inv : Lit → Lit) (s : Solver)
    (h1 : ∀ l, inv (img l) = l) (h2 : ∀ l, img (inv l) = l)
    (hn : nClauses s = s.clauses.length)
    (hnd : ∀ cr ∈ s.clauses, (s.ca.cl cr).lits.Nodup) :
    (testSymmetry true img inv s = some true ↔
      ∀ cr ∈ s.clauses, ∃ cr' ∈ s.clauses,
        ∀ l, l ∈ (s.ca.cl cr').lits ↔ ∃ l0 ∈ (s.ca.cl cr).lits, img l0 = l) ∧
    (testSymmetry true img inv s = some true ∨ testSymmetry true img inv s = none) := by
  have hunf : testSymmetry true img inv s =
      testSymmetryLoop img inv s s.clauses s.clauses := by
    unfold testSymmetry
    rw [if_neg (by simp), if_neg (by omega), hn, List.take_length]
  rw [hunf]
  refine ⟨?_, testSymmetryLoop_cases img inv s s.clauses s.clauses⟩
  rw [testSymmetryLoop_iff]
  constructor
  · intro h cr hcr
    rcases h cr hcr with hs | hs
    · refine ⟨cr, hcr, ?_⟩
      intro l
      rw [← (sameSet_iff _ _).mp hs l, List.mem_map]
    · obtain ⟨cr', hcr', hsz, hset⟩ := (hasSymmetricalIn_iff inv s _ _).mp hs
      exact ⟨cr', hcr', (image_clause_iff h1 h2 (hnd cr hcr) (hnd cr' hcr')).mp ⟨hsz, hset⟩⟩
  · intro h cr hcr
    obtain ⟨cr', hcr', hh⟩ := h cr hcr
    right
    rw [hasSymmetricalIn_iff]
    obtain ⟨hsz, hset⟩ := (image_clause_iff h1 h2 (hnd cr hcr) (hnd cr' hcr')).mpr hh
    exact ⟨cr', hcr', hsz, hset⟩

theorem exSwap_exSwap (l : Nat) : exSwap (exSwap l) = l := by
  unfold exSwap
  split_ifs <;> simp_all

end Minisat


namespace cosy

/-! ## Cycles of a permutation -/

theorem limsOf_append (cs : List (List Int)) (c : List Int) :
    ∀ off, limsOf (cs ++ [c]) off = limsOf cs off ++ [off + cs.flatten.length + c.length] := by
  induction cs with
  | nil => intro off; simp [limsOf]
  | cons d cs ih =>
    intro off
    show (off + d.length) :: limsOf (cs ++ [c]) (off + d.length) =
      limsOf (d :: cs) off ++ [off + (d :: cs).flatten.length + c.length]
    rw [ih (off + d.length)]
    simp only [limsOf, List.flatten_cons, List.length_append, List.cons_append]
    rw [show off + d.length + cs.flatten.length + c.length =
      off + (d.length + cs.flatten.length) + c.length by omega]

theorem limsOf_length (cs : List (List Int)) : ∀ off, (limsOf cs off).length = cs.length := by
  induction cs with
  | nil => intro off; rfl
  | cons d cs ih => intro off; simp [limsOf, ih]

theorem limsOf_getLastD (cs : List (List Int)) :
    ∀ off, (limsOf cs off).getLastD off = off + cs.flatten.length := by
  induction cs with
  | nil => intro off; simp [limsOf]
  | cons d cs ih =>
    intro off
    simp only [limsOf, List.getLastD_cons, ih, List.flatten_cons, List.length_append]
    omega

theorem limsOf_getD (cs : List (List Int)) :
    ∀ off i, i < cs.length →
      (limsOf cs off).getD i 0 = off + (cs.take (i + 1)).flatten.length := by
  induction cs with
  | nil => intro off i hi; cases hi
  | cons d cs ih =>
    intro off i hi
    cases i with
    | zero => simp [limsOf]
    | succ i =>
      simp only [limsOf, List.getD_cons_succ, List.take_succ_cons, List.flatten_cons,
        List.length_append]
      rw [ih (off + d.length) i (by simpa using hi)]
      omega

theorem take_flatten_split (cs : List (List Int)) (i : Nat) (hi : i < cs.length) :
    cs.flatten = (cs.take i).flatten ++ cs.getD i [] ++ (cs.drop (i + 1)).flatten := by
  have h1 : cs = cs.take i ++ cs.getD i [] :: cs.drop (i + 1) := by
    rw [List.getD_eq_getElem _ _ hi]
    simp
  conv_lhs => rw [h1]
  simp

theorem take_succ_flatten (cs : List (List Int)) (i : Nat) (hi : i < cs.length) :
    (cs.take (i + 1)).flatten = (cs.take i).flatten ++ cs.getD i [] := by
  rw [List.take_succ, List.getD_eq_getElem _ _ hi, List.getElem?_eq_getElem hi]
  show (List.take i cs ++ [cs[i]]).flatten = _
  rw [List.flatten_append]
  simp

/-- The cycle `i` of a permutation that holds the closed cycles `cs` is `cs[i]`. -/
theorem cycle_of_layout {p : Permutation} {cs : List (List Int)} (hc : p.cycles = cs.flatten)
    (hl : p.cycles_lim = limsOf cs 0) {i : Nat} (hi : i < cs.length) :
    p.cycle i = some (cs.getD i []) := by
  unfold Permutation.cycle Permutation.numberOfCycles
  rw [hl, limsOf_length, if_pos hi, hc]
  congr 1
  have hstart : (if i = 0 then 0 else (limsOf cs 0).getD (i - 1) 0) =
      (cs.take i).flatten.length := by
    cases i with
    | zero => simp
    | succ i =>
      rw [if_neg (by omega)]
      simp only [Nat.add_sub_cancel]
      rw [limsOf_getD cs 0 i (by omega)]
      simp
  rw [hstart, limsOf_getD cs 0 i hi, Nat.zero_add, take_succ_flatten cs i hi]
  have hsplit := take_flatten_split cs i hi
  rw [hsplit, List.take_left' rfl, List.drop_left' rfl]

theorem getD_right (l l' : List Int) (j : Nat) :
    (l ++ l').getD (l.length + j) 0 = l'.getD j 0 := by
  induction l with
  | nil => simp
  | cons a l ih =>
    rw [List.cons_append, List.length_cons, show l.length + 1 + j = (l.length + j) + 1 by omega,
      List.getD_cons_succ]
    exact ih

theorem getD_mem (l : List Int) {j : Nat} (hj : j < l.length) : l.getD j 0 ∈ l := by
  rw [List.getD_eq_getElem _ _ hj]; exact List.getElem_mem _

theorem getD_inj {l : List Int} (hnd : l.Nodup) {i j : Nat} (hi : i < l.length)
    (hj : j < l.length) (h : l.getD i 0 = l.getD j 0) : i = j := by
  rw [List.getD_eq_getElem _ _ hi, List.getD_eq_getElem _ _ hj] at h
  exact (List.Nodup.getElem_inj_iff hnd).mp h

theorem PermInv.length_eq {p : Permutation} {cs : List (List Int)} {cur : List Int}
    (h : PermInv p cs cur) : p.cycles.length = cs.flatten.length + cur.length := by
  rw [h.cycles_eq, List.length_append]

theorem PermInv.back_eq {p : Permutation} {cs : List (List Int)} {cur : List Int}
    (h : PermInv p cs cur) : p.cycles_lim.getLastD 0 = cs.flatten.length := by
  rw [h.lims_eq, limsOf_getLastD, Nat.zero_add]

theorem CycOk.of_update {img inv : Int → Option Int} {c : List Int} (h : CycOk img inv c)
    {e i : Int} (x y : Option Int) (he : e ∉ c) (hi : i ∉ c) (hc : c ≠ []) :
    CycOk (Function.update img e x) (Function.update inv i y) c := by
  intro j hj
  have hlen : 0 < c.length := List.length_pos.mpr hc
  have h1 : c.getD j 0 ≠ e := fun e1 => he (e1 ▸ getD_mem c hj)
  have h2 : c.getD ((j + 1) % c.length) 0 ≠ i :=
    fun e1 => hi (e1 ▸ getD_mem c (Nat.mod_lt _ hlen))
  rw [Function.update_noteq h1, Function.update_noteq h2]
  exact h j hj

/-- `addToCurrentCycle(x)` appends `x` to the open cycle. -/
theorem PermInv.add_step {p : Permutation} {cs : List (List Int)} {cur : List Int}
    (h : PermInv p cs cur) {x : Int} (hnd : (p.cycles ++ [x]).Nodup) :
    PermInv (p.addToCurrentCycle x) cs (cur ++ [x]) := by
  have hlen := h.length_eq
  have hback := h.back_eq
  have hnd' : (cs.flatten ++ cur ++ [x]).Nodup := by rw [← h.cycles_eq]; exact hnd
  have hx : x ∉ cs.flatten ++ cur := by
    intro hm
    rw [List.nodup_append] at hnd'
    exact hnd'.2.2 hm (List.mem_singleton_self x)
  have hfc : (cs.flatten ++ cur).Nodup := (List.nodup_append.mp hnd').1
  unfold Permutation.addToCurrentCycle
  by_cases hc : cur = []
  · subst hc
    rw [if_neg (by rw [hback, hlen]; simp)]
    refine ⟨?_, h.lims_eq, h.two_le, h.closed, ?_⟩
    · show p.cycles ++ [x] = _
      rw [h.cycles_eq]; simp
    · intro j hj; simp at hj
  · have hpos : 0 < cur.length := List.length_pos.mpr hc
    rw [if_pos ⟨by simp, by rw [hback, hlen]; omega⟩]
    have e1 : (p.cycles ++ [x]).getD (p.cycles.length - 1) 0 = cur.getD (cur.length - 1) 0 := by
      rw [h.cycles_eq, List.append_assoc,
        show (cs.flatten ++ cur).length - 1 = cs.flatten.length + (cur.length - 1) by
          rw [List.length_append]; omega,
        getD_right, Minisat.getD_append_left _ _ _ (by omega)]
    have e2 : (p.cycles ++ [x]).getD p.cycles.length 0 = x :=
      Minisat.getD_append_length _ _ _
    rw [e1, e2]
    have hlast : cur.getD (cur.length - 1) 0 ∈ cur := getD_mem cur (by omega)
    refine ⟨?_, h.lims_eq, h.two_le, ?_, ?_⟩
    · show p.cycles ++ [x] = _
      rw [h.cycles_eq, List.append_assoc]
    · intro c hcm
      have hsub : ∀ y ∈ c, y ∈ cs.flatten := fun y hy => List.mem_flatten.mpr ⟨c, hcm, hy⟩
      apply (h.closed c hcm).of_update
      · intro hm
        exact (List.nodup_append.mp hfc).2.2 (hsub _ hm) hlast
      · intro hm
        exact hx (List.mem_append_left _ (hsub _ hm))
      · intro e; have := h.two_le c hcm; rw [e] at this; simp at this
    · intro j hj
      rw [List.length_append, List.length_singleton] at hj
      show Function.update p.image _ _ _ = _ ∧ Function.update p.inverse _ _ _ = _
      by_cases hjl : j + 1 < cur.length
      · have a1 : (cur ++ [x]).getD j 0 = cur.getD j 0 :=
          Minisat.getD_append_left _ _ _ (by omega)
        have a2 : (cur ++ [x]).getD (j + 1) 0 = cur.getD (j + 1) 0 :=
          Minisat.getD_append_left _ _ _ hjl
        rw [a1, a2]
        have n1 : cur.getD j 0 ≠ cur.getD (cur.length - 1) 0 := by
          intro e
          have := getD_inj (List.nodup_append.mp hfc).2.1 (by omega) (by omega) e
          omega
        have n2 : cur.getD (j + 1) 0 ≠ x := by
          intro e
          exact hx (List.mem_append_right _ (e ▸ getD_mem cur hjl))
        rw [Function.update_noteq n1, Function.update_noteq n2]
        exact h.chain j hjl
      · have ej : j = cur.length - 1 := by omega
        have a1 : (cur ++ [x]).getD j 0 = cur.getD (cur.length - 1) 0 := by
          rw [ej]; exact Minisat.getD_append_left _ _ _ (by omega)
        have a2 : (cur ++ [x]).getD (j + 1) 0 = x := by
          rw [show j + 1 = cur.length by omega]; exact Minisat.getD_append_length _ _ _
        rw [a1, a2, Function.update_same, Function.update_same]
        exact ⟨rfl, rfl⟩

/-- `closeCurrentCycle()` does nothing without an open cycle, fails on an open cycle of one
element, and closes a longer one. -/
theorem PermInv.close_step {p q : Permutation} {cs : List (List Int)} {cur : List Int}
    (h : PermInv p cs cur) (hnd : p.cycles.Nodup) (hq : p.closeCurrentCycle = some q) :
    (cur = [] ∧ q = p) ∨ (2 ≤ cur.length ∧ PermInv q (cs ++ [cur]) []) := by
  have hlen := h.length_eq
  have hback := h.back_eq
  have hfc : (cs.flatten ++ cur).Nodup := by rw [← h.cycles_eq]; exact hnd
  unfold Permutation.closeCurrentCycle at hq
  by_cases hc : p.cycles_lim.getLastD 0 = p.cycles.length
  · rw [if_pos hc] at hq
    left
    refine ⟨?_, (Option.some.inj hq).symm⟩
    rw [hback, hlen] at hc
    exact List.length_eq_zero.mp (by omega)
  · rw [if_neg hc] at hq
    by_cases h2 : p.cycles.length < p.cycles_lim.getLastD 0 + 2
    · rw [if_pos h2] at hq; cases hq
    · rw [if_neg h2] at hq
      rw [hback, hlen] at h2
      have hcl : 2 ≤ cur.length := by omega
      right
      refine ⟨hcl, ?_⟩
      have hc1 : (p.pushLim p.cycles.length).cycles = (cs ++ [cur]).flatten := by
        show p.cycles = _
        rw [h.cycles_eq]; simp
      have hl1 : (p.pushLim p.cycles.length).cycles_lim = limsOf (cs ++ [cur]) 0 := by
        show p.cycles_lim ++ [p.cycles.length] = _
        rw [limsOf_append, h.lims_eq, hlen, Nat.zero_add]
      have hn : (p.pushLim p.cycles.length).cycles_lim.length - 1 = cs.length := by
        rw [hl1, limsOf_length]; simp
      have hcyc : (p.pushLim p.cycles.length).cycle cs.length = some cur := by
        rw [cycle_of_layout hc1 hl1 (by simp)]
        congr 1
        rw [List.getD_eq_getElem _ _ (by simp)]
        simp
      have hlast : (p.pushLim p.cycles.length).lastElementInCycle cs.length =
          some (cur.getD (cur.length - 1) 0) := by
        unfold Permutation.lastElementInCycle Permutation.numberOfCycles
        rw [hl1, limsOf_length, if_pos (by simp)]
        congr 1
        have : (limsOf (cs ++ [cur]) 0).getD cs.length 0 = cs.flatten.length + cur.length := by
          rw [limsOf_append, ← limsOf_length cs 0, Minisat.getD_append_length, Nat.zero_add]
        rw [this]
        show p.cycles.getD _ 0 = _
        rw [h.cycles_eq,
          show cs.flatten.length + cur.length - 1 = cs.flatten.length + (cur.length - 1) by omega,
          getD_right]
      rw [hn, hcyc, hlast] at hq
      obtain ⟨a, rest, ecur⟩ : ∃ a rest, cur = a :: rest := by
        cases cur with
        | nil => simp at hcl
        | cons a rest => exact ⟨a, rest, rfl⟩
      have ha : a = cur.getD 0 0 := by rw [ecur]; rfl
      rw [ecur] at hq
      dsimp only at hq
      rw [← ecur, ha] at hq
      have hq' := (Option.some.inj hq).symm
      have hdisj := (List.nodup_append.mp hfc).2.2
      have hcn := (List.nodup_append.mp hfc).2.1
      have hm0 : cur.getD 0 0 ∈ cur := getD_mem cur (by omega)
      have hml : cur.getD (cur.length - 1) 0 ∈ cur := getD_mem cur (by omega)
      rw [hq']
      refine ⟨?_, hl1, ?_, ?_, ?_⟩
      · show p.cycles = _
        rw [h.cycles_eq]; simp
      · intro c hcm
        rcases List.mem_append.mp hcm with h1 | h1
        · exact h.two_le c h1
        · rw [List.mem_singleton.mp h1]; exact hcl
      · intro c hcm
        show CycOk (Function.update p.image _ _) (Function.update p.inverse _ _) c
        rcases List.mem_append.mp hcm with h1 | h1
        · have hsub : ∀ y ∈ c, y ∈ cs.flatten := fun y hy => List.mem_flatten.mpr ⟨c, h1, hy⟩
          apply (h.closed c h1).of_update
          · intro hm; exact hdisj (hsub _ hm) hml
          · intro hm; exact hdisj (hsub _ hm) hm0
          · intro e; have := h.two_le c h1; rw [e] at this; simp at this
        · rw [List.mem_singleton.mp h1]
          intro j hj
          by_cases hjl : j + 1 < cur.length
          · rw [Nat.mod_eq_of_lt hjl]
            have n1 : cur.getD j 0 ≠ cur.getD (cur.length - 1) 0 := by
              intro e
              have := getD_inj hcn (by omega) (by omega) e
              omega
            have n2 : cur.getD (j + 1) 0 ≠ cur.getD 0 0 := by
              intro e
              have := getD_inj hcn hjl (by omega) e
              omega
            rw [Function.update_noteq n1, Function.update_noteq n2]
            exact h.chain j hjl
          · have ej : j + 1 = cur.length := by omega
            rw [ej, Nat.mod_self, show j = cur.length - 1 by omega, Function.update_same,
              Function.update_same]
            exact ⟨rfl, rfl⟩
      · intro j hj; simp at hj

theorem add_cycles (p : Permutation) (x : Int) :
    (p.addToCurrentCycle x).cycles = p.cycles ++ [x] := by
  unfold Permutation.addToCurrentCycle
  split_ifs <;> rfl

theorem close_cycles {p q : Permutation} (h : p.closeCurrentCycle = some q) :
    q.cycles = p.cycles := by
  unfold Permutation.closeCurrentCycle at h
  split_ifs at h
  · rw [← Option.some.inj h]
  · split at h
    · rw [← Option.some.inj h]; rfl
    · cases h

theorem run_prefix : ∀ (ops : List PermOp) (p q : Permutation),
    Permutation.run ops p = some q → p.cycles <+: q.cycles := by
  intro ops
  induction ops with
  | nil =>
    intro p q h
    rw [← Option.some.inj h]
  | cons op ops ih =>
    intro p q h
    cases op with
    | add x =>
      have := ih _ _ h
      rw [add_cycles] at this
      exact (List.prefix_append _ _).trans this
    | close =>
      unfold Permutation.run at h
      cases hc : p.closeCurrentCycle with
      | none => rw [hc] at h; cases h
      | some p1 =>
        rw [hc] at h
        have := ih _ _ h
        rw [close_cycles hc] at this
        exact this

theorem run_inv : ∀ (ops : List PermOp) (p q : Permutation) (cs : List (List Int))
    (cur : List Int), PermInv p cs cur → Permutation.run ops p = some q → q.cycles.Nodup →
    ∃ cs' cur', PermInv q cs' cur' := by
  intro ops
  induction ops with
  | nil =>
    intro p q cs cur h hr _
    rw [← Option.some.inj hr]
    exact ⟨cs, cur, h⟩
  | cons op ops ih =>
    intro p q cs cur h hr hnd
    cases op with
    | add x =>
      have hr' : Permutation.run ops (p.addToCurrentCycle x) = some q := hr
      have hpre := run_prefix _ _ _ hr'
      rw [add_cycles] at hpre
      exact ih _ q cs (cur ++ [x]) (h.add_step (hnd.sublist hpre.sublist)) hr hnd
    | close =>
      unfold Permutation.run at hr
      cases hc : p.closeCurrentCycle with
      | none => rw [hc] at hr; cases hr
      | some p1 =>
        rw [hc] at hr
        have hpre := run_prefix _ _ _ hr
        rw [close_cycles hc] at hpre
        rcases h.close_step (hnd.sublist hpre.sublist) hc with ⟨-, e⟩ | ⟨-, h1⟩
        · rw [e] at hr; exact ih _ q cs cur h hr hnd
        · exact ih _ q _ _ h1 hr hnd

theorem PermInv.start : PermInv Permutation.empty [] [] := by
  refine ⟨rfl, rfl, ?_, ?_, ?_⟩
  · intro c hc; cases hc
  · intro c hc; cases hc
  · intro j hj; simp at hj

theorem pred_succ_mod {j n : Nat} (hj : j < n) : ((j + n - 1) % n + 1) % n = j := by
  rcases Nat.eq_zero_or_pos j with h0 | h0
  · subst h0
    have e1 : (0 + n - 1) % n = n - 1 := by
      rw [Nat.zero_add]; exact Nat.mod_eq_of_lt (by omega)
    rw [e1, show n - 1 + 1 = n by omega, Nat.mod_self]
  · have e1 : (j + n - 1) % n = j - 1 := by
      rw [show j + n - 1 = (j - 1) + n by omega, Nat.add_mod_right]
      exact Nat.mod_eq_of_lt (by omega)
    rw [e1, show j - 1 + 1 = j by omega, Nat.mod_eq_of_lt hj]

theorem exists_index_of_mem {l : List Int} {e : Int} (h : e ∈ l) :
    ∃ j, j < l.length ∧ l.getD j 0 = e := by
  obtain ⟨j, hj, e1⟩ := List.getElem_of_mem h
  exact ⟨j, hj, by rw [List.getD_eq_getElem _ _ hj]; exact e1⟩

/-- C16: a permutation built by `addToCurrentCycle` and `closeCurrentCycle` calls with pairwise
distinct literals and every cycle closed: `imageOf` maps each element of a cycle to the next
element of that cycle, the last to the first; every added literal `e` lies in a cycle, and
`inverseOf(imageOf(e)) = e` and `imageOf(inverseOf(e)) = e`. -/
theorem permutation_cycles (ops : List PermOp) (p : Permutation)
    (h : Permutation.run ops Permutation.empty = some p) (hnd : p.cycles.Nodup)
    (hclosed : p.cycles_lim.getLastD 0 = p.cycles.length) :
    (∀ c, c < p.numberOfCycles → ∃ cyc, p.cycle c = some cyc ∧ cyc ≠ [] ∧
      ∀ j, j < cyc.length →
        p.imageOf (cyc.getD j 0) = some (cyc.getD ((j + 1) % cyc.length) 0)) ∧
    (∀ e ∈ p.cycles,
      (∃ c, c < p.numberOfCycles ∧ ∃ cyc, p.cycle c = some cyc ∧ e ∈ cyc) ∧
      (p.imageOf e).bind p.inverseOf = some e ∧ (p.inverseOf e).bind p.imageOf = some e) := by
  obtain ⟨cs, cur, hI⟩ := run_inv ops _ p [] [] PermInv.start h hnd
  have hcur : cur = [] := by
    have h1 := hI.length_eq
    have h2 := hI.back_eq
    exact List.length_eq_zero.mp (by omega)
  subst hcur
  have hc0 : p.cycles = cs.flatten := by rw [hI.cycles_eq, List.append_nil]
  have hnum : p.numberOfCycles = cs.length := by
    unfold Permutation.numberOfCycles; rw [hI.lims_eq, limsOf_length]
  have hmem : ∀ c, c < cs.length → cs.getD c [] ∈ cs := by
    intro c hc
    rw [List.getD_eq_getElem _ _ hc]; exact List.getElem_mem _
  constructor
  · intro c hc
    rw [hnum] at hc
    refine ⟨cs.getD c [], cycle_of_layout hc0 hI.lims_eq hc, ?_, ?_⟩
    · intro e
      have := hI.two_le _ (hmem c hc)
      rw [e] at this; simp at this
    · intro j hj
      exact (hI.closed _ (hmem c hc) j hj).1
  · intro e he
    rw [hc0] at he
    obtain ⟨cyc, hcyc, hec⟩ := List.mem_flatten.mp he
    obtain ⟨c, hc, ecyc⟩ := List.getElem_of_mem hcyc
    obtain ⟨j, hj, ej⟩ := exists_index_of_mem hec
    have hpos : 0 < cyc.length := by omega
    refine ⟨⟨c, by rw [hnum]; exact hc, cyc, ?_, hec⟩, ?_, ?_⟩
    · rw [cycle_of_layout hc0 hI.lims_eq hc, List.getD_eq_getElem _ _ hc, ecyc]
    · have := hI.closed cyc hcyc j hj
      unfold Permutation.imageOf Permutation.inverseOf
      rw [← ej, this.1]
      exact this.2
    · have hj' : (j + cyc.length - 1) % cyc.length < cyc.length := Nat.mod_lt _ hpos
      have := hI.closed cyc hcyc _ hj'
      rw [pred_succ_mod hj, ej] at this
      unfold Permutation.imageOf Permutation.inverseOf
      rw [this.2]
      exact this.1

end cosy


namespace Minisat
open lbool

/-! ## `analyze`: a clause of the resolution chain -/

theorem setActivity_seen (s : Solver) (cr : CRef) (x : ℚ) : (setActivity s cr x).seen = s.seen :=
  rfl

theorem foldl_setActivity_seen (f : Solver → CRef → ℚ) :
    ∀ (ls : List CRef) (s : Solver),
      (ls.foldl (fun t x => setActivity t x (f t x)) s).seen = s.seen := by
  intro ls
  induction ls with
  | nil => intro s; rfl
  | cons x xs ih => intro s; rw [List.foldl_cons, ih]; rfl

theorem claBumpActivity_seen (s : Solver) (cr : CRef) : (claBumpActivity s cr).seen = s.seen := by
  unfold claBumpActivity
  split_ifs
  · unfold rescaleClaActivity
    show (setClaInc (List.foldl (fun t x => setActivity t x ((t.ca.cl x).activity / (10 : ℚ) ^ 20))
      (setActivity s cr ((s.ca.cl cr).activity + s.cla_inc))
      (setActivity s cr ((s.ca.cl cr).activity + s.cla_inc)).learnts) _).seen = _
    show (List.foldl (fun t x => setActivity t x ((t.ca.cl x).activity / (10 : ℚ) ^ 20))
      (setActivity s cr ((s.ca.cl cr).activity + s.cla_inc))
      (setActivity s cr ((s.ca.cl cr).activity + s.cla_inc)).learnts).seen = _
    rw [foldl_setActivity_seen (fun t x => (t.ca.cl x).activity / (10 : ℚ) ^ 20)]
    rfl
  · rfl

theorem AnaInv.of_seen {s0 : Solver} {lim idx : Nat} {a b : AnalyzeAcc}
    (h : AnaInv s0 lim a idx) (h0 : anaKey b.s = anaKey a.s) (h1 : b.s.seen = a.s.seen)
    (h2 : b.pathC = a.pathC) (h3 : b.out = a.out) : AnaInv s0 lim b idx := by
  constructor
  · rw [h0]; exact h.key
  · rw [h3]; exact h.out_nodup
  · rw [h1, h3]; exact h.out_seen
  · rw [h3]; exact h.out_level
  · rw [h3]; exact h.out_false
  · rw [h1, h3]; exact h.seen_where
  · rw [h1, h2]; exact h.count

theorem analyzeLits_inv {s0 : Solver} {lim idx : Nat} (htr : TrailInv s0)
    (htop : ∀ l ∈ s0.trail.drop lim, level s0 (var l) = decisionLevel s0)
    (hlow : ∀ l ∈ s0.trail.take lim, level s0 (var l) < decisionLevel s0) :
    ∀ (ls : List Lit) (a : AnalyzeAcc), AnaInv s0 lim a idx →
      (∀ q ∈ ls, value s0 q = l_False ∧ neg q ∈ s0.trail.take idx) →
      AnaInv s0 lim (ls.foldl analyzeLit a) idx := by
  intro ls
  induction ls with
  | nil => intro a h _; exact h
  | cons q qs ih =>
    intro a h hq
    rw [List.foldl_cons]
    apply ih
    · exact analyzeLit_inv h htr htop hlow (hq q (List.mem_cons_self _ _)).1
        (hq q (List.mem_cons_self _ _)).2
    · intro q' hq'
      exact hq q' (List.mem_cons_of_mem _ hq')

/-- The marks only grow while the literals of a clause are visited. -/
theorem analyzeLit_seen_mono (a : AnalyzeAcc) (q : Lit) (v : Var) (h : a.s.seen v ≠ 0) :
    (analyzeLit a q).s.seen v ≠ 0 := by
  unfold analyzeLit
  split_ifs with h1 h2
  · show Function.update (varBumpActivity a.s (var q)).seen (var q) 1 v ≠ 0
    by_cases e : v = var q
    · rw [e, Function.update_same]; decide
    · rw [Function.update_noteq e, varBumpActivity_seen]; exact h
  · show Function.update (varBumpActivity a.s (var q)).seen (var q) 1 v ≠ 0
    by_cases e : v = var q
    · rw [e, Function.update_same]; decide
    · rw [Function.update_noteq e, varBumpActivity_seen]; exact h
  · rw [(symUnitTest_fields a q).1]; exact h

theorem analyzeLit_marks (a : AnalyzeAcc) (q : Lit) (h : level a.s (var q) > 0) :
    (analyzeLit a q).s.seen (var q) ≠ 0 := by
  by_cases h0 : a.s.seen (var q) = 0
  · unfold analyzeLit
    rw [if_pos ⟨h0, h⟩]
    split_ifs
    · show Function.update (varBumpActivity a.s (var q)).seen (var q) 1 (var q) ≠ 0
      rw [Function.update_same]; decide
    · show Function.update (varBumpActivity a.s (var q)).seen (var q) 1 (var q) ≠ 0
      rw [Function.update_same]; decide
  · exact analyzeLit_seen_mono a q _ h0

theorem analyzeLit_key (a : AnalyzeAcc) (q : Lit) : anaKey (analyzeLit a q).s = anaKey a.s := by
  unfold analyzeLit
  split_ifs
  · show anaKey (setSeen (varBumpActivity a.s (var q)) (var q) 1) = _
    rw [anaKey_setSeen, anaKey_varBumpActivity]
  · show anaKey (setSeen (varBumpActivity a.s (var q)) (var q) 1) = _
    rw [anaKey_setSeen, anaKey_varBumpActivity]
  · rw [(symUnitTest_fields a q).1]

theorem analyzeLits_seen_mono : ∀ (ls : List Lit) (a : AnalyzeAcc) (v : Var),
    a.s.seen v ≠ 0 → (ls.foldl analyzeLit a).s.seen v ≠ 0 := by
  intro ls
  induction ls with
  | nil => intro a v h; exact h
  | cons q qs ih =>
    intro a v h
    rw [List.foldl_cons]
    exact ih _ v (analyzeLit_seen_mono a q v h)

theorem analyzeLits_key : ∀ (ls : List Lit) (a : AnalyzeAcc),
    anaKey (ls.foldl analyzeLit a).s = anaKey a.s := by
  intro ls
  induction ls with
  | nil => intro a; rfl
  | cons q qs ih =>
    intro a
    rw [List.foldl_cons, ih, analyzeLit_key]

theorem analyzeLits_marks : ∀ (ls : List Lit) (a : AnalyzeAcc) (q : Lit), q ∈ ls →
    level a.s (var q) > 0 → (ls.foldl analyzeLit a).s.seen (var q) ≠ 0 := by
  intro ls
  induction ls with
  | nil => intro a q h; cases h
  | cons x xs ih =>
    intro a q hq hl
    rw [List.foldl_cons]
    rcases List.mem_cons.mp hq with e | e
    · rw [e]
      exact analyzeLits_seen_mono xs _ _ (analyzeLit_marks a x (by rw [← e]; exact hl))
    · apply ih _ q e
      rw [(anaKey_frame (analyzeLit_key a x)).level_eq]
      exact hl

theorem analyzeLit_pathC (a : AnalyzeAcc) (q : Lit) : a.pathC ≤ (analyzeLit a q).pathC := by
  unfold analyzeLit
  split_ifs
  · show a.pathC ≤ a.pathC + 1
    omega
  · exact le_refl _
  · rw [(symUnitTest_fields a q).2.1]

theorem analyzeLits_pathC : ∀ (ls : List Lit) (a : AnalyzeAcc),
    a.pathC ≤ (ls.foldl analyzeLit a).pathC := by
  intro ls
  induction ls with
  | nil => intro a; exact le_refl _
  | cons q qs ih =>
    intro a
    rw [List.foldl_cons]
    exact le_trans (analyzeLit_pathC a q) (ih _)

end Minisat


namespace Minisat
open lbool

/-! ## `analyze`: the walk down the trail -/

theorem mem_slice_iff (t : List Lit) (lim idx : Nat) (l : Lit) :
    l ∈ (t.take idx).drop lim ↔
      ∃ j, lim ≤ j ∧ j < idx ∧ j < t.length ∧ t.getD j 0 = l := by
  constructor
  · intro h
    obtain ⟨k, hk, e⟩ := List.getElem_of_mem h
    have hk' : lim + k < (t.take idx).length := by
      rw [List.length_drop] at hk; omega
    have hk2 : lim + k < idx ∧ lim + k < t.length := by
      rw [List.length_take] at hk'; omega
    refine ⟨lim + k, by omega, hk2.1, hk2.2, ?_⟩
    rw [List.getD_eq_getElem _ _ hk2.2, ← e]
    simp [List.getElem_drop, List.getElem_take]
  · rintro ⟨j, h1, h2, h3, e⟩
    have hj : j < (t.take idx).length := by rw [List.length_take]; omega
    have hk : j - lim < ((t.take idx).drop lim).length := by
      rw [List.length_drop]; omega
    have : ((t.take idx).drop lim)[j - lim] = l := by
      rw [← e, List.getD_eq_getElem _ _ h3]
      simp only [List.getElem_drop, List.getElem_take]
      congr 1
      omega
    rw [← this]
    exact List.getElem_mem _

theorem slice_split (t : List Lit) {lim pos idx : Nat} (h1 : lim ≤ pos) (h2 : pos < idx)
    (h3 : pos < t.length) :
    (t.take idx).drop lim =
      (t.take pos).drop lim ++ t.getD pos 0 :: (t.take idx).drop (pos + 1) := by
  have e1 : t.take idx = t.take pos ++ t.getD pos 0 :: (t.take idx).drop (pos + 1) := by
    have hp : pos < (t.take idx).length := by rw [List.length_take]; omega
    have := (List.take_append_drop pos (t.take idx)).symm
    rw [List.take_take, Nat.min_eq_left (by omega)] at this
    have hd : List.drop pos (t.take idx) = t.getD pos 0 :: (t.take idx).drop (pos + 1) := by
      rw [List.drop_eq_getElem_cons hp, List.getD_eq_getElem _ _ h3]
      simp [List.getElem_take]
    rw [hd] at this
    exact this
  conv_lhs => rw [e1]
  rw [List.drop_append_of_le_length (by rw [List.length_take]; omega)]

theorem analyzeWalk_spec (S : Solver) : ∀ (idx pos : Nat), analyzeWalk S idx = some pos →
    pos < idx ∧ S.seen (var (S.trail.getD pos 0)) ≠ 0 ∧
    ∀ j, pos < j → j < idx → S.seen (var (S.trail.getD j 0)) = 0 := by
  intro idx
  induction idx with
  | zero => intro pos h; cases h
  | succ i ih =>
    intro pos h
    unfold analyzeWalk at h
    by_cases hs : S.seen (var (S.trail.getD i 0)) ≠ 0
    · rw [if_pos hs] at h
      have e := Option.some.inj h
      subst e
      exact ⟨by omega, hs, fun j h1 h2 => by omega⟩
    · rw [if_neg hs] at h
      obtain ⟨h1, h2, h3⟩ := ih pos h
      refine ⟨by omega, h2, ?_⟩
      intro j hj1 hj2
      by_cases e : j = i
      · rw [e]; exact not_not.mp hs
      · exact h3 j hj1 (by omega)

theorem analyzeWalk_some (S : Solver) : ∀ (idx j : Nat), j < idx →
    S.seen (var (S.trail.getD j 0)) ≠ 0 → ∃ pos, analyzeWalk S idx = some pos := by
  intro idx
  induction idx with
  | zero => intro j h; cases h
  | succ i ih =>
    intro j hj hs
    unfold analyzeWalk
    by_cases h : S.seen (var (S.trail.getD i 0)) ≠ 0
    · rw [if_pos h]; exact ⟨i, rfl⟩
    · rw [if_neg h]
      have : j ≠ i := fun e => h (e ▸ hs)
      exact ih j (by omega) hs

theorem take_getD_nodup {s0 : Solver} (htr : TrailInv s0) {pos : Nat}
    (hp : pos < s0.trail.length) :
    var (s0.trail.getD pos 0) ∉ (s0.trail.take pos).map var := by
  have hsplit : s0.trail = s0.trail.take pos ++ s0.trail.getD pos 0 :: s0.trail.drop (pos + 1) := by
    conv_lhs => rw [← List.take_append_drop pos s0.trail]
    rw [List.drop_eq_getElem_cons hp, List.getD_eq_getElem _ _ hp]
  have hnd := htr.nodup
  rw [hsplit, List.map_append, List.map_cons] at hnd
  have := (List.nodup_append.mp hnd).2.2
  intro hm
  exact this hm (List.mem_cons_self _ _)

/-- The writes after the walk keep the invariant of the loop, for the position found. -/
theorem analyzePivot_inv {s0 : Solver} {lim idx pos : Nat} {a : AnalyzeAcc}
    (hI : AnaInv s0 lim a idx) (htr : TrailInv s0)
    (htop : ∀ l ∈ s0.trail.drop lim, level s0 (var l) = decisionLevel s0)
    (hidx : idx ≤ s0.trail.length) (hpc : 0 < a.pathC)
    (hw : analyzeWalk a.s idx = some pos) :
    lim ≤ pos ∧ pos < idx ∧ a.s.trail.getD pos 0 = s0.trail.getD pos 0 ∧
    s0.trail.getD pos 0 ∈ s0.trail.drop lim ∧
    AnaInv s0 lim (analyzePivot a (s0.trail.getD pos 0)) pos := by
  have hf := anaKey_frame hI.key
  obtain ⟨w1, w2, w3⟩ := analyzeWalk_spec a.s idx pos hw
  rw [hf.trail] at w2 w3
  have hpl : pos < s0.trail.length := by omega
  have hcnt : 0 < seenCount a.s.seen s0.trail lim idx := by
    have := hI.count
    omega
  obtain ⟨l, hl, hls⟩ := exists_of_countP_pos a.s.seen _ hcnt
  obtain ⟨j, j1, j2, j3, je⟩ := (mem_slice_iff _ _ _ _).mp hl
  have hjp : j ≤ pos := by
    by_contra hc
    have := w3 j (by omega) j2
    rw [je] at this
    exact hls this
  have hlp : lim ≤ pos := by omega
  have hpd : s0.trail.getD pos 0 ∈ s0.trail.drop lim := by
    have := (mem_slice_iff s0.trail lim s0.trail.length (s0.trail.getD pos 0)).mpr
      ⟨pos, hlp, hpl, hpl, rfl⟩
    rw [List.take_length] at this
    exact this
  have hplev := htop _ hpd
  refine ⟨hlp, w1, by rw [hf.trail], hpd, ?_⟩
  have hsplit := slice_split s0.trail hlp w1 hpl
  have hnotin : var (s0.trail.getD pos 0) ∉ ((s0.trail.take pos).drop lim).map var := by
    intro hm
    apply take_getD_nodup htr hpl
    obtain ⟨x, hx, e⟩ := List.mem_map.mp hm
    exact List.mem_map.mpr ⟨x, List.mem_of_mem_drop hx, e⟩
  constructor
  · show anaKey (setSeen a.s _ 0) = _
    rw [anaKey_setSeen]; exact hI.key
  · exact hI.out_nodup
  · intro q hq
    show Function.update a.s.seen (var (s0.trail.getD pos 0)) 0 (var q) = 1
    have hne : var q ≠ var (s0.trail.getD pos 0) := by
      intro e
      have := (hI.out_level q hq).2
      rw [e, hplev] at this
      omega
    rw [Function.update_noteq hne]
    exact hI.out_seen q hq
  · exact hI.out_level
  · exact hI.out_false
  · intro v hv
    have hv' : Function.update a.s.seen (var (s0.trail.getD pos 0)) 0 v ≠ 0 := hv
    have hne : v ≠ var (s0.trail.getD pos 0) := by
      intro e
      rw [e, Function.update_same] at hv'
      exact hv' rfl
    rw [Function.update_noteq hne] at hv'
    rcases hI.seen_where v hv' with h1 | ⟨x, hx, ex⟩
    · exact Or.inl h1
    · right
      obtain ⟨k, k1, k2, k3, ke⟩ := (mem_slice_iff _ _ _ _).mp hx
      have hk : k < pos := by
        rcases Nat.lt_trichotomy k pos with h | h | h
        · exact h
        · exfalso; rw [h] at ke; rw [← ke] at ex; exact hne ex.symm
        · exfalso
          have := w3 k h k2
          rw [ke, ex] at this
          exact hv' this
      exact ⟨x, (mem_slice_iff _ _ _ _).mpr ⟨k, k1, hk, k3, ke⟩, ex⟩
  · show a.pathC - 1 = _
    rw [hI.count]
    unfold seenCount
    show _ = ((List.countP (fun l => decide
      (Function.update a.s.seen (var (s0.trail.getD pos 0)) 0 (var l) ≠ 0))
      ((s0.trail.take pos).drop lim) : Nat) : Int)
    rw [countP_seen_other a.s.seen _ 0 _ hnotin, hsplit, List.countP_append, List.countP_cons]
    have hrest : List.countP (fun l => decide (a.s.seen (var l) ≠ 0))
        ((s0.trail.take idx).drop (pos + 1)) = 0 := by
      apply countP_eq_zero_of_clear
      intro x hx
      obtain ⟨k, k1, k2, k3, ke⟩ := (mem_slice_iff _ _ _ _).mp hx
      rw [← ke]
      exact w3 k (by omega) k2
    rw [hrest]
    have hp1 : decide (a.s.seen (var (s0.trail.getD pos 0)) ≠ 0) = true := by
      simpa using w2
    rw [hp1]
    simp

end Minisat


namespace Minisat
open lbool

/-! ## `analyze`: the resolution loop -/

theorem analyzeClause_inv {s0 : Solver} {lim idx : Nat} {a : AnalyzeAcc} {cr : CRef}
    {first : Bool} (hI : AnaInv s0 lim a idx) (htr : TrailInv s0)
    (htop : ∀ l ∈ s0.trail.drop lim, level s0 (var l) = decisionLevel s0)
    (hlow : ∀ l ∈ s0.trail.take lim, level s0 (var l) < decisionLevel s0)
    (hcl : ∀ q ∈ (s0.ca.cl cr).lits.drop (if first then 0 else 1),
      value s0 q = l_False ∧ neg q ∈ s0.trail.take idx) :
    AnaInv s0 lim (analyzeClause a cr first) idx ∧
    a.pathC ≤ (analyzeClause a cr first).pathC ∧
    (∀ q ∈ (s0.ca.cl cr).lits.drop (if first then 0 else 1), level s0 (var q) > 0 →
      (analyzeClause a cr first).s.seen (var q) ≠ 0) := by
  have hf := anaKey_frame hI.key
  unfold analyzeClause
  rw [hf.lits]
  have hk : anaKey (if (a.s.ca.cl cr).learnt then claBumpActivity a.s cr else a.s) = anaKey a.s := by
    split_ifs
    · exact anaKey_claBumpActivity _ _
    · rfl
  have hs : (if (a.s.ca.cl cr).learnt then claBumpActivity a.s cr else a.s).seen = a.s.seen := by
    split_ifs
    · exact claBumpActivity_seen _ _
    · rfl
  have hI0 : AnaInv s0 lim
      { s := if (a.s.ca.cl cr).learnt then claBumpActivity a.s cr else a.s,
        pathC := a.pathC, out := a.out,
        out_symmetry := a.out_symmetry || (a.s.ca.cl cr).symmetry } idx :=
    hI.of_seen hk hs rfl rfl
  refine ⟨analyzeLits_inv htr htop hlow _ _ hI0 hcl, analyzeLits_pathC _ _, ?_⟩
  intro q hq hl
  apply analyzeLits_marks _ _ q hq
  show level (if (a.s.ca.cl cr).learnt then claBumpActivity a.s cr else a.s) (var q) > 0
  rw [(anaKey_frame (hk.trans hI.key)).level_eq]
  exact hl

theorem analyzeLoop_succ (fuel : Nat) (a : AnalyzeAcc) (first : Bool) (cr : CRef) (idx : Nat)
    (ccs : List CRef) :
    analyzeLoop (fuel + 1) a first (some cr) idx ccs =
      match analyzeWalk (analyzeClause a cr first).s idx with
      | none => none
      | some pos =>
        if (analyzePivot (analyzeClause a cr first)
            ((analyzeClause a cr first).s.trail.getD pos 0)).pathC > 0 then
          analyzeLoop fuel
            (analyzePivot (analyzeClause a cr first)
              ((analyzeClause a cr first).s.trail.getD pos 0)) false
            (reason (analyzeClause a cr first).s
              (var ((analyzeClause a cr first).s.trail.getD pos 0))) pos
            (if (a.s.ca.cl cr).symmetry then ccs ++ [cr] else ccs)
        else
          some (analyzePivot (analyzeClause a cr first)
                  ((analyzeClause a cr first).s.trail.getD pos 0),
                (analyzeClause a cr first).s.trail.getD pos 0,
                if (a.s.ca.cl cr).symmetry then ccs ++ [cr] else ccs) := rfl

theorem analyzeLoop_none (fuel : Nat) (a : AnalyzeAcc) (first : Bool) (idx : Nat)
    (ccs : List CRef) : analyzeLoop fuel a first none idx ccs = none := by
  cases fuel <;> rfl

theorem seenCount_pos_of_mem {f : Var → Nat} {t : List Lit} {lim idx : Nat} {l : Lit}
    (hl : l ∈ (t.take idx).drop lim) (hs : f (var l) ≠ 0) : 0 < seenCount f t lim idx := by
  unfold seenCount
  rw [List.countP_pos_iff]
  exact ⟨l, hl, by simpa using hs⟩

theorem seenCount_zero {f : Var → Nat} {t : List Lit} {lim idx : Nat}
    (h : seenCount f t lim idx = 0) : ∀ l ∈ (t.take idx).drop lim, f (var l) = 0 := by
  intro l hl
  by_contra hc
  have := seenCount_pos_of_mem hl hc
  omega

/-- The resolution loop of `analyze`, when it returns: the literals collected are false, of
different variables and of a lower positive level, exactly their variables are marked, and the
pivot is a trail literal of the current decision level. -/
theorem analyzeLoop_spec {s0 : Solver} {lim : Nat} (htr : TrailInv s0) (hrs : ReasonInv s0)
    (hdl : 0 < decisionLevel s0)
    (htop : ∀ l ∈ s0.trail.drop lim, level s0 (var l) = decisionLevel s0)
    (hlow : ∀ l ∈ s0.trail.take lim, level s0 (var l) < decisionLevel s0) :
    ∀ (fuel : Nat) (a : AnalyzeAcc) (first : Bool) (cr : CRef) (idx : Nat) (ccs : List CRef)
      (res : AnalyzeAcc × Lit × List CRef),
      AnaInv s0 lim a idx → idx ≤ s0.trail.length →
      (∀ q ∈ (s0.ca.cl cr).lits.drop (if first then 0 else 1),
        value s0 q = l_False ∧ neg q ∈ s0.trail.take idx) →
      (first = true → ∃ q ∈ (s0.ca.cl cr).lits, level s0 (var q) = decisionLevel s0) →
      (first = false → 0 < a.pathC) →
      analyzeLoop fuel a first (some cr) idx ccs = some res → AnaPost s0 lim res := by
  intro fuel
  induction fuel with
  | zero => intro a first cr idx ccs res _ _ _ _ _ h; cases h
  | succ n ih =>
    intro a first cr idx ccs res hI hidx hcl htl hpc h
    rw [analyzeLoop_succ] at h
    obtain ⟨hI1, hmono, hmarks⟩ := analyzeClause_inv hI htr htop hlow hcl
    have hpc1 : 0 < (analyzeClause a cr first).pathC := by
      cases first with
      | false => have := hpc rfl; omega
      | true =>
        obtain ⟨q, hq, hql⟩ := htl rfl
        have hq' : q ∈ (s0.ca.cl cr).lits.drop (if true = true then 0 else 1) := by
          simpa using hq
        have hm := hmarks q hq' (by omega)
        have hnq := (hcl q hq').2
        have hnl : neg q ∉ s0.trail.take lim := by
          intro hmem
          have := hlow _ hmem
          rw [var_neg] at this
          omega
        have hsl := mem_slice_of_take hnq hnl
        have := seenCount_pos_of_mem (f := (analyzeClause a cr true).s.seen) hsl
          (by rw [var_neg]; exact hm)
        have hc := hI1.count
        omega
    cases hw : analyzeWalk (analyzeClause a cr first).s idx with
    | none => rw [hw] at h; cases h
    | some pos =>
      rw [hw] at h
      dsimp only at h
      obtain ⟨hlp, hpi, hpe, hpd, hI2⟩ := analyzePivot_inv hI1 htr htop hidx hpc1 hw
      rw [hpe] at h
      by_cases hp2 : (analyzePivot (analyzeClause a cr first) (s0.trail.getD pos 0)).pathC > 0
      · rw [if_pos hp2] at h
        have hf1 := anaKey_frame hI1.key
        rw [hf1.reason_eq] at h
        cases hr : reason s0 (var (s0.trail.getD pos 0)) with
        | none => rw [hr, analyzeLoop_none] at h; cases h
        | some cr' =>
          rw [hr] at h
          have hpl : pos < s0.trail.length := by omega
          have hsplit : s0.trail =
              s0.trail.take pos ++ s0.trail.getD pos 0 :: s0.trail.drop (pos + 1) := by
            conv_lhs => rw [← List.take_append_drop pos s0.trail]
            rw [List.drop_eq_getElem_cons hpl, List.getD_eq_getElem _ _ hpl]
          obtain ⟨-, -, hpre⟩ := hrs _ _ _ cr' hsplit hr
          refine ih _ false cr' pos _ res hI2 (by omega) ?_ (fun e => by cases e)
            (fun _ => hp2) h
          intro q hq
          have hq' : q ∈ (s0.ca.cl cr').lits.drop 1 := by simpa using hq
          have hm := hpre q hq'
          refine ⟨?_, hm⟩
          have := htr.true_of_mem _ (List.mem_of_mem_take hm)
          exact value_neg_true.mp this
      · rw [if_neg hp2] at h
        have e := Option.some.inj h
        rw [← e]
        have hc := hI2.count
        have hz : seenCount (analyzePivot (analyzeClause a cr first)
            (s0.trail.getD pos 0)).s.seen s0.trail lim pos = 0 := by omega
        have hclear := seenCount_zero hz
        refine ⟨hI2.key, hI2.out_nodup, hI2.out_seen, hI2.out_level, hI2.out_false, ?_, hpd⟩
        intro v hv
        rcases hI2.seen_where v hv with h1 | ⟨l, hl, el⟩
        · exact h1
        · exfalso
          have := hclear l hl
          rw [el] at this
          exact hv this

end Minisat


namespace Minisat
open lbool

/-! ## `analyze`: minimisation of the learnt clause -/

theorem SeenCovered.mark {s : Solver} (h : SeenCovered s) (p : Lit) (n : Nat) :
    SeenCovered (pushToclear (setSeen s (var p) n) p) := by
  intro v hv
  have hv' : Function.update s.seen (var p) n v ≠ 0 := hv
  show ∃ l ∈ s.analyze_toclear ++ [p], var l = v
  by_cases e : v = var p
  · exact ⟨p, by simp, e.symm⟩
  · rw [Function.update_noteq e] at hv'
    obtain ⟨l, hl, el⟩ := h v hv'
    exact ⟨l, List.mem_append_left _ hl, el⟩

theorem markRemovable_facts (s : Solver) (p : Lit) :
    anaKey (markRemovable s p) = anaKey s ∧ (SeenCovered s → SeenCovered (markRemovable s p)) := by
  unfold markRemovable
  split_ifs
  · exact ⟨by rw [anaKey_pushToclear, anaKey_setSeen], fun h => h.mark p 2⟩
  · exact ⟨rfl, id⟩

theorem markFailed_facts : ∀ (stack : List (Nat × Lit)) (s : Solver),
    anaKey (markFailed s stack) = anaKey s ∧ (SeenCovered s → SeenCovered (markFailed s stack)) := by
  intro stack
  induction stack with
  | nil => intro s; exact ⟨rfl, id⟩
  | cons e es ih =>
    intro s
    unfold markFailed
    rw [List.foldl_cons]
    have key : anaKey (if s.seen (var e.2) = 0 then pushToclear (setSeen s (var e.2) 3) e.2
          else s) = anaKey s ∧
        (SeenCovered s → SeenCovered (if s.seen (var e.2) = 0 then
          pushToclear (setSeen s (var e.2) 3) e.2 else s)) := by
      split_ifs
      · exact ⟨by rw [anaKey_pushToclear, anaKey_setSeen], fun h => h.mark e.2 3⟩
      · exact ⟨rfl, id⟩
    have := ih (if s.seen (var e.2) = 0 then pushToclear (setSeen s (var e.2) 3) e.2 else s)
    unfold markFailed at this
    exact ⟨this.1.trans key.1, fun h => this.2 (key.2 h)⟩

theorem litRedundantLoop_facts : ∀ (fuel : Nat) (s : Solver) (i : Nat) (p : Lit)
    (stack : List (Nat × Lit)) (r : Bool × Solver),
    litRedundantLoop fuel s i p stack = some r →
    anaKey r.2 = anaKey s ∧ (SeenCovered s → SeenCovered r.2) := by
  intro fuel
  induction fuel with
  | zero => intro s i p stack r h; cases h
  | succ n ih =>
    intro s i p stack r h
    unfold litRedundantLoop at h
    cases hr : reason s (var p) with
    | none => rw [hr] at h; cases h
    | some cr =>
      rw [hr] at h
      dsimp only at h
      split_ifs at h with h1 h2 h3
      · exact ih _ _ _ _ _ h
      · have e := Option.some.inj h
        rw [← e]
        exact markFailed_facts _ _
      · exact ih _ _ _ _ _ h
      · cases hs : stack.getLast? with
        | none =>
          rw [hs] at h
          have e := Option.some.inj h
          rw [← e]
          exact markRemovable_facts s p
        | some e =>
          rw [hs] at h
          have := ih _ _ _ _ _ h
          have hm := markRemovable_facts s p
          exact ⟨this.1.trans hm.1, fun hc => this.2 (hm.2 hc)⟩

theorem litRedundant_facts {fuel : Nat} {s : Solver} {p : Lit} {r : Bool × Solver}
    (h : litRedundant fuel s p = some r) :
    anaKey r.2 = anaKey s ∧ (SeenCovered s → SeenCovered r.2) := by
  unfold litRedundant at h
  split_ifs at h
  exact litRedundantLoop_facts _ _ _ _ _ _ h

theorem minimizeDeep_facts (fuel : Nat) : ∀ (ls : List Lit) (s : Solver) (r : List Lit × Solver),
    minimizeDeep fuel s ls = some r →
    r.1.Sublist ls ∧ anaKey r.2 = anaKey s ∧ (SeenCovered s → SeenCovered r.2) := by
  intro ls
  induction ls with
  | nil =>
    intro s r h
    have e := Option.some.inj h
    rw [← e]
    exact ⟨List.Sublist.refl _, rfl, id⟩
  | cons l ls ih =>
    intro s r h
    unfold minimizeDeep at h
    by_cases hr : reason s (var l) = none
    · rw [if_pos hr] at h
      cases hm : minimizeDeep fuel s ls with
      | none => rw [hm] at h; cases h
      | some r1 =>
        rw [hm] at h
        have e := Option.some.inj h
        rw [← e]
        obtain ⟨a1, a2, a3⟩ := ih s r1 hm
        exact ⟨a1.cons₂ l, a2, a3⟩
    · rw [if_neg hr] at h
      cases hl : litRedundant fuel s l with
      | none => rw [hl] at h; cases h
      | some r1 =>
        rw [hl] at h
        dsimp only at h
        obtain ⟨b1, b2⟩ := litRedundant_facts hl
        cases hm : minimizeDeep fuel r1.2 ls with
        | none => rw [hm] at h; cases h
        | some r2 =>
          rw [hm] at h
          have e := Option.some.inj h
          rw [← e]
          obtain ⟨a1, a2, a3⟩ := ih r1.2 r2 hm
          refine ⟨?_, a2.trans b1, fun hc => a3 (b2 hc)⟩
          show (if r1.1 = true then r2.1 else l :: r2.1).Sublist (l :: ls)
          split_ifs
          · exact a1.cons l
          · exact a1.cons₂ l

theorem minimize_facts {fuel : Nat} {s : Solver} {out : List Lit} {r : List Lit × Solver}
    (h : minimize fuel s out = some r) :
    r.1.Sublist out ∧ anaKey r.2 = anaKey s ∧ (SeenCovered s → SeenCovered r.2) := by
  unfold minimize at h
  split_ifs at h
  · exact minimizeDeep_facts fuel out s r h
  · have e := Option.some.inj h
    rw [← e]
    exact ⟨List.filter_sublist _, rfl, id⟩
  · have e := Option.some.inj h
    rw [← e]
    exact ⟨List.Sublist.refl _, rfl, id⟩

theorem foldl_clear_seen : ∀ (ls : List Lit) (s : Solver) (v : Var),
    (ls.foldl (fun t l => setSeen t (var l) 0) s).seen v =
      if ∃ l ∈ ls, var l = v then 0 else s.seen v := by
  intro ls
  induction ls with
  | nil => intro s v; simp
  | cons x xs ih =>
    intro s v
    rw [List.foldl_cons, ih]
    by_cases h1 : ∃ l ∈ xs, var l = v
    · rw [if_pos h1, if_pos]
      obtain ⟨l, hl, e⟩ := h1
      exact ⟨l, List.mem_cons_of_mem _ hl, e⟩
    · rw [if_neg h1]
      show Function.update s.seen (var x) 0 v = _
      by_cases e : v = var x
      · rw [e, Function.update_same, if_pos ⟨x, List.mem_cons_self _ _, rfl⟩]
      · rw [Function.update_noteq e, if_neg]
        rintro ⟨l, hl, el⟩
        rcases List.mem_cons.mp hl with h | h
        · rw [h] at el; exact e el.symm
        · exact h1 ⟨l, h, el⟩

theorem foldl_clear_key : ∀ (ls : List Lit) (s : Solver),
    anaKey (ls.foldl (fun t l => setSeen t (var l) 0) s) = anaKey s := by
  intro ls
  induction ls with
  | nil => intro s; rfl
  | cons x xs ih => intro s; rw [List.foldl_cons, ih, anaKey_setSeen]

theorem clearSeen_facts {s : Solver} (h : SeenCovered s) :
    anaKey (clearSeen s) = anaKey s ∧ ∀ v, (clearSeen s).seen v = 0 := by
  unfold clearSeen
  refine ⟨foldl_clear_key _ _, ?_⟩
  intro v
  rw [foldl_clear_seen]
  by_cases hv : s.seen v = 0
  · split_ifs
    · rfl
    · exact hv
  · rw [if_pos (h v hv)]

end Minisat


namespace Minisat
open lbool

/-! ## `analyze`: the backtrack level and the result -/

theorem findMaxLevel_spec (s : Solver) (out : List Lit) :
    ∀ (ls : List Lit) (i m : Nat), ls = out.drop i → 1 ≤ m → m < i → m < out.length →
      (∀ j, 1 ≤ j → j < i → j < out.length →
        level s (var (out.getD j 0)) ≤ level s (var (out.getD m 0))) →
      1 ≤ findMaxLevel s out ls i m ∧ findMaxLevel s out ls i m < out.length ∧
      ∀ j, 1 ≤ j → j < out.length →
        level s (var (out.getD j 0)) ≤ level s (var (out.getD (findMaxLevel s out ls i m) 0)) := by
  intro ls
  induction ls with
  | nil =>
    intro i m h h1 h2 h3 hmax
    have hlen : out.length ≤ i := List.drop_eq_nil_iff.mp h.symm
    exact ⟨h1, h3, fun j j1 j2 => hmax j j1 (by omega) j2⟩
  | cons l ls ih =>
    intro i m h h1 h2 h3 hmax
    have hi : i < out.length := by
      by_contra hc
      rw [List.drop_eq_nil_iff.mpr (by omega)] at h
      cases h
    have hd := List.drop_eq_getElem_cons hi
    rw [hd] at h
    have hl : l = out.getD i 0 := by
      rw [List.getD_eq_getElem _ _ hi]; exact (List.cons.inj h).1
    have hls : ls = out.drop (i + 1) := (List.cons.inj h).2
    unfold findMaxLevel
    by_cases hc : level s (var l) > level s (var (out.getD m 0))
    · rw [if_pos hc]
      apply ih (i + 1) i hls (by omega) (by omega) hi
      intro j j1 j2 j3
      by_cases e : j = i
      · rw [e]
      · have := hmax j j1 (by omega) j3
        rw [← hl]
        omega
    · rw [if_neg hc]
      apply ih (i + 1) m hls h1 (by omega) h3
      intro j j1 j2 j3
      by_cases e : j = i
      · rw [e, ← hl]; omega
      · exact hmax j j1 (by omega) j3

theorem swapMax_one (a b : Lit) (rest : List Lit) : swapMax (a :: b :: rest) 1 = a :: b :: rest := by
  unfold swapMax
  simp

theorem swapMax_cons (a b : Lit) (rest : List Lit) (m : Nat) (hm : 2 ≤ m) :
    swapMax (a :: b :: rest) m = a :: rest.getD (m - 2) 0 :: rest.set (m - 2) b := by
  obtain ⟨j, rfl⟩ : ∃ j, m = j + 2 := ⟨m - 2, by omega⟩
  unfold swapMax
  simp only [List.getD_cons_succ, List.set_cons_succ, List.set_cons_zero, Nat.add_sub_cancel,
    List.getD_cons_zero]

/-- The literals and the backtrack level computed from the minimised clause `a :: tl`. -/
theorem finishLearnt_spec (s : Solver) (a : Lit) (tl : List Lit) :
    ∃ tl', (finishLearnt s (a :: tl)).1 = a :: tl' ∧ tl'.Perm tl ∧
      (∀ q ∈ tl, level s (var q) ≤ (finishLearnt s (a :: tl)).2) ∧
      (tl = [] → (finishLearnt s (a :: tl)).2 = 0) ∧
      (tl ≠ [] → (finishLearnt s (a :: tl)).2 = level s (var (tl'.getD 0 0))) := by
  cases tl with
  | nil =>
    refine ⟨[], ?_, List.Perm.refl _, ?_, fun _ => ?_, fun h => absurd rfl h⟩
    · unfold finishLearnt; simp
    · intro q hq; cases hq
    · unfold finishLearnt; simp
  | cons b rest =>
    have hlen : (a :: b :: rest).length ≠ 1 := by simp
    obtain ⟨m1, m2, m3⟩ := findMaxLevel_spec s (a :: b :: rest) rest 2 1 rfl (by omega)
      (by omega) (by simp) (fun j j1 j2 _ => by
        have : j = 1 := by omega
        rw [this])
    have hfin : finishLearnt s (a :: b :: rest) =
        (swapMax (a :: b :: rest) (findMaxLevel s (a :: b :: rest) rest 2 1),
         level s (var ((a :: b :: rest).getD (findMaxLevel s (a :: b :: rest) rest 2 1) 0))) := by
      unfold finishLearnt
      rw [if_neg hlen]
      rfl
    rw [hfin]
    have hmaxq : ∀ q ∈ b :: rest, level s (var q) ≤
        level s (var ((a :: b :: rest).getD (findMaxLevel s (a :: b :: rest) rest 2 1) 0)) := by
      intro q hq
      obtain ⟨k, hk, e⟩ := List.getElem_of_mem hq
      have := m3 (k + 1) (by omega) (by simpa using hk)
      rw [List.getD_cons_succ, List.getD_eq_getElem _ _ hk, e] at this
      exact this
    by_cases h1 : findMaxLevel s (a :: b :: rest) rest 2 1 = 1
    · rw [h1, swapMax_one]
      rw [h1] at hmaxq
      exact ⟨b :: rest, rfl, List.Perm.refl _, hmaxq, (fun h => by cases h), fun _ => rfl⟩
    · have h2 : 2 ≤ findMaxLevel s (a :: b :: rest) rest 2 1 := by omega
      rw [swapMax_cons a b rest _ h2]
      have hlt : findMaxLevel s (a :: b :: rest) rest 2 1 - 2 < rest.length := by
        simp at m2; omega
      refine ⟨_, rfl, perm_getD_set hlt b, hmaxq, (fun h => by cases h), fun _ => ?_⟩
      rw [getD_cons_cons a b rest _ h2]
      rfl

theorem analyze_parts {fuel : Nat} {s : Solver} {confl : CRef} {r : AnalyzeResult × Solver}
    (h : analyze fuel s confl = some r) :
    ∃ res m, analyzeLoop (s.trail.length + 1)
        { s := s, pathC := 0, out := [], out_symmetry := false } true (some confl)
        s.trail.length [] = some res ∧
      minimize fuel (setToclear res.1.s (neg res.2.1 :: res.1.out)) res.1.out = some m ∧
      r.1.out_learnt = (finishLearnt m.2 (neg res.2.1 :: m.1)).1 ∧
      r.1.out_btlevel = (finishLearnt m.2 (neg res.2.1 :: m.1)).2 ∧
      r.1.out_symmetry = res.1.out_symmetry ∧
      r.2 = clearSeen (countLits m.2 (res.1.out.length + 1) (m.1.length + 1)) := by
  unfold analyze at h
  cases hl : analyzeLoop (s.trail.length + 1)
      { s := s, pathC := 0, out := [], out_symmetry := false } true (some confl)
      s.trail.length [] with
  | none => rw [hl] at h; cases h
  | some res =>
    rw [hl] at h
    dsimp only at h
    cases hm : minimize fuel (setToclear res.1.s (neg res.2.1 :: res.1.out)) res.1.out with
    | none => rw [hm] at h; cases h
    | some m =>
      rw [hm] at h
      dsimp only at h
      refine ⟨res, m, rfl, hm, ?_⟩
      by_cases hsym : res.1.out_symmetry = false
      · rw [if_pos hsym] at h
        have e := Option.some.inj h
        rw [← e]
        exact ⟨rfl, rfl, hsym.symm, rfl⟩
      · rw [if_neg hsym] at h
        cases hc : analyzeComp m.2 (s.ca.cl confl).fsymmetry res.2.2 with
        | none => rw [hc] at h; cases h
        | some cs =>
          rw [hc] at h
          have e := Option.some.inj h
          rw [← e]
          refine ⟨rfl, rfl, ?_, rfl⟩
          cases hb : res.1.out_symmetry with
          | false => exact absurd hb hsym
          | true => rfl

/-- The result of `analyze` for a falsified conflict clause with a literal of the current
decision level, in a state with a consistent trail and reasons and clear marks. -/
theorem analyze_spec {fuel : Nat} {s : Solver} {confl : CRef} {r : AnalyzeResult × Solver}
    (htr : TrailInv s) (hrs : ReasonInv s) (hs0 : ∀ v, s.seen v = 0)
    (hdl : 0 < decisionLevel s) (hfal : Falsified s confl) (htl : TopLit s confl)
    (h : analyze fuel s confl = some r) : AnalyzeSpec s r := by
  obtain ⟨res, m, hloop, hmin, e1, e2, -, e4⟩ := analyze_parts h
  have htop : ∀ l ∈ s.trail.drop (s.trail_lim.getD (decisionLevel s - 1) 0),
      level s (var l) = decisionLevel s := by
    intro l hl
    have h1 := htr.level_drop (decisionLevel s - 1) (by unfold decisionLevel at hdl ⊢; omega) l hl
    have h2 := htr.level_le l (List.mem_of_mem_drop hl)
    omega
  have hlow : ∀ l ∈ s.trail.take (s.trail_lim.getD (decisionLevel s - 1) 0),
      level s (var l) < decisionLevel s := by
    intro l hl
    have h1 := htr.level_take (decisionLevel s - 1) (by unfold decisionLevel at hdl ⊢; omega) l hl
    omega
  have hI0 : AnaInv s (s.trail_lim.getD (decisionLevel s - 1) 0)
      { s := s, pathC := 0, out := [], out_symmetry := false } s.trail.length := by
    constructor
    · rfl
    · exact List.nodup_nil
    · intro q hq; cases hq
    · intro q hq; cases hq
    · intro q hq; cases hq
    · intro v hv; exact absurd (hs0 v) hv
    · show (0 : Int) = _
      unfold seenCount
      rw [countP_eq_zero_of_clear _ _ (fun l _ => hs0 (var l))]
      rfl
  have hpost := analyzeLoop_spec htr hrs hdl htop hlow _ _ true confl _ [] res hI0 (le_refl _)
    (fun q hq => by
      have hq' : q ∈ (s.ca.cl confl).lits := by simpa using hq
      refine ⟨hfal q hq', ?_⟩
      rw [List.take_length]
      exact htr.neg_mem_of_false (hfal q hq'))
    (fun _ => htl) (fun e => by cases e) hloop
  obtain ⟨hsub, hk, hcov⟩ := minimize_facts hmin
  have hk1 : anaKey m.2 = anaKey s := by
    rw [hk, anaKey_setToclear]; exact hpost.key
  have hcover : SeenCovered m.2 := by
    apply hcov
    intro v hv
    obtain ⟨q, hq, e⟩ := hpost.seen_out v hv
    exact ⟨q, List.mem_cons_of_mem _ hq, e⟩
  have hcover2 : SeenCovered (countLits m.2 (res.1.out.length + 1) (m.1.length + 1)) :=
    fun v hv => hcover v hv
  obtain ⟨c1, c2⟩ := clearSeen_facts hcover2
  have hf := anaKey_frame hk1
  obtain ⟨tl', f1, f2, f3, f4, f5⟩ := finishLearnt_spec m.2 (neg res.2.1) m.1
  have hp := hpost.pivot
  have hmem : ∀ q ∈ tl', q ∈ res.1.out := fun q hq => hsub.subset (f2.mem_iff.mp hq)
  constructor
  · rw [e4, c1, anaKey_countLits]; exact hk1
  · rw [e4]; exact c2
  · refine ⟨res.2.1, tl', by rw [e1, f1], List.mem_of_mem_drop hp, htop _ hp, ?_, ?_, ?_, ?_, ?_⟩
    · exact (f2.map var).nodup_iff.mpr ((hpost.out_nodup).sublist (hsub.map var))
    · intro q hq
      have hq1 := hmem q hq
      refine ⟨hpost.out_false q hq1, (hpost.out_level q hq1).1, ?_⟩
      rw [e2, ← hf.level_eq]
      exact f3 q (f2.mem_iff.mp hq)
    · rw [e2]
      by_cases hnil : m.1 = []
      · rw [f4 hnil]; exact hdl
      · rw [f5 hnil, hf.level_eq]
        have hne : tl' ≠ [] := fun e => hnil (by rw [e] at f2; exact f2.symm.eq_nil)
        have hlt : 0 < tl'.length := List.length_pos.mpr hne
        have : tl'.getD 0 0 ∈ tl' := by
          rw [List.getD_eq_getElem _ _ hlt]; exact List.getElem_mem _
        exact (hpost.out_level _ (hmem _ this)).2
    · intro e
      rw [e2]
      apply f4
      rw [e] at f2
      exact f2.symm.eq_nil
    · intro hne
      rw [e2, ← hf.level_eq]
      apply f5
      intro e
      rw [e] at f2
      exact hne f2.eq_nil

end Minisat


namespace Minisat
open lbool

/-! ## The learnt clause after the backtrack -/

theorem value_of_assigns_eq {s t : Solver} {q : Lit} (h : t.assigns (var q) = s.assigns (var q)) :
    value t q = value s q := by
  unfold value; rw [h]

theorem symUnitTest_sym (a : AnalyzeAcc) (q : Lit) (h : a.out_symmetry = true) :
    (symUnitTest a q).out_symmetry = true := by
  unfold symUnitTest
  split_ifs
  · rfl
  · exact h

theorem analyzeLit_sym (a : AnalyzeAcc) (q : Lit) (h : a.out_symmetry = true) :
    (analyzeLit a q).out_symmetry = true := by
  unfold analyzeLit
  split_ifs
  · exact symUnitTest_sym a q h
  · exact symUnitTest_sym a q h
  · exact symUnitTest_sym a q h

theorem analyzeLits_sym : ∀ (ls : List Lit) (a : AnalyzeAcc), a.out_symmetry = true →
    (ls.foldl analyzeLit a).out_symmetry = true := by
  intro ls
  induction ls with
  | nil => intro a h; exact h
  | cons q qs ih => intro a h; rw [List.foldl_cons]; exact ih _ (analyzeLit_sym a q h)

theorem analyzeClause_sym (a : AnalyzeAcc) (cr : CRef) (first : Bool)
    (h : a.out_symmetry = true ∨ (a.s.ca.cl cr).symmetry = true) :
    (analyzeClause a cr first).out_symmetry = true := by
  unfold analyzeClause
  apply analyzeLits_sym
  show (a.out_symmetry || (a.s.ca.cl cr).symmetry) = true
  rcases h with h | h
  · rw [h]; rfl
  · rw [h]; simp

/-- A symmetry clause in the resolution chain sets `out_symmetry`. -/
theorem analyzeLoop_sym : ∀ (fuel : Nat) (a : AnalyzeAcc) (first : Bool) (cr : CRef) (idx : Nat)
    (ccs : List CRef) (res : AnalyzeAcc × Lit × List CRef),
    (a.out_symmetry = true ∨ (a.s.ca.cl cr).symmetry = true) →
    analyzeLoop fuel a first (some cr) idx ccs = some res → res.1.out_symmetry = true := by
  intro fuel
  induction fuel with
  | zero => intro a first cr idx ccs res _ h; cases h
  | succ n ih =>
    intro a first cr idx ccs res hs h
    rw [analyzeLoop_succ] at h
    have h1 := analyzeClause_sym a cr first hs
    cases hw : analyzeWalk (analyzeClause a cr first).s idx with
    | none => rw [hw] at h; cases h
    | some pos =>
      rw [hw] at h
      dsimp only at h
      by_cases hp : (analyzePivot (analyzeClause a cr first)
          ((analyzeClause a cr first).s.trail.getD pos 0)).pathC > 0
      · rw [if_pos hp] at h
        cases hr : reason (analyzeClause a cr first).s
            (var ((analyzeClause a cr first).s.trail.getD pos 0)) with
        | none => rw [hr, analyzeLoop_none] at h; cases h
        | some cr' =>
          rw [hr] at h
          exact ih _ _ _ _ _ _
            (Or.inl (show (analyzePivot (analyzeClause a cr first)
              ((analyzeClause a cr first).s.trail.getD pos 0)).out_symmetry = true from h1)) h
      · rw [if_neg hp] at h
        have e := Option.some.inj h
        rw [← e]
        exact h1

theorem anaKey_fsymmetry {s t : Solver} (h : anaKey t = anaKey s) (cr : CRef) :
    (t.ca.cl cr).fsymmetry = (s.ca.cl cr).fsymmetry ∧
    (t.ca.cl cr).symmetry = (s.ca.cl cr).symmetry := by
  have h1 := congrArg (fun x => (x.ca.cl cr).fsymmetry) h
  have h2 := congrArg (fun x => (x.ca.cl cr).symmetry) h
  exact ⟨h1, h2⟩

/-- After `cancelUntil(out_btlevel)` the first literal of the learnt clause is unassigned and
the other literals are still false. -/
theorem AnalyzeSpec.after_cancel {s : Solver} {r : AnalyzeResult × Solver} (htr : TrailInv s)
    (h : AnalyzeSpec s r) :
    decisionLevel (cancelUntil r.2 r.1.out_btlevel) = r.1.out_btlevel ∧
    (cancelUntil r.2 r.1.out_btlevel).vardata = s.vardata ∧
    ∃ p tl, r.1.out_learnt = neg p :: tl ∧
      value (cancelUntil r.2 r.1.out_btlevel) (neg p) = l_Undef ∧
      (∀ q ∈ tl, value (cancelUntil r.2 r.1.out_btlevel) q = l_False ∧ var q ≠ var p ∧
        level s (var q) ≤ r.1.out_btlevel) ∧
      (tl = [] → r.1.out_btlevel = 0) := by
  have hf := anaKey_frame h.key
  obtain ⟨p, tl, e, hp, hpl, -, htl, hbt, hnil, -⟩ := h.shape
  have hbt' : r.1.out_btlevel < decisionLevel r.2 := by
    unfold decisionLevel; rw [hf.trail_lim]; exact hbt
  obtain ⟨c1, c2, -, c4⟩ := cancelUntil_of_lt hbt'
  obtain ⟨f4, -⟩ := cancelUntilKey_fields (cancelUntilKey_cancelUntil r.2 r.1.out_btlevel)
  rw [hf.trail, hf.trail_lim] at c4
  have hbl : r.1.out_btlevel < s.trail_lim.length := hbt
  refine ⟨?_, by rw [f4, hf.vardata], p, tl, e, ?_, ?_, hnil⟩
  · unfold decisionLevel
    rw [c2, hf.trail_lim, List.length_take]
    unfold decisionLevel at hbt
    omega
  · rw [value_undef_iff, var_neg]
    apply (c4 (var p)).1
    refine ⟨p, ?_, rfl⟩
    have hsplit := List.take_append_drop (s.trail_lim.getD r.1.out_btlevel 0) s.trail
    rw [← hsplit, List.mem_append] at hp
    rcases hp with hp | hp
    · have := htr.level_take _ hbl p hp
      omega
    · exact hp
  · intro q hq
    obtain ⟨q1, q2, q3⟩ := htl q hq
    refine ⟨?_, ?_, q3⟩
    · have : (cancelUntil r.2 r.1.out_btlevel).assigns (var q) = s.assigns (var q) := by
        rw [(c4 (var q)).2, hf.assigns]
        rintro ⟨l, hl, el⟩
        have := htr.level_drop _ hbl l hl
        rw [el] at this
        omega
      rw [value_of_assigns_eq this]
      exact q1
    · intro e'
      rw [e', hpl] at q3
      omega

theorem learnUnit_some {sb : Solver} {r : AnalyzeResult} (hdl : decisionLevel sb = 0)
    (hu : value sb (r.out_learnt.getD 0 0) = l_Undef) :
    ∃ s1, learnUnit sb r = some s1 ∧
      s1.assigns = Function.update sb.assigns (var (r.out_learnt.getD 0 0))
        (lbool.ofBool (!sign (r.out_learnt.getD 0 0))) ∧
      s1.vardata = Function.update sb.vardata (var (r.out_learnt.getD 0 0))
        (mkVarData none (decisionLevel sb)) ∧
      s1.trail_lim = sb.trail_lim := by
  unfold learnUnit
  rw [if_neg (by rw [hdl]; simp)]
  cases hsym : r.out_symmetry with
  | false =>
    simp only [Bool.false_eq_true, if_false]
    rw [uncheckedEnqueue_some none hu]
    exact ⟨_, rfl, rfl, rfl, rfl⟩
  | true =>
    simp only [if_true]
    have hu' : value (insertSymmetryUnit sb (var (r.out_learnt.getD 0 0)))
        (r.out_learnt.getD 0 0) = l_Undef := hu
    rw [uncheckedEnqueue_some none hu']
    exact ⟨_, rfl, rfl, rfl, rfl⟩

theorem attach_bump_fields (X : Solver) (cr : CRef) (h : (X.ca.cl cr).size > 1) :
    ∃ Y, attachClause X cr = some Y ∧ (claBumpActivity Y cr).assigns = X.assigns ∧
      (claBumpActivity Y cr).vardata = X.vardata ∧
      (claBumpActivity Y cr).trail_lim = X.trail_lim := by
  rw [attachClause_some h]
  have hfr : Frame X (countAttach
      (pushWatch (pushWatch X (neg ((X.ca.cl cr).get 0)) ⟨cr, (X.ca.cl cr).get 1⟩)
        (neg ((X.ca.cl cr).get 1)) ⟨cr, (X.ca.cl cr).get 0⟩) (X.ca.cl cr)) :=
    ((Frame.pushWatch X _ _).trans (Frame.pushWatch _ _ _)).trans (Frame.countAttach _ _)
  have haf := anaKey_frame (anaKey_claBumpActivity (countAttach
      (pushWatch (pushWatch X (neg ((X.ca.cl cr).get 0)) ⟨cr, (X.ca.cl cr).get 1⟩)
        (neg ((X.ca.cl cr).get 1)) ⟨cr, (X.ca.cl cr).get 0⟩) (X.ca.cl cr)) cr)
  exact ⟨_, rfl, haf.assigns.trans hfr.assigns, haf.vardata.trans hfr.vardata,
    haf.trail_lim.trans hfr.trail_lim⟩

theorem learnClause_some {sb : Solver} {r : AnalyzeResult} {confl : CRef}
    (hsz : 2 ≤ r.out_learnt.length)
    (hu : value sb (r.out_learnt.getD 0 0) = l_Undef)
    (hassert : ¬ ((sb.ca.cl confl).fsymmetry = true ∧ r.out_symmetry = false)) :
    ∃ s1, learnClause sb r confl = some s1 ∧
      s1.assigns = Function.update sb.assigns (var (r.out_learnt.getD 0 0))
        (lbool.ofBool (!sign (r.out_learnt.getD 0 0))) ∧
      s1.vardata = Function.update sb.vardata (var (r.out_learnt.getD 0 0))
        (mkVarData (some sb.ca.size) (decisionLevel sb)) ∧
      s1.trail_lim = sb.trail_lim := by
  unfold learnClause
  rw [if_neg hassert]
  dsimp only
  have hsize : ((pushLearnt (setCa sb (sb.ca.alloc r.out_learnt true (sb.ca.cl confl).fsymmetry
      r.out_symmetry (if r.out_symmetry then some r.comp else none)).2)
      (sb.ca.alloc r.out_learnt true (sb.ca.cl confl).fsymmetry r.out_symmetry
        (if r.out_symmetry then some r.comp else none)).1).ca.cl
      (sb.ca.alloc r.out_learnt true (sb.ca.cl confl).fsymmetry r.out_symmetry
        (if r.out_symmetry then some r.comp else none)).1).size > 1 := by
    show (Function.update sb.ca.cl sb.ca.size _ sb.ca.size).size > 1
    rw [Function.update_same]
    show r.out_learnt.length > 1
    omega
  obtain ⟨Y, hY, e1, e2, e3⟩ := attach_bump_fields _ _ hsize
  rw [hY]
  dsimp only
  have e1' : (claBumpActivity Y (sb.ca.alloc r.out_learnt true (sb.ca.cl confl).fsymmetry
      r.out_symmetry (if r.out_symmetry then some r.comp else none)).1).assigns = sb.assigns := e1
  have e2' : (claBumpActivity Y (sb.ca.alloc r.out_learnt true (sb.ca.cl confl).fsymmetry
      r.out_symmetry (if r.out_symmetry then some r.comp else none)).1).vardata = sb.vardata := e2
  have e3' : (claBumpActivity Y (sb.ca.alloc r.out_learnt true (sb.ca.cl confl).fsymmetry
      r.out_symmetry (if r.out_symmetry then some r.comp else none)).1).trail_lim =
      sb.trail_lim := e3
  have hu' := (value_congr e1' (r.out_learnt.getD 0 0)).trans hu
  rw [uncheckedEnqueue_some _ hu']
  refine ⟨_, rfl, ?_, ?_, e3'⟩
  · show Function.update (claBumpActivity _ _).assigns _ _ = _
    rw [e1']
  · show Function.update (claBumpActivity _ _).vardata _ _ = _
    rw [e2']
    unfold decisionLevel
    rw [e3']
    rfl

end Minisat


namespace Minisat
open lbool

/-! ## The asserting literal of a learnt clause -/

/-- C11: for a conflict that `propagate` finds at a decision level above 0 (in a state reached
under the invariants of the solver, so the conflict clause is falsified and every reason clause
has its implied literal first and the other literals false), once `analyze` has returned:
`learnt_clause[0]` is unassigned after `cancelUntil(backtrack_level)`, the enqueue of
`learnt_clause[0]` (as a unit, or with the new learnt clause as reason) succeeds, and after it
`learnt_clause[0]` is true at level `backtrack_level` and every other literal of the learnt
clause is false. -/
theorem conflict_asserts (fuel fuel2 : Nat) (s0 s : Solver) (confl : CRef)
    (r : AnalyzeResult × Solver) (h0 : Inv s0)
    (hp : propagate fuel s0 = some (some confl, s)) (hdl : 0 < decisionLevel s)
    (hfs : (s.ca.cl confl).fsymmetry = true → (s.ca.cl confl).symmetry = true)
    (ha : analyze fuel2 (countConflict s) confl = some r) :
    1 ≤ r.1.out_learnt.length ∧ r.1.out_btlevel < decisionLevel s ∧
    decisionLevel (cancelUntil r.2 r.1.out_btlevel) = r.1.out_btlevel ∧
    value (cancelUntil r.2 r.1.out_btlevel) (r.1.out_learnt.getD 0 0) = l_Undef ∧
    ∃ s1, (if r.1.out_learnt.length = 1 then learnUnit (cancelUntil r.2 r.1.out_btlevel) r.1
           else learnClause (cancelUntil r.2 r.1.out_btlevel) r.1 confl) = some s1 ∧
      decisionLevel s1 = r.1.out_btlevel ∧
      value s1 (r.1.out_learnt.getD 0 0) = l_True ∧
      level s1 (var (r.1.out_learnt.getD 0 0)) = r.1.out_btlevel ∧
      ∀ i, 1 ≤ i → i < r.1.out_learnt.length →
        value s1 (r.1.out_learnt.getD i 0) = l_False := by
  obtain ⟨h1, -, -, h4⟩ := propagate_inv h0.tr h0.wt hp
  obtain ⟨-, hatt, hfal⟩ := h4 confl rfl
  have hax := propagate_aux h0.tr h0.wt h0.ax hp
  have htl := propagate_top h0.tr h0.wt hp confl rfl
  have htr' : TrailInv (countConflict s) := h1.congr_tr rfl rfl rfl rfl
  have hrs' : ReasonInv (countConflict s) := hax.rs
  have hspec : AnalyzeSpec (countConflict s) r :=
    analyze_spec htr' hrs' hax.vr.seen0 hdl hfal htl ha
  obtain ⟨b1, b2, p, tl, e, hu, htail, hnil⟩ := hspec.after_cancel htr'
  have hx : r.1.out_learnt.getD 0 0 = neg p := by rw [e]; rfl
  have hlen : r.1.out_learnt.length = tl.length + 1 := by rw [e]; rfl
  obtain ⟨_, _, -, -, -, -, -, hbt, -, -⟩ := hspec.shape
  refine ⟨by omega, hbt, b1, by rw [hx]; exact hu, ?_⟩
  have hfin : ∀ s1 : Solver, ∀ rs : Option CRef,
      s1.assigns = Function.update (cancelUntil r.2 r.1.out_btlevel).assigns
        (var (r.1.out_learnt.getD 0 0)) (lbool.ofBool (!sign (r.1.out_learnt.getD 0 0))) →
      s1.vardata = Function.update (cancelUntil r.2 r.1.out_btlevel).vardata
        (var (r.1.out_learnt.getD 0 0))
        (mkVarData rs (decisionLevel (cancelUntil r.2 r.1.out_btlevel))) →
      s1.trail_lim = (cancelUntil r.2 r.1.out_btlevel).trail_lim →
      decisionLevel s1 = r.1.out_btlevel ∧
      value s1 (r.1.out_learnt.getD 0 0) = l_True ∧
      level s1 (var (r.1.out_learnt.getD 0 0)) = r.1.out_btlevel ∧
      ∀ i, 1 ≤ i → i < r.1.out_learnt.length →
        value s1 (r.1.out_learnt.getD i 0) = l_False := by
    intro s1 rs a1 a2 a3
    refine ⟨?_, value_of_assigns_update_self s1 _ _ a1, ?_, ?_⟩
    · unfold decisionLevel; rw [a3]; exact b1
    · unfold level
      rw [a2, Function.update_same]
      exact b1
    · intro i i1 i2
      obtain ⟨k, rfl⟩ : ∃ k, i = k + 1 := ⟨i - 1, by omega⟩
      have hk : k < tl.length := by omega
      have hq : r.1.out_learnt.getD (k + 1) 0 = tl.getD k 0 := by rw [e]; rfl
      have hmem : tl.getD k 0 ∈ tl := getD_mem_of_lt hk
      obtain ⟨q1, q2, -⟩ := htail _ hmem
      rw [hq]
      have hne : var (tl.getD k 0) ≠ var (r.1.out_learnt.getD 0 0) := by
        rw [hx, var_neg]; exact q2
      have : s1.assigns (var (tl.getD k 0)) =
          (cancelUntil r.2 r.1.out_btlevel).assigns (var (tl.getD k 0)) := by
        rw [a1, Function.update_noteq hne]
      rw [value_of_assigns_eq this]
      exact q1
  by_cases hone : r.1.out_learnt.length = 1
  · rw [if_pos hone]
    have htnil : tl = [] := List.length_eq_zero.mp (by omega)
    have hd0 : decisionLevel (cancelUntil r.2 r.1.out_btlevel) = 0 := by
      rw [b1]; exact hnil htnil
    obtain ⟨s1, g1, g2, g3, g4⟩ := learnUnit_some (r := r.1) hd0 (by rw [hx]; exact hu)
    exact ⟨s1, g1, hfin s1 none g2 g3 g4⟩
  · rw [if_neg hone]
    have hassert : ¬ (((cancelUntil r.2 r.1.out_btlevel).ca.cl confl).fsymmetry = true ∧
        r.1.out_symmetry = false) := by
      rintro ⟨hf1, hf2⟩
      obtain ⟨-, -, -, -, -, -, fca, -⟩ :=
        cancelUntilKey_fields (cancelUntilKey_cancelUntil r.2 r.1.out_btlevel)
      rw [fca, (anaKey_fsymmetry hspec.key confl).1] at hf1
      have hsym := hfs hf1
      obtain ⟨res, m, hloop, -, -, -, e3, -⟩ := analyze_parts ha
      have := analyzeLoop_sym _ _ _ _ _ _ _ (Or.inr hsym) hloop
      rw [e3, this] at hf2
      cases hf2
    obtain ⟨s1, g1, g2, g3, g4⟩ := @learnClause_some _ r.1 confl (by omega)
      (by rw [hx]; exact hu) hassert
    exact ⟨s1, g1, hfin s1 _ g2 g3 g4⟩

end Minisat


namespace Minisat
open lbool

/-! ## Garbage collection: `watches.cleanAll()` -/

theorem lookup_watches (s : Solver) (p l : Lit)
    (hrd : ∀ w ∈ s.watches p, (s.ca.cl w.cref).mark = 1 → s.dirty p = true) :
    (lookup s p).watches l =
      if l = p then (s.watches l).filter (fun w => !isRemoved s w.cref) else s.watches l := by
  unfold lookup
  by_cases hd : s.dirty p = true
  · rw [if_pos hd]
    by_cases e : l = p
    · rw [if_pos e, e, cleanWatch_watches_self]
    · rw [if_neg e, cleanWatch_watches_other s e]
  · rw [if_neg hd]
    by_cases e : l = p
    · rw [if_pos e, e]
      symm
      rw [List.filter_eq_self]
      intro w hw
      unfold isRemoved
      simp only [Bool.not_eq_true', decide_eq_false_iff_not]
      intro hm
      exact hd (hrd w hw hm)
    · rw [if_neg e]

theorem lookup_dirty_eq (s : Solver) (p : Lit) :
    (lookup s p).dirty = Function.update s.dirty p false := by
  unfold lookup
  by_cases hd : s.dirty p = true
  · rw [if_pos hd]; rfl
  · rw [if_neg hd]
    have : s.dirty p = false := by simpa using hd
    rw [← this, Function.update_eq_self]

theorem lookup_rest (s : Solver) (p : Lit) :
    (lookup s p).ca = s.ca ∧ (lookup s p).dirties = s.dirties ∧ gcKey (lookup s p) = gcKey s ∧
    (lookup s p).vardata = s.vardata ∧ (lookup s p).learnts = s.learnts ∧
    (lookup s p).clauses = s.clauses := by
  unfold lookup
  split_ifs
  · exact ⟨rfl, rfl, rfl, rfl, rfl, rfl⟩
  · exact ⟨rfl, rfl, rfl, rfl, rfl, rfl⟩

/-- The fold of `cleanAll` over the list `ds` of dirty literals. -/
theorem cleanFold_spec : ∀ (ds : List Lit) (s : Solver),
    (∀ l, ∀ w ∈ s.watches l, (s.ca.cl w.cref).mark = 1 → s.dirty l = true) →
    (∀ l, (ds.foldl (fun t l => lookup t l) s).watches l =
      if l ∈ ds then (s.watches l).filter (fun w => !isRemoved s w.cref) else s.watches l) ∧
    (∀ l, (ds.foldl (fun t l => lookup t l) s).dirty l =
      if l ∈ ds then false else s.dirty l) ∧
    (ds.foldl (fun t l => lookup t l) s).ca = s.ca ∧
    (ds.foldl (fun t l => lookup t l) s).dirties = s.dirties ∧
    gcKey (ds.foldl (fun t l => lookup t l) s) = gcKey s ∧
    (ds.foldl (fun t l => lookup t l) s).vardata = s.vardata ∧
    (ds.foldl (fun t l => lookup t l) s).learnts = s.learnts ∧
    (ds.foldl (fun t l => lookup t l) s).clauses = s.clauses := by
  intro ds
  induction ds with
  | nil =>
    intro s _
    exact ⟨fun l => by simp, fun l => by simp, rfl, rfl, rfl, rfl, rfl, rfl⟩
  | cons d ds ih =>
    intro s hrd
    rw [List.foldl_cons]
    obtain ⟨r1, r2, r3, r4, r5, r6⟩ := lookup_rest s d
    have hw : ∀ l, (lookup s d).watches l =
        if l = d then (s.watches l).filter (fun w => !isRemoved s w.cref) else s.watches l :=
      fun l => lookup_watches s d l (hrd d)
    have hdirty := lookup_dirty_eq s d
    have hrem : ∀ w, isRemoved (lookup s d) w = isRemoved s w := by
      intro w; unfold isRemoved; rw [r1]
    have hrd' : ∀ l, ∀ w ∈ (lookup s d).watches l, ((lookup s d).ca.cl w.cref).mark = 1 →
        (lookup s d).dirty l = true := by
      intro l w hw' hm
      rw [r1] at hm
      rw [hw l] at hw'
      by_cases e : l = d
      · rw [if_pos e, List.mem_filter] at hw'
        have := hw'.2
        unfold isRemoved at this
        simp at this
        exact absurd hm this
      · rw [if_neg e] at hw'
        rw [hdirty, Function.update_noteq e]
        exact hrd l w hw' hm
    obtain ⟨i1, i2, i3, i4, i5, i6, i7, i8⟩ := ih (lookup s d) hrd'
    refine ⟨?_, ?_, i3.trans r1, i4.trans r2, i5.trans r3, i6.trans r4, i7.trans r5,
      i8.trans r6⟩
    · intro l
      rw [i1 l]
      have hfun : (fun w : Watcher => !isRemoved (lookup s d) w.cref) =
          (fun w : Watcher => !isRemoved s w.cref) := by
        funext w; rw [hrem]
      rw [hfun]
      by_cases e : l = d
      · have hwl : (lookup s d).watches l =
            (s.watches l).filter (fun w => !isRemoved s w.cref) := by rw [hw l, if_pos e]
        have hmem : l ∈ d :: ds := by rw [e]; exact List.mem_cons_self _ _
        rw [hwl]
        conv_rhs => rw [if_pos hmem]
        by_cases hm : l ∈ ds
        · rw [if_pos hm, List.filter_filter]
          simp
        · rw [if_neg hm]
      · have hwl : (lookup s d).watches l = s.watches l := by rw [hw l, if_neg e]
        rw [hwl]
        by_cases hm : l ∈ ds
        · rw [if_pos hm, if_pos (List.mem_cons_of_mem _ hm)]
        · rw [if_neg hm, if_neg (by simp [e, hm])]
    · intro l
      rw [i2 l, hdirty]
      by_cases e : l = d
      · rw [e, Function.update_same, if_pos (List.mem_cons_self _ _)]
        split_ifs <;> rfl
      · rw [Function.update_noteq e]
        by_cases hm : l ∈ ds
        · rw [if_pos hm, if_pos (List.mem_cons_of_mem _ hm)]
        · rw [if_neg hm, if_neg (by simp [e, hm])]

/-- `watches.cleanAll()` under the invariants: every list loses the watchers of removed
clauses and no list is dirty. -/
theorem cleanAll_spec {s : Solver}
    (hrd : ∀ l, ∀ w ∈ s.watches l, (s.ca.cl w.cref).mark = 1 → s.dirty l = true)
    (hd : ∀ l, s.dirty l = true → l ∈ s.dirties) :
    (∀ l, (cleanAll s).watches l = (s.watches l).filter (fun w => !isRemoved s w.cref)) ∧
    (∀ l, (cleanAll s).dirty l = false) ∧ (cleanAll s).dirties = [] ∧
    (cleanAll s).ca = s.ca ∧ gcKey (cleanAll s) = gcKey s ∧
    (cleanAll s).vardata = s.vardata ∧ (cleanAll s).learnts = s.learnts ∧
    (cleanAll s).clauses = s.clauses := by
  obtain ⟨i1, i2, i3, i4, i5, i6, i7, i8⟩ := cleanFold_spec s.dirties s hrd
  unfold cleanAll
  refine ⟨?_, ?_, rfl, i3, i5, i6, i7, i8⟩
  · intro l
    show (s.dirties.foldl (fun t l => lookup t l) s).watches l = _
    rw [i1 l]
    by_cases hm : l ∈ s.dirties
    · rw [if_pos hm]
    · rw [if_neg hm]
      symm
      rw [List.filter_eq_self]
      intro w hw
      unfold isRemoved
      simp only [Bool.not_eq_true', decide_eq_false_iff_not]
      intro hmk
      exact hm (hd l (hrd l w hw hmk))
  · intro l
    show (s.dirties.foldl (fun t l => lookup t l) s).dirty l = _
    rw [i2 l]
    by_cases hm : l ∈ s.dirties
    · rw [if_pos hm]
    · rw [if_neg hm]
      by_contra hc
      exact hm (hd l (by simpa using hc))

end Minisat


namespace Minisat
open lbool

/-! ## Garbage collection: moving one clause -/

theorem RelocInv.lits_eq {s0 S : Solver} {tgt : ClauseAllocator} (h : RelocInv s0 S tgt)
    (cr : CRef) : (S.ca.cl cr).lits = (s0.ca.cl cr).lits ∧ (S.ca.cl cr).mark = (s0.ca.cl cr).mark := by
  rcases h.slot cr with e | ⟨n, e, -, -⟩
  · rw [e]; exact ⟨rfl, rfl⟩
  · rw [e]; exact ⟨rfl, rfl⟩

theorem RelocInv.assigns_eq {s0 S : Solver} {tgt : ClauseAllocator} (h : RelocInv s0 S tgt) :
    S.assigns = s0.assigns := by
  have := congrArg Solver.assigns h.key
  exact this

theorem RelocInv.trail_eq {s0 S : Solver} {tgt : ClauseAllocator} (h : RelocInv s0 S tgt) :
    S.trail = s0.trail := by
  have := congrArg Solver.trail h.key
  exact this

theorem RelocInv.next_var_eq {s0 S : Solver} {tgt : ClauseAllocator} (h : RelocInv s0 S tgt) :
    S.next_var = s0.next_var := by
  have := congrArg Solver.next_var h.key
  exact this

theorem RelocInv.isRemoved_eq {s0 S : Solver} {tgt : ClauseAllocator} (h : RelocInv s0 S tgt)
    (cr : CRef) : isRemoved S cr = isRemoved s0 cr := by
  unfold isRemoved; rw [(h.lits_eq cr).2]

theorem RelocInv.fwd_of_reloced {s0 S : Solver} {tgt : ClauseAllocator}
    (h : RelocInv s0 S tgt) (h0 : ∀ c, (s0.ca.cl c).reloced = false) {cr n : CRef}
    (hf : Fwd S cr n) : n < tgt.size ∧ tgt.cl n = s0.ca.cl cr := by
  rcases h.slot cr with e | ⟨m, e, h1, h2⟩
  · have := hf.1
    rw [e, h0] at this
    cases this
  · have := hf.2
    rw [e] at this
    have hm : m = n := this
    rw [← hm]
    exact ⟨h1, h2⟩

/-- A state with the same arena and the same key keeps the invariant of the relocation. -/
theorem RelocInv.of_ca {s0 S S1 : Solver} {tgt : ClauseAllocator} (h : RelocInv s0 S tgt)
    (hca : S1.ca = S.ca) (hk : relocKey S1 = relocKey S)
    (hl : ∀ v, (S1.vardata v).level = (S.vardata v).level) : RelocInv s0 S1 tgt := by
  have hf : ∀ cr n, Fwd S1 cr n ↔ Fwd S cr n := by
    intro cr n; unfold Fwd; rw [hca]
  constructor
  · intro cr; rw [hca]; exact h.slot cr
  · intro cr cr' n a b; exact h.inj cr cr' n ((hf _ _).mp a) ((hf _ _).mp b)
  · intro n
    rcases h.copies n with e | ⟨cr, a, b⟩
    · exact Or.inl e
    · exact Or.inr ⟨cr, (hf _ _).mpr a, b⟩
  · exact h.empty_above
  · intro cr n a; exact h.att cr n ((hf _ _).mp a)
  · exact hk.trans h.key
  · intro v; rw [hl]; exact h.levels v

theorem clauseWord32Size_pos (n : Nat) (b : Bool) : 0 < clauseWord32Size n b := by
  unfold clauseWord32Size; omega

/-- `ca.reloc(cr, to)` keeps the invariant of the relocation and returns the reference of the
copy. -/
theorem reloc_step {s0 S : Solver} {tgt : ClauseAllocator} (hI : RelocInv s0 S tgt)
    (h0 : ∀ c, (s0.ca.cl c).reloced = false) {cr : CRef} (hatt : Attached s0 cr) :
    RelocInv s0 (reloc S tgt cr).2.1 (reloc S tgt cr).2.2 ∧
    (∀ c n, Fwd S c n → Fwd (reloc S tgt cr).2.1 c n) ∧
    Fwd (reloc S tgt cr).2.1 cr (reloc S tgt cr).1 ∧
    (reloc S tgt cr).2.1.watches = S.watches ∧ (reloc S tgt cr).2.1.vardata = S.vardata ∧
    (reloc S tgt cr).2.1.learnts = S.learnts ∧ (reloc S tgt cr).2.1.clauses = S.clauses ∧
    (reloc S tgt cr).2.2.wasted = tgt.wasted := by
  unfold reloc
  by_cases hr : (S.ca.cl cr).reloced = true
  · rw [if_pos hr]
    exact ⟨hI, fun c n h => h, ⟨hr, rfl⟩, rfl, rfl, rfl, rfl, rfl⟩
  · rw [if_neg hr]
    have hslot : S.ca.cl cr = s0.ca.cl cr := by
      rcases hI.slot cr with e | ⟨n, e, -, -⟩
      · exact e
      · exfalso; apply hr; rw [e]; rfl
    have hself : (setReloc S cr tgt.size).ca.cl cr = forwardTo (S.ca.cl cr) tgt.size := by
      show Function.update S.ca.cl cr _ cr = _
      rw [Function.update_same]
    have hother : ∀ c, c ≠ cr → (setReloc S cr tgt.size).ca.cl c = S.ca.cl c := by
      intro c hc
      show Function.update S.ca.cl cr _ c = _
      rw [Function.update_noteq hc]
    have hfwd_old : ∀ c n, Fwd S c n → c ≠ cr ∧ n < tgt.size := by
      intro c n hf
      refine ⟨?_, (hI.fwd_of_reloced h0 hf).1⟩
      intro e
      rw [e] at hf
      exact hr hf.1
    have hmono : ∀ c n, Fwd S c n → Fwd (setReloc S cr tgt.size) c n := by
      intro c n hf
      unfold Fwd
      rw [hother c (hfwd_old c n hf).1]
      exact hf
    have hnew : Fwd (setReloc S cr tgt.size) cr tgt.size := by
      unfold Fwd; rw [hself]; exact ⟨rfl, rfl⟩
    have hcases : ∀ c n, Fwd (setReloc S cr tgt.size) c n →
        (c = cr ∧ n = tgt.size) ∨ (c ≠ cr ∧ Fwd S c n) := by
      intro c n hf
      by_cases e : c = cr
      · left
        refine ⟨e, ?_⟩
        rw [e] at hf
        have := hf.2
        rw [hself] at this
        exact this.symm
      · right
        refine ⟨e, ?_⟩
        unfold Fwd at hf
        rw [hother c e] at hf
        exact hf
    have htcl_self : (copyClause tgt (S.ca.cl cr)).cl tgt.size = S.ca.cl cr := by
      show Function.update tgt.cl tgt.size _ tgt.size = _
      rw [Function.update_same]
    have htcl_other : ∀ n, n ≠ tgt.size → (copyClause tgt (S.ca.cl cr)).cl n = tgt.cl n := by
      intro n hn
      show Function.update tgt.cl tgt.size _ n = _
      rw [Function.update_noteq hn]
    have hsz : tgt.size < (copyClause tgt (S.ca.cl cr)).size := by
      show tgt.size < tgt.size + clauseWord32Size _ _
      have := clauseWord32Size_pos (S.ca.cl cr).size (S.ca.cl cr).learnt
      omega
    refine ⟨?_, hmono, hnew, rfl, rfl, rfl, rfl, rfl⟩
    constructor
    · intro c
      by_cases e : c = cr
      · right
        refine ⟨tgt.size, ?_, hsz, ?_⟩
        · rw [e, hself, hslot]
        · rw [htcl_self, e, hslot]
      · rw [hother c e]
        rcases hI.slot c with h1 | ⟨n, h1, h2, h3⟩
        · exact Or.inl h1
        · right
          refine ⟨n, h1, lt_trans h2 hsz, ?_⟩
          rw [htcl_other n (Nat.ne_of_lt h2)]
          exact h3
    · intro c c' n a b
      rcases hcases c n a with ⟨e1, e2⟩ | ⟨e1, f1⟩
      · rcases hcases c' n b with ⟨e3, -⟩ | ⟨-, f2⟩
        · rw [e1, e3]
        · exfalso
          have := (hfwd_old c' n f2).2
          exact absurd e2 (Nat.ne_of_lt this)
      · rcases hcases c' n b with ⟨-, e4⟩ | ⟨-, f2⟩
        · exfalso
          have := (hfwd_old c n f1).2
          exact absurd e4 (Nat.ne_of_lt this)
        · exact hI.inj c c' n f1 f2
    · intro n
      by_cases e : n = tgt.size
      · right
        refine ⟨cr, by rw [e]; exact hnew, ?_⟩
        rw [e, htcl_self, hslot]
      · rw [htcl_other n e]
        rcases hI.copies n with h1 | ⟨c, h1, h2⟩
        · exact Or.inl h1
        · exact Or.inr ⟨c, hmono c n h1, h2⟩
    · intro n hn
      have hn' : tgt.size < n ∨ tgt.size = n := by
        have : tgt.size + clauseWord32Size (S.ca.cl cr).size (S.ca.cl cr).learnt ≤ n := hn
        have := clauseWord32Size_pos (S.ca.cl cr).size (S.ca.cl cr).learnt
        omega
      rcases hn' with h1 | h1
      · rw [htcl_other n (by omega)]
        exact hI.empty_above n (by omega)
      · exfalso
        have : tgt.size + clauseWord32Size (S.ca.cl cr).size (S.ca.cl cr).learnt ≤ n := hn
        have := clauseWord32Size_pos (S.ca.cl cr).size (S.ca.cl cr).learnt
        omega
    · intro c n hf
      rcases hcases c n hf with ⟨e1, -⟩ | ⟨-, f1⟩
      · rw [e1]; exact hatt
      · exact hI.att c n f1
    · exact hI.key
    · exact hI.levels

end Minisat


namespace Minisat
open lbool

/-! ## Garbage collection: the passes of `relocAll` over the watchers and the clause lists -/

theorem relocWatchers_spec {s0 : Solver} (h0 : ∀ c, (s0.ca.cl c).reloced = false) :
    ∀ (ws : List Watcher) (S : Solver) (tgt : ClauseAllocator), RelocInv s0 S tgt →
      (∀ w ∈ ws, Attached s0 w.cref) →
      RelocInv s0 (relocWatchers S tgt ws).2.1 (relocWatchers S tgt ws).2.2 ∧
      (∀ c n, Fwd S c n → Fwd (relocWatchers S tgt ws).2.1 c n) ∧
      List.Forall₂ (WFwd (relocWatchers S tgt ws).2.1) ws (relocWatchers S tgt ws).1 ∧
      (relocWatchers S tgt ws).2.1.watches = S.watches ∧
      (relocWatchers S tgt ws).2.1.vardata = S.vardata ∧
      (relocWatchers S tgt ws).2.1.learnts = S.learnts ∧
      (relocWatchers S tgt ws).2.1.clauses = S.clauses ∧
      (relocWatchers S tgt ws).2.2.wasted = tgt.wasted := by
  intro ws
  induction ws with
  | nil =>
    intro S tgt hI _
    exact ⟨hI, fun c n h => h, List.Forall₂.nil, rfl, rfl, rfl, rfl, rfl⟩
  | cons w ws ih =>
    intro S tgt hI hatt
    obtain ⟨a1, a2, a3, a4, a5, a6, a7, a8⟩ :=
      reloc_step hI h0 (hatt w (List.mem_cons_self _ _))
    obtain ⟨b1, b2, b3, b4, b5, b6, b7, b8⟩ :=
      ih (reloc S tgt w.cref).2.1 (reloc S tgt w.cref).2.2 a1
        (fun w' hw' => hatt w' (List.mem_cons_of_mem _ hw'))
    unfold relocWatchers
    dsimp only
    refine ⟨b1, fun c n h => b2 c n (a2 c n h), ?_, b4.trans a4, b5.trans a5, b6.trans a6,
      b7.trans a7, b8.trans a8⟩
    exact List.Forall₂.cons ⟨rfl, b2 _ _ a3⟩ b3

theorem forall₂_mono {S S' : Solver} (hm : ∀ c n, Fwd S c n → Fwd S' c n) {ws ws' : List Watcher}
    (h : List.Forall₂ (WFwd S) ws ws') : List.Forall₂ (WFwd S') ws ws' :=
  h.imp (fun _ _ hw => ⟨hw.1, hm _ _ hw.2⟩)

theorem relocAllWatches_spec {s0 : Solver} (h0 : ∀ c, (s0.ca.cl c).reloced = false) :
    ∀ (ps : List Lit) (S : Solver) (tgt : ClauseAllocator), RelocInv s0 S tgt → ps.Nodup →
      (∀ p ∈ ps, ∀ w ∈ S.watches p, Attached s0 w.cref) →
      RelocInv s0 (relocAllWatches S tgt ps).1 (relocAllWatches S tgt ps).2 ∧
      (∀ c n, Fwd S c n → Fwd (relocAllWatches S tgt ps).1 c n) ∧
      (∀ p ∈ ps, List.Forall₂ (WFwd (relocAllWatches S tgt ps).1) (S.watches p)
        ((relocAllWatches S tgt ps).1.watches p)) ∧
      (∀ p, p ∉ ps → (relocAllWatches S tgt ps).1.watches p = S.watches p) ∧
      (relocAllWatches S tgt ps).1.vardata = S.vardata ∧
      (relocAllWatches S tgt ps).1.learnts = S.learnts ∧
      (relocAllWatches S tgt ps).1.clauses = S.clauses ∧
      (relocAllWatches S tgt ps).2.wasted = tgt.wasted := by
  intro ps
  induction ps with
  | nil =>
    intro S tgt hI _ _
    exact ⟨hI, fun c n h => h, (fun p hp => by cases hp), fun p _ => rfl, rfl, rfl, rfl, rfl⟩
  | cons p ps ih =>
    intro S tgt hI hnd hatt
    obtain ⟨a1, a2, a3, a4, a5, a6, a7, a8⟩ :=
      relocWatchers_spec h0 (S.watches p) S tgt hI (hatt p (List.mem_cons_self _ _))
    have hp : p ∉ ps := (List.nodup_cons.mp hnd).1
    have hI1 : RelocInv s0 (setWatches (relocWatchers S tgt (S.watches p)).2.1 p
        (relocWatchers S tgt (S.watches p)).1) (relocWatchers S tgt (S.watches p)).2.2 :=
      a1.of_ca rfl rfl (fun v => rfl)
    have hw1 : ∀ q, q ≠ p → (setWatches (relocWatchers S tgt (S.watches p)).2.1 p
        (relocWatchers S tgt (S.watches p)).1).watches q = S.watches q := by
      intro q hq
      rw [setWatches_watches_other _ _ hq, a4]
    obtain ⟨b1, b2, b3, b4, b5, b6, b7, b8⟩ :=
      ih (setWatches (relocWatchers S tgt (S.watches p)).2.1 p
        (relocWatchers S tgt (S.watches p)).1) (relocWatchers S tgt (S.watches p)).2.2 hI1
        (List.nodup_cons.mp hnd).2
        (fun q hq w hw => by
          have hqp : q ≠ p := fun e => hp (e ▸ hq)
          rw [hw1 q hqp] at hw
          exact hatt q (List.mem_cons_of_mem _ hq) w hw)
    unfold relocAllWatches
    dsimp only
    refine ⟨b1, fun c n h => b2 c n (a2 c n h), ?_, ?_, b5.trans a5, b6.trans a6, b7.trans a7,
      b8.trans a8⟩
    · intro q hq
      rcases List.mem_cons.mp hq with e | e
      · rw [e, b4 p hp, setWatches_watches_self]
        exact forall₂_mono b2 a3
      · have hqp : q ≠ p := fun e' => hp (e' ▸ e)
        have := b3 q e
        rw [hw1 q hqp] at this
        exact this
    · intro q hq
      have hqp : q ≠ p := fun e => hq (e ▸ List.mem_cons_self _ _)
      rw [b4 q (fun h => hq (List.mem_cons_of_mem _ h)), hw1 q hqp]

theorem relocList_spec {s0 : Solver} (h0 : ∀ c, (s0.ca.cl c).reloced = false) :
    ∀ (crs : List CRef) (S : Solver) (tgt : ClauseAllocator), RelocInv s0 S tgt →
      (∀ c ∈ crs, (s0.ca.cl c).mark ≠ 1 → Attached s0 c) →
      RelocInv s0 (relocList S tgt crs).2.1 (relocList S tgt crs).2.2 ∧
      (∀ c n, Fwd S c n → Fwd (relocList S tgt crs).2.1 c n) ∧
      List.Forall₂ (Fwd (relocList S tgt crs).2.1)
        (crs.filter (fun c => !isRemoved s0 c)) (relocList S tgt crs).1 ∧
      (relocList S tgt crs).2.1.watches = S.watches ∧
      (relocList S tgt crs).2.1.vardata = S.vardata ∧
      (relocList S tgt crs).2.1.learnts = S.learnts ∧
      (relocList S tgt crs).2.1.clauses = S.clauses ∧
      (relocList S tgt crs).2.2.wasted = tgt.wasted := by
  intro crs
  induction crs with
  | nil =>
    intro S tgt hI _
    exact ⟨hI, fun c n h => h, List.Forall₂.nil, rfl, rfl, rfl, rfl, rfl⟩
  | cons c crs ih =>
    intro S tgt hI hatt
    unfold relocList
    by_cases hr : isRemoved S c = true
    · rw [if_pos hr]
      have hr0 : isRemoved s0 c = true := by rw [← hI.isRemoved_eq]; exact hr
      have hf : (c :: crs).filter (fun c => !isRemoved s0 c) =
          crs.filter (fun c => !isRemoved s0 c) := by
        rw [List.filter_cons_of_neg (by simp [hr0])]
      rw [hf]
      exact ih S tgt hI (fun c' hc' => hatt c' (List.mem_cons_of_mem _ hc'))
    · rw [if_neg hr]
      dsimp only
      have hr0 : isRemoved s0 c = false := by
        rw [← hI.isRemoved_eq]; simpa using hr
      have hmk : (s0.ca.cl c).mark ≠ 1 := by
        unfold isRemoved at hr0; simpa using hr0
      obtain ⟨a1, a2, a3, a4, a5, a6, a7, a8⟩ :=
        reloc_step hI h0 (hatt c (List.mem_cons_self _ _) hmk)
      obtain ⟨b1, b2, b3, b4, b5, b6, b7, b8⟩ :=
        ih (reloc S tgt c).2.1 (reloc S tgt c).2.2 a1
          (fun c' hc' => hatt c' (List.mem_cons_of_mem _ hc'))
      have hf : (c :: crs).filter (fun c => !isRemoved s0 c) =
          c :: crs.filter (fun c => !isRemoved s0 c) := by
        rw [List.filter_cons_of_pos (by simp [hr0])]
      rw [hf]
      refine ⟨b1, fun c' n h => b2 c' n (a2 c' n h), ?_, b4.trans a4, b5.trans a5,
        b6.trans a6, b7.trans a7, b8.trans a8⟩
      exact List.Forall₂.cons (b2 _ _ a3) b3

end Minisat


namespace Minisat
open lbool

/-! ## Garbage collection: the pass of `relocAll` over the reasons -/

theorem relocKey_setReason (S : Solver) (x : Var) (r : Option CRef) :
    relocKey (setReason S x r) = relocKey S := by
  have h : (fun v => mkVarData none
      ((Function.update S.vardata x (mkVarData r (S.vardata x).level)) v).level) =
      fun v => mkVarData none (S.vardata v).level := by
    funext v
    by_cases e : v = x
    · rw [e, Function.update_same]; rfl
    · rw [Function.update_noteq e]
  unfold relocKey setReason
  dsimp only
  rw [h]

theorem setReason_level (S : Solver) (x : Var) (r : Option CRef) (v : Var) :
    ((setReason S x r).vardata v).level = (S.vardata v).level := by
  show ((Function.update S.vardata x (mkVarData r (S.vardata x).level)) v).level = _
  by_cases e : v = x
  · rw [e, Function.update_same]; rfl
  · rw [Function.update_noteq e]

theorem relocReasons_spec {s0 : Solver} (h0 : ∀ c, (s0.ca.cl c).reloced = false) :
    ∀ (ls : List Lit) (S : Solver) (tgt : ClauseAllocator), RelocInv s0 S tgt →
      (ls.map var).Nodup →
      (∀ l ∈ ls, S.vardata (var l) = s0.vardata (var l)) →
      (∀ l ∈ ls, ∀ cr, reason s0 (var l) = some cr →
        Attached s0 cr ∧ (s0.ca.cl cr).get 0 = l ∧ value s0 l = l_True) →
      ∃ S' tgt', relocReasons S tgt ls = some (S', tgt') ∧ RelocInv s0 S' tgt' ∧
        (∀ c n, Fwd S c n → Fwd S' c n) ∧
        (∀ l ∈ ls, ∀ cr, reason s0 (var l) = some cr →
          ∃ n, reason S' (var l) = some n ∧ Fwd S' cr n) ∧
        (∀ l ∈ ls, reason s0 (var l) = none → reason S' (var l) = none) ∧
        (∀ v, v ∉ ls.map var → S'.vardata v = S.vardata v) ∧
        S'.watches = S.watches ∧ S'.learnts = S.learnts ∧ S'.clauses = S.clauses ∧
        tgt'.wasted = tgt.wasted := by
  intro ls
  induction ls with
  | nil =>
    intro S tgt hI _ _ _
    exact ⟨S, tgt, rfl, hI, fun c n h => h, (fun l hl => by cases hl), (fun l hl => by cases hl),
      fun v _ => rfl, rfl, rfl, rfl, rfl⟩
  | cons l ls ih =>
    intro S tgt hI hnd hvd hrs
    have hnd' : var l ∉ ls.map var ∧ (ls.map var).Nodup := by
      rw [List.map_cons] at hnd
      exact List.nodup_cons.mp hnd
    have hl_notin : var l ∉ ls.map var := hnd'.1
    have hrl : reason S (var l) = reason s0 (var l) := by
      unfold reason; rw [hvd l (List.mem_cons_self _ _)]
    unfold relocReasons
    cases hr : reason s0 (var l) with
    | none =>
      rw [hrl, hr]
      dsimp only
      obtain ⟨S', tgt', e, b1, b2, b3, b4, b5, b6, b7, b8, b9⟩ := ih S tgt hI hnd'.2
        (fun l' hl' => hvd l' (List.mem_cons_of_mem _ hl'))
        (fun l' hl' => hrs l' (List.mem_cons_of_mem _ hl'))
      refine ⟨S', tgt', e, b1, b2, ?_, ?_, ?_, b6, b7, b8, b9⟩
      · intro l' hl' cr hcr
        rcases List.mem_cons.mp hl' with e' | e'
        · rw [e', hr] at hcr; cases hcr
        · exact b3 l' e' cr hcr
      · intro l' hl' hn
        rcases List.mem_cons.mp hl' with e' | e'
        · rw [e']
          unfold reason
          rw [b5 (var l) hl_notin]
          exact hrl.trans hr
        · exact b4 l' e' hn
      · intro v hv
        exact b5 v (fun h => hv (by simp at h ⊢; exact Or.inr h))
    | some cr =>
      rw [hrl, hr]
      dsimp only
      obtain ⟨hatt, hget, hval⟩ := hrs l (List.mem_cons_self _ _) cr hr
      have hlocked : locked S cr = true := by
        unfold locked
        have hg : (S.ca.cl cr).get 0 = l := by
          unfold Clause.get; rw [(hI.lits_eq cr).1]; exact hget
        rw [hg, value_congr hI.assigns_eq, hval, hrl, hr]
        simp
      rw [if_pos (Or.inr hlocked)]
      have hnr : isRemoved S cr = false := by
        rw [hI.isRemoved_eq]
        unfold isRemoved
        simpa using hatt.2
      rw [hnr]
      simp only [Bool.false_eq_true, if_false]
      obtain ⟨a1, a2, a3, a4, a5, a6, a7, a8⟩ := @reloc_step _ _ _ hI h0 cr hatt
      have hI1 : RelocInv s0 (setReason (reloc S tgt cr).2.1 (var l) (some (reloc S tgt cr).1))
          (reloc S tgt cr).2.2 :=
        a1.of_ca rfl (relocKey_setReason _ _ _) (setReason_level _ _ _)
      have hvd1 : ∀ l' ∈ ls, (setReason (reloc S tgt cr).2.1 (var l)
          (some (reloc S tgt cr).1)).vardata (var l') = s0.vardata (var l') := by
        intro l' hl'
        have hne : var l' ≠ var l := fun e => hl_notin (e ▸ List.mem_map_of_mem var hl')
        show Function.update _ _ _ _ = _
        rw [Function.update_noteq hne, a5]
        exact hvd l' (List.mem_cons_of_mem _ hl')
      obtain ⟨S', tgt', e, b1, b2, b3, b4, b5, b6, b7, b8, b9⟩ := ih _ _ hI1 hnd'.2 hvd1
        (fun l' hl' => hrs l' (List.mem_cons_of_mem _ hl'))
      have hfw1 : ∀ c n, Fwd (reloc S tgt cr).2.1 c n →
          Fwd (setReason (reloc S tgt cr).2.1 (var l) (some (reloc S tgt cr).1)) c n :=
        fun c n h => h
      refine ⟨S', tgt', e, b1, fun c n h => b2 c n (hfw1 c n (a2 c n h)), ?_, ?_, ?_,
        b6.trans a4, b7.trans a6, b8.trans a7, b9.trans a8⟩
      · intro l' hl' cr' hcr'
        rcases List.mem_cons.mp hl' with e' | e'
        · rw [e', hr] at hcr'
          have ecr : cr = cr' := Option.some.inj hcr'
          rw [e', ← ecr]
          refine ⟨(reloc S tgt cr).1, ?_, b2 _ _ (hfw1 _ _ a3)⟩
          unfold reason
          rw [b5 (var l) hl_notin]
          show (Function.update (reloc S tgt cr).2.1.vardata (var l)
            (mkVarData (some (reloc S tgt cr).1) _) (var l)).reason = _
          rw [Function.update_same]
          rfl
        · exact b3 l' e' cr' hcr'
      · intro l' hl' hn
        rcases List.mem_cons.mp hl' with e' | e'
        · rw [e', hr] at hn; cases hn
        · exact b4 l' e' hn
      · intro v hv
        have hv1 : v ∉ ls.map var := fun h => hv (by simp at h ⊢; exact Or.inr h)
        have hv2 : v ≠ var l := fun h => hv (by simp [h])
        rw [b5 v hv1]
        show Function.update _ _ _ _ = _
        rw [Function.update_noteq hv2, a5]

end Minisat


namespace Minisat
open lbool

/-! ## Garbage collection: `relocAll` and `garbageCollect` -/

theorem allLits_eq_range (n : Nat) : allLits n = List.range (2 * n) := by
  induction n with
  | zero => rfl
  | succ n ih =>
    have e1 : allLits (n + 1) = allLits n ++ [mkLit n false, mkLit n true] := by
      unfold allLits
      rw [List.range_succ, List.flatMap_append]
      simp
    have e2 : List.range (2 * (n + 1)) = List.range (2 * n) ++ [2 * n, 2 * n + 1] := by
      rw [show 2 * (n + 1) = 2 * n + 1 + 1 by ring, List.range_succ, List.range_succ]
      simp
    rw [e1, e2, ih]
    unfold mkLit
    simp
    omega

theorem allLits_nodup (n : Nat) : (allLits n).Nodup := by
  rw [allLits_eq_range]; exact List.nodup_range _

theorem mem_allLits (n : Nat) (l : Lit) : l ∈ allLits n ↔ var l < n := by
  rw [allLits_eq_range, List.mem_range]
  unfold var
  omega

theorem forall₂_wfwd_map {S : Solver} : ∀ {ws ws' : List Watcher},
    List.Forall₂ (WFwd S) ws ws' →
    ws' = ws.map (fun w => ⟨(S.ca.cl w.cref).relocation, w.blocker⟩) := by
  intro ws ws' h
  induction h with
  | nil => rfl
  | @cons a b _ _ hw _ ih =>
    rw [List.map_cons, ← ih]
    congr 1
    cases b with
    | mk c bl =>
      have h1 : bl = a.blocker := hw.1
      have h2 : (S.ca.cl a.cref).relocation = c := hw.2.2
      rw [h1, h2]

theorem forall₂_fwd_map {S : Solver} : ∀ {cs cs' : List CRef},
    List.Forall₂ (Fwd S) cs cs' → cs' = cs.map (fun c => (S.ca.cl c).relocation) := by
  intro cs cs' h
  induction h with
  | nil => rfl
  | cons hw _ ih =>
    rw [List.map_cons, ← ih, hw.2]

theorem forall₂_fwd_mem {S : Solver} : ∀ {cs cs' : List CRef},
    List.Forall₂ (Fwd S) cs cs' → ∀ c ∈ cs, (S.ca.cl c).reloced = true := by
  intro cs cs' h
  induction h with
  | nil => intro c hc; cases hc
  | cons hw _ ih =>
    intro c hc
    rcases List.mem_cons.mp hc with e | e
    · rw [e]; exact hw.1
    · exact ih c e

theorem forall₂_fwd_mono {S S' : Solver} (hm : ∀ c n, Fwd S c n → Fwd S' c n)
    {cs cs' : List CRef} (h : List.Forall₂ (Fwd S) cs cs') : List.Forall₂ (Fwd S') cs cs' :=
  h.imp (fun _ _ hw => hm _ _ hw)

theorem gcKey_of_relocKey {X Y : Solver} (h : relocKey X = relocKey Y) : gcKey X = gcKey Y := by
  have e : ∀ Z : Solver, gcKey Z = { relocKey Z with dirty := fun _ => false, dirties := [] } :=
    fun _ => rfl
  rw [e, e, h]

theorem RelocInv.at_start (s0 : Solver) (h0 : ∀ c, (s0.ca.cl c).reloced = false) :
    RelocInv s0 s0 { cl := fun _ => emptyClause, size := 0, wasted := 0 } := by
  constructor
  · intro cr; exact Or.inl rfl
  · intro cr cr' n a _
    have := a.1
    rw [h0] at this
    cases this
  · intro n; exact Or.inl rfl
  · intro n _; rfl
  · intro cr n a
    have := a.1
    rw [h0] at this
    cases this
  · rfl
  · intro v; rfl

/-- `garbageCollect` returns, and its result is the state described by `GcSpec`: the lists of
watchers without the watchers of removed clauses, the two clause lists without the removed
clauses, and the reasons of the trail, all with the references mapped into the new arena. -/
theorem garbageCollect_spec {s : Solver} {q : Nat} (htr : TrailInv s) (hwt : WatchInv s q)
    (hax : AuxInv s) : ∃ s' φ, garbageCollect s = some s' ∧ GcSpec s s' φ := by
  obtain ⟨c1, c2, c3, c4, c5, c6, c7, c8⟩ := cleanAll_spec hwt.removed_dirty hax.vr.dirties
  generalize hs0 : cleanAll s = s0 at c1 c2 c3 c4 c5 c6 c7 c8
  have h0 : ∀ c, (s0.ca.cl c).reloced = false := by
    intro c; rw [c4]; exact hax.vr.not_reloced c
  have hatt : ∀ cr, Attached s cr → Attached s0 cr := by
    intro cr h
    unfold Attached Listed
    rw [c4, c7, c8]
    exact h
  have hatt' : ∀ cr, Attached s0 cr → Attached s cr := by
    intro cr h
    unfold Attached Listed at h
    rw [c4, c7, c8] at h
    exact h
  have hrem : (fun c => !isRemoved s0 c) = (fun c => !isRemoved s c) := by
    funext c; unfold isRemoved; rw [c4]
  have htrail : s0.trail = s.trail := by
    have := congrArg Solver.trail c5
    exact this
  have hassigns : s0.assigns = s.assigns := by
    have := congrArg Solver.assigns c5
    exact this
  have hnv : nVars s0 = nVars s := by
    have := congrArg Solver.next_var c5
    exact this
  have hI0 := RelocInv.at_start s0 h0
  -- the watchers
  have hw1 : ∀ p ∈ allLits (nVars s), ∀ w ∈ s0.watches p, Attached s0 w.cref := by
    intro p _ w hw
    rw [c1 p, List.mem_filter] at hw
    have hm : (s.ca.cl w.cref).mark ≠ 1 := by
      have := hw.2
      unfold isRemoved at this
      simpa using this
    exact hatt _ ⟨(hwt.watcher p w hw.1 hm).1, hm⟩
  obtain ⟨I1, m1, w1, w1n, v1, l1, cl1, ws1⟩ :=
    relocAllWatches_spec h0 (allLits (nVars s)) s0 _ hI0 (allLits_nodup _) hw1
  generalize hr1 : relocAllWatches s0 { cl := fun _ => emptyClause, size := 0, wasted := 0 }
    (allLits (nVars s)) = r1 at I1 m1 w1 w1n v1 l1 cl1 ws1
  -- the reasons
  have ht1 : r1.1.trail = s.trail := I1.trail_eq.trans htrail
  have hnd2 : (r1.1.trail.map var).Nodup := by rw [ht1]; exact htr.nodup
  have hvd2 : ∀ l ∈ r1.1.trail, r1.1.vardata (var l) = s0.vardata (var l) := by
    intro l _; rw [v1]
  have hrs2 : ∀ l ∈ r1.1.trail, ∀ cr, reason s0 (var l) = some cr →
      Attached s0 cr ∧ (s0.ca.cl cr).get 0 = l ∧ value s0 l = l_True := by
    intro l hl cr hr
    rw [ht1] at hl
    obtain ⟨pre, post, e⟩ := List.append_of_mem hl
    have hr' : reason s (var l) = some cr := by
      unfold reason at hr ⊢
      rw [c6] at hr
      exact hr
    obtain ⟨a, b, -⟩ := hax.rs pre l post cr e hr'
    refine ⟨hatt _ a, ?_, ?_⟩
    · rw [c4]; exact b
    · rw [value_of_assigns_eq (congrFun hassigns (var l))]
      exact htr.true_of_mem l hl
  obtain ⟨S2, t2, e2, I2, m2, rs2, rn2, v2, w2, l2, cl2, ws2⟩ :=
    relocReasons_spec h0 r1.1.trail r1.1 r1.2 I1 hnd2 hvd2 hrs2
  -- the learnt clauses
  have hl3 : ∀ c ∈ S2.learnts, (s0.ca.cl c).mark ≠ 1 → Attached s0 c := by
    intro c hc hm
    rw [l2, l1] at hc
    exact ⟨Or.inr hc, hm⟩
  obtain ⟨I3, m3, f3, w3, v3, l3, cl3, ws3⟩ := relocList_spec h0 S2.learnts S2 t2 I2 hl3
  generalize hr3 : relocList S2 t2 S2.learnts = r3 at I3 m3 f3 w3 v3 l3 cl3 ws3
  -- the original clauses
  have I3' : RelocInv s0 (setLearnts r3.2.1 r3.1) r3.2.2 :=
    RelocInv.of_ca I3 rfl rfl (fun _ => rfl)
  have hc4 : ∀ c ∈ r3.2.1.clauses, (s0.ca.cl c).mark ≠ 1 → Attached s0 c := by
    intro c hc hm
    rw [cl3, cl2, cl1] at hc
    exact ⟨Or.inl hc, hm⟩
  obtain ⟨I4, m4, f4, w4, v4, l4, cl4, ws4⟩ :=
    relocList_spec h0 r3.2.1.clauses (setLearnts r3.2.1 r3.1) r3.2.2 I3' hc4
  generalize hr4 : relocList (setLearnts r3.2.1 r3.1) r3.2.2 r3.2.1.clauses = r4
    at I4 m4 f4 w4 v4 l4 cl4 ws4
  have hgc : garbageCollect s = some (setCa (setClauses r4.2.1 r4.1) r4.2.2) := by
    unfold garbageCollect relocAll
    simp only [hs0, hr1, e2, hr3, hr4]
    rfl
  have m34 : ∀ c n, Fwd r3.2.1 c n → Fwd r4.2.1 c n := fun c n h => m4 c n h
  have m24 : ∀ c n, Fwd S2 c n → Fwd r4.2.1 c n := fun c n h => m34 c n (m3 c n h)
  have m14 : ∀ c n, Fwd r1.1 c n → Fwd r4.2.1 c n := fun c n h => m24 c n (m2 c n h)
  have hwat : r4.2.1.watches = r1.1.watches := by
    rw [w4]
    show r3.2.1.watches = _
    rw [w3, w2]
  have hvar : r4.2.1.vardata = S2.vardata := by
    rw [v4]
    show r3.2.1.vardata = _
    rw [v3]
  have hfl : ∀ cr, Attached s cr → (r4.2.1.ca.cl cr).reloced = true := by
    intro cr h
    have hm : (!isRemoved s cr) = true := by
      unfold isRemoved
      simpa using h.2
    rcases h.1 with hc | hc
    · apply forall₂_fwd_mem f4 cr
      rw [hrem, List.mem_filter, cl3, cl2, cl1, c8]
      exact ⟨hc, hm⟩
    · apply forall₂_fwd_mem (forall₂_fwd_mono m34 f3) cr
      rw [hrem, List.mem_filter, l2, l1, c7]
      exact ⟨hc, hm⟩
  refine ⟨_, fun c => (r4.2.1.ca.cl c).relocation, hgc, ?_⟩
  constructor
  · -- key
    have e : gcKey (setCa (setClauses r4.2.1 r4.1) r4.2.2) = gcKey r4.2.1 := rfl
    rw [e, ← c5]
    exact gcKey_of_relocKey I4.key
  · -- watches
    intro l
    show r4.2.1.watches l = _
    rw [hwat, ← c1 l]
    by_cases hl : var l < nVars s
    · have := forall₂_mono m14 (w1 l ((mem_allLits _ _).mpr hl))
      exact forall₂_wfwd_map this
    · rw [w1n l (fun h => hl ((mem_allLits _ _).mp h)), c1 l,
        hax.vr.watches_nil l (Nat.le_of_not_lt hl)]
      rfl
  · -- learnts
    show r4.2.1.learnts = _
    rw [l4]
    show r3.1 = _
    have := forall₂_fwd_map (forall₂_fwd_mono m34 f3)
    rw [this, hrem, l2, l1, c7]
  · -- clauses
    show r4.1 = _
    have := forall₂_fwd_map f4
    rw [this, hrem, cl3, cl2, cl1, c8]
  · -- reasons
    intro l hl
    have hl1 : l ∈ r1.1.trail := by rw [ht1]; exact hl
    have e : reason (setCa (setClauses r4.2.1 r4.1) r4.2.2) (var l) = reason S2 (var l) := by
      unfold reason
      show (r4.2.1.vardata (var l)).reason = _
      rw [hvar]
    have e0 : reason s0 (var l) = reason s (var l) := by
      unfold reason; rw [c6]
    rw [e, ← e0]
    cases hr : reason s0 (var l) with
    | none => rw [rn2 l hl1 hr]; rfl
    | some cr =>
      obtain ⟨n, a, b⟩ := rs2 l hl1 cr hr
      rw [a]
      exact congrArg some (m24 cr n b).2.symm
  · -- levels
    intro v
    unfold level
    show (r4.2.1.vardata v).level = _
    rw [I4.levels v, c6]
  · -- live
    intro cr h
    have hf : Fwd r4.2.1 cr (r4.2.1.ca.cl cr).relocation := ⟨hfl cr h, rfl⟩
    have := I4.fwd_of_reloced h0 hf
    rw [c4] at this
    exact this
  · -- inj
    intro cr cr' h h' e
    exact I4.inj cr cr' _ ⟨hfl cr h, rfl⟩ ⟨hfl cr' h', e.symm⟩
  · -- arena
    intro n
    rcases I4.copies n with e | ⟨cr, a, b⟩
    · exact Or.inl e
    · refine Or.inr ⟨cr, hatt' cr (I4.att cr n a), a.2, ?_⟩
      rw [← c4]
      exact b
  · exact I4.empty_above
  · intro l
    show r4.2.1.dirty l = false
    have := congrArg Solver.dirty I4.key
    have e : r4.2.1.dirty = s0.dirty := this
    rw [e]
    exact c2 l
  · show r4.2.1.dirties = []
    have := congrArg Solver.dirties I4.key
    have e : r4.2.1.dirties = s0.dirties := this
    rw [e]
    exact c3
  · show r4.2.2.wasted = 0
    rw [ws4, ws3, ws2, ws1]

theorem forall₂_map_of {α β : Type} {R : α → β → Prop} (f : α → β) :
    ∀ (xs : List α), (∀ x ∈ xs, R x (f x)) → List.Forall₂ R xs (xs.map f)
  | [], _ => List.Forall₂.nil
  | x :: xs, h =>
    List.Forall₂.cons (h x (List.mem_cons_self x xs))
      (forall₂_map_of f xs (fun y hy => h y (List.mem_cons_of_mem x hy)))

theorem GcSpec.copyOf {s t : Solver} {φ : CRef → CRef} (h : GcSpec s t φ) {cr : CRef}
    (ha : Attached s cr) : CopyOf s t cr (φ cr) := by
  obtain ⟨a, b⟩ := h.live cr ha
  refine ⟨a, ?_, b⟩
  unfold isRemoved
  rw [b]
  simpa using ha.2

/-- C19: `garbageCollect` returns, and afterwards no clause reference is dangling.  The
watchers of every list are those of the clauses that were not removed, in the same order and
with the same blockers, each with the reference of a clause of the new arena that is not deleted
and equals the clause it referred to; the same holds for `learnts` and for `clauses`, from which
the removed clauses are gone; and every reason of a trail variable is the reference of such a
copy of the old reason. -/
theorem garbageCollect_no_dangling (s : Solver) (q : Nat) (htr : TrailInv s)
    (hwt : WatchInv s q) (hax : AuxInv s) :
    ∃ t, garbageCollect s = some t ∧ t.trail = s.trail ∧
      (∀ l, List.Forall₂ (fun w0 w => w.blocker = w0.blocker ∧ CopyOf s t w0.cref w.cref)
        ((s.watches l).filter (fun w => !isRemoved s w.cref)) (t.watches l)) ∧
      List.Forall₂ (CopyOf s t) (s.learnts.filter (fun c => !isRemoved s c)) t.learnts ∧
      List.Forall₂ (CopyOf s t) (s.clauses.filter (fun c => !isRemoved s c)) t.clauses ∧
      (∀ l ∈ t.trail, ∀ cr, reason t (var l) = some cr →
        ∃ cr0, reason s (var l) = some cr0 ∧ CopyOf s t cr0 cr) := by
  obtain ⟨t, φ, hg, hs⟩ := garbageCollect_spec htr hwt hax
  have htrail : t.trail = s.trail := by
    have := congrArg Solver.trail hs.key
    exact this
  have hnr : ∀ c, (!isRemoved s c) = true → (s.ca.cl c).mark ≠ 1 := by
    intro c hc
    unfold isRemoved at hc
    simpa using hc
  refine ⟨t, hg, htrail, ?_, ?_, ?_, ?_⟩
  · intro l
    rw [hs.watches l]
    apply forall₂_map_of
    intro w hw
    rw [List.mem_filter] at hw
    have hm := hnr _ hw.2
    exact ⟨rfl, hs.copyOf ⟨(hwt.watcher l w hw.1 hm).1, hm⟩⟩
  · rw [hs.learnts]
    apply forall₂_map_of
    intro c hc
    rw [List.mem_filter] at hc
    exact hs.copyOf ⟨Or.inr hc.1, hnr _ hc.2⟩
  · rw [hs.clauses]
    apply forall₂_map_of
    intro c hc
    rw [List.mem_filter] at hc
    exact hs.copyOf ⟨Or.inl hc.1, hnr _ hc.2⟩
  · intro l hl cr hr
    rw [htrail] at hl
    rw [hs.reasons l hl] at hr
    cases h0 : reason s (var l) with
    | none => rw [h0] at hr; cases hr
    | some cr0 =>
      rw [h0] at hr
      have e : φ cr0 = cr := by simpa using hr
      obtain ⟨pre, post, et⟩ := List.append_of_mem hl
      obtain ⟨a, -, -⟩ := hax.rs pre l post cr0 et h0
      exact ⟨cr0, rfl, e ▸ hs.copyOf a⟩

end Minisat


namespace Minisat
open lbool

/-! ## Compatibility sets: which symmetries are tested with `stabilize` -/

theorem mem_insertComp {i j : Nat} : ∀ {comp : List Nat}, j ∈ insertComp i comp → j = i ∨ j ∈ comp
  | [], h => by
    simp only [insertComp, List.mem_singleton] at h
    exact Or.inl h
  | k :: ks, h => by
    unfold insertComp at h
    by_cases h1 : i < k
    · rw [if_pos h1] at h
      rcases List.mem_cons.mp h with e | e
      · exact Or.inl e
      · exact Or.inr e
    · rw [if_neg h1] at h
      by_cases h2 : i = k
      · rw [if_pos h2] at h
        exact Or.inr h
      · rw [if_neg h2] at h
        rcases List.mem_cons.mp h with e | e
        · exact Or.inr (e ▸ List.mem_cons_self _ _)
        · rcases mem_insertComp e with e' | e'
          · exact Or.inl e'
          · exact Or.inr (List.mem_cons_of_mem _ e')

theorem mem_stabLoop {stab : Symmetry → Bool} {j : Nat} :
    ∀ (syms : List Symmetry) (comp : List Nat), j ∈ stabLoop stab syms comp →
      j ∈ comp ∨ ∃ σ ∈ syms, σ.id = j ∧ stab σ = true
  | [], comp, h => Or.inl h
  | σ :: rest, comp, h => by
    unfold stabLoop at h
    have lift : (j ∈ comp ∨ ∃ τ ∈ rest, τ.id = j ∧ stab τ = true) →
        j ∈ comp ∨ ∃ τ ∈ σ :: rest, τ.id = j ∧ stab τ = true := by
      rintro (e | ⟨τ, a, b⟩)
      · exact Or.inl e
      · exact Or.inr ⟨τ, List.mem_cons_of_mem _ a, b⟩
    by_cases h1 : σ.id ∈ comp
    · rw [if_pos h1] at h
      exact lift (mem_stabLoop rest comp h)
    · rw [if_neg h1] at h
      by_cases h2 : stab σ = true
      · rw [if_pos h2] at h
        rcases mem_stabLoop rest _ h with e | ⟨τ, a, b⟩
        · rcases mem_insertComp e with e' | e'
          · exact Or.inr ⟨σ, List.mem_cons_self _ _, e'.symm, h2⟩
          · exact Or.inl e'
        · exact Or.inr ⟨τ, List.mem_cons_of_mem _ a, b⟩
      · rw [if_neg h2] at h
        exact lift (mem_stabLoop rest comp h)

theorem mem_stabAll {stab : Symmetry → Bool} {j : Nat} :
    ∀ (syms : List Symmetry) (comp : List Nat), j ∈ stabAll stab syms comp →
      j ∈ comp ∨ ∃ σ ∈ syms, σ.id = j ∧ stab σ = true
  | [], comp, h => Or.inl h
  | σ :: rest, comp, h => by
    unfold stabAll at h
    by_cases h2 : stab σ = true
    · rw [if_pos h2] at h
      rcases mem_stabAll rest _ h with e | ⟨τ, a, b⟩
      · rcases mem_insertComp e with e' | e'
        · exact Or.inr ⟨σ, List.mem_cons_self _ _, e'.symm, h2⟩
        · exact Or.inl e'
      · exact Or.inr ⟨τ, List.mem_cons_of_mem _ a, b⟩
    · rw [if_neg h2] at h
      rcases mem_stabAll rest comp h with e | ⟨τ, a, b⟩
      · exact Or.inl e
      · exact Or.inr ⟨τ, List.mem_cons_of_mem _ a, b⟩

theorem attachClause_cl {s s1 : Solver} {cr : CRef} (h : attachClause s cr = some s1) :
    s1.ca = s.ca := by
  unfold attachClause at h
  split_ifs at h
  cases h
  unfold countAttach
  split_ifs <;> rfl

/-- C12, as the code has it.  The compatibility set of the clause injected by
`learntSymmetryClause(type, p)` holds only symmetries of the solver that stabilize the clause;
and a symmetry in the set that `analyze` returns with `out_symmetry` either stabilizes the
learnt clause, or it was already in the set that `analyze` took over from the symmetry-tagged
clauses of the resolution (lines 738-767), in which case it is not tested. -/
theorem compat_stabilize (fuel : Nat) (S1 S2 S3 : SymSolver) (sbp : List Lit) (cr confl : CRef)
    (r : AnalyzeResult × Solver)
    (h1 : learntSymmetryClause S1 (some sbp) = some (some cr, S2))
    (h2 : analyzeSym fuel S3 confl = some r) (h3 : r.1.out_symmetry = true) :
    ((S2.solver.ca.cl cr).lits = sbp ∧ (S2.solver.ca.cl cr).learnt = true ∧
      (S2.solver.ca.cl cr).symmetry = true ∧ cr ∈ S2.solver.learnts ∧
      ∃ comp, (S2.solver.ca.cl cr).scompat = some comp ∧
        ∀ i ∈ comp, ∃ σ ∈ S1.symmetries, σ.id = i ∧ stabilize S1.solver σ sbp = true) ∧
    (∃ r0, analyze fuel S3.solver confl = some r0 ∧ r.1.out_learnt = r0.1.out_learnt ∧
      ∀ i ∈ r.1.comp, i ∈ r0.1.comp ∨
        ∃ σ ∈ S3.symmetries, σ.id = i ∧ stabilize r.2 σ r.1.out_learnt = true) := by
  constructor
  · unfold learntSymmetryClause at h1
    simp only at h1
    split_ifs at h1 with hf
    cases ha : attachClause
          (pushLearnt (setCa S1.solver (S1.solver.ca.alloc sbp true true true
              (some (stabAll (fun σ => stabilize S1.solver σ sbp) S1.symmetries.reverse []))).2)
            S1.solver.ca.size) S1.solver.ca.size with
    | none => rw [ha] at h1; cases h1
    | some s1 =>
      rw [ha] at h1
      simp only [Option.some.injEq, Prod.mk.injEq] at h1
      obtain ⟨e1, e2⟩ := h1
      subst e1
      subst e2
      have hca := attachClause_cl ha
      have hl : s1.learnts = S1.solver.learnts ++ [S1.solver.ca.size] := by
        unfold attachClause at ha
        split_ifs at ha
        cases ha
        unfold countAttach
        split_ifs <;> rfl
      have hcl : s1.ca.cl S1.solver.ca.size =
          { lits := sbp, learnt := true, fsymmetry := true, symmetry := true,
            scompat := some (stabAll (fun σ => stabilize S1.solver σ sbp)
              S1.symmetries.reverse []),
            activity := 0, mark := 0, reloced := false, relocation := 0 } := by
        rw [hca]
        show Function.update _ _ _ _ = _
        rw [Function.update_same]
      show (s1.ca.cl _).lits = sbp ∧ (s1.ca.cl _).learnt = true ∧ (s1.ca.cl _).symmetry = true ∧
        _ ∈ s1.learnts ∧ ∃ comp, (s1.ca.cl _).scompat = some comp ∧ _
      rw [hcl, hl]
      refine ⟨rfl, rfl, rfl, by simp, _, rfl, ?_⟩
      intro i hi
      rcases mem_stabAll _ _ hi with e | ⟨σ, a, b, c⟩
      · cases e
      · exact ⟨σ, List.mem_reverse.mp a, b, c⟩
  · unfold analyzeSym at h2
    cases ha : analyze fuel S3.solver confl with
    | none => rw [ha] at h2; cases h2
    | some r0 =>
      rw [ha] at h2
      simp only at h2
      by_cases hs : r0.1.out_symmetry = false
      · rw [if_pos hs] at h2
        cases h2
        rw [hs] at h3
        cases h3
      · rw [if_neg hs] at h2
        cases h2
        refine ⟨r0, rfl, rfl, ?_⟩
        intro i hi
        rcases mem_stabLoop _ _ hi with e | ⟨σ, a, b, c⟩
        · exact Or.inl e
        · exact Or.inr ⟨σ, List.mem_reverse.mp a, b, c⟩

theorem exInject_eq (S : SymSolver) (sbp : List Lit) (cr : CRef)
    (h : (learntSymmetryClause S (some sbp)).map Prod.fst = some (some cr)) :
    learntSymmetryClause S (some sbp) = some (some cr, exInject S sbp) := by
  unfold exInject
  cases ho : learntSymmetryClause S (some sbp) with
  | none => rw [ho] at h; cases h
  | some r =>
    obtain ⟨a, b⟩ := r
    rw [ho] at h
    simp only [Option.map_some', Option.some.injEq] at h
    subst h
    rfl

end Minisat


namespace Minisat
open lbool

/-! ## The conflict branch of `search` keeps the invariants -/

/-! ## Steps of the search -/

theorem Step.refl_st (s : Solver) : Step s s := ⟨rfl, rfl, rfl, rfl⟩

theorem Step.trans_st {s t u : Solver} (h1 : Step s t) (h2 : Step t u) : Step s u :=
  ⟨h2.assumptions.trans h1.assumptions, h2.conflict.trans h1.conflict,
    h2.next_var.trans h1.next_var, h2.decision.trans h1.decision⟩

theorem AFrame.step_af {s t : Solver} (h : AFrame s t) : Step s t :=
  ⟨h.assumptions, h.conflict, h.next_var, h.decision⟩

/-- A state that differs in fields that no invariant of the clauses reads. -/
theorem stepHeap {s t : Solver} (h1 : t.assumptions = s.assumptions)
    (h2 : t.conflict = s.conflict) (h3 : t.next_var = s.next_var)
    (h4 : t.decision = s.decision) (_h5 : t.assigns = s.assigns) (_h6 : t.vardata = s.vardata)
    (_h7 : t.clauses = s.clauses) (_h8 : t.ca = s.ca) : Step s t :=
  ⟨h1, h2, h3, h4⟩

/-- `propagate` as a step of the search. -/
theorem propagate_step {fuel : Nat} {s : Solver} {r : Option CRef × Solver} (_h : Inv s)
    (hp : propagate fuel s = some r) : Step s r.2 := by
  have hk := propKey_propagate hp
  obtain ⟨-, -, -, -, g5, g6, g7, -⟩ := propKey_fields hk
  exact ⟨g5, propKey_conflict hk, g7, g6⟩

theorem enqueue_step {s t : Solver} {p : Lit} {r : Option CRef}
    (h : uncheckedEnqueue s p r = some t) : Step s t := by
  obtain ⟨-, e⟩ := uncheckedEnqueue_eq h
  subst e
  exact ⟨rfl, rfl, rfl, rfl⟩

theorem attach_step {s t : Solver} {cr : CRef} (h : attachClause s cr = some t) :
    Step s t := by
  unfold attachClause at h
  split_ifs at h
  simp only [Option.some.injEq] at h
  subst h
  unfold countAttach
  split_ifs <;> exact ⟨rfl, rfl, rfl, rfl⟩

/-- The storing of a learnt clause as a step of the search. -/
theorem learn_step {sb t : Solver} {ls : List Lit} {a : Lit} {fs sy : Bool}
    {comp : Option (List Nat)} (_h : Inv sb)
    (ht : (match attachClause
        (pushLearnt (setCa sb (sb.ca.alloc ls true fs sy comp).2)
          (sb.ca.alloc ls true fs sy comp).1)
        (sb.ca.alloc ls true fs sy comp).1 with
      | none => none
      | some s1 => uncheckedEnqueue
          (claBumpActivity s1 (sb.ca.alloc ls true fs sy comp).1) a
          (some (sb.ca.alloc ls true fs sy comp).1)) = some t) :
    Step sb t := by
  cases hat : attachClause
      (pushLearnt (setCa sb (sb.ca.alloc ls true fs sy comp).2)
        (sb.ca.alloc ls true fs sy comp).1)
      (sb.ca.alloc ls true fs sy comp).1 with
  | none => rw [hat] at ht; cases ht
  | some s1 =>
    rw [hat] at ht
    simp only at ht
    have st0 : Step sb (pushLearnt (setCa sb (sb.ca.alloc ls true fs sy comp).2)
        (sb.ca.alloc ls true fs sy comp).1) := ⟨rfl, rfl, rfl, rfl⟩
    have st1 := attach_step hat
    have st2 : Step s1 (claBumpActivity s1 (sb.ca.alloc ls true fs sy comp).1) :=
      (anaKey_frame (anaKey_claBumpActivity s1 _)).step_af
    exact ((st0.trans_st st1).trans_st st2).trans_st (enqueue_step ht)

theorem learnUnit_step {sb s1 : Solver} {r : AnalyzeResult} (h : learnUnit sb r = some s1) :
    Step sb s1 := by
  unfold learnUnit at h
  split_ifs at h
  · exact (stepHeap rfl rfl rfl rfl rfl rfl rfl rfl :
      Step sb (insertSymmetryUnit sb (var (r.out_learnt.getD 0 0)))).trans_st (enqueue_step h)
  · exact enqueue_step h

theorem learnClause_step {sb s1 : Solver} {r : AnalyzeResult} {confl : CRef} (hi : Inv sb)
    (h : learnClause sb r confl = some s1) : Step sb s1 := by
  unfold learnClause at h
  by_cases hc : (sb.ca.cl confl).fsymmetry = true ∧ r.out_symmetry = false
  · rw [if_pos hc] at h; cases h
  · rw [if_neg hc] at h
    exact learn_step hi h

/-- Backtracking as a step of the search. -/
theorem cancel_step {s : Solver} (_htr : TrailInv s) (k : Nat) : Step s (cancelUntil s k) := by
  obtain ⟨-, -, -, -, -, -, -, -, -, -, g11, g12, g13, -⟩ :=
    cancelUntilKey_fields (cancelUntilKey_cancelUntil s k)
  exact ⟨g11, cancelUntil_conflict s k, g13, g12⟩

/-- The three groups of invariants carry over to a state that differs in activities only. -/
theorem parts_of_aframe {s t : Solver} {q : Nat} (htr : TrailInv s) (hwt : WatchInv s q)
    (hax : AuxInv s) (hf : AFrame s t) (hs : t.seen = s.seen) :
    TrailInv t ∧ WatchInv t q ∧ AuxInv t := by
  refine ⟨htr.congr_tr hf.trail hf.trail_lim hf.assigns hf.vardata, ?_, ?_⟩
  · exact hwt.congr_wt hf.trail hf.trail_lim hf.assigns hf.vardata hf.watches hf.dirty
      hf.clauses hf.learnts hf.ca_size hf.mark (fun cr => by rw [hf.lits])
      (fun cr l => by unfold Clause.watching; rw [hf.get_eq, hf.get_eq])
  · exact hax.congr_ax htr hf.order_heap hf.free_vars hf.released_vars hs hf.assumptions
      hf.decision hf.next_var hf.dirties hf.clauses hf.learnts hf.trail hf.assigns hf.vardata
      (fun l hl => by rw [hf.watches]; exact hax.vr.watches_nil l hl)
      (fun l hl => by rw [hf.dirty] at hl; exact hl) hf.mark hf.reloced
      (fun cr => by rw [hf.lits])
      (fun cr _ => ⟨hf.get_eq cr 0, fun x => by rw [hf.lits]⟩)

/-- The invariants after a learnt clause `a :: b :: rest` is stored and `a` is enqueued with
the clause as reason: `a` is unassigned, the other literals are false, and `b` is of the
current decision level. -/
theorem Inv.learn {sb t : Solver} {a b : Lit} {rest : List Lit} {fs sy : Bool}
    {comp : Option (List Nat)} (h : Inv sb) (hnd : (a :: b :: rest).Nodup)
    (hvar : ∀ l ∈ a :: b :: rest, var l < nVars sb)
    (hu : value sb a = l_Undef) (hfal : ∀ l ∈ b :: rest, value sb l = l_False)
    (hlv : decisionLevel sb ≤ level sb (var b))
    (ht : (match attachClause
        (pushLearnt (setCa sb (sb.ca.alloc (a :: b :: rest) true fs sy comp).2)
          (sb.ca.alloc (a :: b :: rest) true fs sy comp).1)
        (sb.ca.alloc (a :: b :: rest) true fs sy comp).1 with
      | none => none
      | some s1 => uncheckedEnqueue
          (claBumpActivity s1 (sb.ca.alloc (a :: b :: rest) true fs sy comp).1) a
          (some (sb.ca.alloc (a :: b :: rest) true fs sy comp).1)) = some t) :
    Inv t := by
  have hab : a ≠ b := by
    intro e; subst e; simp at hnd
  have hcr : (sb.ca.alloc (a :: b :: rest) true fs sy comp).1 = sb.ca.size := rfl
  rw [hcr] at ht
  generalize hX : pushLearnt (setCa sb (sb.ca.alloc (a :: b :: rest) true fs sy comp).2)
    sb.ca.size = X at ht
  have hXca : X.ca = (sb.ca.alloc (a :: b :: rest) true fs sy comp).2 := by rw [← hX]; rfl
  have hL : (X.ca.cl sb.ca.size).lits = a :: b :: rest := by
    rw [hXca]
    simp only [ClauseAllocator.alloc, Function.update_same]
  have hf0 : Frame sb X := by
    rw [← hX]
    exact ⟨rfl, rfl, rfl, rfl, rfl, rfl, rfl, rfl, rfl, rfl, rfl, rfl, rfl, rfl, rfl⟩
  have hXw : X.watches = sb.watches := by rw [← hX]; rfl
  have hXc : X.clauses = sb.clauses := by rw [← hX]; rfl
  have hXl : X.learnts = sb.learnts ++ [sb.ca.size] := by rw [← hX]; rfl
  cases hY : attachClause X sb.ca.size with
  | none => rw [hY] at ht; cases ht
  | some Y =>
    rw [hY] at ht
    simp only at ht
    obtain ⟨hf, hca, hcl, hle, hw0, hw1, hwo⟩ := attachClause_facts hL hab hY
    have hfY : Frame sb Y := hf0.trans hf
    generalize hZ : claBumpActivity Y sb.ca.size = Z at ht
    have haf : AFrame Y Z := by
      rw [← hZ]; exact anaKey_frame (anaKey_claBumpActivity Y sb.ca.size)
    have hZseen : Z.seen = Y.seen := by rw [← hZ]; exact claBumpActivity_seen _ _
    obtain ⟨hu', e1, e3, e4, ek⟩ := uncheckedEnqueue_spec ht
    have hlist : ∀ cr, Listed Y cr ↔ Listed sb cr ∨ cr = sb.ca.size := by
      intro cr
      unfold Listed
      rw [hcl, hle, hXc, hXl, List.mem_append, List.mem_singleton]
      tauto
    have hnewcl : Y.ca.cl sb.ca.size =
        { lits := a :: b :: rest, learnt := true, fsymmetry := fs, symmetry := sy,
          scompat := comp, activity := 0, mark := 0, reloced := false, relocation := 0 } := by
      rw [hca, hXca]
      simp only [ClauseAllocator.alloc, Function.update_same]
    have hold : ∀ cr, cr ≠ sb.ca.size → Y.ca.cl cr = sb.ca.cl cr := by
      intro cr hcr
      rw [hca, hXca]
      simp only [ClauseAllocator.alloc, Function.update_noteq hcr]
    have hsz : sb.ca.size < Y.ca.size := by
      rw [hca, hXca]
      simp only [ClauseAllocator.alloc, clauseWord32Size]
      omega
    have hYw0 : Y.watches (neg a) = sb.watches (neg a) ++ [⟨sb.ca.size, b⟩] := by
      rw [hw0, hXw]
    have hYw1 : Y.watches (neg b) = sb.watches (neg b) ++ [⟨sb.ca.size, a⟩] := by
      rw [hw1, hXw]
    have hYwo : ∀ l, l ≠ neg a → l ≠ neg b → Y.watches l = sb.watches l := by
      intro l h1 h2; rw [hwo l h1 h2, hXw]
    -- the auxiliary invariants
    have hauxY : AuxInv Y := h.ax.attach_ax h.wt.listed_lt hvar hfY hlist
      ⟨by rw [hnewcl], by rw [hnewcl]; exact Nat.zero_ne_one, by rw [hnewcl]⟩ hold hYwo
    have htrY : TrailInv Y := h.tr.congr_tr hfY.trail hfY.trail_lim hfY.assigns hfY.vardata
    have htrZ : TrailInv Z := htrY.congr_tr haf.trail haf.trail_lim haf.assigns haf.vardata
    have hauxZ : AuxInv Z :=
      hauxY.congr_ax htrY haf.order_heap haf.free_vars haf.released_vars hZseen
        haf.assumptions haf.decision haf.next_var haf.dirties haf.clauses haf.learnts haf.trail
        haf.assigns haf.vardata
        (fun l hl => by rw [haf.watches]; exact hauxY.vr.watches_nil l hl)
        (fun l hl => by rw [haf.dirty] at hl; exact hl) haf.mark haf.reloced
        (fun cr => by rw [haf.lits])
        (fun cr _ => ⟨haf.get_eq cr 0, fun x => by rw [haf.lits]⟩)
    have hvZ : ∀ l, value Z l = value sb l := fun l =>
      (value_congr haf.assigns l).trans (value_congr hfY.assigns l)
    have hdlZ : decisionLevel Z = decisionLevel sb := by
      unfold decisionLevel; rw [haf.trail_lim, hfY.trail_lim]
    have hZlits : (Z.ca.cl sb.ca.size).lits = a :: b :: rest := by
      rw [haf.lits, hnewcl]
    have hZmark : (Z.ca.cl sb.ca.size).mark ≠ 1 := by
      rw [haf.mark, hnewcl]; exact Nat.zero_ne_one
    have hnvZ : nVars Z = nVars sb := by
      unfold nVars; rw [haf.next_var, hfY.next_var]
    have hattZ : Attached Z sb.ca.size := by
      refine ⟨?_, hZmark⟩
      unfold Listed
      rw [haf.learnts, hle, hXl]
      exact Or.inr (by simp)
    refine ⟨htrZ.enqueue_tr hu' e1 (enqKey_trail_lim ek) e3 e4, ?_, ?_⟩
    · -- the watch invariant, through the state in which the literal is enqueued first
      rw [enqKey_qhead ek, haf.qhead, hfY.qhead]
      have hU := uncheckedEnqueue_some (some sb.ca.size) hu
      generalize hu0 : ({ sb with
          assigns := Function.update sb.assigns (var a) (lbool.ofBool (!sign a)),
          vardata := Function.update sb.vardata (var a)
            (mkVarData (some sb.ca.size) (decisionLevel sb)),
          trail := sb.trail ++ [a] } : Solver) = u at hU
      obtain ⟨-, u1, u3, u4, uk⟩ := uncheckedEnqueue_spec hU
      have hwu : WatchInv u sb.qhead :=
        h.wt.enqueue_wt h.tr hu u1 (enqKey_trail_lim uk) u3 u4 (enqKey_watches uk)
          (enqKey_dirty uk) (enqKey_clauses uk) (enqKey_learnts uk) (enqKey_ca uk)
      have huca : u.ca = sb.ca := enqKey_ca uk
      have hvu_a : value u a = l_True := value_of_assigns_update_self u _ _ u3
      have hlu_a : level u (var a) = decisionLevel sb := by
        unfold level; rw [u4, Function.update_same]; rfl
      have hvab : var b ≠ var a := by
        intro e
        have := hfal b (List.mem_cons_self _ _)
        have h2 : sb.assigns (var b) = l_Undef := by rw [e]; exact value_undef_iff.mp hu
        have h3 : value sb b = l_Undef := value_undef_iff.mpr h2
        rw [h3] at this
        cases this
      have hlu_b : level u (var b) = level sb (var b) := by
        unfold level; rw [u4, Function.update_noteq hvab]
      generalize hv0 : ({ Y with
          assigns := u.assigns,
          vardata := u.vardata,
          trail := u.trail } : Solver) = v
      have hwv : WatchInv v sb.qhead := by
        refine hwu.attach_wt hnd (t := v) ?_ ?_ ?_ ?_ ?_ ?_ ?_ ?_ ?_ ?_ ?_ ?_ ?_
        · rw [← hv0]
        · rw [← hv0]; show Y.trail_lim = u.trail_lim
          rw [hfY.trail_lim, enqKey_trail_lim uk]
        · rw [← hv0]
        · rw [← hv0]
        · rw [← hv0]; show Y.dirty = u.dirty
          rw [hfY.dirty, enqKey_dirty uk]
        · intro cr
          have e1 : Listed v cr ↔ Listed Y cr := by
            rw [← hv0]; exact Iff.rfl
          have e2 : Listed u cr ↔ Listed sb cr := by
            unfold Listed; rw [enqKey_clauses uk, enqKey_learnts uk]
          rw [e1, e2, huca]
          exact hlist cr
        · rw [huca, ← hv0]; exact hsz
        · rw [huca, ← hv0]
          exact ⟨by show (Y.ca.cl sb.ca.size).lits = _; rw [hnewcl],
            by show (Y.ca.cl sb.ca.size).mark ≠ 1; rw [hnewcl]; exact Nat.zero_ne_one⟩
        · intro cr hcr
          rw [huca] at hcr ⊢
          rw [← hv0]
          exact hold cr hcr
        · rw [huca, ← hv0, enqKey_watches uk]; exact hYw0
        · rw [huca, ← hv0, enqKey_watches uk]; exact hYw1
        · intro l h1 h2
          rw [← hv0, enqKey_watches uk]; exact hYwo l h1 h2
        · intro l hl hlf _
          rcases hl with rfl | rfl
          · rw [hvu_a] at hlf; cases hlf
          · exact ⟨a, List.mem_cons_self _ _, hvu_a, by rw [hlu_a, hlu_b]; exact hlv⟩
      refine hwv.congr_wt ?_ ?_ ?_ ?_ ?_ ?_ ?_ ?_ ?_ ?_ ?_ ?_
      · rw [e1, ← hv0, haf.trail, hfY.trail]; exact u1.symm
      · rw [enqKey_trail_lim ek, ← hv0, haf.trail_lim]
      · rw [e3, ← hv0, haf.assigns, hfY.assigns]; exact u3.symm
      · rw [e4, ← hv0, haf.vardata, hfY.vardata, hdlZ]; exact u4.symm
      · rw [enqKey_watches ek, ← hv0, haf.watches]
      · rw [enqKey_dirty ek, ← hv0, haf.dirty]
      · rw [enqKey_clauses ek, ← hv0, haf.clauses]
      · rw [enqKey_learnts ek, ← hv0, haf.learnts]
      · rw [enqKey_ca ek, ← hv0]; exact haf.ca_size
      · intro cr; rw [enqKey_ca ek, ← hv0]; exact haf.mark cr
      · intro cr; rw [enqKey_ca ek, ← hv0]
        show (Z.ca.cl cr).lits.Perm (Y.ca.cl cr).lits
        rw [haf.lits]
      · intro cr l; rw [enqKey_ca ek, ← hv0]
        show (Z.ca.cl cr).watching l ↔ (Y.ca.cl cr).watching l
        unfold Clause.watching; rw [haf.get_eq, haf.get_eq]
    · refine hauxZ.enqueue_ax htrZ hu' (propKey_uncheckedEnqueue ht) e1 e3 e4 ?_ ?_ ?_ ?_ ?_ ?_
      · intro l hl; rw [enqKey_watches ek]; exact hauxZ.vr.watches_nil l hl
      · intro l hl; rw [enqKey_dirty ek] at hl; exact hl
      · rw [enqKey_ca ek]
      · rw [hnvZ]; exact hvar a (List.mem_cons_self _ _)
      · intro cr hcr
        cases hcr
        refine ⟨hattZ, ?_, ?_⟩
        · unfold Clause.get; rw [hZlits]; rfl
        · intro y hy
          rw [hZlits] at hy
          rw [hvZ]
          exact hfal y hy
      · intro hr; cases hr

theorem AFrame.decay (s : Solver) :
    AFrame s (adjustLearnts (claDecayActivity (varDecayActivity s))) := by
  constructor <;> first
    | (unfold adjustLearnts; split_ifs <;> rfl)
    | (intro cr; unfold adjustLearnts; split_ifs <;> rfl)

theorem decay_seen (s : Solver) :
    (adjustLearnts (claDecayActivity (varDecayActivity s))).seen = s.seen := by
  unfold adjustLearnts
  split_ifs <;> rfl

theorem Inv.decay_inv {s : Solver} (h : Inv s) :
    Inv (adjustLearnts (claDecayActivity (varDecayActivity s))) :=
  h.of_aframe (AFrame.decay s) (decay_seen s)

/-- The conflict branch of `search` keeps the invariants when the search goes on. -/
theorem searchConflict_inv {fuel fuel2 : Nat} {s0 s s2 : Solver} {confl : CRef}
    (h0 : Inv s0) (hp : propagate fuel s0 = some (some confl, s))
    (hc : searchConflict fuel2 s confl = some (none, s2)) : Inv s2 ∧ Step s s2 := by
  obtain ⟨h1, -, -, h4⟩ := propagate_inv h0.tr h0.wt hp
  obtain ⟨⟨q, hwq⟩, hatt, hfal⟩ := h4 confl rfl
  have hax := propagate_aux h0.tr h0.wt h0.ax hp
  have htl := propagate_top h0.tr h0.wt hp confl rfl
  unfold searchConflict at hc
  by_cases hd0 : decisionLevel s = 0
  · rw [if_pos hd0] at hc; cases hc
  rw [if_neg hd0] at hc
  have hdl : 0 < decisionLevel s := Nat.pos_of_ne_zero hd0
  cases ha : analyze fuel2 (countConflict s) confl with
  | none => rw [ha] at hc; cases hc
  | some r =>
    rw [ha] at hc
    simp only at hc
    have htr' : TrailInv (countConflict s) := h1.congr_tr rfl rfl rfl rfl
    have hwq' : WatchInv (countConflict s) q := hwq.of_eq_wt rfl rfl rfl rfl rfl rfl rfl rfl rfl
    have hax' : AuxInv (countConflict s) :=
      hax.of_eq_ax rfl rfl rfl rfl rfl rfl rfl rfl rfl rfl rfl rfl rfl rfl rfl rfl
    have hspec : AnalyzeSpec (countConflict s) r :=
      analyze_spec htr' hax'.rs hax'.vr.seen0 hdl hfal htl ha
    have hf := anaKey_frame hspec.key
    have hseen : r.2.seen = (countConflict s).seen := by
      funext v; rw [hspec.seen0 v]; exact (hax'.vr.seen0 v).symm
    obtain ⟨htr2, hwq2, hax2⟩ := parts_of_aframe htr' hwq' hax' hf hseen
    obtain ⟨b1, b2, p, tl, e, hu, htail, hnil⟩ := hspec.after_cancel htr'
    obtain ⟨p', tl', e', hp', -, hndv, hq', hbt, -, hbl⟩ := hspec.shape
    have hpt : p = p' ∧ tl = tl' := by
      rw [e] at e'
      simp only [List.cons.injEq] at e'
      exact ⟨neg_inj e'.1, e'.2⟩
    obtain ⟨rfl, rfl⟩ := hpt
    have hbt2 : r.1.out_btlevel < decisionLevel r.2 := by
      unfold decisionLevel; rw [hf.trail_lim]; exact hbt
    have hsb : Inv (cancelUntil r.2 r.1.out_btlevel) := Inv.cancel htr2 hwq2 hax2 hbt2
    have stb : Step s (cancelUntil r.2 r.1.out_btlevel) :=
      ((stepHeap rfl rfl rfl rfl rfl rfl rfl rfl : Step s (countConflict s)).trans_st
        hf.step_af).trans_st (cancel_step htr2 _)
    have hnv : nVars (cancelUntil r.2 r.1.out_btlevel) = nVars (countConflict s) := by
      obtain ⟨-, -, -, -, -, -, -, -, -, -, -, -, g7, -⟩ :=
        cancelUntilKey_fields (cancelUntilKey_cancelUntil r.2 r.1.out_btlevel)
      unfold nVars; rw [g7, hf.next_var]
    have hvp : var (neg p) < nVars (cancelUntil r.2 r.1.out_btlevel) := by
      rw [hnv, var_neg]; exact hax'.vr.trail_lt p hp'
    have hx : r.1.out_learnt.getD 0 0 = neg p := by rw [e]; rfl
    by_cases hone : r.1.out_learnt.length = 1
    · rw [if_pos hone] at hc
      cases hl : learnUnit (cancelUntil r.2 r.1.out_btlevel) r.1 with
      | none => rw [hl] at hc; cases hc
      | some s1 =>
        rw [hl] at hc
        simp only [Option.some.injEq, Prod.mk.injEq, true_and] at hc
        subst hc
        refine ⟨Inv.decay_inv ?_, (stb.trans_st (learnUnit_step hl)).trans_st (AFrame.decay s1).step_af⟩
        unfold learnUnit at hl
        have hd : decisionLevel (cancelUntil r.2 r.1.out_btlevel) = 0 := by
          by_contra hne
          rw [if_pos hne] at hl
          cases hl
        rw [if_neg (by rw [hd]; simp), hx] at hl
        have hbase : Inv (if r.1.out_symmetry = true then
            insertSymmetryUnit (cancelUntil r.2 r.1.out_btlevel) (var (neg p))
            else cancelUntil r.2 r.1.out_btlevel) := by
          split_ifs
          · exact hsb.of_frame ⟨rfl, rfl, rfl, rfl, rfl, rfl, rfl, rfl, rfl, rfl, rfl, rfl, rfl,
              rfl, rfl⟩ rfl rfl rfl rfl
          · exact hsb
        refine hbase.enqueue_none ?_ ?_ hl
        · split_ifs
          · exact hvp
          · exact hvp
        · intro j hj
          exfalso
          have : decisionLevel (if r.1.out_symmetry = true then
            insertSymmetryUnit (cancelUntil r.2 r.1.out_btlevel) (var (neg p))
            else cancelUntil r.2 r.1.out_btlevel) = 0 := by
            split_ifs
            · exact hd
            · exact hd
          omega
    · rw [if_neg hone] at hc
      cases hl : learnClause (cancelUntil r.2 r.1.out_btlevel) r.1 confl with
      | none => rw [hl] at hc; cases hc
      | some s1 =>
        rw [hl] at hc
        simp only [Option.some.injEq, Prod.mk.injEq, true_and] at hc
        subst hc
        refine ⟨Inv.decay_inv ?_, (stb.trans_st (learnClause_step hsb hl)).trans_st (AFrame.decay s1).step_af⟩
        cases tl with
        | nil => rw [e] at hone; exact absurd rfl hone
        | cons b rest =>
          unfold learnClause at hl
          by_cases hasrt : ((cancelUntil r.2 r.1.out_btlevel).ca.cl confl).fsymmetry = true ∧
              r.1.out_symmetry = false
          · rw [if_pos hasrt] at hl; cases hl
          rw [if_neg hasrt, e] at hl
          have hbl' : r.1.out_btlevel = level (countConflict s) (var b) :=
            hbl (List.cons_ne_nil _ _)
          refine Inv.learn hsb ?_ ?_ hu ?_ ?_ hl
          · rw [List.nodup_cons]
            refine ⟨?_, ?_⟩
            · intro hm
              exact (htail _ hm).2.1 (by rw [var_neg])
            · exact List.Nodup.of_map var hndv
          · intro l hl'
            rcases List.mem_cons.mp hl' with rfl | hl'
            · exact hvp
            · rw [hnv]
              have := htr'.neg_mem_of_false (hq' l hl').1
              have h2 := hax'.vr.trail_lt _ this
              rw [var_neg] at h2
              exact h2
          · intro l hl'
            exact (htail l hl').1
          · have hlb : level (cancelUntil r.2 r.1.out_btlevel) (var b) =
                level (countConflict s) (var b) := by
              unfold level; rw [b2]
            rw [hlb, b1, hbl']

end Minisat


namespace Minisat
open lbool

/-! ## `removeClause` keeps the invariants -/

theorem smudge_dirty (s : Solver) (l x : Lit) :
    (smudge s l).dirty x = true ↔ (s.dirty x = true ∨ x = l) := by
  unfold smudge
  by_cases h : s.dirty l = false
  · rw [if_pos h]
    show Function.update s.dirty l true x = true ↔ _
    by_cases e : x = l
    · subst e; rw [Function.update_same]; simp
    · rw [Function.update_noteq e]; simp [e]
  · rw [if_neg h]
    constructor
    · exact Or.inl
    · rintro (h1 | rfl)
      · exact h1
      · simpa using h

theorem smudge_dirties_mono (s : Solver) (l x : Lit) (h : x ∈ s.dirties) :
    x ∈ (smudge s l).dirties := by
  unfold smudge
  split_ifs
  · exact List.mem_append_left _ h
  · exact h

theorem smudge_dirties_new (s : Solver) (l : Lit) (h : s.dirty l = false) :
    l ∈ (smudge s l).dirties := by
  unfold smudge
  rw [if_pos h]
  exact List.mem_append_right _ (List.mem_singleton_self l)

theorem smudge_frame (s : Solver) (l : Lit) :
    (smudge s l).trail = s.trail ∧ (smudge s l).trail_lim = s.trail_lim ∧
    (smudge s l).assigns = s.assigns ∧ (smudge s l).watches = s.watches ∧
    (smudge s l).clauses = s.clauses ∧ (smudge s l).learnts = s.learnts ∧
    (smudge s l).order_heap = s.order_heap ∧ (smudge s l).free_vars = s.free_vars ∧
    (smudge s l).released_vars = s.released_vars ∧ (smudge s l).seen = s.seen ∧
    (smudge s l).assumptions = s.assumptions ∧ (smudge s l).decision = s.decision ∧
    (smudge s l).next_var = s.next_var ∧ (smudge s l).qhead = s.qhead ∧
    (smudge s l).ok = s.ok ∧ (smudge s l).ca = s.ca ∧ (smudge s l).vardata = s.vardata := by
  unfold smudge
  split_ifs <;> exact ⟨rfl, rfl, rfl, rfl, rfl, rfl, rfl, rfl, rfl, rfl, rfl, rfl, rfl, rfl, rfl,
    rfl, rfl⟩

theorem countDetach_frame (s : Solver) (c : Clause) :
    (countDetach s c).trail = s.trail ∧ (countDetach s c).trail_lim = s.trail_lim ∧
    (countDetach s c).assigns = s.assigns ∧ (countDetach s c).watches = s.watches ∧
    (countDetach s c).clauses = s.clauses ∧ (countDetach s c).learnts = s.learnts ∧
    (countDetach s c).order_heap = s.order_heap ∧ (countDetach s c).free_vars = s.free_vars ∧
    (countDetach s c).released_vars = s.released_vars ∧ (countDetach s c).seen = s.seen ∧
    (countDetach s c).assumptions = s.assumptions ∧ (countDetach s c).decision = s.decision ∧
    (countDetach s c).next_var = s.next_var ∧ (countDetach s c).qhead = s.qhead ∧
    (countDetach s c).ok = s.ok ∧ (countDetach s c).ca = s.ca ∧
    (countDetach s c).vardata = s.vardata ∧ (countDetach s c).dirty = s.dirty ∧
    (countDetach s c).dirties = s.dirties := by
  unfold countDetach
  split_ifs <;> exact ⟨rfl, rfl, rfl, rfl, rfl, rfl, rfl, rfl, rfl, rfl, rfl, rfl, rfl, rfl, rfl,
    rfl, rfl, rfl, rfl⟩

theorem unlock_frame (s : Solver) (cr : CRef) :
    (unlock s cr).trail = s.trail ∧ (unlock s cr).trail_lim = s.trail_lim ∧
    (unlock s cr).assigns = s.assigns ∧ (unlock s cr).watches = s.watches ∧
    (unlock s cr).clauses = s.clauses ∧ (unlock s cr).learnts = s.learnts ∧
    (unlock s cr).order_heap = s.order_heap ∧ (unlock s cr).free_vars = s.free_vars ∧
    (unlock s cr).released_vars = s.released_vars ∧ (unlock s cr).seen = s.seen ∧
    (unlock s cr).assumptions = s.assumptions ∧ (unlock s cr).decision = s.decision ∧
    (unlock s cr).next_var = s.next_var ∧ (unlock s cr).qhead = s.qhead ∧
    (unlock s cr).ok = s.ok ∧ (unlock s cr).ca = s.ca ∧ (unlock s cr).dirty = s.dirty ∧
    (unlock s cr).dirties = s.dirties := by
  unfold unlock
  split_ifs <;> exact ⟨rfl, rfl, rfl, rfl, rfl, rfl, rfl, rfl, rfl, rfl, rfl, rfl, rfl, rfl, rfl,
    rfl, rfl, rfl⟩

theorem smudge_conflict (s : Solver) (l : Lit) : (smudge s l).conflict = s.conflict := by
  unfold smudge; split_ifs <;> rfl

theorem countDetach_conflict (s : Solver) (c : Clause) :
    (countDetach s c).conflict = s.conflict := by
  unfold countDetach; split_ifs <;> rfl

theorem unlock_conflict (s : Solver) (cr : CRef) : (unlock s cr).conflict = s.conflict := by
  unfold unlock; split_ifs <;> rfl

/-- The effect of `removeClause`. -/
theorem removeClause_spec {s t : Solver} {cr : CRef} (h : removeClause s cr = some t) :
    RemSpec s t cr := by
  unfold removeClause detachClause at h
  by_cases hsz : (s.ca.cl cr).size > 1
  · rw [if_pos hsz] at h
    simp only [Option.map_some', Option.some.injEq] at h
    generalize hA : smudge s (neg ((s.ca.cl cr).get 0)) = A at h
    generalize hB : smudge A (neg ((s.ca.cl cr).get 1)) = B at h
    generalize hC : countDetach B (s.ca.cl cr) = C at h
    generalize hD : unlock C cr = D at h
    obtain ⟨a1, a2, a3, a4, a5, a6, a7, a8, a9, a10, a11, a12, a13, a14, a15, a16, a17⟩ :=
      smudge_frame s (neg ((s.ca.cl cr).get 0))
    rw [hA] at a1 a2 a3 a4 a5 a6 a7 a8 a9 a10 a11 a12 a13 a14 a15 a16 a17
    obtain ⟨b1, b2, b3, b4, b5, b6, b7, b8, b9, b10, b11, b12, b13, b14, b15, b16, b17⟩ :=
      smudge_frame A (neg ((s.ca.cl cr).get 1))
    rw [hB] at b1 b2 b3 b4 b5 b6 b7 b8 b9 b10 b11 b12 b13 b14 b15 b16 b17
    obtain ⟨c1, c2, c3, c4, c5, c6, c7, c8, c9, c10, c11, c12, c13, c14, c15, c16, c17, c18,
      c19⟩ := countDetach_frame B (s.ca.cl cr)
    rw [hC] at c1 c2 c3 c4 c5 c6 c7 c8 c9 c10 c11 c12 c13 c14 c15 c16 c17 c18 c19
    obtain ⟨d1, d2, d3, d4, d5, d6, d7, d8, d9, d10, d11, d12, d13, d14, d15, d16, d17, d18⟩ :=
      unlock_frame C cr
    rw [hD] at d1 d2 d3 d4 d5 d6 d7 d8 d9 d10 d11 d12 d13 d14 d15 d16 d17 d18
    have hCca : C.ca = s.ca := by rw [c16, b16, a16]
    have hCvd : C.vardata = s.vardata := by rw [c17, b17, a17]
    have hCas : C.assigns = s.assigns := by rw [c3, b3, a3]
    have hlock : locked C cr = locked s cr := by
      unfold locked reason
      rw [hCca, hCvd, value_congr hCas]
    subst h
    constructor
    · exact hsz
    · show D.trail = _; rw [d1, c1, b1, a1]
    · show D.trail_lim = _; rw [d2, c2, b2, a2]
    · show D.assigns = _; rw [d3, c3, b3, a3]
    · show D.watches = _; rw [d4, c4, b4, a4]
    · show D.clauses = _; rw [d5, c5, b5, a5]
    · show D.learnts = _; rw [d6, c6, b6, a6]
    · show D.order_heap = _; rw [d7, c7, b7, a7]
    · show D.free_vars = _; rw [d8, c8, b8, a8]
    · show D.released_vars = _; rw [d9, c9, b9, a9]
    · show D.seen = _; rw [d10, c10, b10, a10]
    · show D.assumptions = _; rw [d11, c11, b11, a11]
    · show D.decision = _; rw [d12, c12, b12, a12]
    · show D.next_var = _; rw [d13, c13, b13, a13]
    · show D.qhead = _; rw [d14, c14, b14, a14]
    · show D.ok = _; rw [d15, c15, b15, a15]
    · show D.ca.size = _; rw [d16, hCca]
    · show Function.update D.ca.cl cr _ cr = _
      rw [Function.update_same, d16, hCca]
    · intro c hc
      show Function.update D.ca.cl cr _ c = _
      rw [Function.update_noteq hc, d16, hCca]
    · show D.vardata = _
      rw [← hD]
      unfold unlock
      rw [hlock]
      by_cases hl : locked s cr = true
      · rw [if_pos hl, if_pos hl]
        show Function.update C.vardata _ _ = _
        rw [hCca, hCvd]
      · rw [if_neg hl, if_neg hl]
        exact hCvd
    · intro l
      show D.dirty l = true ↔ _
      rw [d17, c18, ← hB, smudge_dirty, ← hA, smudge_dirty]
      tauto
    · intro l hl
      show l ∈ D.dirties
      rw [d18, c19, ← hB]
      apply smudge_dirties_mono
      rw [← hA]
      exact smudge_dirties_mono _ _ _ hl
    · intro l hl hd
      show l ∈ D.dirties
      rw [d18, c19, ← hB]
      by_cases e0 : l = neg ((s.ca.cl cr).get 0)
      · apply smudge_dirties_mono
        rw [← hA, e0]
        apply smudge_dirties_new
        rw [← e0]; exact hd
      · have e1 : l = neg ((s.ca.cl cr).get 1) := by
          rcases hl with e | e
          · exact absurd e e0
          · exact e
        rw [e1]
        apply smudge_dirties_new
        rw [← hA]
        cases hx : (smudge s (neg ((s.ca.cl cr).get 0))).dirty (neg ((s.ca.cl cr).get 1)) with
        | false => rfl
        | true =>
          rcases (smudge_dirty _ _ _).mp hx with h1 | h1
          · rw [← e1, hd] at h1; cases h1
          · exact absurd (e1.trans h1) e0
    · show D.conflict = _
      rw [← hD, unlock_conflict, ← hC, countDetach_conflict, ← hB, smudge_conflict, ← hA,
        smudge_conflict]
  · rw [if_neg hsz] at h
    cases h

theorem RemSpec.level_eq_rem {s t : Solver} {cr : CRef} (h : RemSpec s t cr) (v : Var) :
    level t v = level s v := by
  unfold level
  rw [h.vardata]
  split_ifs
  · by_cases e : v = var ((s.ca.cl cr).get 0)
    · subst e; rw [Function.update_same]; rfl
    · rw [Function.update_noteq e]
  · rfl

theorem RemSpec.value_eq_rem {s t : Solver} {cr : CRef} (h : RemSpec s t cr) (l : Lit) :
    value t l = value s l := value_congr h.assigns l

theorem RemSpec.reason_eq_rem {s t : Solver} {cr : CRef} (h : RemSpec s t cr) (v : Var) :
    reason t v = reason s v ∨
      (reason t v = none ∧ locked s cr = true ∧ v = var ((s.ca.cl cr).get 0)) := by
  unfold reason
  rw [h.vardata]
  split_ifs with hl
  · by_cases e : v = var ((s.ca.cl cr).get 0)
    · subst e; rw [Function.update_same]; exact Or.inr ⟨rfl, hl, rfl⟩
    · rw [Function.update_noteq e]; exact Or.inl rfl
  · exact Or.inl rfl

theorem RemSpec.mark_self {s t : Solver} {cr : CRef} (h : RemSpec s t cr) :
    (t.ca.cl cr).mark = 1 := by rw [h.cl_self]

theorem RemSpec.listed {s t : Solver} {cr : CRef} (h : RemSpec s t cr) (c : CRef) :
    Listed t c ↔ Listed s c := by
  unfold Listed; rw [h.clauses, h.learnts]

theorem RemSpec.attached_rem {s t : Solver} {cr : CRef} (h : RemSpec s t cr) (c : CRef) :
    Attached t c ↔ (Attached s c ∧ c ≠ cr) := by
  unfold Attached
  rw [h.listed]
  by_cases e : c = cr
  · subst e
    rw [h.mark_self]
    simp
  · rw [h.cl_other c e]
    simp [e]

theorem RemSpec.lits_eq_rem {s t : Solver} {cr : CRef} (h : RemSpec s t cr) (c : CRef) :
    (t.ca.cl c).lits = (s.ca.cl c).lits := by
  by_cases e : c = cr
  · subst e; rw [h.cl_self]
  · rw [h.cl_other c e]

theorem RemSpec.mark_mono {s t : Solver} {cr : CRef} (h : RemSpec s t cr) (c : CRef)
    (hm : (t.ca.cl c).mark ≠ 1) : (s.ca.cl c).mark ≠ 1 ∧ c ≠ cr := by
  by_cases e : c = cr
  · subst e; exact absurd h.mark_self hm
  · rw [h.cl_other c e] at hm; exact ⟨hm, e⟩

/-- `removeClause` keeps the invariants; a locked clause is removed at level 0 only. -/
theorem RemSpec.inv_rem {s t : Solver} {cr : CRef} {q : Nat} (h : RemSpec s t cr)
    (htr : TrailInv s) (hwt : WatchInv s q) (hax : AuxInv s)
    (hlk : locked s cr = true → decisionLevel s = 0) :
    TrailInv t ∧ WatchInv t q ∧ AuxInv t := by
  have hv := h.value_eq_rem
  have hl := h.level_eq_rem
  have hd : decisionLevel t = decisionLevel s := by unfold decisionLevel; rw [h.trail_lim]
  have hnv : nVars t = nVars s := h.next_var
  have hget : ∀ c i, (t.ca.cl c).get i = (s.ca.cl c).get i := by
    intro c i; unfold Clause.get; rw [h.lits_eq_rem]
  have hwatching : ∀ c l, (t.ca.cl c).watching l ↔ (s.ca.cl c).watching l := by
    intro c l; unfold Clause.watching; rw [hget, hget]
  have htr' : TrailInv t := by
    constructor
    · intro l hm; rw [h.trail] at hm; rw [hv]; exact htr.true_of_mem l hm
    · intro v hm; rw [h.assigns] at hm; rw [h.trail]; exact htr.mem_of_assigned v hm
    · rw [h.trail]; exact htr.nodup
    · intro x hx; rw [h.trail_lim] at hx; rw [h.trail]; exact htr.lim_le x hx
    · rw [h.trail_lim]; exact htr.lim_sorted
    · intro j hj l hm
      rw [h.trail_lim] at hj
      rw [h.trail, h.trail_lim] at hm
      rw [hl]; exact htr.level_take j hj l hm
    · intro j hj l hm
      rw [h.trail_lim] at hj
      rw [h.trail, h.trail_lim] at hm
      rw [hl]; exact htr.level_drop j hj l hm
    · intro l hm; rw [h.trail] at hm; rw [hl, hd]; exact htr.level_le l hm
  refine ⟨htr', ?_, ?_⟩
  · constructor
    · rw [h.trail]; exact hwt.q_le
    · rw [h.trail_lim]; exact hwt.lim_le_q
    · intro c hc
      rw [h.lits_eq_rem]; exact hwt.size c ((h.attached_rem c).mp hc).1
    · intro c hc
      rw [h.lits_eq_rem]; exact hwt.nodup c ((h.attached_rem c).mp hc).1
    · intro c hc l hw
      rw [h.watches]
      exact hwt.watched c ((h.attached_rem c).mp hc).1 l ((hwatching c l).mp hw)
    · intro l w hw hm
      rw [h.watches] at hw
      obtain ⟨hm', -⟩ := h.mark_mono _ hm
      obtain ⟨a, b, c⟩ := hwt.watcher l w hw hm'
      refine ⟨(h.listed _).mpr a, (hwatching _ _).mpr b, ?_⟩
      rw [h.lits_eq_rem, hv, hl]
      exact c
    · intro l w hw hm
      rw [h.watches] at hw
      rw [h.dirty]
      by_cases e : w.cref = cr
      · by_cases hm0 : (s.ca.cl w.cref).mark = 1
        · exact Or.inl (hwt.removed_dirty l w hw hm0)
        · obtain ⟨-, b, -⟩ := hwt.watcher l w hw hm0
          rw [e] at b
          rcases b with b | b
          · right; left
            rw [b, neg_neg]
          · right; right
            rw [b, neg_neg]
      · rw [h.cl_other _ e] at hm
        exact Or.inl (hwt.removed_dirty l w hw hm)
    · intro l; rw [h.watches]; exact hwt.crefs_nodup l
    · intro c hc; rw [h.ca_size]; exact hwt.listed_lt c ((h.listed c).mp hc)
    · intro l w hw; rw [h.watches] at hw; rw [h.ca_size]; exact hwt.watcher_lt l w hw
    · intro c hc l hw hf hm
      rw [hv] at hf
      rw [h.trail] at hm
      obtain ⟨x, x1, x2, x3⟩ :=
        hwt.propagated c ((h.attached_rem c).mp hc).1 l ((hwatching c l).mp hw) hf hm
      exact ⟨x, by rw [h.lits_eq_rem]; exact x1, by rw [hv]; exact x2, by rw [hl, hl]; exact x3⟩
  · refine ⟨?_, ?_, ?_, ?_⟩
    · intro pre l post c hts hre
      rw [h.trail] at hts
      have hlm : l ∈ s.trail := by rw [hts]; simp
      rcases h.reason_eq_rem (var l) with e | ⟨e, -, -⟩
      · rw [e] at hre
        obtain ⟨a, b, c'⟩ := hax.rs pre l post c hts hre
        have hne : c ≠ cr := by
          intro ec
          subst ec
          have hlock : locked s c = true := by
            unfold locked
            rw [b, htr.true_of_mem l hlm, hre]
            simp
          rcases h.reason_eq_rem (var l) with e2 | ⟨e2, -, -⟩
          · have hvd := h.vardata
            rw [if_pos hlock] at hvd
            have : reason t (var l) = none := by
              unfold reason
              rw [hvd, b, Function.update_same]
              rfl
            rw [e, hre] at this
            cases this
          · rw [e, hre] at e2; cases e2
        refine ⟨(h.attached_rem c).mpr ⟨a, hne⟩, ?_, ?_⟩
        · rw [hget]; exact b
        · rw [h.lits_eq_rem]; exact c'
      · rw [e] at hre; cases hre
    · constructor
      · intro l hm; rw [h.trail] at hm; rw [hnv]; exact hax.vr.trail_lt l hm
      · intro c hc l hm
        rw [h.lits_eq_rem] at hm
        rw [hnv]; exact hax.vr.lits_lt c ((h.attached_rem c).mp hc).1 l hm
      · intro l hm; rw [hnv] at hm; rw [h.watches]; exact hax.vr.watches_nil l hm
      · intro v hm; rw [h.order_heap] at hm; rw [hnv]; exact hax.vr.heap_lt v hm
      · rw [h.free_vars]; exact hax.vr.free_nil
      · rw [h.released_vars]; exact hax.vr.released_nil
      · intro l hm
        rcases (h.dirty l).mp hm with e | e
        · exact h.dirties_mono l (hax.vr.dirties l e)
        · cases hx : s.dirty l with
          | true => exact h.dirties_mono l (hax.vr.dirties l hx)
          | false => exact h.dirties_new l e hx
      · intro c
        by_cases e : c = cr
        · subst e; rw [h.cl_self]; exact hax.vr.not_reloced c
        · rw [h.cl_other c e]; exact hax.vr.not_reloced c
      · intro v; rw [h.seen]; exact hax.vr.seen0 v
    · intro l hm hre j hj hjl
      rw [h.trail] at hm
      rw [hl] at hj
      rw [h.assumptions] at hjl ⊢
      rcases h.reason_eq_rem (var l) with e | ⟨-, e, -⟩
      · rw [e] at hre
        exact hax.asm l hm hre j hj hjl
      · have := htr.level_le l hm
        rw [hlk e] at this
        omega
    · intro v hv' hdec hun
      rw [hnv] at hv'
      rw [h.decision] at hdec
      rw [h.assigns] at hun
      rw [h.order_heap]
      exact hax.hp v hv' hdec hun

end Minisat


namespace Minisat
open lbool

/-! ## The trimming of a clause in `removeSatisfied` -/

/-- One step of the trimming loop on the list `A ++ y :: B`, at the index of `y`. -/
theorem trim_step (A B : List Lit) (y : Lit) :
    (((A ++ y :: B).set A.length ((A ++ y :: B).getD ((A ++ y :: B).length - 1) 0)).dropLast).Perm
      (A ++ B) ∧
    (((A ++ y :: B).set A.length ((A ++ y :: B).getD ((A ++ y :: B).length - 1) 0)).dropLast).take
      A.length = A := by
  rcases List.eq_nil_or_concat B with rfl | ⟨B', z, hB⟩
  · have e1 : (A ++ [y]).set A.length ((A ++ [y]).getD ((A ++ [y]).length - 1) 0) = A ++ [y] := by
      rw [List.set_append_right _ _ (Nat.le_refl _)]
      simp
    rw [e1]
    simp
  · rw [List.concat_eq_append] at hB
    subst hB
    have hlast : (A ++ y :: (B' ++ [z])).getD ((A ++ y :: (B' ++ [z])).length - 1) 0 = z := by
      have : A ++ y :: (B' ++ [z]) = (A ++ y :: B') ++ [z] := by simp
      rw [this, List.getD_eq_getElem?_getD, List.getElem?_append_right (by simp)]
      simp
    rw [hlast]
    have e1 : (A ++ y :: (B' ++ [z])).set A.length z = (A ++ z :: B') ++ [z] := by
      rw [List.set_append_right _ _ (Nat.le_refl _)]
      simp
    rw [e1, List.dropLast_concat]
    constructor
    · rw [← List.append_assoc]
      have : (A ++ z :: B').Perm (A ++ B' ++ [z]) := by
        rw [List.append_assoc]
        exact List.Perm.append_left A (List.perm_append_singleton z B').symm
      exact this
    · rw [List.take_append_of_le_length (Nat.le_refl _), List.take_length]

theorem split_at {ls : List Lit} {k : Nat} (hk : k < ls.length) :
    ls = ls.take k ++ ls.getD k 0 :: ls.drop (k + 1) ∧ (ls.take k).length = k := by
  constructor
  · rw [List.getD_eq_getElem _ _ hk]
    have := List.take_append_drop k ls
    rw [List.drop_eq_getElem_cons hk] at this
    exact this.symm
  · rw [List.length_take]; omega

/-- The trimming loop: the result holds literals of the clause only, the literals dropped are
false, the literals before the index `k` stay where they are, and no literal is doubled. -/
theorem trimLoop_spec (s : Solver) :
    ∀ (fuel : Nat) (ls : List Lit) (k : Nat),
      (∀ x ∈ trimLoop s fuel ls k, x ∈ ls) ∧
      (∀ x ∈ ls, x ∉ trimLoop s fuel ls k → value s x = l_False) ∧
      (trimLoop s fuel ls k).take k = ls.take k ∧
      (ls.Nodup → (trimLoop s fuel ls k).Nodup) := by
  intro fuel
  induction fuel with
  | zero => intro ls k; exact ⟨fun x h => h, fun x h1 h2 => absurd h1 h2, rfl, fun h => h⟩
  | succ n ih =>
    intro ls k
    unfold trimLoop
    by_cases hk : k < ls.length
    · rw [if_pos hk]
      by_cases hf : value s (ls.getD k 0) = l_False
      · rw [if_pos hf]
        obtain ⟨i1, i2, i3, i4⟩ := ih ((ls.set k (ls.getD (ls.length - 1) 0)).dropLast) k
        obtain ⟨hsplit, hlen⟩ := split_at hk
        generalize hA : ls.take k = A at hsplit hlen
        generalize hB : ls.drop (k + 1) = B at hsplit
        generalize hy : ls.getD k 0 = y at hsplit hf
        have hstep := trim_step A B y
        rw [← hsplit, hlen] at hstep
        obtain ⟨hperm, htake⟩ := hstep
        generalize hR : (ls.set k (ls.getD (ls.length - 1) 0)).dropLast = R at *
        have hmemR : ∀ x, x ∈ R ↔ x ∈ A ∨ x ∈ B := by
          intro x; rw [hperm.mem_iff, List.mem_append]
        have hmemls : ∀ x, x ∈ ls ↔ x ∈ A ∨ x = y ∨ x ∈ B := by
          intro x
          rw [hsplit, List.mem_append, List.mem_cons]
        refine ⟨?_, ?_, ?_, ?_⟩
        · intro x hx
          rw [hmemls]
          rcases (hmemR x).mp (i1 x hx) with h | h
          · exact Or.inl h
          · exact Or.inr (Or.inr h)
        · intro x hx hnx
          rcases (hmemls x).mp hx with h | rfl | h
          · exact i2 x ((hmemR x).mpr (Or.inl h)) hnx
          · exact hf
          · exact i2 x ((hmemR x).mpr (Or.inr h)) hnx
        · rw [i3]; exact htake
        · intro hnd
          apply i4
          rw [hperm.nodup_iff]
          rw [hsplit] at hnd
          exact (List.nodup_append.mp hnd).1.append
            ((List.nodup_cons.mp (List.nodup_append.mp hnd).2.1).2)
            (fun x h1 h2 => (List.nodup_append.mp hnd).2.2 h1 (List.mem_cons_of_mem _ h2))
      · rw [if_neg hf]
        obtain ⟨i1, i2, i3, i4⟩ := ih ls (k + 1)
        refine ⟨i1, i2, ?_, i4⟩
        have := congrArg (List.take k) i3
        rw [List.take_take, List.take_take, Nat.min_eq_left (Nat.le_succ k)] at this
        exact this
    · rw [if_neg hk]
      exact ⟨fun x h => h, fun x h1 h2 => absurd h1 h2, rfl, fun h => h⟩

theorem getD_of_take_eq {a b : List Lit} {n i : Nat} (h : a.take n = b.take n) (hi : i < n) :
    a.getD i 0 = b.getD i 0 := by
  have := congrArg (fun l => l.getD i 0) h
  simp only [List.getD_eq_getElem?_getD, List.getElem?_take_of_lt hi] at this
  rw [List.getD_eq_getElem?_getD, List.getD_eq_getElem?_getD]
  exact this

theorem length_of_take_eq {a b : List Lit} {n : Nat} (h : a.take n = b.take n)
    (hb : n ≤ b.length) : n ≤ a.length := by
  have := congrArg List.length h
  rw [List.length_take, List.length_take] at this
  omega

theorem DbStep.refl_db (s : Solver) : DbStep s s :=
  ⟨rfl, rfl, rfl, rfl, rfl, rfl, rfl, rfl, rfl, rfl, rfl, rfl, rfl, rfl, rfl, rfl, fun _ => rfl,
    fun _ _ h => h, fun _ h => h, fun _ => rfl, fun _ h1 h2 => absurd h2 h1, rfl⟩

theorem satisfied_iff (s : Solver) (c : Clause) :
    satisfied s c = true ↔ ∃ l ∈ c.lits, value s l = l_True := by
  unfold satisfied
  rw [List.any_eq_true]
  constructor
  · rintro ⟨l, h1, h2⟩; exact ⟨l, h1, by simpa using h2⟩
  · rintro ⟨l, h1, h2⟩; exact ⟨l, h1, by simpa using h2⟩

theorem DbStep.value_eq_db {s t : Solver} (h : DbStep s t) (l : Lit) : value t l = value s l :=
  value_congr h.assigns l

theorem DbStep.trans_db {s t u : Solver} (h1 : DbStep s t) (h2 : DbStep t u) : DbStep s u := by
  constructor
  · rw [h2.trail, h1.trail]
  · rw [h2.trail_lim, h1.trail_lim]
  · rw [h2.assigns, h1.assigns]
  · rw [h2.watches, h1.watches]
  · rw [h2.clauses, h1.clauses]
  · rw [h2.learnts, h1.learnts]
  · rw [h2.order_heap, h1.order_heap]
  · rw [h2.free_vars, h1.free_vars]
  · rw [h2.released_vars, h1.released_vars]
  · rw [h2.seen, h1.seen]
  · rw [h2.assumptions, h1.assumptions]
  · rw [h2.decision, h1.decision]
  · rw [h2.next_var, h1.next_var]
  · rw [h2.qhead, h1.qhead]
  · rw [h2.ok, h1.ok]
  · rw [h2.ca_size, h1.ca_size]
  · intro v; rw [h2.level, h1.level]
  · intro c l hl; exact h1.lits_sub c l (h2.lits_sub c l hl)
  · intro c hc; exact h2.mark_mono c (h1.mark_mono c hc)
  · intro c; rw [h2.learnt, h1.learnt]
  · intro c hs hu
    by_cases ht : (t.ca.cl c).mark = 1
    · exact h1.gone c hs ht
    · rcases h2.gone c ht hu with ⟨a, b⟩ | a
      · left
        refine ⟨?_, ?_⟩
        · rw [satisfied_iff] at a ⊢
          obtain ⟨l, l1, l2⟩ := a
          exact ⟨l, h1.lits_sub c l l1, by rw [← h1.value_eq_db]; exact l2⟩
        · unfold decisionLevel at b ⊢; rw [← h1.trail_lim]; exact b
      · right; rw [← h1.learnts]; exact a
  · rw [h2.conflict, h1.conflict]

theorem RemSpec.dbStep {s t : Solver} {cr : CRef} (h : RemSpec s t cr)
    (hg : (satisfied s (s.ca.cl cr) = true ∧ decisionLevel s = 0) ∨ cr ∈ s.learnts) :
    DbStep s t := by
  refine ⟨h.trail, h.trail_lim, h.assigns, h.watches, h.clauses, h.learnts, h.order_heap,
    h.free_vars, h.released_vars, h.seen, h.assumptions, h.decision, h.next_var, h.qhead, h.ok,
    h.ca_size, h.level_eq_rem, ?_, ?_, ?_, ?_, h.conflict⟩
  · intro c l hl; rw [h.lits_eq_rem] at hl; exact hl
  · intro c hc
    by_cases e : c = cr
    · subst e; exact h.mark_self
    · rw [h.cl_other c e]; exact hc
  · intro c
    by_cases e : c = cr
    · subst e; rw [h.cl_self]
    · rw [h.cl_other c e]
  · intro c hs ht
    by_cases e : c = cr
    · subst e; exact hg
    · rw [h.cl_other c e] at ht; exact absurd ht hs

/-- The trimming of a clause that is not satisfied, at level 0, keeps the invariants. -/
theorem trim_inv {s : Solver} {q : Nat} {cr : CRef} {ls : List Lit}
    (htr : TrailInv s) (hwt : WatchInv s q) (hax : AuxInv s) (hd0 : decisionLevel s = 0)
    (hns : satisfied s (s.ca.cl cr) = false)
    (h1 : ∀ x ∈ ls, x ∈ (s.ca.cl cr).lits)
    (h2 : ∀ x ∈ (s.ca.cl cr).lits, x ∉ ls → value s x = l_False)
    (h3 : ls.take 2 = (s.ca.cl cr).lits.take 2)
    (h4 : (s.ca.cl cr).lits.Nodup → ls.Nodup) :
    TrailInv (setLits s cr ls) ∧ WatchInv (setLits s cr ls) q ∧ AuxInv (setLits s cr ls) ∧
      DbStep s (setLits s cr ls) := by
  have hself : ((setLits s cr ls).ca.cl cr) = { s.ca.cl cr with lits := ls } := by
    show Function.update s.ca.cl cr _ cr = _
    rw [Function.update_same]
  have hother : ∀ c, c ≠ cr → (setLits s cr ls).ca.cl c = s.ca.cl c := by
    intro c hc
    show Function.update s.ca.cl cr _ c = _
    rw [Function.update_noteq hc]
  have hmark : ∀ c, ((setLits s cr ls).ca.cl c).mark = (s.ca.cl c).mark := by
    intro c
    by_cases e : c = cr
    · subst e; rw [hself]
    · rw [hother c e]
  have hsub : ∀ c, ∀ l ∈ ((setLits s cr ls).ca.cl c).lits, l ∈ (s.ca.cl c).lits := by
    intro c l hl
    by_cases e : c = cr
    · subst e; rw [hself] at hl; exact h1 l hl
    · rw [hother c e] at hl; exact hl
  have hkeep : ∀ c, ∀ l ∈ (s.ca.cl c).lits, value s l ≠ l_False →
      l ∈ ((setLits s cr ls).ca.cl c).lits := by
    intro c l hl hv
    by_cases e : c = cr
    · subst e
      rw [hself]
      by_contra hn
      exact hv (h2 l hl hn)
    · rw [hother c e]; exact hl
  have hget : ∀ c i, i < 2 → ((setLits s cr ls).ca.cl c).get i = (s.ca.cl c).get i := by
    intro c i hi
    by_cases e : c = cr
    · subst e
      unfold Clause.get
      rw [hself]
      exact getD_of_take_eq h3 hi
    · rw [hother c e]
  have hwatching : ∀ c l, ((setLits s cr ls).ca.cl c).watching l ↔ (s.ca.cl c).watching l := by
    intro c l
    unfold Clause.watching
    rw [hget c 0 (by omega), hget c 1 (by omega)]
  have hat : ∀ c, Attached (setLits s cr ls) c ↔ Attached s c := by
    intro c
    unfold Attached
    rw [hmark]
    exact Iff.rfl
  have hlev0 : ∀ x, value s x = l_False → level s (var x) = 0 := by
    intro x hx
    have := htr.level_le _ (htr.neg_mem_of_false hx)
    rw [var_neg, hd0] at this
    omega
  have htr' : TrailInv (setLits s cr ls) := htr.congr_tr rfl rfl rfl rfl
  have hv : ∀ l, value (setLits s cr ls) l = value s l := fun _ => rfl
  have hl : ∀ x, level (setLits s cr ls) x = level s x := fun _ => rfl
  refine ⟨htr', ?_, ?_, ?_⟩
  · constructor
    · exact hwt.q_le
    · exact hwt.lim_le_q
    · intro c hc
      have hs := hwt.size c ((hat c).mp hc)
      by_cases e : c = cr
      · subst e; rw [hself]; exact length_of_take_eq h3 hs
      · rw [hother c e]; exact hs
    · intro c hc
      have hs := hwt.nodup c ((hat c).mp hc)
      by_cases e : c = cr
      · subst e; rw [hself]; exact h4 hs
      · rw [hother c e]; exact hs
    · intro c hc l hw
      exact hwt.watched c ((hat c).mp hc) l ((hwatching c l).mp hw)
    · intro l w hw hm
      rw [hmark] at hm
      obtain ⟨a, b, c⟩ := hwt.watcher l w hw hm
      refine ⟨a, (hwatching _ _).mpr b, ?_⟩
      rcases c with c | c
      · by_cases hvb : value s w.blocker = l_False
        · exact Or.inr ⟨hvb, hlev0 _ hvb⟩
        · exact Or.inl (hkeep _ _ c hvb)
      · exact Or.inr c
    · intro l w hw hm
      rw [hmark] at hm
      exact hwt.removed_dirty l w hw hm
    · exact hwt.crefs_nodup
    · exact hwt.listed_lt
    · exact hwt.watcher_lt
    · intro c hc l hw hf hm
      obtain ⟨x, x1, x2, x3⟩ := hwt.propagated c ((hat c).mp hc) l ((hwatching c l).mp hw) hf hm
      exact ⟨x, hkeep c x x1 (by rw [x2]; simp), x2, x3⟩
  · refine ⟨?_, ?_, hax.asm, hax.hp⟩
    · intro pre l post c hts hre
      obtain ⟨a, b, c'⟩ := hax.rs pre l post c hts hre
      have hne : c ≠ cr := by
        intro e
        subst e
        have hts' : s.trail = pre ++ l :: post := hts
        have hlm : l ∈ s.trail := by rw [hts']; simp
        have hsz := hwt.size c a
        have hmem : l ∈ (s.ca.cl c).lits := by
          rw [← b]
          unfold Clause.get
          rw [List.getD_eq_getElem _ _ (by omega)]
          exact List.getElem_mem _
        have : satisfied s (s.ca.cl c) = true :=
          (satisfied_iff s _).mpr ⟨l, hmem, htr.true_of_mem l hlm⟩
        rw [hns] at this
        cases this
      refine ⟨(hat c).mpr a, ?_, ?_⟩
      · rw [hother c hne]; exact b
      · rw [hother c hne]; exact c'
    · constructor
      · exact hax.vr.trail_lt
      · intro c hc l hm
        exact hax.vr.lits_lt c ((hat c).mp hc) l (hsub c l hm)
      · exact hax.vr.watches_nil
      · exact hax.vr.heap_lt
      · exact hax.vr.free_nil
      · exact hax.vr.released_nil
      · exact hax.vr.dirties
      · intro c
        by_cases e : c = cr
        · subst e; rw [hself]; exact hax.vr.not_reloced c
        · rw [hother c e]; exact hax.vr.not_reloced c
      · exact hax.vr.seen0
  · refine ⟨rfl, rfl, rfl, rfl, rfl, rfl, rfl, rfl, rfl, rfl, rfl, rfl, rfl, rfl, rfl, rfl,
      fun _ => rfl, hsub, ?_, ?_, ?_, rfl⟩
    · intro c hc; rw [hmark]; exact hc
    · intro c
      by_cases e : c = cr
      · subst e; rw [hself]
      · rw [hother c e]
    · intro c hs ht
      rw [hmark] at ht
      exact absurd ht hs

end Minisat


namespace Minisat
open lbool

/-! ## `removeSatisfied` keeps the invariants -/

/-- The loop of `removeSatisfied` at level 0. -/
theorem removeSatisfiedLoop_spec {q : Nat} :
    ∀ (crs : List CRef) (s : Solver) (r : List CRef × Solver),
      TrailInv s → WatchInv s q → AuxInv s → decisionLevel s = 0 →
      removeSatisfiedLoop s crs = some r →
      TrailInv r.2 ∧ WatchInv r.2 q ∧ AuxInv r.2 ∧ DbStep s r.2 ∧ r.1.Sublist crs ∧
        (∀ c ∈ crs, c ∉ r.1 → (r.2.ca.cl c).mark = 1) := by
  intro crs
  induction crs with
  | nil =>
    intro s r htr hwt hax _ h
    unfold removeSatisfiedLoop at h
    cases h
    exact ⟨htr, hwt, hax, DbStep.refl_db s, List.Sublist.refl _, fun c hc => by cases hc⟩
  | cons cr crs ih =>
    intro s r htr hwt hax hd0 h
    unfold removeSatisfiedLoop at h
    by_cases hs : satisfied s (s.ca.cl cr) = true
    · rw [if_pos hs] at h
      cases hr : removeClause s cr with
      | none => rw [hr] at h; cases h
      | some s1 =>
        rw [hr] at h
        simp only at h
        have hsp := removeClause_spec hr
        obtain ⟨t1, t2, t3⟩ := hsp.inv_rem htr hwt hax (fun _ => hd0)
        have hd1 : decisionLevel s1 = 0 := by
          unfold decisionLevel at hd0 ⊢; rw [hsp.trail_lim]; exact hd0
        obtain ⟨i1, i2, i3, i4, i5, i6⟩ := ih s1 r t1 t2 t3 hd1 h
        refine ⟨i1, i2, i3, (hsp.dbStep (Or.inl ⟨hs, hd0⟩)).trans_db i4,
          List.Sublist.cons _ i5, ?_⟩
        intro c hc hn
        rcases List.mem_cons.mp hc with rfl | hc
        · exact i4.mark_mono _ hsp.mark_self
        · exact i6 c hc hn
    · rw [if_neg hs] at h
      have hs' : satisfied s (s.ca.cl cr) = false := by simpa using hs
      obtain ⟨a1, a2, a3, a4⟩ := trimLoop_spec s (s.ca.cl cr).size (s.ca.cl cr).lits 2
      obtain ⟨t1, t2, t3, t4⟩ := trim_inv htr hwt hax hd0 hs' a1 a2 a3 a4
      cases hr : removeSatisfiedLoop
          (setLits s cr (trimLoop s (s.ca.cl cr).size (s.ca.cl cr).lits 2)) crs with
      | none => rw [hr] at h; cases h
      | some r1 =>
        rw [hr] at h
        simp only [Option.map_some', Option.some.injEq] at h
        subst h
        obtain ⟨i1, i2, i3, i4, i5, i6⟩ := ih _ r1 t1 t2 t3 hd0 hr
        refine ⟨i1, i2, i3, t4.trans_db i4, List.Sublist.cons₂ _ i5, ?_⟩
        intro c hc hn
        rcases List.mem_cons.mp hc with rfl | hc
        · exact absurd (List.mem_cons_self _ _) hn
        · exact i6 c hc (fun h => hn (List.mem_cons_of_mem _ h))

/-- The invariants carry over to a state in which the two clause lists are replaced by lists
with the same attached clauses. -/
theorem parts_of_relist {s t : Solver} {q : Nat} (htr : TrailInv s) (hwt : WatchInv s q)
    (hax : AuxInv s)
    (h1 : t.trail = s.trail) (h2 : t.trail_lim = s.trail_lim) (h3 : t.assigns = s.assigns)
    (h4 : t.vardata = s.vardata) (h5 : t.watches = s.watches) (h6 : t.dirty = s.dirty)
    (h6' : t.dirties = s.dirties) (h9 : t.ca = s.ca)
    (k1 : t.order_heap = s.order_heap) (k2 : t.free_vars = s.free_vars)
    (k3 : t.released_vars = s.released_vars) (k4 : t.seen = s.seen)
    (k5 : t.assumptions = s.assumptions) (k6 : t.decision = s.decision)
    (k7 : t.next_var = s.next_var)
    (hat : ∀ c, Attached t c ↔ Attached s c) (hli : ∀ c, Listed t c → Listed s c) :
    TrailInv t ∧ WatchInv t q ∧ AuxInv t := by
  have hv : ∀ l, value t l = value s l := value_congr h3
  have hl : ∀ x, level t x = level s x := level_congr h4
  have hnv : nVars t = nVars s := k7
  refine ⟨htr.congr_tr h1 h2 h3 h4, ?_, ?_⟩
  · constructor
    · rw [h1]; exact hwt.q_le
    · rw [h2]; exact hwt.lim_le_q
    · intro c hc; rw [h9]; exact hwt.size c ((hat c).mp hc)
    · intro c hc; rw [h9]; exact hwt.nodup c ((hat c).mp hc)
    · intro c hc l hw
      rw [h9] at hw
      rw [h5]; exact hwt.watched c ((hat c).mp hc) l hw
    · intro l w hw hm
      rw [h5] at hw
      rw [h9] at hm
      obtain ⟨a, b, c⟩ := hwt.watcher l w hw hm
      have hatt : Attached t w.cref := (hat _).mpr ⟨a, hm⟩
      refine ⟨hatt.1, by rw [h9]; exact b, ?_⟩
      rw [h9, hv, hl]; exact c
    · intro l w hw hm
      rw [h5] at hw
      rw [h9] at hm
      rw [h6]; exact hwt.removed_dirty l w hw hm
    · intro l; rw [h5]; exact hwt.crefs_nodup l
    · intro c hc; rw [h9]; exact hwt.listed_lt c (hli c hc)
    · intro l w hw; rw [h5] at hw; rw [h9]; exact hwt.watcher_lt l w hw
    · intro c hc l hw hf hm
      rw [h9] at hw
      rw [hv] at hf
      rw [h1] at hm
      obtain ⟨x, x1, x2, x3⟩ := hwt.propagated c ((hat c).mp hc) l hw hf hm
      exact ⟨x, by rw [h9]; exact x1, by rw [hv]; exact x2, by rw [hl, hl]; exact x3⟩
  · refine ⟨?_, ?_, ?_, ?_⟩
    · intro pre l post c hts hre
      rw [h1] at hts
      rw [reason_congr h4] at hre
      obtain ⟨a, b, c'⟩ := hax.rs pre l post c hts hre
      exact ⟨(hat c).mpr a, by rw [h9]; exact b, by rw [h9]; exact c'⟩
    · constructor
      · intro l hm; rw [h1] at hm; rw [hnv]; exact hax.vr.trail_lt l hm
      · intro c hc l hm
        rw [h9] at hm
        rw [hnv]; exact hax.vr.lits_lt c ((hat c).mp hc) l hm
      · intro l hm; rw [hnv] at hm; rw [h5]; exact hax.vr.watches_nil l hm
      · intro v hm; rw [k1] at hm; rw [hnv]; exact hax.vr.heap_lt v hm
      · rw [k2]; exact hax.vr.free_nil
      · rw [k3]; exact hax.vr.released_nil
      · intro l hm; rw [h6] at hm; rw [h6']; exact hax.vr.dirties l hm
      · intro c; rw [h9]; exact hax.vr.not_reloced c
      · intro v; rw [k4]; exact hax.vr.seen0 v
    · intro l hm hre j hj hjl
      rw [h1] at hm
      rw [reason_congr h4] at hre
      rw [hl] at hj
      rw [k5] at hjl ⊢
      exact hax.asm l hm hre j hj hjl
    · intro v hv' hdec hun
      rw [hnv] at hv'
      rw [k6] at hdec
      rw [h3] at hun
      rw [k1]
      exact hax.hp v hv' hdec hun

/-- `removeSatisfied(learnts)` at level 0 keeps the invariants. -/
theorem removeSatisfiedLearnts_inv {s t : Solver} {q : Nat} (htr : TrailInv s)
    (hwt : WatchInv s q) (hax : AuxInv s) (hd0 : decisionLevel s = 0)
    (h : removeSatisfiedLearnts s = some t) :
    TrailInv t ∧ WatchInv t q ∧ AuxInv t ∧
      ∃ u kept, DbStep s u ∧ t = setLearnts u kept ∧ kept.Sublist s.learnts ∧
        (∀ c ∈ s.learnts, c ∉ kept → (u.ca.cl c).mark = 1) := by
  unfold removeSatisfiedLearnts at h
  cases hr : removeSatisfiedLoop s s.learnts with
  | none => rw [hr] at h; cases h
  | some r =>
    rw [hr] at h
    simp only [Option.map_some', Option.some.injEq] at h
    subst h
    obtain ⟨i1, i2, i3, i4, i5, i6⟩ := removeSatisfiedLoop_spec s.learnts s r htr hwt hax hd0 hr
    have hat : ∀ c, Attached (setLearnts r.2 r.1) c ↔ Attached r.2 c := by
      intro c
      unfold Attached Listed
      show (c ∈ r.2.clauses ∨ c ∈ r.1) ∧ _ ↔ (c ∈ r.2.clauses ∨ c ∈ r.2.learnts) ∧ _
      constructor
      · rintro ⟨h1 | h1, h2⟩
        · exact ⟨Or.inl h1, h2⟩
        · exact ⟨Or.inr (by rw [i4.learnts]; exact i5.subset h1), h2⟩
      · rintro ⟨h1 | h1, h2⟩
        · exact ⟨Or.inl h1, h2⟩
        · refine ⟨Or.inr ?_, h2⟩
          by_contra hn
          rw [i4.learnts] at h1
          exact h2 (i6 c h1 hn)
    have hli : ∀ c, Listed (setLearnts r.2 r.1) c → Listed r.2 c := by
      intro c
      unfold Listed
      rintro (h1 | h1)
      · exact Or.inl h1
      · exact Or.inr (by rw [i4.learnts]; exact i5.subset h1)
    obtain ⟨j1, j2, j3⟩ := parts_of_relist (t := setLearnts r.2 r.1) i1 i2 i3 rfl rfl rfl rfl
      rfl rfl rfl rfl rfl rfl rfl rfl rfl rfl rfl hat hli
    exact ⟨j1, j2, j3, r.2, r.1, i4, rfl, i5, i6⟩

/-- `removeSatisfied(clauses)` at level 0 keeps the invariants. -/
theorem removeSatisfiedClauses_inv {s t : Solver} {q : Nat} (htr : TrailInv s)
    (hwt : WatchInv s q) (hax : AuxInv s) (hd0 : decisionLevel s = 0)
    (h : removeSatisfiedClauses s = some t) :
    TrailInv t ∧ WatchInv t q ∧ AuxInv t ∧
      ∃ u kept, DbStep s u ∧ t = setClauses u kept ∧ kept.Sublist s.clauses ∧
        (∀ c ∈ s.clauses, c ∉ kept → (u.ca.cl c).mark = 1) := by
  unfold removeSatisfiedClauses at h
  cases hr : removeSatisfiedLoop s s.clauses with
  | none => rw [hr] at h; cases h
  | some r =>
    rw [hr] at h
    simp only [Option.map_some', Option.some.injEq] at h
    subst h
    obtain ⟨i1, i2, i3, i4, i5, i6⟩ := removeSatisfiedLoop_spec s.clauses s r htr hwt hax hd0 hr
    have hat : ∀ c, Attached (setClauses r.2 r.1) c ↔ Attached r.2 c := by
      intro c
      unfold Attached Listed
      show (c ∈ r.1 ∨ c ∈ r.2.learnts) ∧ _ ↔ (c ∈ r.2.clauses ∨ c ∈ r.2.learnts) ∧ _
      constructor
      · rintro ⟨h1 | h1, h2⟩
        · exact ⟨Or.inl (by rw [i4.clauses]; exact i5.subset h1), h2⟩
        · exact ⟨Or.inr h1, h2⟩
      · rintro ⟨h1 | h1, h2⟩
        · refine ⟨Or.inl ?_, h2⟩
          by_contra hn
          rw [i4.clauses] at h1
          exact h2 (i6 c h1 hn)
        · exact ⟨Or.inr h1, h2⟩
    have hli : ∀ c, Listed (setClauses r.2 r.1) c → Listed r.2 c := by
      intro c
      unfold Listed
      rintro (h1 | h1)
      · exact Or.inl (by rw [i4.clauses]; exact i5.subset h1)
      · exact Or.inr h1
    obtain ⟨j1, j2, j3⟩ := parts_of_relist (t := setClauses r.2 r.1) i1 i2 i3 rfl rfl rfl rfl
      rfl rfl rfl rfl rfl rfl rfl rfl rfl rfl rfl hat hli
    exact ⟨j1, j2, j3, r.2, r.1, i4, rfl, i5, i6⟩

end Minisat


namespace Minisat
open lbool

/-! ## `garbageCollect` keeps the invariants -/

theorem gcKey_fields {s t : Solver} (h : gcKey t = gcKey s) :
    t.trail = s.trail ∧ t.trail_lim = s.trail_lim ∧ t.assigns = s.assigns ∧
    t.order_heap = s.order_heap ∧ t.free_vars = s.free_vars ∧
    t.released_vars = s.released_vars ∧ t.seen = s.seen ∧ t.assumptions = s.assumptions ∧
    t.decision = s.decision ∧ t.next_var = s.next_var ∧ t.qhead = s.qhead ∧ t.ok = s.ok ∧
    t.conflict = s.conflict := by
  refine ⟨?_, ?_, ?_, ?_, ?_, ?_, ?_, ?_, ?_, ?_, ?_, ?_, ?_⟩
  · have := congrArg Solver.trail h; exact this
  · have := congrArg Solver.trail_lim h; exact this
  · have := congrArg Solver.assigns h; exact this
  · have := congrArg Solver.order_heap h; exact this
  · have := congrArg Solver.free_vars h; exact this
  · have := congrArg Solver.released_vars h; exact this
  · have := congrArg Solver.seen h; exact this
  · have := congrArg Solver.assumptions h; exact this
  · have := congrArg Solver.decision h; exact this
  · have := congrArg Solver.next_var h; exact this
  · have := congrArg Solver.qhead h; exact this
  · have := congrArg Solver.ok h; exact this
  · have := congrArg Solver.conflict h; exact this

/-- The trail invariant reads the levels of the variable data only. -/
theorem TrailInv.of_level {s t : Solver} (htr : TrailInv s) (h1 : t.trail = s.trail)
    (h2 : t.trail_lim = s.trail_lim) (h3 : t.assigns = s.assigns)
    (hl : ∀ v, level t v = level s v) : TrailInv t := by
  have hv : ∀ l, value t l = value s l := value_congr h3
  have hd : decisionLevel t = decisionLevel s := by unfold decisionLevel; rw [h2]
  constructor
  · intro l hm; rw [h1] at hm; rw [hv]; exact htr.true_of_mem l hm
  · intro v hm; rw [h3] at hm; rw [h1]; exact htr.mem_of_assigned v hm
  · rw [h1]; exact htr.nodup
  · intro x hx; rw [h2] at hx; rw [h1]; exact htr.lim_le x hx
  · rw [h2]; exact htr.lim_sorted
  · intro j hj l hm
    rw [h2] at hj
    rw [h1, h2] at hm
    rw [hl]; exact htr.level_take j hj l hm
  · intro j hj l hm
    rw [h2] at hj
    rw [h1, h2] at hm
    rw [hl]; exact htr.level_drop j hj l hm
  · intro l hm; rw [h1] at hm; rw [hl, hd]; exact htr.level_le l hm

theorem GcSpec.attached_gc {s t : Solver} {φ : CRef → CRef} (h : GcSpec s t φ) (n : CRef) :
    Attached t n ↔ ∃ c, Attached s c ∧ φ c = n := by
  have hrem : ∀ c, (!isRemoved s c) = true ↔ (s.ca.cl c).mark ≠ 1 := by
    intro c; unfold isRemoved; simp
  constructor
  · rintro ⟨hl, hm⟩
    unfold Listed at hl
    rw [h.clauses, h.learnts] at hl
    rcases hl with hl | hl
    · obtain ⟨c, hc, rfl⟩ := List.mem_map.mp hl
      rw [List.mem_filter] at hc
      exact ⟨c, ⟨Or.inl hc.1, (hrem c).mp hc.2⟩, rfl⟩
    · obtain ⟨c, hc, rfl⟩ := List.mem_map.mp hl
      rw [List.mem_filter] at hc
      exact ⟨c, ⟨Or.inr hc.1, (hrem c).mp hc.2⟩, rfl⟩
  · rintro ⟨c, hc, rfl⟩
    refine ⟨?_, ?_⟩
    · unfold Listed
      rw [h.clauses, h.learnts]
      rcases hc.1 with hl | hl
      · exact Or.inl (List.mem_map.mpr ⟨c, List.mem_filter.mpr ⟨hl, (hrem c).mpr hc.2⟩, rfl⟩)
      · exact Or.inr (List.mem_map.mpr ⟨c, List.mem_filter.mpr ⟨hl, (hrem c).mpr hc.2⟩, rfl⟩)
    · rw [(h.live c hc).2]; exact hc.2

theorem GcSpec.mem_watches {s t : Solver} {φ : CRef → CRef} (h : GcSpec s t φ)
    (hwt : ∀ l, ∀ w ∈ s.watches l, (s.ca.cl w.cref).mark ≠ 1 → Listed s w.cref)
    (l : Lit) (w' : Watcher) :
    w' ∈ t.watches l ↔ ∃ w ∈ s.watches l, Attached s w.cref ∧ w' = ⟨φ w.cref, w.blocker⟩ := by
  rw [h.watches, List.mem_map]
  constructor
  · rintro ⟨w, hw, rfl⟩
    rw [List.mem_filter] at hw
    have hm : (s.ca.cl w.cref).mark ≠ 1 := by
      have := hw.2; unfold isRemoved at this; simpa using this
    exact ⟨w, hw.1, ⟨hwt l w hw.1 hm, hm⟩, rfl⟩
  · rintro ⟨w, hw, ha, rfl⟩
    refine ⟨w, List.mem_filter.mpr ⟨hw, ?_⟩, rfl⟩
    unfold isRemoved
    simpa using ha.2

/-- The state after the garbage collection has the invariants. -/
theorem GcSpec.inv_gc {s t : Solver} {φ : CRef → CRef} {q : Nat} (h : GcSpec s t φ)
    (htr : TrailInv s) (hwt : WatchInv s q) (hax : AuxInv s) :
    TrailInv t ∧ WatchInv t q ∧ AuxInv t := by
  obtain ⟨g1, g2, g3, g4, g5, g6, g7, g8, g9, g10, g11, g12, -⟩ := gcKey_fields h.key
  have hv : ∀ l, value t l = value s l := value_congr g3
  have hl : ∀ x, level t x = level s x := h.levels
  have hnv : nVars t = nVars s := g10
  have hlisted : ∀ l, ∀ w ∈ s.watches l, (s.ca.cl w.cref).mark ≠ 1 → Listed s w.cref :=
    fun l w hw hm => (hwt.watcher l w hw hm).1
  have hcl : ∀ c, Attached s c → t.ca.cl (φ c) = s.ca.cl c := fun c hc => (h.live c hc).2
  refine ⟨htr.of_level g1 g2 g3 hl, ?_, ?_⟩
  · constructor
    · rw [g1]; exact hwt.q_le
    · rw [g2]; exact hwt.lim_le_q
    · intro n hn
      obtain ⟨c, hc, rfl⟩ := (h.attached_gc n).mp hn
      rw [hcl c hc]; exact hwt.size c hc
    · intro n hn
      obtain ⟨c, hc, rfl⟩ := (h.attached_gc n).mp hn
      rw [hcl c hc]; exact hwt.nodup c hc
    · intro n hn l hw
      obtain ⟨c, hc, rfl⟩ := (h.attached_gc n).mp hn
      rw [hcl c hc] at hw
      obtain ⟨w, w1, w2⟩ := hwt.watched c hc l hw
      refine ⟨⟨φ w.cref, w.blocker⟩, ?_, by rw [w2]⟩
      exact (h.mem_watches hlisted _ _).mpr ⟨w, w1, by rw [w2]; exact hc, rfl⟩
    · intro l w' hw' hm
      obtain ⟨w, w1, w2, rfl⟩ := (h.mem_watches hlisted l w').mp hw'
      obtain ⟨a, b, c⟩ := hwt.watcher l w w1 w2.2
      refine ⟨((h.attached_gc _).mpr ⟨w.cref, w2, rfl⟩).1, ?_, ?_⟩
      · show (t.ca.cl (φ w.cref)).watching (neg l)
        rw [hcl _ w2]; exact b
      · show w.blocker ∈ (t.ca.cl (φ w.cref)).lits ∨ _
        rw [hcl _ w2, hv, hl]; exact c
    · intro l w' hw' hm
      obtain ⟨w, w1, w2, rfl⟩ := (h.mem_watches hlisted l w').mp hw'
      have : (t.ca.cl (φ w.cref)).mark = 1 := hm
      rw [hcl _ w2] at this
      exact absurd this w2.2
    · intro l
      rw [h.watches, List.map_map]
      have hsub : ((s.watches l).filter (fun w => !isRemoved s w.cref)).Nodup :=
        (List.Nodup.of_map _ (hwt.crefs_nodup l)).filter _
      refine List.Nodup.map_on ?_ hsub
      intro x hx y hy hxy
      rw [List.mem_filter] at hx hy
      have hmx : (s.ca.cl x.cref).mark ≠ 1 := by
        have := hx.2; unfold isRemoved at this; simpa using this
      have hmy : (s.ca.cl y.cref).mark ≠ 1 := by
        have := hy.2; unfold isRemoved at this; simpa using this
      have hax' : Attached s x.cref := ⟨hlisted l x hx.1 hmx, hmx⟩
      have hay' : Attached s y.cref := ⟨hlisted l y hy.1 hmy, hmy⟩
      have hcr : x.cref = y.cref := h.inj _ _ hax' hay' hxy
      exact List.inj_on_of_nodup_map (hwt.crefs_nodup l) hx.1 hy.1 hcr
    · intro n hn
      unfold Listed at hn
      rw [h.clauses, h.learnts] at hn
      have hrem : ∀ c, (!isRemoved s c) = true → (s.ca.cl c).mark ≠ 1 := by
        intro c hc; unfold isRemoved at hc; simpa using hc
      rcases hn with hn | hn
      · obtain ⟨c, hc, rfl⟩ := List.mem_map.mp hn
        rw [List.mem_filter] at hc
        exact (h.live c ⟨Or.inl hc.1, hrem c hc.2⟩).1
      · obtain ⟨c, hc, rfl⟩ := List.mem_map.mp hn
        rw [List.mem_filter] at hc
        exact (h.live c ⟨Or.inr hc.1, hrem c hc.2⟩).1
    · intro l w' hw'
      obtain ⟨w, w1, w2, rfl⟩ := (h.mem_watches hlisted l w').mp hw'
      exact (h.live _ w2).1
    · intro n hn l hw hf hm
      obtain ⟨c, hc, rfl⟩ := (h.attached_gc n).mp hn
      rw [hcl c hc] at hw
      rw [hv] at hf
      rw [g1] at hm
      obtain ⟨x, x1, x2, x3⟩ := hwt.propagated c hc l hw hf hm
      exact ⟨x, by rw [hcl c hc]; exact x1, by rw [hv]; exact x2, by rw [hl, hl]; exact x3⟩
  · refine ⟨?_, ?_, ?_, ?_⟩
    · intro pre l post n hts hre
      rw [g1] at hts
      have hlm : l ∈ s.trail := by rw [hts]; simp
      rw [h.reasons l hlm] at hre
      cases hr : reason s (var l) with
      | none => rw [hr] at hre; cases hre
      | some c =>
        rw [hr] at hre
        have e : φ c = n := by simpa using hre
        obtain ⟨a, b, c'⟩ := hax.rs pre l post c hts hr
        subst e
        exact ⟨(h.attached_gc _).mpr ⟨c, a, rfl⟩, by rw [hcl c a]; exact b,
          by rw [hcl c a]; exact c'⟩
    · constructor
      · intro l hm; rw [g1] at hm; rw [hnv]; exact hax.vr.trail_lt l hm
      · intro n hn l hm
        obtain ⟨c, hc, rfl⟩ := (h.attached_gc n).mp hn
        rw [hcl c hc] at hm
        rw [hnv]; exact hax.vr.lits_lt c hc l hm
      · intro l hm
        rw [hnv] at hm
        rw [h.watches, hax.vr.watches_nil l hm]
        rfl
      · intro v hm; rw [g4] at hm; rw [hnv]; exact hax.vr.heap_lt v hm
      · rw [g5]; exact hax.vr.free_nil
      · rw [g6]; exact hax.vr.released_nil
      · intro l hm; rw [h.dirty l] at hm; cases hm
      · intro n
        rcases h.arena n with e | ⟨c, -, -, e⟩
        · rw [e]; rfl
        · rw [e]; exact hax.vr.not_reloced c
      · intro v; rw [g7]; exact hax.vr.seen0 v
    · intro l hm hre j hj hjl
      rw [g1] at hm
      rw [h.reasons l hm] at hre
      rw [hl] at hj
      rw [g8] at hjl ⊢
      have hre' : reason s (var l) = none := by
        cases hr : reason s (var l) with
        | none => rfl
        | some c => rw [hr] at hre; cases hre
      exact hax.asm l hm hre' j hj hjl
    · intro v hv' hdec hun
      rw [hnv] at hv'
      rw [g9] at hdec
      rw [g3] at hun
      rw [g4]
      exact hax.hp v hv' hdec hun

/-- `checkGarbage` returns and keeps the invariants. -/
theorem checkGarbage_inv {s : Solver} {q : Nat} (htr : TrailInv s) (hwt : WatchInv s q)
    (hax : AuxInv s) :
    ∃ t, checkGarbage s = some t ∧ TrailInv t ∧ WatchInv t q ∧ AuxInv t ∧
      (t = s ∨ ∃ φ, GcSpec s t φ) := by
  unfold checkGarbage
  split_ifs
  · obtain ⟨t, φ, hg, hs⟩ := garbageCollect_spec htr hwt hax
    obtain ⟨a, b, c⟩ := hs.inv_gc htr hwt hax
    exact ⟨t, hg, a, b, c, Or.inr ⟨φ, hs⟩⟩
  · exact ⟨s, rfl, htr, hwt, hax, Or.inl rfl⟩

/-! ## Steps of the search -/

theorem DbStep.step_db {s t : Solver} (h : DbStep s t) (_htr : TrailInv s) : Step s t :=
  ⟨h.assumptions, h.conflict, h.next_var, h.decision⟩

theorem GcSpec.step_gc {s t : Solver} {φ : CRef → CRef} (h : GcSpec s t φ) : Step s t := by
  obtain ⟨-, -, -, -, -, -, -, g8, g9, g10, -, -, g13⟩ := gcKey_fields h.key
  exact ⟨g8, g13, g10, g9⟩

/-- The loop of `removeSatisfied` over `learnts` followed by the shrinking of the vector. -/
theorem stepLearnts {s u : Solver} {kept : List CRef} (htr : TrailInv s) (h : DbStep s u)
    (_hk : kept.Sublist s.learnts) (_hr : ∀ c ∈ s.learnts, c ∉ kept → (u.ca.cl c).mark = 1) :
    Step s (setLearnts u kept) :=
  (h.step_db htr).trans_st (stepHeap rfl rfl rfl rfl rfl rfl rfl rfl)

/-- The loop of `removeSatisfied` over `clauses` followed by the shrinking of the vector. -/
theorem stepClauses {s u : Solver} {kept : List CRef} (htr : TrailInv s) (h : DbStep s u)
    (_hk : kept.Sublist s.clauses) (_hr : ∀ c ∈ s.clauses, c ∉ kept → (u.ca.cl c).mark = 1) :
    Step s (setClauses u kept) :=
  (h.step_db htr).trans_st ⟨rfl, rfl, rfl, rfl⟩

end Minisat


namespace Minisat
open lbool

/-! ## `reduceDB` keeps the invariants -/

/-- The loop of `reduceDB` over learnt clauses. -/
theorem reduceDBLoop_spec {q n : Nat} {extra_lim : ℚ} :
    ∀ (crs : List CRef) (s : Solver) (i : Nat) (r : List CRef × Solver),
      TrailInv s → WatchInv s q → AuxInv s → (∀ c ∈ crs, c ∈ s.learnts) →
      reduceDBLoop n extra_lim s i crs = some r →
      TrailInv r.2 ∧ WatchInv r.2 q ∧ AuxInv r.2 ∧ DbStep s r.2 ∧ r.1.Sublist crs ∧
        (∀ c ∈ crs, c ∉ r.1 → (r.2.ca.cl c).mark = 1) := by
  intro crs
  induction crs with
  | nil =>
    intro s i r htr hwt hax _ h
    unfold reduceDBLoop at h
    cases h
    exact ⟨htr, hwt, hax, DbStep.refl_db s, List.Sublist.refl _, fun c hc => by cases hc⟩
  | cons cr crs ih =>
    intro s i r htr hwt hax hsub h
    unfold reduceDBLoop at h
    by_cases hs : (s.ca.cl cr).size > 2 ∧ locked s cr = false ∧
        (i < n / 2 ∨ (s.ca.cl cr).activity < extra_lim)
    · rw [if_pos hs] at h
      cases hr : removeClause s cr with
      | none => rw [hr] at h; cases h
      | some s1 =>
        rw [hr] at h
        simp only at h
        have hsp := removeClause_spec hr
        obtain ⟨t1, t2, t3⟩ := hsp.inv_rem htr hwt hax
          (fun hl => by rw [hs.2.1] at hl; cases hl)
        have hsub1 : ∀ c ∈ crs, c ∈ s1.learnts := by
          intro c hc; rw [hsp.learnts]; exact hsub c (List.mem_cons_of_mem _ hc)
        obtain ⟨i1, i2, i3, i4, i5, i6⟩ := ih s1 (i + 1) r t1 t2 t3 hsub1 h
        refine ⟨i1, i2, i3, (hsp.dbStep (Or.inr (hsub cr (List.mem_cons_self _ _)))).trans_db i4,
          List.Sublist.cons _ i5, ?_⟩
        intro c hc hn
        rcases List.mem_cons.mp hc with rfl | hc
        · exact i4.mark_mono _ hsp.mark_self
        · exact i6 c hc hn
    · rw [if_neg hs] at h
      cases hr : reduceDBLoop n extra_lim s (i + 1) crs with
      | none => rw [hr] at h; cases h
      | some r1 =>
        rw [hr] at h
        simp only [Option.map_some', Option.some.injEq] at h
        subst h
        obtain ⟨i1, i2, i3, i4, i5, i6⟩ := ih s (i + 1) r1 htr hwt hax
          (fun c hc => hsub c (List.mem_cons_of_mem _ hc)) hr
        refine ⟨i1, i2, i3, i4, List.Sublist.cons₂ _ i5, ?_⟩
        intro c hc hn
        rcases List.mem_cons.mp hc with rfl | hc
        · exact absurd (List.mem_cons_self _ _) hn
        · exact i6 c hc (fun h => hn (List.mem_cons_of_mem _ h))

theorem mem_sortLearnts (s : Solver) (c : CRef) : c ∈ sortLearnts s ↔ c ∈ s.learnts := by
  unfold sortLearnts
  exact (List.perm_insertionSort _ _).mem_iff

/-- `reduceDB` keeps the invariants.  The state after the loop is `setLearnts u kept`; the
garbage collection may follow. -/
theorem reduceDB_inv {s t : Solver} {q : Nat} (htr : TrailInv s) (hwt : WatchInv s q)
    (hax : AuxInv s) (h : reduceDB s = some t) :
    TrailInv t ∧ WatchInv t q ∧ AuxInv t ∧
      ∃ u kept, DbStep (setLearnts s (sortLearnts s)) u ∧
        (∀ c ∈ kept, c ∈ s.learnts) ∧
        (t = setLearnts u kept ∨ ∃ φ, GcSpec (setLearnts u kept) t φ) := by
  unfold reduceDB at h
  have hat0 : ∀ c, Attached (setLearnts s (sortLearnts s)) c ↔ Attached s c := by
    intro c
    unfold Attached Listed
    show (c ∈ s.clauses ∨ c ∈ sortLearnts s) ∧ _ ↔ _
    rw [mem_sortLearnts]
    exact Iff.rfl
  have hli0 : ∀ c, Listed (setLearnts s (sortLearnts s)) c → Listed s c := by
    intro c
    unfold Listed
    show (c ∈ s.clauses ∨ c ∈ sortLearnts s) → _
    rw [mem_sortLearnts]
    exact fun h => h
  obtain ⟨a1, a2, a3⟩ := parts_of_relist (t := setLearnts s (sortLearnts s)) htr hwt hax rfl
    rfl rfl rfl rfl rfl rfl rfl rfl rfl rfl rfl rfl rfl rfl hat0 hli0
  cases hr : reduceDBLoop s.learnts.length (s.cla_inc / (s.learnts.length : ℚ))
      (setLearnts s (sortLearnts s)) 0 (sortLearnts s) with
  | none => rw [hr] at h; cases h
  | some r =>
    rw [hr] at h
    simp only at h
    obtain ⟨i1, i2, i3, i4, i5, i6⟩ :=
      reduceDBLoop_spec (sortLearnts s) _ 0 r a1 a2 a3 (fun c hc => hc) hr
    have hlr : r.2.learnts = sortLearnts s := i4.learnts
    have hat : ∀ c, Attached (setLearnts r.2 r.1) c ↔ Attached r.2 c := by
      intro c
      unfold Attached Listed
      show (c ∈ r.2.clauses ∨ c ∈ r.1) ∧ _ ↔ (c ∈ r.2.clauses ∨ c ∈ r.2.learnts) ∧ _
      constructor
      · rintro ⟨h1 | h1, h2⟩
        · exact ⟨Or.inl h1, h2⟩
        · exact ⟨Or.inr (by rw [hlr]; exact i5.subset h1), h2⟩
      · rintro ⟨h1 | h1, h2⟩
        · exact ⟨Or.inl h1, h2⟩
        · refine ⟨Or.inr ?_, h2⟩
          by_contra hn
          rw [hlr] at h1
          exact h2 (i6 c h1 hn)
    have hli : ∀ c, Listed (setLearnts r.2 r.1) c → Listed r.2 c := by
      intro c
      unfold Listed
      rintro (h1 | h1)
      · exact Or.inl h1
      · exact Or.inr (by rw [hlr]; exact i5.subset h1)
    obtain ⟨j1, j2, j3⟩ := parts_of_relist (t := setLearnts r.2 r.1) i1 i2 i3 rfl rfl rfl rfl
      rfl rfl rfl rfl rfl rfl rfl rfl rfl rfl rfl hat hli
    obtain ⟨t', ht', k1, k2, k3, k4⟩ := checkGarbage_inv j1 j2 j3
    rw [ht'] at h
    cases h
    refine ⟨k1, k2, k3, r.2, r.1, i4, ?_, k4⟩
    intro c hc
    exact (mem_sortLearnts s c).mp (i5.subset hc)

end Minisat


namespace Minisat
open lbool

/-! ## `simplify` keeps the invariants -/

/-- With no released variable and a clear `seen`, the removal of the released variables
from the trail changes nothing. -/
theorem dropReleased_eq {s t : Solver} (hax : AuxInv s) (hq : s.qhead = s.trail.length)
    (h : dropReleased s = some t) : t = s := by
  unfold dropReleased at h
  have hrel := hax.vr.released_nil
  have hcond : ¬ (s.released_vars.any (fun v => decide (s.seen v ≠ 0)) = true ∨
      ¬ s.released_vars.Nodup) := by
    rw [hrel]; simp
  rw [if_neg hcond] at h
  simp only [Option.some.injEq] at h
  have e1 : s.trail.filter (fun l => decide (s.seen (var l) = 0 ∧ var l ∉ s.released_vars)) =
      s.trail := by
    rw [List.filter_eq_self]
    intro l _
    rw [hrel, hax.vr.seen0]
    simp
  rw [e1] at h
  have e2 : s.free_vars ++ s.released_vars = s.free_vars := by rw [hrel, List.append_nil]
  rw [e2, ← hq] at h
  rw [← h]
  show _ = ({ s with released_vars := s.released_vars } : Solver)
  rw [hrel]

/-- A new order heap that holds the unassigned decision variables keeps the invariants. -/
theorem parts_of_heap {s t : Solver} {q : Nat} (htr : TrailInv s) (hwt : WatchInv s q)
    (hax : AuxInv s)
    (h1 : t.trail = s.trail) (h2 : t.trail_lim = s.trail_lim) (h3 : t.assigns = s.assigns)
    (h4 : t.vardata = s.vardata) (h5 : t.watches = s.watches) (h6 : t.dirty = s.dirty)
    (h6' : t.dirties = s.dirties) (h7 : t.clauses = s.clauses) (h8 : t.learnts = s.learnts)
    (h9 : t.ca = s.ca) (k2 : t.free_vars = s.free_vars)
    (k3 : t.released_vars = s.released_vars) (k4 : t.seen = s.seen)
    (k5 : t.assumptions = s.assumptions) (k6 : t.decision = s.decision)
    (k7 : t.next_var = s.next_var)
    (hlt : ∀ v ∈ t.order_heap, v < nVars s)
    (hhp : ∀ v, v < nVars s → s.decision v = true → s.assigns v = l_Undef →
      v ∈ t.order_heap) :
    TrailInv t ∧ WatchInv t q ∧ AuxInv t := by
  have hat : ∀ cr, Attached t cr ↔ Attached s cr :=
    fun cr => Attached.congr_att h7 h8 (by rw [h9])
  have hnv : nVars t = nVars s := k7
  have hl : ∀ x, level t x = level s x := level_congr h4
  refine ⟨htr.congr_tr h1 h2 h3 h4, hwt.of_eq_wt h1 h2 h3 h4 h5 h6 h7 h8 h9, ?_, ?_, ?_, ?_⟩
  · intro pre l post c hts hre
    rw [h1] at hts
    rw [reason_congr h4] at hre
    obtain ⟨a, b, c'⟩ := hax.rs pre l post c hts hre
    exact ⟨(hat c).mpr a, by rw [h9]; exact b, by rw [h9]; exact c'⟩
  · constructor
    · intro l hm; rw [h1] at hm; rw [hnv]; exact hax.vr.trail_lt l hm
    · intro c hc l hm
      rw [h9] at hm
      rw [hnv]; exact hax.vr.lits_lt c ((hat c).mp hc) l hm
    · intro l hm; rw [hnv] at hm; rw [h5]; exact hax.vr.watches_nil l hm
    · intro v hm; rw [hnv]; exact hlt v hm
    · rw [k2]; exact hax.vr.free_nil
    · rw [k3]; exact hax.vr.released_nil
    · intro l hm; rw [h6] at hm; rw [h6']; exact hax.vr.dirties l hm
    · intro c; rw [h9]; exact hax.vr.not_reloced c
    · intro v; rw [k4]; exact hax.vr.seen0 v
  · intro l hm hre j hj hjl
    rw [h1] at hm
    rw [reason_congr h4] at hre
    rw [hl] at hj
    rw [k5] at hjl ⊢
    exact hax.asm l hm hre j hj hjl
  · intro v hv' hdec hun
    rw [hnv] at hv'
    rw [k6] at hdec
    rw [h3] at hun
    exact hhp v hv' hdec hun

theorem rebuild_inv {s : Solver} {q : Nat} (htr : TrailInv s) (hwt : WatchInv s q)
    (hax : AuxInv s) :
    TrailInv (setSimpDB (rebuildOrderHeap s)) ∧ WatchInv (setSimpDB (rebuildOrderHeap s)) q ∧
      AuxInv (setSimpDB (rebuildOrderHeap s)) := by
  refine parts_of_heap htr hwt hax rfl rfl rfl rfl rfl rfl rfl rfl rfl rfl rfl rfl rfl rfl rfl
    rfl ?_ ?_
  · intro v hv
    have hv' : v ∈ (List.range (nVars s)).filter
        (fun v => s.decision v && decide (valueVar s v = l_Undef)) := hv
    rw [List.mem_filter, List.mem_range] at hv'
    exact hv'.1
  · intro v hv hdec hun
    show v ∈ (List.range (nVars s)).filter
        (fun v => s.decision v && decide (valueVar s v = l_Undef))
    rw [List.mem_filter, List.mem_range]
    refine ⟨hv, ?_⟩
    unfold valueVar
    rw [hdec, hun]
    rfl

/-- The removal of the satisfied clauses in `simplify`, at level 0. -/
theorem simplifyDB_inv {s t : Solver} {q : Nat} (htr : TrailInv s) (hwt : WatchInv s q)
    (hax : AuxInv s) (hd0 : decisionLevel s = 0) (hq : s.qhead = s.trail.length)
    (h : simplifyDB s = some t) :
    TrailInv t ∧ WatchInv t q ∧ AuxInv t ∧ t.trail = s.trail ∧ t.trail_lim = s.trail_lim ∧
      t.qhead = s.qhead ∧ t.assumptions = s.assumptions ∧ t.ok = s.ok ∧ Step s t := by
  unfold simplifyDB at h
  cases h1 : removeSatisfiedLearnts s with
  | none => rw [h1] at h; cases h
  | some s2 =>
    rw [h1] at h
    simp only at h
    obtain ⟨a1, a2, a3, u, kept, a4, rfl, a5, a6⟩ :=
      removeSatisfiedLearnts_inv htr hwt hax hd0 h1
    have st1 : Step s (setLearnts u kept) := stepLearnts htr a4 a5 a6
    have f1 : (setLearnts u kept).trail = s.trail := a4.trail
    have f2 : (setLearnts u kept).trail_lim = s.trail_lim := a4.trail_lim
    have f3 : (setLearnts u kept).qhead = s.qhead := a4.qhead
    have f4 : (setLearnts u kept).assumptions = s.assumptions := a4.assumptions
    have f5 : (setLearnts u kept).ok = s.ok := a4.ok
    by_cases hrs : (setLearnts u kept).remove_satisfied = true
    · rw [if_pos hrs] at h
      cases h2 : removeSatisfiedClauses (setLearnts u kept) with
      | none => rw [h2] at h; cases h
      | some s3 =>
        rw [h2] at h
        simp only at h
        have hd2 : decisionLevel (setLearnts u kept) = 0 := by
          unfold decisionLevel at hd0 ⊢; rw [f2]; exact hd0
        obtain ⟨b1, b2, b3, u', kept', b4, rfl, b5, b6⟩ :=
          removeSatisfiedClauses_inv a1 a2 a3 hd2 h2
        have st2 : Step (setLearnts u kept) (setClauses u' kept') := stepClauses a1 b4 b5 b6
        have g1 : (setClauses u' kept').trail = s.trail := b4.trail.trans f1
        have g2 : (setClauses u' kept').trail_lim = s.trail_lim := b4.trail_lim.trans f2
        have g3 : (setClauses u' kept').qhead = s.qhead := b4.qhead.trans f3
        have g4 : (setClauses u' kept').assumptions = s.assumptions := b4.assumptions.trans f4
        have g5 : (setClauses u' kept').ok = s.ok := b4.ok.trans f5
        have := dropReleased_eq b3 (by rw [g3, g1]; exact hq) h
        subst this
        exact ⟨b1, b2, b3, g1, g2, g3, g4, g5, st1.trans_st st2⟩
    · rw [if_neg hrs] at h
      cases h
      exact ⟨a1, a2, a3, f1, f2, f3, f4, f5, st1⟩

/-- `simplify` keeps the invariants when it returns true; the trail, the decision level 0 and
the assumptions stay, and the head is at the end of the trail. -/
theorem simplify_inv {fuel : Nat} {s t : Solver} (h : Inv s)
    (hs : simplify fuel s = some (true, t)) :
    Inv t ∧ t.qhead = t.trail.length ∧ decisionLevel t = 0 ∧
      t.assumptions = s.assumptions ∧ t.ok = true ∧ Step s t := by
  unfold simplify at hs
  by_cases hd : decisionLevel s ≠ 0
  · rw [if_pos hd] at hs; cases hs
  rw [if_neg hd] at hs
  have hd0 : decisionLevel s = 0 := by simpa using hd
  by_cases hok : s.ok = false
  · rw [if_pos hok] at hs; cases hs
  rw [if_neg hok] at hs
  have hok' : s.ok = true := by simpa using hok
  cases hp : propagate fuel s with
  | none => rw [hp] at hs; cases hs
  | some r =>
    obtain ⟨c, s1⟩ := r
    rw [hp] at hs
    cases c with
    | some cr => simp only at hs; cases hs
    | none =>
      simp only at hs
      have hi1 : Inv s1 := h.propagate_none hp rfl
      have hq1 : s1.qhead = s1.trail.length := (propagate_inv h.tr h.wt hp).2.1
      have hk := propKey_propagate hp
      have htl : s1.trail_lim = s.trail_lim := propKey_trail_lim hk
      have hd1 : decisionLevel s1 = 0 := by
        unfold decisionLevel at hd0 ⊢; rw [htl]; exact hd0
      have has1 : s1.assumptions = s.assumptions := (propKey_fields hk).2.2.2.2.1
      have hok1 : s1.ok = true := by rw [propKey_ok hk]; exact hok'
      have st1 : Step s s1 := propagate_step h hp
      by_cases hearly : (nAssigns s1 : Int) = s1.simpDB_assigns ∨ s1.simpDB_props > 0
      · rw [if_pos hearly] at hs
        cases hs
        exact ⟨hi1, hq1, hd1, has1, hok1, st1⟩
      · rw [if_neg hearly] at hs
        cases h4 : simplifyDB s1 with
        | none => rw [h4] at hs; cases hs
        | some s4 =>
          rw [h4] at hs
          simp only at hs
          obtain ⟨a1, a2, a3, a4, a5, a6, a7, a8, st2⟩ :=
            simplifyDB_inv hi1.tr hi1.wt hi1.ax hd1 hq1 h4
          obtain ⟨s5, h5, b1, b2, b3, b4⟩ := checkGarbage_inv a1 a2 a3
          rw [h5] at hs
          simp only [Option.some.injEq, Prod.mk.injEq, true_and] at hs
          subst hs
          have hs5 : s5.trail = s4.trail ∧ s5.trail_lim = s4.trail_lim ∧
              s5.qhead = s4.qhead ∧ s5.assumptions = s4.assumptions ∧ s5.ok = s4.ok ∧
              Step s4 s5 := by
            rcases b4 with rfl | ⟨φ, hg⟩
            · exact ⟨rfl, rfl, rfl, rfl, rfl, Step.refl_st _⟩
            · obtain ⟨g1, g2, -, -, -, -, -, g8, -, -, g11, g12, -⟩ := gcKey_fields hg.key
              exact ⟨g1, g2, g11, g8, g12, hg.step_gc⟩
          have st4 : Step s5 (setSimpDB (rebuildOrderHeap s5)) := stepHeap rfl rfl rfl rfl rfl rfl rfl rfl
          obtain ⟨c1, c2, c3⟩ := rebuild_inv b1 b2 b3
          refine ⟨⟨c1, ?_, c3⟩, ?_, ?_, ?_, ?_, (st1.trans_st st2).trans_st (hs5.2.2.2.2.2.trans_st st4)⟩
          · have : (setSimpDB (rebuildOrderHeap s5)).qhead = s1.qhead :=
              hs5.2.2.1.trans a6
            rw [this]; exact c2
          · show s5.qhead = s5.trail.length
            rw [hs5.2.2.1, hs5.1, a6, a4]; exact hq1
          · show s5.trail_lim.length = 0
            rw [hs5.2.1, a5]; exact hd1
          · show s5.assumptions = _
            rw [hs5.2.2.2.1, a7]; exact has1
          · show s5.ok = _
            rw [hs5.2.2.2.2.1, a8]; exact hok1

/-- `simplify` keeps the assumptions and `conflict` also when it returns false. -/
theorem simplify_false {fuel : Nat} {s t : Solver} (h : Inv s)
    (hs : simplify fuel s = some (false, t)) : Step s t := by
  unfold simplify at hs
  by_cases hd : decisionLevel s ≠ 0
  · rw [if_pos hd] at hs; cases hs
  rw [if_neg hd] at hs
  by_cases hok : s.ok = false
  · rw [if_pos hok] at hs
    cases hs
    exact stepHeap rfl rfl rfl rfl rfl rfl rfl rfl
  rw [if_neg hok] at hs
  cases hp : propagate fuel s with
  | none => rw [hp] at hs; cases hs
  | some r =>
    obtain ⟨c, s1⟩ := r
    rw [hp] at hs
    have st1 : Step s s1 := propagate_step h hp
    cases c with
    | some cr =>
      simp only [Option.some.injEq, Prod.mk.injEq, true_and] at hs
      subst hs
      exact st1.trans_st (stepHeap rfl rfl rfl rfl rfl rfl rfl rfl)
    | none =>
      simp only at hs
      split_ifs at hs
      · cases hs
      · cases h4 : simplifyDB s1 with
        | none => rw [h4] at hs; cases hs
        | some s4 =>
          rw [h4] at hs
          simp only at hs
          cases h5 : checkGarbage s4 with
          | none => rw [h5] at hs; cases hs
          | some s5 => rw [h5] at hs; cases hs

end Minisat


namespace Minisat
open lbool

/-! ## `pickBranchLit` -/

theorem heapBest_mem (act : Var → ℚ) : ∀ (H : List Var) (v : Var), heapBest act H = some v → v ∈ H
  | [], v, h => by unfold heapBest at h; cases h
  | x :: xs, v, h => by
    unfold heapBest at h
    cases hb : heapBest act xs with
    | none =>
      rw [hb] at h
      simp only [Option.some.injEq] at h
      rw [← h]; exact List.mem_cons_self _ _
    | some y =>
      rw [hb] at h
      simp only at h
      split_ifs at h
      · simp only [Option.some.injEq] at h
        rw [← h]; exact List.mem_cons_of_mem _ (heapBest_mem act xs y hb)
      · simp only [Option.some.injEq] at h
        rw [← h]; exact List.mem_cons_self _ _

theorem heapBest_none (act : Var → ℚ) : ∀ (H : List Var), heapBest act H = none → H = []
  | [], _ => rfl
  | x :: xs, h => by
    unfold heapBest at h
    cases hb : heapBest act xs with
    | none => rw [hb] at h; cases h
    | some y =>
      rw [hb] at h
      simp only at h
      split_ifs at h

theorem pickKey_fields {s t : Solver} (h : pickKey t = pickKey s) :
    t.trail = s.trail ∧ t.trail_lim = s.trail_lim ∧ t.assigns = s.assigns ∧
    t.vardata = s.vardata ∧ t.watches = s.watches ∧ t.dirty = s.dirty ∧
    t.dirties = s.dirties ∧ t.clauses = s.clauses ∧ t.learnts = s.learnts ∧ t.ca = s.ca ∧
    t.free_vars = s.free_vars ∧ t.released_vars = s.released_vars ∧ t.seen = s.seen ∧
    t.assumptions = s.assumptions ∧ t.decision = s.decision ∧ t.next_var = s.next_var ∧
    t.qhead = s.qhead ∧ t.ok = s.ok ∧ t.conflict = s.conflict := by
  refine ⟨?_, ?_, ?_, ?_, ?_, ?_, ?_, ?_, ?_, ?_, ?_, ?_, ?_, ?_, ?_, ?_, ?_, ?_, ?_⟩
  · have := congrArg Solver.trail h; exact this
  · have := congrArg Solver.trail_lim h; exact this
  · have := congrArg Solver.assigns h; exact this
  · have := congrArg Solver.vardata h; exact this
  · have := congrArg Solver.watches h; exact this
  · have := congrArg Solver.dirty h; exact this
  · have := congrArg Solver.dirties h; exact this
  · have := congrArg Solver.clauses h; exact this
  · have := congrArg Solver.learnts h; exact this
  · have := congrArg Solver.ca h; exact this
  · have := congrArg Solver.free_vars h; exact this
  · have := congrArg Solver.released_vars h; exact this
  · have := congrArg Solver.seen h; exact this
  · have := congrArg Solver.assumptions h; exact this
  · have := congrArg Solver.decision h; exact this
  · have := congrArg Solver.next_var h; exact this
  · have := congrArg Solver.qhead h; exact this
  · have := congrArg Solver.ok h; exact this
  · have := congrArg Solver.conflict h; exact this

theorem pickLoop_succ (n : Nat) (s : Solver) (next : Option Var) :
    pickLoop (n + 1) s next =
      if (match next with
          | none => true
          | some v => decide (valueVar s v ≠ l_Undef) || !s.decision v) = true then
        match heapBest s.activity s.order_heap with
        | none => (none, s)
        | some v => pickLoop n (setOrderHeap s (s.order_heap.erase v)) (some v)
      else (next, s) := rfl

/-- The loop of `pickBranchLit` accepts an unassigned decision variable at once. -/
theorem pickLoop_accept (n : Nat) (s : Solver) (v : Var) (hu : s.assigns v = l_Undef)
    (hd : s.decision v = true) : pickLoop (n + 1) s (some v) = (some v, s) := by
  rw [pickLoop_succ]
  have : ¬ ((match (some v : Option Var) with
      | none => true
      | some w => decide (valueVar s w ≠ l_Undef) || !s.decision w) = true) := by
    simp only
    unfold valueVar
    rw [hu, hd]
    simp
  rw [if_neg this]

/-- The loop of `pickBranchLit`: the variables taken from the heap and passed over are
assigned or no decision variables; the variable returned is an unassigned decision variable;
and when no variable is returned the heap held no unassigned decision variable. -/
theorem pickLoop_spec : ∀ (fuel : Nat) (s : Solver) (next : Option Var),
    s.order_heap.length < fuel →
    pickKey (pickLoop fuel s next).2 = pickKey s ∧
    (∀ v ∈ (pickLoop fuel s next).2.order_heap, v ∈ s.order_heap) ∧
    (∀ v ∈ s.order_heap, v ∈ (pickLoop fuel s next).2.order_heap ∨
      (s.assigns v ≠ l_Undef ∨ s.decision v = false) ∨ (pickLoop fuel s next).1 = some v) ∧
    (∀ v, (pickLoop fuel s next).1 = some v →
      s.assigns v = l_Undef ∧ s.decision v = true ∧ (v ∈ s.order_heap ∨ next = some v)) ∧
    ((pickLoop fuel s next).1 = none →
      ∀ v ∈ s.order_heap, s.assigns v ≠ l_Undef ∨ s.decision v = false) := by
  intro fuel
  induction fuel with
  | zero => intro s next h; omega
  | succ n ih =>
    intro s next hf
    generalize hres : pickLoop (n + 1) s next = res
    rw [pickLoop_succ] at hres
    split_ifs at hres with hc
    · cases hb : heapBest s.activity s.order_heap with
      | none =>
        rw [hb] at hres
        simp only at hres
        subst hres
        have hnil := heapBest_none _ _ hb
        refine ⟨rfl, fun v hv => hv, fun v hv => Or.inl hv, ?_, ?_⟩
        · intro v hv; simp at hv
        · intro _ v hv
          rw [hnil] at hv
          cases hv
      | some x =>
        rw [hb] at hres
        simp only at hres
        subst hres
        have hx := heapBest_mem _ _ _ hb
        have hpos : 0 < s.order_heap.length := List.length_pos_of_mem hx
        have hlen : (setOrderHeap s (s.order_heap.erase x)).order_heap.length < n := by
          show (s.order_heap.erase x).length < n
          rw [List.length_erase_of_mem hx]
          omega
        obtain ⟨m, rfl⟩ : ∃ m, n = m + 1 := ⟨n - 1, by omega⟩
        obtain ⟨i1, i2, i3, i4, i5⟩ :=
          ih (setOrderHeap s (s.order_heap.erase x)) (some x) hlen
        have hgood : s.assigns x = l_Undef → s.decision x = true →
            pickLoop (m + 1) (setOrderHeap s (s.order_heap.erase x)) (some x) =
              (some x, setOrderHeap s (s.order_heap.erase x)) :=
          fun hu hd => pickLoop_accept m _ x hu hd
        have hbad_or : (s.assigns x ≠ l_Undef ∨ s.decision x = false) ∨
            (s.assigns x = l_Undef ∧ s.decision x = true) := by
          by_cases h1 : s.assigns x = l_Undef
          · cases h2 : s.decision x with
            | true => exact Or.inr ⟨h1, rfl⟩
            | false => exact Or.inl (Or.inr rfl)
          · exact Or.inl (Or.inl h1)
        refine ⟨i1, ?_, ?_, ?_, ?_⟩
        · intro v hv
          exact List.mem_of_mem_erase (i2 v hv)
        · intro v hv
          by_cases e : v = x
          · subst e
            rcases hbad_or with hbad | ⟨hu, hd⟩
            · exact Or.inr (Or.inl hbad)
            · right; right
              rw [hgood hu hd]
          · rcases i3 v ((List.mem_erase_of_ne e).mpr hv) with h1 | h1 | h1
            · exact Or.inl h1
            · exact Or.inr (Or.inl h1)
            · exact Or.inr (Or.inr h1)
        · intro v hv
          obtain ⟨a, b, c⟩ := i4 v hv
          refine ⟨a, b, Or.inl ?_⟩
          rcases c with c | c
          · exact List.mem_of_mem_erase c
          · simp only [Option.some.injEq] at c
            rw [← c]; exact hx
        · intro hn v hv
          by_cases e : v = x
          · subst e
            rcases hbad_or with hbad | ⟨hu, hd⟩
            · exact hbad
            · rw [hgood hu hd] at hn
              cases hn
          · exact i5 hn v ((List.mem_erase_of_ne e).mpr hv)
    · subst hres
      cases next with
      | none => simp at hc
      | some w =>
        simp only at hc
        have hw : s.assigns w = l_Undef ∧ s.decision w = true := by
          have : ¬ ((decide (s.assigns w ≠ l_Undef) || !s.decision w) = true) := hc
          simp only [Bool.or_eq_true, decide_eq_true_eq, Bool.not_eq_true', not_or,
            Bool.not_eq_false, ne_eq, not_not] at this
          exact this
        refine ⟨rfl, fun v hv => hv, fun v hv => Or.inl hv, ?_, ?_⟩
        · intro v hv
          simp only [Option.some.injEq] at hv
          subst hv
          exact ⟨hw.1, hw.2, Or.inr rfl⟩
        · intro hn; simp at hn

theorem irand_lt (seed size : Nat) (h : 0 < size) : (irand seed size).1 < size := by
  unfold irand
  show (seed * 1389796) % 2147483647 * size / 2147483647 < size
  rw [Nat.div_lt_iff_lt_mul (by norm_num)]
  have : (seed * 1389796) % 2147483647 < 2147483647 := Nat.mod_lt _ (by norm_num)
  calc (seed * 1389796) % 2147483647 * size < 2147483647 * size :=
        Nat.mul_lt_mul_of_pos_right this h
    _ = size * 2147483647 := Nat.mul_comm _ _

theorem pickRandom_spec (s : Solver) (d : ℚ) :
    pickKey (pickRandom s d).2 = pickKey s ∧
    (pickRandom s d).2.order_heap = s.order_heap ∧
    (∀ v, (pickRandom s d).1 = some v → v ∈ s.order_heap) := by
  unfold pickRandom
  dsimp only
  split_ifs with h1 h2
  · refine ⟨rfl, rfl, ?_⟩
    intro v hv
    simp only [Option.some.injEq] at hv
    rw [← hv]
    have hpos : 0 < s.order_heap.length := List.length_pos.mpr h1.2
    rw [List.getD_eq_getElem _ _ (irand_lt _ _ hpos)]
    exact List.getElem_mem _
  · refine ⟨rfl, rfl, ?_⟩
    intro v hv
    simp only [Option.some.injEq] at hv
    rw [← hv]
    have hpos : 0 < s.order_heap.length := List.length_pos.mpr h1.2
    rw [List.getD_eq_getElem _ _ (irand_lt _ _ hpos)]
    exact List.getElem_mem _
  · exact ⟨rfl, rfl, fun v hv => by cases hv⟩

theorem pickPolarity_spec (s : Solver) (next : Var) :
    pickKey (pickPolarity s next).2 = pickKey s ∧
    (pickPolarity s next).2.order_heap = s.order_heap ∧ var (pickPolarity s next).1 = next := by
  unfold pickPolarity
  split_ifs
  · exact ⟨rfl, rfl, var_mkLit _ _⟩
  · exact ⟨rfl, rfl, var_mkLit _ _⟩
  · exact ⟨rfl, rfl, var_mkLit _ _⟩

/-- `pickBranchLit`: the literal returned is of an unassigned decision variable of the heap;
when no literal is returned the heap held no unassigned decision variable; the variables
taken from the heap are the one returned and variables that are assigned or no decision
variables. -/
theorem pickBranchLit_spec (s : Solver) :
    pickKey (pickBranchLit s).2 = pickKey s ∧
    (∀ v ∈ (pickBranchLit s).2.order_heap, v ∈ s.order_heap) ∧
    (∀ v ∈ s.order_heap, v ∈ (pickBranchLit s).2.order_heap ∨
      (s.assigns v ≠ l_Undef ∨ s.decision v = false) ∨
      ∃ l, (pickBranchLit s).1 = some l ∧ var l = v) ∧
    (∀ l, (pickBranchLit s).1 = some l →
      s.assigns (var l) = l_Undef ∧ s.decision (var l) = true ∧ var l ∈ s.order_heap) ∧
    ((pickBranchLit s).1 = none →
      ∀ v ∈ s.order_heap, s.assigns v ≠ l_Undef ∨ s.decision v = false) := by
  obtain ⟨a1, a2, a3⟩ :=
    pickRandom_spec (setSeed s (drand s.random_seed).2) (drand s.random_seed).1
  generalize hr1 : pickRandom (setSeed s (drand s.random_seed).2) (drand s.random_seed).1 = r1
    at a1 a2 a3
  have a1' : pickKey r1.2 = pickKey s := a1
  have a2' : r1.2.order_heap = s.order_heap := a2
  obtain ⟨f1, f2, f3, f4, f5, f6, f7, f8, f9, f10, f11, f12, f13, f14, f15, f16, f17, f18,
    f19⟩ := pickKey_fields a1'
  obtain ⟨b1, b2, b3, b4, b5⟩ :=
    pickLoop_spec (r1.2.order_heap.length + 1) r1.2 r1.1 (Nat.lt_succ_self _)
  generalize hr2 : pickLoop (r1.2.order_heap.length + 1) r1.2 r1.1 = r2 at b1 b2 b3 b4 b5
  rw [a2'] at b2 b3 b4 b5
  rw [f3, f15] at b3 b4 b5
  have hres : pickBranchLit s =
      (match r2.1 with
       | none => (none, r2.2)
       | some next => (some (pickPolarity r2.2 next).1, (pickPolarity r2.2 next).2)) := by
    unfold pickBranchLit
    simp only [hr1, hr2]
    try (cases r2.1 <;> rfl)
  rw [hres]
  cases hn : r2.1 with
  | none =>
    refine ⟨b1.trans a1', b2, ?_, ?_, ?_⟩
    · intro v hv
      rcases b3 v hv with h | h | h
      · exact Or.inl h
      · exact Or.inr (Or.inl h)
      · rw [hn] at h; cases h
    · intro l hl; simp at hl
    · intro _; exact b5 hn
  | some next =>
    obtain ⟨c1, c2, c3⟩ := pickPolarity_spec r2.2 next
    refine ⟨c1.trans (b1.trans a1'), ?_, ?_, ?_, ?_⟩
    · intro v hv
      have hv' : v ∈ (pickPolarity r2.2 next).2.order_heap := hv
      rw [c2] at hv'
      exact b2 v hv'
    · intro v hv
      rcases b3 v hv with h | h | h
      · left
        show v ∈ (pickPolarity r2.2 next).2.order_heap
        rw [c2]; exact h
      · exact Or.inr (Or.inl h)
      · right; right
        rw [hn] at h
        simp only [Option.some.injEq] at h
        exact ⟨_, rfl, by rw [c3]; exact h⟩
    · intro l hl
      simp only [Option.some.injEq] at hl
      subst hl
      rw [c3]
      obtain ⟨x1, x2, x3⟩ := b4 next hn
      refine ⟨x1, x2, ?_⟩
      rcases x3 with x3 | x3
      · exact x3
      · have := a3 next x3
        exact this
    · intro h; simp at h

theorem searchDecide_fields {s t : Solver} {l : Lit} (h : searchDecide s l = some t) :
    t.order_heap = s.order_heap ∧ t.assigns (var l) ≠ l_Undef ∧ t.next_var = s.next_var ∧
    t.decision = s.decision ∧ t.qhead = s.qhead ∧ t.trail = s.trail ++ [l] ∧
    t.assumptions = s.assumptions ∧ decisionLevel t = decisionLevel s + 1 ∧ t.ok = s.ok ∧
    t.conflict = s.conflict := by
  unfold searchDecide at h
  cases he : uncheckedEnqueue (setDecisionFlag (newDecisionLevel s) (var l)) l none with
  | none => rw [he] at h; cases h
  | some s1 =>
    rw [he] at h
    simp only [Option.map_some', Option.some.injEq] at h
    subst h
    obtain ⟨-, rfl⟩ := uncheckedEnqueue_eq he
    unfold noteDecisionLevel
    have hne : lbool.ofBool (!sign l) ≠ l_Undef := by
      unfold lbool.ofBool; split_ifs <;> simp
    split_ifs
    · refine ⟨rfl, ?_, rfl, rfl, rfl, rfl, rfl, ?_, rfl, rfl⟩
      · show Function.update _ (var l) _ (var l) ≠ _
        rw [Function.update_same]; exact hne
      · show (s.trail_lim ++ [s.trail.length]).length = s.trail_lim.length + 1
        simp
    · refine ⟨rfl, ?_, rfl, rfl, rfl, rfl, rfl, ?_, rfl, rfl⟩
      · show Function.update _ (var l) _ (var l) ≠ _
        rw [Function.update_same]; exact hne
      · show (s.trail_lim ++ [s.trail.length]).length = s.trail_lim.length + 1
        simp

/-- The members that `searchDecide` writes, and those it leaves alone. -/
theorem searchDecide_spec {s t : Solver} {l : Lit} (h : searchDecide s l = some t) :
    t.trail = s.trail ++ [l] ∧ t.trail_lim = s.trail_lim ++ [s.trail.length] ∧
    t.assigns = Function.update s.assigns (var l) (lbool.ofBool (!sign l)) ∧
    t.vardata = Function.update s.vardata (var l) (mkVarData none (s.trail_lim.length + 1)) ∧
    t.watches = s.watches ∧ t.dirty = s.dirty ∧ t.dirties = s.dirties ∧
    t.clauses = s.clauses ∧ t.learnts = s.learnts ∧ t.ca = s.ca ∧
    t.free_vars = s.free_vars ∧ t.released_vars = s.released_vars ∧ t.seen = s.seen ∧
    t.assumptions = s.assumptions ∧ t.decision = s.decision ∧ t.next_var = s.next_var := by
  unfold searchDecide at h
  cases he : uncheckedEnqueue (setDecisionFlag (newDecisionLevel s) (var l)) l none with
  | none => rw [he] at h; cases h
  | some s1 =>
    rw [he] at h
    simp only [Option.map_some', Option.some.injEq] at h
    subst h
    obtain ⟨-, rfl⟩ := uncheckedEnqueue_eq he
    unfold noteDecisionLevel
    have hdl : decisionLevel (setDecisionFlag (newDecisionLevel s) (var l)) =
        s.trail_lim.length + 1 := by
      show (s.trail_lim ++ [s.trail.length]).length = _
      simp
    split_ifs
    · refine ⟨rfl, rfl, rfl, ?_, rfl, rfl, rfl, rfl, rfl, rfl, rfl, rfl, rfl, rfl, rfl, rfl⟩
      exact congrArg (fun n => Function.update s.vardata (var l) (mkVarData none n)) hdl
    · refine ⟨rfl, rfl, rfl, ?_, rfl, rfl, rfl, rfl, rfl, rfl, rfl, rfl, rfl, rfl, rfl, rfl⟩
      exact congrArg (fun n => Function.update s.vardata (var l) (mkVarData none n)) hdl

theorem searchDecide_some {s : Solver} {l : Lit} (h : value s l = l_Undef) :
    ∃ t, searchDecide s l = some t := by
  unfold searchDecide
  have hu : value (setDecisionFlag (newDecisionLevel s) (var l)) l = l_Undef := h
  rw [uncheckedEnqueue_some none hu]
  exact ⟨_, rfl⟩

/-- The decision of the literal that `pickBranchLit` returned keeps the invariants: the state
`p` after the choice differs from a state `s` with the invariants in the order heap, from which
the variable of the literal and variables that are assigned or no decision variables are
gone. -/
theorem Inv.pick_decide {s p t : Solver} {next : Lit} (h : Inv s)
    (hq : s.qhead = s.trail.length) (hk : pickKey p = pickKey s)
    (hsub : ∀ v ∈ p.order_heap, v ∈ s.order_heap)
    (hrem : ∀ v ∈ s.order_heap, v ∈ p.order_heap ∨
      (s.assigns v ≠ l_Undef ∨ s.decision v = false) ∨ v = var next)
    (hn : s.assigns (var next) = l_Undef ∧ var next ∈ s.order_heap)
    (hna : ¬ decisionLevel s < s.assumptions.length)
    (hd : searchDecide p next = some t) : Inv t := by
  obtain ⟨f1, f2, f3, f4, f5, f6, f7, f8, f9, f10, f11, f12, f13, f14, f15, f16, f17, f18,
    f19⟩ := pickKey_fields hk
  have hnv : nVars p = nVars s := f16
  -- the state with the variable put back into the heap
  obtain ⟨v1, v2, v3⟩ := parts_of_heap (t := setOrderHeap p (var next :: p.order_heap))
    h.tr h.wt h.ax f1 f2 f3 f4 f5 f6 f7 f8 f9 f10 f11 f12 f13 f14 f15 f16
    (by
      intro v hv
      rcases List.mem_cons.mp hv with rfl | hv
      · exact h.ax.vr.heap_lt _ hn.2
      · exact h.ax.vr.heap_lt _ (hsub v hv))
    (by
      intro v hv hdec hun
      rcases hrem v (h.ax.hp v hv hdec hun) with h1 | h1 | h1
      · exact List.mem_cons_of_mem _ h1
      · rcases h1 with h1 | h1
        · exact absurd hun h1
        · rw [hdec] at h1; cases h1
      · rw [h1]; exact List.mem_cons_self _ _)
  have hiv : Inv (setOrderHeap p (var next :: p.order_heap)) := by
    refine ⟨v1, ?_, v3⟩
    have : (setOrderHeap p (var next :: p.order_heap)).qhead = s.qhead := f17
    rw [this]; exact v2
  have hund : value (setOrderHeap p (var next :: p.order_heap)) next = l_Undef := by
    apply value_undef_iff.mpr
    show p.assigns (var next) = l_Undef
    rw [f3]; exact hn.1
  obtain ⟨t', ht'⟩ := searchDecide_some hund
  have hit' : Inv t' := by
    refine hiv.decision ?_ ?_ ?_ ht'
    · show p.qhead = p.trail.length
      rw [f17, f1]; exact hq
    · show var next < nVars p
      rw [hnv]; exact h.ax.vr.heap_lt _ hn.2
    · intro hlt
      exfalso
      apply hna
      have : decisionLevel (setOrderHeap p (var next :: p.order_heap)) = decisionLevel s := by
        unfold decisionLevel; exact congrArg List.length f2
      have h2 : (setOrderHeap p (var next :: p.order_heap)).assumptions = s.assumptions := f14
      rw [this, h2] at hlt
      exact hlt
  obtain ⟨a1, a2, a3, a4, a5, a6, a7, a8, a9, a10, a11, a12, a13, a14, a15, a16⟩ :=
    searchDecide_spec hd
  obtain ⟨b1, b2, b3, b4, b5, b6, b7, b8, b9, b10, b11, b12, b13, b14, b15, b16⟩ :=
    searchDecide_spec ht'
  obtain ⟨c1, c2, -, -, c5, -⟩ := searchDecide_fields hd
  obtain ⟨d1, -, -, -, d5, -⟩ := searchDecide_fields ht'
  obtain ⟨w1, w2, w3⟩ := parts_of_heap (t := t) hit'.tr hit'.wt hit'.ax
    (a1.trans b1.symm) (a2.trans b2.symm) (a3.trans b3.symm) (a4.trans b4.symm)
    (a5.trans b5.symm) (a6.trans b6.symm) (a7.trans b7.symm) (a8.trans b8.symm)
    (a9.trans b9.symm) (a10.trans b10.symm) (a11.trans b11.symm) (a12.trans b12.symm)
    (a13.trans b13.symm) (a14.trans b14.symm) (a15.trans b15.symm) (a16.trans b16.symm)
    (by
      intro v hv
      rw [c1] at hv
      have : nVars t' = nVars s := by
        unfold nVars; rw [b16]; exact f16
      rw [this]
      exact h.ax.vr.heap_lt _ (hsub v hv))
    (by
      intro v hv hdec hun
      have hmem := hit'.ax.hp v hv hdec hun
      rw [d1] at hmem
      rcases List.mem_cons.mp hmem with e | e
      · exfalso
        subst e
        have : t.assigns (var next) = t'.assigns (var next) := by rw [a3, b3]; rfl
        exact c2 (this.trans hun)
      · rw [c1]; exact e)
  refine ⟨w1, ?_, w3⟩
  have : t.qhead = t'.qhead := c5.trans d5.symm
  rw [this]; exact w2

end Minisat


namespace Minisat
open lbool

/-! ## The post-conditions of `analyze` -/

/-- C22: on return from `analyze`, called by `search` on the conflict that `propagate` found
at a decision level above 0: `out_learnt` is not empty; if it has one literal then
`out_btlevel = 0`; otherwise `out_learnt[1]` has the greatest level among `out_learnt[1..]`
and `out_btlevel` is that level; every `out_learnt[i]` with `i >= 1` has a level strictly
between 0 and the decision level, `out_btlevel` is below the decision level, and
`out_learnt[0]` is the negation of a trail literal of the current decision level. -/
theorem analyze_postconditions (fuel fuel2 : Nat) (s0 s : Solver) (confl : CRef)
    (r : AnalyzeResult × Solver) (h0 : Inv s0)
    (hp : propagate fuel s0 = some (some confl, s)) (hdl : 0 < decisionLevel s)
    (ha : analyze fuel2 (countConflict s) confl = some r) :
    1 ≤ r.1.out_learnt.length ∧
    (r.1.out_learnt.length = 1 → r.1.out_btlevel = 0) ∧
    (r.1.out_learnt.length ≠ 1 →
      (∀ i, 1 ≤ i → i < r.1.out_learnt.length →
        level r.2 (var (r.1.out_learnt.getD i 0)) ≤ level r.2 (var (r.1.out_learnt.getD 1 0))) ∧
      r.1.out_btlevel = level r.2 (var (r.1.out_learnt.getD 1 0))) ∧
    (∀ i, 1 ≤ i → i < r.1.out_learnt.length →
      0 < level r.2 (var (r.1.out_learnt.getD i 0)) ∧
      level r.2 (var (r.1.out_learnt.getD i 0)) < decisionLevel r.2) ∧
    r.1.out_btlevel < decisionLevel r.2 ∧
    ∃ p ∈ r.2.trail, level r.2 (var p) = decisionLevel r.2 ∧
      r.1.out_learnt.getD 0 0 = neg p := by
  obtain ⟨h1, -, -, h4⟩ := propagate_inv h0.tr h0.wt hp
  obtain ⟨-, -, hfal⟩ := h4 confl rfl
  have hax := propagate_aux h0.tr h0.wt h0.ax hp
  have htl := propagate_top h0.tr h0.wt hp confl rfl
  have htr' : TrailInv (countConflict s) := h1.congr_tr rfl rfl rfl rfl
  have hrs' : ReasonInv (countConflict s) := hax.rs
  have hspec : AnalyzeSpec (countConflict s) r :=
    analyze_spec htr' hrs' hax.vr.seen0 hdl hfal htl ha
  have hf := anaKey_frame hspec.key
  have hlv : ∀ x, level r.2 x = level (countConflict s) x := level_congr hf.vardata
  have hd : decisionLevel r.2 = decisionLevel (countConflict s) := by
    unfold decisionLevel; rw [hf.trail_lim]
  obtain ⟨p, tl, e, hpm, hpl, -, htail, hbt, hnil, hcons⟩ := hspec.shape
  have hlen : r.1.out_learnt.length = tl.length + 1 := by rw [e]; rfl
  have hget : ∀ k, r.1.out_learnt.getD (k + 1) 0 = tl.getD k 0 := by
    intro k; rw [e]; rfl
  refine ⟨by omega, ?_, ?_, ?_, by rw [hd]; exact hbt, p, by rw [hf.trail]; exact hpm,
    by rw [hlv, hd]; exact hpl, by rw [e]; rfl⟩
  · intro h1
    apply hnil
    apply List.eq_nil_of_length_eq_zero
    omega
  · intro hne
    have htl0 : tl ≠ [] := by
      intro h; rw [h] at hlen; exact hne hlen
    have hb := hcons htl0
    refine ⟨?_, ?_⟩
    · intro i i1 i2
      obtain ⟨k, rfl⟩ : ∃ k, i = k + 1 := ⟨i - 1, by omega⟩
      have hk : k < tl.length := by omega
      rw [hget, hget, hlv, hlv, ← hb]
      exact (htail _ (getD_mem_of_lt hk)).2.2
    · rw [hget, hlv]; exact hb
  · intro i i1 i2
    obtain ⟨k, rfl⟩ : ∃ k, i = k + 1 := ⟨i - 1, by omega⟩
    have hk : k < tl.length := by omega
    obtain ⟨-, q2, q3⟩ := htail _ (getD_mem_of_lt hk)
    rw [hget, hlv, hd]
    exact ⟨q2, lt_of_le_of_lt q3 hbt⟩

/-! ## The unit-propagation step of `propagate` -/

theorem mem_drop_one_cases {ls : List Lit} {t : Lit} (h : t ∈ ls.drop 1) :
    (2 ≤ ls.length ∧ t = ls.getD 1 0) ∨ t ∈ ls.drop 2 := by
  cases ls with
  | nil => simp at h
  | cons a rest =>
    cases rest with
    | nil => simp at h
    | cons b rest2 =>
      simp only [List.drop_succ_cons, List.drop_zero, List.mem_cons] at h
      rcases h with h | h
      · left; exact ⟨by simp, by rw [h]; rfl⟩
      · right; simpa using h

theorem mem_cases_head {ls : List Lit} {t : Lit} (h : t ∈ ls) :
    t = ls.getD 0 0 ∨ t ∈ ls.drop 1 := by
  cases ls with
  | nil => cases h
  | cons a rest =>
    rcases List.mem_cons.mp h with h | h
    · left; rw [h]; rfl
    · right; simpa using h

/-- C21: the body of the watcher loop of `propagate` for the watcher `w` in the list of the
literal `p` that is being propagated (so `p` is true).  When the step enqueues a literal, the
reason recorded is the clause `w.cref`, the literal is `lits[0]` of that clause, it was
unassigned before the enqueue and is true after it, and every other literal of the clause is
false at that moment.  When the step returns the clause as conflict, every literal of the
clause is false. -/
theorem watchStep_classifies (p : Lit) (b : Bool) (w : Watcher) (s : Solver)
    (hp : value s p = l_True) :
    (∀ w1 s1, watchStep p b w s = WStep.keep w1 s1 → s1.trail ≠ s.trail →
      ∃ l, s1.trail = s.trail ++ [l] ∧ reason s1 (var l) = some w.cref ∧
        (s1.ca.cl w.cref).lits.getD 0 0 = l ∧ value s l = l_Undef ∧ value s1 l = l_True ∧
        ∀ t ∈ (s1.ca.cl w.cref).lits.drop 1, value s t = l_False) ∧
    (∀ w1 s1, watchStep p b w s = WStep.conflict w1 s1 →
      w1.cref = w.cref ∧ ∀ t ∈ (s1.ca.cl w.cref).lits, value s1 t = l_False) := by
  have hnp : value s (neg p) = l_False := value_neg_false.mpr hp
  refine ⟨?_, ?_⟩
  · intro w1 s1 h htrail
    rcases watchStep_keep h with ⟨-, -, e⟩ | ⟨-, h2, -, ⟨-, e⟩ | ⟨hf, he⟩⟩
    · rw [e] at htrail; exact absurd rfl htrail
    · rw [e] at htrail; exact absurd rfl htrail
    · obtain ⟨g1, g2, g3, g4, -, -, -, -, g9⟩ := tagSymmetryUnit_fields b
        (setLits s w.cref (swapFalseLit (s.ca.cl w.cref).lits (neg p)))
        (var ((swapFalseLit (s.ca.cl w.cref).lits (neg p)).getD 0 0))
      obtain ⟨hu, e⟩ := uncheckedEnqueue_eq he
      have hca : s1.ca = (setLits s w.cref (swapFalseLit (s.ca.cl w.cref).lits (neg p))).ca := by
        rw [e]; exact g9
      have hlits : (s1.ca.cl w.cref).lits = swapFalseLit (s.ca.cl w.cref).lits (neg p) := by
        rw [hca, setLits_lits_self]
      have hu' : value s ((swapFalseLit (s.ca.cl w.cref).lits (neg p)).getD 0 0) = l_Undef := by
        rw [← hu]
        exact (value_of_assigns_eq (by rw [g3]; rfl)).symm
      refine ⟨(swapFalseLit (s.ca.cl w.cref).lits (neg p)).getD 0 0, ?_, ?_, ?_, hu', ?_, ?_⟩
      · rw [e]
        show (tagSymmetryUnit b _ _).trail ++ _ = _
        rw [g1]; rfl
      · rw [e]
        unfold reason
        dsimp only
        rw [Function.update_same]; rfl
      · rw [hlits]
      · rw [e]
        exact value_of_assigns_update_self _ _ _ rfl
      · intro t ht
        rw [hlits] at ht
        rcases mem_drop_one_cases ht with ⟨-, rfl⟩ | ht
        · rw [h2]; exact hnp
        · exact findWatch_none _ _ hf t ht
  · intro w1 s1 h
    obtain ⟨-, h2, hf, h0, e1, e2⟩ := watchStep_conflict h
    refine ⟨by rw [e1], ?_⟩
    intro t ht
    have hlits : (s1.ca.cl w.cref).lits = swapFalseLit (s.ca.cl w.cref).lits (neg p) := by
      rw [e2]
      exact setLits_lits_self _ _ _
    have hv : value s1 t = value s t := by rw [e2]; rfl
    rw [hv]
    rw [hlits] at ht
    rcases mem_cases_head ht with rfl | ht
    · exact h0
    · rcases mem_drop_one_cases ht with ⟨-, rfl⟩ | ht
      · rw [h2]; exact hnp
      · exact findWatch_none _ _ hf t ht

end Minisat


namespace Minisat
open lbool

/-! ## Compatibility sets as sets -/

theorem mem_insertComp_iff {i j : Nat} : ∀ {comp : List Nat},
    j ∈ insertComp i comp ↔ j = i ∨ j ∈ comp
  | [] => by simp [insertComp]
  | k :: ks => by
    unfold insertComp
    by_cases h1 : i < k
    · rw [if_pos h1]; simp
    · rw [if_neg h1]
      by_cases h2 : i = k
      · rw [if_pos h2]
        constructor
        · intro h; exact Or.inr h
        · rintro (h | h)
          · rw [h, h2]; exact List.mem_cons_self _ _
          · exact h
      · rw [if_neg h2, List.mem_cons, mem_insertComp_iff, List.mem_cons]
        tauto

theorem mem_stabAll_iff {stab : Symmetry → Bool} {j : Nat} :
    ∀ (syms : List Symmetry) (comp : List Nat),
      j ∈ stabAll stab syms comp ↔ j ∈ comp ∨ ∃ σ ∈ syms, σ.id = j ∧ stab σ = true
  | [], comp => by simp [stabAll]
  | σ :: rest, comp => by
    unfold stabAll
    by_cases h2 : stab σ = true
    · rw [if_pos h2, mem_stabAll_iff rest, mem_insertComp_iff]
      constructor
      · rintro ((h | h) | ⟨τ, a, b⟩)
        · exact Or.inr ⟨σ, List.mem_cons_self _ _, h.symm, h2⟩
        · exact Or.inl h
        · exact Or.inr ⟨τ, List.mem_cons_of_mem _ a, b⟩
      · rintro (h | ⟨τ, a, b, c⟩)
        · exact Or.inl (Or.inr h)
        · rcases List.mem_cons.mp a with e | e
          · exact Or.inl (Or.inl (by rw [← b, e]))
          · exact Or.inr ⟨τ, e, b, c⟩
    · rw [if_neg h2, mem_stabAll_iff rest]
      constructor
      · rintro (h | ⟨τ, a, b⟩)
        · exact Or.inl h
        · exact Or.inr ⟨τ, List.mem_cons_of_mem _ a, b⟩
      · rintro (h | ⟨τ, a, b, c⟩)
        · exact Or.inl h
        · rcases List.mem_cons.mp a with e | e
          · rw [e] at c; exact absurd c h2
          · exact Or.inr ⟨τ, e, b, c⟩

theorem mem_stabLoop_iff {stab : Symmetry → Bool} {j : Nat} :
    ∀ (syms : List Symmetry) (comp : List Nat),
      j ∈ stabLoop stab syms comp ↔ j ∈ comp ∨ ∃ σ ∈ syms, σ.id = j ∧ stab σ = true
  | [], comp => by simp [stabLoop]
  | σ :: rest, comp => by
    unfold stabLoop
    by_cases h1 : σ.id ∈ comp
    · rw [if_pos h1, mem_stabLoop_iff rest]
      constructor
      · rintro (h | ⟨τ, a, b⟩)
        · exact Or.inl h
        · exact Or.inr ⟨τ, List.mem_cons_of_mem _ a, b⟩
      · rintro (h | ⟨τ, a, b, c⟩)
        · exact Or.inl h
        · rcases List.mem_cons.mp a with e | e
          · left; rw [← b, e]; exact h1
          · exact Or.inr ⟨τ, e, b, c⟩
    · rw [if_neg h1]
      by_cases h2 : stab σ = true
      · rw [if_pos h2, mem_stabLoop_iff rest, mem_insertComp_iff]
        constructor
        · rintro ((h | h) | ⟨τ, a, b⟩)
          · exact Or.inr ⟨σ, List.mem_cons_self _ _, h.symm, h2⟩
          · exact Or.inl h
          · exact Or.inr ⟨τ, List.mem_cons_of_mem _ a, b⟩
        · rintro (h | ⟨τ, a, b, c⟩)
          · exact Or.inl (Or.inr h)
          · rcases List.mem_cons.mp a with e | e
            · exact Or.inl (Or.inl (by rw [← b, e]))
            · exact Or.inr ⟨τ, e, b, c⟩
      · rw [if_neg h2, mem_stabLoop_iff rest]
        constructor
        · rintro (h | ⟨τ, a, b⟩)
          · exact Or.inl h
          · exact Or.inr ⟨τ, List.mem_cons_of_mem _ a, b⟩
        · rintro (h | ⟨τ, a, b, c⟩)
          · exact Or.inl h
          · rcases List.mem_cons.mp a with e | e
            · rw [e] at c; exact absurd c h2
            · exact Or.inr ⟨τ, e, b, c⟩

/-! ## The injection of a clause of the hook -/

theorem mem_pushWatch_self (s : Solver) (l : Lit) (w : Watcher) :
    w ∈ (pushWatch s l w).watches l := by
  show w ∈ Function.update s.watches l (s.watches l ++ [w]) l
  rw [Function.update_same]
  simp

theorem mem_pushWatch_mono (s : Solver) (l : Lit) (w : Watcher) {l' : Lit} {w' : Watcher}
    (h : w' ∈ s.watches l') : w' ∈ (pushWatch s l w).watches l' := by
  show w' ∈ Function.update s.watches l (s.watches l ++ [w]) l'
  by_cases e : l' = l
  · rw [e, Function.update_same]
    rw [e] at h
    exact List.mem_append_left _ h
  · rw [Function.update_noteq e]; exact h

theorem countAttach_watches_eq (s : Solver) (c : Clause) :
    (countAttach s c).watches = s.watches := by
  unfold countAttach
  split_ifs <;> rfl

/-- C29, as the code has it.  When the hook has no clause to inject (or there is no hook),
`learntSymmetryClause(type, p)` returns `CRef_Undef` and leaves the state as it is.  When the
hook returns the clause `sbp` and the call returns, the result is the reference of a new
clause at the end of the arena with the literals `sbp`, learnt, with `symmetry` and
`first_symmetry` set, whose compatibility set holds exactly the symmetries of the solver that
stabilize `sbp`; the reference is pushed to `learnts` and the clause is attached through its
first two literals. -/
theorem learntSymmetryClause_injects (S : SymSolver) :
    learntSymmetryClause S none = some (none, S) ∧
    ∀ (sbp : List Lit) (r : Option CRef) (S' : SymSolver),
      learntSymmetryClause S (some sbp) = some (r, S') →
      r = some S.solver.ca.size ∧
      (S'.solver.ca.cl S.solver.ca.size).lits = sbp ∧
      (S'.solver.ca.cl S.solver.ca.size).learnt = true ∧
      (S'.solver.ca.cl S.solver.ca.size).symmetry = true ∧
      (S'.solver.ca.cl S.solver.ca.size).fsymmetry = true ∧
      (∃ comp, (S'.solver.ca.cl S.solver.ca.size).scompat = some comp ∧
        ∀ i, i ∈ comp ↔ ∃ σ ∈ S.symmetries, σ.id = i ∧ stabilize S.solver σ sbp = true) ∧
      S'.solver.learnts = S.solver.learnts ++ [S.solver.ca.size] ∧
      (⟨S.solver.ca.size, sbp.getD 1 0⟩ : Watcher) ∈ S'.solver.watches (neg (sbp.getD 0 0)) ∧
      (⟨S.solver.ca.size, sbp.getD 0 0⟩ : Watcher) ∈ S'.solver.watches (neg (sbp.getD 1 0)) ∧
      S'.symmetries = S.symmetries := by
  refine ⟨rfl, ?_⟩
  intro sbp r S' h
  unfold learntSymmetryClause at h
  dsimp only at h
  split_ifs at h with hall
  cases hat : attachClause
      (pushLearnt (setCa S.solver (S.solver.ca.alloc sbp true true true
          (some (stabAll (fun σ => stabilize S.solver σ sbp) S.symmetries.reverse []))).2)
        S.solver.ca.size) S.solver.ca.size with
  | none => rw [hat] at h; cases h
  | some s1 =>
    rw [hat] at h
    simp only [Option.some.injEq, Prod.mk.injEq] at h
    obtain ⟨rfl, rfl⟩ := h
    have hca := attachClause_cl hat
    have hcl : s1.ca.cl S.solver.ca.size =
        { lits := sbp, learnt := true, fsymmetry := true, symmetry := true,
          scompat := some (stabAll (fun σ => stabilize S.solver σ sbp) S.symmetries.reverse []),
          activity := 0, mark := 0, reloced := false, relocation := 0 } := by
      rw [hca]
      show Function.update S.solver.ca.cl S.solver.ca.size _ S.solver.ca.size = _
      rw [Function.update_same]
    have hat' := hat
    unfold attachClause at hat'
    split_ifs at hat'
    simp only [Option.some.injEq] at hat'
    refine ⟨rfl, by rw [hcl], by rw [hcl], by rw [hcl], by rw [hcl], ?_, ?_, ?_, ?_, rfl⟩
    · refine ⟨_, by rw [hcl], ?_⟩
      intro i
      rw [mem_stabAll_iff]
      constructor
      · rintro (h | ⟨σ, a, b⟩)
        · cases h
        · exact ⟨σ, List.mem_reverse.mp a, b⟩
      · rintro ⟨σ, a, b⟩
        exact Or.inr ⟨σ, List.mem_reverse.mpr a, b⟩
    · rw [← hat']
      unfold countAttach
      split_ifs <;> rfl
    · rw [← hat', countAttach_watches_eq]
      apply mem_pushWatch_mono
      have e0 : ((pushLearnt (setCa S.solver (S.solver.ca.alloc sbp true true true
          (some (stabAll (fun σ => stabilize S.solver σ sbp) S.symmetries.reverse []))).2)
          S.solver.ca.size).ca.cl S.solver.ca.size).lits = sbp := by
        show (Function.update S.solver.ca.cl S.solver.ca.size _ S.solver.ca.size).lits = _
        rw [Function.update_same]
      unfold Clause.get
      rw [e0]
      exact mem_pushWatch_self _ _ _
    · rw [← hat', countAttach_watches_eq]
      have e0 : ((pushLearnt (setCa S.solver (S.solver.ca.alloc sbp true true true
          (some (stabAll (fun σ => stabilize S.solver σ sbp) S.symmetries.reverse []))).2)
          S.solver.ca.size).ca.cl S.solver.ca.size).lits = sbp := by
        show (Function.update S.solver.ca.cl S.solver.ca.size _ S.solver.ca.size).lits = _
        rw [Function.update_same]
      unfold Clause.get
      rw [e0]
      exact mem_pushWatch_self _ _ _

end Minisat


namespace Minisat
open lbool

/-! ## The compatibility set returned by `analyze` -/

/-- The in-place intersection of two increasing lists is their intersection. -/
theorem interInPlace_spec : ∀ (fuel : Nat) (a b : List Nat), a.length + b.length ≤ fuel →
    a.Sorted (· < ·) → b.Sorted (· < ·) →
    (∀ j, j ∈ interInPlace fuel a b ↔ j ∈ a ∧ j ∈ b) ∧
    (interInPlace fuel a b).Sorted (· < ·) ∧
    (∀ j ∈ interInPlace fuel a b, ∀ x, (∀ y ∈ a, x < y) → x < j) := by
  intro fuel
  induction fuel with
  | zero =>
    intro a b hl _ _
    have ha : a = [] := List.eq_nil_of_length_eq_zero (by omega)
    subst ha
    simp [interInPlace]
  | succ fuel ih =>
    intro a b hl ha hb
    cases a with
    | nil => simp [interInPlace]
    | cons x as =>
      cases b with
      | nil => simp [interInPlace]
      | cons y bs =>
        have hxs := List.sorted_cons.mp ha
        have hys := List.sorted_cons.mp hb
        simp only [List.length_cons] at hl
        unfold interInPlace
        by_cases h1 : x < y
        · rw [if_pos h1]
          obtain ⟨i1, i2, i3⟩ := ih as (y :: bs) (by simp only [List.length_cons]; omega)
            hxs.2 hb
          refine ⟨?_, i2, ?_⟩
          · intro j
            rw [i1 j]
            constructor
            · rintro ⟨p, q⟩
              exact ⟨List.mem_cons_of_mem _ p, q⟩
            · rintro ⟨p, q⟩
              refine ⟨?_, q⟩
              rcases List.mem_cons.mp p with e | e
              · exfalso
                rcases List.mem_cons.mp q with e' | e'
                · omega
                · have := hys.1 j e'; omega
              · exact e
          · intro j hj z hz
            exact i3 j hj z (fun w hw => hz w (List.mem_cons_of_mem _ hw))
        · rw [if_neg h1]
          by_cases h2 : y < x
          · rw [if_pos h2]
            obtain ⟨i1, i2, i3⟩ := ih (x :: as) bs (by simp only [List.length_cons]; omega)
              ha hys.2
            refine ⟨?_, i2, i3⟩
            intro j
            rw [i1 j]
            constructor
            · rintro ⟨p, q⟩
              exact ⟨p, List.mem_cons_of_mem _ q⟩
            · rintro ⟨p, q⟩
              refine ⟨p, ?_⟩
              rcases List.mem_cons.mp q with e | e
              · exfalso
                rcases List.mem_cons.mp p with e' | e'
                · omega
                · have := hxs.1 j e'; omega
              · exact e
          · rw [if_neg h2]
            have hxy : x = y := by omega
            subst hxy
            obtain ⟨i1, i2, i3⟩ := ih as bs (by omega) hxs.2 hys.2
            refine ⟨?_, ?_, ?_⟩
            · intro j
              rw [List.mem_cons, i1 j, List.mem_cons, List.mem_cons]
              constructor
              · rintro (e | ⟨p, q⟩)
                · exact ⟨Or.inl e, Or.inl e⟩
                · exact ⟨Or.inr p, Or.inr q⟩
              · rintro ⟨p | p, q | q⟩
                · exact Or.inl p
                · exact Or.inl p
                · exact Or.inl q
                · exact Or.inr ⟨p, q⟩
            · rw [List.sorted_cons]
              refine ⟨?_, i2⟩
              intro j hj
              exact hxs.1 j ((i1 j).mp hj).1
            · intro j hj z hz
              rcases List.mem_cons.mp hj with e | e
              · rw [e]; exact hz x (List.mem_cons_self _ _)
              · exact i3 j e z (fun w hw => hz w (List.mem_cons_of_mem _ hw))

/-- The compatibility set of a clause as a list; a clause without a set has none. -/
theorem compLoop_inter (s : Solver) :
    ∀ (crs : List CRef) (comp res : List Nat),
      (∀ cr ∈ crs, ∀ c, (s.ca.cl cr).scompat = some c → c.Sorted (· < ·)) →
      comp ≠ [] → comp.Sorted (· < ·) →
      compLoop s crs comp = some res →
      ∀ j, j ∈ res ↔ j ∈ comp ∧ ∀ cr ∈ crs, j ∈ (s.ca.cl cr).scompat.getD [] := by
  intro crs
  induction crs with
  | nil =>
    intro comp res _ _ _ h j
    unfold compLoop at h
    cases h
    simp
  | cons cr crs ih =>
    intro comp res hs hne hso h j
    unfold compLoop at h
    cases hc : (s.ca.cl cr).scompat with
    | none => rw [hc] at h; cases h
    | some check =>
      rw [hc] at h
      dsimp only at h
      have hck := hs cr (List.mem_cons_self _ _) check hc
      by_cases h1 : check = []
      · rw [if_pos h1] at h
        cases h
        constructor
        · intro hj; cases hj
        · rintro ⟨-, q⟩
          have := q cr (List.mem_cons_self _ _)
          rw [hc, h1] at this
          exact this
      · rw [if_neg h1, if_neg hne] at h
        obtain ⟨i1, i2, -⟩ := interInPlace_spec (comp.length + check.length) comp check
          (le_refl _) hso hck
        by_cases h2 : interInPlace (comp.length + check.length) comp check = []
        · rw [if_pos h2] at h
          cases h
          constructor
          · intro hj; cases hj
          · rintro ⟨p, q⟩
            have hq := q cr (List.mem_cons_self _ _)
            rw [hc] at hq
            have := (i1 j).mpr ⟨p, hq⟩
            rw [h2] at this
            exact this
        · rw [if_neg h2] at h
          rw [ih _ res (fun c hcm => hs c (List.mem_cons_of_mem _ hcm)) h2 i2 h j, i1 j]
          constructor
          · rintro ⟨⟨p, q⟩, r⟩
            refine ⟨p, ?_⟩
            intro c hcm
            rcases List.mem_cons.mp hcm with e | e
            · rw [e, hc]; exact q
            · exact r c e
          · rintro ⟨p, q⟩
            refine ⟨⟨p, ?_⟩, fun c hcm => q c (List.mem_cons_of_mem _ hcm)⟩
            have := q cr (List.mem_cons_self _ _)
            rw [hc] at this
            exact this

/-- The loop over `conf_clauses`, started with the empty set, computes the intersection of
the compatibility sets of the clauses; over no clause the result is empty. -/
theorem compLoop_start (s : Solver) (crs : List CRef)
    (hs : ∀ cr ∈ crs, ∀ c, (s.ca.cl cr).scompat = some c → c.Sorted (· < ·))
    (res : List Nat) (h : compLoop s crs [] = some res) :
    ∀ j, j ∈ res ↔ crs ≠ [] ∧ ∀ cr ∈ crs, j ∈ (s.ca.cl cr).scompat.getD [] := by
  intro j
  cases crs with
  | nil =>
    unfold compLoop at h
    cases h
    simp
  | cons cr crs =>
    unfold compLoop at h
    cases hc : (s.ca.cl cr).scompat with
    | none => rw [hc] at h; cases h
    | some check =>
      rw [hc] at h
      dsimp only at h
      by_cases h1 : check = []
      · rw [if_pos h1] at h
        cases h
        constructor
        · intro hj; cases hj
        · rintro ⟨-, q⟩
          have := q cr (List.mem_cons_self _ _)
          rw [hc, h1] at this
          exact this
      · rw [if_neg h1, if_pos rfl] at h
        rw [compLoop_inter s crs check res (fun c hcm => hs c (List.mem_cons_of_mem _ hcm)) h1
          (hs cr (List.mem_cons_self _ _) check hc) h j]
        constructor
        · rintro ⟨p, q⟩
          refine ⟨List.cons_ne_nil _ _, ?_⟩
          intro c hcm
          rcases List.mem_cons.mp hcm with e | e
          · rw [e, hc]; exact p
          · exact q c e
        · rintro ⟨-, q⟩
          refine ⟨?_, fun c hcm => q c (List.mem_cons_of_mem _ hcm)⟩
          have := q cr (List.mem_cons_self _ _)
          rw [hc] at this
          exact this

theorem anaKey_scompat {s t : Solver} (h : anaKey t = anaKey s) (cr : CRef) :
    (t.ca.cl cr).scompat = (s.ca.cl cr).scompat :=
  congrArg (fun x => (x.ca.cl cr).scompat) h

theorem analyzeClause_key (a : AnalyzeAcc) (cr : CRef) (first : Bool) :
    anaKey (analyzeClause a cr first).s = anaKey a.s := by
  unfold analyzeClause
  rw [analyzeLits_key]
  dsimp only
  split_ifs
  · exact anaKey_claBumpActivity _ _
  · rfl

theorem analyzeChain_succ (fuel : Nat) (a : AnalyzeAcc) (first : Bool) (cr : CRef) (idx : Nat)
    (chain : List CRef) :
    analyzeChain (fuel + 1) a first (some cr) idx chain =
      match analyzeWalk (analyzeClause a cr first).s idx with
      | none => none
      | some pos =>
        if (analyzePivot (analyzeClause a cr first)
            ((analyzeClause a cr first).s.trail.getD pos 0)).pathC > 0 then
          analyzeChain fuel
            (analyzePivot (analyzeClause a cr first)
              ((analyzeClause a cr first).s.trail.getD pos 0)) false
            (reason (analyzeClause a cr first).s
              (var ((analyzeClause a cr first).s.trail.getD pos 0))) pos (chain ++ [cr])
        else some (chain ++ [cr]) := rfl

/-- The loop of `analyze` changes activities and marks only, and `conf_clauses` holds the
symmetry-tagged clauses of the resolution chain. -/
theorem analyzeLoop_chain (s0 : Solver) : ∀ (fuel : Nat) (a : AnalyzeAcc) (first : Bool)
    (cr : CRef) (idx : Nat) (ccs chain : List CRef) (res : AnalyzeAcc × Lit × List CRef),
    anaKey a.s = anaKey s0 →
    ccs = chain.filter (fun c => (s0.ca.cl c).symmetry) →
    analyzeLoop fuel a first (some cr) idx ccs = some res →
    anaKey res.1.s = anaKey s0 ∧
    ∃ ch, analyzeChain fuel a first (some cr) idx chain = some ch ∧
      res.2.2 = ch.filter (fun c => (s0.ca.cl c).symmetry) := by
  intro fuel
  induction fuel with
  | zero => intro a first cr idx ccs chain res _ _ h; cases h
  | succ n ih =>
    intro a first cr idx ccs chain res hk hc h
    rw [analyzeLoop_succ] at h
    rw [analyzeChain_succ]
    have hk1 : anaKey (analyzeClause a cr first).s = anaKey s0 :=
      (analyzeClause_key a cr first).trans hk
    have hsym : (a.s.ca.cl cr).symmetry = (s0.ca.cl cr).symmetry :=
      (anaKey_fsymmetry hk cr).2
    have hc1 : (if (a.s.ca.cl cr).symmetry = true then ccs ++ [cr] else ccs) =
        (chain ++ [cr]).filter (fun c => (s0.ca.cl c).symmetry) := by
      rw [List.filter_append, ← hc, hsym]
      by_cases hb : (s0.ca.cl cr).symmetry = true
      · rw [if_pos hb, List.filter_cons_of_pos (by simpa using hb)]
        rfl
      · rw [if_neg hb, List.filter_cons_of_neg (by simpa using hb)]
        simp
    cases hw : analyzeWalk (analyzeClause a cr first).s idx with
    | none => rw [hw] at h; cases h
    | some pos =>
      rw [hw] at h
      dsimp only at h ⊢
      by_cases hp : (analyzePivot (analyzeClause a cr first)
          ((analyzeClause a cr first).s.trail.getD pos 0)).pathC > 0
      · rw [if_pos hp] at h
        rw [if_pos hp]
        cases hr : reason (analyzeClause a cr first).s
            (var ((analyzeClause a cr first).s.trail.getD pos 0)) with
        | none => rw [hr, analyzeLoop_none] at h; cases h
        | some cr' =>
          rw [hr] at h
          refine ih _ _ _ _ _ _ _ ?_ hc1 h
          show anaKey (setSeen _ _ 0) = _
          rw [anaKey_setSeen]
          exact hk1
      · rw [if_neg hp] at h
        rw [if_neg hp]
        have e := Option.some.inj h
        rw [← e]
        refine ⟨?_, _, rfl, hc1⟩
        show anaKey (setSeen _ _ 0) = _
        rw [anaKey_setSeen]
        exact hk1

/-- The set `comp` that `analyze` computes from `conf_clauses` when `out_symmetry` is set. -/
theorem analyze_comp {fuel : Nat} {s : Solver} {confl : CRef} {r : AnalyzeResult × Solver}
    (h : analyze fuel s confl = some r) (hsym : r.1.out_symmetry = true) :
    ∃ res m, analyzeLoop (s.trail.length + 1)
        { s := s, pathC := 0, out := [], out_symmetry := false } true (some confl)
        s.trail.length [] = some res ∧
      minimize fuel (setToclear res.1.s (neg res.2.1 :: res.1.out)) res.1.out = some m ∧
      analyzeComp m.2 (s.ca.cl confl).fsymmetry res.2.2 = some r.1.comp := by
  obtain ⟨res, m, h1, h2, -, -, h5, -⟩ := analyze_parts h
  refine ⟨res, m, h1, h2, ?_⟩
  unfold analyze at h
  rw [h1] at h
  dsimp only at h
  rw [h2] at h
  dsimp only at h
  have hne : ¬ res.1.out_symmetry = false := by
    rw [← h5, hsym]; simp
  rw [if_neg hne] at h
  cases hc : analyzeComp m.2 (s.ca.cl confl).fsymmetry res.2.2 with
  | none => rw [hc] at h; cases h
  | some cs =>
    rw [hc] at h
    have e := Option.some.inj h
    rw [← e]

/-- C27: when `analyze` returns with `out_symmetry` set, the compatibility set returned holds
exactly the following symmetries.  If the conflict clause is not `first_symmetry`: the
symmetries that are in the compatibility set of every symmetry-tagged clause of the
resolution chain, provided there is such a clause (the intersection, computed in place), and
the registered symmetries that stabilize `out_learnt`.  If the conflict clause is
`first_symmetry`: the registered symmetries that stabilize `out_learnt`.  The resolution
chain is the list `chain` of the clauses that the loop of `analyze` looks at; the compatibility
sets of its clauses are increasing lists. -/
theorem analyze_compat (fuel : Nat) (S : SymSolver) (confl : CRef)
    (r : AnalyzeResult × Solver) (chain : List CRef)
    (hch : analyzeChain (S.solver.trail.length + 1)
        { s := S.solver, pathC := 0, out := [], out_symmetry := false } true (some confl)
        S.solver.trail.length [] = some chain)
    (hs : ∀ cr ∈ chain, ((S.solver.ca.cl cr).scompat.getD []).Sorted (· < ·))
    (h : analyzeSym fuel S confl = some r) (hsym : r.1.out_symmetry = true) :
      ∀ i, i ∈ r.1.comp ↔
        ((S.solver.ca.cl confl).fsymmetry = false ∧
          (∃ cr ∈ chain, (S.solver.ca.cl cr).symmetry = true) ∧
          ∀ cr ∈ chain, (S.solver.ca.cl cr).symmetry = true →
            i ∈ (S.solver.ca.cl cr).scompat.getD []) ∨
        ∃ σ ∈ S.symmetries, σ.id = i ∧ stabilize r.2 σ r.1.out_learnt = true := by
  unfold analyzeSym at h
  cases ha : analyze fuel S.solver confl with
  | none => rw [ha] at h; cases h
  | some r0 =>
    rw [ha] at h
    dsimp only at h
    by_cases h0 : r0.1.out_symmetry = false
    · rw [if_pos h0] at h
      have e := Option.some.inj h
      rw [← e, h0] at hsym
      cases hsym
    rw [if_neg h0] at h
    have e := Option.some.inj h
    have h0' : r0.1.out_symmetry = true := by simpa using h0
    obtain ⟨res, m, h1, h2, h3⟩ := analyze_comp ha h0'
    obtain ⟨k1, ch, c1, c2⟩ := analyzeLoop_chain S.solver _ _ _ _ _ [] [] res rfl rfl h1
    have hkm : anaKey m.2 = anaKey S.solver := by
      have := (minimize_facts h2).2.1
      rw [this, anaKey_setToclear]
      exact k1
    have hsc : ∀ cr, (m.2.ca.cl cr).scompat = (S.solver.ca.cl cr).scompat :=
      fun cr => anaKey_scompat hkm cr
    have hchain : ch = chain := Option.some.inj (c1.symm.trans hch)
    subst hchain
    have hsm : ∀ cr ∈ res.2.2, ∀ c, (m.2.ca.cl cr).scompat = some c → c.Sorted (· < ·) := by
      intro cr hcr c hc
      rw [hsc] at hc
      rw [c2, List.mem_filter] at hcr
      have := hs cr hcr.1
      rw [hc] at this
      exact this
    intro i
    have hcomp : r.1.comp = stabLoop (fun σ => stabilize r0.2 σ r0.1.out_learnt)
        S.symmetries.reverse r0.1.comp := by rw [← e]
    have hr2 : r.2 = r0.2 := by rw [← e]
    have hol : r.1.out_learnt = r0.1.out_learnt := by rw [← e]
    rw [hcomp, mem_stabLoop_iff, hr2, hol]
    have hsymm : (∃ σ ∈ S.symmetries.reverse, σ.id = i ∧
          (fun σ => stabilize r0.2 σ r0.1.out_learnt) σ = true) ↔
        ∃ σ ∈ S.symmetries, σ.id = i ∧ stabilize r0.2 σ r0.1.out_learnt = true := by
      constructor
      · rintro ⟨σ, a, b⟩; exact ⟨σ, List.mem_reverse.mp a, b⟩
      · rintro ⟨σ, a, b⟩; exact ⟨σ, List.mem_reverse.mpr a, b⟩
    rw [hsymm]
    apply or_congr_left
    unfold analyzeComp at h3
    by_cases hf : (S.solver.ca.cl confl).fsymmetry = false
    · rw [if_pos hf] at h3
      rw [compLoop_start m.2 res.2.2 hsm _ h3 i, c2]
      constructor
      · rintro ⟨p, q⟩
        refine ⟨hf, ?_, ?_⟩
        · obtain ⟨c, hc⟩ := List.exists_mem_of_ne_nil _ p
          rw [List.mem_filter] at hc
          exact ⟨c, hc.1, hc.2⟩
        · intro cr hcr hsy
          have := q cr (List.mem_filter.mpr ⟨hcr, hsy⟩)
          rw [hsc] at this
          exact this
      · rintro ⟨-, ⟨c, hc, hsy⟩, q⟩
        refine ⟨List.ne_nil_of_mem (List.mem_filter.mpr ⟨hc, hsy⟩), ?_⟩
        intro cr hcr
        rw [List.mem_filter] at hcr
        rw [hsc]
        exact q cr hcr.1 hcr.2
    · rw [if_neg hf] at h3
      have e3 := Option.some.inj h3
      rw [← e3]
      constructor
      · intro hi; cases hi
      · rintro ⟨p, -⟩; exact absurd p hf

end Minisat


namespace Minisat
open lbool

/-! ## `reduceDB`: which clauses are removed -/

/-- The state `S` reads like `s0` in the test of the loop of `reduceDB`. -/
theorem reduceDB_test {s0 S : Solver} (ha : S.assigns = s0.assigns)
    (hv : S.vardata = s0.vardata)
    (hl : ∀ c, (S.ca.cl c).lits = (s0.ca.cl c).lits ∧
      (S.ca.cl c).activity = (s0.ca.cl c).activity) (i : Nat) (cr : CRef) :
    ((S.ca.cl cr).size > 2 ∧ locked S cr = false ∧
      (i < s0.learnts.length / 2 ∨
        (S.ca.cl cr).activity < s0.cla_inc / (s0.learnts.length : ℚ))) ↔
    reduceDBCond s0 i cr = true := by
  have hlk : locked S cr = locked s0 cr := by
    unfold locked Clause.get reason
    rw [(hl cr).1, hv, value_of_assigns_eq (congrFun ha _)]
  unfold reduceDBCond Clause.size
  rw [hlk, (hl cr).1, (hl cr).2]
  simp only [Bool.and_eq_true, Bool.or_eq_true, decide_eq_true_eq, Bool.not_eq_true']
  tauto

theorem removeClause_some {s : Solver} {cr : CRef} (h : (s.ca.cl cr).size > 1) :
    ∃ t, removeClause s cr = some t := by
  unfold removeClause detachClause
  rw [if_pos h]
  exact ⟨_, rfl⟩

/-- The loop of `reduceDB`: it returns; the entries that pass the test are dropped, marked
deleted and lazily detached; the other clauses are left alone. -/
theorem reduceDBLoop_removal (s0 : Solver) :
    ∀ (crs : List CRef) (S : Solver) (i : Nat),
      S.assigns = s0.assigns → S.vardata = s0.vardata →
      (∀ c, (S.ca.cl c).lits = (s0.ca.cl c).lits ∧
        (S.ca.cl c).activity = (s0.ca.cl c).activity) →
      ∃ u, reduceDBLoop s0.learnts.length (s0.cla_inc / (s0.learnts.length : ℚ)) S i crs =
          some (((crs.enumFrom i).filter (fun p => !reduceDBCond s0 p.1 p.2)).map Prod.snd, u) ∧
        (∀ c, (S.ca.cl c).mark = 1 → (u.ca.cl c).mark = 1) ∧
        (∀ l, S.dirty l = true → u.dirty l = true) ∧
        (∀ p ∈ crs.enumFrom i, reduceDBCond s0 p.1 p.2 = true →
          (u.ca.cl p.2).mark = 1 ∧ u.dirty (neg ((s0.ca.cl p.2).get 0)) = true ∧
          u.dirty (neg ((s0.ca.cl p.2).get 1)) = true) ∧
        (∀ c, (∀ p ∈ crs.enumFrom i, p.2 = c → reduceDBCond s0 p.1 c = false) →
          u.ca.cl c = S.ca.cl c) ∧
        u.vardata = S.vardata ∧ u.assigns = S.assigns ∧ u.trail = S.trail ∧
        u.watches = S.watches ∧ u.clauses = S.clauses := by
  intro crs
  induction crs with
  | nil =>
    intro S i _ _ _
    exact ⟨S, rfl, fun _ h => h, fun _ h => h, fun p hp => absurd hp (List.not_mem_nil _),
      fun _ _ => rfl, rfl, rfl, rfl, rfl, rfl⟩
  | cons cr crs ih =>
    intro S i ha hv hl
    have htest := reduceDB_test ha hv hl i cr
    unfold reduceDBLoop
    rw [List.enumFrom_cons]
    by_cases hc : reduceDBCond s0 i cr = true
    · rw [if_pos (htest.mpr hc)]
      obtain ⟨h1, h2, -⟩ := htest.mpr hc
      obtain ⟨S1, hS1⟩ := removeClause_some (show (S.ca.cl cr).size > 1 by omega)
      rw [hS1]
      dsimp only
      have hr := removeClause_spec hS1
      have hv1 : S1.vardata = S.vardata := by
        rw [hr.vardata, h2]; simp
      have hl1 : ∀ c, (S1.ca.cl c).lits = (s0.ca.cl c).lits ∧
          (S1.ca.cl c).activity = (s0.ca.cl c).activity := by
        intro c
        by_cases e : c = cr
        · rw [e, hr.cl_self]; exact hl cr
        · rw [hr.cl_other c e]; exact hl c
      obtain ⟨u, e, b1, b2, b3, b4, b5, b6, b7, b8, b9⟩ :=
        ih S1 (i + 1) (hr.assigns.trans ha) (hv1.trans hv) hl1
      have hmk : (S1.ca.cl cr).mark = 1 := by rw [hr.cl_self]
      refine ⟨u, ?_, ?_, ?_, ?_, ?_, b5.trans hv1, b6.trans hr.assigns, b7.trans hr.trail,
        b8.trans hr.watches, b9.trans hr.clauses⟩
      · rw [e, List.filter_cons_of_neg (by simp [hc])]
      · intro c hm
        apply b1
        by_cases e' : c = cr
        · rw [e']; exact hmk
        · rw [hr.cl_other c e']; exact hm
      · intro l hd
        exact b2 l ((hr.dirty l).mpr (Or.inl hd))
      · intro p hp hcond
        rcases List.mem_cons.mp hp with e' | e'
        · rw [e']
          dsimp only
          have g0 : (s0.ca.cl cr).get 0 = (S.ca.cl cr).get 0 := by
            unfold Clause.get; rw [(hl cr).1]
          have g1 : (s0.ca.cl cr).get 1 = (S.ca.cl cr).get 1 := by
            unfold Clause.get; rw [(hl cr).1]
          rw [g0, g1]
          exact ⟨b1 cr hmk, b2 _ ((hr.dirty _).mpr (Or.inr (Or.inl rfl))),
            b2 _ ((hr.dirty _).mpr (Or.inr (Or.inr rfl)))⟩
        · exact b3 p e' hcond
      · intro c hcnd
        have hne : c ≠ cr := by
          intro e'
          have := hcnd (i, cr) (List.mem_cons_self _ _) e'.symm
          rw [e'] at this
          rw [this] at hc
          cases hc
        rw [b4 c (fun p hp => hcnd p (List.mem_cons_of_mem _ hp)), hr.cl_other c hne]
    · rw [if_neg (fun h => hc (htest.mp h))]
      obtain ⟨u, e, b1, b2, b3, b4, b5⟩ := ih S (i + 1) ha hv hl
      refine ⟨u, ?_, b1, b2, ?_, ?_, b5⟩
      · rw [e, List.filter_cons_of_pos (by simpa using hc)]
        rfl
      · intro p hp hcond
        rcases List.mem_cons.mp hp with e' | e'
        · rw [e'] at hcond; exact absurd hcond hc
        · exact b3 p e' hcond
      · intro c hcnd
        exact b4 c (fun p hp => hcnd p (List.mem_cons_of_mem _ hp))

/-- C30: `reduceDB` sorts `learnts` with `reduceDB_lt` and runs its loop, which returns: the
entry `cr` at the index `i` of the sorted vector is dropped exactly when the clause has more
than two literals, is not locked, and `i` is in the first half or the activity is below
`cla_inc / learnts.size()`; so no binary clause and no locked clause is dropped.  A dropped
clause is marked deleted and detached in the lazy way of `detachClause` (the watcher lists of
the negations of its two watched literals are marked dirty); a clause of which no entry is
dropped is left as it was; the entries that stay keep their order; and `reduceDB` ends with
`checkGarbage` on that state. -/
theorem reduceDB_removal (s : Solver) :
    ∃ u, reduceDBLoop s.learnts.length (s.cla_inc / (s.learnts.length : ℚ))
        (setLearnts s (sortLearnts s)) 0 (sortLearnts s) =
        some ((((sortLearnts s).enum).filter (fun p => !reduceDBCond s p.1 p.2)).map Prod.snd,
          u) ∧
      reduceDB s = checkGarbage (setLearnts u
        ((((sortLearnts s).enum).filter (fun p => !reduceDBCond s p.1 p.2)).map Prod.snd)) ∧
      (∀ i cr, (reduceDBCond s i cr = true ↔
        ((s.ca.cl cr).size > 2 ∧ locked s cr = false ∧
          (i < s.learnts.length / 2 ∨
            (s.ca.cl cr).activity < s.cla_inc / (s.learnts.length : ℚ))))) ∧
      (∀ p ∈ (sortLearnts s).enum, ((s.ca.cl p.2).size ≤ 2 ∨ locked s p.2 = true) →
        p.2 ∈ (((sortLearnts s).enum).filter (fun p => !reduceDBCond s p.1 p.2)).map
          Prod.snd) ∧
      (∀ p ∈ (sortLearnts s).enum, reduceDBCond s p.1 p.2 = true →
        (u.ca.cl p.2).mark = 1 ∧ u.dirty (neg ((s.ca.cl p.2).get 0)) = true ∧
        u.dirty (neg ((s.ca.cl p.2).get 1)) = true) ∧
      (∀ c, (∀ p ∈ (sortLearnts s).enum, p.2 = c → reduceDBCond s p.1 c = false) →
        u.ca.cl c = s.ca.cl c) ∧
      ((((sortLearnts s).enum).filter (fun p => !reduceDBCond s p.1 p.2)).map Prod.snd).Sublist
        (sortLearnts s) ∧
      u.watches = s.watches ∧ u.clauses = s.clauses ∧ u.trail = s.trail ∧
      u.assigns = s.assigns := by
  obtain ⟨u, e, -, -, b3, b4, -, b6, b7, b8, b9⟩ :=
    reduceDBLoop_removal s (sortLearnts s) (setLearnts s (sortLearnts s)) 0 rfl rfl
      (fun _ => ⟨rfl, rfl⟩)
  have hcond : ∀ i cr, (reduceDBCond s i cr = true ↔
      ((s.ca.cl cr).size > 2 ∧ locked s cr = false ∧
        (i < s.learnts.length / 2 ∨
          (s.ca.cl cr).activity < s.cla_inc / (s.learnts.length : ℚ)))) :=
    fun i cr => (@reduceDB_test s s rfl rfl (fun _ => ⟨rfl, rfl⟩) i cr).symm
  refine ⟨u, e, ?_, hcond, ?_, b3, b4, ?_, b8, b9, b7, b6⟩
  · unfold reduceDB
    rw [e]
    rfl
  · intro p hp hor
    rw [List.mem_map]
    refine ⟨p, List.mem_filter.mpr ⟨hp, ?_⟩, rfl⟩
    have hn : ¬ reduceDBCond s p.1 p.2 = true := by
      intro hc
      obtain ⟨c1, c2, -⟩ := (hcond p.1 p.2).mp hc
      rcases hor with h | h
      · omega
      · rw [c2] at h; cases h
    simpa using hn
  · have h1 : (((sortLearnts s).enum).filter
        (fun p => !reduceDBCond s p.1 p.2)).Sublist (sortLearnts s).enum :=
      List.filter_sublist _
    have h2 := h1.map Prod.snd
    have h3 : (sortLearnts s).enum.map Prod.snd = sortLearnts s := List.enum_map_snd _
    rw [h3] at h2
    exact h2

end Minisat


namespace Minisat
open lbool

/-! ## Symmetrical propagation -/

/-- The steps of a call of `propagateSymmetrical` that returns. -/
theorem propagateSymmetrical_parts {gssc : Solver → Symmetry → Clause → List Lit}
    {P P' : PropSolver} {σ : Symmetry} {l : Lit} {r : Option CRef}
    (h : propagateSymmetrical gssc P σ l = some (r, P')) :
    value P.sym.solver (σ.getSymmetrical l) ≠ l_True ∧
    ∃ implic isSym isFirst compat s3,
      symImplic gssc P.sym.solver σ l = some (implic, isSym, isFirst) ∧
      2 ≤ implic.length ∧
      value (symBacktrack P.sym.solver implic) (implic.getD 0 0) ≠ l_True ∧
      value (symBacktrack P.sym.solver implic) (implic.getD 1 0) = l_False ∧
      symCompat (symBacktrack P.sym.solver implic) isSym l = some compat ∧
      ((value (symBacktrack P.sym.solver implic) (implic.getD 0 0) = l_Undef ∧
        (if P.addPropagationClauses then
          symStore (setCa (symBacktrack P.sym.solver implic)
            ((symBacktrack P.sym.solver implic).ca.alloc implic true isFirst isSym compat).2)
            (symBacktrack P.sym.solver implic).ca.size
         else some (setCa (symBacktrack P.sym.solver implic)
            ((symBacktrack P.sym.solver implic).ca.alloc implic true isFirst isSym compat).2))
          = some s3 ∧
        uncheckedEnqueue s3 (implic.getD 0 0) (some (symBacktrack P.sym.solver implic).ca.size)
          = some P'.sym.solver ∧ r = none) ∨
       (value (symBacktrack P.sym.solver implic) (implic.getD 0 0) = l_False ∧
        (if P.addConflictClauses then
          symStore (setCa (symBacktrack P.sym.solver implic)
            ((symBacktrack P.sym.solver implic).ca.alloc implic true isFirst isSym compat).2)
            (symBacktrack P.sym.solver implic).ca.size
         else some (setCa (symBacktrack P.sym.solver implic)
            ((symBacktrack P.sym.solver implic).ca.alloc implic true isFirst isSym compat).2))
          = some s3 ∧
        P'.sym.solver = s3 ∧ r = some (symBacktrack P.sym.solver implic).ca.size)) ∧
      P'.sym.symmetries = P.sym.symmetries := by
  unfold propagateSymmetrical at h
  by_cases h0 : value P.sym.solver (σ.getSymmetrical l) = l_True
  · rw [if_pos h0] at h; cases h
  rw [if_neg h0] at h
  refine ⟨h0, ?_⟩
  cases hi : symImplic gssc P.sym.solver σ l with
  | none => rw [hi] at h; cases h
  | some t =>
    obtain ⟨implic, isSym, isFirst⟩ := t
    rw [hi] at h
    dsimp only at h
    by_cases h1 : implic.length < 2
    · rw [if_pos h1] at h; cases h
    rw [if_neg h1] at h
    by_cases h2 : value (symBacktrack P.sym.solver implic) (implic.getD 0 0) = l_True
    · rw [if_pos h2] at h; cases h
    rw [if_neg h2] at h
    by_cases h3 : value (symBacktrack P.sym.solver implic) (implic.getD 1 0) ≠ l_False
    · rw [if_pos h3] at h; cases h
    rw [if_neg h3] at h
    have h3' : value (symBacktrack P.sym.solver implic) (implic.getD 1 0) = l_False := by
      by_contra hc; exact h3 hc
    cases hc : symCompat (symBacktrack P.sym.solver implic) isSym l with
    | none => rw [hc] at h; cases h
    | some compat =>
      rw [hc] at h
      dsimp only at h
      have hval : ∀ x, value (setCa (symBacktrack P.sym.solver implic)
          ((symBacktrack P.sym.solver implic).ca.alloc implic true isFirst isSym compat).2) x =
          value (symBacktrack P.sym.solver implic) x := fun _ => rfl
      rw [hval] at h
      by_cases h4 : value (symBacktrack P.sym.solver implic) (implic.getD 0 0) = l_Undef
      · rw [if_pos h4] at h
        cases ht : testPropagationClause (setCa (symBacktrack P.sym.solver implic)
            ((symBacktrack P.sym.solver implic).ca.alloc implic true isFirst isSym compat).2)
            P.sym.debug l implic with
        | none => rw [ht] at h; cases h
        | some b =>
          rw [ht] at h
          cases b with
          | false => cases h
          | true =>
            dsimp only at h
            generalize hst : (if P.addPropagationClauses = true then
                symStore (setCa (symBacktrack P.sym.solver implic)
                  ((symBacktrack P.sym.solver implic).ca.alloc implic true isFirst isSym
                    compat).2)
                  ((symBacktrack P.sym.solver implic).ca.alloc implic true isFirst isSym
                    compat).1
                else some (setCa (symBacktrack P.sym.solver implic)
                  ((symBacktrack P.sym.solver implic).ca.alloc implic true isFirst isSym
                    compat).2)) = st at h
            cases st with
            | none => cases h
            | some s3 =>
              dsimp only at h
              cases he : uncheckedEnqueue s3 (implic.getD 0 0)
                  (some ((symBacktrack P.sym.solver implic).ca.alloc implic true isFirst isSym
                    compat).1) with
              | none => rw [he] at h; cases h
              | some s4 =>
                rw [he] at h
                simp only [Option.some.injEq, Prod.mk.injEq] at h
                obtain ⟨rfl, rfl⟩ := h
                exact ⟨implic, isSym, isFirst, compat, s3, rfl, by omega, h2, h3', hc,
                  Or.inl ⟨h4, hst, he, rfl⟩, rfl⟩
      · rw [if_neg h4] at h
        by_cases h5 : value (symBacktrack P.sym.solver implic) (implic.getD 0 0) ≠ l_False
        · rw [if_pos h5] at h; cases h
        rw [if_neg h5] at h
        have h5' : value (symBacktrack P.sym.solver implic) (implic.getD 0 0) = l_False := by
          by_contra hc'; exact h5 hc'
        cases ht : testConflictClause (setCa (symBacktrack P.sym.solver implic)
            ((symBacktrack P.sym.solver implic).ca.alloc implic true isFirst isSym compat).2)
            P.sym.debug l implic with
        | none => rw [ht] at h; cases h
        | some b =>
          rw [ht] at h
          cases b with
          | false => cases h
          | true =>
            dsimp only at h
            generalize hst : (if P.addConflictClauses = true then
                symStore (setCa (symBacktrack P.sym.solver implic)
                  ((symBacktrack P.sym.solver implic).ca.alloc implic true isFirst isSym
                    compat).2)
                  ((symBacktrack P.sym.solver implic).ca.alloc implic true isFirst isSym
                    compat).1
                else some (setCa (symBacktrack P.sym.solver implic)
                  ((symBacktrack P.sym.solver implic).ca.alloc implic true isFirst isSym
                    compat).2)) = st at h
            cases st with
            | none => cases h
            | some s3 =>
              simp only [Option.some.injEq, Prod.mk.injEq] at h
              obtain ⟨rfl, rfl⟩ := h
              exact ⟨implic, isSym, isFirst, compat, s3, rfl, by omega, h2, h3', hc,
                Or.inr ⟨h5', hst, rfl, rfl⟩, rfl⟩

/-- The storing of the new clause leaves the literals and the headers of the clauses alone
and appends the reference to `learnts`. -/
theorem symStore_facts {s t : Solver} {cr : CRef} (h : symStore s cr = some t) :
    (∀ c, (t.ca.cl c).lits = (s.ca.cl c).lits ∧ (t.ca.cl c).learnt = (s.ca.cl c).learnt ∧
      (t.ca.cl c).symmetry = (s.ca.cl c).symmetry ∧
      (t.ca.cl c).fsymmetry = (s.ca.cl c).fsymmetry ∧
      (t.ca.cl c).scompat = (s.ca.cl c).scompat ∧ (t.ca.cl c).mark = (s.ca.cl c).mark) ∧
    t.learnts = s.learnts ++ [cr] ∧ t.assigns = s.assigns ∧ t.vardata = s.vardata ∧
    t.trail = s.trail ∧ t.trail_lim = s.trail_lim ∧ t.clauses = s.clauses ∧
    (⟨cr, (s.ca.cl cr).get 1⟩ : Watcher) ∈ t.watches (neg ((s.ca.cl cr).get 0)) ∧
    (⟨cr, (s.ca.cl cr).get 0⟩ : Watcher) ∈ t.watches (neg ((s.ca.cl cr).get 1)) := by
  unfold symStore at h
  cases ha : attachClause (pushLearnt s cr) cr with
  | none => rw [ha] at h; cases h
  | some u =>
    rw [ha] at h
    simp only [Option.map_some', Option.some.injEq] at h
    subst h
    have hk := anaKey_claBumpActivity u cr
    have hf := anaKey_frame hk
    have hca : u.ca = s.ca := (attachClause_cl ha).trans rfl
    have hu := ha
    unfold attachClause at hu
    split_ifs at hu
    simp only [Option.some.injEq] at hu
    have hfields : u.learnts = s.learnts ++ [cr] ∧ u.assigns = s.assigns ∧
        u.vardata = s.vardata ∧ u.trail = s.trail ∧ u.trail_lim = s.trail_lim ∧
        u.clauses = s.clauses := by
      rw [← hu]
      unfold countAttach
      split_ifs <;> exact ⟨rfl, rfl, rfl, rfl, rfl, rfl⟩
    obtain ⟨f1, f2, f3, f4, f5, f6⟩ := hfields
    refine ⟨?_, hf.learnts.trans f1, hf.assigns.trans f2, hf.vardata.trans f3,
      hf.trail.trans f4, hf.trail_lim.trans f5, hf.clauses.trans f6, ?_, ?_⟩
    · intro c
      refine ⟨?_, ?_, ?_, ?_, ?_, ?_⟩
      · rw [hf.lits, hca]
      · rw [hf.learnt, hca]
      · rw [(anaKey_fsymmetry hk c).2, hca]
      · rw [(anaKey_fsymmetry hk c).1, hca]
      · rw [anaKey_scompat hk, hca]
      · rw [hf.mark, hca]
    · rw [hf.watches, ← hu, countAttach_watches_eq]
      apply mem_pushWatch_mono
      exact mem_pushWatch_self _ _ _
    · rw [hf.watches, ← hu, countAttach_watches_eq]
      exact mem_pushWatch_self _ _ _

theorem symBacktrack_fields (s : Solver) (implic : List Lit) :
    (symBacktrack s implic).ca = s.ca ∧ (symBacktrack s implic).vardata = s.vardata ∧
    (symBacktrack s implic).learnts = s.learnts ∧
    (symBacktrack s implic).watches = s.watches ∧
    (symBacktrack s implic).clauses = s.clauses := by
  unfold symBacktrack
  split_ifs
  · obtain ⟨g1, g2, -, -, g5, g6, g7, -⟩ :=
      cancelUntilKey_fields (cancelUntilKey_cancelUntil s (level s (var (implic.getD 1 0))))
    exact ⟨g7, g1, g6, g2, g5⟩
  · exact ⟨rfl, rfl, rfl, rfl, rfl⟩

/-- The clause that a call of `propagateSymmetrical` allocates, as it is on return. -/
theorem propagateSymmetrical_clause {gssc : Solver → Symmetry → Clause → List Lit}
    {P P' : PropSolver} {σ : Symmetry} {l : Lit} {r : Option CRef}
    (h : propagateSymmetrical gssc P σ l = some (r, P')) :
    ∃ implic isSym isFirst compat,
      symImplic gssc P.sym.solver σ l = some (implic, isSym, isFirst) ∧
      symCompat (symBacktrack P.sym.solver implic) isSym l = some compat ∧
      (P'.sym.solver.ca.cl P.sym.solver.ca.size).lits = implic ∧
      (P'.sym.solver.ca.cl P.sym.solver.ca.size).learnt = true ∧
      (P'.sym.solver.ca.cl P.sym.solver.ca.size).symmetry = isSym ∧
      (P'.sym.solver.ca.cl P.sym.solver.ca.size).fsymmetry = isFirst ∧
      (P'.sym.solver.ca.cl P.sym.solver.ca.size).scompat = compat ∧
      ∀ c, c ≠ P.sym.solver.ca.size →
        (P'.sym.solver.ca.cl c).symmetry = (P.sym.solver.ca.cl c).symmetry ∧
        (P'.sym.solver.ca.cl c).fsymmetry = (P.sym.solver.ca.cl c).fsymmetry := by
  obtain ⟨-, implic, isSym, isFirst, compat, s3, h1, -, -, -, h5, h6, -⟩ :=
    propagateSymmetrical_parts h
  obtain ⟨b1, -, -, -, -⟩ := symBacktrack_fields P.sym.solver implic
  refine ⟨implic, isSym, isFirst, compat, h1, h5, ?_⟩
  have hsz : (symBacktrack P.sym.solver implic).ca.size = P.sym.solver.ca.size := by rw [b1]
  have hnew : ∀ s3 : Solver, ∀ flag : Bool,
      (if flag = true then
          symStore (setCa (symBacktrack P.sym.solver implic)
            ((symBacktrack P.sym.solver implic).ca.alloc implic true isFirst isSym compat).2)
            (symBacktrack P.sym.solver implic).ca.size
         else some (setCa (symBacktrack P.sym.solver implic)
            ((symBacktrack P.sym.solver implic).ca.alloc implic true isFirst isSym compat).2))
          = some s3 →
      (s3.ca.cl P.sym.solver.ca.size).lits = implic ∧
      (s3.ca.cl P.sym.solver.ca.size).learnt = true ∧
      (s3.ca.cl P.sym.solver.ca.size).symmetry = isSym ∧
      (s3.ca.cl P.sym.solver.ca.size).fsymmetry = isFirst ∧
      (s3.ca.cl P.sym.solver.ca.size).scompat = compat ∧
      ∀ c, c ≠ P.sym.solver.ca.size →
        (s3.ca.cl c).symmetry = (P.sym.solver.ca.cl c).symmetry ∧
        (s3.ca.cl c).fsymmetry = (P.sym.solver.ca.cl c).fsymmetry := by
    intro s3 flag hs3
    have hbase : ((setCa (symBacktrack P.sym.solver implic)
        ((symBacktrack P.sym.solver implic).ca.alloc implic true isFirst isSym compat).2).ca.cl
        P.sym.solver.ca.size) =
        { lits := implic, learnt := true, fsymmetry := isFirst, symmetry := isSym,
          scompat := compat, activity := 0, mark := 0, reloced := false, relocation := 0 } := by
      show Function.update (symBacktrack P.sym.solver implic).ca.cl
        (symBacktrack P.sym.solver implic).ca.size _ P.sym.solver.ca.size = _
      rw [hsz, Function.update_same]
    have hother : ∀ c, c ≠ P.sym.solver.ca.size →
        ((setCa (symBacktrack P.sym.solver implic)
        ((symBacktrack P.sym.solver implic).ca.alloc implic true isFirst isSym compat).2).ca.cl
        c) = P.sym.solver.ca.cl c := by
      intro c hc
      show Function.update (symBacktrack P.sym.solver implic).ca.cl
        (symBacktrack P.sym.solver implic).ca.size _ c = _
      rw [hsz, Function.update_noteq hc, b1]
    by_cases hfl : flag = true
    · rw [if_pos hfl] at hs3
      obtain ⟨c1, -⟩ := symStore_facts hs3
      obtain ⟨d1, d2, d3, d4, d5, -⟩ := c1 P.sym.solver.ca.size
      refine ⟨by rw [d1, hbase], by rw [d2, hbase], by rw [d3, hbase], by rw [d4, hbase],
        by rw [d5, hbase], ?_⟩
      intro c hc
      obtain ⟨-, -, e3, e4, -, -⟩ := c1 c
      rw [e3, e4, hother c hc]
      exact ⟨rfl, rfl⟩
    · rw [if_neg hfl] at hs3
      have e := Option.some.inj hs3
      rw [← e]
      refine ⟨by rw [hbase], by rw [hbase], by rw [hbase], by rw [hbase], by rw [hbase], ?_⟩
      intro c hc
      rw [hother c hc]
      exact ⟨rfl, rfl⟩
  rcases h6 with ⟨-, hst, he, -⟩ | ⟨-, hst, he, -⟩
  · have hca : P'.sym.solver.ca = s3.ca := by
      obtain ⟨-, e⟩ := uncheckedEnqueue_eq he
      rw [e]
    rw [hca]
    exact hnew s3 _ hst
  · rw [he]
    exact hnew s3 _ hst

/-- C25, as the code has it.  The clause that `propagateSymmetrical(sym, l)` allocates (at
the end of the arena) is a learnt clause.  For a literal `l` of level 0 its literals are
`sym(l)`, `not l`, the flags `symmetry` and `first_symmetry` are both false and it has no
compatibility set.  Otherwise, with `R` the reason clause of `l`, its literals are the ones
that `getSortedSymmetricalClause` gives for `R`, its flags `symmetry` and `first_symmetry` are
those of `R`, and its compatibility set is a copy of the one of `R` when `R` is
symmetry-tagged and absent otherwise. -/
theorem propagateSymmetrical_flags (gssc : Solver → Symmetry → Clause → List Lit)
    (P P' : PropSolver) (σ : Symmetry) (l : Lit) (r : Option CRef)
    (h : propagateSymmetrical gssc P σ l = some (r, P')) :
    (P'.sym.solver.ca.cl P.sym.solver.ca.size).learnt = true ∧
    (level P.sym.solver (var l) = 0 →
      (P'.sym.solver.ca.cl P.sym.solver.ca.size).lits = [σ.getSymmetrical l, neg l] ∧
      (P'.sym.solver.ca.cl P.sym.solver.ca.size).symmetry = false ∧
      (P'.sym.solver.ca.cl P.sym.solver.ca.size).fsymmetry = false ∧
      (P'.sym.solver.ca.cl P.sym.solver.ca.size).scompat = none) ∧
    (level P.sym.solver (var l) ≠ 0 →
      ∃ R, reason P.sym.solver (var l) = some R ∧
        (P'.sym.solver.ca.cl P.sym.solver.ca.size).lits =
          gssc P.sym.solver σ (P.sym.solver.ca.cl R) ∧
        (P'.sym.solver.ca.cl P.sym.solver.ca.size).symmetry =
          (P.sym.solver.ca.cl R).symmetry ∧
        (P'.sym.solver.ca.cl P.sym.solver.ca.size).fsymmetry =
          (P.sym.solver.ca.cl R).fsymmetry ∧
        (P'.sym.solver.ca.cl P.sym.solver.ca.size).scompat =
          if (P.sym.solver.ca.cl R).symmetry = true then (P.sym.solver.ca.cl R).scompat
          else none) := by
  obtain ⟨implic, isSym, isFirst, compat, h1, h2, c1, c2, c3, c4, c5, -⟩ :=
    propagateSymmetrical_clause h
  obtain ⟨b1, b2, -, -, -⟩ := symBacktrack_fields P.sym.solver implic
  refine ⟨c2, ?_, ?_⟩
  · intro hl0
    unfold symImplic at h1
    rw [if_pos hl0] at h1
    split_ifs at h1
    simp only [Option.some.injEq, Prod.mk.injEq] at h1
    obtain ⟨rfl, rfl, rfl⟩ := h1
    unfold symCompat at h2
    simp only [Bool.false_eq_true, if_false, Option.some.injEq] at h2
    subst h2
    exact ⟨c1, c3, c4, c5⟩
  · intro hl0
    unfold symImplic at h1
    rw [if_neg hl0] at h1
    cases hr : reason P.sym.solver (var l) with
    | none => rw [hr] at h1; cases h1
    | some R =>
      rw [hr] at h1
      simp only [Option.some.injEq, Prod.mk.injEq] at h1
      obtain ⟨rfl, rfl, rfl⟩ := h1
      refine ⟨R, rfl, c1, c3, c4, ?_⟩
      rw [c5]
      unfold symCompat at h2
      have hrb : reason (symBacktrack P.sym.solver (gssc P.sym.solver σ (P.sym.solver.ca.cl R)))
          (var l) = some R := by
        unfold reason; rw [b2]; exact hr
      by_cases hsy : (P.sym.solver.ca.cl R).symmetry = true
      · rw [if_pos hsy] at h2
        rw [if_pos hsy]
        rw [hrb, b1] at h2
        dsimp only at h2
        cases hsc : (P.sym.solver.ca.cl R).scompat with
        | none => rw [hsc] at h2; cases h2
        | some c =>
          rw [hsc] at h2
          simp only [Option.map_some', Option.some.injEq] at h2
          exact h2.symm
      · rw [if_neg hsy] at h2
        rw [if_neg hsy]
        exact (Option.some.inj h2).symm

end Minisat


namespace Minisat
open lbool

/-! ## `propagate` leaves the headers of the clauses alone -/

theorem hdrKey_setLits (s : Solver) (cr : CRef) (ls : List Lit) :
    hdrKey (setLits s cr ls) = hdrKey s := by
  have h : (fun c => ({ (setLits s cr ls).ca.cl c with lits := [] } : Clause)) =
      fun c => ({ s.ca.cl c with lits := [] } : Clause) := by
    funext c
    show ({ Function.update s.ca.cl cr { s.ca.cl cr with lits := ls } c with lits := [] } :
      Clause) = _
    by_cases e : c = cr
    · rw [e, Function.update_same]
    · rw [Function.update_noteq e]
  unfold hdrKey
  rw [h]
  rfl

theorem hdrKey_pushWatch (s : Solver) (l : Lit) (w : Watcher) :
    hdrKey (pushWatch s l w) = hdrKey s := rfl

theorem hdrKey_setQhead (s : Solver) (q : Nat) : hdrKey (setQhead s q) = hdrKey s := rfl

theorem hdrKey_setWatches (s : Solver) (l : Lit) (ws : List Watcher) :
    hdrKey (setWatches s l ws) = hdrKey s := rfl

theorem hdrKey_tagSymmetryUnit (b : Bool) (s : Solver) (v : Var) :
    hdrKey (tagSymmetryUnit b s v) = hdrKey s := by
  unfold tagSymmetryUnit; split_ifs <;> rfl

theorem hdrKey_uncheckedEnqueue {s s1 : Solver} {p : Lit} {r : Option CRef}
    (h : uncheckedEnqueue s p r = some s1) : hdrKey s1 = hdrKey s := by
  rw [(uncheckedEnqueue_eq h).2]; rfl

theorem hdrKey_watchStep_keep {p : Lit} {b : Bool} {w w1 : Watcher} {s s1 : Solver}
    (h : watchStep p b w s = WStep.keep w1 s1) : hdrKey s1 = hdrKey s := by
  rcases watchStep_keep h with ⟨_, _, rfl⟩ | ⟨_, _, _, ⟨_, rfl⟩ | ⟨_, he⟩⟩
  · rfl
  · rw [hdrKey_setLits]
  · rw [hdrKey_uncheckedEnqueue he, hdrKey_tagSymmetryUnit, hdrKey_setLits]

theorem hdrKey_watchStep_move {p : Lit} {b : Bool} {w : Watcher} {s s1 : Solver}
    (h : watchStep p b w s = WStep.move s1) : hdrKey s1 = hdrKey s := by
  obtain ⟨k, _, _, _, _, _, rfl⟩ := watchStep_move h
  rw [hdrKey_pushWatch, hdrKey_setLits, hdrKey_setLits]

theorem hdrKey_watchStep_conflict {p : Lit} {b : Bool} {w w1 : Watcher} {s s1 : Solver}
    (h : watchStep p b w s = WStep.conflict w1 s1) : hdrKey s1 = hdrKey s := by
  obtain ⟨_, _, _, _, _, rfl⟩ := watchStep_conflict h
  rw [hdrKey_setQhead, hdrKey_setLits]

theorem hdrKey_propagateWatchers (p : Lit) (b : Bool) :
    ∀ (ws : List Watcher) (s : Solver) (r : Option CRef × List Watcher × Solver),
      propagateWatchers p b ws s = some r → hdrKey r.2.2 = hdrKey s := by
  intro ws
  induction ws with
  | nil => intro s r h; simp [propagateWatchers] at h; subst h; rfl
  | cons w rest ih =>
    intro s r h
    rw [propagateWatchers] at h
    split at h
    · cases h
    · rename_i w1 s1 hw
      simp only [Option.map_eq_some'] at h
      obtain ⟨a, ha, rfl⟩ := h
      exact (ih _ _ ha).trans (hdrKey_watchStep_keep hw)
    · rename_i s1 hw
      exact (ih _ _ h).trans (hdrKey_watchStep_move hw)
    · rename_i w1 s1 hw
      cases h
      exact hdrKey_watchStep_conflict hw

theorem hdrKey_lookup (s : Solver) (p : Lit) : hdrKey (lookup s p) = hdrKey s := by
  unfold lookup; split_ifs <;> rfl

theorem hdrKey_propagateLit {p : Lit} {s : Solver} {r : Option CRef × Solver}
    (h : propagateLit p s = some r) : hdrKey r.2 = hdrKey s := by
  unfold propagateLit at h
  split at h
  · cases h
  · rename_i r1 h1
    cases h
    rw [hdrKey_setWatches]
    exact (hdrKey_propagateWatchers _ _ _ _ _ h1).trans (hdrKey_lookup s p)

theorem hdrKey_propagateLoop :
    ∀ (fuel : Nat) (s : Solver) (confl : Option CRef) (n : Nat)
      (r : Option CRef × Nat × Solver),
      propagateLoop fuel s confl n = some r → hdrKey r.2.2 = hdrKey s := by
  intro fuel
  induction fuel with
  | zero =>
    intro s confl n r h
    by_cases hq : s.qhead < s.trail.length
    · rw [propagateLoop_zero hq] at h; cases h
    · rw [propagateLoop_done hq] at h; cases h; rfl
  | succ fuel ih =>
    intro s confl n r h
    by_cases hq : s.qhead < s.trail.length
    · rw [propagateLoop_step hq] at h
      split at h
      · cases h
      · rename_i cr s1 h1
        exact (ih _ _ _ _ h).trans (hdrKey_propagateLit h1)
      · rename_i s1 h1
        refine (ih _ _ _ _ h).trans ?_
        have := hdrKey_propagateLit h1
        split_ifs
        · exact this
        · exact this
    · rw [propagateLoop_done hq] at h; cases h; rfl

theorem hdrKey_propagate {fuel : Nat} {s : Solver} {r : Option CRef × Solver}
    (h : propagate fuel s = some r) : hdrKey r.2 = hdrKey s := by
  unfold propagate at h
  split at h
  · cases h
  · rename_i r1 h1
    cases h
    exact hdrKey_propagateLoop _ _ _ _ _ h1

theorem hdrKey_flags {s t : Solver} (h : hdrKey t = hdrKey s) (cr : CRef) :
    (t.ca.cl cr).fsymmetry = (s.ca.cl cr).fsymmetry ∧
    (t.ca.cl cr).symmetry = (s.ca.cl cr).symmetry ∧
    (t.ca.cl cr).learnt = (s.ca.cl cr).learnt ∧ (t.ca.cl cr).mark = (s.ca.cl cr).mark ∧
    (t.ca.cl cr).scompat = (s.ca.cl cr).scompat :=
  ⟨congrArg (fun x => (x.ca.cl cr).fsymmetry) h, congrArg (fun x => (x.ca.cl cr).symmetry) h,
    congrArg (fun x => (x.ca.cl cr).learnt) h, congrArg (fun x => (x.ca.cl cr).mark) h,
    congrArg (fun x => (x.ca.cl cr).scompat) h⟩

/-! ## `first_symmetry` implies `symmetry` -/

theorem FsOk.of_flags {s t : Solver} (hs : FsOk s)
    (h : ∀ cr, (t.ca.cl cr).fsymmetry = (s.ca.cl cr).fsymmetry ∧
      (t.ca.cl cr).symmetry = (s.ca.cl cr).symmetry) : FsOk t := by
  intro cr hf
  rw [(h cr).1] at hf
  rw [(h cr).2]
  exact hs cr hf

theorem FsOk.of_arena {s t : Solver} (hs : FsOk s) (h : t.ca = s.ca) : FsOk t :=
  hs.of_flags (fun cr => by rw [h]; exact ⟨rfl, rfl⟩)

theorem FsOk.alloc {s : Solver} (hs : FsOk s) (ls : List Lit) (learnt fs sy : Bool)
    (comp : Option (List Nat)) (h : fs = true → sy = true) :
    FsOk (setCa s (s.ca.alloc ls learnt fs sy comp).2) := by
  intro cr hf
  by_cases e : cr = s.ca.size
  · have hcl : (setCa s (s.ca.alloc ls learnt fs sy comp).2).ca.cl cr =
        { lits := ls, learnt := learnt, fsymmetry := fs, symmetry := sy, scompat := comp,
          activity := 0, mark := 0, reloced := false, relocation := 0 } := by
      show Function.update s.ca.cl s.ca.size _ cr = _
      rw [e, Function.update_same]
    rw [hcl] at hf ⊢
    exact h hf
  · have hcl : (setCa s (s.ca.alloc ls learnt fs sy comp).2).ca.cl cr = s.ca.cl cr := by
      show Function.update s.ca.cl s.ca.size _ cr = _
      rw [Function.update_noteq e]
    rw [hcl] at hf ⊢
    exact hs cr hf

theorem FsOk.propagate_ok {fuel : Nat} {s : Solver} {r : Option CRef × Solver} (hs : FsOk s)
    (h : propagate fuel s = some r) : FsOk r.2 :=
  hs.of_flags (fun cr => ⟨(hdrKey_flags (hdrKey_propagate h) cr).1,
    (hdrKey_flags (hdrKey_propagate h) cr).2.1⟩)

theorem FsOk.enqueue_ok {s t : Solver} {p : Lit} {r : Option CRef} (hs : FsOk s)
    (h : uncheckedEnqueue s p r = some t) : FsOk t :=
  hs.of_arena (by rw [(uncheckedEnqueue_eq h).2])

theorem FsOk.attach_ok {s t : Solver} {cr : CRef} (hs : FsOk s)
    (h : attachClause s cr = some t) : FsOk t :=
  hs.of_arena (attachClause_cl h)

theorem FsOk.bump_ok {s : Solver} (hs : FsOk s) (cr : CRef) : FsOk (claBumpActivity s cr) :=
  hs.of_flags (fun c => anaKey_fsymmetry (anaKey_claBumpActivity s cr) c)

theorem FsOk.addClause_ok {fuel : Nat} {s t : Solver} {ps : List Lit} {b : Bool}
    (hs : FsOk s) (h : addClause_ fuel s ps = some (b, t)) : FsOk t := by
  unfold addClause_ at h
  split_ifs at h
  · cases h; exact hs
  · split at h
    · cases h; exact hs
    · cases h; exact hs.of_arena rfl
    · rename_i l hl
      cases he : uncheckedEnqueue s l none with
      | none => rw [he] at h; cases h
      | some s1 =>
        rw [he] at h
        dsimp only at h
        cases hp : propagate fuel s1 with
        | none => rw [hp] at h; cases h
        | some r =>
          rw [hp] at h
          cases h
          exact ((hs.enqueue_ok he).propagate_ok hp).of_arena rfl
    · rename_i qs _ _ _
      cases ha : attachClause
          (pushClause (setCa s (s.ca.alloc qs false false false none).2)
            (s.ca.alloc qs false false false none).1)
          (s.ca.alloc qs false false false none).1 with
      | none => rw [ha] at h; cases h
      | some u =>
        rw [ha] at h
        cases h
        have h1 := hs.alloc qs false false false none (fun e => e)
        have h2 : FsOk (pushClause (setCa s (s.ca.alloc qs false false false none).2)
            (s.ca.alloc qs false false false none).1) := fun cr hf => h1 cr hf
        exact h2.attach_ok ha

theorem FsOk.cancel_ok {s : Solver} (hs : FsOk s) (k : Nat) : FsOk (cancelUntil s k) := by
  obtain ⟨-, -, -, -, -, -, g7, -⟩ := cancelUntilKey_fields (cancelUntilKey_cancelUntil s k)
  exact hs.of_arena g7

theorem FsOk.learnUnit_ok {sb t : Solver} {r : AnalyzeResult} (hs : FsOk sb)
    (h : learnUnit sb r = some t) : FsOk t := by
  unfold learnUnit at h
  split_ifs at h
  · have h2 : FsOk (insertSymmetryUnit sb (var (r.out_learnt.getD 0 0))) := fun cr hf => hs cr hf
    exact h2.enqueue_ok h
  · exact hs.enqueue_ok h

theorem FsOk.learnClause_ok {sb t : Solver} {r : AnalyzeResult} {confl : CRef} (hs : FsOk sb)
    (h : learnClause sb r confl = some t) : FsOk t := by
  unfold learnClause at h
  by_cases hc : (sb.ca.cl confl).fsymmetry = true ∧ r.out_symmetry = false
  · rw [if_pos hc] at h; cases h
  rw [if_neg hc] at h
  dsimp only at h
  cases ha : attachClause
      (pushLearnt (setCa sb (sb.ca.alloc r.out_learnt true (sb.ca.cl confl).fsymmetry
        r.out_symmetry (if r.out_symmetry = true then some r.comp else none)).2)
        (sb.ca.alloc r.out_learnt true (sb.ca.cl confl).fsymmetry r.out_symmetry
          (if r.out_symmetry = true then some r.comp else none)).1)
      (sb.ca.alloc r.out_learnt true (sb.ca.cl confl).fsymmetry r.out_symmetry
        (if r.out_symmetry = true then some r.comp else none)).1 with
  | none => rw [ha] at h; cases h
  | some u =>
    rw [ha] at h
    dsimp only at h
    have h1 := hs.alloc r.out_learnt true (sb.ca.cl confl).fsymmetry r.out_symmetry
      (if r.out_symmetry = true then some r.comp else none) (by
        intro hf
        by_contra hn
        exact hc ⟨hf, by simpa using hn⟩)
    have h2 : FsOk (pushLearnt (setCa sb (sb.ca.alloc r.out_learnt true
        (sb.ca.cl confl).fsymmetry r.out_symmetry
        (if r.out_symmetry = true then some r.comp else none)).2)
        (sb.ca.alloc r.out_learnt true (sb.ca.cl confl).fsymmetry r.out_symmetry
          (if r.out_symmetry = true then some r.comp else none)).1) := fun cr hf => h1 cr hf
    exact ((h2.attach_ok ha).bump_ok _).enqueue_ok h

/-- The flag `out_symmetry` is set when the conflict clause is symmetry-tagged. -/
theorem analyze_out_symmetry {fuel : Nat} {s : Solver} {confl : CRef}
    {r : AnalyzeResult × Solver} (h : analyze fuel s confl = some r)
    (hsy : (s.ca.cl confl).symmetry = true) : r.1.out_symmetry = true := by
  obtain ⟨res, m, h1, -, -, -, h5, -⟩ := analyze_parts h
  rw [h5]
  exact analyzeLoop_sym _ _ _ _ _ _ _ (Or.inr hsy) h1

theorem analyze_ca_flags {fuel : Nat} {s : Solver} {confl : CRef}
    {r : AnalyzeResult × Solver} (h : analyze fuel s confl = some r) (cr : CRef) :
    (r.2.ca.cl cr).fsymmetry = (s.ca.cl cr).fsymmetry ∧
    (r.2.ca.cl cr).symmetry = (s.ca.cl cr).symmetry := by
  obtain ⟨res, m, h1, h2, -, -, -, h6⟩ := analyze_parts h
  obtain ⟨k1, -⟩ := analyzeLoop_chain s _ _ _ _ _ [] [] res rfl rfl h1
  have hkm : anaKey m.2 = anaKey s := by
    rw [(minimize_facts h2).2.1, anaKey_setToclear]
    exact k1
  have hk : anaKey r.2 = anaKey s := by
    rw [h6]
    have := foldl_clear_key (countLits m.2 (res.1.out.length + 1) (m.1.length + 1)).analyze_toclear
      (countLits m.2 (res.1.out.length + 1) (m.1.length + 1))
    unfold clearSeen
    rw [this, anaKey_countLits]
    exact hkm
  exact anaKey_fsymmetry hk cr

theorem FsOk.symProp_ok {gssc : Solver → Symmetry → Clause → List Lit} {P P' : PropSolver}
    {σ : Symmetry} {l : Lit} {r : Option CRef} (hs : FsOk P.sym.solver)
    (h : propagateSymmetrical gssc P σ l = some (r, P')) : FsOk P'.sym.solver := by
  obtain ⟨implic, isSym, isFirst, compat, h1, -, -, -, c3, c4, -, c6⟩ :=
    propagateSymmetrical_clause h
  have hflag : isFirst = true → isSym = true := by
    unfold symImplic at h1
    split_ifs at h1
    · simp only [Option.some.injEq, Prod.mk.injEq] at h1
      obtain ⟨-, rfl, rfl⟩ := h1
      intro e; cases e
    · cases hr : reason P.sym.solver (var l) with
      | none => rw [hr] at h1; cases h1
      | some R =>
        rw [hr] at h1
        simp only [Option.some.injEq, Prod.mk.injEq] at h1
        obtain ⟨-, rfl, rfl⟩ := h1
        exact hs R
  intro cr hf
  by_cases e : cr = P.sym.solver.ca.size
  · rw [e] at hf ⊢
    rw [c4] at hf
    rw [c3]
    exact hflag hf
  · rw [(c6 cr e).2] at hf
    rw [(c6 cr e).1]
    exact hs cr hf

theorem FsOk.inject_ok {S S' : SymSolver} {vsbp : Option (List Lit)} {r : Option CRef}
    (hs : FsOk S.solver) (h : learntSymmetryClause S vsbp = some (r, S')) :
    FsOk S'.solver := by
  unfold learntSymmetryClause at h
  cases vsbp with
  | none =>
    simp only [Option.some.injEq, Prod.mk.injEq] at h
    rw [← h.2]; exact hs
  | some sbp =>
    dsimp only at h
    split_ifs at h
    cases hat : attachClause
        (pushLearnt (setCa S.solver (S.solver.ca.alloc sbp true true true
            (some (stabAll (fun σ => stabilize S.solver σ sbp) S.symmetries.reverse []))).2)
          S.solver.ca.size) S.solver.ca.size with
    | none => rw [hat] at h; cases h
    | some s1 =>
      rw [hat] at h
      simp only [Option.some.injEq, Prod.mk.injEq] at h
      rw [← h.2]
      have h1 := hs.alloc sbp true true true
        (some (stabAll (fun σ => stabilize S.solver σ sbp) S.symmetries.reverse []))
        (fun e => e)
      have h2 : FsOk (pushLearnt (setCa S.solver (S.solver.ca.alloc sbp true true true
            (some (stabAll (fun σ => stabilize S.solver σ sbp) S.symmetries.reverse []))).2)
          S.solver.ca.size) := fun cr hf => h1 cr hf
      exact h2.attach_ok hat

/-- C28: in a state in which every clause with `first_symmetry` has `symmetry`, every clause
that the solver creates keeps it so: the clause of `addClause_` (both flags false), the
learnt clause that `search` stores after `analyze` (with `first_symmetry` of the conflict
clause and `symmetry = out_symmetry`), the clause of `propagateSymmetrical` (the flags of the
reason clause) and the clause of `learntSymmetryClause` (both flags true); and the assertion
`!first_symmetry || tag_symmetry` of `search` holds, because `analyze` sets `out_symmetry`
when the conflict clause is symmetry-tagged. -/
theorem first_symmetry_has_symmetry (s : Solver) (hs : FsOk s) :
    (∀ fuel ps b t, addClause_ fuel s ps = some (b, t) → FsOk t) ∧
    (∀ fuel confl r, analyze fuel s confl = some r →
      ¬ (((cancelUntil r.2 r.1.out_btlevel).ca.cl confl).fsymmetry = true ∧
          r.1.out_symmetry = false) ∧
      ∀ t, (if r.1.out_learnt.length = 1 then learnUnit (cancelUntil r.2 r.1.out_btlevel) r.1
            else learnClause (cancelUntil r.2 r.1.out_btlevel) r.1 confl) = some t →
        FsOk t) ∧
    (∀ gssc P σ l r P', P.sym.solver = s → propagateSymmetrical gssc P σ l = some (r, P') →
      FsOk P'.sym.solver) ∧
    (∀ S vsbp r S', S.solver = s → learntSymmetryClause S vsbp = some (r, S') →
      FsOk S'.solver) := by
  refine ⟨?_, ?_, ?_, ?_⟩
  · intro fuel ps b t h
    exact hs.addClause_ok h
  · intro fuel confl r h
    have hr2 : FsOk r.2 := hs.of_flags (fun cr => analyze_ca_flags h cr)
    have hsb : FsOk (cancelUntil r.2 r.1.out_btlevel) := hr2.cancel_ok _
    refine ⟨?_, ?_⟩
    · rintro ⟨hf, ho⟩
      have hca : (cancelUntil r.2 r.1.out_btlevel).ca = r.2.ca := by
        obtain ⟨-, -, -, -, -, -, g7, -⟩ :=
          cancelUntilKey_fields (cancelUntilKey_cancelUntil r.2 r.1.out_btlevel)
        exact g7
      rw [hca, (analyze_ca_flags h confl).1] at hf
      have := analyze_out_symmetry h (hs confl hf)
      rw [this] at ho
      cases ho
    · intro t ht
      split_ifs at ht
      · exact hsb.learnUnit_ok ht
      · exact hsb.learnClause_ok ht
  · intro gssc P σ l r P' e h
    subst e
    exact hs.symProp_ok h
  · intro S vsbp r S' e h
    subst e
    exact hs.inject_ok h

/-! ## The flags in the example states -/

theorem FsOk.exVars_ok : ∀ n, FsOk (exVars n)
  | 0 => fun cr hf => by cases hf
  | n + 1 => by
    have h := FsOk.exVars_ok n
    have htk : (takeVar (exVars n)).2.ca = (exVars n).ca := by
      unfold takeVar
      split <;> rfl
    have hca : (exVars (n + 1)).ca = (exVars n).ca := by
      show (newVar (exVars n) l_Undef true).2.ca = _
      unfold newVar setDecisionVar insertVarOrder
      dsimp only
      split_ifs <;> exact htk
    exact h.of_arena hca

theorem FsOk.exAdd_ok : ∀ (cs : List (List Lit)) {s : Solver}, FsOk s → FsOk (exAdd s cs)
  | [], _, h => h
  | c :: cs, s, h => by
    unfold exAdd
    cases hr : addClause_ 20 s c with
    | none => exact FsOk.exAdd_ok cs h
    | some r => exact FsOk.exAdd_ok cs (h.addClause_ok (b := r.1) (t := r.2) hr)

theorem FsOk.exDecide_ok {s : Solver} (h : FsOk s) (p : Lit) : FsOk (exDecide s p) := by
  unfold exDecide
  cases hd : searchDecide s p with
  | none => exact h
  | some t =>
    unfold searchDecide at hd
    cases he : uncheckedEnqueue (setDecisionFlag (newDecisionLevel s) (var p)) p none with
    | none => rw [he] at hd; cases hd
    | some u =>
      rw [he] at hd
      simp only [Option.map_some', Option.some.injEq] at hd
      rw [← hd]
      have h1 : FsOk (setDecisionFlag (newDecisionLevel s) (var p)) := fun cr hf => h cr hf
      have h2 := h1.enqueue_ok he
      unfold noteDecisionLevel
      split_ifs
      · exact fun cr hf => h2 cr hf
      · exact h2

theorem FsOk.exProp_ok {s : Solver} (h : FsOk s) : FsOk (exProp s) := by
  unfold exProp
  cases hp : propagate 20 s with
  | none => exact h
  | some r => exact h.propagate_ok hp

end Minisat


namespace Minisat
open lbool

/-! ## Symmetrical propagation: the backtrack and the outcome -/

theorem value_cases (s : Solver) (x : Lit) :
    value s x = l_True ∨ value s x = l_False ∨ value s x = l_Undef := by
  cases h : value s x
  · exact Or.inl rfl
  · exact Or.inr (Or.inl rfl)
  · exact Or.inr (Or.inr rfl)

/-- Backtracking to the level `k` keeps the value of every literal of a level up to `k` and
unassigns or keeps every other literal. -/
theorem cancelUntil_values {s : Solver} (htr : TrailInv s) {k : Nat}
    (hk : k < decisionLevel s) :
    decisionLevel (cancelUntil s k) = k ∧
    (∀ x, value (cancelUntil s k) x = value s x ∨ value (cancelUntil s k) x = l_Undef) ∧
    (∀ x, value s x ≠ l_Undef → level s (var x) ≤ k →
      value (cancelUntil s k) x = value s x) := by
  obtain ⟨-, c2, -, c4⟩ := cancelUntil_of_lt hk
  refine ⟨?_, ?_, ?_⟩
  · unfold decisionLevel at hk ⊢
    rw [c2, List.length_take]
    omega
  · intro x
    by_cases hx : ∃ l ∈ s.trail.drop (s.trail_lim.getD k 0), var l = var x
    · right
      have := (c4 (var x)).1 hx
      unfold value; rw [this]; rfl
    · left
      exact value_of_assigns_eq ((c4 (var x)).2 hx)
  · intro x hx hl
    apply value_of_assigns_eq
    apply (c4 (var x)).2
    rintro ⟨l, hm, hv⟩
    have := htr.level_drop k hk l hm
    rw [hv] at this
    omega

theorem symBacktrack_values {s : Solver} (htr : TrailInv s) (implic : List Lit) :
    decisionLevel (symBacktrack s implic) =
      min (decisionLevel s) (level s (var (implic.getD 1 0))) ∧
    (∀ x, value (symBacktrack s implic) x = value s x ∨
      value (symBacktrack s implic) x = l_Undef) ∧
    (∀ x, value s x ≠ l_Undef → level s (var x) ≤ level s (var (implic.getD 1 0)) →
      value (symBacktrack s implic) x = value s x) := by
  unfold symBacktrack
  by_cases h : decisionLevel s > level s (var (implic.getD 1 0))
  · rw [if_pos h]
    obtain ⟨a, b, c⟩ := cancelUntil_values htr h
    exact ⟨by rw [a]; omega, b, c⟩
  · rw [if_neg h]
    exact ⟨by omega, fun _ => Or.inl rfl, fun _ _ _ => rfl⟩

theorem getD_mem_drop_one {ls : List Lit} (h : 2 ≤ ls.length) : ls.getD 1 0 ∈ ls.drop 1 := by
  cases ls with
  | nil => simp at h
  | cons a rest =>
    cases rest with
    | nil => simp at h
    | cons b rest2 => simp

theorem symStore_some {s : Solver} {cr : CRef} (h : (s.ca.cl cr).size > 1) :
    ∃ t, symStore s cr = some t := by
  unfold symStore
  have : ((pushLearnt s cr).ca.cl cr).size > 1 := h
  rw [attachClause_some this]
  exact ⟨_, rfl⟩

theorem testPropagationClause_off (s : Solver) (l : Lit) (ls : List Lit) :
    testPropagationClause s false l ls = some true := rfl

theorem testConflictClause_off (s : Solver) (l : Lit) (ls : List Lit) :
    testConflictClause s false l ls = some true := rfl

/-- The facts about `implic` at the call, for a literal of level 0 too. -/
theorem symImplic_facts {gssc : Solver → Symmetry → Clause → List Lit} {s : Solver}
    {σ : Symmetry} {l : Lit} {implic : List Lit} {isSym isFirst : Bool}
    (hl : value s l = l_True) (hσ : value s (σ.getSymmetrical l) ≠ l_True)
    (hi : symImplic gssc s σ l = some (implic, isSym, isFirst))
    (hsorted : level s (var l) ≠ 0 →
      2 ≤ implic.length ∧ value s (implic.getD 0 0) ≠ l_True ∧
      ∀ t ∈ implic.drop 1, value s t = l_False ∧
        level s (var t) ≤ level s (var (implic.getD 1 0))) :
    (level s (var l) = 0 → implic = [σ.getSymmetrical l, neg l]) ∧
    2 ≤ implic.length ∧ value s (implic.getD 0 0) ≠ l_True ∧
    ∀ t ∈ implic.drop 1, value s t = l_False ∧
      level s (var t) ≤ level s (var (implic.getD 1 0)) := by
  by_cases h0 : level s (var l) = 0
  · unfold symImplic at hi
    rw [if_pos h0] at hi
    split_ifs at hi
    simp only [Option.some.injEq, Prod.mk.injEq] at hi
    obtain ⟨rfl, -, -⟩ := hi
    refine ⟨fun _ => rfl, by simp, hσ, ?_⟩
    intro t ht
    simp only [List.drop_succ_cons, List.drop_zero, List.mem_singleton] at ht
    subst ht
    exact ⟨value_neg_false.mpr hl, le_refl _⟩
  · exact ⟨fun h => absurd h h0, hsorted h0⟩

/-- A call of `propagateSymmetrical` returns when the debug checks are off, `l` is true, its
image is not true, `implic` is as `getSortedSymmetricalClause` is assumed to give it, and a
symmetry-tagged reason has a compatibility set. -/
theorem propagateSymmetrical_some {gssc : Solver → Symmetry → Clause → List Lit}
    {P : PropSolver} {σ : Symmetry} {l : Lit} {implic : List Lit} {isSym isFirst : Bool}
    (htr : TrailInv P.sym.solver) (hdbg : P.sym.debug = false)
    (hσ : value P.sym.solver (σ.getSymmetrical l) ≠ l_True)
    (hi : symImplic gssc P.sym.solver σ l = some (implic, isSym, isFirst))
    (h2 : 2 ≤ implic.length) (hv0 : value P.sym.solver (implic.getD 0 0) ≠ l_True)
    (hrest : ∀ t ∈ implic.drop 1, value P.sym.solver t = l_False ∧
      level P.sym.solver (var t) ≤ level P.sym.solver (var (implic.getD 1 0)))
    (hcompat : isSym = true → ∃ R c, reason P.sym.solver (var l) = some R ∧
      (P.sym.solver.ca.cl R).scompat = some c) :
    ∃ r P', propagateSymmetrical gssc P σ l = some (r, P') := by
  obtain ⟨b1, b2, -, -, -⟩ := symBacktrack_fields P.sym.solver implic
  obtain ⟨-, v2, v3⟩ := symBacktrack_values htr implic
  have hb0 : value (symBacktrack P.sym.solver implic) (implic.getD 0 0) ≠ l_True := by
    rcases v2 (implic.getD 0 0) with e | e
    · rw [e]; exact hv0
    · rw [e]; intro h; cases h
  have hb1 : ¬ value (symBacktrack P.sym.solver implic) (implic.getD 1 0) ≠ l_False := by
    intro hc
    apply hc
    obtain ⟨q1, -⟩ := hrest _ (getD_mem_drop_one h2)
    rw [v3 _ (by rw [q1]; intro h; cases h) (le_refl _)]
    exact q1
  have hcomp : ∃ compat, symCompat (symBacktrack P.sym.solver implic) isSym l =
      some compat := by
    unfold symCompat
    by_cases hs : isSym = true
    · obtain ⟨R, c, hR, hc⟩ := hcompat hs
      have : reason (symBacktrack P.sym.solver implic) (var l) = some R := by
        unfold reason; rw [b2]; exact hR
      rw [if_pos hs, this, b1]
      dsimp only
      rw [hc]
      exact ⟨_, rfl⟩
    · rw [if_neg hs]
      exact ⟨_, rfl⟩
  obtain ⟨compat, hcomp⟩ := hcomp
  have hsize : ((setCa (symBacktrack P.sym.solver implic)
      ((symBacktrack P.sym.solver implic).ca.alloc implic true isFirst isSym compat).2).ca.cl
      ((symBacktrack P.sym.solver implic).ca.alloc implic true isFirst isSym compat).1).size
      > 1 := by
    show (Function.update (symBacktrack P.sym.solver implic).ca.cl
      (symBacktrack P.sym.solver implic).ca.size _
      (symBacktrack P.sym.solver implic).ca.size).size > 1
    rw [Function.update_same]
    exact h2
  obtain ⟨st, hst⟩ := symStore_some hsize
  have hsta : st.assigns = (symBacktrack P.sym.solver implic).assigns :=
    (symStore_facts hst).2.2.1
  unfold propagateSymmetrical
  rw [if_neg hσ, hi]
  dsimp only
  rw [if_neg (by omega), if_neg hb0, if_neg hb1, hcomp]
  dsimp only
  rw [hdbg, testPropagationClause_off, testConflictClause_off]
  dsimp only
  have hval : ∀ x, value (setCa (symBacktrack P.sym.solver implic)
      ((symBacktrack P.sym.solver implic).ca.alloc implic true isFirst isSym compat).2) x =
      value (symBacktrack P.sym.solver implic) x := fun _ => rfl
  rw [hval]
  by_cases hu : value (symBacktrack P.sym.solver implic) (implic.getD 0 0) = l_Undef
  · rw [if_pos hu]
    by_cases hf : P.addPropagationClauses = true
    · rw [if_pos hf, hst]
      dsimp only
      rw [uncheckedEnqueue_some _ (by rw [value_of_assigns_eq (congrFun hsta _)]; exact hu)]
      exact ⟨_, _, rfl⟩
    · rw [if_neg hf]
      dsimp only
      rw [uncheckedEnqueue_some _ (by rw [hval]; exact hu)]
      exact ⟨_, _, rfl⟩
  · rw [if_neg hu]
    have hfal : ¬ value (symBacktrack P.sym.solver implic) (implic.getD 0 0) ≠ l_False := by
      intro hc
      rcases value_cases (symBacktrack P.sym.solver implic) (implic.getD 0 0) with e | e | e
      · exact hb0 e
      · exact hc e
      · exact hu e
    rw [if_neg hfal]
    by_cases hf : P.addConflictClauses = true
    · rw [if_pos hf, hst]
      exact ⟨_, _, rfl⟩
    · rw [if_neg hf]
      exact ⟨_, _, rfl⟩

/-- What the storing flag decides: without it `learnts` and the watcher lists stay, with it
the reference is pushed to `learnts`. -/
theorem symStore_flag {sb s3 : Solver} {a : ClauseAllocator} {cr : CRef} {flag : Bool}
    (h : (if flag = true then symStore (setCa sb a) cr else some (setCa sb a)) = some s3) :
    s3.assigns = sb.assigns ∧ s3.vardata = sb.vardata ∧ s3.trail_lim = sb.trail_lim ∧
    s3.trail = sb.trail ∧ (∀ c, (s3.ca.cl c).lits = (a.cl c).lits) ∧
    (flag = false → s3.learnts = sb.learnts ∧ s3.watches = sb.watches) ∧
    (flag = true → s3.learnts = sb.learnts ++ [cr]) := by
  by_cases hf : flag = true
  · rw [if_pos hf] at h
    obtain ⟨c1, c2, c3, c4, c5, c6, -⟩ := symStore_facts h
    refine ⟨c3, c4, c6, c5, fun c => (c1 c).1, ?_, fun _ => c2⟩
    intro e
    rw [e] at hf
    cases hf
  · rw [if_neg hf] at h
    have e := Option.some.inj h
    rw [← e]
    exact ⟨rfl, rfl, rfl, rfl, fun _ => rfl, fun _ => ⟨rfl, rfl⟩, fun e' => absurd e' hf⟩

/-- C26: `propagateSymmetrical(sym, l)` for a true literal `l` whose image is not true, with
the debug checks off, when `implic` is as `getSortedSymmetricalClause` is assumed to give it
(at least two literals, `implic[0]` not true, the others false and `implic[1]` of maximal
level among them) and a symmetry-tagged reason has a compatibility set.  For a literal of
level 0 the clause is `[sym(l), not l]`.  The call returns; the new clause has the literals
`implic`; the decision level on return is the smaller one of the decision level at the call
and the level of `implic[1]`.  If `implic[0]` is unassigned after the backtrack, the call
returns `CRef_Undef`, `implic[0]` is true at the decision level with the new clause as reason
and the other literals are false.  Otherwise it returns the reference of the new clause and
every literal of the clause is false.  `learnts` and the watcher lists are as at the call
unless `addPropagationClauses` (`addConflictClauses` for a conflict) is set, and then the
reference is pushed to `learnts`. -/
theorem propagateSymmetrical_outcome (gssc : Solver → Symmetry → Clause → List Lit)
    (P : PropSolver) (σ : Symmetry) (l : Lit) (implic : List Lit) (isSym isFirst : Bool)
    (htr : TrailInv P.sym.solver) (hdbg : P.sym.debug = false)
    (hl : value P.sym.solver l = l_True)
    (hσ : value P.sym.solver (σ.getSymmetrical l) ≠ l_True)
    (hi : symImplic gssc P.sym.solver σ l = some (implic, isSym, isFirst))
    (hsorted : level P.sym.solver (var l) ≠ 0 →
      2 ≤ implic.length ∧ value P.sym.solver (implic.getD 0 0) ≠ l_True ∧
      ∀ t ∈ implic.drop 1, value P.sym.solver t = l_False ∧
        level P.sym.solver (var t) ≤ level P.sym.solver (var (implic.getD 1 0)))
    (hcompat : isSym = true → ∃ R c, reason P.sym.solver (var l) = some R ∧
      (P.sym.solver.ca.cl R).scompat = some c) :
    (level P.sym.solver (var l) = 0 → implic = [σ.getSymmetrical l, neg l]) ∧
    ∃ r P', propagateSymmetrical gssc P σ l = some (r, P') ∧
      (P'.sym.solver.ca.cl P.sym.solver.ca.size).lits = implic ∧
      decisionLevel P'.sym.solver =
        min (decisionLevel P.sym.solver) (level P.sym.solver (var (implic.getD 1 0))) ∧
      (value (symBacktrack P.sym.solver implic) (implic.getD 0 0) = l_Undef →
        r = none ∧ value P'.sym.solver (implic.getD 0 0) = l_True ∧
        level P'.sym.solver (var (implic.getD 0 0)) = decisionLevel P'.sym.solver ∧
        reason P'.sym.solver (var (implic.getD 0 0)) = some P.sym.solver.ca.size ∧
        (∀ t ∈ implic.drop 1, value P'.sym.solver t = l_False) ∧
        (P.addPropagationClauses = false →
          P'.sym.solver.learnts = P.sym.solver.learnts ∧
          P'.sym.solver.watches = P.sym.solver.watches) ∧
        (P.addPropagationClauses = true →
          P'.sym.solver.learnts = P.sym.solver.learnts ++ [P.sym.solver.ca.size])) ∧
      (value (symBacktrack P.sym.solver implic) (implic.getD 0 0) ≠ l_Undef →
        r = some P.sym.solver.ca.size ∧
        (∀ t ∈ (P'.sym.solver.ca.cl P.sym.solver.ca.size).lits,
          value P'.sym.solver t = l_False) ∧
        (P.addConflictClauses = false →
          P'.sym.solver.learnts = P.sym.solver.learnts ∧
          P'.sym.solver.watches = P.sym.solver.watches) ∧
        (P.addConflictClauses = true →
          P'.sym.solver.learnts = P.sym.solver.learnts ++ [P.sym.solver.ca.size])) := by
  obtain ⟨f0, f2, f3, f4⟩ := symImplic_facts hl hσ hi hsorted
  refine ⟨f0, ?_⟩
  obtain ⟨r, P', h⟩ := propagateSymmetrical_some htr hdbg hσ hi f2 f3 f4 hcompat
  refine ⟨r, P', h, ?_⟩
  obtain ⟨implic', isSym', isFirst', compat', hi', -, c1, -⟩ := propagateSymmetrical_clause h
  have himp : implic' = implic := by
    rw [hi] at hi'
    simp only [Option.some.injEq, Prod.mk.injEq] at hi'
    exact hi'.1.symm
  subst himp
  obtain ⟨-, implic2, isSym2, isFirst2, compat, s3, hi2, -, -, -, -, hcase, -⟩ :=
    propagateSymmetrical_parts h
  have himp2 : implic2 = implic' ∧ isSym2 = isSym ∧ isFirst2 = isFirst := by
    rw [hi] at hi2
    simp only [Option.some.injEq, Prod.mk.injEq] at hi2
    exact ⟨hi2.1.symm, hi2.2.1.symm, hi2.2.2.symm⟩
  obtain ⟨rfl, rfl, rfl⟩ := himp2
  obtain ⟨b1, b2, b3, b4, -⟩ := symBacktrack_fields P.sym.solver implic2
  obtain ⟨v1, v2, v3⟩ := symBacktrack_values htr implic2
  have hsz : (symBacktrack P.sym.solver implic2).ca.size = P.sym.solver.ca.size := by rw [b1]
  have hbrest : ∀ t ∈ implic2.drop 1,
      value (symBacktrack P.sym.solver implic2) t = l_False := by
    intro t ht
    obtain ⟨q1, q2⟩ := f4 t ht
    rw [v3 t (by rw [q1]; intro e; cases e) q2]
    exact q1
  refine ⟨c1, ?_, ?_, ?_⟩
  · rcases hcase with ⟨-, hst, he, -⟩ | ⟨-, hst, he, -⟩
    · obtain ⟨g1, g2, g3, -⟩ := symStore_flag hst
      obtain ⟨-, e⟩ := uncheckedEnqueue_eq he
      have : decisionLevel P'.sym.solver = decisionLevel s3 := by rw [e]; rfl
      rw [this, ← v1]
      unfold decisionLevel; rw [g3]
    · obtain ⟨g1, g2, g3, -⟩ := symStore_flag hst
      rw [he, ← v1]
      unfold decisionLevel; rw [g3]
  · intro hu
    rcases hcase with ⟨-, hst, he, hr⟩ | ⟨hfal, -, -, -⟩
    · obtain ⟨g1, g2, g3, g4, g5, g6, g7⟩ := symStore_flag hst
      obtain ⟨-, e⟩ := uncheckedEnqueue_eq he
      have hdl : decisionLevel P'.sym.solver = decisionLevel s3 := by rw [e]; rfl
      have hass : P'.sym.solver.assigns = Function.update s3.assigns (var (implic2.getD 0 0))
          (lbool.ofBool (!sign (implic2.getD 0 0))) := by rw [e]
      have hvd : P'.sym.solver.vardata = Function.update s3.vardata (var (implic2.getD 0 0))
          (mkVarData (some (symBacktrack P.sym.solver implic2).ca.size) (decisionLevel s3)) := by
        rw [e]
      have hle : P'.sym.solver.learnts = s3.learnts := by rw [e]
      have hwa : P'.sym.solver.watches = s3.watches := by rw [e]
      refine ⟨hr, value_of_assigns_update_self _ _ _ hass, ?_, ?_, ?_, ?_, ?_⟩
      · unfold level; rw [hvd, Function.update_same, hdl]; rfl
      · unfold reason; rw [hvd, Function.update_same, hsz]; rfl
      · intro t ht
        have hft := hbrest t ht
        have hne : var t ≠ var (implic2.getD 0 0) := by
          intro e'
          have h1 : (symBacktrack P.sym.solver implic2).assigns (var (implic2.getD 0 0)) =
              l_Undef := value_undef_iff.mp hu
          have h2 : value (symBacktrack P.sym.solver implic2) t = l_Undef := by
            apply value_undef_iff.mpr
            rw [e']; exact h1
          rw [hft] at h2
          cases h2
        have : P'.sym.solver.assigns (var t) =
            (symBacktrack P.sym.solver implic2).assigns (var t) := by
          rw [hass, Function.update_noteq hne, g1]
        rw [value_of_assigns_eq this]
        exact hft
      · intro hf
        obtain ⟨k1, k2⟩ := g6 hf
        exact ⟨by rw [hle, k1, b3], by rw [hwa, k2, b4]⟩
      · intro hf
        rw [hle, g7 hf, b3, hsz]
    · rw [hfal] at hu; cases hu
  · intro hu
    rcases hcase with ⟨hun, -, -, -⟩ | ⟨hfal, hst, he, hr⟩
    · exact absurd hun hu
    · obtain ⟨g1, g2, g3, g4, g5, g6, g7⟩ := symStore_flag hst
      refine ⟨by rw [hr, hsz], ?_, ?_, ?_⟩
      · intro t ht
        rw [c1] at ht
        have hv : value P'.sym.solver t = value (symBacktrack P.sym.solver implic2) t := by
          apply value_of_assigns_eq
          rw [he, g1]
        rw [hv]
        rcases mem_cases_head ht with rfl | ht
        · exact hfal
        · exact hbrest t ht
      · intro hf
        obtain ⟨k1, k2⟩ := g6 hf
        exact ⟨by rw [he, k1, b3], by rw [he, k2, b4]⟩
      · intro hf
        rw [he, g7 hf, b3, hsz]

end Minisat


namespace Minisat
open lbool

/-! ## The implication graph and the final analysis -/

theorem Reach.trans_reach {s : Solver} {a b c : Var} (h1 : Reach s a b) (h2 : Reach s b c) :
    Reach s a c := by
  induction h1 with
  | same v => exact h2
  | step v u cr q hr hq _ ih => exact Reach.step v c cr q hr hq (ih h2)

/-- From a variable without a reason only the variable itself is reachable. -/
theorem Reach.eq_of_none {s : Solver} {v u : Var} (h : Reach s v u)
    (hn : reason s v = none) : u = v := by
  cases h with
  | same => rfl
  | step _ _ cr q hr _ _ => rw [hn] at hr; cases hr

theorem Reach.cases_reach {s : Solver} {v u : Var} (h : Reach s v u) :
    u = v ∨ ∃ cr q, reason s v = some cr ∧ q ∈ (s.ca.cl cr).lits.drop 1 ∧
      Reach s (var q) u := by
  cases h with
  | same => exact Or.inl rfl
  | step _ _ cr q hr hq h2 => exact Or.inr ⟨cr, q, hr, hq, h2⟩

/-- What is reachable from the variable of a trail literal is that variable or the
variable of an earlier trail literal. -/
theorem Reach.before {s : Solver} (hrs : ReasonInv s) {v u : Var} (h : Reach s v u) :
    ∀ (pre : List Lit) (l : Lit) (post : List Lit), s.trail = pre ++ l :: post →
      var l = v → u = var l ∨ ∃ m ∈ pre, var m = u := by
  induction h with
  | same v => intro pre l post _ hv; exact Or.inl hv.symm
  | step v u cr q hr hq _ ih =>
    intro pre l post ht hv
    subst hv
    obtain ⟨_, _, hpre⟩ := hrs pre l post cr ht hr
    have hm := hpre q hq
    obtain ⟨p1, p2, hp⟩ := List.append_of_mem hm
    have ht2 : s.trail = p1 ++ neg q :: (p2 ++ l :: post) := by
      rw [ht, hp]; simp
    rcases ih p1 (neg q) (p2 ++ l :: post) ht2 (var_neg q) with h1 | ⟨m, hm1, hm2⟩
    · exact Or.inr ⟨neg q, hm, h1.symm⟩
    · exact Or.inr ⟨m, by rw [hp]; exact List.mem_append_left _ hm1, hm2⟩

/-- The levels do not decrease along the trail. -/
theorem TrailInv.level_mono {s : Solver} (h : TrailInv s) {pre post : List Lit} {l m : Lit}
    (ht : s.trail = pre ++ l :: post) (hm : m ∈ pre) :
    level s (var m) ≤ level s (var l) := by
  by_cases hk : level s (var l) < s.trail_lim.length
  · have hnd : l ∉ s.trail.drop (s.trail_lim.getD (level s (var l)) 0) := fun hd =>
      absurd (h.level_drop _ hk l hd) (lt_irrefl _)
    have hlt : pre.length < s.trail_lim.getD (level s (var l)) 0 := by
      by_contra hge
      push_neg at hge
      apply hnd
      rw [ht, List.drop_append_of_le_length hge]
      exact List.mem_append_right _ (List.mem_cons_self _ _)
    apply h.level_take _ hk
    rw [ht, List.take_append_eq_append_take, List.take_of_length_le (le_of_lt hlt)]
    exact List.mem_append_left _ hm
  · have := h.level_le m (by rw [ht]; exact List.mem_append_left _ hm)
    unfold decisionLevel at this; omega

/-- The level does not increase along the reason clauses. -/
theorem Reach.level_le_reach {s : Solver} (htr : TrailInv s) (hrs : ReasonInv s) {l : Lit}
    (hl : l ∈ s.trail) {u : Var} (h : Reach s (var l) u) :
    level s u ≤ level s (var l) := by
  obtain ⟨pre, post, ht⟩ := List.append_of_mem hl
  rcases h.before hrs pre l post ht rfl with h1 | ⟨m, hm, hmu⟩
  · rw [h1]
  · rw [← hmu]; exact htr.level_mono ht hm

theorem markFold_spec (qs : List Lit) : ∀ s : Solver,
    seenKey (qs.foldl (fun t q => if level t (var q) > 0 then setSeen t (var q) 1 else t) s)
      = seenKey s ∧
    ∀ v, (qs.foldl (fun t q => if level t (var q) > 0 then setSeen t (var q) 1 else t)
        s).seen v ≠ 0 ↔
      s.seen v ≠ 0 ∨ ∃ q ∈ qs, var q = v ∧ 0 < level s (var q) := by
  induction qs with
  | nil => intro s; simp
  | cons q qs ih =>
    intro s
    rw [List.foldl_cons]
    obtain ⟨h1, h2⟩ := ih (if level s (var q) > 0 then setSeen s (var q) 1 else s)
    by_cases hq : level s (var q) > 0
    · rw [if_pos hq] at h1 h2 ⊢
      refine ⟨h1.trans rfl, fun v => ?_⟩
      rw [h2 v]
      have hl : ∀ x, level (setSeen s (var q) 1) x = level s x := fun _ => rfl
      have hs : (setSeen s (var q) 1).seen v ≠ 0 ↔ (v = var q ∨ s.seen v ≠ 0) := by
        unfold setSeen; dsimp only
        by_cases hv : v = var q
        · subst hv; simp
        · rw [Function.update_noteq hv]; simp [hv]
      rw [hs]
      simp only [hl, List.mem_cons]
      constructor
      · rintro ((hv | hv) | ⟨x, hx, hxv, hxl⟩)
        · exact Or.inr ⟨q, Or.inl rfl, hv.symm, hq⟩
        · exact Or.inl hv
        · exact Or.inr ⟨x, Or.inr hx, hxv, hxl⟩
      · rintro (hv | ⟨x, hx | hx, hxv, hxl⟩)
        · exact Or.inl (Or.inr hv)
        · subst hx; exact Or.inl (Or.inl hxv.symm)
        · exact Or.inr ⟨x, hx, hxv, hxl⟩
    · rw [if_neg hq] at h1 h2 ⊢
      refine ⟨h1, fun v => ?_⟩
      rw [h2 v]
      simp only [List.mem_cons]
      constructor
      · rintro (hv | ⟨x, hx, hxv, hxl⟩)
        · exact Or.inl hv
        · exact Or.inr ⟨x, Or.inr hx, hxv, hxl⟩
      · rintro (hv | ⟨x, hx | hx, hxv, hxl⟩)
        · exact Or.inl hv
        · subst hx; exact absurd hxl hq
        · exact Or.inr ⟨x, hx, hxv, hxl⟩

theorem markReason_key (s : Solver) (cr : CRef) : seenKey (markReason s cr) = seenKey s :=
  (markFold_spec _ s).1

theorem markReason_seen (s : Solver) (cr : CRef) (v : Var) :
    (markReason s cr).seen v ≠ 0 ↔
      s.seen v ≠ 0 ∨ ∃ q ∈ (s.ca.cl cr).lits.drop 1, var q = v ∧ 0 < level s (var q) :=
  (markFold_spec _ s).2 v

theorem seenKey_setSeen (s : Solver) (x : Var) (n : Nat) :
    seenKey (setSeen s x n) = seenKey s := rfl

theorem setSeen_seen_ne (s : Solver) (x v : Var) :
    (setSeen s x 0).seen v ≠ 0 ↔ v ≠ x ∧ s.seen v ≠ 0 := by
  unfold setSeen; dsimp only
  by_cases hv : v = x
  · subst hv; simp
  · rw [Function.update_noteq hv]; simp [hv]

/-- The loop of `analyzeFinal` returns and keeps its invariant, for a trail that is `A`
(the literals below the first decision mark) followed by `B` and `C`. -/
theorem analyzeFinalLoop_spec {s : Solver} {p : Lit} (htr : TrailInv s) (hrs : ReasonInv s)
    (A : List Lit) (hA : ∀ a ∈ A, level s (var a) = 0) :
    ∀ (B C : List Lit) (S : Solver) (out : List Lit), s.trail = A ++ (B ++ C) →
      (∀ l ∈ B ++ C, 0 < level s (var l)) → FinalInv s p B C S out →
      ∃ r, analyzeFinalLoop A.length B.length S out = some r ∧
        FinalInv s p [] (B ++ C) r.1 r.2 := by
  intro B
  induction B using List.reverseRecOn with
  | nil => intro C S out _ _ h; exact ⟨(S, out), rfl, h⟩
  | append_singleton B l ih =>
    intro C S out ht hpos h
    have hT : S.trail = s.trail := by
      have e := congrArg (fun x : Solver => x.trail) h.key
      exact e
    have hV : S.vardata = s.vardata := by
      have e := congrArg (fun x : Solver => x.vardata) h.key
      exact e
    have hC : S.ca = s.ca := by
      have e := congrArg (fun x : Solver => x.ca) h.key
      exact e
    have hsplit : s.trail = (A ++ B) ++ l :: C := by rw [ht]; simp
    have ht2 : s.trail = A ++ (B ++ l :: C) := by rw [ht]; simp
    have hpos2 : ∀ x ∈ B ++ l :: C, 0 < level s (var x) := by
      intro x hx; apply hpos; simpa using hx
    have hnd : ∀ m ∈ A ++ B, var m ≠ var l := by
      have h1 := htr.nodup
      rw [hsplit, List.map_append, List.map_cons, List.nodup_append] at h1
      intro m hm e
      exact h1.2.2 (List.mem_map_of_mem var hm) (e ▸ List.mem_cons_self _ _)
    have hndB : ∀ m ∈ B, var m ≠ var l := fun m hm => hnd m (List.mem_append_right _ hm)
    have hget : S.trail.getD (A.length + B.length) 0 = l := by
      rw [hT, hsplit, List.getD_append_right _ _ _ _ (by simp)]
      simp
    have hlpos : 0 < level s (var l) := hpos l (by simp)
    have htop : Reach s (var p) (var l) ↔ S.seen (var l) ≠ 0 := by
      constructor
      · intro hr
        obtain ⟨m, hm, hsm, hrm⟩ := (h.closed l (by simp)).mp hr
        rcases List.mem_append.mp hm with hmB | hml
        · exfalso
          obtain ⟨b1, b2, hb⟩ := List.append_of_mem hmB
          have ht3 : s.trail = (A ++ b1) ++ m :: (b2 ++ l :: C) := by
            rw [hsplit, hb]; simp
          rcases hrm.before hrs _ m _ ht3 rfl with e | ⟨m2, hm2, e⟩
          · exact hndB m hmB e.symm
          · refine hnd m2 ?_ e
            rw [hb]
            rcases List.mem_append.mp hm2 with h5 | h5
            · exact List.mem_append_left _ h5
            · exact List.mem_append_right _ (List.mem_append_left _ h5)
        · rw [List.mem_singleton] at hml; rw [← hml]; exact hsm
      · intro hs
        exact (h.closed l (by simp)).mpr ⟨l, by simp, hs, Reach.same _⟩
    obtain ⟨ds, hout, hsub, hds⟩ := h.out
    have hrev : (l :: C).reverse = C.reverse ++ [l] := by simp
    have hlen : (B ++ [l]).length = B.length + 1 := by simp
    have hfin : ∀ r : Solver × List Lit, FinalInv s p [] (B ++ l :: C) r.1 r.2 →
        FinalInv s p [] (B ++ [l] ++ C) r.1 r.2 := by
      intro r hr
      have e : B ++ [l] ++ C = B ++ l :: C := by simp
      rw [e]; exact hr
    rw [hlen]
    unfold analyzeFinalLoop
    dsimp only
    rw [hget]
    by_cases hs : S.seen (var l) = 0
    · rw [if_neg (not_not.mpr hs)]
      have hI : FinalInv s p B (l :: C) S out := by
        refine ⟨h.key, ?_, ?_, ds, hout, ?_, ?_⟩
        · intro v hv
          rcases h.seen_sub v hv with e | ⟨m, hm, e⟩
          · exact Or.inl e
          · rcases List.mem_append.mp hm with hmB | hml
            · exact Or.inr ⟨m, hmB, e⟩
            · rw [List.mem_singleton] at hml; subst hml; rw [← e] at hv
              exact absurd hs hv
        · intro u hu
          rw [h.closed u (List.mem_append_left _ hu)]
          constructor
          · rintro ⟨m, hm, hsm, hrm⟩
            rcases List.mem_append.mp hm with hmB | hml
            · exact ⟨m, hmB, hsm, hrm⟩
            · rw [List.mem_singleton] at hml; subst hml; exact absurd hs hsm
          · rintro ⟨m, hm, hsm, hrm⟩
            exact ⟨m, List.mem_append_left _ hm, hsm, hrm⟩
        · rw [hrev]; exact hsub.trans (List.sublist_append_left _ _)
        · intro d
          rw [hds d, List.mem_cons]
          constructor
          · rintro ⟨h1, h2, h3⟩; exact ⟨Or.inr h1, h2, h3⟩
          · rintro ⟨h1 | h1, h2, h3⟩
            · subst h1; exact absurd hs (htop.mp h3)
            · exact ⟨h1, h2, h3⟩
      obtain ⟨r, hr1, hr2⟩ := ih (l :: C) S out ht2 hpos2 hI
      exact ⟨r, hr1, hfin r hr2⟩
    · rw [if_pos hs]
      have hrS : reason S (var l) = reason s (var l) := by unfold reason; rw [hV]
      have hlS : level S (var l) = level s (var l) := by unfold level; rw [hV]
      cases hre : reason s (var l) with
      | none =>
        rw [hrS, hre]
        dsimp only
        rw [hlS, if_pos hlpos]
        have hI : FinalInv s p B (l :: C) (setSeen S (var l) 0) (out ++ [neg l]) := by
          refine ⟨h.key, ?_, ?_, ds ++ [l], ?_, ?_, ?_⟩
          · intro v hv
            rw [setSeen_seen_ne] at hv
            rcases h.seen_sub v hv.2 with e | ⟨m, hm, e⟩
            · exact Or.inl e
            · rcases List.mem_append.mp hm with hmB | hml
              · exact Or.inr ⟨m, hmB, e⟩
              · rw [List.mem_singleton] at hml; subst hml; exact absurd e.symm hv.1
          · intro u hu
            rw [h.closed u (List.mem_append_left _ hu)]
            constructor
            · rintro ⟨m, hm, hsm, hrm⟩
              rcases List.mem_append.mp hm with hmB | hml
              · exact ⟨m, hmB, (setSeen_seen_ne _ _ _).mpr ⟨hndB m hmB, hsm⟩, hrm⟩
              · rw [List.mem_singleton] at hml; subst hml
                exact absurd (hrm.eq_of_none hre) (hndB u hu)
            · rintro ⟨m, hm, hsm, hrm⟩
              exact ⟨m, List.mem_append_left _ hm, ((setSeen_seen_ne _ _ _).mp hsm).2, hrm⟩
          · rw [hout]; simp
          · rw [hrev]; exact hsub.append (List.Sublist.refl _)
          · intro d
            rw [List.mem_append, List.mem_singleton, hds d, List.mem_cons]
            constructor
            · rintro (⟨h1, h2, h3⟩ | h1)
              · exact ⟨Or.inr h1, h2, h3⟩
              · subst h1; exact ⟨Or.inl rfl, hre, htop.mpr hs⟩
            · rintro ⟨h1 | h1, h2, h3⟩
              · exact Or.inr h1
              · exact Or.inl ⟨h1, h2, h3⟩
        obtain ⟨r, hr1, hr2⟩ := ih (l :: C) _ _ ht2 hpos2 hI
        exact ⟨r, hr1, hfin r hr2⟩
      | some cr =>
        rw [hrS, hre]
        dsimp only
        obtain ⟨_, _, hpre⟩ := hrs (A ++ B) l C cr hsplit hre
        have hseen : ∀ v, (setSeen (markReason S cr) (var l) 0).seen v ≠ 0 ↔
            v ≠ var l ∧ (S.seen v ≠ 0 ∨
              ∃ q ∈ (s.ca.cl cr).lits.drop 1, var q = v ∧ 0 < level s (var q)) := by
          intro v
          rw [setSeen_seen_ne, markReason_seen, hC]
          unfold level; rw [hV]
        have hinB : ∀ q ∈ (s.ca.cl cr).lits.drop 1, 0 < level s (var q) → neg q ∈ B := by
          intro q hq hl
          rcases List.mem_append.mp (hpre q hq) with h1 | h1
          · have := hA _ h1; rw [var_neg] at this; omega
          · exact h1
        have hI : FinalInv s p B (l :: C) (setSeen (markReason S cr) (var l) 0) out := by
          refine ⟨(markReason_key S cr).trans h.key, ?_, ?_, ds, hout, ?_, ?_⟩
          · intro v hv
            rw [hseen] at hv
            rcases hv.2 with h1 | ⟨q, hq, hqv, hql⟩
            · rcases h.seen_sub v h1 with e | ⟨m, hm, e⟩
              · exact Or.inl e
              · rcases List.mem_append.mp hm with hmB | hml
                · exact Or.inr ⟨m, hmB, e⟩
                · rw [List.mem_singleton] at hml; subst hml; exact absurd e.symm hv.1
            · exact Or.inr ⟨neg q, hinB q hq hql, (var_neg q).trans hqv⟩
          · intro u hu
            rw [h.closed u (List.mem_append_left _ hu)]
            constructor
            · rintro ⟨m, hm, hsm, hrm⟩
              rcases List.mem_append.mp hm with hmB | hml
              · exact ⟨m, hmB, (hseen _).mpr ⟨hndB m hmB, Or.inl hsm⟩, hrm⟩
              · rw [List.mem_singleton] at hml; subst hml
                rcases hrm.cases_reach with e | ⟨cr2, q, hr2, hq, hrq⟩
                · exact absurd e (hndB u hu)
                · rw [hre] at hr2
                  cases hr2
                  have hqT : neg q ∈ s.trail := by
                    rw [hsplit]; exact List.mem_append_left _ (hpre q hq)
                  have hrq2 : Reach s (var (neg q)) (var u) := by rw [var_neg]; exact hrq
                  have hle := hrq2.level_le_reach htr hrs hqT
                  have hup := hpos u (List.mem_append_left _ (List.mem_append_left _ hu))
                  have hql : 0 < level s (var q) := by rw [var_neg] at hle; omega
                  refine ⟨neg q, hinB q hq hql, (hseen _).mpr ⟨?_, Or.inr ⟨q, hq, ?_, hql⟩⟩,
                    hrq2⟩
                  · exact hnd _ (hpre q hq)
                  · exact (var_neg q).symm
            · rintro ⟨m, hm, hsm, hrm⟩
              rcases ((hseen _).mp hsm).2 with h1 | ⟨q, hq, hqv, _⟩
              · exact ⟨m, List.mem_append_left _ hm, h1, hrm⟩
              · refine ⟨l, by simp, hs, ?_⟩
                refine Reach.step _ _ cr q hre hq ?_
                rw [hqv]; exact hrm
          · rw [hrev]; exact hsub.trans (List.sublist_append_left _ _)
          · intro d
            rw [hds d, List.mem_cons]
            constructor
            · rintro ⟨h1, h2, h3⟩; exact ⟨Or.inr h1, h2, h3⟩
            · rintro ⟨h1 | h1, h2, h3⟩
              · subst h1; rw [hre] at h2; cases h2
              · exact ⟨h1, h2, h3⟩
        obtain ⟨r, hr1, hr2⟩ := ih (l :: C) _ _ ht2 hpos2 hI
        exact ⟨r, hr1, hfin r hr2⟩

/-- The result of `analyzeFinal` on a state with the trail and reason invariants, a clear
`seen` and an assigned `p`. -/
theorem analyzeFinal_char (s : Solver) (p : Lit) (htr : TrailInv s) (hrs : ReasonInv s)
    (hseen : ∀ v, s.seen v = 0) (hp : s.assigns (var p) ≠ l_Undef) :
    ∃ ds : List Lit, analyzeFinal s p = some (setConflict s (p :: ds.map neg)) ∧
      (∀ v, (setConflict s (p :: ds.map neg)).seen v = 0) ∧
      ds.Sublist s.trail.reverse ∧ ds.Nodup ∧
      (∀ d, d ∈ ds ↔ d ∈ s.trail ∧ reason s (var d) = none ∧ 0 < level s (var d) ∧
        Reach s (var p) (var d)) ∧
      (decisionLevel s = 0 → ds = []) := by
  by_cases h0 : decisionLevel s = 0
  · refine ⟨[], ?_, hseen, List.nil_sublist _, List.nodup_nil, ?_, fun _ => rfl⟩
    · unfold analyzeFinal; rw [if_pos h0]; rfl
    · intro d
      constructor
      · intro h; cases h
      · rintro ⟨h1, _, h3, _⟩
        have := htr.level_le d h1
        omega
  · have hlen : 0 < s.trail_lim.length := Nat.pos_of_ne_zero h0
    obtain ⟨lim, hlim⟩ : ∃ lim, lim = s.trail_lim.getD 0 0 := ⟨_, rfl⟩
    have hle : lim ≤ s.trail.length :=
      htr.lim_le _ (by rw [hlim, List.getD_eq_getElem _ _ hlen]; exact List.getElem_mem _)
    have hA : ∀ a ∈ s.trail.take lim, level s (var a) = 0 := fun a ha =>
      Nat.le_zero.mp (htr.level_take 0 hlen a (hlim ▸ ha))
    have hB : ∀ l ∈ s.trail.drop lim ++ [], 0 < level s (var l) := by
      intro l hl
      rw [List.append_nil] at hl
      exact htr.level_drop 0 hlen l (hlim ▸ hl)
    have hT : s.trail = s.trail.take lim ++ (s.trail.drop lim ++ []) := by simp
    have hmem : ∀ d ∈ s.trail, 0 < level s (var d) → d ∈ s.trail.drop lim := by
      intro d hd hl
      have hd2 : d ∈ s.trail.take lim ++ s.trail.drop lim := by
        rw [List.take_append_drop]; exact hd
      rcases List.mem_append.mp hd2 with h1 | h1
      · have := hA _ h1; omega
      · exact h1
    have hI : FinalInv s p (s.trail.drop lim) [] (setSeen s (var p) 1) [p] := by
      refine ⟨rfl, ?_, ?_, [], rfl, List.nil_sublist _,
        fun d => ⟨fun h => (by cases h), fun h => (by cases h.1)⟩⟩
      · intro v hv
        left
        by_contra hne
        apply hv
        unfold setSeen; dsimp only
        rw [Function.update_noteq hne]
        exact hseen v
      · intro u hu
        constructor
        · intro hr
          obtain ⟨l0, hl0, hv0⟩ := htr.mem_of_assigned (var p) hp
          have hr2 : Reach s (var l0) (var u) := by rw [hv0]; exact hr
          have hle2 := hr2.level_le_reach htr hrs hl0
          have hup := hB u (by simpa using hu)
          refine ⟨l0, hmem l0 hl0 (by omega), ?_, hr2⟩
          rw [hv0]; unfold setSeen; dsimp only
          rw [Function.update_same]; decide
        · rintro ⟨m, _, hsm, hrm⟩
          have e : var m = var p := by
            by_contra hne
            apply hsm
            unfold setSeen; dsimp only
            rw [Function.update_noteq hne]
            exact hseen _
          rw [← e]; exact hrm
    obtain ⟨r, hr1, hr2⟩ := analyzeFinalLoop_spec htr hrs _ hA _ _ _ _ hT hB hI
    rw [List.length_take, min_eq_left hle, List.length_drop] at hr1
    obtain ⟨ds, hout, hsub, hds⟩ := hr2.out
    have hrev : s.trail.reverse = (s.trail.drop lim).reverse ++ (s.trail.take lim).reverse := by
      rw [← List.reverse_append, List.take_append_drop]
    have hsub2 : ds.Sublist s.trail.reverse := by
      rw [hrev]
      simp only [List.nil_append, List.append_nil] at hsub
      exact hsub.trans (List.sublist_append_left _ _)
    refine ⟨ds, ?_, hseen, hsub2, ?_, ?_, fun h => absurd h h0⟩
    · have e1 : Function.update r.1.seen (var p) 0 = fun _ => 0 := by
        funext v
        by_contra hv
        have hv2 : (setSeen r.1 (var p) 0).seen v ≠ 0 := hv
        rw [setSeen_seen_ne] at hv2
        rcases hr2.seen_sub v hv2.2 with e | ⟨m, hm, _⟩
        · exact hv2.1 e
        · cases hm
      have e2 : s.seen = fun _ => 0 := funext hseen
      have e3 : setSeen r.1 (var p) 0 = seenKey r.1 := by
        unfold setSeen seenKey; rw [e1]
      have e4 : seenKey s = s := by
        unfold seenKey; rw [← e2]
      have e5 : setSeen r.1 (var p) 0 = s := by rw [e3, hr2.key, e4]
      unfold analyzeFinal
      rw [if_neg h0, ← hlim, hr1]
      dsimp only
      rw [e5, hout]
    · exact hsub2.nodup (List.nodup_reverse.mpr (List.Nodup.of_map var htr.nodup))
    · intro d
      rw [hds d]
      simp only [List.nil_append, List.append_nil]
      constructor
      · rintro ⟨h1, h2, h3⟩
        exact ⟨List.mem_of_mem_drop h1, h2, hB d (by simpa using h1), h3⟩
      · rintro ⟨h1, h2, h3, h4⟩
        exact ⟨hmem d h1 h3, h2, h4⟩

/-- C24: on a state with the trail and reason invariants, a clear `seen` and an assigned
`p` (as at the call in `search`), `analyzeFinal(p, out_conflict)` returns and changes nothing
but `conflict`, so `seen` is all-zero again; `conflict` is then `p` followed by the negations
of a list `ds` that is a sublist of the reversed trail without repetition (decreasing trail
order, each literal once) and holds exactly the trail literals without a reason, at a level
above 0, whose variable is reachable from `var p` through reason clauses (`var p` itself
counts as reachable); at decision level 0 the result is `[p]`. -/
theorem analyzeFinal_spec (s : Solver) (p : Lit) (htr : TrailInv s) (hrs : ReasonInv s)
    (hseen : ∀ v, s.seen v = 0) (hp : s.assigns (var p) ≠ l_Undef) :
    ∃ ds : List Lit, analyzeFinal s p = some (setConflict s (p :: ds.map neg)) ∧
      (∀ v, (setConflict s (p :: ds.map neg)).seen v = 0) ∧
      ds.Sublist s.trail.reverse ∧ ds.Nodup ∧
      (∀ d, d ∈ ds ↔ d ∈ s.trail ∧ reason s (var d) = none ∧ 0 < level s (var d) ∧
        Reach s (var p) (var d)) ∧
      (decisionLevel s = 0 → ds = []) :=
  analyzeFinal_char s p htr hrs hseen hp

end Minisat


namespace Minisat
open lbool

/-! ## The failed assumptions of `search` -/

theorem Inv.countStart_inv {s : Solver} (h : Inv s) : Inv (countStart s) :=
  h.of_frame ⟨rfl, rfl, rfl, rfl, rfl, rfl, rfl, rfl, rfl, rfl, rfl, rfl, rfl, rfl, rfl⟩
    rfl rfl rfl rfl

theorem eq_some_snd {α β : Type} {o : Option (α × β)} (h : o.isSome = true) {a : α}
    (ha : (o.get h).1 = a) : o = some (a, (o.get h).2) := by
  rw [← ha]
  exact (Option.some_get h).symm

/-- At decision level 0 the invariants do not depend on the assumptions. -/
theorem Inv.setAssumptions_inv {s : Solver} (h : Inv s) (hd : decisionLevel s = 0)
    (as : List Lit) : Inv (setAssumptions s as) := by
  refine ⟨h.tr.congr_tr rfl rfl rfl rfl,
    h.wt.of_eq_wt rfl rfl rfl rfl rfl rfl rfl rfl rfl, h.ax.rs, ?_, ?_, h.ax.hp⟩
  · exact ⟨h.ax.vr.trail_lt, h.ax.vr.lits_lt, h.ax.vr.watches_nil, h.ax.vr.heap_lt,
      h.ax.vr.free_nil, h.ax.vr.released_nil, h.ax.vr.dirties, h.ax.vr.not_reloced,
      h.ax.vr.seen0⟩
  · intro l hl _ j hj _
    have h1 := h.tr.level_le l hl
    have h2 : level (setAssumptions s as) (var l) = level s (var l) := rfl
    rw [h2] at hj
    omega

/-- The reduction of the learnt clauses as a step of the search. -/
theorem reduceDB_step {s t : Solver} (h : Inv s) (hr : reduceDB s = some t) :
    Inv t ∧ Step s t ∧ t.qhead = s.qhead ∧ t.trail = s.trail := by
  obtain ⟨a1, a2, a3, u, kept, a4, -, a6⟩ := reduceDB_inv h.tr h.wt h.ax hr
  have hs1 : Step s u := ⟨a4.assumptions, a4.conflict, a4.next_var, a4.decision⟩
  have hq1 : u.qhead = s.qhead := a4.qhead
  have ht1 : u.trail = s.trail := a4.trail
  rcases a6 with rfl | ⟨φ, hg⟩
  · refine ⟨⟨a1, ?_, a3⟩, ⟨hs1.assumptions, hs1.conflict, hs1.next_var, hs1.decision⟩,
      hq1, ht1⟩
    have e : (setLearnts u kept).qhead = s.qhead := hq1
    rw [e]; exact a2
  · obtain ⟨g1, -, -, -, -, -, -, g8, g9, g10, g11, -, g13⟩ := gcKey_fields hg.key
    have e : t.qhead = s.qhead := g11.trans hq1
    refine ⟨⟨a1, ?_, a3⟩, ⟨g8.trans hs1.assumptions, g13.trans hs1.conflict,
      g10.trans hs1.next_var, g9.trans hs1.decision⟩, e, g1.trans ht1⟩
    rw [e]; exact a2

/-- The assumption loop of `search`: it fails on a state with the invariants in which the
assumption of the current level is false, or it ends on such a state with the next
assumption, which is unassigned, or with all assumptions taken. -/
theorem assumeLoop_spec : ∀ (fuel : Nat) (s t : Solver) (res : AssumeResult), Inv s →
    s.qhead = s.trail.length → assumeLoop fuel s = some (res, t) →
    (res = AssumeResult.failed → ∃ s1, Inv s1 ∧ Step s s1 ∧
      decisionLevel s1 < s1.assumptions.length ∧
      value s1 (s1.assumptions.getD (decisionLevel s1) 0) = l_False ∧
      analyzeFinal s1 (neg (s1.assumptions.getD (decisionLevel s1) 0)) = some t) ∧
    (∀ l, res = AssumeResult.next l → Inv t ∧ Step s t ∧ t.qhead = t.trail.length ∧
      (∀ x, l = some x → decisionLevel t < t.assumptions.length ∧
        x = t.assumptions.getD (decisionLevel t) 0 ∧ value t x = l_Undef) ∧
      (l = none → ¬ decisionLevel t < t.assumptions.length)) := by
  intro fuel
  induction fuel with
  | zero =>
    intro s t res h hq ha
    unfold assumeLoop at ha
    by_cases hd : decisionLevel s < s.assumptions.length
    · rw [if_pos hd] at ha; cases ha
    · rw [if_neg hd] at ha
      cases ha
      refine ⟨fun e => (by cases e), fun l e => ?_⟩
      cases e
      exact ⟨h, Step.refl_st _, hq, fun x e => (by cases e), fun _ => hd⟩
  | succ fuel ih =>
    intro s t res h hq ha
    unfold assumeLoop at ha
    by_cases hd : decisionLevel s < s.assumptions.length
    · rw [if_pos hd] at ha
      by_cases hT : value s (s.assumptions.getD (decisionLevel s) 0) = l_True
      · rw [if_pos hT] at ha
        obtain ⟨b1, b2⟩ := ih (newDecisionLevel s) t res (h.new_level hq) hq ha
        have st : Step s (newDecisionLevel s) := ⟨rfl, rfl, rfl, rfl⟩
        refine ⟨fun e => ?_, fun l e => ?_⟩
        · obtain ⟨s1, c1, c2, c3⟩ := b1 e
          exact ⟨s1, c1, st.trans_st c2, c3⟩
        · obtain ⟨c1, c2, c3⟩ := b2 l e
          exact ⟨c1, st.trans_st c2, c3⟩
      · rw [if_neg hT] at ha
        by_cases hF : value s (s.assumptions.getD (decisionLevel s) 0) = l_False
        · rw [if_pos hF] at ha
          cases hf : analyzeFinal s (neg (s.assumptions.getD (decisionLevel s) 0)) with
          | none => rw [hf] at ha; cases ha
          | some t' =>
            rw [hf] at ha
            cases ha
            refine ⟨fun _ => ⟨s, h, Step.refl_st _, hd, hF, hf⟩, fun l e => (by cases e)⟩
        · rw [if_neg hF] at ha
          cases ha
          refine ⟨fun e => (by cases e), fun l e => ?_⟩
          cases e
          refine ⟨h, Step.refl_st _, hq, fun x e => ?_, fun e => (by cases e)⟩
          cases e
          refine ⟨hd, rfl, ?_⟩
          rcases value_cases s (s.assumptions.getD (decisionLevel s) 0) with e | e | e
          · exact absurd e hT
          · exact absurd e hF
          · exact e
    · rw [if_neg hd] at ha
      cases ha
      refine ⟨fun e => (by cases e), fun l e => ?_⟩
      cases e
      exact ⟨h, Step.refl_st _, hq, fun x e => (by cases e), fun _ => hd⟩

/-- The reduction of the learnt clauses in the no-conflict branch. -/
theorem reducePart_spec {s s1 : Solver} {b : Bool} (h : Inv s) (hq : s.qhead = s.trail.length)
    (hs : (if ((s.learnts.length : Int) - (nAssigns s : Int) : ℚ) ≥ s.max_learnts then
        (reduceDB s).map (fun t => (true, t)) else some (true, s)) = some (b, s1)) :
    Inv s1 ∧ Step s s1 ∧ s1.qhead = s1.trail.length := by
  by_cases hc : ((s.learnts.length : Int) - (nAssigns s : Int) : ℚ) ≥ s.max_learnts
  · rw [if_pos hc] at hs
    cases hr : reduceDB s with
    | none => rw [hr] at hs; cases hs
    | some t =>
      rw [hr] at hs
      cases hs
      obtain ⟨a1, a2, a3, a4⟩ := reduceDB_step h hr
      exact ⟨a1, a2, by rw [a3, a4]; exact hq⟩
  · rw [if_neg hc] at hs
    cases hs
    exact ⟨h, Step.refl_st _, hq⟩

/-- The simplification and the reduction in the no-conflict branch. -/
theorem searchSimplify_spec {fuel : Nat} {s s1 : Solver} {b : Bool} (h : Inv s)
    (hq : s.qhead = s.trail.length) (hs : searchSimplify fuel s = some (b, s1)) :
    Step s s1 ∧ (b = true → Inv s1 ∧ s1.qhead = s1.trail.length) := by
  unfold searchSimplify at hs
  by_cases hd0 : decisionLevel s = 0
  · rw [if_pos hd0] at hs
    cases hsi : simplify fuel s with
    | none => rw [hsi] at hs; cases hs
    | some r0 =>
      obtain ⟨b0, s0⟩ := r0
      rw [hsi] at hs
      cases b0 with
      | false =>
        dsimp only at hs
        cases hs
        exact ⟨simplify_false h hsi, fun e => by cases e⟩
      | true =>
        dsimp only at hs
        obtain ⟨a1, a2, -, -, -, a6⟩ := simplify_inv h hsi
        obtain ⟨c1, c2, c3⟩ := reducePart_spec a1 a2 hs
        exact ⟨a6.trans_st c2, fun _ => ⟨c1, c3⟩⟩
  · rw [if_neg hd0] at hs
    dsimp only at hs
    obtain ⟨c1, c2, c3⟩ := reducePart_spec h hq hs
    exact ⟨c2, fun _ => ⟨c1, c3⟩⟩

theorem searchDecide_step {s t : Solver} {l : Lit} (h : searchDecide s l = some t) :
    Step s t := by
  obtain ⟨-, -, a3, a4, -, -, a7, -, -, a10⟩ := searchDecide_fields h
  exact ⟨a7, a10, a3, a4⟩

/-- The choice of the next decision: it fails on a state with the invariants in which the
assumption of the current level is false, or the decision of the chosen literal keeps the
invariants. -/
theorem searchPick_spec {s t : Solver} {res : AssumeResult} (h : Inv s)
    (hq : s.qhead = s.trail.length) (ha : ∀ a ∈ s.assumptions, var a < nVars s)
    (hs : searchPick s = some (res, t)) :
    (res = AssumeResult.failed → ∃ s1, Inv s1 ∧ Step s s1 ∧
      decisionLevel s1 < s1.assumptions.length ∧
      value s1 (s1.assumptions.getD (decisionLevel s1) 0) = l_False ∧
      analyzeFinal s1 (neg (s1.assumptions.getD (decisionLevel s1) 0)) = some t) ∧
    (∀ x u, res = AssumeResult.next (some x) → searchDecide t x = some u →
      Inv u ∧ Step s u) := by
  unfold searchPick at hs
  cases hal : assumeLoop (s.assumptions.length - decisionLevel s) s with
  | none => rw [hal] at hs; cases hs
  | some r =>
    obtain ⟨r1, s1⟩ := r
    rw [hal] at hs
    obtain ⟨A, B⟩ := assumeLoop_spec _ _ _ _ h hq hal
    cases r1 with
    | failed =>
      dsimp only at hs
      cases hs
      exact ⟨fun _ => A rfl, fun x u e => by cases e⟩
    | next l =>
      obtain ⟨b1, b2, b3, b4, b5⟩ := B l rfl
      cases l with
      | some x =>
        dsimp only at hs
        cases hs
        refine ⟨fun e => (by cases e), fun y u e hd => ?_⟩
        cases e
        obtain ⟨c1, c2, -⟩ := b4 x rfl
        have hx : var x < nVars t := by
          have h1 : x ∈ t.assumptions := by
            rw [c2, List.getD_eq_getElem _ _ c1]; exact List.getElem_mem _
          rw [b2.assumptions] at h1
          have h2 : nVars t = nVars s := b2.next_var
          rw [h2]; exact ha x h1
        exact ⟨b1.decision b3 hx (fun _ => c2) hd, b2.trans_st (searchDecide_step hd)⟩
      | none =>
        dsimp only at hs
        cases hs
        refine ⟨fun e => (by cases e), fun y u e hd => ?_⟩
        obtain ⟨p1, p2, p3, p4, -⟩ := pickBranchLit_spec (countDecision s1)
        have e2 : (pickBranchLit (countDecision s1)).1 = some y := by
          injection e
        have hk : pickKey (pickBranchLit (countDecision s1)).2 = pickKey s1 := p1
        obtain ⟨q1, q2, -⟩ := p4 y e2
        have hi : Inv u := by
          refine b1.pick_decide b3 hk p2 ?_ ⟨q1, (p4 y e2).2.2⟩ (b5 rfl) hd
          intro v hv
          rcases p3 v hv with h1 | h1 | ⟨l, hl, hlv⟩
          · exact Or.inl h1
          · exact Or.inr (Or.inl h1)
          · rw [e2] at hl
            cases hl
            exact Or.inr (Or.inr hlv.symm)
        obtain ⟨-, -, -, -, -, -, -, -, -, -, -, -, -, f14, f15, f16, -, -, f19⟩ :=
          pickKey_fields hk
        have st : Step s1 (pickBranchLit (countDecision s1)).2 := ⟨f14, f19, f16, f15⟩
        exact ⟨hi, b2.trans_st (st.trans_st (searchDecide_step hd))⟩

/-- The no-conflict branch of `search`: when the search goes on the invariants hold, and an
exit with `l_False` either leaves `conflict` as it is or comes from `analyzeFinal` on a state
with the invariants in which the assumption of the current level is false. -/
theorem searchNoConflict_spec {fuel : Nat} {s s2 : Solver} {nof : Int} {cC : Nat}
    {st : Option lbool} (h : Inv s) (hq : s.qhead = s.trail.length)
    (ha : ∀ a ∈ s.assumptions, var a < nVars s)
    (hs : searchNoConflict fuel s nof cC = some (st, s2)) :
    (st = none → Inv s2 ∧ Step s s2) ∧
    (st = some l_False → Step s s2 ∨ ∃ s3, Inv s3 ∧ Step s s3 ∧
      decisionLevel s3 < s3.assumptions.length ∧
      value s3 (s3.assumptions.getD (decisionLevel s3) 0) = l_False ∧
      analyzeFinal s3 (neg (s3.assumptions.getD (decisionLevel s3) 0)) = some s2) := by
  unfold searchNoConflict at hs
  by_cases hb : (nof ≥ 0 ∧ (cC : Int) ≥ nof) ∨ withinBudget s = false
  · rw [if_pos hb] at hs
    cases hs
    exact ⟨fun e => (by cases e), fun e => (by cases e)⟩
  rw [if_neg hb] at hs
  cases hsi : searchSimplify fuel s with
  | none => rw [hsi] at hs; cases hs
  | some r =>
    obtain ⟨b, s1⟩ := r
    rw [hsi] at hs
    obtain ⟨a1, a2⟩ := searchSimplify_spec h hq hsi
    cases b with
    | false =>
      dsimp only at hs
      cases hs
      exact ⟨fun e => (by cases e), fun _ => Or.inl a1⟩
    | true =>
      dsimp only at hs
      obtain ⟨i1, q1⟩ := a2 rfl
      have ha1 : ∀ a ∈ s1.assumptions, var a < nVars s1 := by
        intro a hm
        rw [a1.assumptions] at hm
        have h2 : nVars s1 = nVars s := a1.next_var
        rw [h2]; exact ha a hm
      cases hsp : searchPick s1 with
      | none => rw [hsp] at hs; cases hs
      | some r2 =>
        obtain ⟨res, s2'⟩ := r2
        rw [hsp] at hs
        obtain ⟨A, B⟩ := searchPick_spec i1 q1 ha1 hsp
        cases res with
        | failed =>
          dsimp only at hs
          cases hs
          refine ⟨fun e => (by cases e), fun _ => Or.inr ?_⟩
          obtain ⟨s3, c1, c2, c3⟩ := A rfl
          exact ⟨s3, c1, a1.trans_st c2, c3⟩
        | next l =>
          cases l with
          | none =>
            dsimp only at hs
            cases hs
            exact ⟨fun e => (by cases e), fun e => (by cases e)⟩
          | some x =>
            dsimp only at hs
            cases hd : searchDecide s2' x with
            | none => rw [hd] at hs; cases hs
            | some u =>
              rw [hd] at hs
              cases hs
              obtain ⟨c1, c2⟩ := B x _ rfl hd
              exact ⟨fun _ => ⟨c1, a1.trans_st c2⟩, fun e => (by cases e)⟩

theorem searchConflict_false {fuel : Nat} {s s2 : Solver} {confl : CRef} {v : lbool}
    (hc : searchConflict fuel s confl = some (some v, s2)) : s2.conflict = s.conflict := by
  unfold searchConflict at hc
  by_cases hd0 : decisionLevel s = 0
  · rw [if_pos hd0] at hc; cases hc; rfl
  · rw [if_neg hd0] at hc
    cases ha : analyze fuel (countConflict s) confl with
    | none => rw [ha] at hc; cases hc
    | some r =>
      rw [ha] at hc
      dsimp only at hc
      split at hc
      · cases hc
      · cases hc

/-- The loop of `search`: an exit with `l_False` either leaves `conflict` as it is or comes
from `analyzeFinal` on a state with the invariants in which the assumption of the current
level is false. -/
theorem searchLoop_false (nof : Int) : ∀ (fuel : Nat) (s s' : Solver) (cC : Nat), Inv s →
    (∀ a ∈ s.assumptions, var a < nVars s) →
    searchLoop nof fuel s cC = some (l_False, s') →
    s'.conflict = s.conflict ∨ ∃ s3, Inv s3 ∧ Step s s3 ∧
      decisionLevel s3 < s3.assumptions.length ∧
      value s3 (s3.assumptions.getD (decisionLevel s3) 0) = l_False ∧
      analyzeFinal s3 (neg (s3.assumptions.getD (decisionLevel s3) 0)) = some s' := by
  intro fuel
  induction fuel with
  | zero => intro s s' cC _ _ hs; unfold searchLoop at hs; cases hs
  | succ fuel ih =>
    intro s s' cC h ha hs
    unfold searchLoop at hs
    cases hp : propagate (fuel + 1) s with
    | none => rw [hp] at hs; cases hs
    | some r =>
      obtain ⟨c, s1⟩ := r
      rw [hp] at hs
      have st1 : Step s s1 := propagate_step h hp
      have hnext : ∀ {s2 : Solver} {n : Nat}, Inv s2 → Step s s2 →
          searchLoop nof fuel s2 n = some (l_False, s') →
          s'.conflict = s.conflict ∨ ∃ s3, Inv s3 ∧ Step s s3 ∧
            decisionLevel s3 < s3.assumptions.length ∧
            value s3 (s3.assumptions.getD (decisionLevel s3) 0) = l_False ∧
            analyzeFinal s3 (neg (s3.assumptions.getD (decisionLevel s3) 0)) = some s' := by
        intro s2 n i2 st2 hl
        have ha2 : ∀ a ∈ s2.assumptions, var a < nVars s2 := by
          intro a hm
          rw [st2.assumptions] at hm
          have h2 : nVars s2 = nVars s := st2.next_var
          rw [h2]; exact ha a hm
        rcases ih s2 s' n i2 ha2 hl with e | ⟨s3, c1, c2, c3⟩
        · exact Or.inl (e.trans st2.conflict)
        · exact Or.inr ⟨s3, c1, st2.trans_st c2, c3⟩
      cases c with
      | some confl =>
        dsimp only at hs
        cases hc : searchConflict (fuel + 1) s1 confl with
        | none => rw [hc] at hs; cases hs
        | some r2 =>
          obtain ⟨st, s2⟩ := r2
          rw [hc] at hs
          cases st with
          | some v =>
            dsimp only at hs
            cases hs
            exact Or.inl ((searchConflict_false hc).trans st1.conflict)
          | none =>
            dsimp only at hs
            obtain ⟨i2, st2⟩ := searchConflict_inv h hp hc
            exact hnext i2 (st1.trans_st st2) hs
      | none =>
        dsimp only at hs
        have i1 : Inv s1 := h.propagate_none hp rfl
        have q1 : s1.qhead = s1.trail.length := (propagate_inv h.tr h.wt hp).2.1
        have ha1 : ∀ a ∈ s1.assumptions, var a < nVars s1 := by
          intro a hm
          rw [st1.assumptions] at hm
          have h2 : nVars s1 = nVars s := st1.next_var
          rw [h2]; exact ha a hm
        cases hn : searchNoConflict (fuel + 1) s1 nof cC with
        | none => rw [hn] at hs; cases hs
        | some r2 =>
          obtain ⟨st, s2⟩ := r2
          rw [hn] at hs
          obtain ⟨A, B⟩ := searchNoConflict_spec i1 q1 ha1 hn
          cases st with
          | some v =>
            dsimp only at hs
            cases hs
            rcases B rfl with e | ⟨s3, c1, c2, c3⟩
            · exact Or.inl (e.conflict.trans st1.conflict)
            · exact Or.inr ⟨s3, c1, st1.trans_st c2, c3⟩
          | none =>
            dsimp only at hs
            obtain ⟨i2, st2⟩ := A rfl
            exact hnext i2 (st1.trans_st st2) hs

/-- C8: when `search`, started on a state with the solver invariants, assumptions over
variables of the solver and an empty `conflict`, returns `l_False` with a non-empty
`conflict`, then the assumption `a = assumptions[decisionLevel()]` is false in the final
state, every literal of `conflict` is the negation of one of the assumptions, and `conflict`
contains the negation of `a`; the assumptions are those of the call. -/
theorem failed_assumptions (fuel : Nat) (s s' : Solver) (nof : Int) (h : Inv s)
    (ha : ∀ a ∈ s.assumptions, var a < nVars s) (hc : s.conflict = [])
    (hs : search fuel s nof = some (l_False, s')) (hne : s'.conflict ≠ []) :
    FailedAssumption s' ∧ s'.assumptions = s.assumptions := by
  unfold search at hs
  by_cases hok : s.ok = false
  · rw [if_pos hok] at hs; cases hs
  rw [if_neg hok] at hs
  rcases searchLoop_false nof fuel (countStart s) s' 0 h.countStart_inv ha hs with
    e | ⟨s3, i3, st3, d3, v3, f3⟩
  · exfalso
    apply hne
    rw [e]
    exact hc
  · have hp : s3.assigns (var (neg (s3.assumptions.getD (decisionLevel s3) 0))) ≠ l_Undef := by
      rw [var_neg]; exact value_false_ne_undef v3
    obtain ⟨ds, hf, -, -, -, hds, -⟩ := analyzeFinal_char s3 _ i3.tr i3.ax.rs i3.ax.vr.seen0 hp
    rw [hf] at f3
    cases f3
    refine ⟨⟨?_, d3, v3, List.mem_cons_self _ _⟩, st3.assumptions⟩
    intro l hl
    have hl2 : l ∈ neg (s3.assumptions.getD (decisionLevel s3) 0) :: ds.map neg := hl
    show ∃ a ∈ s3.assumptions, l = neg a
    rcases List.mem_cons.mp hl2 with e | hl3
    · refine ⟨_, ?_, e⟩
      rw [List.getD_eq_getElem _ _ d3]
      exact List.getElem_mem _
    · obtain ⟨d, hd, e⟩ := List.mem_map.mp hl3
      obtain ⟨m1, m2, m3, -⟩ := (hds d).mp hd
      have hle := i3.tr.level_le d m1
      have hj : level s3 (var d) - 1 < s3.assumptions.length := by omega
      have hd2 := i3.ax.asm d m1 m2 (level s3 (var d) - 1) (by omega) hj
      refine ⟨d, ?_, e.symm⟩
      rw [hd2, List.getD_eq_getElem _ _ hj]
      exact List.getElem_mem _

end Minisat


namespace Minisat
open lbool

/-! ## `litRedundant` and the recursive definition of redundancy -/

theorem litRedundantLoop_continue {fuel : Nat} {S : Solver} {i : Nat} {p : Lit}
    {stack : List (Nat × Lit)} {cr : CRef} (hr : reason S (var p) = some cr)
    (hi : i < (S.ca.cl cr).size)
    (hc : level S (var ((S.ca.cl cr).get i)) = 0 ∨ S.seen (var ((S.ca.cl cr).get i)) = 1 ∨
      S.seen (var ((S.ca.cl cr).get i)) = 2) :
    litRedundantLoop (fuel + 1) S i p stack = litRedundantLoop fuel S (i + 1) p stack := by
  rw [litRedundantLoop, hr]
  dsimp only
  rw [if_pos hi, if_pos hc]

theorem litRedundantLoop_fail {fuel : Nat} {S : Solver} {i : Nat} {p : Lit}
    {stack : List (Nat × Lit)} {cr : CRef} (hr : reason S (var p) = some cr)
    (hi : i < (S.ca.cl cr).size)
    (hc : ¬ (level S (var ((S.ca.cl cr).get i)) = 0 ∨
      S.seen (var ((S.ca.cl cr).get i)) = 1 ∨ S.seen (var ((S.ca.cl cr).get i)) = 2))
    (hf : reason S (var ((S.ca.cl cr).get i)) = none ∨ S.seen (var ((S.ca.cl cr).get i)) = 3) :
    litRedundantLoop (fuel + 1) S i p stack =
      some (false, markFailed S (stack ++ [(0, p)])) := by
  rw [litRedundantLoop, hr]
  dsimp only
  rw [if_pos hi, if_neg hc, if_pos hf]

theorem litRedundantLoop_push {fuel : Nat} {S : Solver} {i : Nat} {p : Lit}
    {stack : List (Nat × Lit)} {cr : CRef} (hr : reason S (var p) = some cr)
    (hi : i < (S.ca.cl cr).size)
    (hc : ¬ (level S (var ((S.ca.cl cr).get i)) = 0 ∨
      S.seen (var ((S.ca.cl cr).get i)) = 1 ∨ S.seen (var ((S.ca.cl cr).get i)) = 2))
    (hf : ¬ (reason S (var ((S.ca.cl cr).get i)) = none ∨
      S.seen (var ((S.ca.cl cr).get i)) = 3)) :
    litRedundantLoop (fuel + 1) S i p stack =
      litRedundantLoop fuel S 1 ((S.ca.cl cr).get i) (stack ++ [(i, p)]) := by
  rw [litRedundantLoop, hr]
  dsimp only
  rw [if_pos hi, if_neg hc, if_neg hf]

theorem litRedundantLoop_ret {fuel : Nat} {S : Solver} {i : Nat} {p : Lit}
    {stack : List (Nat × Lit)} {cr : CRef} (hr : reason S (var p) = some cr)
    (hi : ¬ i < (S.ca.cl cr).size) :
    litRedundantLoop (fuel + 1) S i p stack =
      litRedundantRet fuel (markRemovable S p) stack := by
  rw [litRedundantLoop, hr]
  dsimp only
  rw [if_neg hi]
  rfl

theorem litRedundantRet_concat (fuel : Nat) (S : Solver) (stack : List (Nat × Lit))
    (e : Nat × Lit) :
    litRedundantRet fuel S (stack ++ [e]) = litRedundantLoop fuel S (e.1 + 1) e.2 stack := by
  unfold litRedundantRet
  rw [List.getLast?_append, List.dropLast_concat]
  rfl

theorem RedInv.refl_red {s : Solver} (h : MarksOk s) : RedInv s s :=
  ⟨rfl, fun _ => Or.inl rfl, fun v => (h v).1, fun v => (h v).2⟩

theorem RedInv.level_red {s S : Solver} (h : RedInv s S) (x : Var) : level S x = level s x :=
  (anaKey_frame h.key).level_eq x

theorem RedInv.reason_red {s S : Solver} (h : RedInv s S) (x : Var) :
    reason S x = reason s x :=
  (anaKey_frame h.key).reason_eq x

theorem RedInv.lits_red {s S : Solver} (h : RedInv s S) (cr : CRef) :
    (S.ca.cl cr).lits = (s.ca.cl cr).lits :=
  (anaKey_frame h.key).lits cr

/-- The tests of the loop on the current marks follow from the tests on the first marks. -/
theorem RedInv.conds {s S : Solver} (h : RedInv s S) {l : Lit}
    (hc : level s (var l) = 0 ∨ s.seen (var l) = 1 ∨ s.seen (var l) = 2) :
    level S (var l) = 0 ∨ S.seen (var l) = 1 ∨ S.seen (var l) = 2 := by
  rcases hc with h1 | h1 | h1
  · exact Or.inl ((h.level_red _).trans h1)
  · rcases h.seen_mono (var l) with e | ⟨e, -⟩
    · exact Or.inr (Or.inl (e.trans h1))
    · rw [e] at h1; cases h1
  · rcases h.seen_mono (var l) with e | ⟨e, -⟩
    · exact Or.inr (Or.inr (e.trans h1))
    · rw [e] at h1; cases h1

/-- A literal that passes a test of the loop on the current marks passes the recursive
definition. -/
theorem RedInv.good {s S : Solver} (h : RedInv s S) {l : Lit}
    (hc : level S (var l) = 0 ∨ S.seen (var l) = 1 ∨ S.seen (var l) = 2)
    (hn : ¬ (level s (var l) = 0 ∨ s.seen (var l) = 1 ∨ s.seen (var l) = 2)) :
    SpecRedundant s (var l) := by
  rcases hc with h1 | h1 | h1
  · exact absurd (Or.inl ((h.level_red _).symm.trans h1)) hn
  · rcases h.seen_mono (var l) with e | ⟨-, e | e⟩
    · exact absurd (Or.inr (Or.inl (e.symm.trans h1))) hn
    · rw [e] at h1; cases h1
    · rw [e] at h1; cases h1
  · exact h.removable _ h1

theorem RedInv.setSeen_red {s S : Solver} (h : RedInv s S) {p : Lit} {n : Nat}
    (h0 : S.seen (var p) = 0) (hn : n = 2 ∨ n = 3)
    (h2 : n = 2 → SpecRedundant s (var p)) (h3 : n = 3 → ¬ SpecRedundant s (var p)) :
    RedInv s (pushToclear (setSeen S (var p) n) p) := by
  have hseen : ∀ v, (pushToclear (setSeen S (var p) n) p).seen v =
      if v = var p then n else S.seen v := by
    intro v
    show Function.update S.seen (var p) n v = _
    by_cases e : v = var p
    · rw [e, Function.update_same, if_pos rfl]
    · rw [Function.update_noteq e, if_neg e]
  refine ⟨by rw [anaKey_pushToclear, anaKey_setSeen]; exact h.key, ?_, ?_, ?_⟩
  · intro v
    rw [hseen]
    by_cases e : v = var p
    · rw [if_pos e, e]
      right
      refine ⟨?_, hn⟩
      rcases h.seen_mono (var p) with e1 | ⟨e1, -⟩
      · rw [← e1]; exact h0
      · exact e1
    · rw [if_neg e]; exact h.seen_mono v
  · intro v hv
    rw [hseen] at hv
    by_cases e : v = var p
    · rw [if_pos e] at hv; rw [e]; exact h2 hv
    · rw [if_neg e] at hv; exact h.removable v hv
  · intro v hv
    rw [hseen] at hv
    by_cases e : v = var p
    · rw [if_pos e] at hv; rw [e]; exact h3 hv
    · rw [if_neg e] at hv; exact h.failed v hv

theorem RedInv.markRemovable_red {s S : Solver} (h : RedInv s S) {p : Lit}
    (hp : SpecRedundant s (var p)) : RedInv s (markRemovable S p) := by
  unfold markRemovable
  by_cases h0 : S.seen (var p) = 0
  · rw [if_pos h0]
    exact h.setSeen_red h0 (Or.inl rfl) (fun _ => hp) (fun e => by cases e)
  · rw [if_neg h0]; exact h

theorem RedInv.markFailed_red {s : Solver} : ∀ (stk : List (Nat × Lit)) (S : Solver),
    RedInv s S → (∀ e ∈ stk, ¬ SpecRedundant s (var e.2)) → RedInv s (markFailed S stk) := by
  intro stk
  induction stk with
  | nil => intro S h _; exact h
  | cons e es ih =>
    intro S h hall
    unfold markFailed
    rw [List.foldl_cons]
    have h1 : RedInv s (if S.seen (var e.2) = 0 then pushToclear (setSeen S (var e.2) 3) e.2
        else S) := by
      by_cases h0 : S.seen (var e.2) = 0
      · rw [if_pos h0]
        exact h.setSeen_red h0 (Or.inr rfl) (fun e => by cases e)
          (fun _ => hall e (List.mem_cons_self _ _))
      · rw [if_neg h0]; exact h
    have := ih _ h1 (fun x hx => hall x (List.mem_cons_of_mem _ hx))
    unfold markFailed at this
    exact this

/-- The recursive definition does not depend on the marks set inside the call. -/
theorem RedInv.red_iff {s S : Solver} (h : RedInv s S) (v : Var) :
    SpecRedundant S v ↔ SpecRedundant s v := by
  constructor
  · intro hr
    induction hr with
    | mk v cr hre _ ih =>
      refine SpecRedundant.mk v cr ((h.reason_red v).symm.trans hre) ?_
      intro l hl hn
      rw [← h.lits_red cr] at hl
      by_cases hc : level S (var l) = 0 ∨ S.seen (var l) = 1 ∨ S.seen (var l) = 2
      · exact h.good hc hn
      · exact ih l hl hc
  · intro hr
    induction hr with
    | mk v cr hre _ ih =>
      refine SpecRedundant.mk v cr ((h.reason_red v).trans hre) ?_
      intro l hl hn
      rw [h.lits_red cr] at hl
      exact ih l hl (fun hc => hn (h.conds hc))

theorem RedInv.marksOk {s S : Solver} (h : RedInv s S) : MarksOk S :=
  fun v => ⟨fun e => (h.red_iff v).mpr (h.removable v e),
    fun e hr => h.failed v e ((h.red_iff v).mp hr)⟩

theorem SpecRedundant.inv {s : Solver} {v : Var} (h : SpecRedundant s v) :
    ∃ cr, reason s v = some cr ∧ ∀ l ∈ (s.ca.cl cr).lits.drop 1,
      ¬ (level s (var l) = 0 ∨ s.seen (var l) = 1 ∨ s.seen (var l) = 2) →
        SpecRedundant s (var l) := by
  cases h with
  | mk _ cr hr hall => exact ⟨cr, hr, hall⟩

theorem mem_drop_cases {ls : List Lit} {i : Nat} (hi : i < ls.length) {x : Lit}
    (hx : x ∈ ls.drop i) : x = ls.getD i 0 ∨ x ∈ ls.drop (i + 1) := by
  rw [List.drop_eq_getElem_cons hi, List.mem_cons] at hx
  rcases hx with e | e
  · left; rw [e, List.getD_eq_getElem _ _ hi]
  · exact Or.inr e

theorem getD_mem_drop_of_le {ls : List Lit} {i : Nat} (h1 : 1 ≤ i) (hi : i < ls.length) :
    ls.getD i 0 ∈ ls.drop 1 := by
  have h := getD_mem_drop ls 0 hi
  have e : ls.drop i = (ls.drop 1).drop (i - 1) := by
    rw [List.drop_drop]; congr 1; omega
  rw [e] at h
  exact List.mem_of_mem_drop h

/-- A literal with a child that fails the tests of the loop and is not redundant is not
redundant. -/
theorem RedInv.bad_child {s S : Solver} (h : RedInv s S) {p l : Lit} {cr : CRef}
    (hr : reason s (var p) = some cr) (hl : l ∈ (s.ca.cl cr).lits.drop 1)
    (hc : ¬ (level S (var l) = 0 ∨ S.seen (var l) = 1 ∨ S.seen (var l) = 2))
    (hn : ¬ SpecRedundant s (var l)) : ¬ SpecRedundant s (var p) := by
  intro hR
  obtain ⟨cr2, hr2, hall⟩ := hR.inv
  rw [hr] at hr2
  cases hr2
  exact hn (hall l hl (fun hc0 => hc (h.conds hc0)))

/-- The loop of `litRedundant` on a literal with a reason, from any index of its reason
clause and with any marks that agree with the recursive definition, finishes the literal or
fails, by induction on the trail position of the literal. -/
theorem litRedundantLoop_frame {s : Solver} (hac : Acyclic s) : ∀ (k : Nat) (pre : List Lit)
    (m : Lit) (post : List Lit) (p : Lit) (cr : CRef), pre.length < k →
    s.trail = pre ++ m :: post → var m = var p → reason s (var p) = some cr →
    ∀ (d i : Nat) (S : Solver), (s.ca.cl cr).size - i ≤ d → 1 ≤ i → RedInv s S →
    RedOk s S cr i p ∨ RedFail s S i p := by
  intro k
  induction k with
  | zero => intro pre m post p cr hk; cases hk
  | succ k ihk =>
    intro pre m post p cr hk ht hv hr
    have hret : ∀ (i : Nat) (S : Solver), ¬ i < (s.ca.cl cr).size → RedInv s S →
        RedOk s S cr i p := by
      intro i S hlt h
      have hrS : reason S (var p) = some cr := (h.reason_red _).trans hr
      have hsz : (S.ca.cl cr).size = (s.ca.cl cr).size := by
        unfold Clause.size; rw [h.lits_red]
      refine ⟨1, S, h, ?_, fun fuel stack => litRedundantLoop_ret hrS (by rw [hsz]; exact hlt)⟩
      intro l hl
      rw [List.drop_eq_nil_of_le (by unfold Clause.size at hlt; omega)] at hl
      cases hl
    intro d
    induction d with
    | zero =>
      intro i S hd _ h
      exact Or.inl (hret i S (by omega) h)
    | succ d ihd =>
      intro i S hd hi h
      by_cases hlt : i < (s.ca.cl cr).size
      swap
      · exact Or.inl (hret i S hlt h)
      have hrS : reason S (var p) = some cr := (h.reason_red _).trans hr
      have hsz : (S.ca.cl cr).size = (s.ca.cl cr).size := by
        unfold Clause.size; rw [h.lits_red]
      have hget : (S.ca.cl cr).get i = (s.ca.cl cr).get i := by
        unfold Clause.get; rw [h.lits_red]
      have hiS : i < (S.ca.cl cr).size := by rw [hsz]; exact hlt
      have hlen : i < (s.ca.cl cr).lits.length := hlt
      have hl1 : (s.ca.cl cr).get i ∈ (s.ca.cl cr).lits.drop 1 := getD_mem_drop_of_le hi hlen
      by_cases hc : level S (var ((s.ca.cl cr).get i)) = 0 ∨
          S.seen (var ((s.ca.cl cr).get i)) = 1 ∨ S.seen (var ((s.ca.cl cr).get i)) = 2
      · -- the literal passes
        have hstep : ∀ (fuel : Nat) (stack : List (Nat × Lit)),
            litRedundantLoop (fuel + 1) S i p stack =
              litRedundantLoop fuel S (i + 1) p stack :=
          fun fuel stack => litRedundantLoop_continue hrS hiS (by rw [hget]; exact hc)
        rcases ihd (i + 1) S (by omega) (by omega) h with
          ⟨n, S', h', hall, hloop⟩ | ⟨n, S', stk, h', hstk, hnp, hloop⟩
        · refine Or.inl ⟨n + 1, S', h', ?_, fun fuel stack =>
            (hstep (fuel + n) stack).trans (hloop fuel stack)⟩
          intro x hx hn
          rcases mem_drop_cases hlen hx with e | e
          · subst e; exact h.good hc hn
          · exact hall x e hn
        · exact Or.inr ⟨n + 1, S', stk, h', hstk, hnp, fun fuel stack =>
            (hstep (fuel + n) stack).trans (hloop fuel stack)⟩
      · by_cases hf : reason S (var ((s.ca.cl cr).get i)) = none ∨
            S.seen (var ((s.ca.cl cr).get i)) = 3
        · -- the literal fails
          have hnl : ¬ SpecRedundant s (var ((s.ca.cl cr).get i)) := by
            rcases hf with hf | hf
            · intro hR
              obtain ⟨cr2, hr2, -⟩ := hR.inv
              rw [← h.reason_red, hf] at hr2
              cases hr2
            · exact h.failed _ hf
          have hnp := h.bad_child hr hl1 hc hnl
          refine Or.inr ⟨1, S, [(0, p)], h, ?_, hnp, fun fuel stack =>
            litRedundantLoop_fail hrS hiS (by rw [hget]; exact hc) (by rw [hget]; exact hf)⟩
          intro e he
          rw [List.mem_singleton] at he
          rw [he]; exact hnp
        · -- the literal is visited
          have hstep : ∀ (fuel : Nat) (stack : List (Nat × Lit)),
              litRedundantLoop (fuel + 1) S i p stack =
                litRedundantLoop fuel S 1 ((s.ca.cl cr).get i) (stack ++ [(i, p)]) := by
            intro fuel stack
            rw [litRedundantLoop_push hrS hiS (by rw [hget]; exact hc)
              (by rw [hget]; exact hf), hget]
          have hr2 : ∃ cr2, reason s (var ((s.ca.cl cr).get i)) = some cr2 := by
            cases hre : reason s (var ((s.ca.cl cr).get i)) with
            | none =>
              exfalso
              apply hf
              left
              rw [h.reason_red]; exact hre
            | some cr2 => exact ⟨cr2, rfl⟩
          obtain ⟨cr2, hr2⟩ := hr2
          have hneg : neg ((s.ca.cl cr).get i) ∈ pre :=
            hac pre m post cr ht (by rw [hv]; exact hr) _ hl1
          obtain ⟨pre1, post1, hp1⟩ := List.append_of_mem hneg
          have ht1 : s.trail = pre1 ++ neg ((s.ca.cl cr).get i) :: (post1 ++ m :: post) := by
            rw [ht, hp1]; simp
          have hk1 : pre1.length < k := by
            have : pre.length = pre1.length + (post1.length + 1) := by
              rw [hp1]; simp
            omega
          rcases ihk pre1 _ _ ((s.ca.cl cr).get i) cr2 hk1 ht1 (var_neg _) hr2
              (s.ca.cl cr2).size 1 S (by omega) le_rfl h with
            ⟨n1, S1, h1, hall1, hloop1⟩ | ⟨n1, S1, stk1, h1, hstk1, hnl, hloop1⟩
          · have hRl : SpecRedundant s (var ((s.ca.cl cr).get i)) :=
              SpecRedundant.mk _ cr2 hr2 hall1
            have h2 := h1.markRemovable_red hRl
            have hgo : ∀ (n2 fuel : Nat) (stack : List (Nat × Lit)),
                litRedundantLoop (fuel + (n2 + n1 + 1)) S i p stack =
                  litRedundantLoop (fuel + n2) (markRemovable S1 ((s.ca.cl cr).get i))
                    (i + 1) p stack := by
              intro n2 fuel stack
              have e : fuel + (n2 + n1 + 1) = ((fuel + n2) + n1) + 1 := by omega
              rw [e, hstep, hloop1 (fuel + n2), litRedundantRet_concat]
            rcases ihd (i + 1) _ (by omega) (by omega) h2 with
              ⟨n2, S', h', hall2, hloop2⟩ | ⟨n2, S', stk, h', hstk, hnp, hloop2⟩
            · refine Or.inl ⟨n2 + n1 + 1, S', h', ?_, fun fuel stack =>
                (hgo n2 fuel stack).trans (hloop2 fuel stack)⟩
              intro x hx hn
              rcases mem_drop_cases hlen hx with e | e
              · rw [e]; exact hRl
              · exact hall2 x e hn
            · exact Or.inr ⟨n2 + n1 + 1, S', stk, h', hstk, hnp, fun fuel stack =>
                (hgo n2 fuel stack).trans (hloop2 fuel stack)⟩
          · have hnp := h.bad_child hr hl1 hc hnl
            refine Or.inr ⟨n1 + 1, S1, (i, p) :: stk1, h1, ?_, hnp, ?_⟩
            · intro e he
              rcases List.mem_cons.mp he with e1 | e1
              · rw [e1]; exact hnp
              · exact hstk1 e e1
            · intro fuel stack
              have e : fuel + (n1 + 1) = (fuel + n1) + 1 := rfl
              rw [e, hstep, hloop1 fuel, List.append_assoc]
              rfl

/-- The recursive definition satisfies the rule of the spec. -/
theorem SpecRedundant.rule (s : Solver) (v : Var) :
    SpecRedundant s v ↔ ∃ cr, reason s v = some cr ∧
      ∀ l ∈ (s.ca.cl cr).lits.drop 1, level s (var l) = 0 ∨ s.seen (var l) = 1 ∨
        s.seen (var l) = 2 ∨ SpecRedundant s (var l) := by
  constructor
  · intro h
    obtain ⟨cr, hr, hall⟩ := h.inv
    refine ⟨cr, hr, fun l hl => ?_⟩
    by_cases hc : level s (var l) = 0 ∨ s.seen (var l) = 1 ∨ s.seen (var l) = 2
    · rcases hc with h1 | h1 | h1
      · exact Or.inl h1
      · exact Or.inr (Or.inl h1)
      · exact Or.inr (Or.inr (Or.inl h1))
    · exact Or.inr (Or.inr (Or.inr (hall l hl hc)))
  · rintro ⟨cr, hr, hall⟩
    refine SpecRedundant.mk v cr hr (fun l hl hn => ?_)
    rcases hall l hl with h1 | h1 | h1 | h1
    · exact absurd (Or.inl h1) hn
    · exact absurd (Or.inr (Or.inl h1)) hn
    · exact absurd (Or.inr (Or.inr h1)) hn
    · exact h1

/-- The result of `litRedundant` under an acyclic implication graph and marks that agree with
the recursive definition. -/
theorem litRedundant_char (s : Solver) (p : Lit) (hac : Acyclic s)
    (hpt : ∃ m ∈ s.trail, var m = var p) (hr : reason s (var p) ≠ none)
    (hs : s.seen (var p) = 0 ∨ s.seen (var p) = 1) (hm : MarksOk s) :
    ∃ (n : Nat) (b : Bool) (t : Solver),
      (∀ fuel, n ≤ fuel → litRedundant fuel s p = some (b, t)) ∧
      (b = true ↔ SpecRedundant s (var p)) ∧ RedInv s t := by
  obtain ⟨m, hm1, hm2⟩ := hpt
  obtain ⟨pre, post, ht⟩ := List.append_of_mem hm1
  obtain ⟨cr, hcr⟩ : ∃ cr, reason s (var p) = some cr := by
    cases hre : reason s (var p) with
    | none => exact absurd hre hr
    | some cr => exact ⟨cr, rfl⟩
  have hlit : ∀ fuel, litRedundant fuel s p = litRedundantLoop fuel s 1 p [] := by
    intro fuel
    unfold litRedundant
    rw [if_neg (not_not.mpr hs), if_neg hr]
  rcases litRedundantLoop_frame hac (pre.length + 1) pre m post p cr (Nat.lt_succ_self _) ht
      hm2 hcr (s.ca.cl cr).size 1 s (by omega) le_rfl (RedInv.refl_red hm) with
    ⟨n, S', h', hall, hloop⟩ | ⟨n, S', stk, h', hstk, hnp, hloop⟩
  · have hR : SpecRedundant s (var p) := SpecRedundant.mk _ cr hcr hall
    refine ⟨n, true, markRemovable S' p, ?_, ⟨fun _ => hR, fun _ => rfl⟩,
      h'.markRemovable_red hR⟩
    intro fuel hf
    obtain ⟨f, rfl⟩ : ∃ f, fuel = f + n := ⟨fuel - n, by omega⟩
    rw [hlit, hloop f []]
    rfl
  · refine ⟨n, false, markFailed S' ([] ++ stk), ?_,
      ⟨fun e => (by cases e), fun e => absurd e hnp⟩, RedInv.markFailed_red _ _ h' hstk⟩
    intro fuel hf
    obtain ⟨f, rfl⟩ : ∃ f, fuel = f + n := ⟨fuel - n, by omega⟩
    rw [hlit, hloop f []]

/-- C23: under an acyclic implication graph (every literal other than the first of the reason
clause of a trail literal is the negation of an earlier trail literal), for a literal `p` of a
trail variable that has a reason and is marked `seen_undef` or `seen_source`, and marks
`seen_removable` / `seen_failed` that agree with the recursive definition: `litRedundant(p)`
returns for every fuel from some bound on; its result is `true` exactly when `var p` is
redundant by the recursive definition; the marks of the final state agree with the recursive
definition again, which is the same for the final state; and the recursive definition
satisfies the rule of the spec. -/
theorem litRedundant_refines (s : Solver) (p : Lit) (hac : Acyclic s)
    (hpt : ∃ m ∈ s.trail, var m = var p) (hr : reason s (var p) ≠ none)
    (hs : s.seen (var p) = 0 ∨ s.seen (var p) = 1) (hm : MarksOk s) :
    ∃ (n : Nat) (b : Bool) (t : Solver),
      (∀ fuel, n ≤ fuel → litRedundant fuel s p = some (b, t)) ∧
      (b = true ↔ SpecRedundant s (var p)) ∧
      MarksOk t ∧ (∀ v, SpecRedundant t v ↔ SpecRedundant s v) ∧
      (∀ v, SpecRedundant s v ↔ ∃ cr, reason s v = some cr ∧
        ∀ l ∈ (s.ca.cl cr).lits.drop 1, level s (var l) = 0 ∨ s.seen (var l) = 1 ∨
          s.seen (var l) = 2 ∨ SpecRedundant s (var l)) := by
  obtain ⟨n, b, t, h1, h2, h3⟩ := litRedundant_char s p hac hpt hr hs hm
  exact ⟨n, b, t, h1, h2, h3.marksOk, h3.red_iff, SpecRedundant.rule s⟩

end Minisat


namespace Minisat
open lbool

/-! ## `propagate` keeps the literals of the clauses and the assigned variables -/

theorem PKeep.refl_pk (s : Solver) : PKeep s s :=
  ⟨fun _ _ h => h, fun _ _ => ⟨rfl, rfl⟩⟩

theorem PKeep.trans_pk {s t u : Solver} (h1 : PKeep s t) (h2 : PKeep t u) : PKeep s u := by
  refine ⟨fun cr l hl => h1.lits_sub cr l (h2.lits_sub cr l hl), fun v hv => ?_⟩
  obtain ⟨a1, a2⟩ := h1.assigned v hv
  obtain ⟨b1, b2⟩ := h2.assigned v (by rw [a1]; exact hv)
  exact ⟨b1.trans a1, b2.trans a2⟩

theorem PKeep.of_eq_pk {s t : Solver} (h1 : t.ca = s.ca) (h2 : t.assigns = s.assigns)
    (h3 : t.vardata = s.vardata) : PKeep s t :=
  ⟨fun cr l hl => by rw [h1] at hl; exact hl, fun v _ => ⟨by rw [h2], by rw [h3]⟩⟩

/-- The exchange of the first two literals keeps the literals of the clauses. -/
theorem PKeep.setLits_pk {s : Solver} {cr : CRef} {ls : List Lit}
    (h : ∀ l ∈ ls, l ∈ (s.ca.cl cr).lits) : PKeep s (setLits s cr ls) := by
  refine ⟨fun cr' l hl => ?_, fun v _ => ⟨rfl, rfl⟩⟩
  by_cases hc : cr' = cr
  · subst hc
    rw [setLits_lits_self] at hl
    exact h l hl
  · rw [setLits_cl_other s _ hc] at hl
    exact hl

theorem PKeep.enqueue_pk {s s1 : Solver} {p : Lit} {r : Option CRef}
    (h : uncheckedEnqueue s p r = some s1) : PKeep s s1 := by
  obtain ⟨hu, rfl⟩ := uncheckedEnqueue_eq h
  refine ⟨fun _ _ hl => hl, fun v hv => ?_⟩
  have hne : v ≠ var p := by
    intro e
    rw [e] at hv
    exact hv (value_undef_iff.mp hu)
  exact ⟨Function.update_noteq hne _ _, Function.update_noteq hne _ _⟩

theorem swap_sub {lits : List Lit} {a f : Lit} {rs : List Lit}
    (hor : lits = a :: f :: rs ∨ lits = f :: a :: rs) : ∀ l ∈ a :: f :: rs, l ∈ lits := by
  intro l hl
  rcases hor with e | e
  · rw [e]; exact hl
  · rw [e]
    simp only [List.mem_cons] at hl ⊢
    tauto

theorem watchStep_keep_sub {p : Lit} {b : Bool} {w w1 : Watcher} {s s1 : Solver} {q : Nat}
    {pre rest : List Watcher}
    (h : LoopInv (setWatches s p (pre ++ w :: rest)) p q pre (w :: rest))
    (hk : watchStep p b w s = WStep.keep w1 s1) : PKeep s s1 := by
  obtain ⟨-, -, a, rs, he, hor⟩ := h.head
  have he' : swapFalseLit (s.ca.cl w.cref).lits (neg p) = a :: neg p :: rs := he
  have hor' : (s.ca.cl w.cref).lits = a :: neg p :: rs ∨
      (s.ca.cl w.cref).lits = neg p :: a :: rs := hor
  have h1 : PKeep s (setLits s w.cref (a :: neg p :: rs)) := PKeep.setLits_pk (swap_sub hor')
  rcases watchStep_keep hk with ⟨-, -, rfl⟩ | ⟨-, -, -, ⟨-, rfl⟩ | ⟨-, henq⟩⟩
  · exact PKeep.refl_pk _
  · rw [he']; exact h1
  · rw [he'] at henq
    obtain ⟨-, -, f3, f4, -, -, -, -, f9⟩ :=
      tagSymmetryUnit_fields b (setLits s w.cref (a :: neg p :: rs))
        (var ((a :: neg p :: rs).getD 0 0))
    exact (h1.trans_pk (PKeep.of_eq_pk f9 f3 f4)).trans_pk (PKeep.enqueue_pk henq)

theorem watchStep_move_sub {p : Lit} {b : Bool} {w : Watcher} {s s1 : Solver} {q : Nat}
    {pre rest : List Watcher}
    (h : LoopInv (setWatches s p (pre ++ w :: rest)) p q pre (w :: rest))
    (hk : watchStep p b w s = WStep.move s1) : PKeep s s1 := by
  obtain ⟨-, -, a, rs, he, hor⟩ := h.head
  have he' : swapFalseLit (s.ca.cl w.cref).lits (neg p) = a :: neg p :: rs := he
  have hor' : (s.ca.cl w.cref).lits = a :: neg p :: rs ∨
      (s.ca.cl w.cref).lits = neg p :: a :: rs := hor
  have h1 : PKeep s (setLits s w.cref (a :: neg p :: rs)) := PKeep.setLits_pk (swap_sub hor')
  obtain ⟨k, -, -, -, hfw, -, rfl⟩ := watchStep_move hk
  rw [he'] at hfw ⊢
  simp only [List.drop_succ_cons, List.drop_zero] at hfw
  obtain ⟨hk2, hklt, -⟩ := findWatch_some _ _ _ hfw
  rw [moveWatch_cons a (neg p) rs k hk2]
  have h2 : PKeep (setLits s w.cref (a :: neg p :: rs))
      (setLits (setLits s w.cref (a :: neg p :: rs)) w.cref
        (a :: rs.getD (k - 2) 0 :: rs.set (k - 2) (neg p))) := by
    apply PKeep.setLits_pk
    intro l hl
    rw [setLits_lits_self]
    rcases List.mem_cons.mp hl with e | hl2
    · rw [e]; exact List.mem_cons_self _ _
    · exact List.mem_cons_of_mem _ ((perm_getD_set hklt (neg p)).mem_iff.mp hl2)
  exact (h1.trans_pk h2).trans_pk (PKeep.of_eq_pk rfl rfl rfl)

theorem watchStep_conflict_sub {p : Lit} {b : Bool} {w w1 : Watcher} {s s1 : Solver} {q : Nat}
    {pre rest : List Watcher}
    (h : LoopInv (setWatches s p (pre ++ w :: rest)) p q pre (w :: rest))
    (hk : watchStep p b w s = WStep.conflict w1 s1) : PKeep s s1 := by
  obtain ⟨-, -, a, rs, he, hor⟩ := h.head
  have he' : swapFalseLit (s.ca.cl w.cref).lits (neg p) = a :: neg p :: rs := he
  have hor' : (s.ca.cl w.cref).lits = a :: neg p :: rs ∨
      (s.ca.cl w.cref).lits = neg p :: a :: rs := hor
  obtain ⟨-, -, -, -, -, rfl⟩ := watchStep_conflict hk
  rw [he']
  exact (PKeep.setLits_pk (swap_sub hor')).trans_pk (PKeep.of_eq_pk rfl rfl rfl)

theorem propagateWatchers_sub {p : Lit} {b : Bool} {q : Nat} :
    ∀ (ws pre : List Watcher) (s : Solver) (r : Option CRef × List Watcher × Solver),
      LoopInv (setWatches s p (pre ++ ws)) p q pre ws →
      propagateWatchers p b ws s = some r → PKeep s r.2.2 := by
  intro ws
  induction ws with
  | nil =>
    intro pre s r _ hr
    simp only [propagateWatchers, Option.some.injEq] at hr
    subst hr
    exact PKeep.refl_pk _
  | cons w rest ih =>
    intro pre s r h hr
    unfold propagateWatchers at hr
    cases hstep : watchStep p b w s with
    | fail => rw [hstep] at hr; cases hr
    | keep w1 s1 =>
      rw [hstep] at hr
      dsimp only at hr
      have h1 := watchStep_keep_inv h hstep
      have h1' : LoopInv (setWatches s1 p ((pre ++ [w1]) ++ rest)) p q (pre ++ [w1]) rest := by
        simpa using h1
      cases hr2 : propagateWatchers p b rest s1 with
      | none => rw [hr2] at hr; cases hr
      | some r2 =>
        rw [hr2] at hr
        simp only [Option.map_some', Option.some.injEq] at hr
        subst hr
        exact (watchStep_keep_sub h hstep).trans_pk (ih (pre ++ [w1]) s1 r2 h1' hr2)
    | move s1 =>
      rw [hstep] at hr
      dsimp only at hr
      exact (watchStep_move_sub h hstep).trans_pk (ih pre s1 r (watchStep_move_inv h hstep) hr)
    | conflict w1 s1 =>
      rw [hstep] at hr
      dsimp only at hr
      cases hr
      exact watchStep_conflict_sub h hstep

theorem propagateLit_sub {s : Solver} {p : Lit} {q : Nat} (htr : TrailInv s)
    (hwt : WatchInv s q) (hp : s.trail.getD q 0 = p) (hq : q < s.trail.length)
    {r : Option CRef × Solver} (hr : propagateLit p s = some r) : PKeep s r.2 := by
  obtain ⟨-, -, f3, f4, -, -⟩ := lookup_fields s p
  have hinit := propagateLit_init htr hwt hp hq
  unfold propagateLit at hr
  cases hw : propagateWatchers p
      (decide (decisionLevel s = 0) && decide (var p ∈ s.symmetry_units))
      ((lookup s p).watches p) (lookup s p) with
  | none => rw [hw] at hr; cases hr
  | some r1 =>
    rw [hw] at hr
    cases hr
    have h1 := propagateWatchers_sub _ [] (lookup s p) r1 hinit hw
    exact ((PKeep.of_eq_pk (lookup_ca s p) f3 f4).trans_pk h1).trans_pk
      (PKeep.of_eq_pk rfl rfl rfl)

theorem propagateLoop_sub :
    ∀ (fuel : Nat) (s : Solver) (n : Nat) (r : Option CRef × Nat × Solver),
      TrailInv s → WatchInv s s.qhead → propagateLoop fuel s none n = some r →
      PKeep s r.2.2 := by
  intro fuel
  induction fuel with
  | zero =>
    intro s n r _ _ h
    by_cases hq : s.qhead < s.trail.length
    · rw [propagateLoop_zero hq] at h; cases h
    · rw [propagateLoop_done hq] at h; cases h
      exact PKeep.refl_pk _
  | succ fuel ih =>
    intro s n r htr hwt h
    by_cases hq : s.qhead < s.trail.length
    · rw [propagateLoop_step hq] at h
      obtain ⟨confl, s1, hr, htr1, hnone, hsome⟩ :=
        propagateLit_inv (s := setQhead s (s.qhead + 1)) (p := s.trail.getD s.qhead 0)
          (q := s.qhead) (htr.congr_tr rfl rfl rfl rfl)
          (hwt.of_eq_wt rfl rfl rfl rfl rfl rfl rfl rfl rfl) rfl hq
      have hsub : PKeep s s1 :=
        (PKeep.of_eq_pk rfl rfl rfl : PKeep s (setQhead s (s.qhead + 1))).trans_pk
          (propagateLit_sub (s := setQhead s (s.qhead + 1)) (q := s.qhead)
            (htr.congr_tr rfl rfl rfl rfl)
            (hwt.of_eq_wt rfl rfl rfl rfl rfl rfl rfl rfl rfl) rfl hq hr)
      rw [hr] at h
      cases confl with
      | none =>
        obtain ⟨hA, hB⟩ := hnone rfl
        simp only [ne_eq, not_true_eq_false, if_false] at h
        have hB' : s1.qhead = s.qhead + 1 := hB
        exact hsub.trans_pk (ih s1 (n + 1) r htr1 (hB' ▸ hA) h)
      | some cr =>
        have hdone : ¬ (setQhead s1 s1.trail.length).qhead
            < (setQhead s1 s1.trail.length).trail.length := by
          show ¬ s1.trail.length < s1.trail.length
          omega
        simp only [propagateLoop_done hdone] at h
        cases h
        exact hsub.trans_pk (PKeep.of_eq_pk rfl rfl rfl)
    · rw [propagateLoop_done hq] at h; cases h
      exact PKeep.refl_pk _

/-- From a state with the invariants, `propagate` keeps the literals of every clause among
its literals and leaves the assigned variables as they are. -/
theorem propagate_sub {fuel : Nat} {s : Solver} {r : Option CRef × Solver}
    (htr : TrailInv s) (hwt : WatchInv s s.qhead) (h : propagate fuel s = some r) :
    PKeep s r.2 := by
  unfold propagate at h
  cases hl : propagateLoop fuel s none 0 with
  | none => rw [hl] at h; cases h
  | some r1 =>
    rw [hl] at h
    cases h
    exact (propagateLoop_sub fuel s 0 r1 htr hwt hl).trans_pk (PKeep.of_eq_pk rfl rfl rfl)

end Minisat


namespace Minisat
open lbool

/-! ## What the steps of the search keep of the clauses of the instance -/

theorem Keeps.refl_kp (s : Solver) : Keeps s s :=
  ⟨fun _ h1 h2 => ⟨h1, h2⟩, fun cr hc hm => Or.inr ⟨cr, hc, hm, fun _ hl => hl⟩, id, le_rfl⟩

theorem Keeps.trans_kp {s t u : Solver} (h1 : Keeps s t) (h2 : Keeps t u) : Keeps s u := by
  refine ⟨fun l a b => ?_, fun cr hc hm => ?_, fun hd => h2.disj (h1.disj hd),
    le_trans h1.nvars h2.nvars⟩
  · obtain ⟨a1, b1⟩ := h1.fixed l a b
    exact h2.fixed l a1 b1
  · rcases h1.held cr hc hm with ⟨l, hl, a, b⟩ | ⟨cr', hc', hm', hsub⟩
    · exact Or.inl ⟨l, hl, h2.fixed l a b⟩
    · rcases h2.held cr' hc' hm' with ⟨l, hl, a, b⟩ | ⟨cr2, hc2, hm2, hsub2⟩
      · exact Or.inl ⟨l, hsub l hl, a, b⟩
      · exact Or.inr ⟨cr2, hc2, hm2, fun l hl => hsub l (hsub2 l hl)⟩

/-- A clause that is accounted for stays so. -/
theorem Cov.keeps {s t : Solver} {c : List Lit} (hc : Cov s c) (hk : Keeps s t) : Cov t c := by
  rcases hc with ⟨l, hl, a, b⟩ | ⟨cr, hcr, hm, hsub⟩ | ⟨l, hl, hn, hv⟩
  · exact Or.inl ⟨l, hl, hk.fixed l a b⟩
  · rcases hk.held cr hcr hm with ⟨l, hl, a, b⟩ | ⟨cr', hc', hm', hsub'⟩
    · exact Or.inl ⟨l, hsub l hl, a, b⟩
    · exact Or.inr (Or.inl ⟨cr', hc', hm', fun l hl => hsub l (hsub' l hl)⟩)
  · exact Or.inr (Or.inr ⟨l, hl, hn, lt_of_lt_of_le hv hk.nvars⟩)

/-- The relation for a step that keeps the list `clauses`. -/
theorem Keeps.of_same {s t : Solver} (hcl : t.clauses = s.clauses) (hdisj : Disj s → Disj t)
    (hnv : t.next_var = s.next_var)
    (hmark : ∀ cr ∈ s.clauses, (s.ca.cl cr).mark ≠ 1 → (t.ca.cl cr).mark ≠ 1)
    (hlits : ∀ cr ∈ s.clauses, ∀ l ∈ (t.ca.cl cr).lits, l ∈ (s.ca.cl cr).lits)
    (hfix : ∀ l, value s l = l_True → level s (var l) = 0 →
      value t l = l_True ∧ level t (var l) = 0) : Keeps s t := by
  refine ⟨hfix, fun cr hc hm => Or.inr ⟨cr, by rw [hcl]; exact hc, hmark cr hc hm,
    hlits cr hc⟩, hdisj, ?_⟩
  unfold nVars; rw [hnv]

theorem Disj.of_eq_dj {s t : Solver} (hcl : t.clauses = s.clauses)
    (hle : t.learnts = s.learnts) : Disj s → Disj t := by
  intro h cr hc
  rw [hcl] at hc
  rw [hle]
  exact h cr hc

/-- The relation for a step that leaves the clauses, the assignment and the variable data
alone. -/
theorem Keeps.of_eq_kp {s t : Solver} (hcl : t.clauses = s.clauses)
    (hle : t.learnts = s.learnts) (hca : t.ca = s.ca) (has : t.assigns = s.assigns)
    (hvd : t.vardata = s.vardata) (hnv : t.next_var = s.next_var) : Keeps s t :=
  Keeps.of_same hcl (Disj.of_eq_dj hcl hle) hnv (fun cr _ hm => by rw [hca]; exact hm)
    (fun cr _ l hl => by rw [hca] at hl; exact hl)
    (fun l a b => ⟨by rw [value_congr has]; exact a, by rw [level_congr hvd]; exact b⟩)

theorem Keeps.of_aframe_kp {s t : Solver} (hf : AFrame s t) : Keeps s t :=
  Keeps.of_same hf.clauses (Disj.of_eq_dj hf.clauses hf.learnts) hf.next_var
    (fun cr _ hm => by rw [hf.mark]; exact hm)
    (fun cr _ l hl => by rw [hf.lits] at hl; exact hl)
    (fun l a b => ⟨by rw [hf.value_eq]; exact a, by rw [hf.level_eq]; exact b⟩)

/-- `propagate` from a state with the invariants. -/
theorem propagate_keeps {fuel : Nat} {s : Solver} {r : Option CRef × Solver} (h : Inv s)
    (hp : propagate fuel s = some r) : Keeps s r.2 := by
  have hk := propKey_propagate hp
  have hsub := propagate_sub h.tr h.wt hp
  obtain ⟨-, -, -, -, -, -, g7, -⟩ := propKey_fields hk
  refine Keeps.of_same (propKey_clauses hk)
    (Disj.of_eq_dj (propKey_clauses hk) (propKey_learnts hk)) g7 ?_
    (fun cr _ l hl => hsub.lits_sub cr l hl) ?_
  · intro cr _ hm
    rw [(hdrKey_flags (hdrKey_propagate hp) cr).2.2.2.1]
    exact hm
  · intro l a b
    obtain ⟨e1, e2⟩ := hsub.assigned (var l) (value_true_ne_undef a)
    refine ⟨?_, ?_⟩
    · unfold value at a ⊢; rw [e1]; exact a
    · unfold level at b ⊢; rw [e2]; exact b

/-- Backtracking. -/
theorem cancel_keeps {s : Solver} (htr : TrailInv s) (k : Nat) : Keeps s (cancelUntil s k) := by
  by_cases hk : k < decisionLevel s
  · obtain ⟨g1, -, -, -, g5, g6, g7, -, -, -, -, -, g13, -⟩ :=
      cancelUntilKey_fields (cancelUntilKey_cancelUntil s k)
    obtain ⟨-, -, c3⟩ := cancelUntil_values htr hk
    refine Keeps.of_same g5 (Disj.of_eq_dj g5 g6) g13 (fun cr _ hm => by rw [g7]; exact hm)
      (fun cr _ l hl => by rw [g7] at hl; exact hl) ?_
    intro l a b
    refine ⟨?_, by rw [level_congr g1]; exact b⟩
    rw [c3 l (by rw [a]; intro e; cases e) (by omega)]
    exact a
  · have e : cancelUntil s k = s := by
      unfold cancelUntil
      rw [if_neg (by omega)]
    rw [e]
    exact Keeps.refl_kp s

/-- An enqueue. -/
theorem enqueue_keeps {s t : Solver} {p : Lit} {r : Option CRef}
    (h : uncheckedEnqueue s p r = some t) : Keeps s t := by
  have hpk := PKeep.enqueue_pk h
  obtain ⟨-, rfl⟩ := uncheckedEnqueue_eq h
  refine Keeps.of_same rfl (Disj.of_eq_dj rfl rfl) rfl (fun _ _ hm => hm)
    (fun _ _ _ hl => hl) ?_
  intro l a b
  obtain ⟨e1, e2⟩ := hpk.assigned (var l) (value_true_ne_undef a)
  refine ⟨?_, ?_⟩
  · unfold value at a ⊢; rw [e1]; exact a
  · unfold level at b ⊢; rw [e2]; exact b

theorem attachClause_fields {s t : Solver} {cr : CRef} (h : attachClause s cr = some t) :
    t.ca = s.ca ∧ t.clauses = s.clauses ∧ t.learnts = s.learnts ∧ t.assigns = s.assigns ∧
    t.vardata = s.vardata ∧ t.next_var = s.next_var ∧ t.trail_lim = s.trail_lim ∧
    t.assumptions = s.assumptions ∧ t.decision = s.decision := by
  obtain ⟨-, rfl⟩ := attachClause_eq h
  unfold countAttach
  split_ifs <;> exact ⟨rfl, rfl, rfl, rfl, rfl, rfl, rfl, rfl, rfl⟩

/-- The allocation of a clause at the end of the arena leaves the listed clauses alone. -/
theorem alloc_keeps {s : Solver} (h : Inv s) (ls : List Lit) (learnt fs sy : Bool)
    (comp : Option (List Nat)) :
    ∀ cr, Listed s cr →
      ((s.ca.alloc ls learnt fs sy comp).2).cl cr = s.ca.cl cr := by
  intro cr hl
  have hlt := h.wt.listed_lt cr hl
  show Function.update s.ca.cl s.ca.size _ cr = _
  rw [Function.update_noteq (Nat.ne_of_lt hlt)]

theorem learnUnit_keeps {sb s1 : Solver} {r : AnalyzeResult} (h : learnUnit sb r = some s1) :
    Keeps sb s1 := by
  unfold learnUnit at h
  split_ifs at h
  · exact (Keeps.of_eq_kp rfl rfl rfl rfl rfl rfl :
      Keeps sb (insertSymmetryUnit sb (var (r.out_learnt.getD 0 0)))).trans_kp (enqueue_keeps h)
  · exact enqueue_keeps h

/-- The storing of a learnt clause. -/
theorem learn_keeps {sb t : Solver} {ls : List Lit} {a : Lit} {fs sy : Bool}
    {comp : Option (List Nat)} (hi : Inv sb)
    (ht : (match attachClause
        (pushLearnt (setCa sb (sb.ca.alloc ls true fs sy comp).2)
          (sb.ca.alloc ls true fs sy comp).1)
        (sb.ca.alloc ls true fs sy comp).1 with
      | none => none
      | some s1 => uncheckedEnqueue
          (claBumpActivity s1 (sb.ca.alloc ls true fs sy comp).1) a
          (some (sb.ca.alloc ls true fs sy comp).1)) = some t) :
    Keeps sb t := by
  cases hat : attachClause
      (pushLearnt (setCa sb (sb.ca.alloc ls true fs sy comp).2)
        (sb.ca.alloc ls true fs sy comp).1)
      (sb.ca.alloc ls true fs sy comp).1 with
  | none => rw [hat] at ht; cases ht
  | some s1 =>
    rw [hat] at ht
    simp only at ht
    have k0 : Keeps sb (pushLearnt (setCa sb (sb.ca.alloc ls true fs sy comp).2)
        (sb.ca.alloc ls true fs sy comp).1) := by
      refine Keeps.of_same rfl ?_ rfl ?_ ?_ (fun l a b => ⟨a, b⟩)
      · intro hd cr hc hl
        have hl2 : cr ∈ sb.learnts ++ [sb.ca.size] := hl
        rcases List.mem_append.mp hl2 with e | e
        · exact hd cr hc e
        · rw [List.mem_singleton] at e
          exact Nat.ne_of_lt (hi.wt.listed_lt cr (Or.inl hc)) e
      · intro cr hc hm
        have e := alloc_keeps hi ls true fs sy comp cr (Or.inl hc)
        show ((sb.ca.alloc ls true fs sy comp).2.cl cr).mark ≠ 1
        rw [e]; exact hm
      · intro cr hc l hl
        have e := alloc_keeps hi ls true fs sy comp cr (Or.inl hc)
        have hl2 : l ∈ ((sb.ca.alloc ls true fs sy comp).2.cl cr).lits := hl
        rw [e] at hl2; exact hl2
    obtain ⟨f1, f2, f3, f4, f5, f6, -, -, -⟩ := attachClause_fields hat
    have k1 := Keeps.of_eq_kp f2 f3 f1 f4 f5 f6
    have k2 : Keeps s1 (claBumpActivity s1 (sb.ca.alloc ls true fs sy comp).1) :=
      Keeps.of_aframe_kp (anaKey_frame (anaKey_claBumpActivity s1 _))
    exact ((k0.trans_kp k1).trans_kp k2).trans_kp (enqueue_keeps ht)

theorem learnClause_keeps {sb s1 : Solver} {r : AnalyzeResult} {confl : CRef} (hi : Inv sb)
    (h : learnClause sb r confl = some s1) : Keeps sb s1 := by
  unfold learnClause at h
  by_cases hc : (sb.ca.cl confl).fsymmetry = true ∧ r.out_symmetry = false
  · rw [if_pos hc] at h; cases h
  · rw [if_neg hc] at h
    exact learn_keeps hi h

/-- The conflict branch of `search`, when the search goes on. -/
theorem searchConflict_keeps {fuel fuel2 : Nat} {s0 s s2 : Solver} {confl : CRef}
    (h0 : Inv s0) (hp : propagate fuel s0 = some (some confl, s))
    (hc : searchConflict fuel2 s confl = some (none, s2)) : Keeps s s2 := by
  obtain ⟨h1, -, -, h4⟩ := propagate_inv h0.tr h0.wt hp
  obtain ⟨⟨q, hwq⟩, hatt, hfal⟩ := h4 confl rfl
  have hax := propagate_aux h0.tr h0.wt h0.ax hp
  have htl := propagate_top h0.tr h0.wt hp confl rfl
  unfold searchConflict at hc
  by_cases hd0 : decisionLevel s = 0
  · rw [if_pos hd0] at hc; cases hc
  rw [if_neg hd0] at hc
  have hdl : 0 < decisionLevel s := Nat.pos_of_ne_zero hd0
  cases ha : analyze fuel2 (countConflict s) confl with
  | none => rw [ha] at hc; cases hc
  | some r =>
    rw [ha] at hc
    simp only at hc
    have htr' : TrailInv (countConflict s) := h1.congr_tr rfl rfl rfl rfl
    have hwq' : WatchInv (countConflict s) q := hwq.of_eq_wt rfl rfl rfl rfl rfl rfl rfl rfl rfl
    have hax' : AuxInv (countConflict s) :=
      hax.of_eq_ax rfl rfl rfl rfl rfl rfl rfl rfl rfl rfl rfl rfl rfl rfl rfl rfl
    have hspec : AnalyzeSpec (countConflict s) r :=
      analyze_spec htr' hax'.rs hax'.vr.seen0 hdl hfal htl ha
    have hf := anaKey_frame hspec.key
    have hseen : r.2.seen = (countConflict s).seen := by
      funext v; rw [hspec.seen0 v]; exact (hax'.vr.seen0 v).symm
    obtain ⟨htr2, hwq2, hax2⟩ := parts_of_aframe htr' hwq' hax' hf hseen
    obtain ⟨p', tl', e', hp', -, hndv, hq', hbt, -, hbl⟩ := hspec.shape
    have hbt2 : r.1.out_btlevel < decisionLevel r.2 := by
      unfold decisionLevel; rw [hf.trail_lim]; exact hbt
    have hsb : Inv (cancelUntil r.2 r.1.out_btlevel) := Inv.cancel htr2 hwq2 hax2 hbt2
    have kb : Keeps s (cancelUntil r.2 r.1.out_btlevel) :=
      ((Keeps.of_eq_kp rfl rfl rfl rfl rfl rfl : Keeps s (countConflict s)).trans_kp
        (Keeps.of_aframe_kp hf)).trans_kp (cancel_keeps htr2 _)
    by_cases hone : r.1.out_learnt.length = 1
    · rw [if_pos hone] at hc
      cases hl : learnUnit (cancelUntil r.2 r.1.out_btlevel) r.1 with
      | none => rw [hl] at hc; cases hc
      | some s1 =>
        rw [hl] at hc
        simp only [Option.some.injEq, Prod.mk.injEq, true_and] at hc
        subst hc
        exact (kb.trans_kp (learnUnit_keeps hl)).trans_kp (Keeps.of_aframe_kp (AFrame.decay s1))
    · rw [if_neg hone] at hc
      cases hl : learnClause (cancelUntil r.2 r.1.out_btlevel) r.1 confl with
      | none => rw [hl] at hc; cases hc
      | some s1 =>
        rw [hl] at hc
        simp only [Option.some.injEq, Prod.mk.injEq, true_and] at hc
        subst hc
        exact (kb.trans_kp (learnClause_keeps hsb hl)).trans_kp
          (Keeps.of_aframe_kp (AFrame.decay s1))

end Minisat


namespace Minisat
open lbool

/-! ## What the simplification and the reduction of the database keep -/

/-- A true literal at decision level 0 has level 0. -/
theorem TrailInv.level_zero {s : Solver} (htr : TrailInv s) (hd : decisionLevel s = 0)
    {l : Lit} (hl : value s l = l_True) : level s (var l) = 0 := by
  have := htr.level_le l (htr.mem_of_true hl)
  omega

/-- The loops of `removeSatisfied` and `reduceDB`. -/
theorem DbStep.keeps_db {s u : Solver} (h : DbStep s u) (htr : TrailInv s) (hd : Disj s) :
    Keeps s u := by
  have hv : ∀ l, value u l = value s l := value_congr h.assigns
  refine ⟨fun l a b => ⟨by rw [hv]; exact a, by rw [h.level]; exact b⟩, ?_,
    Disj.of_eq_dj h.clauses h.learnts, ?_⟩
  · intro cr hc hm
    by_cases hu : (u.ca.cl cr).mark = 1
    · rcases h.gone cr hm hu with ⟨hs, hd0⟩ | hl
      · unfold satisfied at hs
        rw [List.any_eq_true] at hs
        obtain ⟨l, hl, hlv⟩ := hs
        have hlv' : value s l = l_True := of_decide_eq_true hlv
        exact Or.inl ⟨l, hl, by rw [hv]; exact hlv',
          by rw [h.level]; exact htr.level_zero hd0 hlv'⟩
      · exact absurd hl (hd cr hc)
    · exact Or.inr ⟨cr, by rw [h.clauses]; exact hc, hu, h.lits_sub cr⟩
  · unfold nVars; rw [h.next_var]

theorem setLearnts_keeps (u : Solver) (kept : List CRef) (hsub : ∀ c ∈ kept, c ∈ u.learnts) :
    Keeps u (setLearnts u kept) :=
  Keeps.of_same rfl (fun hd cr hc hl => hd cr hc (hsub cr hl)) rfl (fun _ _ hm => hm)
    (fun _ _ _ hl => hl) (fun _ a b => ⟨a, b⟩)

theorem setClauses_keeps (u : Solver) (kept : List CRef) (hsub : ∀ c ∈ kept, c ∈ u.clauses)
    (hr : ∀ c ∈ u.clauses, c ∉ kept → (u.ca.cl c).mark = 1) :
    Keeps u (setClauses u kept) := by
  refine ⟨fun _ a b => ⟨a, b⟩, ?_, fun hd cr hc hl => hd cr (hsub cr hc) hl, le_rfl⟩
  intro cr hc hm
  refine Or.inr ⟨cr, ?_, hm, fun _ hl => hl⟩
  by_contra hn
  exact hm (hr cr hc hn)

/-- The garbage collection. -/
theorem GcSpec.keeps_gc {s t : Solver} {φ : CRef → CRef} (h : GcSpec s t φ) : Keeps s t := by
  obtain ⟨-, -, g3, -, -, -, -, -, -, g10, -, -, -⟩ := gcKey_fields h.key
  have hrem : ∀ c, (s.ca.cl c).mark ≠ 1 → (!isRemoved s c) = true := by
    intro c hm
    unfold isRemoved
    simp [hm]
  have hrem2 : ∀ c, (!isRemoved s c) = true → (s.ca.cl c).mark ≠ 1 := by
    intro c hm
    unfold isRemoved at hm
    simpa using hm
  refine ⟨fun l a b => ⟨by rw [value_congr g3]; exact a, by rw [h.levels]; exact b⟩, ?_, ?_, ?_⟩
  · intro cr hc hm
    obtain ⟨-, hcl⟩ := h.live cr ⟨Or.inl hc, hm⟩
    refine Or.inr ⟨φ cr, ?_, by rw [hcl]; exact hm, fun l hl => by rw [hcl] at hl; exact hl⟩
    rw [h.clauses]
    exact List.mem_map_of_mem φ (List.mem_filter.mpr ⟨hc, hrem cr hm⟩)
  · intro hd cr hc hl
    rw [h.clauses, List.mem_map] at hc
    rw [h.learnts, List.mem_map] at hl
    obtain ⟨c1, hc1, e1⟩ := hc
    obtain ⟨c2, hc2, e2⟩ := hl
    rw [List.mem_filter] at hc1 hc2
    have a1 : Attached s c1 := ⟨Or.inl hc1.1, hrem2 c1 hc1.2⟩
    have a2 : Attached s c2 := ⟨Or.inr hc2.1, hrem2 c2 hc2.2⟩
    have e : c1 = c2 := h.inj c1 c2 a1 a2 (e1.trans e2.symm)
    rw [e] at hc1
    exact hd c2 hc1.1 hc2.1
  · unfold nVars; rw [g10]

theorem checkGarbage_keeps {s t : Solver} (h : t = s ∨ ∃ φ, GcSpec s t φ) : Keeps s t := by
  rcases h with rfl | ⟨φ, hg⟩
  · exact Keeps.refl_kp _
  · exact hg.keeps_gc

/-- The removal of the satisfied clauses in `simplify`. -/
theorem simplifyDB_keeps {s t : Solver} {q : Nat} (htr : TrailInv s) (hwt : WatchInv s q)
    (hax : AuxInv s) (hd0 : decisionLevel s = 0) (hq : s.qhead = s.trail.length)
    (hd : Disj s) (h : simplifyDB s = some t) : Keeps s t := by
  unfold simplifyDB at h
  cases h1 : removeSatisfiedLearnts s with
  | none => rw [h1] at h; cases h
  | some s2 =>
    rw [h1] at h
    simp only at h
    obtain ⟨a1, a2, a3, u, kept, a4, rfl, a5, a6⟩ :=
      removeSatisfiedLearnts_inv htr hwt hax hd0 h1
    have k1 : Keeps s (setLearnts u kept) :=
      (a4.keeps_db htr hd).trans_kp
        (setLearnts_keeps u kept (fun c hc => by rw [a4.learnts]; exact a5.subset hc))
    have f1 : (setLearnts u kept).trail = s.trail := a4.trail
    have f2 : (setLearnts u kept).trail_lim = s.trail_lim := a4.trail_lim
    have f3 : (setLearnts u kept).qhead = s.qhead := a4.qhead
    by_cases hrs : (setLearnts u kept).remove_satisfied = true
    · rw [if_pos hrs] at h
      cases h2 : removeSatisfiedClauses (setLearnts u kept) with
      | none => rw [h2] at h; cases h
      | some s3 =>
        rw [h2] at h
        simp only at h
        have hd2 : decisionLevel (setLearnts u kept) = 0 := by
          unfold decisionLevel at hd0 ⊢; rw [f2]; exact hd0
        obtain ⟨b1, b2, b3, u', kept', b4, rfl, b5, b6⟩ :=
          removeSatisfiedClauses_inv a1 a2 a3 hd2 h2
        have k2 : Keeps (setLearnts u kept) (setClauses u' kept') :=
          (b4.keeps_db a1 (k1.disj hd)).trans_kp
            (setClauses_keeps u' kept' (fun c hc => by rw [b4.clauses]; exact b5.subset hc)
              (fun c hc hn => b6 c (by rw [← b4.clauses]; exact hc) hn))
        have g1 : (setClauses u' kept').trail = s.trail := b4.trail.trans f1
        have g3 : (setClauses u' kept').qhead = s.qhead := b4.qhead.trans f3
        have := dropReleased_eq b3 (by rw [g3, g1]; exact hq) h
        subst this
        exact k1.trans_kp k2
    · rw [if_neg hrs] at h
      cases h
      exact k1

/-- `simplify`, when it returns true. -/
theorem simplify_keeps {fuel : Nat} {s t : Solver} (h : Inv s) (hd : Disj s)
    (hs : simplify fuel s = some (true, t)) : Keeps s t := by
  unfold simplify at hs
  by_cases hdl : decisionLevel s ≠ 0
  · rw [if_pos hdl] at hs; cases hs
  rw [if_neg hdl] at hs
  have hd0 : decisionLevel s = 0 := by simpa using hdl
  by_cases hok : s.ok = false
  · rw [if_pos hok] at hs; cases hs
  rw [if_neg hok] at hs
  cases hp : propagate fuel s with
  | none => rw [hp] at hs; cases hs
  | some r =>
    obtain ⟨c, s1⟩ := r
    rw [hp] at hs
    cases c with
    | some cr => simp only at hs; cases hs
    | none =>
      simp only at hs
      have hi1 : Inv s1 := h.propagate_none hp rfl
      have hq1 : s1.qhead = s1.trail.length := (propagate_inv h.tr h.wt hp).2.1
      have hk := propKey_propagate hp
      have htl : s1.trail_lim = s.trail_lim := propKey_trail_lim hk
      have hd1 : decisionLevel s1 = 0 := by
        unfold decisionLevel at hd0 ⊢; rw [htl]; exact hd0
      have k1 : Keeps s s1 := propagate_keeps h hp
      by_cases hearly : (nAssigns s1 : Int) = s1.simpDB_assigns ∨ s1.simpDB_props > 0
      · rw [if_pos hearly] at hs
        cases hs
        exact k1
      · rw [if_neg hearly] at hs
        cases h4 : simplifyDB s1 with
        | none => rw [h4] at hs; cases hs
        | some s4 =>
          rw [h4] at hs
          simp only at hs
          obtain ⟨a1, a2, a3, -⟩ := simplifyDB_inv hi1.tr hi1.wt hi1.ax hd1 hq1 h4
          have k2 := simplifyDB_keeps hi1.tr hi1.wt hi1.ax hd1 hq1 (k1.disj hd) h4
          obtain ⟨s5, h5, -, -, -, b4⟩ := checkGarbage_inv a1 a2 a3
          rw [h5] at hs
          simp only [Option.some.injEq, Prod.mk.injEq, true_and] at hs
          subst hs
          have k4 : Keeps s5 (setSimpDB (rebuildOrderHeap s5)) :=
            Keeps.of_eq_kp rfl rfl rfl rfl rfl rfl
          exact ((k1.trans_kp k2).trans_kp (checkGarbage_keeps b4)).trans_kp k4

/-- The reduction of the learnt clauses. -/
theorem reduceDB_keeps {s t : Solver} (h : Inv s) (hd : Disj s) (hr : reduceDB s = some t) :
    Keeps s t := by
  obtain ⟨-, -, -, u, kept, a4, a5, a6⟩ := reduceDB_inv h.tr h.wt h.ax hr
  have k0 : Keeps s (setLearnts s (sortLearnts s)) :=
    setLearnts_keeps s _ (fun c hc => (mem_sortLearnts s c).mp hc)
  have htr' : TrailInv (setLearnts s (sortLearnts s)) := h.tr.congr_tr rfl rfl rfl rfl
  have k1 : Keeps (setLearnts s (sortLearnts s)) u := a4.keeps_db htr' (k0.disj hd)
  have k2 : Keeps u (setLearnts u kept) :=
    setLearnts_keeps u kept
      (fun c hc => by rw [a4.learnts]; exact (mem_sortLearnts s c).mpr (a5 c hc))
  exact ((k0.trans_kp k1).trans_kp k2).trans_kp (checkGarbage_keeps a6)

end Minisat


namespace Minisat
open lbool

/-! ## The exits of `search` with `l_True` and `l_Undef` -/

theorem searchSimplify_keeps {fuel : Nat} {s s1 : Solver} (h : Inv s) (hd : Disj s)
    (hs : searchSimplify fuel s = some (true, s1)) : Keeps s s1 := by
  unfold searchSimplify at hs
  have hred : ∀ {s0 : Solver}, Inv s0 → Disj s0 →
      (if ((s0.learnts.length : Int) - (nAssigns s0 : Int) : ℚ) ≥ s0.max_learnts then
        (reduceDB s0).map (fun t => (true, t)) else some (true, s0)) = some (true, s1) →
      Keeps s0 s1 := by
    intro s0 h0 hd0 hs0
    by_cases hc : ((s0.learnts.length : Int) - (nAssigns s0 : Int) : ℚ) ≥ s0.max_learnts
    · rw [if_pos hc] at hs0
      cases hr : reduceDB s0 with
      | none => rw [hr] at hs0; cases hs0
      | some t =>
        rw [hr] at hs0
        cases hs0
        exact reduceDB_keeps h0 hd0 hr
    · rw [if_neg hc] at hs0
      cases hs0
      exact Keeps.refl_kp _
  by_cases hd0 : decisionLevel s = 0
  · rw [if_pos hd0] at hs
    cases hsi : simplify fuel s with
    | none => rw [hsi] at hs; cases hs
    | some r0 =>
      obtain ⟨b0, s0⟩ := r0
      rw [hsi] at hs
      cases b0 with
      | false => dsimp only at hs; cases hs
      | true =>
        dsimp only at hs
        obtain ⟨a1, -⟩ := simplify_inv h hsi
        have k1 := simplify_keeps h hd hsi
        exact k1.trans_kp (hred a1 (k1.disj hd) hs)
  · rw [if_neg hd0] at hs
    dsimp only at hs
    exact hred h hd hs

theorem noteDecisionLevel_keeps (s : Solver) : Keeps s (noteDecisionLevel s) := by
  unfold noteDecisionLevel
  split_ifs
  · exact Keeps.of_eq_kp rfl rfl rfl rfl rfl rfl
  · exact Keeps.refl_kp s

theorem searchDecide_keeps {s t : Solver} {l : Lit} (h : searchDecide s l = some t) :
    Keeps s t := by
  unfold searchDecide at h
  cases he : uncheckedEnqueue (setDecisionFlag (newDecisionLevel s) (var l)) l none with
  | none => rw [he] at h; cases h
  | some s1 =>
    rw [he] at h
    simp only [Option.map_some', Option.some.injEq] at h
    subst h
    have hu := (uncheckedEnqueue_eq he).1
    have k0 : Keeps s (setDecisionFlag (newDecisionLevel s) (var l)) :=
      Keeps.of_eq_kp rfl rfl rfl rfl rfl rfl
    exact (k0.trans_kp (enqueue_keeps he)).trans_kp (noteDecisionLevel_keeps s1)

/-- Without assumptions the next decision is the choice of `pickBranchLit`. -/
theorem searchPick_nil {s : Solver} (hna : s.assumptions = []) :
    searchPick s = some (AssumeResult.next (pickBranchLit (countDecision s)).1,
      (pickBranchLit (countDecision s)).2) := by
  unfold searchPick
  have e : s.assumptions.length - decisionLevel s = 0 := by rw [hna]; simp
  rw [e]
  unfold assumeLoop
  rw [if_neg (by rw [hna]; simp)]

theorem searchConflict_status {fuel : Nat} {s s2 : Solver} {confl : CRef} {v : lbool}
    (hc : searchConflict fuel s confl = some (some v, s2)) : v = l_False := by
  unfold searchConflict at hc
  by_cases hd0 : decisionLevel s = 0
  · rw [if_pos hd0] at hc; cases hc; rfl
  · rw [if_neg hd0] at hc
    cases ha : analyze fuel (countConflict s) confl with
    | none => rw [ha] at hc; cases hc
    | some r =>
      rw [ha] at hc
      dsimp only at hc
      split at hc
      · cases hc
      · cases hc

/-- The no-conflict branch of `search` without assumptions: when the search goes on the
clauses are kept; the exit with `l_Undef` keeps the invariants; the exit with `l_True` is taken
from a state with the invariants in which no unassigned decision variable is left. -/
theorem searchNoConflict_keeps {fuel : Nat} {s s2 : Solver} {nof : Int} {cC : Nat}
    {st : Option lbool} (h : Inv s) (hq : s.qhead = s.trail.length)
    (hna : s.assumptions = []) (hd : Disj s)
    (hs : searchNoConflict fuel s nof cC = some (st, s2)) :
    (st = none → Keeps s s2) ∧
    (st = some l_Undef → Inv s2 ∧ Step s s2 ∧ Keeps s s2) ∧
    (st = some l_True → SatExit s s2) := by
  unfold searchNoConflict at hs
  by_cases hb : (nof ≥ 0 ∧ (cC : Int) ≥ nof) ∨ withinBudget s = false
  · rw [if_pos hb] at hs
    cases hs
    exact ⟨fun e => (by cases e),
      fun _ => ⟨h.cancel_any 0, cancel_step h.tr 0, cancel_keeps h.tr 0⟩,
      fun e => (by cases e)⟩
  rw [if_neg hb] at hs
  cases hsi : searchSimplify fuel s with
  | none => rw [hsi] at hs; cases hs
  | some r =>
    obtain ⟨b, s1⟩ := r
    rw [hsi] at hs
    obtain ⟨a1, a2⟩ := searchSimplify_spec h hq hsi
    cases b with
    | false =>
      dsimp only at hs
      cases hs
      exact ⟨fun e => (by cases e), fun e => (by cases e), fun e => (by cases e)⟩
    | true =>
      dsimp only at hs
      obtain ⟨i1, q1⟩ := a2 rfl
      have k1 := searchSimplify_keeps h hd hsi
      have hna1 : s1.assumptions = [] := a1.assumptions.trans hna
      rw [searchPick_nil hna1] at hs
      obtain ⟨p1, p2, p3, p4, p5⟩ := pickBranchLit_spec (countDecision s1)
      have hk : pickKey (pickBranchLit (countDecision s1)).2 = pickKey s1 := p1
      obtain ⟨-, -, f3, f4, -, -, -, f8, f9, f10, -, -, -, f14, f15, f16, -, -, f19⟩ :=
        pickKey_fields hk
      cases hpk : (pickBranchLit (countDecision s1)).1 with
      | none =>
        rw [hpk] at hs
        dsimp only at hs
        cases hs
        refine ⟨fun e => (by cases e), fun e => (by cases e), fun _ => ?_⟩
        exact ⟨s1, i1, q1, a1, k1, hk, p5 hpk⟩
      | some y =>
        rw [hpk] at hs
        dsimp only at hs
        cases hdc : searchDecide (pickBranchLit (countDecision s1)).2 y with
        | none => rw [hdc] at hs; cases hs
        | some u =>
          rw [hdc] at hs
          cases hs
          refine ⟨fun _ => ?_, fun e => (by cases e), fun e => (by cases e)⟩
          have k2 : Keeps s1 (pickBranchLit (countDecision s1)).2 :=
            Keeps.of_eq_kp f8 f9 f10 f3 f4 f16
          exact (k1.trans_kp k2).trans_kp (searchDecide_keeps hdc)

/-- The loop of `search` without assumptions: the exit with `l_Undef` keeps the invariants and
the clauses; the exit with `l_True` is taken from a state with the invariants in which no
unassigned decision variable is left. -/
theorem searchLoop_keeps (nof : Int) : ∀ (fuel : Nat) (s s' : Solver) (cC : Nat) (st : lbool),
    Inv s → s.assumptions = [] → Disj s → searchLoop nof fuel s cC = some (st, s') →
    (st = l_Undef → Inv s' ∧ Step s s' ∧ Keeps s s') ∧ (st = l_True → SatExit s s') := by
  intro fuel
  induction fuel with
  | zero => intro s s' cC st _ _ _ hs; unfold searchLoop at hs; cases hs
  | succ fuel ih =>
    intro s s' cC st h hna hd hs
    unfold searchLoop at hs
    cases hp : propagate (fuel + 1) s with
    | none => rw [hp] at hs; cases hs
    | some r =>
      obtain ⟨c, s1⟩ := r
      rw [hp] at hs
      have st1 : Step s s1 := propagate_step h hp
      have k1 : Keeps s s1 := propagate_keeps h hp
      have hnext : ∀ {s2 : Solver} {n : Nat}, Inv s2 → Step s s2 → Keeps s s2 →
          searchLoop nof fuel s2 n = some (st, s') →
          (st = l_Undef → Inv s' ∧ Step s s' ∧ Keeps s s') ∧
            (st = l_True → SatExit s s') := by
        intro s2 n i2 st2 k2 hl
        obtain ⟨A, B⟩ := ih s2 s' n st i2 (st2.assumptions.trans hna) (k2.disj hd) hl
        refine ⟨fun e => ?_, fun e => ?_⟩
        · obtain ⟨c1, c2, c3⟩ := A e
          exact ⟨c1, st2.trans_st c2, k2.trans_kp c3⟩
        · obtain ⟨s3, c1, c2, c3, c4, c5⟩ := B e
          exact ⟨s3, c1, c2, st2.trans_st c3, k2.trans_kp c4, c5⟩
      cases c with
      | some confl =>
        dsimp only at hs
        cases hc : searchConflict (fuel + 1) s1 confl with
        | none => rw [hc] at hs; cases hs
        | some r2 =>
          obtain ⟨sx, s2⟩ := r2
          rw [hc] at hs
          cases sx with
          | some v =>
            dsimp only at hs
            cases hs
            have := searchConflict_status hc
            subst this
            exact ⟨fun e => (by cases e), fun e => (by cases e)⟩
          | none =>
            dsimp only at hs
            obtain ⟨i2, st2⟩ := searchConflict_inv h hp hc
            exact hnext i2 (st1.trans_st st2) (k1.trans_kp (searchConflict_keeps h hp hc)) hs
      | none =>
        dsimp only at hs
        have i1 : Inv s1 := h.propagate_none hp rfl
        have q1 : s1.qhead = s1.trail.length := (propagate_inv h.tr h.wt hp).2.1
        have hna1 : s1.assumptions = [] := st1.assumptions.trans hna
        have ha1 : ∀ a ∈ s1.assumptions, var a < nVars s1 := by
          intro a hm; rw [hna1] at hm; cases hm
        cases hn : searchNoConflict (fuel + 1) s1 nof cC with
        | none => rw [hn] at hs; cases hs
        | some r2 =>
          obtain ⟨sx, s2⟩ := r2
          rw [hn] at hs
          obtain ⟨A, -⟩ := searchNoConflict_spec i1 q1 ha1 hn
          obtain ⟨K1, K2, K3⟩ := searchNoConflict_keeps i1 q1 hna1 (k1.disj hd) hn
          cases sx with
          | some v =>
            dsimp only at hs
            cases hs
            refine ⟨fun e => ?_, fun e => ?_⟩
            · subst e
              obtain ⟨c1, c2, c3⟩ := K2 rfl
              exact ⟨c1, st1.trans_st c2, k1.trans_kp c3⟩
            · subst e
              obtain ⟨s3, c1, c2, c3, c4, c5⟩ := K3 rfl
              exact ⟨s3, c1, c2, st1.trans_st c3, k1.trans_kp c4, c5⟩
          | none =>
            dsimp only at hs
            obtain ⟨i2, st2⟩ := A rfl
            exact hnext i2 (st1.trans_st st2) (k1.trans_kp (K1 rfl)) hs

end Minisat


namespace Minisat
open lbool

/-! ## The states built by `newVar` and `addClause_` -/

/-- `newVar` keeps the clauses. -/
theorem newVar_keeps {s : Solver} (h : Inv s) (upol : lbool) (dvar : Bool) :
    Keeps s (newVar s upol dvar).2 := by
  obtain ⟨-, -, -, a3, a4, -, -, -, a8, a9, a10, -, -, -, a14, -⟩ :=
    newVar_fields h.ax.vr.free_nil upol dvar
  have hne : ∀ l, value s l = l_True → var l ≠ s.next_var := by
    intro l hl
    exact Nat.ne_of_lt (h.ax.vr.trail_lt l (h.tr.mem_of_true hl))
  refine ⟨?_, ?_, Disj.of_eq_dj a8 a9, ?_⟩
  · intro l a b
    have e := hne l a
    refine ⟨?_, ?_⟩
    · unfold value at a ⊢; rw [a3, Function.update_noteq e]; exact a
    · unfold level at b ⊢; rw [a4, Function.update_noteq e]; exact b
  · intro cr hc hm
    exact Or.inr ⟨cr, by rw [a8]; exact hc, by rw [a10]; exact hm,
      fun l hl => by rw [a10] at hl; exact hl⟩
  · unfold nVars; rw [a14]; omega

/-- A call of `addClause_` at level 0 that leaves `ok` true: the invariants hold after it,
the clause is accounted for, and so are the clauses before it. -/
theorem addClause_built {fuel : Nat} {s s' : Solver} {c : List Lit} {b : Bool} (h : Inv s)
    (hd0 : decisionLevel s = 0) (hv : ∀ l ∈ c, var l < nVars s)
    (hr : addClause_ fuel s c = some (b, s')) (hok' : s'.ok = true) :
    s.ok = true ∧ Inv s' ∧ decisionLevel s' = 0 ∧ s'.assumptions = s.assumptions ∧
    s'.learnts = s.learnts ∧ s'.decision = s.decision ∧ s'.next_var = s.next_var ∧
    Cov s' c ∧ Keeps s s' := by
  have hr0 := hr
  unfold addClause_ at hr
  rw [if_neg (by simp [hd0])] at hr
  by_cases hok : s.ok = false
  · rw [if_pos hok] at hr
    cases hr
    rw [hok] at hok'; cases hok'
  rw [if_neg hok] at hr
  have hoks : s.ok = true := by simpa using hok
  cases hL : addClauseLoop s (sortLits c) none with
  | none =>
    rw [hL] at hr
    cases hr
    refine ⟨hoks, h, hd0, rfl, rfl, rfl, rfl, ?_, Keeps.refl_kp _⟩
    by_cases ht : ∃ q ∈ sortLits c, value s q = l_True
    · obtain ⟨q, hq, hqv⟩ := ht
      exact Or.inl ⟨q, mem_sortLits.mp hq, hqv, h.tr.level_zero hd0 hqv⟩
    · by_cases hn : ∃ q ∈ sortLits c, neg q ∈ sortLits c
      · obtain ⟨q, hq, hqn⟩ := hn
        exact Or.inr (Or.inr ⟨q, mem_sortLits.mp hq, mem_sortLits.mp hqn,
          hv q (mem_sortLits.mp hq)⟩)
      · exfalso
        obtain ⟨L, hL2⟩ := addClauseLoop_some s (sortLits c) none
          (fun q hq hqv => ht ⟨q, hq, hqv⟩) (fun q _ => by simp)
          (fun q hq hqn => hn ⟨q, hq, hqn⟩)
        rw [hL] at hL2
        cases hL2
  | some L =>
    rw [hL] at hr
    obtain ⟨-, hmem, -⟩ := addClauseLoop_spec s (sortLits c) none L (sortLits_sorted c)
      (fun p0 hp0 => by cases hp0) hL
    have hLc : ∀ l ∈ L, l ∈ c := fun l hl => mem_sortLits.mp ((hmem l).mp hl).1
    match L, hr, hLc with
    | [], hr, _ =>
      cases hr
      cases hok'
    | [l], hr, hLc =>
      dsimp only at hr
      cases he : uncheckedEnqueue s l none with
      | none => rw [he] at hr; cases hr
      | some s1 =>
        rw [he] at hr
        dsimp only at hr
        have h1 : Inv s1 := h.enqueue_none (hv l (hLc l (by simp)))
          (fun j hj => by rw [hd0] at hj; cases hj) he
        obtain ⟨-, -, has, hvd, hk1⟩ := uncheckedEnqueue_spec he
        have hval : value s1 l = l_True := value_of_assigns_update_self s1 _ l has
        have hlev : level s1 (var l) = 0 := by
          simp only [level, hvd, Function.update_same, mkVarData, hd0]
        have e1 := (uncheckedEnqueue_eq he).2
        cases hp : propagate fuel s1 with
        | none => rw [hp] at hr; cases hr
        | some r =>
          rw [hp] at hr
          cases hr
          have hi' : Inv (setOk r.2 (decide (r.1 = none))) := h.addClause hv hr0 hok'
          have hk := propKey_propagate hp
          obtain ⟨-, -, -, -, g5, g6, g7, -⟩ := propKey_fields hk
          have k1 : Keeps s s1 := enqueue_keeps he
          have k2 : Keeps s1 r.2 := propagate_keeps h1 hp
          have k3 : Keeps r.2 (setOk r.2 (decide (r.1 = none))) :=
            Keeps.of_eq_kp rfl rfl rfl rfl rfl rfl
          have hfix := k2.fixed l hval hlev
          refine ⟨hoks, hi', ?_, ?_, ?_, ?_, ?_, Or.inl ⟨l, hLc l (by simp), hfix⟩,
            (k1.trans_kp k2).trans_kp k3⟩
          · show r.2.trail_lim.length = 0
            rw [propKey_trail_lim hk, enqKey_trail_lim hk1]; exact hd0
          · show r.2.assumptions = _
            rw [g5, e1]
          · show r.2.learnts = _
            rw [propKey_learnts hk, enqKey_learnts hk1]
          · show r.2.decision = _
            rw [g6, e1]
          · show r.2.next_var = _
            rw [g7, e1]
    | a :: c2 :: rest, hr, hLc =>
      dsimp only at hr
      cases ht : attachClause
          (pushClause (setCa s (s.ca.alloc (a :: c2 :: rest) false false false none).2)
            (s.ca.alloc (a :: c2 :: rest) false false false none).1)
          (s.ca.alloc (a :: c2 :: rest) false false false none).1 with
      | none => rw [ht] at hr; cases hr
      | some t =>
        rw [ht] at hr
        cases hr
        have hi' : Inv s' := h.addClause hv hr0 rfl
        obtain ⟨f1, f2, f3, f4, f5, f6, htl, has, hdc⟩ := attachClause_fields ht
        have hcl : s'.clauses = s.clauses ++ [s.ca.size] := f2
        have hnew : s'.ca.cl s.ca.size =
            { lits := a :: c2 :: rest, learnt := false, fsymmetry := false, symmetry := false,
              scompat := none, activity := 0, mark := 0, reloced := false,
              relocation := 0 } := by
          rw [f1]
          show Function.update s.ca.cl s.ca.size _ s.ca.size = _
          rw [Function.update_same]
        have hold : ∀ cr, Listed s cr → s'.ca.cl cr = s.ca.cl cr := by
          intro cr hl
          rw [f1]
          exact alloc_keeps h _ false false false none cr hl
        refine ⟨hoks, hi', ?_, has, f3, hdc, f6, ?_, ?_⟩
        · unfold decisionLevel at hd0 ⊢; rw [htl]; exact hd0
        · refine Or.inr (Or.inl ⟨s.ca.size, by rw [hcl]; simp, by rw [hnew]; simp, ?_⟩)
          intro l hl
          rw [hnew] at hl
          exact hLc l hl
        · refine ⟨?_, ?_, ?_, ?_⟩
          · intro l a1 b1
            exact ⟨by rw [value_congr f4]; exact a1, by rw [level_congr f5]; exact b1⟩
          · intro cr hc hm
            have ecl := hold cr (Or.inl hc)
            exact Or.inr ⟨cr, by rw [hcl]; exact List.mem_append_left _ hc,
              by rw [ecl]; exact hm, fun l hl => by rw [ecl] at hl; exact hl⟩
          · intro hd cr hc hl
            rw [hcl] at hc
            rw [f3] at hl
            rcases List.mem_append.mp hc with e1 | e1
            · exact hd cr e1 hl
            · rw [List.mem_singleton] at e1
              exact Nat.ne_of_lt (h.wt.listed_lt cr (Or.inr hl)) e1
          · exact Nat.le_of_eq f6.symm

theorem newVar_ok (s : Solver) (upol : lbool) (dvar : Bool) :
    (newVar s upol dvar).2.ok = s.ok := by
  have htk : (takeVar s).2.ok = s.ok := by unfold takeVar; split <;> rfl
  unfold newVar setDecisionVar insertVarOrder
  dsimp only
  split_ifs <;> exact htk

/-- A solver that was built by `newVar` and `addClause_` and has `ok = true` satisfies the
invariants at level 0, has no assumptions and no learnt clause, all its variables are decision
variables, and every clause passed to `addClause_` is accounted for. -/
theorem Built.inv_built {s : Solver} {cs : List (List Lit)} (hb : Built s cs) :
    s.ok = true → Inv s ∧ decisionLevel s = 0 ∧ s.assumptions = [] ∧ s.learnts = [] ∧
      (∀ v, v < nVars s → s.decision v = true) ∧ ∀ c ∈ cs, Cov s c := by
  induction hb with
  | init =>
    intro _
    exact ⟨Inv.init, rfl, rfl, rfl, fun v hv => absurd hv (Nat.not_lt_zero v),
      fun c hc => (by cases hc)⟩
  | var s cs upol _ ih =>
    intro hok
    obtain ⟨-, -, a2, -, -, -, -, -, -, a9, -, -, -, a13, a14, -, -, a17, a18, -⟩ :=
      newVar_fields (s := s) (ih (by rw [← newVar_ok s upol true]; exact hok)).1.ax.vr.free_nil
        upol true
    have hoks : s.ok = true := by rw [← a18]; exact hok
    obtain ⟨i, d, as, le, dc, cv⟩ := ih hoks
    refine ⟨i.new_var upol true, ?_, by rw [a17]; exact as, by rw [a9]; exact le, ?_, ?_⟩
    · unfold decisionLevel at d ⊢; rw [a2]; exact d
    · intro v hv
      rw [a13]
      by_cases e : v = s.next_var
      · rw [e, Function.update_same]
      · rw [Function.update_noteq e]
        apply dc
        have : nVars (newVar s upol true).2 = s.next_var + 1 := a14
        rw [this] at hv
        show v < s.next_var
        omega
    · intro c hc
      exact (cv c hc).keeps (newVar_keeps i upol true)
  | clause s s' cs fuel c b _ hv hr ih =>
    intro hok'
    have hoks : s.ok = true := by
      by_contra hne
      have hf : s.ok = false := by simpa using hne
      unfold addClause_ at hr
      by_cases h0 : decisionLevel s ≠ 0
      · rw [if_pos h0] at hr; cases hr
      · rw [if_neg h0, if_pos hf] at hr
        cases hr
        rw [hf] at hok'
        cases hok'
    obtain ⟨i, d, as, le, dc, cv⟩ := ih hoks
    obtain ⟨-, i', d', as', le', dc', nv', cn, kp⟩ := addClause_built i d hv hr hok'
    refine ⟨i', d', as'.trans as, le'.trans le, ?_, ?_⟩
    · intro v hv2
      rw [dc']
      apply dc
      have : nVars s' = nVars s := nv'
      rw [← this]; exact hv2
    · intro c0 hc0
      rcases List.mem_cons.mp hc0 with e | e
      · rw [e]; exact cn
      · exact (cv c0 e).keeps kp

theorem SatExit.of_step {s t u : Solver} (h : SatExit t u) (st : Step s t) (k : Keeps s t) :
    SatExit s u := by
  obtain ⟨s1, c1, c2, c3, c4, c5⟩ := h
  exact ⟨s1, c1, c2, st.trans_st c3, k.trans_kp c4, c5⟩

/-- The exits of `search` without assumptions with `l_Undef` and `l_True`. -/
theorem search_keeps {fuel : Nat} {s s' : Solver} {nof : Int} {st : lbool} (h : Inv s)
    (hna : s.assumptions = []) (hd : Disj s) (hs : search fuel s nof = some (st, s')) :
    (st = l_Undef → Inv s' ∧ Step s s' ∧ Keeps s s') ∧ (st = l_True → SatExit s s') := by
  unfold search at hs
  by_cases hok : s.ok = false
  · rw [if_pos hok] at hs; cases hs
  rw [if_neg hok] at hs
  have st0 : Step s (countStart s) := ⟨rfl, rfl, rfl, rfl⟩
  have k0 : Keeps s (countStart s) := Keeps.of_eq_kp rfl rfl rfl rfl rfl rfl
  obtain ⟨A, B⟩ := searchLoop_keeps nof fuel (countStart s) s' 0 st h.countStart_inv hna hd hs
  refine ⟨fun e => ?_, fun e => (B e).of_step st0 k0⟩
  obtain ⟨c1, c2, c3⟩ := A e
  exact ⟨c1, st0.trans_st c2, k0.trans_kp c3⟩

/-- The loop of `solve_` without assumptions: the result `l_True` is an exit of the search. -/
theorem solveLoop_sat : ∀ (fuel : Nat) (s : Solver) (k : Nat) (r : lbool × Solver), Inv s →
    s.assumptions = [] → Disj s → solveLoop fuel s k = some r → r.1 = l_True →
    SatExit s r.2 := by
  intro fuel
  induction fuel with
  | zero => intro s k r _ _ _ hs; unfold solveLoop at hs; cases hs
  | succ fuel ih =>
    intro s k r h hna hd hs hT
    unfold solveLoop at hs
    cases hrb : restBase s k with
    | none => rw [hrb] at hs; cases hs
    | some rb =>
      rw [hrb] at hs
      dsimp only at hs
      cases hse : search (fuel + 1) s (toInt (rb * s.restart_first)) with
      | none => rw [hse] at hs; cases hs
      | some r1 =>
        obtain ⟨st, s1⟩ := r1
        rw [hse] at hs
        dsimp only at hs
        obtain ⟨A, B⟩ := search_keeps h hna hd hse
        by_cases hw : withinBudget s1 = false
        · rw [if_pos hw] at hs
          cases hs
          exact B hT
        · rw [if_neg hw] at hs
          by_cases hu : st = l_Undef
          · rw [if_pos hu] at hs
            obtain ⟨c1, c2, c3⟩ := A hu
            exact (ih s1 (k + 1) r c1 (c2.assumptions.trans hna) (c3.disj hd) hs hT).of_step
              c2 c3
          · rw [if_neg hu] at hs
            cases hs
            exact B hT

theorem cancelUntil_model (s : Solver) (k : Nat) : (cancelUntil s k).model = s.model := by
  have := congrArg Solver.model (cancelUntilKey_cancelUntil s k)
  simpa only [cancelUntilKey] using this

/-- The result `l_True` of `solve_` without assumptions: the state is an exit of the search
with the model written and the trail cancelled. -/
theorem solve_sat {fuel : Nat} {s s' : Solver} (h : Inv s) (hna : s.assumptions = [])
    (hd : Disj s) (hs : solve_ fuel s = some (l_True, s')) :
    ∃ sE, SatExit (initLimits (clearResult s)) sE ∧
      s' = cancelUntil (setModel sE ((List.range (nVars sE)).map (valueVar sE))) 0 := by
  unfold solve_ at hs
  by_cases hok : s.ok = false
  · rw [if_pos hok] at hs; cases hs
  rw [if_neg hok] at hs
  by_cases hdl : decisionLevel s ≠ 0
  · rw [if_pos hdl] at hs; cases hs
  rw [if_neg hdl] at hs
  cases hl : solveLoop fuel (initLimits (clearResult s)) 0 with
  | none => rw [hl] at hs; cases hs
  | some r =>
    rw [hl] at hs
    dsimp only at hs
    have e1 : r.1 = l_True := by
      have := congrArg (fun x => x.map Prod.fst) hs
      simpa using this
    have e2 : s' = cancelUntil (solveResult r.2 r.1) 0 := by
      have := congrArg (fun x => x.map Prod.snd) hs
      simpa using this.symm
    have hi0 : Inv (initLimits (clearResult s)) :=
      h.of_frame ⟨rfl, rfl, rfl, rfl, rfl, rfl, rfl, rfl, rfl, rfl, rfl, rfl, rfl, rfl, rfl⟩
        rfl rfl rfl rfl
    have hd0 : Disj (initLimits (clearResult s)) := hd
    refine ⟨r.2, solveLoop_sat fuel _ 0 r hi0 hna hd0 hl e1, ?_⟩
    rw [e2, e1]
    rfl

/-- In a state with the invariants, the head at the end of the trail and all variables
assigned, a clause that is accounted for has a true literal. -/
theorem Cov.true_lit {s : Solver} {c : List Lit} (hc : Cov s c) (h : Inv s)
    (hq : s.qhead = s.trail.length) (hall : ∀ v, v < nVars s → s.assigns v ≠ l_Undef) :
    ∃ l ∈ c, value s l = l_True := by
  have htf : ∀ l, var l < nVars s → value s l = l_True ∨ value s l = l_False := by
    intro l hl
    rcases value_cases s l with e | e | e
    · exact Or.inl e
    · exact Or.inr e
    · exact absurd (value_undef_iff.mp e) (hall _ hl)
  rcases hc with ⟨l, hl, a, -⟩ | ⟨cr, hcr, hm, hsub⟩ | ⟨l, hl, hn, hv⟩
  · exact ⟨l, hl, a⟩
  · have hatt : Attached s cr := ⟨Or.inl hcr, hm⟩
    have hw : WatchInv s s.trail.length := hq ▸ h.wt
    obtain ⟨hnf, -⟩ := hw.no_unit h.tr hatt
    by_contra hno
    apply hnf
    intro l hl
    rcases htf l (h.ax.vr.lits_lt cr hatt l hl) with e | e
    · exact absurd ⟨l, hsub l hl, e⟩ hno
    · exact e
  · rcases htf l hv with e | e
    · exact ⟨l, hl, e⟩
    · exact ⟨neg l, hn, value_neg_true.mpr e⟩

/-- The value of a literal under the model written by `solve_`. -/
theorem modelValue_range (s : Solver) (l : Lit) (hl : var l < nVars s) :
    modelValue ((List.range (nVars s)).map (valueVar s)) l = value s l := by
  unfold modelValue value
  rw [List.getD_eq_getElem _ _ (by simpa using hl)]
  simp [valueVar]

/-- C1: for a solver built from the initial state by `newVar` with `decision = true` and by
`addClause_` on clauses over variables of the solver (no symmetry is registered and there is
no assumption), whenever `solve_` returns `l_True`, `model` has the length `nVars()`, no
entry of `model` is `l_Undef`, and every clause that was passed to `addClause_` has a literal
that is true under `model`. -/
theorem solve_sat_model (fuel : Nat) (s s' : Solver) (cs : List (List Lit)) (hb : Built s cs)
    (hs : solve_ fuel s = some (l_True, s')) :
    s'.model.length = nVars s' ∧ (∀ x ∈ s'.model, x ≠ l_Undef) ∧
    ∀ c ∈ cs, ∃ l ∈ c, modelValue s'.model l = l_True := by
  have hok : s.ok = true := by
    by_contra hne
    have hf : s.ok = false := by simpa using hne
    unfold solve_ at hs
    rw [if_pos hf] at hs
    cases hs
  obtain ⟨i, -, as, le, dc, cv⟩ := hb.inv_built hok
  have hd : Disj s := fun cr _ hl => by rw [le] at hl; cases hl
  obtain ⟨sE, ⟨s1, i1, q1, st1, k1, hk, hheap⟩, e⟩ := solve_sat i as hd hs
  obtain ⟨-, -, f3, -, -, -, -, -, -, -, -, -, -, -, -, f16, -, -, -⟩ := pickKey_fields hk
  have hnvE : nVars sE = nVars s1 := f16
  have hnv1 : nVars s1 = nVars s := st1.next_var
  have hvalE : ∀ l, value sE l = value s1 l := value_congr f3
  have hall : ∀ v, v < nVars s1 → s1.assigns v ≠ l_Undef := by
    intro v hv hun
    have hdec : s1.decision v = true := by
      rw [st1.decision]
      exact dc v (by rw [← hnv1]; exact hv)
    rcases hheap v (i1.ax.hp v hv hdec hun) with h1 | h1
    · exact h1 hun
    · rw [hdec] at h1; cases h1
  have hmodel : s'.model = (List.range (nVars sE)).map (valueVar sE) := by
    rw [e, cancelUntil_model]
    rfl
  have hnv' : nVars s' = nVars sE := by
    obtain ⟨-, -, -, -, -, -, -, -, -, -, -, -, g13, -⟩ :=
      cancelUntilKey_fields (cancelUntilKey_cancelUntil
        (setModel sE ((List.range (nVars sE)).map (valueVar sE))) 0)
    rw [e]
    exact g13
  refine ⟨?_, ?_, ?_⟩
  · rw [hmodel, hnv']; simp
  · intro x hx
    rw [hmodel, List.mem_map] at hx
    obtain ⟨v, hv, rfl⟩ := hx
    rw [List.mem_range, hnvE] at hv
    show sE.assigns v ≠ l_Undef
    rw [f3]
    exact hall v hv
  · intro c hc
    have hcov : Cov (initLimits (clearResult s)) c := cv c hc
    obtain ⟨l, hl, hlv⟩ := (hcov.keeps k1).true_lit i1 q1 hall
    refine ⟨l, hl, ?_⟩
    have hlt : var l < nVars sE := by
      rw [hnvE]
      exact i1.ax.vr.trail_lt l (i1.tr.mem_of_true hlv)
    rw [hmodel, modelValue_range sE l hlt, hvalE]
    exact hlv

end Minisat


namespace Minisat
open lbool

/-! ## The comparison of `reduceDB` -/

theorem reduceDB_lt_iff (ca : ClauseAllocator) (x y : CRef) :
    reduceDB_lt ca x y = true ↔
      (ca.cl x).size > 2 ∧ ((ca.cl y).size = 2 ∨ (ca.cl x).activity < (ca.cl y).activity) := by
  unfold reduceDB_lt
  simp only [Bool.and_eq_true, Bool.or_eq_true, decide_eq_true_eq]

theorem reduceDB_lt_false_iff (ca : ClauseAllocator) (x y : CRef) :
    reduceDB_lt ca x y = false ↔
      ¬ ((ca.cl x).size > 2 ∧
        ((ca.cl y).size = 2 ∨ (ca.cl x).activity < (ca.cl y).activity)) := by
  rw [← reduceDB_lt_iff, Bool.not_eq_true]

/-- C39: on clauses with at least two literals `reduceDB_lt` is a strict weak ordering: it is
irreflexive and transitive, and being incomparable (neither below the other) is transitive; a
clause with more than two literals is below every binary clause and no binary clause is below
it; two clauses with more than two literals are ordered by strictly increasing activity. -/
theorem reduceDB_lt_strict_weak (ca : ClauseAllocator) (x y z : CRef)
    (hx : 2 ≤ (ca.cl x).size) (hy : 2 ≤ (ca.cl y).size) (hz : 2 ≤ (ca.cl z).size) :
    reduceDB_lt ca x x = false ∧
    (reduceDB_lt ca x y = true → reduceDB_lt ca y z = true → reduceDB_lt ca x z = true) ∧
    (reduceDB_lt ca x y = false → reduceDB_lt ca y x = false →
      reduceDB_lt ca y z = false → reduceDB_lt ca z y = false →
      reduceDB_lt ca x z = false ∧ reduceDB_lt ca z x = false) ∧
    ((ca.cl x).size > 2 → (ca.cl y).size = 2 →
      reduceDB_lt ca x y = true ∧ reduceDB_lt ca y x = false) ∧
    ((ca.cl x).size > 2 → (ca.cl y).size > 2 →
      (reduceDB_lt ca x y = true ↔ (ca.cl x).activity < (ca.cl y).activity)) := by
  refine ⟨?_, ?_, ?_, ?_, ?_⟩
  · rw [reduceDB_lt_false_iff]
    rintro ⟨h1, h2 | h2⟩
    · omega
    · exact lt_irrefl _ h2
  · intro h1 h2
    rw [reduceDB_lt_iff] at h1 h2 ⊢
    obtain ⟨a1, a2⟩ := h1
    obtain ⟨b1, b2⟩ := h2
    refine ⟨a1, ?_⟩
    rcases a2 with a2 | a2
    · omega
    · rcases b2 with b2 | b2
      · exact Or.inl b2
      · exact Or.inr (lt_trans a2 b2)
  · intro h1 h2 h3 h4
    rw [reduceDB_lt_false_iff] at h1 h2 h3 h4 ⊢
    rw [reduceDB_lt_false_iff]
    simp only [not_and, not_or, not_lt] at h1 h2 h3 h4 ⊢
    by_cases sx : (ca.cl x).size > 2
    · have e1 := h1 sx
      by_cases sy : (ca.cl y).size > 2
      · have e2 := h2 sy
        have e3 := h3 sy
        by_cases sz : (ca.cl z).size > 2
        · have e4 := h4 sz
          have a1 : (ca.cl x).activity = (ca.cl y).activity := le_antisymm e2.2 e1.2
          have a2 : (ca.cl y).activity = (ca.cl z).activity := le_antisymm e4.2 e3.2
          refine ⟨fun _ => ⟨e3.1, ?_⟩, fun _ => ⟨e2.1, ?_⟩⟩
          · rw [a1, a2]
          · rw [a1, a2]
        · exact absurd (by omega) e3.1
      · exact absurd (by omega) e1.1
    · have sx2 : (ca.cl x).size = 2 := by omega
      by_cases sy : (ca.cl y).size > 2
      · exact absurd sx2 (h2 sy).1
      · have sy2 : (ca.cl y).size = 2 := by omega
        by_cases sz : (ca.cl z).size > 2
        · exact absurd sy2 (h4 sz).1
        · exact ⟨fun h => absurd h sx, fun h => absurd h sz⟩
  · intro sx sy
    rw [reduceDB_lt_iff, reduceDB_lt_false_iff]
    refine ⟨⟨sx, Or.inl sy⟩, ?_⟩
    rintro ⟨h, -⟩
    omega
  · intro sx sy
    rw [reduceDB_lt_iff]
    constructor
    · rintro ⟨-, h | h⟩
      · omega
      · exact h
    · intro h
      exact ⟨sx, Or.inr h⟩

end Minisat


namespace cosy

/-! ## `gcd`, `lcm` and the order of a permutation -/

/-- The loop of `gcd` returns the greatest common divisor when more rounds are allowed than the
value of `a`. -/
theorem gcdLoop_spec : ∀ (fuel a b : Nat), a < fuel → gcdLoop fuel a b = some (Nat.gcd a b) := by
  intro fuel
  induction fuel with
  | zero => intro a b h; omega
  | succ n ih =>
    intro a b h
    unfold gcdLoop
    by_cases ha : a = 0
    · rw [if_pos ha, ha, Nat.gcd_zero_left]
    · rw [if_neg ha]
      have hlt : b % a < a := Nat.mod_lt _ (Nat.pos_of_ne_zero ha)
      by_cases hb : b % a = 0
      · rw [if_pos hb, Nat.gcd_rec, hb, Nat.gcd_zero_left]
      · rw [if_neg hb]
        have hlt2 : a % (b % a) < b % a := Nat.mod_lt _ (Nat.pos_of_ne_zero hb)
        rw [ih _ _ (by omega), Nat.gcd_rec a b, Nat.gcd_rec (b % a) a]

theorem gcd_spec (a b : Nat) : gcd a b = some (Nat.gcd a b) :=
  gcdLoop_spec (a + 1) a b (Nat.lt_succ_self a)

theorem div_gcd_mul (a b : Nat) : a / Nat.gcd a b * b = Nat.lcm a b := by
  unfold Nat.lcm
  rw [Nat.mul_comm (a / Nat.gcd a b) b, ← Nat.mul_div_assoc b (Nat.gcd_dvd_left a b),
    Nat.mul_comm b a]

theorem lcm_spec (a b : Nat) :
    lcm a b = if Nat.lcm a b ≤ INT_MAX then some (Nat.lcm a b) else none := by
  unfold lcm
  rw [gcd_spec]
  dsimp only
  by_cases hg : Nat.gcd a b = 0
  · rw [if_neg (not_not.mpr hg)]
    have ha : a = 0 := Nat.eq_zero_of_gcd_eq_zero_left hg
    have hb : b = 0 := Nat.eq_zero_of_gcd_eq_zero_right hg
    subst ha
    subst hb
    rw [Nat.lcm_zero_left, if_pos (Nat.zero_le _)]
  · rw [if_pos hg, div_gcd_mul]

theorem range_succ_map_take (f : Nat → Nat) (n : Nat) :
    ((List.range (n + 1)).map f).take n = (List.range n).map f := by
  rw [List.range_succ, List.map_append, List.take_append_of_le_length (by simp)]
  rw [List.take_of_length_le (by simp)]

/-- The loop of `order` from the index `i` with `n` rounds left. -/
theorem orderLoop_spec (p : Permutation) :
    ∀ (n i o : Nat), i + n ≤ p.numberOfCycles →
      (∀ r, p.orderLoop n i o = some r →
        r = ((List.range' i n).map (fun j => ((p.cycle j).getD []).length)).foldl Nat.lcm o) ∧
      ((∀ k, k ≤ n →
          ((List.range' i k).map (fun j => ((p.cycle j).getD []).length)).foldl Nat.lcm o
            ≤ INT_MAX) →
        p.orderLoop n i o =
          some (((List.range' i n).map (fun j => ((p.cycle j).getD []).length)).foldl
            Nat.lcm o)) := by
  intro n
  induction n with
  | zero =>
    intro i o _
    exact ⟨fun r h => by unfold Permutation.orderLoop at h; cases h; rfl,
      fun _ => by unfold Permutation.orderLoop; rfl⟩
  | succ n ih =>
    intro i o hi
    obtain ⟨c, hc⟩ : ∃ c, p.cycle i = some c := by
      unfold Permutation.cycle
      rw [if_pos (by omega)]
      exact ⟨_, rfl⟩
    have hcd : ((p.cycle i).getD []).length = c.length := by rw [hc]; rfl
    obtain ⟨i1, i2⟩ := ih (i + 1) (Nat.lcm o c.length) (by omega)
    rw [List.range'_succ, List.map_cons, List.foldl_cons, hcd]
    have hunf : ∀ x, p.orderLoop (n + 1) i o = some x ↔
        (Nat.lcm o c.length ≤ INT_MAX ∧
          p.orderLoop n (i + 1) (Nat.lcm o c.length) = some x) := by
      intro x
      conv_lhs => unfold Permutation.orderLoop
      rw [hc]
      dsimp only
      rw [lcm_spec]
      by_cases hle : Nat.lcm o c.length ≤ INT_MAX
      · rw [if_pos hle]
        simp only [hle, true_and]
      · rw [if_neg hle]
        simp only [hle, false_and]
        constructor
        · intro h; cases h
        · intro h; exact h.elim
    constructor
    · intro r h
      exact i1 r ((hunf r).mp h).2
    · intro hb
      rw [hunf]
      constructor
      · have := hb 1 (by omega)
        rw [List.range'_succ, List.map_cons, List.foldl_cons, hcd] at this
        simpa using this
      · apply i2
        intro k hk
        have := hb (k + 1) (by omega)
        rw [List.range'_succ, List.map_cons, List.foldl_cons, hcd] at this
        exact this

theorem order_spec (p : Permutation) :
    (∀ r, p.order = some r → r = lcmList p.cycleLengths) ∧
    ((∀ k, k ≤ p.cycleLengths.length → lcmList (p.cycleLengths.take k) ≤ INT_MAX) →
      p.order = some (lcmList p.cycleLengths)) := by
  obtain ⟨h1, h2⟩ := orderLoop_spec p p.numberOfCycles 0 1 (by omega)
  have e : ∀ k, List.range' 0 k = List.range k := fun k => (List.range_eq_range' (n := k)).symm
  unfold Permutation.order lcmList Permutation.cycleLengths
  rw [e] at h1 h2
  refine ⟨h1, ?_⟩
  intro hb
  apply h2
  intro k hk
  have := hb k (by simpa using hk)
  rw [e]
  rw [← List.map_take, List.take_range] at this
  rw [Nat.min_eq_left hk] at this
  exact this

/-- C40: `gcd(a, b)` returns (the `a + 1` rounds allowed always suffice) the greatest common
divisor of the non-negative `a` and `b`, with `gcd(0, b) = b` and `gcd(a, 0) = a`; `lcm(a, b)`
returns their least common multiple, 0 when both are 0, whenever that is at most `INT_MAX`,
and overflows otherwise; `Permutation::order()` returns, when no `lcm` in it overflows, the
least common multiple of the lengths of all cycles, 1 when there is no cycle, and whenever it
returns, that is its value. -/
theorem gcd_lcm_order (a b : Nat) (p : Permutation) :
    gcd a b = some (Nat.gcd a b) ∧ gcd 0 b = some b ∧ gcd a 0 = some a ∧
    lcm a b = (if Nat.lcm a b ≤ INT_MAX then some (Nat.lcm a b) else none) ∧
    lcm 0 0 = some 0 ∧
    (∀ r, p.order = some r → r = lcmList p.cycleLengths) ∧
    ((∀ k, k ≤ p.cycleLengths.length → lcmList (p.cycleLengths.take k) ≤ INT_MAX) →
      p.order = some (lcmList p.cycleLengths)) ∧
    (p.numberOfCycles = 0 → p.order = some 1) := by
  refine ⟨gcd_spec a b, ?_, ?_, lcm_spec a b, ?_, (order_spec p).1, (order_spec p).2, ?_⟩
  · rw [gcd_spec, Nat.gcd_zero_left]
  · rw [gcd_spec, Nat.gcd_zero_right]
  · rw [lcm_spec, Nat.lcm_zero_left, if_pos (Nat.zero_le _)]
  · intro h
    unfold Permutation.order
    rw [h]
    rfl

end cosy


namespace Minisat
open lbool

/-! ## The trimming loop and the loop of `removeSatisfied` -/

theorem trim_length (ls : List Lit) (k : Nat) (x : Lit) :
    ((ls.set k x).dropLast).length = ls.length - 1 := by
  rw [List.length_dropLast, List.length_set]

/-- With enough rounds the trimming loop leaves no false literal from the index `k` on. -/
theorem trimLoop_clean (s : Solver) :
    ∀ (fuel : Nat) (ls : List Lit) (k : Nat), ls.length - k ≤ fuel →
      ∀ i, k ≤ i → i < (trimLoop s fuel ls k).length →
        value s ((trimLoop s fuel ls k).getD i 0) ≠ l_False := by
  intro fuel
  induction fuel with
  | zero =>
    intro ls k hf i hk hi
    unfold trimLoop at hi
    omega
  | succ n ih =>
    intro ls k hf i hk hi
    unfold trimLoop at hi ⊢
    by_cases hlt : k < ls.length
    · rw [if_pos hlt] at hi ⊢
      by_cases hv : value s (ls.getD k 0) = l_False
      · rw [if_pos hv] at hi ⊢
        exact ih _ k (by rw [trim_length]; omega) i hk hi
      · rw [if_neg hv] at hi ⊢
        by_cases hik : i = k
        · subst hik
          have h3 := (trimLoop_spec s n ls (i + 1)).2.2.1
          rw [getD_of_take_eq h3 (Nat.lt_succ_self i)]
          exact hv
        · exact ih ls (k + 1) (by omega) i (by omega) hi
    · rw [if_neg hlt] at hi
      omega

/-- The trimming loop does not raise the number of occurrences of a literal. -/
theorem trimLoop_count (s : Solver) (x : Lit) :
    ∀ (fuel : Nat) (ls : List Lit) (k : Nat), (trimLoop s fuel ls k).count x ≤ ls.count x := by
  intro fuel
  induction fuel with
  | zero => intro ls k; exact Nat.le_refl _
  | succ n ih =>
    intro ls k
    unfold trimLoop
    by_cases hlt : k < ls.length
    · rw [if_pos hlt]
      by_cases hv : value s (ls.getD k 0) = l_False
      · rw [if_pos hv]
        refine Nat.le_trans (ih _ k) ?_
        obtain ⟨hsplit, hlen⟩ := split_at hlt
        have hstep := (trim_step (ls.take k) (ls.drop (k + 1)) (ls.getD k 0)).1
        rw [← hsplit, hlen] at hstep
        rw [hstep.count_eq]
        conv_rhs => rw [hsplit]
        rw [List.count_append, List.count_append, List.count_cons]
        omega
      · rw [if_neg hv]
        exact ih ls (k + 1)
    · rw [if_neg hlt]

/-- The words counted as wasted by `removeClause`. -/
theorem removeClause_wasted {s t : Solver} {cr : CRef} (h : removeClause s cr = some t) :
    t.ca.wasted = s.ca.wasted + clauseWord32Size (s.ca.cl cr).size (s.ca.cl cr).learnt := by
  unfold removeClause detachClause at h
  by_cases hsz : (s.ca.cl cr).size > 1
  · rw [if_pos hsz] at h
    simp only [Option.map_some', Option.some.injEq] at h
    generalize hA : smudge s (neg ((s.ca.cl cr).get 0)) = A at h
    generalize hB : smudge A (neg ((s.ca.cl cr).get 1)) = B at h
    generalize hC : countDetach B (s.ca.cl cr) = C at h
    generalize hD : unlock C cr = D at h
    have a16 := (smudge_frame s (neg ((s.ca.cl cr).get 0))).2.2.2.2.2.2.2.2.2.2.2.2.2.2.2.1
    rw [hA] at a16
    have b16 := (smudge_frame A (neg ((s.ca.cl cr).get 1))).2.2.2.2.2.2.2.2.2.2.2.2.2.2.2.1
    rw [hB] at b16
    have c16 := (countDetach_frame B (s.ca.cl cr)).2.2.2.2.2.2.2.2.2.2.2.2.2.2.2.1
    rw [hC] at c16
    have d16 := (unlock_frame C cr).2.2.2.2.2.2.2.2.2.2.2.2.2.2.2.1
    rw [hD] at d16
    have hDca : D.ca = s.ca := by rw [d16, c16, b16, a16]
    subst h
    show D.ca.wasted + clauseWord32Size (Function.update D.ca.cl cr _ cr).size
      (Function.update D.ca.cl cr _ cr).learnt = _
    rw [Function.update_same, hDca]
    rfl
  · rw [if_neg hsz] at h
    cases h

theorem RsRel.refl_rs (s : Solver) : RsRel s s :=
  ⟨rfl, fun _ => rfl, fun _ _ => Nat.le_refl _, fun _ _ h1 h2 => absurd h1 h2, fun _ _ => rfl,
    fun _ => rfl, fun _ h => h, fun _ h => h, fun _ => Or.inl rfl, fun _ h => h⟩

theorem RsRel.value_eq_rs {s t : Solver} (h : RsRel s t) (l : Lit) : value t l = value s l :=
  value_congr h.assigns l

theorem RsRel.mem_rs {s t : Solver} (h : RsRel s t) (c : CRef) {x : Lit}
    (hx : x ∈ (t.ca.cl c).lits) : x ∈ (s.ca.cl c).lits := by
  have h1 := h.count_le c x
  have h2 := List.count_pos_iff.mpr hx
  exact List.count_pos_iff.mp (by omega)

/-- A clause has a true literal in the later state exactly when it had one at the call. -/
theorem RsRel.satisfied_eq {s t : Solver} (h : RsRel s t) (c : CRef) :
    satisfied t (t.ca.cl c) = satisfied s (s.ca.cl c) := by
  rw [Bool.eq_iff_iff, satisfied_iff, satisfied_iff]
  constructor
  · rintro ⟨l, hl, hv⟩
    exact ⟨l, h.mem_rs c hl, by rw [← h.value_eq_rs]; exact hv⟩
  · rintro ⟨l, hl, hv⟩
    refine ⟨l, ?_, by rw [h.value_eq_rs]; exact hv⟩
    by_contra hn
    rw [h.dropped c l hl hn] at hv
    cases hv

theorem Trimmed.congr_trim {s t : Solver} (h : t.assigns = s.assigns) {ls : List Lit} :
    Trimmed t ls ↔ Trimmed s ls := by
  unfold Trimmed
  simp only [value_congr h]

theorem RsRel.trans_rs {s t u : Solver} (h1 : RsRel s t) (h2 : RsRel t u) : RsRel s u := by
  constructor
  · rw [h2.assigns, h1.assigns]
  · intro c; rw [h2.take2, h1.take2]
  · intro c x; exact Nat.le_trans (h2.count_le c x) (h1.count_le c x)
  · intro c x hx hn
    by_cases hm : x ∈ (t.ca.cl c).lits
    · rw [← h1.value_eq_rs]; exact h2.dropped c x hm hn
    · exact h1.dropped c x hx hm
  · intro c hc
    rw [h2.sat_lits c (by rw [h1.satisfied_eq]; exact hc), h1.sat_lits c hc]
  · intro c; rw [h2.learnt, h1.learnt]
  · intro c hc; exact h2.mark_mono c (h1.mark_mono c hc)
  · intro l hl; exact h2.dirty_mono l (h1.dirty_mono l hl)
  · intro v
    rcases h2.reason v with e | e
    · rw [e]; exact h1.reason v
    · exact Or.inr e
  · intro c hc
    exact (Trimmed.congr_trim h1.assigns).mp
      (h2.trimmed c ((Trimmed.congr_trim h1.assigns).mpr (h1.trimmed c hc)))

/-- The step of `removeSatisfied` that removes a clause. -/
theorem RemSpec.rsRel {s t : Solver} {cr : CRef} (h : RemSpec s t cr) : RsRel s t := by
  have hl : ∀ c, (t.ca.cl c).lits = (s.ca.cl c).lits := by
    intro c
    by_cases e : c = cr
    · subst e; rw [h.cl_self]
    · rw [h.cl_other c e]
  constructor
  · exact h.assigns
  · intro c; rw [hl]
  · intro c x; rw [hl]
  · intro c x hx hn; rw [hl] at hn; exact absurd hx hn
  · intro c _; exact hl c
  · intro c
    by_cases e : c = cr
    · subst e; rw [h.cl_self]
    · rw [h.cl_other c e]
  · intro c hc
    by_cases e : c = cr
    · subst e; rw [h.cl_self]
    · rw [h.cl_other c e]; exact hc
  · intro l hl'; exact (h.dirty l).mpr (Or.inl hl')
  · intro v
    unfold reason
    rw [h.vardata]
    split_ifs
    · by_cases e : v = var ((s.ca.cl cr).get 0)
      · subst e; rw [Function.update_same]; exact Or.inr rfl
      · rw [Function.update_noteq e]; exact Or.inl rfl
    · exact Or.inl rfl
  · intro c hc; rw [hl]; exact hc

/-- The step of `removeSatisfied` that trims a clause without true literal. -/
theorem trim_rsRel (s : Solver) (cr : CRef) (hs : satisfied s (s.ca.cl cr) = false) :
    RsRel s (setLits s cr (trimLoop s (s.ca.cl cr).size (s.ca.cl cr).lits 2)) ∧
    Trimmed s ((setLits s cr (trimLoop s (s.ca.cl cr).size (s.ca.cl cr).lits 2)).ca.cl cr).lits := by
  obtain ⟨a1, a2, a3, -⟩ := trimLoop_spec s (s.ca.cl cr).size (s.ca.cl cr).lits 2
  have hclean : Trimmed s (trimLoop s (s.ca.cl cr).size (s.ca.cl cr).lits 2) := by
    intro i hi hlt
    exact trimLoop_clean s _ _ 2 (by unfold Clause.size; omega) i hi hlt
  refine ⟨?_, by rw [setLits_lits_self]; exact hclean⟩
  constructor
  · rfl
  · intro c
    by_cases e : c = cr
    · subst e; rw [setLits_lits_self]; exact a3
    · rw [setLits_cl_other s _ e]
  · intro c x
    by_cases e : c = cr
    · subst e; rw [setLits_lits_self]; exact trimLoop_count s x _ _ _
    · rw [setLits_cl_other s _ e]
  · intro c x hx hn
    by_cases e : c = cr
    · subst e; rw [setLits_lits_self] at hn; exact a2 x hx hn
    · rw [setLits_cl_other s _ e] at hn; exact absurd hx hn
  · intro c hc
    by_cases e : c = cr
    · subst e; rw [hs] at hc; cases hc
    · rw [setLits_cl_other s _ e]
  · intro c
    by_cases e : c = cr
    · subst e; rw [setLits_cl_self]
    · rw [setLits_cl_other s _ e]
  · intro c hc; rw [setLits_mark]; exact hc
  · intro l hl; exact hl
  · intro v; exact Or.inl rfl
  · intro c hc
    by_cases e : c = cr
    · subst e; rw [setLits_lits_self]; exact hclean
    · rw [setLits_cl_other s _ e]; exact hc

theorem RsRel.locked_false {t u : Solver} {cr : CRef} (h2 : RsRel t u)
    (hl : locked t cr = false) : locked u cr = false := by
  unfold locked at hl ⊢
  have hg : (u.ca.cl cr).get 0 = (t.ca.cl cr).get 0 := getD_of_take_eq (h2.take2 cr) (by omega)
  rw [hg, h2.value_eq_rs]
  rcases h2.reason (var ((t.ca.cl cr).get 0)) with e | e
  · rw [e]; exact hl
  · rw [e]; simp

theorem sum_filter_congr {f g : CRef → Nat} {p q : CRef → Bool} :
    ∀ (l : List CRef), (∀ c ∈ l, p c = q c) → (∀ c ∈ l, q c = true → f c = g c) →
      ((l.filter p).map f).sum = ((l.filter q).map g).sum := by
  intro l
  induction l with
  | nil => intro _ _; rfl
  | cons a l ih =>
    intro h1 h2
    have e := h1 a (List.mem_cons_self _ _)
    have ih' := ih (fun c hc => h1 c (List.mem_cons_of_mem _ hc))
      (fun c hc => h2 c (List.mem_cons_of_mem _ hc))
    by_cases hq : q a = true
    · rw [List.filter_cons_of_pos (by rw [e]; exact hq), List.filter_cons_of_pos hq,
        List.map_cons, List.map_cons, List.sum_cons, List.sum_cons, ih',
        h2 a (List.mem_cons_self _ _) hq]
    · rw [List.filter_cons_of_neg (by rw [e]; exact hq), List.filter_cons_of_neg hq]
      exact ih'

/-- The state after `removeClause` on a clause: the clause is not locked. -/
theorem RemSpec.not_locked {s t : Solver} {cr : CRef} (h : RemSpec s t cr) :
    locked t cr = false := by
  have e0 : (t.ca.cl cr).get 0 = (s.ca.cl cr).get 0 := by rw [h.cl_self]; rfl
  by_cases hl : locked s cr = true
  · unfold locked reason
    rw [e0, h.vardata, if_pos hl, Function.update_same]
    simp [mkVarData]
  · have : locked t cr = locked s cr := by
      unfold locked reason
      rw [e0, h.vardata, if_neg hl, value_congr h.assigns]
    rw [this]
    simpa using hl

/-- The facts about a removed clause, read in the state at the call. -/
theorem RsRel.removed_of {s t u : Solver} {c : CRef} (h : RsRel s t)
    (hs : satisfied s (s.ca.cl c) = true)
    (hf : 1 < (t.ca.cl c).size ∧ (u.ca.cl c).mark = 1 ∧
      u.dirty (neg ((t.ca.cl c).get 0)) = true ∧
      u.dirty (neg ((t.ca.cl c).get 1)) = true ∧ locked u c = false) :
    1 < (s.ca.cl c).size ∧ (u.ca.cl c).mark = 1 ∧
      u.dirty (neg ((s.ca.cl c).get 0)) = true ∧
      u.dirty (neg ((s.ca.cl c).get 1)) = true ∧ locked u c = false := by
  have e := h.sat_lits c hs
  unfold Clause.size Clause.get at hf ⊢
  rw [e] at hf
  exact hf

/-- The loop of `removeSatisfied`, when it returns. -/
theorem removeSatisfiedLoop_char :
    ∀ (crs : List CRef) (s : Solver) (r : List CRef × Solver),
      removeSatisfiedLoop s crs = some r →
      RsRel s r.2 ∧ r.1 = crs.filter (fun cr => !satisfied s (s.ca.cl cr)) ∧
      (∀ cr ∈ r.1, Trimmed s (r.2.ca.cl cr).lits) ∧
      (∀ cr ∈ crs, satisfied s (s.ca.cl cr) = true →
        1 < (s.ca.cl cr).size ∧ (r.2.ca.cl cr).mark = 1 ∧
        r.2.dirty (neg ((s.ca.cl cr).get 0)) = true ∧
        r.2.dirty (neg ((s.ca.cl cr).get 1)) = true ∧ locked r.2 cr = false) ∧
      r.2.ca.wasted = s.ca.wasted +
        ((crs.filter (fun cr => satisfied s (s.ca.cl cr))).map
          (fun cr => clauseWord32Size (s.ca.cl cr).size (s.ca.cl cr).learnt)).sum := by
  intro crs
  induction crs with
  | nil =>
    intro s r h
    unfold removeSatisfiedLoop at h
    cases h
    exact ⟨RsRel.refl_rs s, rfl, fun c hc => (by cases hc), fun c hc => (by cases hc), rfl⟩
  | cons cr crs ih =>
    intro s r h
    unfold removeSatisfiedLoop at h
    by_cases hs : satisfied s (s.ca.cl cr) = true
    · rw [if_pos hs] at h
      cases hr : removeClause s cr with
      | none => rw [hr] at h; cases h
      | some s1 =>
        rw [hr] at h
        simp only at h
        have hsp := removeClause_spec hr
        have hrel := hsp.rsRel
        obtain ⟨i1, i2, i3, i4, i5⟩ := ih s1 r h
        have hsat : ∀ c, satisfied s1 (s1.ca.cl c) = satisfied s (s.ca.cl c) :=
          fun c => hrel.satisfied_eq c
        refine ⟨hrel.trans_rs i1, ?_, ?_, ?_, ?_⟩
        · have ef : (cr :: crs).filter (fun cr => !satisfied s (s.ca.cl cr)) =
              crs.filter (fun cr => !satisfied s (s.ca.cl cr)) :=
            List.filter_cons_of_neg (by simp [hs])
          rw [ef, i2]
          exact List.filter_congr (fun c _ => by rw [hsat])
        · intro c hc
          exact (Trimmed.congr_trim hrel.assigns).mp (i3 c hc)
        · intro c hc hsc
          rcases List.mem_cons.mp hc with rfl | hc
          · exact ⟨hsp.size, i1.mark_mono _ hsp.mark_self,
              i1.dirty_mono _ ((hsp.dirty _).mpr (Or.inr (Or.inl rfl))),
              i1.dirty_mono _ ((hsp.dirty _).mpr (Or.inr (Or.inr rfl))),
              i1.locked_false hsp.not_locked⟩
          · exact hrel.removed_of hsc (i4 c hc (by rw [hsat]; exact hsc))
        · have ef : (cr :: crs).filter (fun cr => satisfied s (s.ca.cl cr)) =
              cr :: crs.filter (fun cr => satisfied s (s.ca.cl cr)) :=
            List.filter_cons_of_pos hs
          rw [i5, removeClause_wasted hr, ef, List.map_cons, List.sum_cons]
          have hsum : ((crs.filter (fun cr => satisfied s1 (s1.ca.cl cr))).map
                (fun cr => clauseWord32Size (s1.ca.cl cr).size (s1.ca.cl cr).learnt)).sum =
              ((crs.filter (fun cr => satisfied s (s.ca.cl cr))).map
                (fun cr => clauseWord32Size (s.ca.cl cr).size (s.ca.cl cr).learnt)).sum :=
            sum_filter_congr crs (fun c _ => hsat c) (fun c _ hc => by
              have e := hrel.sat_lits c hc
              unfold Clause.size
              rw [e, hrel.learnt])
          rw [hsum]
          omega
    · rw [if_neg hs] at h
      have hs' : satisfied s (s.ca.cl cr) = false := by simpa using hs
      obtain ⟨hrel, hclean⟩ := trim_rsRel s cr hs'
      have hw : (setLits s cr (trimLoop s (s.ca.cl cr).size (s.ca.cl cr).lits 2)).ca.wasted =
          s.ca.wasted := rfl
      generalize setLits s cr (trimLoop s (s.ca.cl cr).size (s.ca.cl cr).lits 2) = s1
        at h hrel hclean hw
      cases hr : removeSatisfiedLoop s1 crs with
      | none => rw [hr] at h; cases h
      | some r1 =>
        rw [hr] at h
        simp only [Option.map_some', Option.some.injEq] at h
        subst h
        obtain ⟨i1, i2, i3, i4, i5⟩ := ih _ r1 hr
        have hsat : ∀ c, satisfied s1 (s1.ca.cl c) = satisfied s (s.ca.cl c) :=
          fun c => hrel.satisfied_eq c
        refine ⟨hrel.trans_rs i1, ?_, ?_, ?_, ?_⟩
        · show cr :: r1.1 = _
          have ef : (cr :: crs).filter (fun cr => !satisfied s (s.ca.cl cr)) =
              cr :: crs.filter (fun cr => !satisfied s (s.ca.cl cr)) :=
            List.filter_cons_of_pos (by simp [hs'])
          rw [ef, i2]
          congr 1
          exact List.filter_congr (fun c _ => by rw [hsat])
        · intro c hc
          rcases List.mem_cons.mp hc with rfl | hc
          · exact (Trimmed.congr_trim hrel.assigns).mp
              (i1.trimmed _ ((Trimmed.congr_trim hrel.assigns).mpr hclean))
          · exact (Trimmed.congr_trim hrel.assigns).mp (i3 c hc)
        · intro c hc hsc
          rcases List.mem_cons.mp hc with rfl | hc
          · rw [hs'] at hsc; cases hsc
          · exact hrel.removed_of hsc (i4 c hc (by rw [hsat]; exact hsc))
        · show r1.2.ca.wasted = _
          have ef : (cr :: crs).filter (fun cr => satisfied s (s.ca.cl cr)) =
              crs.filter (fun cr => satisfied s (s.ca.cl cr)) :=
            List.filter_cons_of_neg (by simp [hs'])
          rw [i5, ef, hw]
          have hsum : ((crs.filter (fun cr => satisfied s1 (s1.ca.cl cr))).map
                (fun cr => clauseWord32Size (s1.ca.cl cr).size (s1.ca.cl cr).learnt)).sum =
              ((crs.filter (fun cr => satisfied s (s.ca.cl cr))).map
                (fun cr => clauseWord32Size (s.ca.cl cr).size (s.ca.cl cr).learnt)).sum :=
            sum_filter_congr crs (fun c _ => hsat c) (fun c _ hc => by
              have e := hrel.sat_lits c hc
              unfold Clause.size
              rw [e, hrel.learnt])
          rw [hsum]

/-- The loop of `removeSatisfied` returns when every clause of the list with a true literal has
more than one literal. -/
theorem removeSatisfiedLoop_some :
    ∀ (crs : List CRef) (s : Solver),
      (∀ cr ∈ crs, satisfied s (s.ca.cl cr) = true → 1 < (s.ca.cl cr).size) →
      ∃ r, removeSatisfiedLoop s crs = some r := by
  intro crs
  induction crs with
  | nil => intro s _; exact ⟨_, rfl⟩
  | cons cr crs ih =>
    intro s hsz
    unfold removeSatisfiedLoop
    by_cases hs : satisfied s (s.ca.cl cr) = true
    · rw [if_pos hs]
      have h1 := hsz cr (List.mem_cons_self _ _) hs
      have hr : ∃ s1, removeClause s cr = some s1 := by
        unfold removeClause detachClause
        rw [if_pos h1]
        exact ⟨_, rfl⟩
      obtain ⟨s1, hr⟩ := hr
      rw [hr]
      have hrel := (removeClause_spec hr).rsRel
      apply ih s1
      intro c hc hsc
      rw [hrel.satisfied_eq] at hsc
      have := hsz c (List.mem_cons_of_mem _ hc) hsc
      unfold Clause.size at this ⊢
      rw [hrel.sat_lits c hsc]
      exact this
    · rw [if_neg hs]
      have hs' : satisfied s (s.ca.cl cr) = false := by simpa using hs
      obtain ⟨hrel, -⟩ := trim_rsRel s cr hs'
      generalize setLits s cr (trimLoop s (s.ca.cl cr).size (s.ca.cl cr).lits 2) = s1 at hrel
      obtain ⟨r1, hr1⟩ := ih s1
        (by
          intro c hc hsc
          rw [hrel.satisfied_eq] at hsc
          have := hsz c (List.mem_cons_of_mem _ hc) hsc
          unfold Clause.size at this ⊢
          rw [hrel.sat_lits c hsc]
          exact this)
      rw [hr1]
      exact ⟨_, rfl⟩

/-- C38: for every clause that `removeSatisfied` retains (the loop having returned), after the
trimming loop no literal at an index from 2 on is false, the literals at the indices 0 and 1
are as before, no literal has more occurrences than before (so a clause without a doubled
literal has none afterwards), and the literals that are not false are the same as before; the
assignment is not changed. -/
theorem removeSatisfied_trims (s : Solver) (cs : List CRef) (r : List CRef × Solver)
    (h : removeSatisfiedLoop s cs = some r) (cr : CRef) (hcr : cr ∈ r.1) :
    (∀ i, 2 ≤ i → i < (r.2.ca.cl cr).size → value r.2 ((r.2.ca.cl cr).get i) ≠ l_False) ∧
    (r.2.ca.cl cr).get 0 = (s.ca.cl cr).get 0 ∧ (r.2.ca.cl cr).get 1 = (s.ca.cl cr).get 1 ∧
    (∀ x, (r.2.ca.cl cr).lits.count x ≤ (s.ca.cl cr).lits.count x) ∧
    ((s.ca.cl cr).lits.Nodup → (r.2.ca.cl cr).lits.Nodup) ∧
    (∀ x, value s x ≠ l_False → (x ∈ (r.2.ca.cl cr).lits ↔ x ∈ (s.ca.cl cr).lits)) ∧
    (∀ x, value r.2 x = value s x) := by
  obtain ⟨i1, -, i3, -, -⟩ := removeSatisfiedLoop_char cs s r h
  refine ⟨?_, getD_of_take_eq (i1.take2 cr) (by omega), getD_of_take_eq (i1.take2 cr) (by omega),
    i1.count_le cr, ?_, ?_, i1.value_eq_rs⟩
  · intro i hi hlt
    rw [i1.value_eq_rs]
    exact i3 cr hcr i hi hlt
  · intro hnd
    rw [List.nodup_iff_count_le_one] at hnd ⊢
    intro x
    exact Nat.le_trans (i1.count_le cr x) (hnd x)
  · intro x hx
    constructor
    · exact i1.mem_rs cr
    · intro hm
      by_contra hn
      exact hx (i1.dropped cr x hm hn)

/-- C31: `removeSatisfied(cs)` returns when every clause of `cs` with a true literal has more
than one literal (the assertion of `detachClause`); then `cs` holds exactly the clauses of the
old `cs` without a true literal under the assignment, which is not changed, in their order;
every clause of the old `cs` with a true literal is marked deleted, detached in the lazy way of
`detachClause` (the watcher lists of the negations of its first two literals are dirty) and
freed (its words are counted as wasted), and it is not locked any more: in a state with a
consistent trail and reasons, a trail literal that had the clause as its reason has no reason
afterwards. -/
theorem removeSatisfied_spec (s : Solver) (cs : List CRef) (htr : TrailInv s)
    (hrs : ReasonInv s)
    (hsz : ∀ cr ∈ cs, satisfied s (s.ca.cl cr) = true → 1 < (s.ca.cl cr).size) :
    ∃ r, removeSatisfiedLoop s cs = some r ∧
      r.1 = cs.filter (fun cr => !satisfied s (s.ca.cl cr)) ∧
      (∀ x, value r.2 x = value s x) ∧
      (∀ cr ∈ cs, satisfied s (s.ca.cl cr) = true →
        (r.2.ca.cl cr).mark = 1 ∧
        r.2.dirty (neg ((s.ca.cl cr).get 0)) = true ∧
        r.2.dirty (neg ((s.ca.cl cr).get 1)) = true ∧
        ∀ l ∈ s.trail, reason s (var l) = some cr → reason r.2 (var l) = none) ∧
      r.2.ca.wasted = s.ca.wasted +
        ((cs.filter (fun cr => satisfied s (s.ca.cl cr))).map
          (fun cr => clauseWord32Size (s.ca.cl cr).size (s.ca.cl cr).learnt)).sum := by
  obtain ⟨r, hr⟩ := removeSatisfiedLoop_some cs s hsz
  obtain ⟨i1, i2, -, i4, i5⟩ := removeSatisfiedLoop_char cs s r hr
  refine ⟨r, hr, i2, i1.value_eq_rs, ?_, i5⟩
  intro cr hcr hs
  obtain ⟨-, a2, a3, a4, a5⟩ := i4 cr hcr hs
  refine ⟨a2, a3, a4, ?_⟩
  intro l hl hre
  obtain ⟨pre, post, hsplit⟩ := List.append_of_mem hl
  obtain ⟨-, hget, -⟩ := hrs pre l post cr hsplit hre
  rcases i1.reason (var l) with e | e
  · exfalso
    rw [hre] at e
    have hg : (r.2.ca.cl cr).get 0 = l := by
      rw [← hget]; exact getD_of_take_eq (i1.take2 cr) (by omega)
    have : locked r.2 cr = true := by
      unfold locked
      rw [hg, i1.value_eq_rs, htr.true_of_mem l hl, e]
      simp
    rw [a5] at this
    cases this
  · exact e

end Minisat


namespace Minisat
open lbool

/-! ## What `pickBranchLit` returns -/

/-- When the loop of `pickBranchLit` ends without a variable, the heap is empty. -/
theorem pickLoop_none_heap : ∀ (fuel : Nat) (s : Solver) (next : Option Var),
    s.order_heap.length < fuel → (pickLoop fuel s next).1 = none →
    (pickLoop fuel s next).2.order_heap = [] := by
  intro fuel
  induction fuel with
  | zero => intro s next h; omega
  | succ n ih =>
    intro s next hf
    rw [pickLoop_succ]
    split_ifs with hc
    · cases hb : heapBest s.activity s.order_heap with
      | none =>
        intro _
        exact heapBest_none _ _ hb
      | some x =>
        simp only
        have hx := heapBest_mem _ _ _ hb
        have hpos : 0 < s.order_heap.length := List.length_pos_of_mem hx
        have hlen : (setOrderHeap s (s.order_heap.erase x)).order_heap.length < n := by
          show (s.order_heap.erase x).length < n
          rw [List.length_erase_of_mem hx]
          omega
        exact ih _ (some x) hlen
    · intro hn
      cases next with
      | none => simp at hc
      | some w => cases hn

theorem pickPolarity_sign (s : Solver) (next : Var) (h : s.rnd_pol = false) :
    sign (pickPolarity s next).1 =
      if s.user_pol next ≠ l_Undef then decide (s.user_pol next = l_True)
      else s.polarity next := by
  unfold pickPolarity
  by_cases hu : s.user_pol next ≠ l_Undef
  · rw [if_pos hu, if_pos hu]
    exact sign_mkLit _ _
  · rw [if_neg hu, if_neg hu, h]
    simp only [Bool.false_eq_true, if_false]
    exact sign_mkLit _ _

/-- C32: `pickBranchLit` returns `lit_Undef` or a literal of a variable that is unassigned and
a decision variable (at the call and at the return); `lit_Undef` is returned only with the
order heap emptied; with `rnd_pol = false` the sign of the literal returned is
`user_pol[v] == l_True` when `user_pol[v]` is not `l_Undef` and the saved `polarity[v]`
otherwise. -/
theorem pickBranchLit_returns (s : Solver) :
    (∀ l, (pickBranchLit s).1 = some l →
      s.assigns (var l) = l_Undef ∧ value (pickBranchLit s).2 l = l_Undef ∧
      s.decision (var l) = true ∧ (pickBranchLit s).2.decision (var l) = true ∧
      (s.rnd_pol = false →
        sign l = if s.user_pol (var l) ≠ l_Undef then decide (s.user_pol (var l) = l_True)
                 else s.polarity (var l))) ∧
    ((pickBranchLit s).1 = none → (pickBranchLit s).2.order_heap = []) := by
  obtain ⟨k1, -, -, k4, -⟩ := pickBranchLit_spec s
  obtain ⟨-, -, f3, -, -, -, -, -, -, -, -, -, -, -, f15, -, -, -, -⟩ := pickKey_fields k1
  obtain ⟨a1, a2, -⟩ :=
    pickRandom_spec (setSeed s (drand s.random_seed).2) (drand s.random_seed).1
  generalize hr1 : pickRandom (setSeed s (drand s.random_seed).2) (drand s.random_seed).1 = r1
    at a1 a2
  have a1' : pickKey r1.2 = pickKey s := a1
  obtain ⟨b1, -, -, -, -⟩ :=
    pickLoop_spec (r1.2.order_heap.length + 1) r1.2 r1.1 (Nat.lt_succ_self _)
  have b6 := pickLoop_none_heap (r1.2.order_heap.length + 1) r1.2 r1.1 (Nat.lt_succ_self _)
  generalize hr2 : pickLoop (r1.2.order_heap.length + 1) r1.2 r1.1 = r2 at b1 b6
  have hkey : pickKey r2.2 = pickKey s := b1.trans a1'
  have hup : r2.2.user_pol = s.user_pol := by
    have := congrArg (fun x : Solver => x.user_pol) hkey; exact this
  have hpo : r2.2.polarity = s.polarity := by
    have := congrArg (fun x : Solver => x.polarity) hkey; exact this
  have hrp : r2.2.rnd_pol = s.rnd_pol := by
    have := congrArg (fun x : Solver => x.rnd_pol) hkey; exact this
  have hres : pickBranchLit s =
      (match r2.1 with
       | none => (none, r2.2)
       | some next => (some (pickPolarity r2.2 next).1, (pickPolarity r2.2 next).2)) := by
    unfold pickBranchLit
    simp only [hr1, hr2]
    try (cases r2.1 <;> rfl)
  constructor
  · intro l hl
    obtain ⟨x1, x2, -⟩ := k4 l hl
    refine ⟨x1, ?_, x2, by rw [f15]; exact x2, ?_⟩
    · rw [value_congr f3]
      exact value_undef_iff.mpr x1
    · intro hr
      rw [hres] at hl
      cases hn : r2.1 with
      | none => rw [hn] at hl; simp at hl
      | some next =>
        rw [hn] at hl
        simp only [Option.some.injEq] at hl
        subst hl
        have hv : var (pickPolarity r2.2 next).1 = next := (pickPolarity_spec r2.2 next).2.2
        rw [pickPolarity_sign r2.2 next (by rw [hrp]; exact hr), hv, hup, hpo]
  · intro hn
    rw [hres] at hn ⊢
    cases hm : r2.1 with
    | none => exact b6 hm
    | some next => rw [hm] at hn; simp at hn

end Minisat


namespace Minisat
open lbool

/-! ## `analyze` restores the marks -/

/-- C34: `analyze`, called at a decision level above 0 with all marks of `seen` clear, in a
state with a consistent trail and well-formed reasons, on a falsified clause with a literal of
the current decision level (the conflict that `propagate` returns), leaves all marks of `seen`
clear when it returns, whatever the value `m` of `ccmin_mode`: the marks of the resolution loop
and those set by `litRedundant` are all cleared through `analyze_toclear`. -/
theorem analyze_restores_seen (fuel : Nat) (s : Solver) (m : Nat) (confl : CRef)
    (r : AnalyzeResult × Solver) (htr : TrailInv s) (hrs : ReasonInv s)
    (hs0 : ∀ v, s.seen v = 0) (hdl : 0 < decisionLevel s) (hfal : Falsified s confl)
    (htl : TopLit s confl) (h : analyze fuel (setCcminMode s m) confl = some r) :
    ∀ v, r.2.seen v = 0 :=
  (analyze_spec (s := setCcminMode s m) (htr.congr_tr rfl rfl rfl rfl) hrs hs0 hdl hfal htl
    h).seen0

end Minisat


namespace Minisat
open lbool

/-! ## The order of unit propagation and symmetry propagation in `propagate` -/

theorem TGrow.refl_tg (s : Solver) : TGrow s s := ⟨rfl, Nat.le_refl _⟩

theorem TGrow.trans_tg {s t u : Solver} (h1 : TGrow s t) (h2 : TGrow t u) : TGrow s u :=
  ⟨h2.1.trans h1.1, Nat.le_trans h1.2 h2.2⟩

theorem LimOk.grow {s t : Solver} (h : LimOk s) (hg : TGrow s t) : LimOk t := by
  obtain ⟨h1, h2⟩ := h
  refine ⟨by rw [hg.1]; exact h1, ?_⟩
  intro x hx
  rw [hg.1] at hx
  exact Nat.le_trans (h2 x hx) hg.2

theorem uncheckedEnqueue_grow {s t : Solver} {p : Lit} {r : Option CRef}
    (h : uncheckedEnqueue s p r = some t) :
    t.trail = s.trail ++ [p] ∧ t.trail_lim = s.trail_lim ∧ t.qhead = s.qhead := by
  unfold uncheckedEnqueue at h
  split_ifs at h
  cases h
  exact ⟨rfl, rfl, rfl⟩

theorem tagSymmetryUnit_grow (b : Bool) (s : Solver) (v : Var) :
    (tagSymmetryUnit b s v).trail = s.trail ∧ (tagSymmetryUnit b s v).trail_lim = s.trail_lim := by
  unfold tagSymmetryUnit
  split_ifs
  · exact ⟨rfl, rfl⟩
  · exact ⟨rfl, rfl⟩

theorem watchStep_keep_grow {p : Lit} {b : Bool} {w w1 : Watcher} {s s1 : Solver}
    (h : watchStep p b w s = WStep.keep w1 s1) : TGrow s s1 := by
  rcases watchStep_keep h with ⟨_, _, rfl⟩ | ⟨_, _, _, ⟨_, rfl⟩ | ⟨_, he⟩⟩
  · exact TGrow.refl_tg _
  · exact ⟨rfl, Nat.le_refl _⟩
  · obtain ⟨e1, e2, -⟩ := uncheckedEnqueue_grow he
    obtain ⟨e3, e4⟩ := tagSymmetryUnit_grow b
      (setLits s w.cref (swapFalseLit (s.ca.cl w.cref).lits (neg p)))
      (var ((swapFalseLit (s.ca.cl w.cref).lits (neg p)).getD 0 0))
    constructor
    · rw [e2, e4]; rfl
    · rw [e1, e3, List.length_append]
      exact Nat.le_add_right _ _

theorem watchStep_move_grow {p : Lit} {b : Bool} {w : Watcher} {s s1 : Solver}
    (h : watchStep p b w s = WStep.move s1) : TGrow s s1 := by
  obtain ⟨k, _, _, _, _, _, rfl⟩ := watchStep_move h
  exact ⟨rfl, Nat.le_refl _⟩

theorem watchStep_conflict_grow {p : Lit} {b : Bool} {w w1 : Watcher} {s s1 : Solver}
    (h : watchStep p b w s = WStep.conflict w1 s1) : TGrow s s1 := by
  obtain ⟨_, _, _, _, _, rfl⟩ := watchStep_conflict h
  exact ⟨rfl, Nat.le_refl _⟩

theorem propagateWatchers_grow (p : Lit) (b : Bool) :
    ∀ (ws : List Watcher) (s : Solver) (r : Option CRef × List Watcher × Solver),
      propagateWatchers p b ws s = some r → TGrow s r.2.2 := by
  intro ws
  induction ws with
  | nil => intro s r h; simp [propagateWatchers] at h; subst h; exact TGrow.refl_tg _
  | cons w rest ih =>
    intro s r h
    rw [propagateWatchers] at h
    split at h
    · cases h
    · rename_i w1 s1 hw
      simp only [Option.map_eq_some'] at h
      obtain ⟨a, ha, rfl⟩ := h
      exact (watchStep_keep_grow hw).trans_tg (ih _ a ha)
    · rename_i s1 hw
      exact (watchStep_move_grow hw).trans_tg (ih _ _ h)
    · rename_i w1 s1 hw
      cases h
      exact watchStep_conflict_grow hw

theorem propagateLit_grow {p : Lit} {s : Solver} {r : Option CRef × Solver}
    (h : propagateLit p s = some r) : TGrow s r.2 := by
  unfold propagateLit at h
  split at h
  · cases h
  · rename_i r1 h1
    cases h
    obtain ⟨f1, f2, -, -, -, -⟩ := lookup_fields s p
    have hg := propagateWatchers_grow _ _ _ _ _ h1
    exact ⟨hg.1.trans f2, by rw [← f1]; exact hg.2⟩

/-- After the backtrack of `propagateSymmetrical` the head is at the end of the trail, when it
was there before. -/
theorem symBacktrack_head {s : Solver} (implic : List Lit) (hl : LimOk s)
    (hq : s.qhead = s.trail.length) :
    (symBacktrack s implic).qhead = (symBacktrack s implic).trail.length ∧
    LimOk (symBacktrack s implic) := by
  unfold symBacktrack
  by_cases hd : decisionLevel s > level s (var (implic.getD 1 0))
  · rw [if_pos hd]
    unfold cancelUntil
    rw [if_pos hd]
    generalize hk : level s (var (implic.getD 1 0)) = k at hd
    have hc := cancelKey_cancelLoop (s.trail_lim.getD k 0) (s.trail.length - s.trail_lim.getD k 0) s
    have e1 := cancelKey_trail hc
    have e2 := cancelKey_trail_lim hc
    have hklt : k < s.trail_lim.length := hd
    have hmem : s.trail_lim.getD k 0 ∈ s.trail_lim := by
      rw [List.getD_eq_getElem _ _ hklt]; exact List.getElem_mem _
    have hle := hl.2 _ hmem
    constructor
    · show s.trail_lim.getD k 0 = (List.take _ _).length
      rw [e1, List.length_take]
      omega
    · constructor
      · show (List.take k _).Sorted _
        rw [e2]
        exact hl.1.sublist (List.take_sublist _ _)
      · intro x hx
        have hx' : x ∈ List.take k s.trail_lim := by
          have : x ∈ List.take k
              (cancelLoop (s.trail_lim.getD k 0) (s.trail.length - s.trail_lim.getD k 0)
                s).trail_lim := hx
          rw [e2] at this; exact this
        show x ≤ (List.take _ _).length
        rw [e1, List.length_take, Nat.min_eq_left hle]
        obtain ⟨i, hi, rfl⟩ := List.mem_iff_getElem.mp hx'
        rw [List.length_take] at hi
        rw [List.getElem_take, List.getD_eq_getElem _ _ hklt]
        exact List.Sorted.rel_get_of_le hl.1 (a := ⟨i, by omega⟩) (b := ⟨k, hklt⟩)
          (by show i ≤ k; omega)
  · rw [if_neg hd]
    exact ⟨hq, hl⟩

theorem symStore_head {s t : Solver} {cr : CRef} (h : symStore s cr = some t) :
    t.trail = s.trail ∧ t.trail_lim = s.trail_lim ∧ t.qhead = s.qhead := by
  unfold symStore at h
  cases ha : attachClause (pushLearnt s cr) cr with
  | none => rw [ha] at h; cases h
  | some u =>
    rw [ha] at h
    simp only [Option.map_some', Option.some.injEq] at h
    subst h
    have hf := anaKey_frame (anaKey_claBumpActivity u cr)
    obtain ⟨-, rfl⟩ := attachClause_eq ha
    have hu : ∀ c, (countAttach (pushWatch (pushWatch (pushLearnt s cr)
        (neg (((pushLearnt s cr).ca.cl cr).get 0)) ⟨cr, ((pushLearnt s cr).ca.cl cr).get 1⟩)
        (neg (((pushLearnt s cr).ca.cl cr).get 1)) ⟨cr, ((pushLearnt s cr).ca.cl cr).get 0⟩)
        c).trail = s.trail ∧ (countAttach (pushWatch (pushWatch (pushLearnt s cr)
        (neg (((pushLearnt s cr).ca.cl cr).get 0)) ⟨cr, ((pushLearnt s cr).ca.cl cr).get 1⟩)
        (neg (((pushLearnt s cr).ca.cl cr).get 1)) ⟨cr, ((pushLearnt s cr).ca.cl cr).get 0⟩)
        c).trail_lim = s.trail_lim ∧ (countAttach (pushWatch (pushWatch (pushLearnt s cr)
        (neg (((pushLearnt s cr).ca.cl cr).get 0)) ⟨cr, ((pushLearnt s cr).ca.cl cr).get 1⟩)
        (neg (((pushLearnt s cr).ca.cl cr).get 1)) ⟨cr, ((pushLearnt s cr).ca.cl cr).get 0⟩)
        c).qhead = s.qhead := by
      intro c
      unfold countAttach
      split_ifs <;> exact ⟨rfl, rfl, rfl⟩
    obtain ⟨u1, u2, u3⟩ := hu ((pushLearnt s cr).ca.cl cr)
    exact ⟨hf.trail.trans u1, hf.trail_lim.trans u2, hf.qhead.trans u3⟩

/-- A call of `propagateSymmetrical` with the head at the end of the trail returns a conflict
or leaves a literal to propagate. -/
theorem propagateSymmetrical_breaks {gssc : Solver → Symmetry → Clause → List Lit}
    {P P' : PropSolver} {σ : Symmetry} {l : Lit} {r : Option CRef}
    (h : propagateSymmetrical gssc P σ l = some (r, P')) (hl : LimOk P.sym.solver)
    (hq : P.sym.solver.qhead = P.sym.solver.trail.length) :
    (r ≠ none ∨ P'.sym.solver.qhead ≠ P'.sym.solver.trail.length) ∧ LimOk P'.sym.solver ∧
    P'.sym.symmetries = P.sym.symmetries := by
  obtain ⟨-, implic, isSym, isFirst, compat, s3, -, -, -, -, -, hcase, hsym⟩ :=
    propagateSymmetrical_parts h
  obtain ⟨b1, b2⟩ := symBacktrack_head implic hl hq
  generalize symBacktrack P.sym.solver implic = sb at hcase b1 b2
  have hs3 : ∀ flag : Bool,
      (if flag then symStore (setCa sb (sb.ca.alloc implic true isFirst isSym compat).2) sb.ca.size
       else some (setCa sb (sb.ca.alloc implic true isFirst isSym compat).2)) = some s3 →
      s3.trail = sb.trail ∧ s3.trail_lim = sb.trail_lim ∧ s3.qhead = sb.qhead := by
    intro flag hf
    cases flag with
    | true =>
      simp only [if_true] at hf
      obtain ⟨e1, e2, e3⟩ := symStore_head hf
      exact ⟨e1, e2, e3⟩
    | false =>
      simp only [Bool.false_eq_true, if_false, Option.some.injEq] at hf
      subst hf
      exact ⟨rfl, rfl, rfl⟩
  rcases hcase with ⟨-, hst, henq, hr⟩ | ⟨-, hst, hP, hr⟩
  · obtain ⟨e1, e2, e3⟩ := hs3 _ hst
    obtain ⟨g1, g2, g3⟩ := uncheckedEnqueue_grow henq
    refine ⟨Or.inr ?_, ?_, hsym⟩
    · rw [g3, g1, e3, e1, b1, List.length_append]
      simp
    · refine b2.grow ⟨g2.trans e2, ?_⟩
      rw [g1, e1, List.length_append]
      exact Nat.le_add_right _ _
  · obtain ⟨e1, e2, e3⟩ := hs3 _ hst
    refine ⟨Or.inl (by rw [hr]; intro e; cases e), ?_, hsym⟩
    rw [hP]
    exact b2.grow ⟨e2, by rw [e1]⟩

theorem weaklyActiveLoop_stop {Ω : Type} (Q : SymObjects Ω) (syms : List Symmetry)
    (S : SymPropSolver Ω) (confl : Option CRef) (log : List SymEvent)
    (h : ¬ SymGuard S confl) : weaklyActiveLoop Q syms S confl log = some (confl, S, log) := by
  cases syms with
  | nil => rfl
  | cons σ rest =>
    unfold weaklyActiveLoop
    exact if_neg h

theorem weaklyInactiveLoop_stop {Ω : Type} (Q : SymObjects Ω) (syms : List Symmetry)
    (S : SymPropSolver Ω) (confl : Option CRef) (log : List SymEvent)
    (h : ¬ (S.inactivePropagationOptimization = true ∧ SymGuard S confl)) :
    weaklyInactiveLoop Q syms S confl log = some (confl, S, log) := by
  cases syms with
  | nil => rfl
  | cons σ rest =>
    unfold weaklyInactiveLoop
    exact if_neg h

/-- The weakly active loop: the events added, and the state. -/
theorem weaklyActiveLoop_spec {Ω : Type} (Q : SymObjects Ω) :
    ∀ (syms : List Symmetry) (S : SymPropSolver Ω) (confl : Option CRef) (log : List SymEvent)
      (r : Option CRef × SymPropSolver Ω × List SymEvent),
      weaklyActiveLoop Q syms S confl log = some r → LimOk S.solver →
      (∃ ext, r.2.2 = log ++ ext ∧ InvokeOk ext ∧ NoWeak ext ∧
        (SymGuard r.2.1 r.1 → AllQuiet syms ext)) ∧
      LimOk r.2.1.solver ∧ r.2.1.prop.sym.symmetries = S.prop.sym.symmetries ∧
      r.2.1.inactivePropagationOptimization = S.inactivePropagationOptimization := by
  intro syms
  induction syms with
  | nil =>
    intro S confl log r h hl
    unfold weaklyActiveLoop at h
    cases h
    refine ⟨⟨[], (List.append_nil _).symm, ?_, ?_, ?_⟩, hl, rfl, rfl⟩
    · intro w σ l q n c o hm; cases hm
    · intro σ l q n c o hm; cases hm
    · intro _
      exact ⟨fun τ a hm => (by cases hm), fun τ hτ => (by cases hτ)⟩
  | cons σ rest ih =>
    intro S confl log r h hl
    by_cases hg : SymGuard S confl
    · unfold weaklyActiveLoop at h
      have hg' := hg
      unfold SymGuard at hg'
      rw [if_pos hg'] at h
      by_cases ha : Q.isActive S.objs σ = true
      · rw [if_pos ha] at h
        cases hn : (Q.getNextToPropagate S.objs σ).1 with
        | none =>
          rw [hn] at h
          simp only at h
          obtain ⟨⟨ext, e1, e2, e3, e4⟩, i2, i3, i4⟩ := ih _ _ _ _ h hl
          refine ⟨⟨SymEvent.active σ none :: ext, ?_, ?_, ?_, ?_⟩, i2, i3, i4⟩
          · rw [e1, List.append_assoc]; rfl
          · intro w τ l q n c o hm
            rcases List.mem_cons.mp hm with e | hm
            · cases e
            · exact e2 w τ l q n c o hm
          · intro τ l q n c o hm
            rcases List.mem_cons.mp hm with e | hm
            · cases e
            · exact e3 τ l q n c o hm
          · intro hfin
            obtain ⟨q1, q2⟩ := e4 hfin
            constructor
            · intro τ a hm
              rcases List.mem_cons.mp hm with e | hm
              · cases e; rfl
              · exact q1 τ a hm
            · intro τ hτ
              rcases List.mem_cons.mp hτ with e | hτ
              · subst e; exact Or.inl (List.mem_cons_self _ _)
              · rcases q2 τ hτ with x | x
                · exact Or.inl (List.mem_cons_of_mem _ x)
                · exact Or.inr (List.mem_cons_of_mem _ x)
        | some orig =>
          rw [hn] at h
          simp only at h
          cases hp : propagateSymmetrical
              (Q.getSortedSymmetricalClause (Q.getNextToPropagate S.objs σ).2) S.prop σ orig with
          | none => rw [hp] at h; cases h
          | some r0 =>
            rw [hp] at h
            simp only at h
            obtain ⟨c1, c2, c3⟩ := @propagateSymmetrical_breaks _ _ r0.2 _ _ r0.1 hp hl hg.1
            have hng : ∀ S1 : SymPropSolver Ω, S1.prop = r0.2 → ¬ SymGuard S1 r0.1 := by
              rintro S1 e ⟨g1, g2⟩
              unfold SymPropSolver.solver at g1
              rw [e] at g1
              rcases c1 with c1 | c1
              · exact c1 g2
              · exact c1 g1
            rw [weaklyActiveLoop_stop Q rest _ _ _ (hng _ rfl)] at h
            cases h
            refine ⟨⟨[SymEvent.active σ (some orig),
                SymEvent.invoke false σ orig S.solver.qhead S.solver.trail.length confl
                  S.inactivePropagationOptimization], rfl, ?_, ?_, ?_⟩, c2, c3, rfl⟩
            · intro w τ l q n c o hm
              simp only [List.mem_cons, List.mem_singleton, List.not_mem_nil, or_false] at hm
              rcases hm with e | e
              · cases e
              · cases e
                exact ⟨hg.1, hg.2, fun e => (by cases e)⟩
            · intro τ l q n c o hm
              simp only [List.mem_cons, List.mem_singleton, List.not_mem_nil, or_false] at hm
              rcases hm with e | e
              · cases e
              · cases e
            · intro hfin
              exact absurd hfin (hng _ rfl)
      · rw [if_neg ha] at h
        obtain ⟨⟨ext, e1, e2, e3, e4⟩, i2, i3, i4⟩ := ih _ _ _ _ h hl
        refine ⟨⟨SymEvent.idle σ :: ext, ?_, ?_, ?_, ?_⟩, i2, i3, i4⟩
        · rw [e1, List.append_assoc]; rfl
        · intro w τ l q n c o hm
          rcases List.mem_cons.mp hm with e | hm
          · cases e
          · exact e2 w τ l q n c o hm
        · intro τ l q n c o hm
          rcases List.mem_cons.mp hm with e | hm
          · cases e
          · exact e3 τ l q n c o hm
        · intro hfin
          obtain ⟨q1, q2⟩ := e4 hfin
          constructor
          · intro τ a hm
            rcases List.mem_cons.mp hm with e | hm
            · cases e
            · exact q1 τ a hm
          · intro τ hτ
            rcases List.mem_cons.mp hτ with e | hτ
            · subst e; exact Or.inr (List.mem_cons_self _ _)
            · rcases q2 τ hτ with x | x
              · exact Or.inl (List.mem_cons_of_mem _ x)
              · exact Or.inr (List.mem_cons_of_mem _ x)
    · rw [weaklyActiveLoop_stop Q _ _ _ _ hg] at h
      cases h
      refine ⟨⟨[], (List.append_nil _).symm, ?_, ?_, ?_⟩, hl, rfl, rfl⟩
      · intro w σ l q n c o hm; cases hm
      · intro σ l q n c o hm; cases hm
      · intro hfin; exact absurd hfin hg

/-- The weakly inactive loop: the events added, and the state. -/
theorem weaklyInactiveLoop_spec {Ω : Type} (Q : SymObjects Ω) :
    ∀ (syms : List Symmetry) (S : SymPropSolver Ω) (confl : Option CRef) (log : List SymEvent)
      (r : Option CRef × SymPropSolver Ω × List SymEvent),
      weaklyInactiveLoop Q syms S confl log = some r → LimOk S.solver →
      (∃ ext, r.2.2 = log ++ ext ∧ InvokeOk ext ∧ NoActive ext ∧
        (ext ≠ [] → S.inactivePropagationOptimization = true ∧ SymGuard S confl)) ∧
      LimOk r.2.1.solver ∧ r.2.1.prop.sym.symmetries = S.prop.sym.symmetries := by
  intro syms
  induction syms with
  | nil =>
    intro S confl log r h hl
    unfold weaklyInactiveLoop at h
    cases h
    refine ⟨⟨[], (List.append_nil _).symm, ?_, ?_, fun e => absurd rfl e⟩, hl, rfl⟩
    · intro w σ l q n c o hm; cases hm
    · intro τ a hm; cases hm
  | cons σ rest ih =>
    intro S confl log r h hl
    by_cases hg : S.inactivePropagationOptimization = true ∧ SymGuard S confl
    · unfold weaklyInactiveLoop at h
      have hg' := hg
      unfold SymGuard at hg'
      rw [if_pos hg'] at h
      by_cases ha : Q.isActive S.objs σ = false ∧ Q.isStab S.objs σ = true ∧
          Q.isStabLevelZero S.objs σ = true
      · rw [if_pos ha] at h
        cases hn : (Q.getNextToPropagate S.objs σ).1 with
        | none =>
          rw [hn] at h
          simp only at h
          obtain ⟨⟨ext, e1, e2, e3, -⟩, i2, i3⟩ := ih _ _ _ _ h hl
          refine ⟨⟨SymEvent.stab σ none :: ext, ?_, ?_, ?_, fun _ => hg⟩, i2, i3⟩
          · rw [e1, List.append_assoc]; rfl
          · intro w τ l q n c o hm
            rcases List.mem_cons.mp hm with e | hm
            · cases e
            · exact e2 w τ l q n c o hm
          · intro τ a hm
            rcases List.mem_cons.mp hm with e | hm
            · cases e
            · exact e3 τ a hm
        | some orig =>
          rw [hn] at h
          simp only at h
          cases hp : propagateSymmetrical
              (Q.getSortedSymmetricalClause (Q.getNextToPropagate S.objs σ).2) S.prop σ orig with
          | none => rw [hp] at h; cases h
          | some r0 =>
            rw [hp] at h
            simp only at h
            obtain ⟨c1, c2, c3⟩ :=
              @propagateSymmetrical_breaks _ _ r0.2 _ _ r0.1 hp hl hg.2.1
            have hng : ∀ S1 : SymPropSolver Ω, S1.prop = r0.2 →
                ¬ (S1.inactivePropagationOptimization = true ∧ SymGuard S1 r0.1) := by
              rintro S1 e ⟨-, g1, g2⟩
              unfold SymPropSolver.solver at g1
              rw [e] at g1
              rcases c1 with c1 | c1
              · exact c1 g2
              · exact c1 g1
            rw [weaklyInactiveLoop_stop Q rest _ _ _ (hng _ rfl)] at h
            cases h
            refine ⟨⟨[SymEvent.stab σ (some orig),
                SymEvent.invoke true σ orig S.solver.qhead S.solver.trail.length confl
                  S.inactivePropagationOptimization], rfl, ?_, ?_, fun _ => hg⟩, c2, c3⟩
            · intro w τ l q n c o hm
              simp only [List.mem_cons, List.mem_singleton, List.not_mem_nil, or_false] at hm
              rcases hm with e | e
              · cases e
              · cases e
                exact ⟨hg.2.1, hg.2.2, fun _ => hg.1⟩
            · intro τ a hm
              simp only [List.mem_cons, List.mem_singleton, List.not_mem_nil, or_false] at hm
              rcases hm with e | e
              · cases e
              · cases e
      · rw [if_neg ha] at h
        obtain ⟨⟨ext, e1, e2, e3, -⟩, i2, i3⟩ := ih _ _ _ _ h hl
        refine ⟨⟨SymEvent.skipped σ :: ext, ?_, ?_, ?_, fun _ => hg⟩, i2, i3⟩
        · rw [e1, List.append_assoc]; rfl
        · intro w τ l q n c o hm
          rcases List.mem_cons.mp hm with e | hm
          · cases e
          · exact e2 w τ l q n c o hm
        · intro τ a hm
          rcases List.mem_cons.mp hm with e | hm
          · cases e
          · exact e3 τ a hm
    · rw [weaklyInactiveLoop_stop Q _ _ _ _ hg] at h
      cases h
      refine ⟨⟨[], (List.append_nil _).symm, ?_, ?_, fun e => absurd rfl e⟩, hl, rfl⟩
      · intro w σ l q n c o hm; cases hm
      · intro τ a hm; cases hm

theorem split_after {α : Type} {a b pre post : List α} {e : α} (h : a ++ b = pre ++ e :: post)
    (he : e ∉ a) : ∃ pre', pre = a ++ pre' ∧ b = pre' ++ e :: post := by
  rcases List.append_eq_append_iff.mp h with ⟨a', h1, h2⟩ | ⟨c', h1, h2⟩
  · exact ⟨a', h1, h2⟩
  · cases c' with
    | nil =>
      simp only [List.append_nil, List.nil_append] at h1 h2
      exact ⟨[], by rw [List.append_nil, h1], h2.symm⟩
    | cons x c'' =>
      simp only [List.cons_append, List.cons.injEq] at h2
      exfalso
      apply he
      rw [h1, h2.1]
      simp

theorem attachClause_grow {s t : Solver} {cr : CRef} (h : attachClause s cr = some t) :
    t.trail = s.trail ∧ t.trail_lim = s.trail_lim ∧ t.qhead = s.qhead := by
  obtain ⟨-, rfl⟩ := attachClause_eq h
  unfold countAttach
  split_ifs <;> exact ⟨rfl, rfl, rfl⟩

theorem learntSymmetryClause_grow {S : SymSolver} {vsbp : Option (List Lit)}
    {r : Option CRef × SymSolver} (h : learntSymmetryClause S vsbp = some r) :
    r.2.symmetries = S.symmetries ∧ TGrow S.solver r.2.solver := by
  unfold learntSymmetryClause at h
  cases vsbp with
  | none =>
    simp only [Option.some.injEq] at h
    subst h
    exact ⟨rfl, TGrow.refl_tg _⟩
  | some sbp =>
    simp only at h
    split_ifs at h
    split at h
    · cases h
    · rename_i s1 ha
      cases h
      refine ⟨rfl, ?_⟩
      obtain ⟨e1, e2, -⟩ := attachClause_grow ha
      exact ⟨e2, Nat.le_of_eq (congrArg List.length e1).symm⟩

/-- The events of one pass of the loop of `propagate`. -/
theorem symmetryPass_spec {Ω : Type} (Q : SymObjects Ω) (S : SymPropSolver Ω) (p : Lit)
    (confl : Option CRef) (b : Option CRef × SymPropSolver Ω × List SymEvent)
    (h : symmetryPass Q S p confl = some b) (hl : LimOk S.solver) :
    PassOk S.prop.sym.symmetries b.2.2 ∧ LimOk b.2.1.solver ∧
    b.2.1.prop.sym.symmetries = S.prop.sym.symmetries := by
  unfold symmetryPass at h
  cases he : learntSymmetryClause S.prop.sym (Q.clauseToInject S.objs S.solver p) with
  | none => rw [he] at h; cases h
  | some e =>
    rw [he] at h
    simp only at h
    obtain ⟨s1, s2⟩ := learntSymmetryClause_grow he
    cases ha : weaklyActiveLoop Q e.2.symmetries.reverse
        { S with prop := { S.prop with sym := e.2 },
                 objs := Q.notified S.objs S.solver e.2.solver } confl [] with
    | none => rw [ha] at h; cases h
    | some a =>
      rw [ha] at h
      simp only at h
      obtain ⟨⟨ext1, a1, a2, a3, a4⟩, a5, a6, a7⟩ :=
        weaklyActiveLoop_spec Q _ _ _ _ _ ha (hl.grow s2)
      obtain ⟨⟨ext2, b1, b2, b3, b4⟩, b5, b6⟩ := weaklyInactiveLoop_spec Q _ _ _ _ _ h a5
      have a6' : a.2.1.prop.sym.symmetries = S.prop.sym.symmetries := a6.trans s1
      rw [List.nil_append] at a1
      rw [a1] at b1
      refine ⟨⟨?_, ?_⟩, b5, b6.trans a6'⟩
      · intro w σ l q n c o hm
        rw [b1, List.mem_append] at hm
        rcases hm with hm | hm
        · exact ⟨(a2 w σ l q n c o hm).1, (a2 w σ l q n c o hm).2.1⟩
        · exact ⟨(b2 w σ l q n c o hm).1, (b2 w σ l q n c o hm).2.1⟩
      · intro pre post σ l q n c o hlog
        rw [b1] at hlog
        obtain ⟨pre', hp1, hp2⟩ := split_after hlog (a3 σ l q n c o)
        have hne : ext2 ≠ [] := by rw [hp2]; simp
        obtain ⟨-, hgd⟩ := b4 hne
        obtain ⟨q1, q2⟩ := a4 hgd
        have hmem2 : SymEvent.invoke true σ l q n c o ∈ ext2 := by rw [hp2]; simp
        refine ⟨(b2 true σ l q n c o hmem2).2.2 rfl, ?_, ?_⟩
        · intro τ x hx
          rw [hp1, List.mem_append] at hx
          rcases hx with hx | hx
          · exact q1 τ x hx
          · exact absurd (by rw [hp2]; exact List.mem_append_left _ hx) (b3 τ x)
        · intro τ hτ
          have hτ' : τ ∈ e.2.symmetries.reverse := by
            rw [List.mem_reverse, s1]; exact hτ
          rw [hp1]
          rcases q2 τ hτ' with x | x
          · exact Or.inl (List.mem_append_left _ x)
          · exact Or.inr (List.mem_append_left _ x)

/-- The loop of `propagate` with the symmetry propagation: every pass is in order. -/
theorem propagateSymLoop_spec {Ω : Type} (Q : SymObjects Ω) (syms : List Symmetry) :
    ∀ (fuel : Nat) (S : SymPropSolver Ω) (confl : Option CRef) (n : Nat)
      (passes : List (List SymEvent))
      (r : Option CRef × Nat × SymPropSolver Ω × List (List SymEvent)),
      propagateSymLoop Q fuel S confl n passes = some r → LimOk S.solver →
      S.prop.sym.symmetries = syms → (∀ log ∈ passes, PassOk syms log) →
      ∀ log ∈ r.2.2.2, PassOk syms log := by
  intro fuel
  induction fuel with
  | zero =>
    intro S confl n passes r h hl hs hp
    unfold propagateSymLoop at h
    by_cases hq : S.solver.qhead < S.solver.trail.length
    · rw [if_pos hq] at h; cases h
    · rw [if_neg hq] at h; cases h; exact hp
  | succ fuel ih =>
    intro S confl n passes r h hl hs hp
    unfold propagateSymLoop at h
    by_cases hq : S.solver.qhead < S.solver.trail.length
    · rw [if_pos hq] at h
      simp only at h
      cases hr : propagateLit (S.solver.trail.getD S.solver.qhead 0)
          (setQhead S.solver (S.solver.qhead + 1)) with
      | none => rw [hr] at h; cases h
      | some r0 =>
        rw [hr] at h
        simp only at h
        have hg0 := propagateLit_grow hr
        have hl0 : LimOk r0.2 := hl.grow hg0
        cases hb : symmetryPass Q
            { S.withSolver r0.2 with objs := Q.notified S.objs S.solver r0.2 }
            (S.solver.trail.getD S.solver.qhead 0)
            (if r0.1 ≠ none then r0.1 else confl) with
        | none => rw [hb] at h; cases h
        | some b =>
          rw [hb] at h
          simp only at h
          obtain ⟨c1, c2, c3⟩ := symmetryPass_spec Q _ _ _ _ hb hl0
          have c1' : PassOk syms b.2.2 := by rw [← hs]; exact c1
          refine ih _ _ _ _ r h ?_ ?_ ?_
          · split_ifs
            · exact c2.grow ⟨rfl, Nat.le_refl _⟩
            · exact c2
          · split_ifs
            · exact c3.trans hs
            · exact c3.trans hs
          · intro log hlog
            rcases List.mem_append.mp hlog with x | x
            · exact hp log x
            · rw [List.mem_singleton] at x
              rw [x]; exact c1'
    · rw [if_neg hq] at h; cases h; exact hp

/-- C33: in a run of `propagate` that returns, from a state whose decision-level marks are
increasing and inside the trail, whatever the symmetry objects answer: in every pass of the
loop, each call of `propagateSymmetrical` is made with `qhead = trail.size()` and
`confl = CRef_Undef`; and a call made by the weakly inactive loop is made with
`inactivePropagationOptimization` set, after the weakly active loop of the same pass visited
every symmetry, each of which was not active or answered `lit_Undef` to
`getNextToPropagate`. -/
theorem propagate_symmetry_order {Ω : Type} (Q : SymObjects Ω) (fuel : Nat)
    (S : SymPropSolver Ω) (r : Option CRef × SymPropSolver Ω × List (List SymEvent))
    (hl : LimOk S.solver) (h : propagateSym Q fuel S = some r) :
    ∀ log ∈ r.2.2, PassOk S.prop.sym.symmetries log := by
  unfold propagateSym at h
  cases hr : propagateSymLoop Q fuel S none 0 [] with
  | none => rw [hr] at h; cases h
  | some r1 =>
    rw [hr] at h
    cases h
    exact propagateSymLoop_spec Q _ fuel S none 0 [] r1 hr hl rfl
      (fun log hlog => (by cases hlog))

end Minisat


namespace Minisat
open lbool

/-! ## Released variables -/

theorem AGrow.refl_ag (s : Solver) : AGrow s s := fun _ _ => rfl

theorem AGrow.trans_ag {s t u : Solver} (h1 : AGrow s t) (h2 : AGrow t u) : AGrow s u := by
  intro v hv
  have e1 := h1 v hv
  have e2 := h2 v (by rw [e1]; exact hv)
  rw [e2, e1]

theorem AGrow.of_eq_ag {s t : Solver} (h : t.assigns = s.assigns) : AGrow s t :=
  fun v _ => by rw [h]

theorem AGrow.ne_undef {s t : Solver} (h : AGrow s t) {v : Var} (hv : s.assigns v ≠ l_Undef) :
    t.assigns v ≠ l_Undef := by
  rw [h v hv]; exact hv

theorem uncheckedEnqueue_agrow {s t : Solver} {p : Lit} {r : Option CRef}
    (h : uncheckedEnqueue s p r = some t) : AGrow s t := by
  obtain ⟨hv, -, ha, -, -⟩ := uncheckedEnqueue_spec h
  intro v hvn
  rw [ha]
  have hne : v ≠ var p := by
    rintro rfl
    exact hvn (value_undef_iff.mp hv)
  exact Function.update_noteq hne _ _

theorem tagSymmetryUnit_assigns (b : Bool) (s : Solver) (v : Var) :
    (tagSymmetryUnit b s v).assigns = s.assigns := by
  unfold tagSymmetryUnit
  split_ifs
  · rfl
  · rfl

theorem watchStep_keep_agrow {p : Lit} {b : Bool} {w w1 : Watcher} {s s1 : Solver}
    (h : watchStep p b w s = WStep.keep w1 s1) : AGrow s s1 := by
  rcases watchStep_keep h with ⟨_, _, rfl⟩ | ⟨_, _, _, ⟨_, rfl⟩ | ⟨_, he⟩⟩
  · exact AGrow.refl_ag _
  · exact AGrow.of_eq_ag rfl
  · refine AGrow.trans_ag ?_ (uncheckedEnqueue_agrow he)
    exact AGrow.of_eq_ag (tagSymmetryUnit_assigns b _ _)

theorem watchStep_move_agrow {p : Lit} {b : Bool} {w : Watcher} {s s1 : Solver}
    (h : watchStep p b w s = WStep.move s1) : AGrow s s1 := by
  obtain ⟨k, _, _, _, _, _, rfl⟩ := watchStep_move h
  exact AGrow.of_eq_ag rfl

theorem watchStep_conflict_agrow {p : Lit} {b : Bool} {w w1 : Watcher} {s s1 : Solver}
    (h : watchStep p b w s = WStep.conflict w1 s1) : AGrow s s1 := by
  obtain ⟨_, _, _, _, _, rfl⟩ := watchStep_conflict h
  exact AGrow.of_eq_ag rfl

theorem propagateWatchers_agrow (p : Lit) (b : Bool) :
    ∀ (ws : List Watcher) (s : Solver) (r : Option CRef × List Watcher × Solver),
      propagateWatchers p b ws s = some r → AGrow s r.2.2 := by
  intro ws
  induction ws with
  | nil => intro s r h; simp [propagateWatchers] at h; subst h; exact AGrow.refl_ag _
  | cons w rest ih =>
    intro s r h
    rw [propagateWatchers] at h
    split at h
    · cases h
    · rename_i w1 s1 hw
      simp only [Option.map_eq_some'] at h
      obtain ⟨a, ha, rfl⟩ := h
      exact (watchStep_keep_agrow hw).trans_ag (ih _ a ha)
    · rename_i s1 hw
      exact (watchStep_move_agrow hw).trans_ag (ih _ _ h)
    · rename_i w1 s1 hw
      cases h
      exact watchStep_conflict_agrow hw

theorem propagateLit_agrow {p : Lit} {s : Solver} {r : Option CRef × Solver}
    (h : propagateLit p s = some r) : AGrow s r.2 := by
  unfold propagateLit at h
  split at h
  · cases h
  · rename_i r1 h1
    cases h
    obtain ⟨-, -, f3, -, -, -⟩ := lookup_fields s p
    exact (AGrow.of_eq_ag f3).trans_ag (propagateWatchers_agrow _ _ _ _ _ h1)

theorem propagateLoop_agrow :
    ∀ (fuel : Nat) (s : Solver) (confl : Option CRef) (n : Nat)
      (r : Option CRef × Nat × Solver),
      propagateLoop fuel s confl n = some r → AGrow s r.2.2 := by
  intro fuel
  induction fuel with
  | zero =>
    intro s confl n r h
    by_cases hq : s.qhead < s.trail.length
    · rw [propagateLoop_zero hq] at h; cases h
    · rw [propagateLoop_done hq] at h; cases h; exact AGrow.refl_ag _
  | succ fuel ih =>
    intro s confl n r h
    by_cases hq : s.qhead < s.trail.length
    · rw [propagateLoop_step hq] at h
      split at h
      · cases h
      · rename_i cr s1 h1
        have g1 : AGrow s s1 := (AGrow.of_eq_ag rfl).trans_ag (propagateLit_agrow h1)
        refine AGrow.trans_ag ?_ (ih _ _ _ _ h)
        exact g1.trans_ag (AGrow.of_eq_ag rfl)
      · rename_i s1 h1
        have g1 : AGrow s s1 := (AGrow.of_eq_ag rfl).trans_ag (propagateLit_agrow h1)
        refine (g1.trans_ag ?_).trans_ag (ih _ _ _ _ h)
        split_ifs
        · exact AGrow.of_eq_ag rfl
        · exact AGrow.refl_ag _
    · rw [propagateLoop_done hq] at h; cases h; exact AGrow.refl_ag _

/-- The call of `propagate` leaves the assigned variables assigned as they are. -/
theorem propagate_agrow {fuel : Nat} {s : Solver} {r : Option CRef × Solver}
    (h : propagate fuel s = some r) : AGrow s r.2 := by
  unfold propagate at h
  split at h
  · cases h
  · rename_i r1 h1
    cases h
    exact (propagateLoop_agrow _ _ _ _ _ h1).trans_ag (AGrow.of_eq_ag rfl)

/-- The members of `relKey` after `propagate`, the member `ok` included. -/
theorem propagate_relKey {fuel : Nat} {s : Solver} {r : Option CRef × Solver}
    (h : propagate fuel s = some r) : relKey r.2 = relKey s := by
  have hk := propKey_propagate h
  obtain ⟨-, g2, g3, -, -, -, g7, -⟩ := propKey_fields hk
  unfold relKey
  rw [g2, g3, g7, propKey_trail_lim hk, propKey_ok hk]

theorem attachClause_relKey {s t : Solver} {cr : CRef} (h : attachClause s cr = some t) :
    t.released_vars = s.released_vars ∧ t.free_vars = s.free_vars ∧ t.ok = s.ok := by
  obtain ⟨-, rfl⟩ := attachClause_eq h
  unfold countAttach
  split_ifs <;> exact ⟨rfl, rfl, rfl⟩

/-- What `addClause_` does to the members read by the bookkeeping of the released
variables. -/
theorem addClause_rel {fuel : Nat} {s s' : Solver} {c : List Lit} {b : Bool}
    (h : addClause_ fuel s c = some (b, s')) :
    s'.released_vars = s.released_vars ∧ s'.free_vars = s.free_vars ∧
    s'.next_var = s.next_var ∧ s'.trail_lim = s.trail_lim ∧ AGrow s s' ∧
    (s'.ok = true → s.ok = true) ∧ (s.ok = false → s' = s) := by
  unfold addClause_ at h
  by_cases hd : decisionLevel s ≠ 0
  · rw [if_pos hd] at h; cases h
  rw [if_neg hd] at h
  by_cases hok : s.ok = false
  · rw [if_pos hok] at h
    cases h
    exact ⟨rfl, rfl, rfl, rfl, AGrow.refl_ag _, fun e => e, fun _ => rfl⟩
  rw [if_neg hok] at h
  have hoks : s.ok = true := by simpa using hok
  have hno : s.ok = false → s' = s := fun e => absurd e hok
  cases hL : addClauseLoop s (sortLits c) none with
  | none =>
    rw [hL] at h
    cases h
    exact ⟨rfl, rfl, rfl, rfl, AGrow.refl_ag _, fun e => e, fun _ => rfl⟩
  | some L =>
    rw [hL] at h
    match L, h with
    | [], h =>
      cases h
      exact ⟨rfl, rfl, rfl, rfl, AGrow.of_eq_ag rfl, fun _ => hoks, hno⟩
    | [l], h =>
      dsimp only at h
      cases he : uncheckedEnqueue s l none with
      | none => rw [he] at h; cases h
      | some s1 =>
        rw [he] at h
        dsimp only at h
        cases hp : propagate fuel s1 with
        | none => rw [hp] at h; cases h
        | some r =>
          rw [hp] at h
          cases h
          have hk := propagate_relKey hp
          have e1 := (uncheckedEnqueue_eq he).2
          have hk1 : relKey s1 = relKey s := by rw [e1]; rfl
          have hk2 := hk.trans hk1
          unfold relKey at hk2
          simp only [Prod.mk.injEq] at hk2
          obtain ⟨k1, k2, k3, k4, -⟩ := hk2
          exact ⟨k1, k2, k3, k4,
            ((uncheckedEnqueue_agrow he).trans_ag (propagate_agrow hp)).trans_ag
              (AGrow.of_eq_ag rfl), fun _ => hoks, hno⟩
    | a :: c2 :: rest, h =>
      dsimp only at h
      cases ht : attachClause
          (pushClause (setCa s (s.ca.alloc (a :: c2 :: rest) false false false none).2)
            (s.ca.alloc (a :: c2 :: rest) false false false none).1)
          (s.ca.alloc (a :: c2 :: rest) false false false none).1 with
      | none => rw [ht] at h; cases h
      | some t =>
        rw [ht] at h
        cases h
        obtain ⟨k1, k2, -⟩ := attachClause_relKey ht
        obtain ⟨-, -, -, f4, -, f6, f7, -, -⟩ := attachClause_fields ht
        exact ⟨k1, k2, f6, f7, AGrow.of_eq_ag f4, fun _ => hoks, hno⟩

/-- A unit clause on an unassigned literal, with `ok` set: the literal is true afterwards. -/
theorem addClause_lit_assigned {fuel : Nat} {s s' : Solver} {l : Lit} {b : Bool}
    (hok : s.ok = true) (hv : value s l = l_Undef)
    (h : addClause_ fuel s [l] = some (b, s')) : value s' l = l_True := by
  unfold addClause_ at h
  by_cases hd : decisionLevel s ≠ 0
  · rw [if_pos hd] at h; cases h
  rw [if_neg hd, if_neg (by rw [hok]; simp)] at h
  have hL : addClauseLoop s (sortLits [l]) none = some [l] := by
    have e : sortLits [l] = [l] := rfl
    rw [e]
    simp [addClauseLoop, hv]
  rw [hL] at h
  dsimp only at h
  cases he : uncheckedEnqueue s l none with
  | none => rw [he] at h; cases h
  | some s1 =>
    rw [he] at h
    dsimp only at h
    cases hp : propagate fuel s1 with
    | none => rw [hp] at h; cases h
    | some r =>
      rw [hp] at h
      cases h
      obtain ⟨-, -, has, -, -⟩ := uncheckedEnqueue_spec he
      have h1 : value s1 l = l_True := value_of_assigns_update_self s1 _ l has
      have hne : s1.assigns (var l) ≠ l_Undef := by
        intro e
        rw [value_undef_iff.mpr e] at h1
        cases h1
      have := propagate_agrow hp (var l) hne
      have e2 : value (setOk r.2 (decide (r.1 = none))) l = value s1 l :=
        value_of_assigns_eq this
      rw [e2]; exact h1

/-! ### The members of `relKey` in `simplify` -/

theorem RSame.rfl_same (s : Solver) : RSame s s := ⟨rfl, rfl⟩

theorem RSame.trans_same {s t u : Solver} (h1 : RSame s t) (h2 : RSame t u) : RSame s u :=
  ⟨h2.1.trans h1.1, h2.2.trans h1.2⟩

theorem relKey_fields {s t : Solver} (h : relKey t = relKey s) :
    t.released_vars = s.released_vars ∧ t.free_vars = s.free_vars ∧
    t.next_var = s.next_var ∧ t.trail_lim = s.trail_lim ∧ t.ok = s.ok := by
  simp only [relKey, Prod.mk.injEq] at h
  exact h

theorem relKey_of_fields {s t : Solver} (h1 : t.released_vars = s.released_vars)
    (h2 : t.free_vars = s.free_vars) (h3 : t.next_var = s.next_var)
    (h4 : t.trail_lim = s.trail_lim) (h5 : t.ok = s.ok) : relKey t = relKey s := by
  unfold relKey
  rw [h1, h2, h3, h4, h5]

theorem lookup_same (s : Solver) (p : Lit) : RSame s (lookup s p) := by
  unfold lookup
  split_ifs
  · exact ⟨rfl, rfl⟩
  · exact ⟨rfl, rfl⟩

theorem cleanFold_same : ∀ (ds : List Lit) (s : Solver),
    RSame s (ds.foldl (fun t l => lookup t l) s)
  | [], s => RSame.rfl_same s
  | d :: ds, s => (lookup_same s d).trans_same (cleanFold_same ds (lookup s d))

theorem cleanAll_same (s : Solver) : RSame s (cleanAll s) :=
  (cleanFold_same s.dirties s).trans_same ⟨rfl, rfl⟩

theorem reloc_same (s : Solver) (tgt : ClauseAllocator) (cr : CRef) :
    RSame s (reloc s tgt cr).2.1 := by
  unfold reloc
  split_ifs
  · exact ⟨rfl, rfl⟩
  · exact ⟨rfl, rfl⟩

theorem relocWatchers_same : ∀ (ws : List Watcher) (s : Solver) (tgt : ClauseAllocator),
    RSame s (relocWatchers s tgt ws).2.1
  | [], s, _ => RSame.rfl_same s
  | w :: ws, s, tgt =>
    (reloc_same s tgt w.cref).trans_same
      (relocWatchers_same ws (reloc s tgt w.cref).2.1 (reloc s tgt w.cref).2.2)

theorem relocAllWatches_same : ∀ (ps : List Lit) (s : Solver) (tgt : ClauseAllocator),
    RSame s (relocAllWatches s tgt ps).1
  | [], s, _ => RSame.rfl_same s
  | p :: ps, s, tgt =>
    ((relocWatchers_same (s.watches p) s tgt).trans_same
      (⟨rfl, rfl⟩ : RSame (relocWatchers s tgt (s.watches p)).2.1
        (setWatches (relocWatchers s tgt (s.watches p)).2.1 p
          (relocWatchers s tgt (s.watches p)).1))).trans_same
      (relocAllWatches_same ps _ _)

theorem relocReasons_same : ∀ (ls : List Lit) (s : Solver) (tgt : ClauseAllocator)
    (r : Solver × ClauseAllocator), relocReasons s tgt ls = some r → RSame s r.1 := by
  intro ls
  induction ls with
  | nil => intro s tgt r h; cases h; exact RSame.rfl_same s
  | cons l ls ih =>
    intro s tgt r h
    rw [relocReasons] at h
    split at h
    · exact ih _ _ _ h
    · rename_i cr hcr
      split_ifs at h
      · refine RSame.trans_same ?_ (ih _ _ _ h)
        exact (reloc_same s tgt cr).trans_same ⟨rfl, rfl⟩
      · exact ih _ _ _ h

theorem relocList_same : ∀ (crs : List CRef) (s : Solver) (tgt : ClauseAllocator),
    RSame s (relocList s tgt crs).2.1 := by
  intro crs
  induction crs with
  | nil => intro s tgt; exact RSame.rfl_same s
  | cons cr crs ih =>
    intro s tgt
    rw [relocList]
    split_ifs
    · exact ih s tgt
    · exact (reloc_same s tgt cr).trans_same (ih _ _)

theorem relocAll_same {s : Solver} {tgt : ClauseAllocator} {r : Solver × ClauseAllocator}
    (h : relocAll s tgt = some r) : RSame s r.1 := by
  unfold relocAll at h
  dsimp only at h
  split at h
  · cases h
  · rename_i r2 h2
    cases h
    have g1 := (cleanAll_same s).trans_same
      (relocAllWatches_same (allLits (nVars s)) (cleanAll s) tgt)
    have g2 := g1.trans_same (relocReasons_same _ _ _ _ h2)
    have g3 := g2.trans_same (relocList_same r2.1.learnts r2.1 r2.2)
    have g4 : RSame (relocList r2.1 r2.2 r2.1.learnts).2.1
        (setLearnts (relocList r2.1 r2.2 r2.1.learnts).2.1
          (relocList r2.1 r2.2 r2.1.learnts).1) := ⟨rfl, rfl⟩
    have g5 := (g3.trans_same g4).trans_same (relocList_same
      (relocList r2.1 r2.2 r2.1.learnts).2.1.clauses
      (setLearnts (relocList r2.1 r2.2 r2.1.learnts).2.1 (relocList r2.1 r2.2 r2.1.learnts).1)
      (relocList r2.1 r2.2 r2.1.learnts).2.2)
    exact g5.trans_same ⟨rfl, rfl⟩

theorem checkGarbage_same {s t : Solver} (h : checkGarbage s = some t) : RSame s t := by
  unfold checkGarbage at h
  split_ifs at h
  · unfold garbageCollect at h
    simp only [Option.map_eq_some'] at h
    obtain ⟨r, hr, rfl⟩ := h
    exact (relocAll_same hr).trans_same ⟨rfl, rfl⟩
  · cases h
    exact RSame.rfl_same s

theorem removeClause_same {s t : Solver} {cr : CRef} (h : removeClause s cr = some t) :
    RSame s t := by
  have hs := removeClause_spec h
  exact ⟨relKey_of_fields hs.released_vars hs.free_vars hs.next_var hs.trail_lim hs.ok,
    hs.assigns⟩

theorem removeSatisfiedLoop_same : ∀ (crs : List CRef) (s : Solver) (r : List CRef × Solver),
    removeSatisfiedLoop s crs = some r → RSame s r.2 := by
  intro crs
  induction crs with
  | nil => intro s r h; cases h; exact RSame.rfl_same s
  | cons cr crs ih =>
    intro s r h
    rw [removeSatisfiedLoop] at h
    split_ifs at h
    · split at h
      · cases h
      · rename_i s1 h1
        exact (removeClause_same h1).trans_same (ih _ _ h)
    · simp only [Option.map_eq_some'] at h
      obtain ⟨a, ha, rfl⟩ := h
      refine RSame.trans_same ?_ (ih _ a ha)
      exact ⟨rfl, rfl⟩

theorem dropReleased_rel {s t : Solver} (h : dropReleased s = some t) :
    t.released_vars = [] ∧ t.free_vars = s.free_vars ++ s.released_vars ∧
    t.next_var = s.next_var ∧ t.trail_lim = s.trail_lim ∧ t.ok = s.ok ∧
    t.assigns = s.assigns := by
  unfold dropReleased at h
  split_ifs at h
  cases h
  exact ⟨rfl, rfl, rfl, rfl, rfl, rfl⟩

theorem simplifyDB_rel {s t : Solver} (h : simplifyDB s = some t) :
    t.next_var = s.next_var ∧ t.trail_lim = s.trail_lim ∧ t.ok = s.ok ∧
    t.assigns = s.assigns ∧
    ((t.released_vars = s.released_vars ∧ t.free_vars = s.free_vars) ∨
      (t.released_vars = [] ∧ t.free_vars = s.free_vars ++ s.released_vars)) := by
  unfold simplifyDB at h
  cases h1 : removeSatisfiedLearnts s with
  | none => rw [h1] at h; cases h
  | some s2 =>
    rw [h1] at h
    dsimp only at h
    unfold removeSatisfiedLearnts at h1
    simp only [Option.map_eq_some'] at h1
    obtain ⟨r1, hr1, rfl⟩ := h1
    have g1 : RSame s (setLearnts r1.2 r1.1) :=
      (removeSatisfiedLoop_same _ _ _ hr1).trans_same ⟨rfl, rfl⟩
    by_cases hrs : (setLearnts r1.2 r1.1).remove_satisfied = true
    · rw [if_pos hrs] at h
      cases h2 : removeSatisfiedClauses (setLearnts r1.2 r1.1) with
      | none => rw [h2] at h; cases h
      | some s3 =>
        rw [h2] at h
        dsimp only at h
        unfold removeSatisfiedClauses at h2
        simp only [Option.map_eq_some'] at h2
        obtain ⟨r2, hr2, rfl⟩ := h2
        have g2 : RSame s (setClauses r2.2 r2.1) :=
          (g1.trans_same (removeSatisfiedLoop_same _ _ _ hr2)).trans_same ⟨rfl, rfl⟩
        obtain ⟨k1, k2, k3, k4, k5⟩ := relKey_fields g2.1
        obtain ⟨d1, d2, d3, d4, d5, d6⟩ := dropReleased_rel h
        exact ⟨d3.trans k3, d4.trans k4, d5.trans k5, d6.trans g2.2,
          Or.inr ⟨d1, by rw [d2, k1, k2]⟩⟩
    · rw [if_neg hrs] at h
      cases h
      obtain ⟨k1, k2, k3, k4, k5⟩ := relKey_fields g1.1
      exact ⟨k3, k4, k5, g1.2, Or.inl ⟨k1, k2⟩⟩

/-- What `simplify` does to the members read by the bookkeeping of the released variables:
the two lists are kept, or (with `ok` set) the released variables are moved to the freed
ones. -/
theorem simplify_rel {fuel : Nat} {s s' : Solver} {b : Bool}
    (h : simplify fuel s = some (b, s')) :
    s'.next_var = s.next_var ∧ s'.trail_lim = s.trail_lim ∧ AGrow s s' ∧
    (s'.ok = true → s.ok = true) ∧
    ((s'.released_vars = s.released_vars ∧ s'.free_vars = s.free_vars) ∨
      (s.ok = true ∧ s'.released_vars = [] ∧
        s'.free_vars = s.free_vars ++ s.released_vars)) := by
  unfold simplify at h
  by_cases hd : decisionLevel s ≠ 0
  · rw [if_pos hd] at h; cases h
  rw [if_neg hd] at h
  by_cases hok : s.ok = false
  · rw [if_pos hok] at h
    cases h
    exact ⟨rfl, rfl, AGrow.of_eq_ag rfl, fun e => (by cases e), Or.inl ⟨rfl, rfl⟩⟩
  rw [if_neg hok] at h
  have hoks : s.ok = true := by simpa using hok
  cases hp : propagate fuel s with
  | none => rw [hp] at h; cases h
  | some r =>
    rw [hp] at h
    obtain ⟨k1, k2, k3, k4, k5⟩ := relKey_fields (propagate_relKey hp)
    have ga := propagate_agrow hp
    obtain ⟨c, s1⟩ := r
    cases c with
    | some cr =>
      dsimp only at h
      cases h
      exact ⟨k3, k4, ga.trans_ag (AGrow.of_eq_ag rfl), fun _ => hoks, Or.inl ⟨k1, k2⟩⟩
    | none =>
      dsimp only at h
      split_ifs at h
      · cases h
        exact ⟨k3, k4, ga, fun _ => hoks, Or.inl ⟨k1, k2⟩⟩
      · cases h4 : simplifyDB s1 with
        | none => rw [h4] at h; cases h
        | some s4 =>
          rw [h4] at h
          dsimp only at h
          cases h5 : checkGarbage s4 with
          | none => rw [h5] at h; cases h
          | some s5 =>
            rw [h5] at h
            cases h
            obtain ⟨d1, d2, d3, d4, d5⟩ := simplifyDB_rel h4
            have g5 := checkGarbage_same h5
            obtain ⟨e1, e2, e3, e4, e5⟩ := relKey_fields g5.1
            have hag : AGrow s (setSimpDB (rebuildOrderHeap s5)) := by
              refine ga.trans_ag (AGrow.of_eq_ag ?_)
              show s5.assigns = s1.assigns
              rw [g5.2, d4]
            refine ⟨?_, ?_, hag, fun _ => hoks, ?_⟩
            · show s5.next_var = s.next_var
              rw [e3, d1, k3]
            · show s5.trail_lim = s.trail_lim
              rw [e4, d2, k4]
            · rcases d5 with ⟨a1, a2⟩ | ⟨a1, a2⟩
              · refine Or.inl ⟨?_, ?_⟩
                · show s5.released_vars = s.released_vars
                  rw [e1, a1, k1]
                · show s5.free_vars = s.free_vars
                  rw [e2, a2, k2]
              · refine Or.inr ⟨hoks, ?_, ?_⟩
                · show s5.released_vars = []
                  rw [e1, a1]
                · show s5.free_vars = s.free_vars ++ s.released_vars
                  rw [e2, a2, k1, k2]

/-! ### The bookkeeping of the released variables -/

theorem takeVar_cases (s : Solver) :
    (s.free_vars = [] ∧ (takeVar s).1 = s.next_var ∧ (takeVar s).2.free_vars = [] ∧
      (takeVar s).2.next_var = s.next_var + 1) ∨
    (s.free_vars = (takeVar s).2.free_vars ++ [(takeVar s).1] ∧
      (takeVar s).2.next_var = s.next_var) := by
  unfold takeVar
  cases hg : s.free_vars.getLast? with
  | none =>
    have he : s.free_vars = [] := List.getLast?_eq_none_iff.mp hg
    exact Or.inl ⟨he, rfl, he, rfl⟩
  | some w =>
    refine Or.inr ⟨?_, rfl⟩
    show s.free_vars = s.free_vars.dropLast ++ [w]
    have hne : s.free_vars ≠ [] := by
      intro e; rw [e] at hg; cases hg
    have hl : s.free_vars.getLast hne = w := by
      rw [List.getLast?_eq_getLast _ hne] at hg
      exact Option.some.inj hg
    rw [← hl]
    exact (List.dropLast_append_getLast hne).symm

theorem takeVar_rest (s : Solver) :
    (takeVar s).2.assigns = s.assigns ∧ (takeVar s).2.released_vars = s.released_vars ∧
    (takeVar s).2.trail_lim = s.trail_lim ∧ (takeVar s).2.ok = s.ok := by
  unfold takeVar
  split <;> exact ⟨rfl, rfl, rfl, rfl⟩

theorem newVar_rel (s : Solver) (upol : lbool) (dvar : Bool) :
    (newVar s upol dvar).2.assigns = Function.update s.assigns (takeVar s).1 l_Undef ∧
    (newVar s upol dvar).2.released_vars = s.released_vars ∧
    (newVar s upol dvar).2.trail_lim = s.trail_lim ∧
    (newVar s upol dvar).2.ok = s.ok ∧
    (newVar s upol dvar).2.free_vars = (takeVar s).2.free_vars ∧
    (newVar s upol dvar).2.next_var = (takeVar s).2.next_var := by
  obtain ⟨t1, t2, t3, t4⟩ := takeVar_rest s
  unfold newVar setDecisionVar insertVarOrder
  dsimp only
  split_ifs
  · refine ⟨?_, t2, t3, t4, rfl, rfl⟩
    show Function.update (takeVar s).2.assigns _ _ = _
    rw [t1]
  · refine ⟨?_, t2, t3, t4, rfl, rfl⟩
    show Function.update (takeVar s).2.assigns _ _ = _
    rw [t1]

theorem RelInv.init_rel : RelInv Solver.init :=
  ⟨fun _ => List.nodup_nil, fun _ v hv => (List.not_mem_nil v hv).elim,
    fun v hv => (List.not_mem_nil v hv).elim, fun v hv => (List.not_mem_nil v hv).elim,
    List.nodup_nil, fun v hv => (List.not_mem_nil v hv).elim,
    fun v hv => (List.not_mem_nil v hv).elim, rfl⟩

theorem RelInv.new_var_rel {s : Solver} (h : RelInv s) (upol : lbool) (dvar : Bool) :
    RelInv (newVar s upol dvar).2 := by
  obtain ⟨n1, n2, n3, n4, n5, n6⟩ := newVar_rel s upol dvar
  have hw : ∀ v ∈ s.released_vars, v ≠ (takeVar s).1 := by
    intro v hv e
    rcases takeVar_cases s with ⟨-, c2, -, -⟩ | ⟨c1, -⟩
    · have := h.rel_lt v hv
      rw [e, c2] at this
      exact Nat.lt_irrefl _ this
    · refine h.disj v hv ?_
      rw [c1, e]
      exact List.mem_append_right _ (List.mem_singleton_self _)
  refine ⟨?_, ?_, ?_, ?_, ?_, ?_, ?_, ?_⟩
  · intro hok
    rw [n2]
    exact h.nodup (n4 ▸ hok)
  · intro hok v hv
    rw [n2] at hv
    rw [n1, Function.update_noteq (hw v hv)]
    exact h.assigned (n4 ▸ hok) v hv
  · intro v hv
    rw [n2] at hv
    rw [n6]
    rcases takeVar_cases s with ⟨-, -, -, c4⟩ | ⟨-, c2⟩
    · rw [c4]; exact Nat.lt_succ_of_lt (h.rel_lt v hv)
    · rw [c2]; exact h.rel_lt v hv
  · intro v hv
    rw [n5] at hv
    rcases takeVar_cases s with ⟨-, -, c3, -⟩ | ⟨c1, -⟩
    · rw [c3] at hv; cases hv
    · have hnd := h.free_nodup
      rw [c1] at hnd
      have hne : v ≠ (takeVar s).1 := by
        intro e
        have hd := (List.nodup_append.mp hnd).2.2
        exact hd hv (by rw [e]; exact List.mem_singleton_self _)
      rw [n1, Function.update_noteq hne]
      exact h.free_assigned v (by rw [c1]; exact List.mem_append_left _ hv)
  · rw [n5]
    rcases takeVar_cases s with ⟨-, -, c3, -⟩ | ⟨c1, -⟩
    · rw [c3]; exact List.nodup_nil
    · have hnd := h.free_nodup
      rw [c1] at hnd
      exact (List.nodup_append.mp hnd).1
  · intro v hv
    rw [n5] at hv
    rw [n6]
    rcases takeVar_cases s with ⟨-, -, c3, -⟩ | ⟨c1, c2⟩
    · rw [c3] at hv; cases hv
    · rw [c2]; exact h.free_lt v (by rw [c1]; exact List.mem_append_left _ hv)
  · intro v hv hf
    rw [n2] at hv
    rw [n5] at hf
    rcases takeVar_cases s with ⟨-, -, c3, -⟩ | ⟨c1, -⟩
    · rw [c3] at hf; cases hf
    · exact h.disj v hv (by rw [c1]; exact List.mem_append_left _ hf)
  · rw [n3]; exact h.level0

theorem RelInv.clause_rel {fuel : Nat} {s s' : Solver} {c : List Lit} {b : Bool}
    (h : RelInv s) (hc : addClause_ fuel s c = some (b, s')) : RelInv s' := by
  obtain ⟨a1, a2, a3, a4, a5, a6, -⟩ := addClause_rel hc
  refine ⟨?_, ?_, ?_, ?_, ?_, ?_, ?_, ?_⟩
  · intro hok; rw [a1]; exact h.nodup (a6 hok)
  · intro hok v hv
    rw [a1] at hv
    exact a5.ne_undef (h.assigned (a6 hok) v hv)
  · intro v hv
    rw [a1] at hv
    rw [a3]; exact h.rel_lt v hv
  · intro v hv
    rw [a2] at hv
    exact a5.ne_undef (h.free_assigned v hv)
  · rw [a2]; exact h.free_nodup
  · intro v hv
    rw [a2] at hv
    rw [a3]; exact h.free_lt v hv
  · intro v hv
    rw [a1] at hv
    rw [a2]; exact h.disj v hv
  · rw [a4]; exact h.level0

/-- The result of `releaseVar` on an unassigned literal. -/
theorem releaseVar_undef {fuel : Nat} {s s' : Solver} {l : Lit} (hv : value s l = l_Undef)
    (hr : releaseVar fuel s l = some s') :
    ∃ b s1, addClause_ fuel s [l] = some (b, s1) ∧ s' = pushReleased s1 (var l) := by
  unfold releaseVar addClauseLit at hr
  rw [if_pos hv] at hr
  simp only [Option.map_eq_some'] at hr
  obtain ⟨r, h1, rfl⟩ := hr
  exact ⟨r.1, r.2, h1, rfl⟩

theorem RelInv.release_rel {fuel : Nat} {s s' : Solver} {l : Lit}
    (h : RelInv s) (hl : var l < nVars s) (hr : releaseVar fuel s l = some s') :
    RelInv s' := by
  by_cases hv : value s l = l_Undef
  · obtain ⟨b, s1, hc, rfl⟩ := releaseVar_undef hv hr
    have h1 := h.clause_rel hc
    obtain ⟨a1, a2, a3, a4, a5, a6, -⟩ := addClause_rel hc
    have hun : s.assigns (var l) = l_Undef := value_undef_iff.mp hv
    refine ⟨?_, ?_, ?_, h1.free_assigned, h1.free_nodup, h1.free_lt, ?_, h1.level0⟩
    · intro hok
      have hok1 : s1.ok = true := hok
      show (s1.released_vars ++ [var l]).Nodup
      refine List.Nodup.append (h1.nodup hok1) (List.nodup_singleton _) ?_
      intro v hv1 hv2
      rw [List.mem_singleton] at hv2
      rw [a1] at hv1
      rw [hv2] at hv1
      exact h.assigned (a6 hok1) _ hv1 hun
    · intro hok v hvm
      have hok1 : s1.ok = true := hok
      have hvm1 : v ∈ s1.released_vars ++ [var l] := hvm
      show s1.assigns v ≠ l_Undef
      rcases List.mem_append.mp hvm1 with e | e
      · exact h1.assigned hok1 v e
      · rw [List.mem_singleton] at e
        rw [e]
        intro hu
        have ht := addClause_lit_assigned (a6 hok1) hv hc
        rw [value_undef_iff.mpr hu] at ht
        cases ht
    · intro v hvm
      have hvm1 : v ∈ s1.released_vars ++ [var l] := hvm
      show v < s1.next_var
      rcases List.mem_append.mp hvm1 with e | e
      · exact h1.rel_lt v e
      · rw [List.mem_singleton] at e
        rw [e, a3]; exact hl
    · intro v hvm
      have hvm1 : v ∈ s1.released_vars ++ [var l] := hvm
      show v ∉ s1.free_vars
      rcases List.mem_append.mp hvm1 with e | e
      · exact h1.disj v e
      · rw [List.mem_singleton] at e
        rw [e, a2]
        intro hf
        exact h.free_assigned _ hf hun
  · unfold releaseVar at hr
    rw [if_neg hv] at hr
    cases hr
    exact h

theorem RelInv.simplify_rl {fuel : Nat} {s s' : Solver} {b : Bool}
    (h : RelInv s) (hs : simplify fuel s = some (b, s')) : RelInv s' := by
  obtain ⟨a3, a4, a5, a6, hcase⟩ := simplify_rel hs
  rcases hcase with ⟨a1, a2⟩ | ⟨hok, a1, a2⟩
  · refine ⟨?_, ?_, ?_, ?_, ?_, ?_, ?_, ?_⟩
    · intro hok; rw [a1]; exact h.nodup (a6 hok)
    · intro hok v hv
      rw [a1] at hv
      exact a5.ne_undef (h.assigned (a6 hok) v hv)
    · intro v hv
      rw [a1] at hv
      rw [a3]; exact h.rel_lt v hv
    · intro v hv
      rw [a2] at hv
      exact a5.ne_undef (h.free_assigned v hv)
    · rw [a2]; exact h.free_nodup
    · intro v hv
      rw [a2] at hv
      rw [a3]; exact h.free_lt v hv
    · intro v hv
      rw [a1] at hv
      rw [a2]; exact h.disj v hv
    · rw [a4]; exact h.level0
  · refine ⟨?_, ?_, ?_, ?_, ?_, ?_, ?_, ?_⟩
    · intro _; rw [a1]; exact List.nodup_nil
    · intro _ v hv
      rw [a1] at hv; cases hv
    · intro v hv
      rw [a1] at hv; cases hv
    · intro v hv
      rw [a2] at hv
      rcases List.mem_append.mp hv with e | e
      · exact a5.ne_undef (h.free_assigned v e)
      · exact a5.ne_undef (h.assigned hok v e)
    · rw [a2]
      refine List.Nodup.append h.free_nodup (h.nodup hok) ?_
      intro v hv1 hv2
      exact h.disj v hv2 hv1
    · intro v hv
      rw [a2] at hv
      rw [a3]
      rcases List.mem_append.mp hv with e | e
      · exact h.free_lt v e
      · exact h.rel_lt v e
    · intro v hv
      rw [a1] at hv; cases hv
    · rw [a4]; exact h.level0

/-- Every state reached by `newVar`, `addClause_`, `releaseVar` and `simplify` keeps the
bookkeeping of the released variables. -/
theorem Released.relInv {s : Solver} (h : Released s) : RelInv s := by
  induction h with
  | init => exact RelInv.init_rel
  | var s upol dvar _ ih => exact ih.new_var_rel upol dvar
  | clause s s' fuel c b _ hc ih => exact ih.clause_rel hc
  | release s s' fuel l _ hl hr ih => exact ih.release_rel hl hr
  | simp s s' fuel b _ hs ih => exact ih.simplify_rl hs

theorem exVars_released : ∀ n, Released (exVars n)
  | 0 => Released.init
  | n + 1 => Released.var _ _ _ (exVars_released n)

theorem exAdd_released : ∀ (cs : List (List Lit)) (s : Solver), Released s →
    Released (exAdd s cs) := by
  intro cs
  induction cs with
  | nil => intro s h; exact h
  | cons c cs ih =>
    intro s h
    rw [exAdd]
    cases hc : addClause_ 20 s c with
    | none => exact ih s h
    | some r => exact ih r.2 (Released.clause s r.2 20 c r.1 h hc)

theorem exRelease_released {s : Solver} {l : Lit} (h : Released s) (hl : var l < nVars s) :
    Released (exRelease s l) := by
  unfold exRelease
  cases hr : releaseVar 20 s l with
  | none => exact h
  | some t => exact Released.release s t 20 l h hl hr

theorem simplify_released {s : Solver} (h : Released s) :
    Released ((simplify 20 s).getD (false, s)).2 := by
  cases hr : simplify 20 s with
  | none => exact h
  | some r => exact Released.simp s r.2 20 r.1 h hr

/-- While `ok` is true the claim on the released variables holds: `releaseVar(l)` leaves the
state as it is when the variable of `l` is assigned, and in a state reached from the initial
state by calls of `newVar`, `addClause_`, `releaseVar` and `simplify`, `released_vars` holds no
variable twice and every variable in it is assigned; a call of `releaseVar` on an unassigned
literal that returns makes the literal true and appends its variable.  With `ok` false a call
on an unassigned literal leaves it unassigned and appends its variable at every call. -/
theorem releaseVar_once (s : Solver) (h : Released s) :
    (∀ fuel l, value s l ≠ l_Undef → releaseVar fuel s l = some s) ∧
    (s.ok = true → s.released_vars.Nodup ∧ ∀ v ∈ s.released_vars, s.assigns v ≠ l_Undef) ∧
    (∀ fuel l s', s.ok = true → value s l = l_Undef → releaseVar fuel s l = some s' →
      value s' l = l_True ∧ s'.released_vars = s.released_vars ++ [var l]) ∧
    (∀ fuel l, s.ok = false → value s l = l_Undef →
      releaseVar fuel s l = some (pushReleased s (var l))) := by
  have hi := h.relInv
  refine ⟨?_, ?_, ?_, ?_⟩
  · intro fuel l hv
    unfold releaseVar
    rw [if_neg hv]
  · intro hok
    exact ⟨hi.nodup hok, hi.assigned hok⟩
  · intro fuel l s' hok hv hr
    obtain ⟨b, s1, hc, rfl⟩ := releaseVar_undef hv hr
    obtain ⟨a1, -, -, -, -, -, -⟩ := addClause_rel hc
    refine ⟨?_, ?_⟩
    · have ht := addClause_lit_assigned hok hv hc
      exact ht
    · show s1.released_vars ++ [var l] = _
      rw [a1]
  · intro fuel l hok hv
    unfold releaseVar addClauseLit addClause_
    have hd : ¬ decisionLevel s ≠ 0 := by
      unfold decisionLevel
      rw [hi.level0]
      simp
    rw [if_pos hv, if_neg hd, if_pos hok]
    rfl

end Minisat


namespace Minisat
open lbool

/-! ## Instances of the theorems on concrete states -/

/-- Instance of C2: one variable, the clause `(x0)`. -/
theorem addClause_false_iff_not_ok_witness :
    decisionLevel (exVars 1) = 0 ∧
    ((∀ b s', addClause_ 5 (exVars 1) [0] = some (b, s') → (b = false ↔ s'.ok = false)) ∧
     ((exVars 1).ok = false → addClause_ 5 (exVars 1) [0] = some (false, exVars 1))) :=
  ⟨by decide!, addClause_false_iff_not_ok 5 (exVars 1) [0] (by decide!)⟩

/-- Instance of C3: the unit clause `(x0)` and then the unit clause `(not x0)`. -/
theorem addClause_all_false_unsat_witness :
    addClause_ 5 (exAdd (exVars 1) [[0]]) [1] = some (false, setOk (exAdd (exVars 1) [[0]]) false) ∧
    solve_ 5 (setOk (exAdd (exVars 1) [[0]]) false) =
      some (l_False, clearResult (setOk (exAdd (exVars 1) [[0]]) false)) ∧
    (clearResult (setOk (exAdd (exVars 1) [[0]]) false)).conflict = [] :=
  addClause_all_false_unsat 5 5 (exAdd (exVars 1) [[0]]) [1] (by decide!) (by decide!)
    (by decide!)

/-- Instance of C4: two variables, the clause `(x0, x1, not x0)`. -/
theorem addClause_tautology_witness :
    addClause_ 5 (exVars 2) [0, 2, 1] = some (true, exVars 2) :=
  addClause_tautology 5 (exVars 2) [0, 2, 1] 0 (by decide!) (by decide!) (by decide!)
    (by decide!)

/-- Instance of C5: two variables, the clause `(x1, x0, x1)`. -/
theorem addClause_stores_clause_witness :
    ∃ (L : List Lit) (s' : Solver),
      addClause_ 5 (exVars 2) [2, 0, 2] = some (true, s') ∧
      L.Sorted (fun x y => x < y) ∧
      (∀ l, l ∈ L ↔ l ∈ [2, 0, 2] ∧ value (exVars 2) l ≠ l_False) ∧
      s'.trail = (exVars 2).trail :=
  (addClause_stores_clause 5 (exVars 2) [2, 0, 2] 0 2 (by decide!) (by decide!) (by decide!)
    (by decide!) (by decide!) (by decide!) (by decide!) (by decide!) (by decide!)).imp
    fun _ h => h.imp fun _ h' => ⟨h'.1, h'.2.1, h'.2.2.1, h'.2.2.2.1⟩

/-- Instance of C6: the unit clause `(x0)` made of the literal twice. -/
theorem addClause_unit_witness :
    ∃ s1, uncheckedEnqueue (exVars 1) 0 none = some s1 ∧
      value s1 0 = l_True ∧ level s1 (var 0) = 0 ∧ reason s1 (var 0) = none ∧
      s1.trail = (exVars 1).trail ++ [0] :=
  (addClause_unit 5 (exVars 1) [0, 0] 0 (by decide!) (by decide!) (by decide!) (by decide!)
    (by decide!)).imp
    fun _ h => ⟨h.1, h.2.1, h.2.2.1, h.2.2.2.1, h.2.2.2.2.1⟩

/-- Instance of C7: one variable, `ok` cleared. -/
theorem ok_never_restored_witness :
    (setOk (exVars 1) false).ok = false ∧ decisionLevel (setOk (exVars 1) false) = 0 ∧
    addClause_ 5 (setOk (exVars 1) false) [0] = some (false, setOk (exVars 1) false) ∧
    simplify 5 (setOk (exVars 1) false) = some (false, setOk (exVars 1) false) ∧
    solve_ 5 (setOk (exVars 1) false) = some (l_False, clearResult (setOk (exVars 1) false)) :=
  ⟨rfl, by decide!,
   ((ok_never_restored 5 (setOk (exVars 1) false)).1 rfl (by decide!)).1 [0],
   ((ok_never_restored 5 (setOk (exVars 1) false)).1 rfl (by decide!)).2,
   ((ok_never_restored 5 (setOk (exVars 1) false)).2.1 rfl).1⟩

/-- Instance of C9: two variables, the decisions `x0` and `x1`, backtracking to level 1. -/
theorem cancelUntil_spec_witness :
    1 < decisionLevel (exDecide (exDecide (exVars 2) 0) 2) ∧
    decisionLevel (cancelUntil (exDecide (exDecide (exVars 2) 0) 2) 1) = 1 ∧
    (cancelUntil (exDecide (exDecide (exVars 2) 0) 2) 1).trail =
      (exDecide (exDecide (exVars 2) 0) 2).trail.take
        ((exDecide (exDecide (exVars 2) 0) 2).trail_lim.getD 1 0) :=
  ⟨by decide!,
   ((cancelUntil_spec (exDecide (exDecide (exVars 2) 0) 2) 1).1 (by decide!)).1,
   ((cancelUntil_spec (exDecide (exDecide (exVars 2) 0) 2) 1).1 (by decide!)).2.1⟩

end Minisat


namespace Minisat
open lbool

/-! ## Instances on the example with the clause `(not x0, x1)` -/

theorem exVars_inv : ∀ n, Inv (exVars n)
  | 0 => Inv.init
  | n + 1 => (exVars_inv n).new_var l_Undef true

theorem exAdd_one_inv {s : Solver} {c : List Lit} (h : Inv s)
    (hv : ∀ l ∈ c, var l < nVars s)
    (hb : (addClause_ 20 s c).map Prod.fst = some true) : Inv (exAdd s [c]) := by
  unfold exAdd
  cases hr : addClause_ 20 s c with
  | none => rw [hr] at hb; cases hb
  | some r =>
    obtain ⟨b, s'⟩ := r
    rw [hr] at hb
    have hb' : b = true := by simpa using hb
    exact h.addClause hv hr hb'

theorem exDecide_inv {s : Solver} {p : Lit} (h : Inv s) (hq : s.qhead = s.trail.length)
    (hx : var p < nVars s) (has : s.assumptions = []) : Inv (exDecide s p) := by
  unfold exDecide
  cases hd : searchDecide s p with
  | none => exact h
  | some t =>
    refine h.decision hq hx ?_ hd
    intro hlt
    rw [has] at hlt
    cases hlt

theorem exUnit_inv : Inv exUnit :=
  exDecide_inv (exAdd_one_inv (exVars_inv 2) (by decide!) (by decide!)) (by decide!)
    (by decide!) (by decide!)

/-- Instance of C10: after the decision `x0` the clause `(not x0, x1)` is unit; `propagate`
returns and leaves no attached clause unit or falsified. -/
theorem propagate_post_witness :
    ∃ r, propagate 5 exUnit = some r ∧ r.2.qhead = r.2.trail.length ∧
      (r.1 = none → ∀ cr, Attached r.2 cr → ¬ Falsified r.2 cr ∧ ¬ UnitUnder r.2 cr) :=
  ⟨(propagate 5 exUnit).get (by decide!), (Option.some_get _).symm,
    propagate_post 5 exUnit _ exUnit_inv.tr exUnit_inv.wt (Option.some_get _).symm⟩

end Minisat


namespace Minisat
open lbool

/-! ## Instances on the example with the clause `(x0, x1, x2)` -/

theorem exBlocker_inv : Inv exBlocker := by
  have h0 : Inv (exAdd (exVars 3) [[0, 2, 4]]) :=
    exAdd_one_inv (exVars_inv 3) (by decide!) (by decide!)
  have h1 : Inv (exDecide (exAdd (exVars 3) [[0, 2, 4]]) 3) :=
    exDecide_inv h0 (by decide!) (by decide!) (by decide!)
  have h2 := h1.exProp_inv (by decide!)
  have h3 := h2.cancel_any 0
  have h4 := exDecide_inv h3 (p := 2) (by decide!) (by decide!) (by decide!)
  have h5 := h4.exProp_inv (by decide!)
  exact exDecide_inv h5 (by decide!) (by decide!) (by decide!)

/-- C20 fails as stated: in the reachable state `exBlocker`, `propagate` returns without
conflict and leaves the attached clause `(x0, x2, x1)` with the watched literal `x0` false and
the watched literal `x2` unassigned; the true literal `x1` is not watched. -/
theorem watched_ok_counterexample :
    Inv exBlocker ∧
    ∃ r, propagate 20 exBlocker = some r ∧ r.1 = none ∧ Attached r.2 0 ∧
      (r.2.ca.cl 0).lits = [0, 4, 2] ∧ value r.2 0 = l_False ∧ value r.2 4 = l_Undef ∧
      value r.2 2 = l_True ∧ ¬ WatchedOk r.2 0 :=
  ⟨exBlocker_inv, (propagate 20 exBlocker).get (by decide!), (Option.some_get _).symm,
    by decide!, ⟨Or.inl (by decide!), by decide!⟩, by decide!, by decide!, by decide!,
    by decide!, by unfold WatchedOk; decide!⟩

/-- Instance of the amended C20 on the state `exUnit`: the clause `(not x0, x1)` has the false
watched literal `not x0` after `propagate`, and a true literal. -/
theorem propagate_watched_witness :
    ∃ r, propagate 5 exUnit = some r ∧ r.1 = none ∧ Attached r.2 0 ∧
      value r.2 ((r.2.ca.cl 0).get 1) = l_False ∧
      ∃ t ∈ (r.2.ca.cl 0).lits, value r.2 t = l_True :=
  ⟨(propagate 5 exUnit).get (by decide!), (Option.some_get _).symm, by decide!,
    ⟨Or.inl (by decide!), by decide!⟩, by decide!,
    propagate_watched 5 exUnit _ exUnit_inv.tr exUnit_inv.wt (Option.some_get _).symm
      (by decide!) 0 ⟨Or.inl (by decide!), by decide!⟩ 1 (by decide) (by decide!)⟩

/-! ## Symmetry units: the example with the clause `(x0, not x1, not x2)` -/

/-- C13 on the state `exSymUnit` (level 0, `x1` in `symmetry_units` and true, `x2` true and not
yet propagated): `propagate` enqueues `x0` with the clause `(x0, not x2, not x1)` as reason,
whose literal `not x1` is the negation of the symmetry unit `x1`, and `symmetry_units` is
still `[1]` afterwards: the variable of `x0` is not inserted. -/
theorem symmetry_units_not_closed :
    decisionLevel exSymUnit = 0 ∧ exSymUnit.symmetry_units = [1] ∧
    value exSymUnit 2 = l_True ∧ 0 ∉ exSymUnit.trail ∧
    ∃ r, propagate 20 exSymUnit = some r ∧ r.1 = none ∧ r.2.trail = [2, 4, 0] ∧
      reason r.2 (var 0) = some 0 ∧ level r.2 (var 0) = 0 ∧ (r.2.ca.cl 0).lits = [0, 5, 3] ∧
      3 = neg 2 ∧ var 2 ∈ r.2.symmetry_units ∧ var 0 ∉ r.2.symmetry_units :=
  ⟨by decide!, by decide!, by decide!, by decide!,
    (propagate 20 exSymUnit).get (by decide!), (Option.some_get _).symm, by decide!, by decide!,
    by decide!, by decide!, by decide!, by decide!, by decide!, by decide!⟩

/-! ## DIMACS output: the example with the clause `(x1, x2)` and the assumption `x0` -/

/-- C18 on a concrete input: with the stored clause `(x1, x2)` and the assumption `x0`,
`toDimacs` writes the header `p cnf 2 2` (the value of `max` before the assumptions are
mapped) and then the assumption line `3 0`: the variable number 3 is above the header's
variable count 2.  Without the assumption the header agrees with the body. -/
theorem toDimacs_header_short :
    (exAdd (exVars 3) [[2, 4]]).ok = true ∧
    toDimacs (exAdd (exVars 3) [[2, 4]]) [0] = some "p cnf 2 2\n3 0\n1 2 0\n" ∧
    toDimacs (exAdd (exVars 3) [[2, 4]]) [] = some "p cnf 2 1\n1 2 0\n" :=
  ⟨by decide!, by decide!, by decide!⟩

/-! ## Registering a symmetry: examples -/

/-- C14 fails as stated: `addSymmetry([x0, x1], [x1, x1])` fails the assertion
`from[1] != to[1]`, and at that point the symmetry is the element of `symmetries` and of
`watcherSymmetries[x0]`, which were both empty before the call. -/
theorem addSymmetry_registered_counterexample :
    (addSymmetry (exSym (exVars 2)) [0, 2] [2, 2]).isAborted = true ∧
    (addSymmetry (exSym (exVars 2)) [0, 2] [2, 2]).state.symmetries = [⟨0, [0, 2], [2, 2]⟩] ∧
    (addSymmetry (exSym (exVars 2)) [0, 2] [2, 2]).state.watcherSymmetries 0 =
      [⟨0, [0, 2], [2, 2]⟩] ∧
    (exSym (exVars 2)).symmetries = [] ∧ (exSym (exVars 2)).watcherSymmetries 0 = [] :=
  ⟨by decide!, by decide!, by decide!, by decide!, by decide!⟩

/-- Instance of the amended C14 for the call `addSymmetry([x0, x1], [x1, x1])`. -/
theorem addSymmetry_rejects_witness :
    (∃ i, i < [0, 2].length ∧ [0, 2].getD i 0 = [2, 2].getD i 0) ∧
    ∃ st', addSymmetry (exSym (exVars 2)) [0, 2] [2, 2] = Outcome.aborted st' ∧
      ([0, 2].length ≠ [2, 2].length → st' = exSym (exVars 2)) ∧
      ([0, 2].length = [2, 2].length →
        st'.symmetries = (exSym (exVars 2)).symmetries ++
          [⟨(exSym (exVars 2)).symmetries.length, [0, 2], [2, 2]⟩] ∧
        ∀ l, st'.watcherSymmetries l =
          (exSym (exVars 2)).watcherSymmetries l ++
            List.replicate ((pairsBefore ([0, 2].zip [2, 2])).count l)
              ⟨(exSym (exVars 2)).symmetries.length, [0, 2], [2, 2]⟩) :=
  ⟨⟨1, by decide, by decide⟩,
    addSymmetry_rejects (exSym (exVars 2)) [0, 2] [2, 2] (Or.inr ⟨1, by decide, by decide⟩)⟩

/-- Instance of C15: the clauses `(x0, x2)` and `(x1, x2)` and the exchange of `x0` and `x1`;
`testSymmetry` passes. -/
theorem testSymmetry_iff_witness :
    testSymmetry true exSwap exSwap (exAdd (exVars 3) [[0, 4], [2, 4]]) = some true ∧
    ((testSymmetry true exSwap exSwap (exAdd (exVars 3) [[0, 4], [2, 4]]) = some true ↔
      ∀ cr ∈ (exAdd (exVars 3) [[0, 4], [2, 4]]).clauses,
        ∃ cr' ∈ (exAdd (exVars 3) [[0, 4], [2, 4]]).clauses,
          ∀ l, l ∈ ((exAdd (exVars 3) [[0, 4], [2, 4]]).ca.cl cr').lits ↔
            ∃ l0 ∈ ((exAdd (exVars 3) [[0, 4], [2, 4]]).ca.cl cr).lits, exSwap l0 = l) ∧
     (testSymmetry true exSwap exSwap (exAdd (exVars 3) [[0, 4], [2, 4]]) = some true ∨
      testSymmetry true exSwap exSwap (exAdd (exVars 3) [[0, 4], [2, 4]]) = none)) :=
  ⟨by decide!,
    testSymmetry_iff exSwap exSwap (exAdd (exVars 3) [[0, 4], [2, 4]]) exSwap_exSwap
      exSwap_exSwap (by decide!) (by decide!)⟩

/-! ## A conflict at level 2: the example with the clauses `(not x0, not x1, x2)` and
`(not x0, not x1, not x2)` -/

theorem exConflict_inv : Inv exConflict := by
  have h0 : Inv (exAdd (exVars 3) [[1, 3, 4]]) :=
    exAdd_one_inv (exVars_inv 3) (by decide!) (by decide!)
  have h1 : Inv (exAdd (exAdd (exVars 3) [[1, 3, 4]]) [[1, 3, 5]]) :=
    exAdd_one_inv h0 (by decide!) (by decide!)
  have h2 := exDecide_inv h1 (p := 0) (by decide!) (by decide!) (by decide!)
  have h3 := h2.exProp_inv (by decide!)
  exact exDecide_inv h3 (by decide!) (by decide!) (by decide!)

theorem exConflict_some : (propagate 10 exConflict).isSome = true := by decide!

theorem exConflict_prop :
    propagate 10 exConflict =
      some (some 4, ((propagate 10 exConflict).get exConflict_some).2) :=
  (Option.some_get exConflict_some).symm.trans (congrArg some (Prod.ext (by decide!) rfl))

/-- Instance of C11: after the decisions `x0` and `x1`, `propagate` finds the clause
`(not x0, not x1, not x2)` falsified; `analyze` learns `(not x1, not x0)` with backtrack level
1; after the backtrack `not x1` is unassigned, and after the enqueue it is true at level 1
while `not x0` is false. -/
theorem conflict_asserts_witness :
    ∃ s r, propagate 10 exConflict = some (some 4, s) ∧ 0 < decisionLevel s ∧
      analyze 10 (countConflict s) 4 = some r ∧ r.1.out_learnt = [3, 1] ∧
      r.1.out_btlevel = 1 ∧
      (1 ≤ r.1.out_learnt.length ∧ r.1.out_btlevel < decisionLevel s ∧
       decisionLevel (cancelUntil r.2 r.1.out_btlevel) = r.1.out_btlevel ∧
       value (cancelUntil r.2 r.1.out_btlevel) (r.1.out_learnt.getD 0 0) = l_Undef ∧
       ∃ s1, (if r.1.out_learnt.length = 1 then
                learnUnit (cancelUntil r.2 r.1.out_btlevel) r.1
              else learnClause (cancelUntil r.2 r.1.out_btlevel) r.1 4) = some s1 ∧
         decisionLevel s1 = r.1.out_btlevel ∧
         value s1 (r.1.out_learnt.getD 0 0) = l_True ∧
         level s1 (var (r.1.out_learnt.getD 0 0)) = r.1.out_btlevel ∧
         ∀ i, 1 ≤ i → i < r.1.out_learnt.length →
           value s1 (r.1.out_learnt.getD i 0) = l_False) :=
  ⟨((propagate 10 exConflict).get exConflict_some).2,
   (analyze 10 (countConflict ((propagate 10 exConflict).get exConflict_some).2) 4).get
     (by decide!),
   exConflict_prop, by decide!, (Option.some_get _).symm, by decide!, by decide!,
   conflict_asserts 10 10 exConflict _ 4 _ exConflict_inv exConflict_prop
     (by decide!) (by decide!) (Option.some_get _).symm⟩

/-! ## Garbage collection on the example with the clause `(not x0, x1)` -/

theorem exUnit_prop_inv : Inv (exProp exUnit) := exUnit_inv.exProp_inv (by decide!)

/-- Instance of C19: after the decision `x0` and the propagation of `x1` with the reason
`(x1, not x0)`, the collection moves the clause to the offset 0 of the new arena; the two
watchers, `clauses` and the reason of `x1` refer to the copy. -/
theorem garbageCollect_no_dangling_witness :
    TrailInv (exProp exUnit) ∧ WatchInv (exProp exUnit) (exProp exUnit).qhead ∧
    AuxInv (exProp exUnit) ∧ reason (exProp exUnit) 1 ≠ none ∧
    ∃ t, garbageCollect (exProp exUnit) = some t ∧ t.trail = (exProp exUnit).trail ∧
      (∀ l, List.Forall₂
        (fun w0 w => w.blocker = w0.blocker ∧ CopyOf (exProp exUnit) t w0.cref w.cref)
        (((exProp exUnit).watches l).filter (fun w => !isRemoved (exProp exUnit) w.cref))
        (t.watches l)) ∧
      List.Forall₂ (CopyOf (exProp exUnit) t)
        ((exProp exUnit).learnts.filter (fun c => !isRemoved (exProp exUnit) c)) t.learnts ∧
      List.Forall₂ (CopyOf (exProp exUnit) t)
        ((exProp exUnit).clauses.filter (fun c => !isRemoved (exProp exUnit) c)) t.clauses ∧
      (∀ l ∈ t.trail, ∀ cr, reason t (var l) = some cr →
        ∃ cr0, reason (exProp exUnit) (var l) = some cr0 ∧ CopyOf (exProp exUnit) t cr0 cr) :=
  ⟨exUnit_prop_inv.tr, exUnit_prop_inv.wt, exUnit_prop_inv.ax, by decide!,
   garbageCollect_no_dangling (exProp exUnit) _ exUnit_prop_inv.tr exUnit_prop_inv.wt
     exUnit_prop_inv.ax⟩

/-! ## Compatibility sets: the example with the symmetry that exchanges `a` and `b` -/

theorem exCompat_inject :
    learntSymmetryClause exCompat1 (some [1, 5, 3]) = some (some 25, exCompat2) :=
  exInject_eq exCompat1 [1, 5, 3] 25 (by decide!)

theorem exCompat_analyze : (analyzeSym 20 exCompat3 22).isSome = true := by decide!

/-- Counterexample to C12.  The symmetry 0 exchanges `a` and `b`.  The injected clause
`(not d, not h, not f)` has the compatibility set `[0]` (its image is the clause itself, a
clause of the instance).  It later implies `not h` in the conflict with `(h, not x)`; `analyze`
learns `(not a, not f)` and takes the symmetry 0 over from the injected clause, and `search`
stores the learnt clause with the compatibility set `[0]`.  The image `(not b, not f)` of the
learnt clause is not a clause of the instance, and it is not the learnt clause either. -/
theorem compat_unchecked_counterexample :
    ∃ r s1, (exCompat2.solver.ca.cl 25).lits = [1, 5, 3] ∧
      (exCompat2.solver.ca.cl 25).scompat = some [0] ∧
      exCompat3.symmetries = [⟨0, [8, 9, 10, 11], [10, 11, 8, 9]⟩] ∧
      analyzeSym 20 exCompat3 22 = some r ∧ r.1.out_learnt = [9, 3] ∧
      r.1.out_symmetry = true ∧ r.1.comp = [0] ∧
      learnClause (cancelUntil r.2 r.1.out_btlevel) r.1 22 = some s1 ∧
      34 ∈ s1.learnts ∧ (s1.ca.cl 34).lits = [9, 3] ∧ (s1.ca.cl 34).learnt = true ∧
      (s1.ca.cl 34).symmetry = true ∧ (s1.ca.cl 34).scompat = some [0] ∧
      stabilize s1 ⟨0, [8, 9, 10, 11], [10, 11, 8, 9]⟩ [9, 3] = false ∧
      [9, 3].map (Symmetry.getSymmetrical ⟨0, [8, 9, 10, 11], [10, 11, 8, 9]⟩) = [11, 3] :=
  ⟨(analyzeSym 20 exCompat3 22).get exCompat_analyze,
   (learnClause
      (cancelUntil ((analyzeSym 20 exCompat3 22).get exCompat_analyze).2
        ((analyzeSym 20 exCompat3 22).get exCompat_analyze).1.out_btlevel)
      ((analyzeSym 20 exCompat3 22).get exCompat_analyze).1 22).get (by decide!),
   by decide!, by decide!, by decide!, (Option.some_get _).symm, by decide!, by decide!,
   by decide!, (Option.some_get _).symm, by decide!, by decide!, by decide!, by decide!,
   by decide!, by decide!, by decide!⟩

/-- Instance of the amended C12: the injected clause `(not d, not h, not f)` and the set
returned by `analyze` for the conflict with `(h, not x)`. -/
theorem compat_stabilize_witness :
    learntSymmetryClause exCompat1 (some [1, 5, 3]) = some (some 25, exCompat2) ∧
    (∃ r, analyzeSym 20 exCompat3 22 = some r ∧ r.1.out_symmetry = true ∧
    ((exCompat2.solver.ca.cl 25).lits = [1, 5, 3] ∧ (exCompat2.solver.ca.cl 25).learnt = true ∧
      (exCompat2.solver.ca.cl 25).symmetry = true ∧ 25 ∈ exCompat2.solver.learnts ∧
      ∃ comp, (exCompat2.solver.ca.cl 25).scompat = some comp ∧
        ∀ i ∈ comp, ∃ σ ∈ exCompat1.symmetries, σ.id = i ∧
          stabilize exCompat1.solver σ [1, 5, 3] = true) ∧
    (∃ r0, analyze 20 exCompat3.solver 22 = some r0 ∧ r.1.out_learnt = r0.1.out_learnt ∧
      ∀ i ∈ r.1.comp, i ∈ r0.1.comp ∨
        ∃ σ ∈ exCompat3.symmetries, σ.id = i ∧ stabilize r.2 σ r.1.out_learnt = true)) :=
  ⟨exCompat_inject, (analyzeSym 20 exCompat3 22).get exCompat_analyze,
   (Option.some_get _).symm, by decide!,
   compat_stabilize 20 exCompat1 exCompat2 exCompat3 [1, 5, 3] 25 22 _ exCompat_inject
     (Option.some_get exCompat_analyze).symm (by decide!)⟩

end Minisat

namespace cosy

/-! ## Permutations: the example with the cycles `(1 2 3)` and `(-1 -2 -3)` -/

/-- Instance of C16 for the permutation `(1 2 3)(-1 -2 -3)`. -/
theorem permutation_cycles_witness :
    ∃ p, Permutation.run exPerm Permutation.empty = some p ∧ p.cycles.Nodup ∧
      p.cycles_lim.getLastD 0 = p.cycles.length ∧ p.imageOf 3 = some 1 ∧
      ((∀ c, c < p.numberOfCycles → ∃ cyc, p.cycle c = some cyc ∧ cyc ≠ [] ∧
        ∀ j, j < cyc.length →
          p.imageOf (cyc.getD j 0) = some (cyc.getD ((j + 1) % cyc.length) 0)) ∧
       (∀ e ∈ p.cycles,
        (∃ c, c < p.numberOfCycles ∧ ∃ cyc, p.cycle c = some cyc ∧ e ∈ cyc) ∧
        (p.imageOf e).bind p.inverseOf = some e ∧ (p.inverseOf e).bind p.imageOf = some e)) :=
  ⟨(Permutation.run exPerm Permutation.empty).get (by decide!), (Option.some_get _).symm,
    by decide!, by decide!, by decide!,
    permutation_cycles exPerm _ (Option.some_get _).symm (by decide!) (by decide!)⟩

end cosy

namespace Minisat
open lbool

set_option maxHeartbeats 1000000

/-! ## The unit-propagation step on the example with the clause `(not x0, x1)` -/

theorem exUnit_step :
    ∃ w1 s1, watchStep 0 false ⟨0, 2⟩ exUnit = WStep.keep w1 s1 ∧ s1.trail ≠ exUnit.trail := by
  have hk : (watchStep 0 false ⟨0, 2⟩ exUnit).keepTrail = some [0, 2] := by decide!
  cases h : watchStep 0 false ⟨0, 2⟩ exUnit with
  | keep w1 s1 =>
    rw [h] at hk
    have e : s1.trail = [0, 2] := Option.some.inj hk
    refine ⟨w1, s1, rfl, ?_⟩
    rw [e]
    decide!
  | move s1 => rw [h] at hk; cases hk
  | conflict w1 s1 => rw [h] at hk; cases hk
  | fail => rw [h] at hk; cases hk

/-- Instance of C21: after the decision `x0`, the step for the watcher of the clause
`(not x0, x1)` in the list of `x0` enqueues `x1` with the clause as reason. -/
theorem watchStep_classifies_witness :
    value exUnit 0 = l_True ∧
    ∃ w1 s1, watchStep 0 false ⟨0, 2⟩ exUnit = WStep.keep w1 s1 ∧ s1.trail ≠ exUnit.trail ∧
      ∃ l, s1.trail = exUnit.trail ++ [l] ∧ reason s1 (var l) = some 0 ∧
        (s1.ca.cl 0).lits.getD 0 0 = l ∧ value exUnit l = l_Undef ∧ value s1 l = l_True ∧
        ∀ t ∈ (s1.ca.cl 0).lits.drop 1, value exUnit t = l_False := by
  obtain ⟨w1, s1, h, ht⟩ := exUnit_step
  exact ⟨by decide!, w1, s1, h, ht,
    (watchStep_classifies 0 false ⟨0, 2⟩ exUnit (by decide!)).1 w1 s1 h ht⟩

/-! ## The post-conditions of `analyze` on the example of the conflict at level 2 -/

/-- Instance of C22: `analyze` learns `(not x1, not x0)` with the backtrack level 1. -/
theorem analyze_postconditions_witness :
    ∃ s r, propagate 10 exConflict = some (some 4, s) ∧ 0 < decisionLevel s ∧
      analyze 10 (countConflict s) 4 = some r ∧ r.1.out_learnt = [3, 1] ∧
      r.1.out_btlevel = 1 ∧
      (1 ≤ r.1.out_learnt.length ∧
       (r.1.out_learnt.length = 1 → r.1.out_btlevel = 0) ∧
       (r.1.out_learnt.length ≠ 1 →
         (∀ i, 1 ≤ i → i < r.1.out_learnt.length →
           level r.2 (var (r.1.out_learnt.getD i 0)) ≤
             level r.2 (var (r.1.out_learnt.getD 1 0))) ∧
         r.1.out_btlevel = level r.2 (var (r.1.out_learnt.getD 1 0))) ∧
       (∀ i, 1 ≤ i → i < r.1.out_learnt.length →
         0 < level r.2 (var (r.1.out_learnt.getD i 0)) ∧
         level r.2 (var (r.1.out_learnt.getD i 0)) < decisionLevel r.2) ∧
       r.1.out_btlevel < decisionLevel r.2 ∧
       ∃ p ∈ r.2.trail, level r.2 (var p) = decisionLevel r.2 ∧
         r.1.out_learnt.getD 0 0 = neg p) :=
  ⟨((propagate 10 exConflict).get exConflict_some).2,
   (analyze 10 (countConflict ((propagate 10 exConflict).get exConflict_some).2) 4).get
     (by decide!),
   exConflict_prop, by decide!, (Option.some_get _).symm, by decide!, by decide!,
   analyze_postconditions 10 10 exConflict _ 4 _ exConflict_inv exConflict_prop
     (by decide!) (Option.some_get _).symm⟩

/-! ## Symmetrical propagation on the example with the clause `(not x0, x1)` and the symmetry
that exchanges `x1` and `x2` -/

theorem exSymProp_inv : Inv exSymProp.sym.solver := by
  have h0 : Inv (exAdd (exVars 3) [[1, 2]]) :=
    exAdd_one_inv (exVars_inv 3) (by decide!) (by decide!)
  have h1 := exDecide_inv h0 (p := 0) (by decide!) (by decide!) (by decide!)
  exact h1.exProp_inv (by decide!)

theorem exSymProp_some :
    (propagateSymmetrical exGssc exSymProp exSwap12 2).isSome = true := by decide!

/-- Counterexample to C25: `x1` is implied at level 1 by the clause `(not x0, x1)`, which is
not symmetry-tagged; `propagateSymmetrical` for the symmetry that exchanges `x1` and `x2`
allocates the clause `(x2, not x0)` with `symmetry` and `first_symmetry` both false and
without a compatibility set. -/
theorem symmetry_flags_counterexample :
    ∃ r P', propagateSymmetrical exGssc exSymProp exSwap12 2 = some (r, P') ∧
      level exSymProp.sym.solver (var 2) = 1 ∧
      reason exSymProp.sym.solver (var 2) = some 0 ∧
      (exSymProp.sym.solver.ca.cl 0).symmetry = false ∧
      exSymProp.sym.solver.ca.size = 3 ∧
      (P'.sym.solver.ca.cl 3).lits = [4, 1] ∧
      (P'.sym.solver.ca.cl 3).symmetry = false ∧
      (P'.sym.solver.ca.cl 3).fsymmetry = false ∧
      (P'.sym.solver.ca.cl 3).scompat = none :=
  ⟨((propagateSymmetrical exGssc exSymProp exSwap12 2).get exSymProp_some).1,
   ((propagateSymmetrical exGssc exSymProp exSwap12 2).get exSymProp_some).2,
   (Option.some_get _).symm, by decide!, by decide!, by decide!, by decide!, by decide!,
   by decide!, by decide!, by decide!⟩

/-- Instance of the amended C25: the flags of the new clause are those of the reason clause
`(not x0, x1)` of `x1`. -/
theorem propagateSymmetrical_flags_witness :
    ∃ r P', propagateSymmetrical exGssc exSymProp exSwap12 2 = some (r, P') ∧
      ((P'.sym.solver.ca.cl exSymProp.sym.solver.ca.size).learnt = true ∧
      (level exSymProp.sym.solver (var 2) = 0 →
        (P'.sym.solver.ca.cl exSymProp.sym.solver.ca.size).lits =
          [exSwap12.getSymmetrical 2, neg 2] ∧
        (P'.sym.solver.ca.cl exSymProp.sym.solver.ca.size).symmetry = false ∧
        (P'.sym.solver.ca.cl exSymProp.sym.solver.ca.size).fsymmetry = false ∧
        (P'.sym.solver.ca.cl exSymProp.sym.solver.ca.size).scompat = none) ∧
      (level exSymProp.sym.solver (var 2) ≠ 0 →
        ∃ R, reason exSymProp.sym.solver (var 2) = some R ∧
          (P'.sym.solver.ca.cl exSymProp.sym.solver.ca.size).lits =
            exGssc exSymProp.sym.solver exSwap12 (exSymProp.sym.solver.ca.cl R) ∧
          (P'.sym.solver.ca.cl exSymProp.sym.solver.ca.size).symmetry =
            (exSymProp.sym.solver.ca.cl R).symmetry ∧
          (P'.sym.solver.ca.cl exSymProp.sym.solver.ca.size).fsymmetry =
            (exSymProp.sym.solver.ca.cl R).fsymmetry ∧
          (P'.sym.solver.ca.cl exSymProp.sym.solver.ca.size).scompat =
            if (exSymProp.sym.solver.ca.cl R).symmetry = true then
              (exSymProp.sym.solver.ca.cl R).scompat
            else none)) :=
  ⟨((propagateSymmetrical exGssc exSymProp exSwap12 2).get exSymProp_some).1,
   ((propagateSymmetrical exGssc exSymProp exSwap12 2).get exSymProp_some).2,
   (Option.some_get _).symm,
   propagateSymmetrical_flags exGssc exSymProp _ exSwap12 2 _ (Option.some_get _).symm⟩

/-- Instance of C26: the image `(x2, not x0)` of the reason of `x1` has `x2` unassigned and
`not x0` false at level 1; the call returns `CRef_Undef` and `x2` is true at level 1 with the
new clause (reference 3) as reason. -/
theorem propagateSymmetrical_outcome_witness :
    TrailInv exSymProp.sym.solver ∧ value exSymProp.sym.solver 2 = l_True ∧
    symImplic exGssc exSymProp.sym.solver exSwap12 2 = some ([4, 1], false, false) ∧
    value (symBacktrack exSymProp.sym.solver [4, 1]) 4 = l_Undef ∧
    ((level exSymProp.sym.solver (var 2) = 0 → [4, 1] = [exSwap12.getSymmetrical 2, neg 2]) ∧
    ∃ r P', propagateSymmetrical exGssc exSymProp exSwap12 2 = some (r, P') ∧
      (P'.sym.solver.ca.cl exSymProp.sym.solver.ca.size).lits = [4, 1] ∧
      decisionLevel P'.sym.solver =
        min (decisionLevel exSymProp.sym.solver)
          (level exSymProp.sym.solver (var (([4, 1] : List Lit).getD 1 0))) ∧
      (value (symBacktrack exSymProp.sym.solver [4, 1]) (([4, 1] : List Lit).getD 0 0) =
          l_Undef →
        r = none ∧ value P'.sym.solver (([4, 1] : List Lit).getD 0 0) = l_True ∧
        level P'.sym.solver (var (([4, 1] : List Lit).getD 0 0)) =
          decisionLevel P'.sym.solver ∧
        reason P'.sym.solver (var (([4, 1] : List Lit).getD 0 0)) =
          some exSymProp.sym.solver.ca.size ∧
        (∀ t ∈ ([4, 1] : List Lit).drop 1, value P'.sym.solver t = l_False) ∧
        (exSymProp.addPropagationClauses = false →
          P'.sym.solver.learnts = exSymProp.sym.solver.learnts ∧
          P'.sym.solver.watches = exSymProp.sym.solver.watches) ∧
        (exSymProp.addPropagationClauses = true →
          P'.sym.solver.learnts =
            exSymProp.sym.solver.learnts ++ [exSymProp.sym.solver.ca.size])) ∧
      (value (symBacktrack exSymProp.sym.solver [4, 1]) (([4, 1] : List Lit).getD 0 0) ≠
          l_Undef →
        r = some exSymProp.sym.solver.ca.size ∧
        (∀ t ∈ (P'.sym.solver.ca.cl exSymProp.sym.solver.ca.size).lits,
          value P'.sym.solver t = l_False) ∧
        (exSymProp.addConflictClauses = false →
          P'.sym.solver.learnts = exSymProp.sym.solver.learnts ∧
          P'.sym.solver.watches = exSymProp.sym.solver.watches) ∧
        (exSymProp.addConflictClauses = true →
          P'.sym.solver.learnts =
            exSymProp.sym.solver.learnts ++ [exSymProp.sym.solver.ca.size]))) :=
  ⟨exSymProp_inv.tr, by decide!, by decide!, by decide!,
   propagateSymmetrical_outcome exGssc exSymProp exSwap12 2 [4, 1] false false
     exSymProp_inv.tr rfl (by decide!) (by decide!) (by decide!) (fun _ => by decide!)
     (fun h => by cases h)⟩

/-! ## Compatibility sets on the example with the symmetry that exchanges `a` and `b` -/

/-- Instance of C27: the resolution chain of the conflict with `(h, not x)` holds the injected
clause (reference 25) with the compatibility set `[0]`, the only symmetry-tagged clause of the
chain; the conflict clause is not `first_symmetry`, and `analyze` returns the set `[0]`. -/
theorem analyze_compat_witness :
    (∃ r, analyzeSym 20 exCompat3 22 = some r ∧ r.1.out_symmetry = true ∧ r.1.comp = [0] ∧
      ∀ i, i ∈ r.1.comp ↔
        ((exCompat3.solver.ca.cl 22).fsymmetry = false ∧
          (∃ cr ∈ [22, 25, 13, 10], (exCompat3.solver.ca.cl cr).symmetry = true) ∧
          ∀ cr ∈ [22, 25, 13, 10], (exCompat3.solver.ca.cl cr).symmetry = true →
            i ∈ (exCompat3.solver.ca.cl cr).scompat.getD []) ∨
        ∃ σ ∈ exCompat3.symmetries, σ.id = i ∧ stabilize r.2 σ r.1.out_learnt = true) :=
  ⟨(analyzeSym 20 exCompat3 22).get exCompat_analyze, (Option.some_get _).symm, by decide!,
   by decide!,
   analyze_compat 20 exCompat3 22 _ [22, 25, 13, 10] (by decide!) (by decide!)
     (Option.some_get exCompat_analyze).symm (by decide!)⟩

/-! ## The injected clause -/

/-- Counterexample to C29: the clause `(not d, not h, not f)` that the hook injects is its own
image under the symmetry 0 and a clause of the instance, so its compatibility set is `[0]` and
not empty. -/
theorem injected_compat_counterexample :
    ∃ S', learntSymmetryClause exCompat1 (some [1, 5, 3]) = some (some 25, S') ∧
      exCompat1.symmetries = [⟨0, [8, 9, 10, 11], [10, 11, 8, 9]⟩] ∧
      stabilize exCompat1.solver ⟨0, [8, 9, 10, 11], [10, 11, 8, 9]⟩ [1, 5, 3] = true ∧
      (S'.solver.ca.cl 25).lits = [1, 5, 3] ∧ (S'.solver.ca.cl 25).scompat = some [0] :=
  ⟨exCompat2, exCompat_inject, by decide!, by decide!, by decide!, by decide!⟩

/-- Instance of the amended C29: the injection of `(not d, not h, not f)`. -/
theorem learntSymmetryClause_injects_witness :
    learntSymmetryClause exCompat1 (some [1, 5, 3]) = some (some 25, exCompat2) ∧
    (some 25 = some exCompat1.solver.ca.size ∧
      (exCompat2.solver.ca.cl exCompat1.solver.ca.size).lits = [1, 5, 3] ∧
      (exCompat2.solver.ca.cl exCompat1.solver.ca.size).learnt = true ∧
      (exCompat2.solver.ca.cl exCompat1.solver.ca.size).symmetry = true ∧
      (exCompat2.solver.ca.cl exCompat1.solver.ca.size).fsymmetry = true ∧
      (∃ comp, (exCompat2.solver.ca.cl exCompat1.solver.ca.size).scompat = some comp ∧
        ∀ i, i ∈ comp ↔ ∃ σ ∈ exCompat1.symmetries, σ.id = i ∧
          stabilize exCompat1.solver σ [1, 5, 3] = true) ∧
      exCompat2.solver.learnts = exCompat1.solver.learnts ++ [exCompat1.solver.ca.size] ∧
      (⟨exCompat1.solver.ca.size, ([1, 5, 3] : List Lit).getD 1 0⟩ : Watcher) ∈
        exCompat2.solver.watches (neg (([1, 5, 3] : List Lit).getD 0 0)) ∧
      (⟨exCompat1.solver.ca.size, ([1, 5, 3] : List Lit).getD 0 0⟩ : Watcher) ∈
        exCompat2.solver.watches (neg (([1, 5, 3] : List Lit).getD 1 0)) ∧
      exCompat2.symmetries = exCompat1.symmetries) :=
  ⟨exCompat_inject,
   (learntSymmetryClause_injects exCompat1).2 [1, 5, 3] (some 25) exCompat2 exCompat_inject⟩

/-! ## The flags `first_symmetry` and `symmetry` on the example of the conflict at level 2 -/

theorem exConflict_fsOk : FsOk exConflict :=
  (((((FsOk.exVars_ok 3).exAdd_ok [[1, 3, 4]]).exAdd_ok [[1, 3, 5]]).exDecide_ok 0).exProp_ok).exDecide_ok 2

/-- Instance of C28 on the state before the conflict at level 2, where no clause is
`first_symmetry`. -/
theorem first_symmetry_has_symmetry_witness :
    FsOk exConflict ∧
    ((∀ fuel ps b t, addClause_ fuel exConflict ps = some (b, t) → FsOk t) ∧
    (∀ fuel confl r, analyze fuel exConflict confl = some r →
      ¬ (((cancelUntil r.2 r.1.out_btlevel).ca.cl confl).fsymmetry = true ∧
          r.1.out_symmetry = false) ∧
      ∀ t, (if r.1.out_learnt.length = 1 then learnUnit (cancelUntil r.2 r.1.out_btlevel) r.1
            else learnClause (cancelUntil r.2 r.1.out_btlevel) r.1 confl) = some t →
        FsOk t) ∧
    (∀ gssc P σ l r P', P.sym.solver = exConflict →
      propagateSymmetrical gssc P σ l = some (r, P') → FsOk P'.sym.solver) ∧
    (∀ S vsbp r S', S.solver = exConflict → learntSymmetryClause S vsbp = some (r, S') →
      FsOk S'.solver)) :=
  ⟨exConflict_fsOk, first_symmetry_has_symmetry exConflict exConflict_fsOk⟩

/-! ## The final analysis on the example with the clause `(not x0, x1)` -/

/-- Instance of C24: after the decision `x0` and the propagation of `x1`, the final analysis
of `x1` gives `[x1, not x0]`. -/
theorem analyzeFinal_spec_witness :
    TrailInv exSymProp.sym.solver ∧ ReasonInv exSymProp.sym.solver ∧
    (∀ v, exSymProp.sym.solver.seen v = 0) ∧
    exSymProp.sym.solver.assigns (var 2) ≠ l_Undef ∧
    (analyzeFinal exSymProp.sym.solver 2).map Solver.conflict = some [2, 1] ∧
    ∃ ds : List Lit, analyzeFinal exSymProp.sym.solver 2 =
        some (setConflict exSymProp.sym.solver (2 :: ds.map neg)) ∧
      (∀ v, (setConflict exSymProp.sym.solver (2 :: ds.map neg)).seen v = 0) ∧
      ds.Sublist exSymProp.sym.solver.trail.reverse ∧ ds.Nodup ∧
      (∀ d, d ∈ ds ↔ d ∈ exSymProp.sym.solver.trail ∧
        reason exSymProp.sym.solver (var d) = none ∧
        0 < level exSymProp.sym.solver (var d) ∧
        Reach exSymProp.sym.solver (var 2) (var d)) ∧
      (decisionLevel exSymProp.sym.solver = 0 → ds = []) :=
  ⟨exSymProp_inv.tr, exSymProp_inv.ax.rs, exSymProp_inv.ax.vr.seen0, by decide!, by decide!,
   analyzeFinal_spec exSymProp.sym.solver 2 exSymProp_inv.tr exSymProp_inv.ax.rs
     exSymProp_inv.ax.vr.seen0 (by decide!)⟩

/-! ## The failed assumption on the example with the clauses `(x0, x1)`, `(not x0, x2)`,
`(not x2)` and the assumptions `not x1`, `not x2` -/

theorem exAssume_inv : Inv exAssume := by
  have h0 : Inv (exAdd (exVars 3) [[0, 2]]) :=
    exAdd_one_inv (exVars_inv 3) (by decide!) (by decide!)
  have h1 : Inv (exAdd (exAdd (exVars 3) [[0, 2]]) [[1, 4]]) :=
    exAdd_one_inv h0 (by decide!) (by decide!)
  have h2 : Inv (exAdd (exAdd (exAdd (exVars 3) [[0, 2]]) [[1, 4]]) [[5]]) :=
    exAdd_one_inv h1 (by decide!) (by decide!)
  exact h2.setAssumptions_inv (by decide!) [3, 5]

theorem exAssume_some : (search 5 exAssume (-1)).isSome = true := by decide!

/-- Instance of C8: unit propagation at level 0 makes `x1` true, so the first assumption
`not x1` is false; `search` returns `l_False` with `conflict = [x1]`, and `ok` stays true. -/
theorem failed_assumptions_witness :
    (∀ a ∈ exAssume.assumptions, var a < nVars exAssume) ∧ exAssume.conflict = [] ∧
    (search 5 exAssume (-1)).map (fun r => (r.1, r.2.conflict, r.2.ok)) =
      some (l_False, [2], true) ∧
    FailedAssumption ((search 5 exAssume (-1)).get exAssume_some).2 ∧
    ((search 5 exAssume (-1)).get exAssume_some).2.assumptions = exAssume.assumptions :=
  ⟨by decide!, by decide!, by decide!,
   failed_assumptions 5 exAssume ((search 5 exAssume (-1)).get exAssume_some).2 (-1)
     exAssume_inv (by decide!) (by decide!)
     (eq_some_snd exAssume_some (by decide!))
     (by decide!)⟩

/-! ## `litRedundant` on the example with the clause `(not x0, x1)`, the decision `x0`
marked `seen_source` -/

theorem exRed_acyclic : Acyclic exRed :=
  fun pre l post cr ht hr => (exSymProp_inv.ax.rs pre l post cr ht hr).2.2

theorem exRed_marks : MarksOk exRed := by
  intro v
  have h0 : exSymProp.sym.solver.seen v = 0 := exSymProp_inv.ax.vr.seen0 v
  have hv : exRed.seen v = if v = 0 then 1 else 0 := by
    show Function.update exSymProp.sym.solver.seen 0 1 v = _
    by_cases e : v = 0
    · rw [e, Function.update_same, if_pos rfl]
    · rw [Function.update_noteq e, if_neg e, h0]
  constructor
  · intro e
    rw [hv] at e
    split_ifs at e
    cases e
  · intro e
    rw [hv] at e
    split_ifs at e
    cases e

/-- Instance of C23: the reason clause of `x1` is `(x1, not x0)` and `x0` is marked
`seen_source`, so `litRedundant(not x1)` returns `true`. -/
theorem litRedundant_refines_witness :
    Acyclic exRed ∧ (∃ m ∈ exRed.trail, var m = var 3) ∧ reason exRed (var 3) ≠ none ∧
    (exRed.seen (var 3) = 0 ∨ exRed.seen (var 3) = 1) ∧ MarksOk exRed ∧
    (litRedundant 10 exRed 3).map Prod.fst = some true ∧
    ∃ (n : Nat) (b : Bool) (t : Solver),
      (∀ fuel, n ≤ fuel → litRedundant fuel exRed 3 = some (b, t)) ∧
      (b = true ↔ SpecRedundant exRed (var 3)) ∧
      MarksOk t ∧ (∀ v, SpecRedundant t v ↔ SpecRedundant exRed v) ∧
      (∀ v, SpecRedundant exRed v ↔ ∃ cr, reason exRed v = some cr ∧
        ∀ l ∈ (exRed.ca.cl cr).lits.drop 1, level exRed (var l) = 0 ∨
          exRed.seen (var l) = 1 ∨ exRed.seen (var l) = 2 ∨ SpecRedundant exRed (var l)) :=
  ⟨exRed_acyclic, by decide!, by decide!, by decide!, exRed_marks, by decide!,
   litRedundant_refines exRed 3 exRed_acyclic (by decide!) (by decide!) (by decide!)
     exRed_marks⟩

/-! ## The model of the instance with the single clause `(x0, x1)` -/

theorem exVars_built : ∀ n, Built (exVars n) []
  | 0 => Built.init
  | n + 1 => Built.var (exVars n) [] l_Undef (exVars_built n)

theorem exAdd_one_built {s : Solver} {c : List Lit} {cs : List (List Lit)} (hb : Built s cs)
    (hv : ∀ l ∈ c, var l < nVars s) (hsome : (addClause_ 20 s c).isSome = true) :
    Built (exAdd s [c]) (c :: cs) := by
  unfold exAdd
  cases hr : addClause_ 20 s c with
  | none => rw [hr] at hsome; cases hsome
  | some r => exact Built.clause s r.2 cs 20 c r.1 hb hv hr

theorem exSat_built : Built exSat [[0, 2]] :=
  exAdd_one_built (exVars_built 2) (by decide!) (by decide!)

theorem exSat_some : (solve_ 10 exSat).isSome = true := by decide!

/-- Instance of C1: for the single clause `(x0, x1)`, `solve_` returns `l_True` with the
model `x0 = false`, `x1 = true`, under which the literal `x1` of the clause is true. -/
theorem solve_sat_model_witness :
    Built exSat [[0, 2]] ∧
    (solve_ 10 exSat).map (fun r => (r.1, r.2.model)) = some (l_True, [l_False, l_True]) ∧
    modelValue [l_False, l_True] 2 = l_True ∧
    ((solve_ 10 exSat).get exSat_some).2.model.length =
      nVars ((solve_ 10 exSat).get exSat_some).2 ∧
    (∀ x ∈ ((solve_ 10 exSat).get exSat_some).2.model, x ≠ l_Undef) ∧
    ∀ c ∈ [[0, 2]], ∃ l ∈ c,
      modelValue ((solve_ 10 exSat).get exSat_some).2.model l = l_True :=
  ⟨exSat_built, by decide!, by decide!,
   solve_sat_model 10 exSat ((solve_ 10 exSat).get exSat_some).2 [[0, 2]] exSat_built
     (eq_some_snd exSat_some (by decide!))⟩

end Minisat


namespace Minisat
open lbool

set_option maxHeartbeats 1000000

/-! ## The comparison of `reduceDB` on the two clauses of the conflict example -/

/-- Instance of C39 on the two ternary clauses (references 0 and 4) of the conflict example,
both with activity 0. -/
theorem reduceDB_lt_strict_weak_witness :
    2 ≤ (exConflict.ca.cl 0).size ∧ 2 ≤ (exConflict.ca.cl 4).size ∧
    reduceDB_lt exConflict.ca 0 0 = false ∧
    (reduceDB_lt exConflict.ca 0 4 = true → reduceDB_lt exConflict.ca 4 0 = true →
      reduceDB_lt exConflict.ca 0 0 = true) ∧
    (reduceDB_lt exConflict.ca 0 4 = false → reduceDB_lt exConflict.ca 4 0 = false →
      reduceDB_lt exConflict.ca 4 0 = false → reduceDB_lt exConflict.ca 0 4 = false →
      reduceDB_lt exConflict.ca 0 0 = false ∧ reduceDB_lt exConflict.ca 0 0 = false) ∧
    ((exConflict.ca.cl 0).size > 2 → (exConflict.ca.cl 4).size = 2 →
      reduceDB_lt exConflict.ca 0 4 = true ∧ reduceDB_lt exConflict.ca 4 0 = false) ∧
    ((exConflict.ca.cl 0).size > 2 → (exConflict.ca.cl 4).size > 2 →
      (reduceDB_lt exConflict.ca 0 4 = true ↔
        (exConflict.ca.cl 0).activity < (exConflict.ca.cl 4).activity)) :=
  ⟨by decide!, by decide!,
   reduceDB_lt_strict_weak exConflict.ca 0 4 0 (by decide!) (by decide!) (by decide!)⟩

/-! ## `removeSatisfied` at level 0 -/

theorem exLevel0_inv : Inv exLevel0 :=
  exAdd_one_inv (exAdd_one_inv (exVars_inv 2) (by decide!) (by decide!)) (by decide!)
    (by decide!)

/-- Instance of C31: the clause `(not x0, x1)` is the reason of `x1` and has the true literal
`x1`; `removeSatisfied(clauses)` empties the list, marks the clause, counts its 3 words as
wasted and resets the reason of `x1`. -/
theorem removeSatisfied_spec_witness :
    (∀ cr ∈ exLevel0.clauses, satisfied exLevel0 (exLevel0.ca.cl cr) = true →
      1 < (exLevel0.ca.cl cr).size) ∧
    reason exLevel0 1 = some 0 ∧
    (removeSatisfiedLoop exLevel0 exLevel0.clauses).map
      (fun r => (r.1, (r.2.ca.cl 0).mark, reason r.2 1, r.2.ca.wasted)) =
      some ([], 1, none, 3) ∧
    ∃ r, removeSatisfiedLoop exLevel0 exLevel0.clauses = some r ∧
      r.1 = exLevel0.clauses.filter (fun cr => !satisfied exLevel0 (exLevel0.ca.cl cr)) ∧
      (∀ x, value r.2 x = value exLevel0 x) ∧
      (∀ cr ∈ exLevel0.clauses, satisfied exLevel0 (exLevel0.ca.cl cr) = true →
        (r.2.ca.cl cr).mark = 1 ∧
        r.2.dirty (neg ((exLevel0.ca.cl cr).get 0)) = true ∧
        r.2.dirty (neg ((exLevel0.ca.cl cr).get 1)) = true ∧
        ∀ l ∈ exLevel0.trail, reason exLevel0 (var l) = some cr →
          reason r.2 (var l) = none) ∧
      r.2.ca.wasted = exLevel0.ca.wasted +
        ((exLevel0.clauses.filter (fun cr => satisfied exLevel0 (exLevel0.ca.cl cr))).map
          (fun cr => clauseWord32Size (exLevel0.ca.cl cr).size
            (exLevel0.ca.cl cr).learnt)).sum :=
  ⟨by decide!, by decide!, by decide!,
   removeSatisfied_spec exLevel0 exLevel0.clauses exLevel0_inv.tr exLevel0_inv.ax.rs
     (by decide!)⟩

theorem exTrim_some : (removeSatisfiedLoop exTrim exTrim.clauses).isSome = true := by decide!

/-- Instance of C38: with `x2` false at level 0 the clause `(x0, x1, x2)` is retained and
trimmed to `(x0, x1)`. -/
theorem removeSatisfied_trims_witness :
    (removeSatisfiedLoop exTrim exTrim.clauses).map (fun r => (r.1, (r.2.ca.cl 0).lits)) =
      some ([0], [0, 2]) ∧
    (exTrim.ca.cl 0).lits = [0, 2, 4] ∧
    (∀ i, 2 ≤ i →
      i < (((removeSatisfiedLoop exTrim exTrim.clauses).get exTrim_some).2.ca.cl 0).size →
      value ((removeSatisfiedLoop exTrim exTrim.clauses).get exTrim_some).2
        ((((removeSatisfiedLoop exTrim exTrim.clauses).get exTrim_some).2.ca.cl 0).get i) ≠
        l_False) ∧
    (((removeSatisfiedLoop exTrim exTrim.clauses).get exTrim_some).2.ca.cl 0).get 0 =
      (exTrim.ca.cl 0).get 0 ∧
    (((removeSatisfiedLoop exTrim exTrim.clauses).get exTrim_some).2.ca.cl 0).get 1 =
      (exTrim.ca.cl 0).get 1 ∧
    (∀ x, (((removeSatisfiedLoop exTrim exTrim.clauses).get exTrim_some).2.ca.cl 0).lits.count x
      ≤ (exTrim.ca.cl 0).lits.count x) ∧
    ((exTrim.ca.cl 0).lits.Nodup →
      (((removeSatisfiedLoop exTrim exTrim.clauses).get exTrim_some).2.ca.cl 0).lits.Nodup) ∧
    (∀ x, value exTrim x ≠ l_False →
      (x ∈ (((removeSatisfiedLoop exTrim exTrim.clauses).get exTrim_some).2.ca.cl 0).lits ↔
        x ∈ (exTrim.ca.cl 0).lits)) ∧
    (∀ x, value ((removeSatisfiedLoop exTrim exTrim.clauses).get exTrim_some).2 x =
      value exTrim x) :=
  ⟨by decide!, by decide!,
   removeSatisfied_trims exTrim exTrim.clauses
     ((removeSatisfiedLoop exTrim exTrim.clauses).get exTrim_some)
     (Option.some_get exTrim_some).symm 0 (by decide!)⟩

/-! ## Conflict analysis with minimisation through a symmetry-tagged reason -/

theorem exMin0_inv : Inv exMin0 := by
  have h0 : Inv (exAdd (exVars 4) [[3, 5, 6]]) :=
    exAdd_one_inv (exVars_inv 4) (by decide!) (by decide!)
  have h1 : Inv (exAdd (exAdd (exVars 4) [[3, 5, 6]]) [[1, 5, 7]]) :=
    exAdd_one_inv h0 (by decide!) (by decide!)
  have h2 := exDecide_inv h1 (p := 0) (by decide!) (by decide!) (by decide!)
  exact h2.exProp_inv (by decide!)

theorem exMin1_inv : Inv exMin1 := by
  unfold exMin1
  cases hL : learnClause exMin0 ⟨[2, 1], 1, true, []⟩ 0 with
  | none => exact exMin0_inv
  | some t =>
    simp only
    unfold learnClause at hL
    rw [if_neg (by decide!)] at hL
    dsimp only at hL
    rw [if_pos rfl] at hL
    exact @Inv.learn exMin0 t 2 1 [] (exMin0.ca.cl 0).fsymmetry true (some []) exMin0_inv
      (by decide) (by decide!) (by decide!) (by decide!) (by decide!) hL

theorem exMinSym_inv : Inv exMinSym :=
  exDecide_inv (exMin1_inv.exProp_inv (by decide!)) (by decide!) (by decide!) (by decide!)

theorem exMinSym_prop : propagate 20 exMinSym = some (some 4, exProp exMinSym) := by
  have h1 : (propagate 20 exMinSym).map Prod.fst = some (some 4) := by decide!
  unfold exProp
  cases h : propagate 20 exMinSym with
  | none => rw [h] at h1; cases h1
  | some r =>
    rw [h] at h1
    simp only [Option.map_some', Option.some.injEq] at h1
    simp only
    rw [← h1]

/-- The state at the call of `analyze` in the example. -/
theorem exMinConfl_post :
    TrailInv exMinConfl ∧ ReasonInv exMinConfl ∧ (∀ v, exMinConfl.seen v = 0) ∧
    Falsified exMinConfl 4 ∧ TopLit exMinConfl 4 := by
  obtain ⟨h1, -, -, h4⟩ := propagate_inv exMinSym_inv.tr exMinSym_inv.wt exMinSym_prop
  obtain ⟨-, -, hfal⟩ := h4 4 rfl
  have hax := propagate_aux exMinSym_inv.tr exMinSym_inv.wt exMinSym_inv.ax exMinSym_prop
  have htl := propagate_top exMinSym_inv.tr exMinSym_inv.wt exMinSym_prop 4 rfl
  exact ⟨h1.congr_tr rfl rfl rfl rfl, hax.rs, hax.vr.seen0, hfal, htl⟩

theorem exMinConfl_some : (analyze 20 (setCcminMode exMinConfl 2) 4).isSome = true := by
  decide!

/-- Instance of C34: with `ccmin_mode = 2`, `analyze` marks `a`, `b`, `c` and `d`, calls
`litRedundant` for `not b`, returns the clause `(not c, not a)` and leaves `seen` clear. -/
theorem analyze_restores_seen_witness :
    0 < decisionLevel exMinConfl ∧
    (analyze 20 (setCcminMode exMinConfl 2) 4).map (fun a => a.1.out_learnt) = some [5, 1] ∧
    ∀ v, ((analyze 20 (setCcminMode exMinConfl 2) 4).get exMinConfl_some).2.seen v = 0 :=
  ⟨by decide!, by decide!,
   analyze_restores_seen 20 exMinConfl 2 4 _ exMinConfl_post.1 exMinConfl_post.2.1
     exMinConfl_post.2.2.1 (by decide!) exMinConfl_post.2.2.2.1 exMinConfl_post.2.2.2.2
     (Option.some_get exMinConfl_some).symm⟩

/-- C36, failing input: at level 2 the conflict `(not a, not c, not d)` is found; `b` is
implied at level 1 by the symmetry-tagged learnt clause `(b, not a)` (reference 8).  Without
minimisation `analyze` returns `(not c, not a, not b)`; with `ccmin_mode` 1 or 2 the literal
`not b` is dropped through the reason of `b`, the symmetry-tagged clause, and `out_symmetry`
is false all the same. -/
theorem minimization_misses_symmetry :
    (propagate 20 exMinSym).map Prod.fst = some (some 4) ∧
    reason exMinConfl 1 = some 8 ∧ (exMinConfl.ca.cl 8).lits = [2, 1] ∧
    (exMinConfl.ca.cl 8).symmetry = true ∧
    (analyze 20 (setCcminMode exMinConfl 0) 4).map
      (fun a => (a.1.out_learnt, a.1.out_symmetry)) = some ([5, 1, 3], false) ∧
    (analyze 20 (setCcminMode exMinConfl 1) 4).map
      (fun a => (a.1.out_learnt, a.1.out_symmetry)) = some ([5, 1], false) ∧
    (analyze 20 (setCcminMode exMinConfl 2) 4).map
      (fun a => (a.1.out_learnt, a.1.out_symmetry)) = some ([5, 1], false) := by
  decide!

/-! ## The passes of `propagate` with two symmetries -/

theorem exPass_some : (propagateSym exObjects 10 exPass).isSome = true := by decide!

theorem exPass_lim : LimOk exPass.solver := by
  unfold LimOk
  decide!

/-- Instance of C33: the first pass propagates `x0` and enqueues `x1`, so no symmetry is
visited; in the second pass the head is at the end of the trail, the weakly active loop finds
the symmetry 1 not active and the symmetry 0 without literal, and the weakly inactive loop
calls `propagateSymmetrical` for the symmetry 1 and `x1`, which enqueues `x2`; the third pass
makes no call. -/
theorem propagate_symmetry_order_witness :
    LimOk exPass.solver ∧
    (propagateSym exObjects 10 exPass).map (fun r => r.2.2) =
      some [[],
        [SymEvent.idle exStab12, SymEvent.active exSwap12 none,
          SymEvent.stab exStab12 (some 2), SymEvent.invoke true exStab12 2 2 2 none true],
        [SymEvent.idle exStab12, SymEvent.active exSwap12 none, SymEvent.stab exStab12 none,
          SymEvent.skipped exSwap12]] ∧
    ∀ log ∈ ((propagateSym exObjects 10 exPass).get exPass_some).2.2,
      PassOk exPass.prop.sym.symmetries log :=
  ⟨exPass_lim, by decide!,
   propagate_symmetry_order exObjects 10 exPass
     ((propagateSym exObjects 10 exPass).get exPass_some) exPass_lim
     (Option.some_get exPass_some).symm⟩

/-! ## Released variables -/

theorem exReleaseReuse_released : Released exReleaseReuse :=
  exRelease_released
    (Released.var _ _ _
      (simplify_released (exRelease_released (exVars_released 2) (by decide!))))
    (by decide!)

theorem exReleaseTwice_released : Released exReleaseTwice :=
  exRelease_released
    (exRelease_released (exAdd_released [[0], [1]] (exVars 2) (exVars_released 2))
      (by decide!))
    (by decide!)

/-- Example for `releaseVar_once`: two variables, `releaseVar(x1)`, `simplify`, `newVar` (which
hands out the variable 1 again) and `releaseVar(x1)`: `ok` is true, `released_vars` is `[1]`
and `free_vars` is empty. -/
theorem releaseVar_once_witness :
    Released exReleaseReuse ∧ exReleaseReuse.ok = true ∧
    exReleaseReuse.released_vars = [1] ∧ exReleaseReuse.free_vars = [] ∧
    ((∀ fuel l, value exReleaseReuse l ≠ l_Undef →
        releaseVar fuel exReleaseReuse l = some exReleaseReuse) ∧
     (exReleaseReuse.ok = true → exReleaseReuse.released_vars.Nodup ∧
        ∀ v ∈ exReleaseReuse.released_vars, exReleaseReuse.assigns v ≠ l_Undef) ∧
     (∀ fuel l s', exReleaseReuse.ok = true → value exReleaseReuse l = l_Undef →
        releaseVar fuel exReleaseReuse l = some s' →
        value s' l = l_True ∧
          s'.released_vars = exReleaseReuse.released_vars ++ [var l]) ∧
     (∀ fuel l, exReleaseReuse.ok = false → value exReleaseReuse l = l_Undef →
        releaseVar fuel exReleaseReuse l = some (pushReleased exReleaseReuse (var l)))) :=
  ⟨exReleaseReuse_released, by decide!, by decide!, by decide!,
   releaseVar_once exReleaseReuse exReleaseReuse_released⟩

/-- C35 fails: two variables, the unit clauses `x0` and `not x0` (after which `ok` is false),
and two calls of `releaseVar(x1)`.  In each call `x1` is unassigned, `addClause_` returns at
once without assigning it, and `var(x1)` is pushed: `released_vars` is `[1, 1]`, the same
variable twice, although the test `value(l) == l_Undef` is there to avoid duplicate releases
(lines 165-166). -/
theorem releaseVar_releases_twice :
    Released exReleaseTwice ∧ (exAdd (exVars 2) [[0], [1]]).ok = false ∧
    (exRelease (exAdd (exVars 2) [[0], [1]]) 2).released_vars = [1] ∧
    value (exRelease (exAdd (exVars 2) [[0], [1]]) 2) 2 = l_Undef ∧
    exReleaseTwice.ok = false ∧ value exReleaseTwice 2 = l_Undef ∧
    exReleaseTwice.released_vars = [1, 1] ∧ ¬ exReleaseTwice.released_vars.Nodup :=
  ⟨exReleaseTwice_released, by decide!, by decide!, by decide!, by decide!, by decide!,
   by decide!, by decide!⟩

/-! ## The notifications to the symmetries -/

/-- C37 fails: two variables, the unit clauses `x0` and `x1` and the symmetry 0 that exchanges
`x0` and `x1`, which has the literal `x0` in its `from` array.  When the symmetry is registered
after the clauses, the trail is `[x0, x1]` and `notifyCNFUnits` at the start of `solve_` sends
`notifyEnqueued(x0)` (balance 1); `solve_` returns `l_True` with the same trail, and the
`notifyCNFUnits` of a second `solve_` sends `notifyEnqueued(x0)` again: the balance is 2 with
`x0` on the trail.  When the symmetry is registered before the clauses, the enqueue of `x0`
by `addClause_` notifies the symmetry and the `notifyCNFUnits` of the first `solve_` notifies
it again: the balance is 2 as well. -/
theorem notifications_unbalanced :
    exNoteUnits.sym.solver.trail = [0, 2] ∧
    (exNoteUnits.sym.watcherSymmetries 0).map Symmetry.id = [0] ∧
    (notifyCNFUnits exNoteUnits).map (fun N => (N.sym.solver.trail, noteBalance N 0 0)) =
      some ([0, 2], 1) ∧
    (solve_ 20 exNoteUnits.sym.solver).map (fun r => (r.1, r.2.trail)) =
      some (l_True, [0, 2]) ∧
    exNoteTwice.map (fun N => (N.sym.solver.trail, N.notes, noteBalance N 0 0)) =
      some ([0, 2], [⟨true, 0, 0⟩, ⟨true, 0, 2⟩, ⟨true, 0, 0⟩, ⟨true, 0, 2⟩], 2) ∧
    (addClause_ 20 (exVars 2) [0]).map (fun r => (r.1, r.2.trail)) = some (true, [0]) ∧
    exNoteLate.map (fun N => (N.sym.solver.trail, N.notes, noteBalance N 0 0)) =
      some ([0, 2], [⟨true, 0, 0⟩, ⟨true, 0, 2⟩, ⟨true, 0, 0⟩, ⟨true, 0, 2⟩], 2) :=
  ⟨by decide!, by decide!, by decide!, by decide!, by decide!, by decide!, by decide!⟩

/-! ## The restart sequence -/

/-- Instance of C17 (amended) at `y = 2`, `x = 14`, where the exponent is 3. -/
theorem luby_spec_witness :
    14 < INT_MAX ∧ luby 2 14 = some 8 ∧
    ((∃ e, luby 2 14 = some ((2 : ℚ) ^ e) ∧ LubyExp 14 e ∧ ∀ e', LubyExp 14 e' → e' = e) ∧
      (List.range 15).map (luby 2) =
        [some 1, some 1, some 2, some 1, some 1, some 2, some 4, some 1, some 1, some 2,
         some 1, some 1, some 2, some 4, some 8]) :=
  ⟨by decide, by decide!, luby_spec 2 14 (by decide)⟩

/-- Counterexample to C17 as stated: at `x = INT_MAX`, which is an `int` and not negative,
the sum `x + 1` in the test of the first loop (line 1318) overflows, and `luby` has no
result. -/
theorem luby_int_max_counterexample :
    luby 2 INT_MAX = none ∧ ¬ ∃ e : Nat, luby 2 INT_MAX = some ((2 : ℚ) ^ e) :=
  ⟨luby_overflow 2 INT_MAX (Nat.le_refl _), fun h => by
    obtain ⟨e, he⟩ := h
    rw [luby_overflow 2 INT_MAX (Nat.le_refl _)] at he
    cases he⟩

end Minisat
